import Mathlib

/-!
# Work-queue engine (`work-queue.c`): shallow embedding and verified properties

Memory is one map from item addresses to `WorkItem` records; a queue object is a
record of its scalar fields plus `head` and `tail` addresses.  The control item
`q->item`, which the C code embeds in the queue struct, lives at the address
`Ptr.ctl q`.  C `int` fields are `Int` (no run of the engine gets near 2^31 items
or references).  A failed `assert` and a NULL dereference are faults, returned
as `Except.error`.  User callbacks are opaque: calling one appends an event to
the engine log.
-/

namespace WQ

/-! ## Data model -/

/-- Address of a `WorkQueue` struct: the two globals `g.concurrent_queue` and
`g.main_queue`, the `n`-th block that `work_queue_new` got from `new`, the
`n`-th block that `work_bucket_new` got.  (An address is not handed out once
for a private queue and later for a bucket.) -/
inductive QId where
  | concurrent
  | main
  | queue (n : Nat)
  | bucket (n : Nat)
  deriving DecidableEq, Repr

/-- Address of a `WorkItem`: the control item embedded in a queue, or a block
returned by `new0(WorkItem, 1)`. -/
inductive Ptr where
  | ctl (q : QId)
  | node (n : Nat)
  deriving DecidableEq, Repr

/-- Function pointers stored in items (`WorkFunc`, `WorkDoneNotify`,
`WorkCancelFunc` all have type `void (*)(void *)`). -/
inductive Fn where
  | user (id : Nat)
  | wq_stop
  | wq_barrier
  | wq_run_bucket
  | set_bool
  | work_queue_free
  deriving DecidableEq, Repr

/-- The `void *data` argument of a callback. -/
inductive Data where
  | null
  | user (n : Nat)
  | queue (q : QId)
  | flag (q : QId)
  deriving DecidableEq, Repr

/-- Record `struct WorkItem`. -/
structure WorkItem where
  work : Option Fn
  notify : Option Fn
  cancel : Option Fn
  data : Data
  next : Option Ptr
  deriving DecidableEq, Repr

/-- Pointer `q->vtable`: `&queue_vtable` or `&bucket_vtable`. -/
inductive VTable where
  | queue
  | bucket
  deriving DecidableEq, Repr

/-- Record `struct WorkQueue` without its embedded control item. -/
structure WorkQueue where
  xref_cnt : Int
  vtable : Option VTable
  maxsize : Int
  n_items : Int
  n_running : Int
  width : Int
  head : Option Ptr
  tail : Option Ptr
  n_threads : Int
  destroy_notify : Option Fn
  context : Data
  deriving DecidableEq, Repr

/-- Ways a run of the C code aborts (`assert_failed`, `null_deref`), does not
finish within the iteration budget (`out_of_fuel`), or, for a step of the
engine, cannot happen in the present state (`disabled`). -/
inductive Fault where
  | assert_failed
  | null_deref
  | out_of_fuel
  | disabled
  deriving DecidableEq, Repr

/-- Callback invocations and `free` calls, in the order they happen. -/
inductive Event where
  | work (f : Fn) (d : Data) (p : Ptr)
  | notify (f : Fn) (d : Data) (p : Ptr)
  | cancel (f : Fn) (d : Data) (p : Ptr)
  | free (p : Ptr)
  | destroy (f : Fn) (d : Data)
  | flush_returned (q : QId) (r : Int)
  | stop_returned (q : QId) (r : Int)
  deriving DecidableEq, Repr

abbrev Heap := Ptr → WorkItem

def EAGAIN : Int := 11
def ENOMEM : Int := 12
def EBUSY : Int := 16
def ECANCELED : Int := 125

def DEFAULT_WORK_QUEUE_WIDTH : Int := 32
def DEFAULT_WORK_QUEUE_MAXSIZE : Int := 65535

/-- All-zero item, as left by `new0` and `zero(q->item)`. -/
def WorkItem.zero : WorkItem :=
  { work := none, notify := none, cancel := none, data := Data.null, next := none }

/-- All-zero queue, as left by `zero(*q)`. -/
def WorkQueue.zero : WorkQueue :=
  { xref_cnt := 0, vtable := none, maxsize := 0, n_items := 0, n_running := 0, width := 0,
    head := none, tail := none, n_threads := 0, destroy_notify := none, context := Data.null }

def work_item_is_stop (it : WorkItem) : Bool := it.work = some Fn.wq_stop

def work_item_is_barrier (it : WorkItem) : Bool := it.work = some Fn.wq_barrier

def work_item_is_static (it : WorkItem) : Bool :=
  work_item_is_stop it || work_item_is_barrier it

/-- An item without its link field. -/
def payload (it : WorkItem) : WorkItem := { it with next := none }

/-! ## List primitives on one queue -/

/-- Source `_work_queue_drain_one_unlocked`: pops the head item. -/
def _work_queue_drain_one_unlocked (h : Heap) (Q : WorkQueue) :
    Except Fault (Option Ptr × Heap × WorkQueue) :=
  match Q.head with
  | none => .ok (none, h, Q)
  | some item =>
    match (h item).next with
    | none =>
      if Q.n_items = 1 then
        .ok (some item, Function.update h item { h item with next := none },
             { Q with head := none, tail := none, n_items := Q.n_items - 1 })
      else .error Fault.assert_failed
    | some nx =>
      .ok (some item, Function.update h item { h item with next := none },
           { Q with head := some nx, n_items := Q.n_items - 1 })

/-- Source `_work_queue_add_tail_unlocked`: links `item` after the tail. -/
def _work_queue_add_tail_unlocked (h : Heap) (Q : WorkQueue) (item : Ptr) :
    Heap × WorkQueue :=
  let h1 := Function.update h item { h item with next := none }
  match Q.tail with
  | some t =>
    (Function.update h1 t { h1 t with next := some item },
     { Q with tail := some item, n_items := Q.n_items + 1 })
  | none =>
    (h1, { Q with head := some item, tail := some item, n_items := Q.n_items + 1 })

/-- A link: the location of a `WorkItem *` that chains the list, either
`&q->head` or `&prev->next`. -/
inductive Link where
  | head
  | next (prev : Ptr)
  deriving DecidableEq, Repr

/-- Reads `*l`. -/
def Link.get (h : Heap) (Q : WorkQueue) : Link → Option Ptr
  | Link.head => Q.head
  | Link.next p => (h p).next

/-- Writes `*l = v`. -/
def Link.set (h : Heap) (Q : WorkQueue) (v : Option Ptr) : Link → Heap × WorkQueue
  | Link.head => (h, { Q with head := v })
  | Link.next p => (Function.update h p { h p with next := v }, Q)

/-- Source `_work_queue_unlink_one_unlocked`: unlinks the item `*link_start`. -/
def _work_queue_unlink_one_unlocked (h : Heap) (Q : WorkQueue) (link_start : Link) :
    Option Ptr × Heap × WorkQueue :=
  match link_start.get h Q with
  | none => (none, h, Q)
  | some item =>
    let (h1, Q1) := link_start.set h Q (h item).next
    let h2 := Function.update h1 item { h1 item with next := none }
    let Q2 := { Q1 with n_items := Q1.n_items - 1 }
    if Q2.tail = some item then
      (some item, h2, { Q2 with tail := link_start.get h2 Q2 })
    else (some item, h2, Q2)

/-- The scan `for (l = &q->head; *l && work_item_is_static(*l); l = &(*l)->next)`
of `_work_queue_add_unlocked`; `fuel` bounds the number of iterations. -/
def scan_normal (h : Heap) (Q : WorkQueue) : Nat → Link → Link
  | 0, l => l
  | fuel + 1, l =>
    match l.get h Q with
    | none => l
    | some p => if work_item_is_static (h p) then scan_normal h Q fuel (Link.next p) else l

/-- Addresses reached by following `next` from `x`, at most `fuel` of them. -/
def walk (h : Heap) : Nat → Option Ptr → List Ptr
  | 0, _ => []
  | _, none => []
  | fuel + 1, some p => p :: walk h fuel (h p).next

/-! ## Engine state -/

/-- Where a worker thread of a thread-backed queue stands.  `wait`: not holding
the queue lock (just created, or blocked on the condition variable);
`exec p`: running the work of `p` with the lock released; `fin`: done with
`work_item_execute`, about to re-take the lock; `runner r b stop`: inside
`__wq_run_bucket` for the bucket at `QId.bucket b` (runner item `r`), about to
take the lock of the bucket, with the local variable `stop`;
`runner_exec r b p`: inside the runner, running the work of `p`;
`runner_fin r`: `__wq_run_bucket` has returned into `work_item_execute`. -/
inductive Pc where
  | wait
  | exec (p : Ptr)
  | fin
  | runner (r : Ptr) (b : Nat) (stop : Bool)
  | runner_exec (r : Ptr) (b : Nat) (p : Ptr)
  | runner_fin (r : Ptr)
  deriving DecidableEq, Repr

/-- Progress of the `work_queue_flush` / `work_queue_stop` call on a queue.
`in_stop` tells that the flush runs on behalf of `work_queue_stop`;
`stop_body r`: the flush inside `work_queue_stop` has returned `r`. -/
inductive CtlPc where
  | idle
  | flush_loop (in_stop : Bool)
  | flush_wait (in_stop : Bool)
  | stop_body (r : Int)
  | stop_wait
  deriving DecidableEq, Repr

/-- Results of the calls into the C library that one API call makes, and the
iteration budget of its eviction scan. -/
structure Env where
  alloc : Option Ptr
  runner : Option Ptr
  thread_create : Int
  fuel : Nat
  deriving DecidableEq, Repr

/-- Whole engine: memory, the queue objects, the threads, and the global `g`.
`main_stack` lists the items whose notifier is running inside (nested) calls
of `work_queue_run_main_queue`, innermost first; `flags q` is the local
variable `barrier_reached` or `stopped` of the flush or stop call on `q`;
`log` records callback invocations; item blocks at `Ptr.node n` with
`n < brk` have been handed out by `new0`. -/
structure Engine where
  heap : Heap
  queues : QId → WorkQueue
  threads : QId → List Pc
  main_stack : List Ptr
  flags : QId → Bool
  ctl : QId → CtlPc
  private_queues : List QId
  buckets : List QId
  initialized : Bool
  log : List Event
  brk : Nat

/-- State of the process before any call: static storage is zero. -/
def Engine.boot : Engine :=
  { heap := fun _ => WorkItem.zero, queues := fun _ => WorkQueue.zero,
    threads := fun _ => [], main_stack := [], flags := fun _ => false,
    ctl := fun _ => CtlPc.idle, private_queues := [], buckets := [],
    initialized := false, log := [], brk := 0 }

def Engine.setQ (s : Engine) (q : QId) (Q : WorkQueue) : Engine :=
  { s with queues := Function.update s.queues q Q }

def Engine.setItem (s : Engine) (p : Ptr) (it : WorkItem) : Engine :=
  { s with heap := Function.update s.heap p it }

def Engine.emit (s : Engine) (e : Event) : Engine :=
  { s with log := s.log ++ [e] }

/-- Source `free(item)`. -/
def Engine.free (s : Engine) (p : Ptr) : Engine := s.emit (Event.free p)

/-! ## Adding items -/

/-- Source `_more_thread_unlocked`; `env.thread_create` is what
`pthread_create` returns. -/
def _more_thread_unlocked (env : Env) (s : Engine) (q : QId) : Int × Engine :=
  let Q := s.queues q
  let n_threads := Q.n_threads
  let more_thread : Bool :=
    decide (n_threads < Q.width) && decide (n_threads - Q.n_running < Q.n_items + 1)
  if n_threads = 0 ∨ more_thread = true then
    let r := - env.thread_create
    if r < 0 then
      if n_threads = 0 then (r, s) else (0, s)
    else
      (1, { s with queues := Function.update s.queues q { Q with n_threads := Q.n_threads + 1 },
                   threads := Function.update s.threads q (Pc.wait :: s.threads q) })
  else (1, s)

/-- Lines `if (tmp->cancel) tmp->cancel(tmp->data); free(tmp);` of
`_work_queue_add_unlocked` for the evicted item `c`: the call of its cancel
callback, if it has one, then `free`. -/
def evict_events (h : Heap) (c : Ptr) : List Event :=
  (match (h c).cancel with
   | some f => [Event.cancel f (h c).data c]
   | none => []) ++ [Event.free c]

/-- The block `if (full) { ... }` of `_work_queue_add_unlocked`: find the first
item that is neither a barrier nor a stop item, unlink it, call its cancel
callback, free it; the value is the new `r`. -/
def evict_one (env : Env) (s : Engine) (q : QId) : Except Fault (Int × Engine) :=
  let l := scan_normal s.heap (s.queues q) env.fuel Link.head
  match l.get s.heap (s.queues q) with
  | some c =>
    if work_item_is_static (s.heap c) then .error Fault.out_of_fuel
    else
      let (_, h2, Q2) := _work_queue_unlink_one_unlocked s.heap (s.queues q) l
      .ok (1, { s with heap := h2, queues := Function.update s.queues q Q2,
                       log := s.log ++ evict_events h2 c })
  | none => .error Fault.null_deref

/-- Body of `_work_queue_add_unlocked`, with the `prepare_executive` dispatch
passed in as `prepare`. -/
def add_unlocked_with (prepare : Engine → QId → Except Fault (Int × Engine))
    (env : Env) (s : Engine) (q : QId) (item : Ptr) (do_rewind impose_maxsize : Bool) :
    Except Fault (Int × Engine) :=
  let full : Bool := impose_maxsize && decide ((s.queues q).n_items ≥ (s.queues q).maxsize)
  if full && !do_rewind then .ok (-EAGAIN, s)
  else
    match prepare s q with
    | .error f => .error f
    | .ok (r0, s1) =>
      if r0 < 0 then .ok (r0, s1)
      else
        match (if full then evict_one env s1 q else .ok (0, s1)) with
        | .error f => .error f
        | .ok (r, s4) =>
          let (h5, Q5) := _work_queue_add_tail_unlocked s4.heap (s4.queues q) item
          .ok (r, { s4 with heap := h5, queues := Function.update s4.queues q Q5 })

/-- Source `prepare_executive_queue`. -/
def prepare_executive_queue (env : Env) (s : Engine) (q : QId) : Int × Engine :=
  _more_thread_unlocked env s q

/-- The `prepare_executive` dispatch of the add that `prepare_executive_bucket`
makes on the shared pool.  The pool holds `&queue_vtable` from
`init_global_once` on; were it a bucket below its width, the C code would
recurse on the same state without end. -/
def prepare_executive_pool (env : Env) (s : Engine) (q : QId) :
    Except Fault (Int × Engine) :=
  match (s.queues q).vtable with
  | none => .error Fault.null_deref
  | some VTable.queue => .ok (prepare_executive_queue env s q)
  | some VTable.bucket =>
    if (s.queues q).n_running ≥ (s.queues q).width then .ok (0, s)
    else .error Fault.out_of_fuel

/-- The runner item that `prepare_executive_bucket` fills in after `new0`. -/
def runner_item (b : QId) : WorkItem :=
  { work := some Fn.wq_run_bucket, notify := none, cancel := none, data := Data.queue b,
    next := none }

/-- Source `prepare_executive_bucket`; `env.runner` is what `new0` returns for
the runner item. -/
def prepare_executive_bucket (env : Env) (s : Engine) (b : QId) :
    Except Fault (Int × Engine) :=
  if (s.queues b).n_running ≥ (s.queues b).width then .ok (0, s)
  else
    match env.runner with
    | none => .ok (-ENOMEM, s)
    | some exc_item =>
      let s1 := s.setItem exc_item (runner_item b)
      match add_unlocked_with (prepare_executive_pool env) env s1 QId.concurrent exc_item
          false false with
      | .error f => .error f
      | .ok (r, s2) =>
        if r < 0 then .ok (r, s2.free exc_item)
        else .ok (0, s2.setQ b { s2.queues b with n_running := (s2.queues b).n_running + 1 })

/-- The call `q->vtable->prepare_executive(q)`; both vtables define it. -/
def prepare_executive (env : Env) (s : Engine) (q : QId) : Except Fault (Int × Engine) :=
  match (s.queues q).vtable with
  | none => .error Fault.null_deref
  | some VTable.queue => .ok (prepare_executive_queue env s q)
  | some VTable.bucket => prepare_executive_bucket env s q

/-- Source `_work_queue_add_unlocked`. -/
def _work_queue_add_unlocked (env : Env) (s : Engine) (q : QId) (item : Ptr)
    (do_rewind impose_maxsize : Bool) : Except Fault (Int × Engine) :=
  add_unlocked_with (prepare_executive env) env s q item do_rewind impose_maxsize

/-- Source `_work_queue_add`: `_work_queue_add_unlocked` under the queue mutex. -/
def _work_queue_add (env : Env) (s : Engine) (q : QId) (item : Ptr)
    (do_rewind impose_maxsize : Bool) : Except Fault (Int × Engine) :=
  _work_queue_add_unlocked env s q item do_rewind impose_maxsize

/-- Source `_work_queue_init`, for a queue struct at address `q`. -/
def _work_queue_init (s : Engine) (q : QId) (vtable : VTable) : Engine :=
  (s.setItem (Ptr.ctl q) WorkItem.zero).setQ q
    { WorkQueue.zero with vtable := some vtable, xref_cnt := 1 }

/-- Source `init_global_once` (the pthread initialisers succeed). -/
def init_global_once (s : Engine) : Engine :=
  if s.initialized then s
  else
    let s1 := _work_queue_init s QId.concurrent VTable.queue
    let s2 := _work_queue_init s1 QId.main VTable.queue
    let C := s2.queues QId.concurrent
    let s3 := s2.setQ QId.concurrent
      { C with maxsize := DEFAULT_WORK_QUEUE_MAXSIZE, width := DEFAULT_WORK_QUEUE_WIDTH }
    let M := s3.queues QId.main
    let s4 := s3.setQ QId.main
      { M with maxsize := DEFAULT_WORK_QUEUE_MAXSIZE, width := 1, n_threads := 1 }
    { s4 with private_queues := [], buckets := [], initialized := true }

/-- Source `work_queue_new`; `n` is the address `new(WorkQueue, 1)` returned. -/
def work_queue_new (s : Engine) (n : Nat) (maxsize : Int) : Except Fault Engine :=
  if maxsize > 0 then
    let s1 := init_global_once s
    let s2 := _work_queue_init s1 (QId.queue n) VTable.queue
    let s3 := s2.setQ (QId.queue n) { s2.queues (QId.queue n) with maxsize := maxsize, width := 1 }
    .ok { s3 with private_queues := QId.queue n :: s3.private_queues }
  else .error Fault.assert_failed

/-- Source `work_bucket_new`; `n` is the address `new(WorkQueue, 1)` returned. -/
def work_bucket_new (s : Engine) (n : Nat) (maxsize width : Int) : Except Fault Engine :=
  if maxsize > 0 then
    if width > 0 then
      let s1 := init_global_once s
      let s2 := _work_queue_init s1 (QId.bucket n) VTable.bucket
      let s3 := s2.setQ (QId.bucket n)
        { s2.queues (QId.bucket n) with maxsize := maxsize, width := width }
      .ok { s3 with buckets := QId.bucket n :: s3.buckets }
    else .error Fault.assert_failed
  else .error Fault.assert_failed

/-- Source `work_queue_ref`. -/
def work_queue_ref (s : Engine) (q : QId) : Except Fault Engine :=
  if q = QId.concurrent ∨ q = QId.main then .ok s
  else if (s.queues q).xref_cnt > 0 then
    .ok (s.setQ q { s.queues q with xref_cnt := (s.queues q).xref_cnt + 1 })
  else .error Fault.assert_failed

/-- Source `work_queue_unref`. -/
def work_queue_unref (env : Env) (s : Engine) (q : QId) : Except Fault Engine :=
  if q = QId.concurrent ∨ q = QId.main then .ok s
  else if (s.queues q).xref_cnt > 0 then
    let s1 := s.setQ q { s.queues q with xref_cnt := (s.queues q).xref_cnt - 1 }
    if (s1.queues q).xref_cnt = 0 then
      if (s1.heap (Ptr.ctl q)).work = none then
        let s2 := s1.setItem (Ptr.ctl q)
          { work := some Fn.wq_stop, data := Data.queue q, notify := some Fn.work_queue_free,
            next := none, cancel := (s1.heap (Ptr.ctl q)).cancel }
        match _work_queue_add env s2 q (Ptr.ctl q) false false with
        | .error f => .error f
        | .ok (_, s3) => .ok s3
      else .error Fault.assert_failed
    else .ok s1
  else .error Fault.assert_failed

/-- Shared body of `work_queue_add` and `work_queue_add_rewind` after their
assertions: take a reference, allocate and fill the item, add it, drop the
reference.  The callbacks are functions of the caller (the engine's own
`__wq_stop`, `__wq_barrier`, ... are `static`), named by a number. -/
def add_item (env : Env) (s : Engine) (q : QId) (do_rewind : Bool)
    (work : Nat) (notify cancel : Option Nat) (data : Data) : Except Fault (Int × Engine) :=
  match work_queue_ref s q with
  | .error f => .error f
  | .ok s1 =>
    let res : Except Fault (Int × Engine) :=
      match env.alloc with
      | none => .ok (-ENOMEM, s1)
      | some item =>
        let s2 := s1.setItem item
          { work := some (Fn.user work), notify := notify.map Fn.user,
            cancel := cancel.map Fn.user, data := data, next := none }
        match _work_queue_add env s2 q item do_rewind true with
        | .error f => .error f
        | .ok (r, s3) => if r < 0 then .ok (r, s3.free item) else .ok (r, s3)
    match res with
    | .error f => .error f
    | .ok (r, s4) =>
      match work_queue_unref env s4 q with
      | .error f => .error f
      | .ok s5 => .ok (r, s5)

/-- Source `work_queue_add`; `q = none` is the NULL queue argument and
`work = none` a NULL work function. -/
def work_queue_add (env : Env) (s : Engine) (q : Option QId)
    (work notify cancel : Option Nat) (data : Data) : Except Fault (Int × Engine) :=
  match work with
  | none => .error Fault.assert_failed
  | some w =>
    match q with
    | none => add_item env (init_global_once s) QId.concurrent false w notify cancel data
    | some q => add_item env s q false w notify cancel data

/-- Source `work_queue_add_rewind`. -/
def work_queue_add_rewind (env : Env) (s : Engine) (q : Option QId)
    (work notify cancel : Option Nat) (data : Data) : Except Fault (Int × Engine) :=
  match work with
  | none => .error Fault.assert_failed
  | some w =>
    match q with
    | none => .error Fault.assert_failed
    | some q =>
      if q = QId.concurrent ∨ q = QId.main then .error Fault.assert_failed
      else add_item env s q true w notify cancel data

/-- One call of `work_queue_add` or `work_queue_add_rewind`: the arguments and
what the C library answers during the call. -/
structure Submission where
  env : Env
  work : Nat
  notify : Option Nat
  cancel : Option Nat
  data : Data
  deriving DecidableEq, Repr

/-- The item that a submission fills in. -/
def Submission.item (x : Submission) : WorkItem :=
  { work := some (Fn.user x.work), notify := x.notify.map Fn.user,
    cancel := x.cancel.map Fn.user, data := x.data, next := none }

/-- Calls `work_queue_add` (or `work_queue_add_rewind` when `rewind`) on `q` once
per submission, with nothing else running in between, and collects the
return values. -/
def submit_all (rewind : Bool) (q : QId) : Engine → List Submission →
    Except Fault (List Int × Engine)
  | s, [] => .ok ([], s)
  | s, x :: xs =>
    match (if rewind then work_queue_add_rewind x.env s (some q) (some x.work) x.notify x.cancel x.data
           else work_queue_add x.env s (some q) (some x.work) x.notify x.cancel x.data) with
    | .error f => .error f
    | .ok (r, s1) =>
      match submit_all rewind q s1 xs with
      | .error f => .error f
      | .ok (rs, s2) => .ok (r :: rs, s2)

/-! ## Specification vocabulary -/

/-- Chain `x -> l[0] -> l[1] -> ... -> NULL` in memory `h`. -/
def Lseg (h : Heap) : Option Ptr → List Ptr → Prop
  | x, [] => x = none
  | x, p :: l => x = some p ∧ Lseg h (h p).next l

/-- Whether memory holds the chain can be computed. -/
def Lseg.dec (h : Heap) : (x : Option Ptr) → (l : List Ptr) → Decidable (Lseg h x l)
  | x, [] => inferInstanceAs (Decidable (x = none))
  | x, p :: l => @instDecidableAnd _ _ (inferInstanceAs (Decidable (x = some p)))
      (Lseg.dec h (h p).next l)

instance (h : Heap) (x : Option Ptr) (l : List Ptr) : Decidable (Lseg h x l) := Lseg.dec h x l

/-- Queue `Q` holds exactly the items `l`, in order: `head` starts the chain,
`tail` is its last node, `n_items` its length, and no node occurs twice. -/
structure Chain (h : Heap) (Q : WorkQueue) (l : List Ptr) : Prop where
  seg : Lseg h Q.head l
  tail : Q.tail = l.getLast?
  count : Q.n_items = l.length
  nodup : l.Nodup

/-- Appends the items `ps` one after the other with
`_work_queue_add_tail_unlocked`. -/
def add_tail_many (h : Heap) (Q : WorkQueue) : List Ptr → Heap × WorkQueue
  | [] => (h, Q)
  | p :: ps =>
    add_tail_many (_work_queue_add_tail_unlocked h Q p).1
      (_work_queue_add_tail_unlocked h Q p).2 ps

/-- Calls `_work_queue_drain_one_unlocked` `n` times in a row and collects what
the calls return. -/
def drain_many (h : Heap) (Q : WorkQueue) : Nat → Except Fault (List (Option Ptr) × Heap × WorkQueue)
  | 0 => .ok ([], h, Q)
  | n + 1 =>
    match _work_queue_drain_one_unlocked h Q with
    | .error f => .error f
    | .ok (r, h1, Q1) =>
      match drain_many h1 Q1 n with
      | .error f => .error f
      | .ok (rs, h2, Q2) => .ok (r :: rs, h2, Q2)

/-- Facts about a queue that no add changes and that make adds succeed. -/
structure Callable (s : Engine) (q : QId) : Prop where
  ne_conc : q ≠ QId.concurrent
  ne_main : q ≠ QId.main
  xref : 0 < (s.queues q).xref_cnt
  vtable : (s.queues q).vtable ≠ none
  pool : (s.queues QId.concurrent).vtable = some VTable.queue

/-- The C library calls of an add succeed: `new0` returns `item` for the item
and some block for a runner, `pthread_create` returns 0. -/
structure EnvOk (env : Env) (item : Ptr) : Prop where
  alloc : env.alloc = some item
  runner : env.runner ≠ none
  thread : env.thread_create = 0

/-- The cancel callbacks invoked in a log, with their arguments, in order. -/
def cancel_calls : List Event → List (Fn × Data)
  | [] => []
  | Event.cancel f d _ :: es => (f, d) :: cancel_calls es
  | _ :: es => cancel_calls es

/-- Source `_work_queue_free`, the notifier of the stop item queued by the last
`work_queue_unref`. -/
def _work_queue_free (s : Engine) (q : QId) : Except Fault Engine :=
  let Q := s.queues q
  if q = QId.concurrent ∨ q = QId.main then .error Fault.assert_failed
  else if Q.xref_cnt ≠ 0 then .error Fault.assert_failed
  else if Q.vtable = some VTable.queue ∧ Q.n_threads ≠ 0 then .error Fault.assert_failed
  else if Q.vtable = some VTable.bucket ∧ Q.n_running ≠ 0 then .error Fault.assert_failed
  else
    let s1 := { s with
      private_queues :=
        if Q.vtable = some VTable.queue then s.private_queues.erase q else s.private_queues,
      buckets := if Q.vtable = some VTable.bucket then s.buckets.erase q else s.buckets }
    let s2 := (s1.setQ q WorkQueue.zero).setItem (Ptr.ctl q) WorkItem.zero
    .ok { s2 with log := s2.log ++
            (match Q.destroy_notify with
             | some f => [Event.destroy f Q.context]
             | none => []) }

/-- What running the function `f` on `d` does to the engine.  Functions of the
caller are opaque.  `__wq_stop` and `__wq_barrier` have empty bodies.  The body
of `__wq_run_bucket` runs as thread steps (`Step.runner_enter` and the
following), not here. -/
def call_fn (s : Engine) (f : Fn) (d : Data) : Except Fault Engine :=
  match f, d with
  | Fn.set_bool, Data.flag q => .ok { s with flags := Function.update s.flags q true }
  | Fn.work_queue_free, Data.queue q => _work_queue_free s q
  | _, _ => .ok s

/-- The part of `work_item_execute (item, false)` after `item->work` has
returned: forward the item to the main queue when it has a notifier, else
free it unless it is a barrier or stop item. -/
def work_item_finish (env : Env) (s : Engine) (item : Ptr) (need_free : Bool) :
    Except Fault Engine :=
  if (s.heap item).notify.isSome then
    match _work_queue_add env s QId.main item false false with
    | .error f => .error f
    | .ok (r, s1) => if r = 0 then .ok s1 else .error Fault.assert_failed
  else .ok { s with log := s.log ++ (if need_free then [Event.free item] else []) }

/-- Source `work_item_execute`. -/
def work_item_execute (env : Env) (s : Engine) (item : Ptr) (do_notify : Bool) :
    Except Fault Engine :=
  let it := s.heap item
  let need_free := !work_item_is_static it
  if do_notify then
    match it.notify with
    | none => .error Fault.null_deref
    | some f =>
      match call_fn (s.emit (Event.notify f it.data item)) f it.data with
      | .error e => .error e
      | .ok s1 => .ok { s1 with log := s1.log ++ (if need_free then [Event.free item] else []) }
  else
    match it.work with
    | none => .error Fault.null_deref
    | some f =>
      match call_fn (s.emit (Event.work f it.data item)) f it.data with
      | .error e => .error e
      | .ok s1 => work_item_finish env s1 item need_free

/-- How the locked part of `work_queue_run_unlocked` ends: the function
returns `r`, or it has taken the user item `p` off the queue and releases the
lock to run it. -/
inductive Ran where
  | ret (r : Int)
  | took (p : Ptr)
  deriving DecidableEq, Repr

/-- Source `work_queue_run_unlocked` from the last evaluation of its `while`
test (no further wait) to the point where it returns or unlocks the queue. -/
def run_begin (env : Env) (s : Engine) (q : QId) : Except Fault (Ran × Engine) :=
  let Q := s.queues q
  let is_main_queue : Bool := decide (q = QId.main)
  match Q.head with
  | none => .ok (Ran.ret (-EAGAIN), s)
  | some hd =>
    if work_item_is_barrier (s.heap hd) && decide (Q.n_running > 0) then
      .ok (Ran.ret (-EBUSY), s)
    else if work_item_is_stop (s.heap hd) then
      if Q.n_threads > 1 then .ok (Ran.ret (-ECANCELED), s)
      else
        match _work_queue_drain_one_unlocked s.heap Q with
        | .error f => .error f
        | .ok (_, h1, Q1) =>
          match work_item_execute env { s with heap := h1, queues := Function.update s.queues q Q1 }
              hd is_main_queue with
          | .error f => .error f
          | .ok s2 => .ok (Ran.ret (-ECANCELED), s2)
    else if work_item_is_barrier (s.heap hd) then
      match _work_queue_drain_one_unlocked s.heap Q with
      | .error f => .error f
      | .ok (_, h1, Q1) =>
        match work_item_execute env { s with heap := h1, queues := Function.update s.queues q Q1 }
            hd is_main_queue with
        | .error f => .error f
        | .ok s2 => .ok (Ran.ret 0, s2)
    else
      match _work_queue_drain_one_unlocked s.heap Q with
      | .error f => .error f
      | .ok (_, h1, Q1) =>
        .ok (Ran.took hd,
          { s with heap := h1,
                   queues := Function.update s.queues q { Q1 with n_running := Q1.n_running + 1 } })

/-- Source `work_queue_run_unlocked` from the unlock on: run the item, re-take
the lock, `n_running--`. -/
def run_end (env : Env) (s : Engine) (q : QId) (p : Ptr) : Except Fault Engine :=
  match work_item_execute env s p (decide (q = QId.main)) with
  | .error f => .error f
  | .ok s1 => .ok (s1.setQ q { s1.queues q with n_running := (s1.queues q).n_running - 1 })

/-- Source `work_queue_run_unlocked` with `timeout = 0`, run without
interruption. -/
def work_queue_run_unlocked (env : Env) (s : Engine) (q : QId) : Except Fault (Int × Engine) :=
  match run_begin env s q with
  | .error f => .error f
  | .ok (Ran.ret r, s1) => .ok (r, s1)
  | .ok (Ran.took p, s1) =>
    match run_end env s1 q p with
    | .error f => .error f
    | .ok s2 => .ok (0, s2)

/-- Source `work_queue_run_main_queue` with `timeout = 0`. -/
def work_queue_run_main_queue (env : Env) (s : Engine) : Except Fault (Int × Engine) :=
  work_queue_run_unlocked env s QId.main

/-- Calls `work_queue_run_main_queue (0)` `n` times in a row and collects the
return values. -/
def run_main_many (env : Env) : Engine → Nat → Except Fault (List Int × Engine)
  | s, 0 => .ok ([], s)
  | s, n + 1 =>
    match work_queue_run_main_queue env s with
    | .error f => .error f
    | .ok (r, s1) =>
      match run_main_many env s1 n with
      | .error f => .error f
      | .ok (rs, s2) => .ok (r :: rs, s2)

/-- Main-queue contents that `k` calls consume one by one: a chain of user
items, each with a notifier of the caller. -/
def UserItems (h : Heap) (l : List Ptr) : Prop :=
  ∀ p ∈ l, work_item_is_static (h p) = false ∧ ∃ f, (h p).notify = some (Fn.user f)

/-! ## Flush and stop, cut at the points where they wait -/

/-- Source `work_queue_set_destroy_notify`. -/
def work_queue_set_destroy_notify (env : Env) (s : Engine) (q : QId)
    (destroy_notify : Option Nat) (context : Data) : Except Fault Engine :=
  match work_queue_ref s q with
  | .error f => .error f
  | .ok s1 =>
    work_queue_unref env
      (s1.setQ q { s1.queues q with destroy_notify := destroy_notify.map Fn.user,
                                    context := context }) q

/-- Source `work_queue_flush` from its entry to the `while (true)`: take a
reference and arm the control item as a barrier.  A NULL argument is the
shared pool, `QId.concurrent`. -/
def flush_begin (s : Engine) (q : QId) (in_stop : Bool) : Except Fault Engine :=
  if q = QId.main then .error Fault.assert_failed
  else
    match work_queue_ref s q with
    | .error f => .error f
    | .ok s1 =>
      if (s1.heap (Ptr.ctl q)).work = none then
        let s2 := s1.setItem (Ptr.ctl q)
          { work := some Fn.wq_barrier, data := Data.flag q, notify := some Fn.set_bool,
            cancel := (s1.heap (Ptr.ctl q)).cancel, next := (s1.heap (Ptr.ctl q)).next }
        .ok { s2 with ctl := Function.update s2.ctl q (CtlPc.flush_loop in_stop) }
      else .error Fault.assert_failed

/-- Source `work_queue_flush` after its loop: unlock, `zero(q->item)`,
`work_queue_unref(q)`, `return r`.  Inside `work_queue_stop` the caller goes
on with the value `r`. -/
def flush_exit (env : Env) (s : Engine) (q : QId) (in_stop : Bool) (r : Int) :
    Except Fault Engine :=
  match work_queue_unref env (s.setItem (Ptr.ctl q) WorkItem.zero) q with
  | .error f => .error f
  | .ok s1 =>
    .ok { s1 with ctl := Function.update s1.ctl q
                    (if in_stop then CtlPc.stop_body r else CtlPc.idle),
                  log := s1.log ++ [Event.flush_returned q r] }

/-- One pass of the `while (true)` of `work_queue_flush`, from the lock to
either the exit of the function or the start of the wait for
`barrier_reached`. -/
def flush_iter (env : Env) (s : Engine) (q : QId) (in_stop : Bool) : Except Fault Engine :=
  if (s.queues q).n_running = 0 then flush_exit env s q in_stop 0
  else
    match _work_queue_add_unlocked env s q (Ptr.ctl q) false false with
    | .error f => .error f
    | .ok (r, s1) =>
      if r < 0 then flush_exit env s1 q in_stop r
      else .ok { s1 with flags := Function.update s1.flags q false,
                         ctl := Function.update s1.ctl q (CtlPc.flush_wait in_stop) }

/-- Label `out:` of `work_queue_stop`: `work_queue_unref(q)`, `return r`. -/
def stop_out (env : Env) (s : Engine) (q : QId) (r : Int) : Except Fault Engine :=
  match work_queue_unref env s q with
  | .error f => .error f
  | .ok s1 =>
    .ok { s1 with ctl := Function.update s1.ctl q CtlPc.idle,
                  log := s1.log ++ [Event.stop_returned q r] }

/-- Source `work_queue_stop` from the return of its `work_queue_flush` (value
`r`) to either its exit or the start of the wait for `stopped`. -/
def stop_body (env : Env) (s : Engine) (q : QId) (r : Int) : Except Fault Engine :=
  if r < 0 then stop_out env s q r
  else if (s.queues q).vtable = some VTable.queue then
    if (s.heap (Ptr.ctl q)).work = none then
      let s1 := s.setItem (Ptr.ctl q)
        { work := some Fn.wq_stop, data := Data.flag q, notify := some Fn.set_bool,
          cancel := (s.heap (Ptr.ctl q)).cancel, next := (s.heap (Ptr.ctl q)).next }
      if (s1.queues q).n_threads = 0 then stop_out env s1 q r
      else
        match _work_queue_add_unlocked env s1 q (Ptr.ctl q) false false with
        | .error f => .error f
        | .ok (r1, s2) =>
          if r1 < 0 then stop_out env s2 q r1
          else .ok { s2 with flags := Function.update s2.flags q false,
                             ctl := Function.update s2.ctl q CtlPc.stop_wait }
    else .error Fault.assert_failed
  else stop_out env s q r

/-! ## Steps of the engine -/

/-- Atomic steps: the API calls (each runs under the queue lock or on the
owning thread alone; flush and stop are cut where they wait), and the moves
of the worker threads between two releases of a lock.  The main queue is the
`static` object `g.main_queue`: no caller can pass its address to
`work_queue_add`, so an add that names it is not a step.  A runner item is only
made by `prepare_executive_bucket`, with a bucket as its datum;
`runner_enter` starts `__wq_run_bucket` on such an item. -/
inductive Step where
  | new_queue (n : Nat) (maxsize : Int)
  | new_bucket (n : Nat) (maxsize width : Int)
  | set_destroy_notify (env : Env) (q : QId) (f : Option Nat) (ctx : Data)
  | ref (q : QId)
  | unref (env : Env) (q : QId)
  | add (env : Env) (q : Option QId) (work notify cancel : Option Nat) (data : Data)
  | add_rewind (env : Env) (q : Option QId) (work notify cancel : Option Nat) (data : Data)
  | flush_begin (q : QId)
  | flush_iter (env : Env) (q : QId)
  | flush_wake (q : QId)
  | stop_begin (q : QId)
  | stop_body (env : Env) (q : QId)
  | stop_wake (env : Env) (q : QId)
  | main_run (env : Env)
  | main_done (env : Env)
  | worker_run (env : Env) (q : QId)
  | worker_work (env : Env) (q : QId) (p : Ptr)
  | worker_relock (q : QId)
  | runner_enter (q : QId) (r : Ptr) (b : Nat)
  | runner_iter (env : Env) (q : QId) (r : Ptr) (b : Nat) (stop : Bool)
  | runner_work (env : Env) (q : QId) (r : Ptr) (b : Nat) (p : Ptr)
  | runner_return (env : Env) (q : QId) (r : Ptr)

/-- Replaces one thread of queue `q` standing at `old` by one standing at `new`. -/
def Engine.move (s : Engine) (q : QId) (old new : Pc) : Engine :=
  { s with threads := Function.update s.threads q (new :: (s.threads q).erase old) }

/-- Source `work_queue_thread` after `work_queue_run_unlocked` has returned
`-ECANCELED` or `-EAGAIN`: `n_threads--`, unlock, the thread ends. -/
def thread_exit (s : Engine) (q : QId) : Engine :=
  { s with queues := Function.update s.queues q
             { s.queues q with n_threads := (s.queues q).n_threads - 1 },
           threads := Function.update s.threads q ((s.threads q).erase Pc.wait) }

/-- A thread of `q` that holds no lock takes the lock and runs
`work_queue_run_unlocked` up to the next release of the lock: the thread
ends, waits again, or leaves with an item to run. -/
def worker_run (env : Env) (s : Engine) (q : QId) : Except Fault Engine :=
  match run_begin env s q with
  | .error f => .error f
  | .ok (Ran.ret r, s1) =>
    if r = -ECANCELED ∨ r = -EAGAIN then .ok (thread_exit s1 q) else .ok s1
  | .ok (Ran.took p, s1) => .ok (s1.move q Pc.wait (Pc.exec p))

/-- Source `__wq_run_bucket` from taking the lock of the bucket to the next
unlock: the runner leaves the loop (`n_running--`) or takes a user item off
the bucket.  The runner runs in a thread of `q`; its datum `b` is the bucket
at `QId.bucket m`. -/
def runner_iter (env : Env) (s : Engine) (q : QId) (r : Ptr) (m : Nat) (stop : Bool) :
    Except Fault Engine :=
  let b := QId.bucket m
  let leave (s1 : Engine) : Engine :=
    (s1.setQ b { s1.queues b with n_running := (s1.queues b).n_running - 1 }).move q
      (Pc.runner r m stop) (Pc.runner_fin r)
  match (s.queues b).head with
  | none => .ok (leave s)
  | some hd =>
    if stop then .ok (leave s)
    else if work_item_is_stop (s.heap hd) || work_item_is_barrier (s.heap hd) then
      if (s.queues b).n_running = 1 then
        match _work_queue_drain_one_unlocked s.heap (s.queues b) with
        | .error f => .error f
        | .ok (_, h1, Q1) =>
          match work_item_execute env { s with heap := h1, queues := Function.update s.queues b Q1 }
              hd false with
          | .error f => .error f
          | .ok s2 => .ok (leave s2)
      else .ok (leave s)
    else
      match _work_queue_drain_one_unlocked s.heap (s.queues b) with
      | .error f => .error f
      | .ok (_, h1, Q1) =>
        .ok (({ s with heap := h1, queues := Function.update s.queues b Q1 }).move q
          (Pc.runner r m stop) (Pc.runner_exec r m hd))

/-- Effect of a step on everything but the allocation mark `brk`;
`Fault.disabled` when the step cannot happen in `s`. -/
def fire_core (s : Engine) : Step → Except Fault Engine
  | Step.new_queue n maxsize =>
    if (s.queues (QId.queue n)).vtable = none then work_queue_new s n maxsize
    else .error Fault.disabled
  | Step.new_bucket n maxsize width =>
    if (s.queues (QId.bucket n)).vtable = none then work_bucket_new s n maxsize width
    else .error Fault.disabled
  | Step.set_destroy_notify env q f ctx => work_queue_set_destroy_notify env s q f ctx
  | Step.ref q => work_queue_ref s q
  | Step.unref env q => work_queue_unref env s q
  | Step.add env q work notify cancel data =>
    if q = some QId.main then .error Fault.disabled
    else
      match work_queue_add env s q work notify cancel data with
      | .error f => .error f
      | .ok (_, s1) => .ok s1
  | Step.add_rewind env q work notify cancel data =>
    match work_queue_add_rewind env s q work notify cancel data with
    | .error f => .error f
    | .ok (_, s1) => .ok s1
  | Step.flush_begin q =>
    if s.ctl q = CtlPc.idle then flush_begin s q false else .error Fault.disabled
  | Step.flush_iter env q =>
    match s.ctl q with
    | CtlPc.flush_loop in_stop => flush_iter env s q in_stop
    | _ => .error Fault.disabled
  | Step.flush_wake q =>
    match s.ctl q with
    | CtlPc.flush_wait in_stop =>
      if s.flags q then .ok { s with ctl := Function.update s.ctl q (CtlPc.flush_loop in_stop) }
      else .error Fault.disabled
    | _ => .error Fault.disabled
  | Step.stop_begin q =>
    if s.ctl q = CtlPc.idle then
      if q = QId.main then .error Fault.assert_failed
      else
        match work_queue_ref s q with
        | .error f => .error f
        | .ok s1 => flush_begin s1 q true
    else .error Fault.disabled
  | Step.stop_body env q =>
    match s.ctl q with
    | CtlPc.stop_body r => stop_body env s q r
    | _ => .error Fault.disabled
  | Step.stop_wake env q =>
    match s.ctl q with
    | CtlPc.stop_wait =>
      if s.flags q then stop_out env (s.setItem (Ptr.ctl q) WorkItem.zero) q 0
      else .error Fault.disabled
    | _ => .error Fault.disabled
  | Step.main_run env =>
    match run_begin env s QId.main with
    | .error f => .error f
    | .ok (Ran.ret _, s1) => .ok s1
    | .ok (Ran.took p, s1) => .ok { s1 with main_stack := p :: s1.main_stack }
  | Step.main_done env =>
    match s.main_stack with
    | [] => .error Fault.disabled
    | p :: rest =>
      match run_end env s QId.main p with
      | .error f => .error f
      | .ok s1 => .ok { s1 with main_stack := rest }
  | Step.worker_run env q =>
    if Pc.wait ∈ s.threads q then worker_run env s q else .error Fault.disabled
  | Step.worker_work env q p =>
    if Pc.exec p ∈ s.threads q ∧ (s.heap p).work ≠ some Fn.wq_run_bucket then
      match work_item_execute env s p false with
      | .error f => .error f
      | .ok s1 => .ok (s1.move q (Pc.exec p) Pc.fin)
    else .error Fault.disabled
  | Step.worker_relock q =>
    if Pc.fin ∈ s.threads q then
      .ok ((s.setQ q { s.queues q with n_running := (s.queues q).n_running - 1 }).move q
        Pc.fin Pc.wait)
    else .error Fault.disabled
  | Step.runner_enter q r b =>
    if Pc.exec r ∈ s.threads q ∧ (s.heap r).work = some Fn.wq_run_bucket
        ∧ (s.heap r).data = Data.queue (QId.bucket b) then
      .ok ((s.emit (Event.work Fn.wq_run_bucket (Data.queue (QId.bucket b)) r)).move q
        (Pc.exec r) (Pc.runner r b false))
    else .error Fault.disabled
  | Step.runner_iter env q r b stop =>
    if Pc.runner r b stop ∈ s.threads q then runner_iter env s q r b stop
    else .error Fault.disabled
  | Step.runner_work env q r b p =>
    if Pc.runner_exec r b p ∈ s.threads q then
      match work_item_execute env s p false with
      | .error f => .error f
      | .ok s1 =>
        .ok (s1.move q (Pc.runner_exec r b p) (Pc.runner r b (work_item_is_stop (s.heap p))))
    else .error Fault.disabled
  | Step.runner_return env q r =>
    if Pc.runner_fin r ∈ s.threads q then
      match work_item_finish env s r (!work_item_is_static (s.heap r)) with
      | .error f => .error f
      | .ok s1 => .ok (s1.move q (Pc.runner_fin r) Pc.fin)
    else .error Fault.disabled

/-- The C library answers that a step consumes, if any. -/
def Step.env : Step → Option Env
  | Step.set_destroy_notify env _ _ _ => some env
  | Step.unref env _ => some env
  | Step.add env _ _ _ _ _ => some env
  | Step.add_rewind env _ _ _ _ _ => some env
  | Step.flush_iter env _ => some env
  | Step.stop_body env _ => some env
  | Step.stop_wake env _ => some env
  | Step.main_run env => some env
  | Step.main_done env => some env
  | Step.worker_run env _ => some env
  | Step.worker_work env _ _ => some env
  | Step.runner_iter env _ _ _ _ => some env
  | Step.runner_work env _ _ _ _ => some env
  | Step.runner_return env _ _ => some env
  | _ => none

/-- What `new0` may answer in state `s`: NULL, or a block never handed out
before (`brk` for the item, `brk + 1` for a runner). -/
def Env.fresh (env : Env) (s : Engine) : Prop :=
  (env.alloc = none ∨ env.alloc = some (Ptr.node s.brk))
    ∧ (env.runner = none ∨ env.runner = some (Ptr.node (s.brk + 1)))

instance (env : Env) (s : Engine) : Decidable (env.fresh s) := by
  unfold Env.fresh; infer_instance

/-- Effect of a step; `Fault.disabled` when the step cannot happen in `s`. -/
def fire (s : Engine) (st : Step) : Except Fault Engine :=
  match st.env with
  | none => fire_core s st
  | some env =>
    if env.fresh s then
      match fire_core s st with
      | .error f => .error f
      | .ok s1 => .ok { s1 with brk := s.brk + 2 }
    else .error Fault.disabled

/-- Runs the steps one after the other; stops at the first that faults or is
disabled. -/
def run_steps : Engine → List Step → Except Fault Engine
  | s, [] => .ok s
  | s, st :: rest =>
    match fire s st with
    | .error f => .error f
    | .ok s1 => run_steps s1 rest

/-- States the engine can be in: reached from the boot state by steps. -/
inductive Reachable : Engine → Prop where
  | boot : Reachable Engine.boot
  | step (s s2 : Engine) (st : Step) : Reachable s → fire s st = .ok s2 → Reachable s2

/-! ## Concrete runs -/

/-- C library answers of a step taken when `brk = k`: `new0` returns the next
new blocks, `pthread_create` succeeds. -/
def env_at (k : Nat) : Env :=
  { alloc := some (Ptr.node k), runner := some (Ptr.node (k + 1)), thread_create := 0, fuel := 8 }

/-- The first private queue. -/
def q0 : QId := QId.queue 0

/-- What a run left in queue `q`: the items linked from `head`, `n_items`,
`maxsize`, `n_running`, and how many of the linked items are barrier or stop
items. -/
def queue_view (r : Except Fault Engine) (q : QId) : Option (List Ptr × Int × Int × Int × Nat) :=
  match r with
  | .error _ => none
  | .ok s =>
    some (walk s.heap 16 (s.queues q).head, (s.queues q).n_items, (s.queues q).maxsize,
      (s.queues q).n_running,
      ((walk s.heap 16 (s.queues q).head).filter
        (fun p => work_item_is_static (s.heap p))).length)

/-- The log of a run. -/
def log_view (r : Except Fault Engine) : Option (List Event) :=
  match r with
  | .error _ => none
  | .ok s => some s.log

/-- A queue of `maxsize` 2: one item is running, a flush has queued its barrier,
and one more item has been added behind the barrier. -/
def run_barrier_then_item : List Step :=
  [ Step.new_queue 0 2,
    Step.add (env_at 0) (some q0) (some 1) (some 2) (some 3) (Data.user 0),
    Step.worker_run (env_at 2) q0,
    Step.flush_begin q0,
    Step.flush_iter (env_at 4) q0,
    Step.add (env_at 6) (some q0) (some 1) (some 2) (some 3) (Data.user 1) ]

/-- The rewind add made after `run_barrier_then_item`. -/
def rewind_after_barrier : Step :=
  Step.add_rewind (env_at 8) (some q0) (some 1) (some 2) (some 3) (Data.user 2)

/-- A queue of `maxsize` 1: one item is running, one is pending, a flush queues
its barrier behind it, and two rewind adds follow. -/
def run_two_rewinds : List Step :=
  [ Step.new_queue 0 1,
    Step.add (env_at 0) (some q0) (some 1) (some 2) (some 3) (Data.user 0),
    Step.worker_run (env_at 2) q0,
    Step.add (env_at 4) (some q0) (some 1) (some 2) (some 3) (Data.user 1),
    Step.flush_begin q0,
    Step.flush_iter (env_at 6) q0,
    Step.add_rewind (env_at 8) (some q0) (some 1) (some 2) (some 3) (Data.user 2),
    Step.add_rewind (env_at 10) (some q0) (some 1) (some 2) (some 3) (Data.user 3) ]

/-- An item is added and `work_queue_flush` is called before the new worker
thread has taken the lock. -/
def run_flush_before_worker : List Step :=
  [ Step.new_queue 0 10,
    Step.add (env_at 0) (some q0) (some 1) (some 2) (some 3) (Data.user 0),
    Step.flush_begin q0,
    Step.flush_iter (env_at 2) q0 ]

/-- An item is added, the worker runs its work and hands it to the main queue;
`work_queue_flush` is called before the main queue is pumped. -/
def run_flush_before_notify : List Step :=
  [ Step.new_queue 0 10,
    Step.add (env_at 0) (some q0) (some 1) (some 2) (some 3) (Data.user 0),
    Step.worker_run (env_at 2) q0,
    Step.worker_work (env_at 4) q0 (Ptr.node 0),
    Step.worker_relock q0,
    Step.flush_begin q0,
    Step.flush_iter (env_at 6) q0 ]

/-- An item with a cancel callback and no notifier is added and run to the
end; the main queue is pumped once more. -/
def run_item_without_notifier : List Step :=
  [ Step.new_queue 0 10,
    Step.add (env_at 0) (some q0) (some 1) none (some 3) (Data.user 0),
    Step.worker_run (env_at 2) q0,
    Step.worker_work (env_at 4) q0 (Ptr.node 0),
    Step.worker_relock q0,
    Step.main_run (env_at 6) ]

/-- How often the notifier and the cancel callback of the item at `p` were
invoked according to a log. -/
def invoked (log : List Event) (p : Ptr) : Nat × Nat :=
  ((log.filter (fun e => match e with
      | Event.notify _ _ x => decide (x = p)
      | _ => false)).length,
   (log.filter (fun e => match e with
      | Event.cancel _ _ x => decide (x = p)
      | _ => false)).length)

/-- Whether the work of the item at `p` has run according to a log. -/
def work_ran (log : List Event) (p : Ptr) : Bool :=
  log.any (fun e => match e with
    | Event.work _ _ x => decide (x = p)
    | _ => false)

/-- The state a run ends in (the boot state if the run faults). -/
def state_after (steps : List Step) : Engine :=
  match run_steps Engine.boot steps with
  | .ok s => s
  | .error _ => Engine.boot

/-- A newly created private queue of `maxsize` 10, as in `test-work-queue.c`. -/
def fresh_queue : Engine := state_after [Step.new_queue 0 10]

/-- The 30 submissions of `test_add` and `test_add_ring`: the `i`-th one uses
the block at `Ptr.node (2 * i)`. -/
def thirty : List Submission :=
  (List.range 30).map (fun i =>
    { env := env_at (2 * i), work := 1, notify := some 2, cancel := some 3, data := Data.user i })

/-- The blocks that `thirty` uses, in submission order. -/
def thirty_blocks : List Ptr := (List.range 30).map (fun i => Ptr.node (2 * i))

/-- A private queue whose single item has run its work and waits on the main
queue for its notifier. -/
def one_item_done : Engine := state_after run_flush_before_notify

/-- A private queue whose worker thread has dequeued the single item and is
about to run its work. -/
def one_item_running : Engine :=
  state_after [ Step.new_queue 0 10,
    Step.add (env_at 0) (some q0) (some 1) (some 2) (some 3) (Data.user 0),
    Step.worker_run (env_at 2) q0 ]

/-- The state after an item with a cancel callback and no notifier has run to
the end. -/
def item_without_notifier_done : Engine := state_after run_item_without_notifier

/-- The state after the two rewind adds of `run_two_rewinds`. -/
def two_rewinds_done : Engine := state_after run_two_rewinds

/-- A bucket of width 2 gets one item; a thread of the shared pool takes the
runner item, enters `__wq_run_bucket` and takes the item off the bucket. -/
def run_bucket_item : List Step :=
  [ Step.new_bucket 0 10 2,
    Step.add (env_at 0) (some (QId.bucket 0)) (some 1) (some 2) (some 3) (Data.user 0),
    Step.worker_run (env_at 2) QId.concurrent,
    Step.runner_enter QId.concurrent (Ptr.node 1) 0,
    Step.runner_iter (env_at 4) QId.concurrent (Ptr.node 1) 0 false ]

/-- The state in which a runner is running the work of the single item of a
bucket of width 2. -/
def bucket_item_running : Engine := state_after run_bucket_item

/-- The fault a step or a run ends with, if it does. -/
def fault_of (r : Except Fault Engine) : Option Fault :=
  match r with
  | .error f => some f
  | .ok _ => none

/-- The state after `run_barrier_then_item`: the queue links the flush barrier
and, behind it, one user item. -/
def barrier_then_item : Engine := state_after run_barrier_then_item

/-- The unlink that the eviction of a rewind add makes in the state
`barrier_then_item`: the scan has passed the barrier, the link is the `next`
field of the barrier. -/
def unlink_behind_barrier : Option Ptr × Heap × WorkQueue :=
  _work_queue_unlink_one_unlocked barrier_then_item.heap (barrier_then_item.queues q0)
    (Link.next (Ptr.ctl q0))

/-- The state after the rewind add made in the state `barrier_then_item`. -/
def rewound_behind_barrier : Engine :=
  state_after (run_barrier_then_item ++ [rewind_after_barrier])

/-- A private queue is created and `work_queue_stop` is called on it at once:
the queue has no worker thread yet. -/
def run_stop_without_thread : List Step :=
  [ Step.new_queue 0 10,
    Step.stop_begin q0,
    Step.flush_iter (env_at 0) q0,
    Step.stop_body (env_at 2) q0 ]

/-- The state after `work_queue_stop` has returned on a queue without a worker
thread. -/
def stopped_without_thread : Engine := state_after run_stop_without_thread

/-- An item is added to a private queue; `work_queue_stop` queues the stop item
behind it; the worker runs the item and the stop item and ends; the main queue
runs both notifiers and the stop returns.  Then `work_queue_stop` is called a
second time. -/
def run_stop_twice : List Step :=
  [ Step.new_queue 0 10,
    Step.add (env_at 0) (some q0) (some 1) (some 2) (some 3) (Data.user 0),
    Step.stop_begin q0,
    Step.flush_iter (env_at 2) q0,
    Step.stop_body (env_at 4) q0,
    Step.worker_run (env_at 6) q0,
    Step.worker_work (env_at 8) q0 (Ptr.node 0),
    Step.worker_relock q0,
    Step.worker_run (env_at 10) q0,
    Step.main_run (env_at 12),
    Step.main_done (env_at 14),
    Step.main_run (env_at 16),
    Step.stop_wake (env_at 18) q0,
    Step.stop_begin q0,
    Step.flush_iter (env_at 20) q0,
    Step.stop_body (env_at 22) q0 ]

/-- The state after the second `work_queue_stop` has returned. -/
def stopped_twice : Engine := state_after run_stop_twice

/-- A private queue of `maxsize` 1: its single item is running and a flush has
queued its barrier. -/
def run_barrier_alone : List Step :=
  [ Step.new_queue 0 1,
    Step.add (env_at 0) (some q0) (some 1) (some 2) (some 3) (Data.user 0),
    Step.worker_run (env_at 2) q0,
    Step.flush_begin q0,
    Step.flush_iter (env_at 4) q0 ]

/-- The state after `run_barrier_alone`: the queue is full and links only the
barrier. -/
def barrier_alone : Engine := state_after run_barrier_alone

/-- The first bucket. -/
def b0 : QId := QId.bucket 0

/-- A bucket of width 1: its runner takes the first item; a flush queues its
barrier and one more item is added behind the barrier; the runner finishes the
first item, finds the barrier at the head with `n_running = 1`, executes it
and leaves the loop. -/
def run_barrier_before_item : List Step :=
  [ Step.new_bucket 0 10 1,
    Step.add (env_at 0) (some b0) (some 1) (some 2) (some 3) (Data.user 0),
    Step.worker_run (env_at 2) QId.concurrent,
    Step.runner_enter QId.concurrent (Ptr.node 1) 0,
    Step.runner_iter (env_at 4) QId.concurrent (Ptr.node 1) 0 false,
    Step.flush_begin b0,
    Step.flush_iter (env_at 6) b0,
    Step.add (env_at 8) (some b0) (some 1) (some 2) (some 3) (Data.user 1),
    Step.runner_work (env_at 10) QId.concurrent (Ptr.node 1) 0 (Ptr.node 0),
    Step.runner_iter (env_at 12) QId.concurrent (Ptr.node 1) 0 false ]

/-- After `run_barrier_before_item` the runner returns, its thread comes back to
the shared pool, finds it empty and ends. -/
def run_runner_gone : List Step :=
  run_barrier_before_item
    ++ [ Step.runner_return (env_at 14) QId.concurrent (Ptr.node 1),
         Step.worker_relock QId.concurrent,
         Step.worker_run (env_at 16) QId.concurrent ]

/-- The value an add returns, if it returns. -/
def add_result (r : Except Fault (Int × Engine)) : Option Int :=
  match r with
  | .ok (x, _) => some x
  | .error _ => none

/-- A private queue of `maxsize` 1 with one pending item: the queue is full and
has its worker thread. -/
def full_queue : Engine :=
  state_after [ Step.new_queue 0 1,
    Step.add (env_at 0) (some q0) (some 1) (some 2) (some 3) (Data.user 0) ]

/-- The state in which the stop item queued by `work_queue_stop` is at the head
of a private queue whose single worker thread waits for the lock. -/
def stop_at_head : Engine := state_after (run_stop_twice.take 8)

/-- A state whose main queue holds `n_items = 65535 = maxsize`. -/
def main_queue_full : Engine :=
  one_item_done.setQ QId.main { one_item_done.queues QId.main with n_items := 65535 }

/-- The last reference of a newly created private queue is dropped while
`pthread_create` fails with `EAGAIN`. -/
def run_unref_without_thread : List Step :=
  [ Step.new_queue 0 10,
    Step.unref { env_at 0 with thread_create := 11 } q0 ]

/-- The state after `run_unref_without_thread`. -/
def unref_without_thread : Engine := state_after run_unref_without_thread

/-- The last reference of a newly created bucket is dropped while `new0`
returns NULL for the runner item. -/
def run_unref_without_runner : List Step :=
  [ Step.new_bucket 0 10 2,
    Step.unref { env_at 0 with runner := none } b0 ]

/-- The state after `run_unref_without_runner`. -/
def unref_without_runner : Engine := state_after run_unref_without_runner

/-- A private queue is created and one item with a notifier and a cancel
callback is added to it. -/
def run_item_queued : List Step :=
  [ Step.new_queue 0 10,
    Step.add (env_at 0) (some q0) (some 1) (some 2) (some 3) (Data.user 0) ]

/-- The state in which the item of `run_item_queued` waits in its queue. -/
def one_item_queued : Engine := state_after run_item_queued

/-- The worker thread takes the item, runs its work and hands it to the main
queue; the main thread takes it and runs its notifier. -/
def run_to_notified : List Step :=
  [ Step.worker_run (env_at 2) q0,
    Step.worker_work (env_at 4) q0 (Ptr.node 0),
    Step.worker_relock q0,
    Step.main_run (env_at 6),
    Step.main_done (env_at 8) ]

/-- The state after `run_to_notified`, started in `one_item_queued`. -/
def one_item_notified : Engine :=
  match run_steps one_item_queued run_to_notified with
  | .ok s => s
  | .error _ => Engine.boot

/-- The first four steps of `run_two_rewinds`: one item is running and a
second one waits in the queue, which is full. -/
def run_second_queued : List Step := run_two_rewinds.take 4

/-- The state in which the second item of `run_two_rewinds` waits in its
queue. -/
def second_item_queued : Engine := state_after run_second_queued

/-- The rest of `run_two_rewinds`: a flush queues its barrier, and the first
of two rewind adds evicts the waiting item. -/
def run_to_evicted : List Step := run_two_rewinds.drop 4

/-- The state after `run_to_evicted`, started in `second_item_queued`. -/
def second_item_evicted : Engine :=
  match run_steps second_item_queued run_to_evicted with
  | .ok s => s
  | .error _ => Engine.boot

/-! ## Threads of a private queue: what a step may change -/

/-- A thread that is not waiting for the lock holds an item it has taken off
the queue. -/
def Pc.busy : Pc → Bool
  | Pc.wait => false
  | _ => true

/-- The fields of a queue that count threads and running items, with the
threads themselves. -/
structure View where
  vtable : Option VTable
  width : Int
  n_threads : Int
  n_running : Int
  threads : List Pc

/-- The view of queue `o` in state `s`. -/
def view (s : Engine) (o : QId) : View :=
  { vtable := (s.queues o).vtable, width := (s.queues o).width,
    n_threads := (s.queues o).n_threads, n_running := (s.queues o).n_running,
    threads := s.threads o }

/-- Changes to the view of a private queue that are not moves of its threads:
a thread is created (`_more_thread_unlocked`), the queue is freed
(`_work_queue_free`) or created (`work_queue_new`). -/
inductive Eff0 : View → View → Prop where
  | same (v : View) : Eff0 v v
  | spawn (v : View) : v.vtable = some VTable.queue →
      (v.n_threads = 0 ∨ v.n_threads < v.width) →
      Eff0 v { v with n_threads := v.n_threads + 1, threads := Pc.wait :: v.threads }
  | freed (v : View) : (v.vtable = some VTable.queue → v.n_threads = 0) →
      Eff0 v { vtable := none, width := 0, n_threads := 0, n_running := 0, threads := v.threads }
  | init (v : View) : v.vtable = none →
      Eff0 v { vtable := some VTable.queue, width := 1, n_threads := 0, n_running := 0,
               threads := v.threads }
  | trans (a b c : View) : Eff0 a b → Eff0 b c → Eff0 a c

/-- Changes that one step makes to the view of a private queue: those of
`Eff0`, or a thread of the queue ends, takes an item, goes on with the item it
holds, or comes back for the lock. -/
inductive Eff : View → View → Prop where
  | base (v w : View) : Eff0 v w → Eff v w
  | exit (v : View) : Pc.wait ∈ v.threads →
      Eff v { v with n_threads := v.n_threads - 1, threads := v.threads.erase Pc.wait }
  | take (v : View) (p : Ptr) : Pc.wait ∈ v.threads →
      Eff v { v with n_running := v.n_running + 1,
                     threads := Pc.exec p :: v.threads.erase Pc.wait }
  | move (v : View) (old new : Pc) : old ∈ v.threads → old.busy = true → new.busy = true →
      Eff v { v with threads := new :: v.threads.erase old }
  | relock (v : View) : Pc.fin ∈ v.threads →
      Eff v { v with n_running := v.n_running - 1,
                     threads := Pc.wait :: v.threads.erase Pc.fin }

/-- The invariant of a private queue: a queue that does not exist has no
thread; a live one has `width = 1`, `n_threads` counts its threads,
`n_running` counts those of them that hold an item, and there is at most one
thread. -/
structure View.Ok (v : View) : Prop where
  kind : v.vtable ≠ some VTable.bucket
  dead : v.vtable = none → v.threads = []
  live : v.vtable = some VTable.queue →
    v.width = 1 ∧ v.n_threads = (v.threads.length : Int)
      ∧ v.n_running = ((v.threads.countP Pc.busy : Nat) : Int) ∧ v.threads.length ≤ 1

/-- Queue records that agree on the fields of the view. -/
def SameCtr (Q Q1 : WorkQueue) : Prop :=
  Q1.vtable = Q.vtable ∧ Q1.width = Q.width ∧ Q1.n_threads = Q.n_threads
    ∧ Q1.n_running = Q.n_running

/-- States that agree on the views of all queues. -/
def Quiet (s s1 : Engine) : Prop :=
  (∀ o, SameCtr (s.queues o) (s1.queues o)) ∧ s1.threads = s.threads

/-! ## Where an item is, and what the log tells about it -/

/-- Where the engine keeps an item: `out`, not handed to the engine (free
memory, a block whose add failed, a control item at rest); `inq o`, linked in
the list of queue `o`; `thr o`, taken off a queue by a thread of `o`;
`mstack`, taken off the main queue by the main thread; `gone`, handed to the
engine before and no longer kept in a list or by a thread: freed, lost, or, for
an item of the engine itself, in the hands of the call that runs. -/
inductive Place where
  | out
  | inq (o : QId)
  | thr (o : QId)
  | mstack
  | gone
  deriving DecidableEq

/-- The engine keeps the item. -/
def Place.busy : Place → Bool
  | Place.inq _ => true
  | Place.thr _ => true
  | Place.mstack => true
  | _ => false

/-- The items a thread holds at a program point. -/
def Pc.items : Pc → List Ptr
  | Pc.wait => []
  | Pc.exec p => [p]
  | Pc.fin => []
  | Pc.runner r _ _ => [r]
  | Pc.runner_exec r _ p => [r, p]
  | Pc.runner_fin r => [r]

/-- The item an event is about. -/
def Event.item : Event → Option Ptr
  | Event.work _ _ p => some p
  | Event.notify _ _ p => some p
  | Event.cancel _ _ p => some p
  | Event.free p => some p
  | _ => none

/-- The events of a log about the item at `p`, in order. -/
def about (log : List Event) (p : Ptr) : List Event :=
  log.filter (fun e => decide (e.item = some p))

/-- The call `item->work(item->data)`. -/
def hist_work (it : WorkItem) (p : Ptr) : List Event :=
  match it.work with
  | some f => [Event.work f it.data p]
  | none => []

/-- The life of an item that was run: its work, its notifier if it has one,
`free`. -/
def hist_run (it : WorkItem) (p : Ptr) : List Event :=
  hist_work it p
    ++ (match it.notify with
        | some f => [Event.notify f it.data p]
        | none => [])
    ++ [Event.free p]

/-- The life of an item that a rewind add evicted: its cancel callback if it
has one, `free`. -/
def hist_evict (it : WorkItem) (p : Ptr) : List Event :=
  (match it.cancel with
   | some f => [Event.cancel f it.data p]
   | none => []) ++ [Event.free p]

/-- What the log holds about a user item, by the place of the item.  An item
that the engine has let go of was run to its end or evicted. -/
def Life (pl : Place) (it : WorkItem) (p : Ptr) (hist : List Event) : Prop :=
  match pl with
  | Place.out => hist = [] ∨ hist = [Event.free p]
  | Place.inq o =>
    if o = QId.main then hist = hist_work it p ∧ it.notify ≠ none else hist = []
  | Place.thr _ => hist = []
  | Place.mstack => hist = hist_work it p ∧ it.notify ≠ none
  | Place.gone => hist = hist_run it p ∨ hist = hist_evict it p

/-- Chain `x -> l[0] -> l[1] -> ...` in memory `h` whose last link holds `y`. -/
def Seg (h : Heap) : Option Ptr → List Ptr → Option Ptr → Prop
  | x, [], y => x = y
  | x, p :: l, y => x = some p ∧ Seg h (h p).next l y

/-- The link that ends the chain `pre` started at `link`. -/
def Link.after (link : Link) (pre : List Ptr) : Link :=
  match pre.getLast? with
  | none => link
  | some t => Link.next t

/-- Queue `Q` links exactly the items `l`, in order, none twice; `n_items` is
left aside. -/
structure WF (h : Heap) (Q : WorkQueue) (l : List Ptr) : Prop where
  seg : Lseg h Q.head l
  tail : Q.tail = l.getLast?
  nodup : l.Nodup

/-- Items made by `work_queue_add`, `work_queue_add_rewind` and
`prepare_executive_bucket` never carry the engine's `set_bool` or
`_work_queue_free`, and a runner item has no notifier. -/
def NodeOk (it : WorkItem) : Prop :=
  it.work ≠ some Fn.set_bool ∧ it.work ≠ some Fn.work_queue_free
    ∧ it.notify ≠ some Fn.set_bool ∧ it.notify ≠ some Fn.work_queue_free
    ∧ (it.work = some Fn.wq_run_bucket → it.notify = none)

/-- The control item of queue `q` carries `_work_queue_free` only for `q`
itself and `set_bool` only for the flag of a flush or stop of `q`; it is never
a runner item. -/
def CtlOk (q : QId) (it : WorkItem) : Prop :=
  it.work ≠ some Fn.set_bool ∧ it.work ≠ some Fn.work_queue_free
    ∧ (it.notify = some Fn.work_queue_free → it.data = Data.queue q)
    ∧ (it.notify = some Fn.set_bool → it.data = Data.flag q)
    ∧ it.work ≠ some Fn.wq_run_bucket

/-- Memory and ownership agree: the lists of the queues are well formed and
disjoint, and the log tells the life of every user item.  Field `fin`: once the
last `work_queue_unref` has armed the control item of `q` with
`_work_queue_free`, no reference to `q` is left, the control item is the last
item of the list of `q` while it is there, and the list of `q` is empty while
the engine keeps the control item elsewhere. -/
structure Shape (s : Engine) (own : Ptr → Place) (ch : QId → List Ptr) : Prop where
  wf : ∀ o, WF s.heap (s.queues o) (ch o)
  mem : ∀ o p, p ∈ ch o ↔ own p = Place.inq o
  node : ∀ k, NodeOk (s.heap (Ptr.node k))
  ctl : ∀ q, CtlOk q (s.heap (Ptr.ctl q))
  dead : ∀ q, (s.queues q).vtable = none →
    (own (Ptr.ctl q)).busy = false ∧ ch q = [] ∧ (s.queues q).xref_cnt = 0
  mainq : (s.queues QId.main).vtable = none
    ∨ ((s.queues QId.main).vtable = some VTable.queue ∧ (s.queues QId.main).n_threads = 1
        ∧ (s.queues QId.main).width = 1)
  life : ∀ k u, (s.heap (Ptr.node k)).work = some (Fn.user u) →
    Life (own (Ptr.node k)) (s.heap (Ptr.node k)) (Ptr.node k) (about s.log (Ptr.node k))
  boot : s.initialized = false →
    (s.queues QId.concurrent).vtable = none ∧ (s.queues QId.main).vtable = none
  fin : ∀ q, q ≠ QId.concurrent → q ≠ QId.main →
    (s.heap (Ptr.ctl q)).notify = some Fn.work_queue_free →
    (s.queues q).xref_cnt = 0
      ∧ (own (Ptr.ctl q) = Place.inq q → (ch q).getLast? = some (Ptr.ctl q))
      ∧ ((own (Ptr.ctl q)).busy = true → own (Ptr.ctl q) ≠ Place.inq q → ch q = [])

/-- The control item of a queue is written and linked only while the engine
does not keep it. -/
structure Proto (s : Engine) (own : Ptr → Place) : Prop where
  r2 : ∀ q b, s.ctl q = CtlPc.flush_loop b → (own (Ptr.ctl q)).busy = false
  r3 : ∀ q b, s.ctl q = CtlPc.flush_wait b → s.flags q = true →
    (own (Ptr.ctl q)).busy = false
  r4 : ∀ q, s.ctl q = CtlPc.stop_wait → s.flags q = true → (own (Ptr.ctl q)).busy = false
  r5 : ∀ q, (s.ctl q = CtlPc.idle ∨ ∃ r, s.ctl q = CtlPc.stop_body r) →
    (s.heap (Ptr.ctl q)).work = none → (own (Ptr.ctl q)).busy = false
  r6 : ∀ q, q ≠ QId.concurrent → q ≠ QId.main → s.ctl q ≠ CtlPc.idle →
    (∀ r, s.ctl q ≠ CtlPc.stop_body r) →
    (s.heap (Ptr.ctl q)).work ≠ none ∧ (s.heap (Ptr.ctl q)).notify = some Fn.set_bool
      ∧ (s.queues q).vtable ≠ none

/-- Threads and the main thread hold exactly the items that ownership says
they hold, each once; the main queue has no worker thread. -/
structure Held (s : Engine) (own : Ptr → Place) : Prop where
  thr : ∀ o p, ((s.threads o).flatMap Pc.items).count p = if own p = Place.thr o then 1 else 0
  stk : ∀ p, s.main_stack.count p = if own p = Place.mstack then 1 else 0
  nomain : s.threads QId.main = []

/-- An item the code at hand does not name keeps its place, or is dropped from
the list of a queue other than the main queue. -/
def Drop (own own2 : Ptr → Place) (p : Ptr) : Prop :=
  own2 p = own p ∨ (own2 p = Place.gone ∧ ∃ o, o ≠ QId.main ∧ own p = Place.inq o)

/-- Blocks from `b` on were never handed out: the engine does not keep them and
the log is silent about them. -/
def Fresh (s : Engine) (own : Ptr → Place) (b : Nat) : Prop :=
  ∀ k, b ≤ k → own (Ptr.node k) = Place.out ∧ about s.log (Ptr.node k) = []

/-- What a piece of code does to ownership and to the log, the items `S` it
names apart: other items keep their place or are dropped from a list, and no
event is logged about an item the engine did not keep; an item that was
handed to the engine stays so. -/
structure Trans (s : Engine) (own : Ptr → Place) (s2 : Engine) (own2 : Ptr → Place)
    (S : Ptr → Prop) : Prop where
  drop : ∀ p, S p ∨ Drop own own2 p
  quiet : ∀ p, (own p).busy = false → S p ∨ about s2.log p = about s.log p
  acc : ∀ p, own p ≠ Place.out → own2 p ≠ Place.out

/-- The state of the flush and stop protocol is untouched. -/
structure ProtoSame (s s2 : Engine) : Prop where
  ctl : s2.ctl = s.ctl
  flags : s2.flags = s.flags
  work : ∀ q, (s2.heap (Ptr.ctl q)).work = (s.heap (Ptr.ctl q)).work
  notify : ∀ q, (s2.heap (Ptr.ctl q)).notify = (s.heap (Ptr.ctl q)).notify
  vtable : ∀ q, (s2.queues q).vtable = (s.queues q).vtable

/-- The items held by threads and by the main thread are untouched: threads
stay where they are, and a new thread waits for the lock. -/
structure HeldSame (s s2 : Engine) : Prop where
  items : ∀ o, (s2.threads o).flatMap Pc.items = (s.threads o).flatMap Pc.items
  stack : s2.main_stack = s.main_stack
  nomain : s.threads QId.main = [] → s2.threads QId.main = []
  mem : ∀ o pc, pc ∈ s.threads o → pc ∈ s2.threads o
  back : ∀ o pc, pc ∈ s2.threads o → pc ∈ s.threads o ∨ pc = Pc.wait

/-- What a call that links items leaves behind.  `S` holds the items the call
may link; the engine did not keep them before, and no thread holds them
after. -/
structure Post (s : Engine) (own : Ptr → Place) (s2 : Engine) (own2 : Ptr → Place)
    (ch2 : QId → List Ptr) (S : Ptr → Prop) : Prop where
  shape : Shape s2 own2 ch2
  trans : Trans s own s2 own2 S
  grow : ∀ p, S p → (own p).busy = false ∧ (∀ o, own2 p ≠ Place.thr o) ∧ own2 p ≠ Place.mstack
  pay : ∀ x, ¬ S x → payload (s2.heap x) = payload (s.heap x)
  proto : ProtoSame s s2
  held : HeldSame s s2
  xref : ∀ q, (s2.queues q).xref_cnt = (s.queues q).xref_cnt

/-- What a call leaves behind when it may also move the flush and stop
protocol on: both invariants, and no thread holds an item of `S`. -/
structure Post2 (s : Engine) (own : Ptr → Place) (s2 : Engine) (own2 : Ptr → Place)
    (ch2 : QId → List Ptr) (S : Ptr → Prop) : Prop where
  shape : Shape s2 own2 ch2
  proto : Proto s2 own2
  trans : Trans s own s2 own2 S
  grow : ∀ p, S p → (∀ o, own2 p ≠ Place.thr o) ∧ own2 p ≠ Place.mstack
  pay : ∀ k, ¬ S (Ptr.node k) →
    payload (s2.heap (Ptr.node k)) = payload (s.heap (Ptr.node k))
  held : HeldSame s s2

/-- What a call on queue `q` leaves behind that may link the control item of
`q` but does not move the flush and stop protocol of any queue. -/
structure PostQ (s : Engine) (own : Ptr → Place) (s2 : Engine) (own2 : Ptr → Place)
    (ch2 : QId → List Ptr) (S : Ptr → Prop) (q : QId) : Prop where
  shape : Shape s2 own2 ch2
  trans : Trans s own s2 own2 S
  grow : ∀ p, S p → (∀ o, own2 p ≠ Place.thr o) ∧ own2 p ≠ Place.mstack
  pay : ∀ k, ¬ S (Ptr.node k) →
    payload (s2.heap (Ptr.node k)) = payload (s.heap (Ptr.node k))
  held : HeldSame s s2
  ctl : s2.ctl = s.ctl
  flags : s2.flags = s.flags
  work : ∀ q0, q0 ≠ q → (s2.heap (Ptr.ctl q0)).work = (s.heap (Ptr.ctl q0)).work
  notify : ∀ q0, q0 ≠ q → (s2.heap (Ptr.ctl q0)).notify = (s.heap (Ptr.ctl q0)).notify
  vtable : ∀ q0, (s2.queues q0).vtable = (s.queues q0).vtable
  busy : ∀ q0, q0 ≠ q → (own2 (Ptr.ctl q0)).busy = true → (own (Ptr.ctl q0)).busy = true
  self : (payload (s2.heap (Ptr.ctl q)) = payload (s.heap (Ptr.ctl q))
      ∧ own2 (Ptr.ctl q) = own (Ptr.ctl q))
    ∨ ((s2.heap (Ptr.ctl q)).work = some Fn.wq_stop ∧ (s.heap (Ptr.ctl q)).work = none)

/-- The invariant of the engine behind the life of the items: memory and
ownership agree, the flush and stop protocol holds, the threads hold what
ownership says, and blocks not yet handed out are untouched. -/
structure Inv (s : Engine) (own : Ptr → Place) (ch : QId → List Ptr) : Prop where
  shape : Shape s own ch
  proto : Proto s own
  held : Held s own
  fresh : Fresh s own s.brk

/-- The runner item of a thread that is inside `__wq_run_bucket`. -/
def Pc.runner_of : Pc → Option Ptr
  | Pc.runner r _ _ => some r
  | Pc.runner_exec r _ _ => some r
  | Pc.runner_fin r => some r
  | _ => none

/-- The bucket that a thread inside the loop of `__wq_run_bucket` serves. -/
def Pc.bucket_of : Pc → Option Nat
  | Pc.runner _ b _ => some b
  | Pc.runner_exec _ b _ => some b
  | _ => none

/-- The item is a runner item, for the bucket that the thread at `pc` serves. -/
def RunnerOk (it : WorkItem) (pc : Pc) : Prop :=
  it.work = some Fn.wq_run_bucket
    ∧ ∀ m, pc.bucket_of = some m → it.data = Data.queue (QId.bucket m)

/-- A thread runs `__wq_run_bucket` only on a runner item, a block from `new0`
whose datum is the bucket that the thread serves. -/
def Runs (s : Engine) : Prop :=
  ∀ o pc r, pc ∈ s.threads o → pc.runner_of = some r →
    (∃ k, r = Ptr.node k) ∧ RunnerOk (s.heap r) pc

/-- What a step keeps of ownership: a block handed out before the step that
the engine keeps after it was kept before, a runner item whose
`__wq_run_bucket` has returned stays with its thread until the engine is done
with it, no thread holds a block that was not handed out before the step, and
an item that was handed to the engine stays so. -/
def Keep (s : Engine) (own : Ptr → Place) (s2 : Engine) (own2 : Ptr → Place) : Prop :=
  (∀ k, k < s.brk → (own2 (Ptr.node k)).busy = true → (own (Ptr.node k)).busy = true)
    ∧ (∀ o p, Pc.runner_fin p ∈ s.threads o → (s.heap p).notify = none →
        Pc.runner_fin p ∈ s2.threads o ∨ (own2 p).busy = false)
    ∧ (∀ k, s.brk ≤ k → (∀ o, own2 (Ptr.node k) ≠ Place.thr o) ∧ own2 (Ptr.node k) ≠ Place.mstack)
    ∧ ∀ p, own p ≠ Place.out → own2 p ≠ Place.out

/-- The invariant of the engine after a step from `s`, for the allocation
mark `b`, with what the step keeps of the ownership `own` before it. -/
def Next (s : Engine) (own : Ptr → Place) (s2 : Engine) (b : Nat) : Prop :=
  ∃ own2 ch2, Shape s2 own2 ch2 ∧ Proto s2 own2 ∧ Held s2 own2 ∧ Fresh s2 own2 b ∧ Runs s2
    ∧ Keep s own s2 own2

/-- The invariant of the engine with its ghost state hidden, for the
allocation mark `b`. -/
def GoodAt (s : Engine) (b : Nat) : Prop :=
  ∃ own ch, Shape s own ch ∧ Proto s own ∧ Held s own ∧ Fresh s own b ∧ Runs s

/-- The invariant of the engine with its ghost state hidden. -/
def Good (s : Engine) : Prop :=
  ∃ own ch, Inv s own ch ∧ Runs s

/-- The event is a call of a cancel callback. -/
def Event.is_cancel : Event → Bool
  | Event.cancel _ _ _ => true
  | _ => false

/-- The log of `s2` is the log of `s` followed by events none of which is a
call of a cancel callback. -/
def Calm (s s2 : Engine) : Prop :=
  ∃ evs, s2.log = s.log ++ evs ∧ ∀ e ∈ evs, e.is_cancel = false

/-! ## Buckets: runner items and `n_running` -/

/-- Some list head or some `next` field holds the address `x`. -/
def Pointed (s : Engine) (x : Ptr) : Prop :=
  (∃ o, (s.queues o).head = some x) ∨ ∃ p, (s.heap p).next = some x

/-- A piece of code that leaves `n_running`, the kind and the width of every
queue alone, the threads of the queues without threads, and the content of the
blocks; an address that a list head or a `next` field holds after it was held
before or is in `A`. -/
structure Same (s s2 : Engine) (A : Ptr → Prop) : Prop where
  run : ∀ o, (s2.queues o).n_running = (s.queues o).n_running
  vt : ∀ o, (s2.queues o).vtable = (s.queues o).vtable ∧ (s2.queues o).width = (s.queues o).width
  thr : ∀ o, (s.queues o).vtable ≠ some VTable.queue → s2.threads o = s.threads o
  pay : ∀ k, payload (s2.heap (Ptr.node k)) = payload (s.heap (Ptr.node k))
  ptr : ∀ x, Pointed s2 x → Pointed s x ∨ A x

/-- What a call that adds to queue `q` changes, memory and counters: blocks
keep their content, except those in `W`, which may be filled in as user
items, and the runner block, which `prepare_executive_bucket` fills in for
`q`; an address that a list head or a `next` field holds after the call was
held before, or is in `A`, or is the runner block, and then `n_running` of `q`
went up; `n_running` goes up only on `q`, only if `q` is a bucket, and stays
within its width; no other counter of the view and no thread list of a queue
without threads changes. -/
structure Adds (s s2 : Engine) (env : Env) (q : QId) (A W : Ptr → Prop) : Prop where
  pay : ∀ k, payload (s2.heap (Ptr.node k)) = payload (s.heap (Ptr.node k))
    ∨ (W (Ptr.node k) ∧ ∃ u, (s2.heap (Ptr.node k)).work = some (Fn.user u))
    ∨ (env.runner = some (Ptr.node k)
        ∧ payload (s2.heap (Ptr.node k)) = payload (runner_item q)
        ∧ (s.queues q).vtable = some VTable.bucket)
  ptr : ∀ x, Pointed s2 x → Pointed s x ∨ A x
    ∨ (env.runner = some x ∧ (s.queues q).n_running < (s2.queues q).n_running)
  run : ∀ o, (s.queues o).n_running ≤ (s2.queues o).n_running
    ∧ (o ≠ q → (s2.queues o).n_running = (s.queues o).n_running)
  lim : (s.queues q).n_running < (s2.queues q).n_running →
    (s.queues q).vtable = some VTable.bucket
      ∧ (s2.queues q).n_running ≤ (s.queues q).width
      ∧ ∀ x, env.runner = some x → payload (s2.heap x) = payload (runner_item q)
  vt : ∀ o, (s2.queues o).vtable = (s.queues o).vtable ∧ (s2.queues o).width = (s.queues o).width
  thr : ∀ o, (s.queues o).vtable ≠ some VTable.queue → s2.threads o = s.threads o

/-- What running an item changes, memory and counters: blocks keep their
content; an address that a list head or a `next` field holds after the call
was held before or is in `A`; a bucket keeps its counters or is freed, and a
live bucket is freed only with `n_running = 0`. -/
structure Execs (s s2 : Engine) (A : Ptr → Prop) : Prop where
  pay : ∀ k, payload (s2.heap (Ptr.node k)) = payload (s.heap (Ptr.node k))
  ptr : ∀ x, Pointed s2 x → Pointed s x ∨ A x
  bk : ∀ m, ((s2.queues (QId.bucket m)).vtable = (s.queues (QId.bucket m)).vtable
        ∧ (s2.queues (QId.bucket m)).width = (s.queues (QId.bucket m)).width
        ∧ (s2.queues (QId.bucket m)).n_running = (s.queues (QId.bucket m)).n_running)
    ∨ ((s2.queues (QId.bucket m)).vtable = none ∧ (s2.queues (QId.bucket m)).n_running = 0
        ∧ ((s.queues (QId.bucket m)).vtable = some VTable.bucket →
            (s.queues (QId.bucket m)).n_running = 0))
  thr : ∀ m, (s.queues (QId.bucket m)).vtable ≠ some VTable.queue →
    s2.threads (QId.bucket m) = s.threads (QId.bucket m)
  mainv : (s.queues QId.main).vtable ≠ some VTable.bucket →
    (s2.queues QId.main).vtable ≠ some VTable.bucket

/-- How one step changes the record of the bucket at `QId.bucket m`: not in
its kind, width and `n_running`; or a runner item is made for it
(`n_running` goes up, within the width); or one of its runners leaves the loop
of `__wq_run_bucket` (`n_running--`); or the bucket is freed; or it is
created. -/
def BStep (s s2 : Engine) (m : Nat) : Prop :=
  ((s2.queues (QId.bucket m)).vtable = (s.queues (QId.bucket m)).vtable
      ∧ (s2.queues (QId.bucket m)).width = (s.queues (QId.bucket m)).width
      ∧ (s2.queues (QId.bucket m)).n_running = (s.queues (QId.bucket m)).n_running)
    ∨ ((s2.queues (QId.bucket m)).vtable = (s.queues (QId.bucket m)).vtable
      ∧ (s2.queues (QId.bucket m)).width = (s.queues (QId.bucket m)).width
      ∧ (s.queues (QId.bucket m)).vtable = some VTable.bucket
      ∧ (s.queues (QId.bucket m)).n_running < (s2.queues (QId.bucket m)).n_running
      ∧ (s2.queues (QId.bucket m)).n_running ≤ (s.queues (QId.bucket m)).width)
    ∨ ((s2.queues (QId.bucket m)).vtable = (s.queues (QId.bucket m)).vtable
      ∧ (s2.queues (QId.bucket m)).width = (s.queues (QId.bucket m)).width
      ∧ (s2.queues (QId.bucket m)).n_running = (s.queues (QId.bucket m)).n_running - 1
      ∧ ∃ q r stop, Pc.runner r m stop ∈ s.threads q ∧ Pc.runner_fin r ∈ s2.threads q)
    ∨ ((s2.queues (QId.bucket m)).vtable = none
      ∧ (s2.queues (QId.bucket m)).n_running = 0
      ∧ ((s.queues (QId.bucket m)).vtable = some VTable.bucket →
          (s.queues (QId.bucket m)).n_running = 0))
    ∨ ((s.queues (QId.bucket m)).vtable = none
      ∧ (s2.queues (QId.bucket m)).vtable = some VTable.bucket
      ∧ 0 < (s2.queues (QId.bucket m)).width
      ∧ (s2.queues (QId.bucket m)).n_running = 0)

/-- What one step changes, memory and buckets, when the allocation mark goes
from `s.brk` to `b2`: blocks handed out before the step and blocks not handed
out after it keep their content; no list head or `next` field holds a block
not handed out after the step unless it did before; a block handed out during
the step that is filled in as a runner item and linked is the runner block,
and `n_running` of its bucket went up; each bucket changes as `BStep` says;
a bucket gets no thread. -/
structure Facts (s s2 : Engine) (b2 : Nat) : Prop where
  pay : ∀ k, k < s.brk ∨ b2 ≤ k →
    payload (s2.heap (Ptr.node k)) = payload (s.heap (Ptr.node k))
  ptr : ∀ k, b2 ≤ k → Pointed s2 (Ptr.node k) → Pointed s (Ptr.node k)
  tok : ∀ k, s.brk ≤ k → k < b2 → ¬ Pointed s (Ptr.node k) →
    (s.heap (Ptr.node k)).work = none → Pointed s2 (Ptr.node k) →
    (s2.heap (Ptr.node k)).work = some Fn.wq_run_bucket →
    k = s.brk + 1 ∧ ∀ m, (s2.heap (Ptr.node k)).data = Data.queue (QId.bucket m) →
      (s.queues (QId.bucket m)).n_running < (s2.queues (QId.bucket m)).n_running
  bk : ∀ m, BStep s s2 m
  thr : ∀ m, (s.queues (QId.bucket m)).vtable ≠ some VTable.queue →
    s.threads (QId.bucket m) = [] → s2.threads (QId.bucket m) = []

/-- A live runner item of the bucket at `QId.bucket m`: the engine keeps it
(it waits in a list, or a thread runs it), and `__wq_run_bucket` has not
returned on it. -/
def Tok (s : Engine) (own : Ptr → Place) (m : Nat) (p : Ptr) : Prop :=
  (s.heap p).work = some Fn.wq_run_bucket ∧ (s.heap p).data = Data.queue (QId.bucket m)
    ∧ (own p).busy = true ∧ ∀ o, Pc.runner_fin p ∉ s.threads o

/-- The record of the bucket at `QId.bucket m`: no thread of its own, never
the vtable of a thread-backed queue, `n_running = 0` while the bucket does not
exist, and `n_running` within a positive width while it does. -/
structure BRec (s : Engine) (m : Nat) : Prop where
  nothr : s.threads (QId.bucket m) = []
  kind : (s.queues (QId.bucket m)).vtable ≠ some VTable.queue
  dead : (s.queues (QId.bucket m)).vtable = none → (s.queues (QId.bucket m)).n_running = 0
  live : (s.queues (QId.bucket m)).vtable = some VTable.bucket →
    0 < (s.queues (QId.bucket m)).width
      ∧ (s.queues (QId.bucket m)).n_running ≤ (s.queues (QId.bucket m)).width

/-- The invariant of the buckets: no pointer to a block not yet handed out,
such blocks are blank, the records of the buckets are sound, and `n_running`
of a bucket is at least the number of its live runner items. -/
structure BInv (s : Engine) (own : Ptr → Place) : Prop where
  noptr : ∀ k, s.brk ≤ k → ¬ Pointed s (Ptr.node k)
  blank : ∀ k, s.brk ≤ k → (s.heap (Ptr.node k)).work = none
  recs : ∀ m, BRec s m
  tok : ∀ m, ∃ l : List Ptr, (∀ p, Tok s own m p → p ∈ l)
    ∧ (l.length : Int) ≤ (s.queues (QId.bucket m)).n_running

/-- The invariant of the engine with the invariant of the buckets, ghost
state hidden. -/
def Full (s : Engine) : Prop :=
  ∃ own ch, Inv s own ch ∧ Runs s ∧ BInv s own

/-- The thread is running the work of an item of the bucket at `QId.bucket m`,
inside `__wq_run_bucket`. -/
def Pc.works_for (m : Nat) : Pc → Bool
  | Pc.runner_exec _ b _ => decide (b = m)
  | _ => false

/-- How many threads of the queues `os` are running the work of an item of the
bucket at `QId.bucket m`. -/
def running_work (s : Engine) (m : Nat) (os : List QId) : Nat :=
  (os.map (fun o => ((s.threads o).filter (Pc.works_for m)).length)).sum

/-- The runner item of a thread that is running the work of an item of the
bucket at `QId.bucket m`. -/
def Pc.run_items (m : Nat) : Pc → List Ptr
  | Pc.runner_exec r b _ => if b = m then [r] else []
  | _ => []

/-- When `prepare_executive` of a thread-backed queue tries to create a worker
thread, in the words of the specification: no thread exists, or
`n_threads < width` and `n_threads - n_running < n_items + 1`. -/
def attempt_condition (Q : WorkQueue) : Prop :=
  Q.n_threads = 0 ∨ (Q.n_threads < Q.width ∧ Q.n_threads - Q.n_running < Q.n_items + 1)

instance (Q : WorkQueue) : Decidable (attempt_condition Q) := by
  unfold attempt_condition; infer_instance

/-- The state after `_more_thread_unlocked` has created a thread for `q`. -/
def with_new_thread (s : Engine) (q : QId) : Engine :=
  { s with queues := Function.update s.queues q
             { s.queues q with n_threads := (s.queues q).n_threads + 1 },
           threads := Function.update s.threads q (Pc.wait :: s.threads q) }

/-- A number `k` of worker threads of `q` take the lock one after the other, each
running `work_queue_run_unlocked` up to the next release of the lock. -/
def workers_observe (env : Env) (q : QId) : Engine → Nat → Except Fault Engine
  | s, 0 => .ok s
  | s, k + 1 =>
    match worker_run env s q with
    | .error f => .error f
    | .ok s1 => workers_observe env q s1 k

/-- The counters of a thread-backed queue agree with its threads: a queue that
does not exist has no thread, and on a live one `n_threads` is the number of
its threads and `n_running` the number of those that hold an item. -/
structure View.Count (v : View) : Prop where
  kind : v.vtable ≠ some VTable.bucket
  dead : v.vtable = none → v.threads = []
  live : v.vtable = some VTable.queue →
    v.n_threads = (v.threads.length : Int)
      ∧ v.n_running = ((v.threads.countP Pc.busy : Nat) : Int)

end WQ

/-!
# UTF-8 utility (`utf8-util.c`): shallow embedding

A buffer is a list of bytes (`Nat` below 256); a `char *` into it is an offset,
NULL is `none`.  A C string ends with a NUL byte: reading at the length of the
list gives 0.  `uint32_t` arithmetic is `Nat` reduced modulo `2^32`.
-/

namespace Utf8

/-- Byte of the buffer at offset `i`. -/
def byte (mem : List Nat) (i : Nat) : Nat := mem.getD i 0

/-- The C string that starts a buffer: the bytes before the first NUL. -/
def cstr (mem : List Nat) : List Nat := mem.takeWhile (fun b => b ≠ 0)

/-- Source `utf8_find_prev_char (str, p)`: `for (--p; p >= str; --p)`, return
the first `p` whose byte is not `10xxxxxx`. -/
def utf8_find_prev_char (mem : List Nat) (str : Nat) : Nat → Option Nat
  | 0 => none
  | p + 1 =>
    if p < str then none
    else if byte mem p &&& 0xc0 ≠ 0x80 then some p
    else utf8_find_prev_char mem str p

/-- Macro `UNICODE_VALID`. -/
def UNICODE_VALID (c : Nat) : Bool :=
  decide (c < 0x110000) && decide (c &&& 0xFFFFF800 ≠ 0xD800)
    && (decide (c < 0xFDD0) || decide (c > 0xFDEF)) && decide (c &&& 0xFFFE ≠ 0xFFFE)

/-- Macro `CONTINUATION_CHAR` on the byte `b`: `none` is `goto error`, else the
new `val`. -/
def CONTINUATION_CHAR (b val : Nat) : Option Nat :=
  if b &&& 0xc0 ≠ 0x80 then none
  else some ((val <<< 6) % 2 ^ 32 ||| (b &&& 0x3f))

/-- The code from the label `TWO_REMAINING` to the end of the `else` block, with
`p` the position before the first `p++`: the position of the last byte of the
sequence, or `none` for `goto error`. -/
def TWO_REMAINING (mem : List Nat) (min val p : Nat) : Option Nat :=
  match CONTINUATION_CHAR (byte mem (p + 1)) val with
  | none => none
  | some v1 =>
    match CONTINUATION_CHAR (byte mem (p + 2)) v1 with
    | none => none
    | some v2 =>
      if v2 < min then none
      else if !UNICODE_VALID v2 then none
      else some (p + 2)

/-- Body of the loop of `fast_validate` for a byte `>= 128` at `p`: the position
of the last byte of the sequence, or `none` for `goto error`. -/
def multibyte (mem : List Nat) (p : Nat) : Option Nat :=
  let b := byte mem p
  if b &&& 0xe0 = 0xc0 then
    if b &&& 0x1e = 0 then none
    else if byte mem (p + 1) &&& 0xc0 ≠ 0x80 then none
    else some (p + 1)
  else if b &&& 0xf0 = 0xe0 then TWO_REMAINING mem (1 <<< 11) (b &&& 0x0f) p
  else if b &&& 0xf8 = 0xf0 then
    match CONTINUATION_CHAR (byte mem (p + 1)) (b &&& 0x07) with
    | none => none
    | some val => TWO_REMAINING mem (1 <<< 16) val (p + 1)
  else none

/-- Loop of `fast_validate` from position `p`; every pass moves `p` forward, so
`fuel` passes are enough when `fuel` is the length of the buffer. -/
def fast_validate_loop (mem : List Nat) : Nat → Nat → Nat
  | 0, p => p
  | fuel + 1, p =>
    if byte mem p = 0 then p
    else if byte mem p < 128 then fast_validate_loop mem fuel (p + 1)
    else
      match multibyte mem p with
      | none => p
      | some q => fast_validate_loop mem fuel (q + 1)

/-- Source `fast_validate`. -/
def fast_validate (mem : List Nat) : Nat := fast_validate_loop mem mem.length 0

/-- Body of the loop of `fast_validate_len` for a byte `>= 128` at `p`. -/
def multibyte_len (mem : List Nat) (max_len p : Nat) : Option Nat :=
  let b := byte mem p
  if b &&& 0xe0 = 0xc0 then
    if (max_len : Int) - (p : Int) < 2 then none
    else if b &&& 0x1e = 0 then none
    else if byte mem (p + 1) &&& 0xc0 ≠ 0x80 then none
    else some (p + 1)
  else if b &&& 0xf0 = 0xe0 then
    if (max_len : Int) - (p : Int) < 3 then none
    else TWO_REMAINING mem (1 <<< 11) (b &&& 0x0f) p
  else if b &&& 0xf8 = 0xf0 then
    if (max_len : Int) - (p : Int) < 4 then none
    else
      match CONTINUATION_CHAR (byte mem (p + 1)) (b &&& 0x07) with
      | none => none
      | some val => TWO_REMAINING mem (1 <<< 16) val (p + 1)
  else none

/-- Loop of `fast_validate_len` from position `p`; every pass moves `p`
forward, so `max_len` passes are enough. -/
def fast_validate_len_loop (mem : List Nat) (max_len : Nat) : Nat → Nat → Nat
  | 0, p => p
  | fuel + 1, p =>
    if p < max_len ∧ byte mem p ≠ 0 then
      if byte mem p < 128 then fast_validate_len_loop mem max_len fuel (p + 1)
      else
        match multibyte_len mem max_len p with
        | none => p
        | some q => fast_validate_len_loop mem max_len fuel (q + 1)
    else p

/-- Source `fast_validate_len` (`max_len >= 0` is asserted). -/
def fast_validate_len (mem : List Nat) (max_len : Nat) : Nat :=
  fast_validate_len_loop mem max_len max_len 0

/-- Source `utf8_validate`: the returned `bool` and the value stored in
`*end`. -/
def utf8_validate (mem : List Nat) (max_len : Int) : Bool × Nat :=
  let p := if max_len < 0 then fast_validate mem else fast_validate_len mem max_len.toNat
  if (max_len ≥ 0 ∧ (p : Int) ≠ max_len) ∨ (max_len < 0 ∧ byte mem p ≠ 0) then (false, p)
  else (true, p)

/-! ## Locale conversion -/

def EINVAL : Int := 22
def EILSEQ : Int := 84
def E2BIG : Int := 7

/-- How a call ends that the C library stops: a failed `assert_se`, or the
answers recorded for `iconv` ran out. -/
inductive Abort where
  | assert_failed
  | no_answer
  deriving DecidableEq, Repr

/-- One answer of `iconv`: `err` is `errno` when it returns `(size_t) -1`, then
how many input bytes it consumed and the bytes it wrote. -/
structure IconvAnswer where
  err : Option Int
  consumed : Nat
  produced : List Nat
  deriving DecidableEq, Repr

/-- What a conversion leaves in its result and in its out-parameters;
`converted_str = none` is "not written", `some none` is NULL; a byte count is
`none` when its pointer was NULL or was not written. -/
structure Converted where
  r : Int
  converted_str : Option (Option (List Nat))
  bytes_read : Option Nat
  bytes_written : Option Nat
  deriving DecidableEq, Repr

/-- Locals of `convert_with_iconv` that its loop changes. -/
structure IconvState where
  p : Nat
  inbytes_remaining : Nat
  out : List Nat
  outbytes_remaining : Nat
  outbuf_size : Nat
  r : Int
  have_error : Bool
  done : Bool
  reset : Bool
  deriving DecidableEq, Repr

def NUL_TERMINATOR_LENGTH : Nat := 4

/-- The `while (!done && !have_error)` loop of `convert_with_iconv`; the
converter is the list of its answers to the successive `iconv` calls. -/
def iconv_loop : List IconvAnswer → IconvState → Except Abort IconvState
  | answers, st =>
    if st.done ∨ st.have_error then .ok st
    else
      match answers with
      | [] => .error Abort.no_answer
      | a :: rest =>
        let st1 : IconvState :=
          { st with p := st.p + a.consumed,
                    inbytes_remaining := st.inbytes_remaining - a.consumed,
                    out := st.out ++ a.produced,
                    outbytes_remaining := st.outbytes_remaining - a.produced.length }
        match a.err with
        | some e =>
          if e = EINVAL then iconv_loop rest { st1 with done := true }
          else if e = E2BIG then
            iconv_loop rest
              { st1 with outbuf_size := st1.outbuf_size * 2,
                         outbytes_remaining :=
                           st1.outbuf_size * 2 - st1.out.length - NUL_TERMINATOR_LENGTH }
          else iconv_loop rest { st1 with r := -e, have_error := true }
        | none =>
          if !st1.reset then iconv_loop rest { st1 with reset := true, inbytes_remaining := 0 }
          else iconv_loop rest { st1 with done := true }

/-- Source `convert_with_iconv`; `converter = none` is `(iconv_t) -1`, and
`want_read`, `want_written` tell whether `bytes_read`, `bytes_written` are
non-NULL. -/
def convert_with_iconv (mem : List Nat) (len : Int) (converter : Option (List IconvAnswer))
    (want_read want_written : Bool) : Except Abort Converted :=
  match converter with
  | none => .error Abort.assert_failed
  | some answers =>
    let len1 : Nat := if len < 0 then (cstr mem).length else len.toNat
    match iconv_loop answers
        { p := 0, inbytes_remaining := len1, out := [], outbytes_remaining := len1,
          outbuf_size := len1 + NUL_TERMINATOR_LENGTH, r := 0, have_error := false,
          done := false, reset := false } with
    | .error e => .error e
    | .ok st =>
      let bad : Bool := !want_read && decide (st.p ≠ len1) && !st.have_error
      let r : Int := if bad then -EINVAL else st.r
      let have_error : Bool := st.have_error || bad
      .ok { r := r,
            converted_str := if have_error then some none else some (some st.out),
            bytes_read := if want_read then some st.p else none,
            bytes_written := if want_written then some st.out.length else none }

/-- What the C library tells `locale_to_utf8`: whether `nl_langinfo (CODESET)`
is `"UTF-8"`, what `iconv_open ("UTF-8", charset)` returns (`none` is
`(iconv_t) -1`), and whether `strndup` returns its copy (`false`: it returns
NULL, there is no memory for the copy). -/
structure Locale where
  is_utf8 : Bool
  iconv_open : Option (List IconvAnswer)
  strndup : Bool := true

/-- Source `strndup (s, n)` on the buffer `mem`: the bytes before the first NUL
among the first `n`, or NULL when `ok` is `false`. -/
def strndup (ok : Bool) (mem : List Nat) (n : Nat) : Option (List Nat) :=
  if ok then some (cstr (mem.take n)) else none

/-- Source `locale_to_utf8`.  The result of `strndup` is stored as it is, NULL
or not, and `r` stays 0. -/
def locale_to_utf8 (loc : Locale) (mem : List Nat) (len : Int) (want_read want_written : Bool) :
    Except Abort Converted :=
  if loc.is_utf8 then
    if !(utf8_validate mem len).1 then
      .ok { r := -EILSEQ, converted_str := some none, bytes_read := none, bytes_written := none }
    else
      let len1 : Nat := if len < 0 then (cstr mem).length else len.toNat
      .ok { r := 0, converted_str := some (strndup loc.strndup mem len1),
            bytes_read := if want_read then some len1 else none,
            bytes_written := if want_written then some len1 else none }
  else
    match loc.iconv_open with
    | none => convert_with_iconv mem len none want_read want_written
    | some _ =>
      .ok { r := -EINVAL, converted_str := none, bytes_read := none, bytes_written := none }

/-! ## Backspace merging -/

/-- Source `strstr (p, "\b")` on the C string at offset `p`: the first offset
from `p` on that holds a backspace, before the NUL. -/
def strstr_bs (mem : List Nat) : Nat → Nat → Option Nat
  | 0, _ => none
  | fuel + 1, p =>
    if byte mem p = 0 then none
    else if byte mem p = 8 then some p
    else strstr_bs mem fuel (p + 1)

/-- Source `strlen` on the C string at offset `p`. -/
def strlen (mem : List Nat) (p : Nat) : Nat := (cstr (mem.drop p)).length

/-- Source `memmove (dst, src, n)` inside one buffer. -/
def memmove (mem : List Nat) (dst src n : Nat) : List Nat :=
  (List.range mem.length).map
    (fun i => if dst ≤ i ∧ i < dst + n then byte mem (src + (i - dst)) else byte mem i)

/-- Locals of `utf8_merge_backspace_char` and the buffer. -/
structure Merge where
  buf : List Nat
  not_before : Nat
  new_start : Option Nat
  start : Option Nat
  deriving DecidableEq, Repr

/-- The `while (ptr)` loop of `utf8_merge_backspace_char`.  Every pass moves
`ptr` forward; `none` when the fuel runs out or `start` is NULL where the code
compares it with `end`. -/
def merge_loop : Nat → Merge → Option Nat → Option Merge
  | _, st, none => some st
  | 0, _, some _ => none
  | fuel + 1, st, some ptr =>
    let next := ptr + 1
    match st.new_start with
    | some new_start =>
      match utf8_find_prev_char st.buf st.not_before ptr with
      | none => some st
      | some end_ =>
        match st.start with
        | none => none
        | some start =>
          if end_ > start then
            merge_loop fuel
              { st with buf := memmove st.buf new_start start (end_ - start),
                        new_start := some end_, start := some next }
              (strstr_bs (memmove st.buf new_start start (end_ - start)) st.buf.length next)
          else if end_ = start then
            merge_loop fuel { st with start := some next } (strstr_bs st.buf st.buf.length next)
          else
            match utf8_find_prev_char st.buf st.not_before new_start with
            | some ns =>
              merge_loop fuel { st with new_start := some ns, start := some next }
                (strstr_bs st.buf st.buf.length next)
            | none =>
              merge_loop fuel { st with new_start := none, not_before := ptr }
                (strstr_bs st.buf st.buf.length next)
    | none =>
      match utf8_find_prev_char st.buf st.not_before ptr with
      | some ns =>
        merge_loop fuel { st with new_start := some ns, start := some next }
          (strstr_bs st.buf st.buf.length next)
      | none =>
        merge_loop fuel { st with new_start := none, not_before := ptr }
          (strstr_bs st.buf st.buf.length next)

/-- Source `utf8_merge_backspace_char` on the buffer `line ++ [0]`: the C
string it returns. -/
def utf8_merge_backspace_char (line : List Nat) : Option (List Nat) :=
  let buf := line ++ [0]
  match merge_loop buf.length
      { buf := buf, not_before := 0, new_start := none, start := none }
      (strstr_bs buf buf.length 0) with
  | none => none
  | some st =>
    match st.new_start, st.start with
    | some new_start, some start =>
      some (cstr (memmove st.buf new_start start (strlen st.buf start + 1)))
    | some _, none => none
    | none, _ => some (cstr st.buf)

/-! ## What the validator is to accept, in the words of the specification -/

/-- A code point that the rules of the validator admit: below `0x110000`, no
surrogate, outside `U+FDD0..U+FDEF`, and `(c & 0xFFFE) != 0xFFFE`. -/
def scalar_valid (c : Nat) : Prop :=
  c < 0x110000 ∧ ¬ (0xD800 ≤ c ∧ c ≤ 0xDFFF) ∧ ¬ (0xFDD0 ≤ c ∧ c ≤ 0xFDEF)
    ∧ c &&& 0xFFFE ≠ 0xFFFE

instance (c : Nat) : Decidable (scalar_valid c) := by
  unfold scalar_valid; infer_instance

/-- Shortest-form UTF-8 encoding of a code point, 1 to 4 bytes. -/
def encode (c : Nat) : List Nat :=
  if c < 0x80 then [c]
  else if c < 0x800 then [0xC0 + c / 64, 0x80 + c % 64]
  else if c < 0x10000 then [0xE0 + c / 4096, 0x80 + c / 64 % 64, 0x80 + c % 64]
  else [0xF0 + c / 262144, 0x80 + c / 4096 % 64, 0x80 + c / 64 % 64, 0x80 + c % 64]

/-- The byte string is a concatenation of shortest-form encodings of admitted
code points. -/
def WellFormed (s : List Nat) : Prop :=
  ∃ cs : List Nat, (∀ c ∈ cs, scalar_valid c) ∧ s = cs.flatMap encode

/-- The bytes `l` stand in the buffer from offset `p` on. -/
def Occ (mem : List Nat) (p : Nat) (l : List Nat) : Prop :=
  ∀ i, i < l.length → byte mem (p + i) = l.getD i 0

/-- The encoding of the admitted code point `c`, not NUL, stands at offset `p`
and ends within the first `max_len` bytes. -/
def Starts (mem : List Nat) (max_len p c : Nat) : Prop :=
  scalar_valid c ∧ c ≠ 0 ∧ Occ mem p (encode c) ∧ p + (encode c).length ≤ max_len

end Utf8

namespace WQ

/-! # Theorems -/

/-! ## Memory framing and the list primitives -/

theorem Lseg_update_of_not_mem (h : Heap) (p : Ptr) (v : WorkItem) :
    ∀ (l : List Ptr) (x : Option Ptr), p ∉ l →
      (Lseg (Function.update h p v) x l ↔ Lseg h x l) := by
  intro l
  induction l with
  | nil => intro x _; simp [Lseg]
  | cons a l ih =>
    intro x hp
    have hne : a ≠ p := fun e => hp (by simp [e])
    have hl : p ∉ l := fun e => hp (by simp [e])
    simp [Lseg, Function.update_noteq hne, ih _ hl]

theorem Lseg_functional (h : Heap) :
    ∀ (l l2 : List Ptr) (x : Option Ptr), Lseg h x l → Lseg h x l2 → l = l2 := by
  intro l
  induction l with
  | nil =>
    intro l2 x h1 h2
    cases l2 with
    | nil => rfl
    | cons b l2 => simp [Lseg] at h1 h2; rw [h1] at h2; cases h2.1
  | cons a l ih =>
    intro l2 x h1 h2
    cases l2 with
    | nil => simp [Lseg] at h1 h2; rw [h2] at h1; cases h1.1
    | cons b l2 =>
      simp only [Lseg] at h1 h2
      have hab : a = b := by
        have := h1.1.symm.trans h2.1
        exact Option.some.inj this
      subst hab
      rw [ih l2 _ h1.2 h2.2]

theorem Lseg_walk (h : Heap) :
    ∀ (l : List Ptr) (x : Option Ptr) (fuel : Nat), Lseg h x l → l.length ≤ fuel →
      walk h fuel x = l := by
  intro l
  induction l with
  | nil =>
    intro x fuel hx _
    simp [Lseg] at hx
    subst hx
    cases fuel <;> simp [walk]
  | cons a l ih =>
    intro x fuel hx hf
    simp only [Lseg] at hx
    obtain ⟨hx1, hx2⟩ := hx
    subst hx1
    cases fuel with
    | zero => simp at hf
    | succ n =>
      simp only [walk]
      rw [ih _ n hx2 (by simpa using hf)]

theorem Lseg_snoc (h : Heap) (t p : Ptr) (vp vt : WorkItem)
    (hvp : vp.next = none) (hvt : vt.next = some p) :
    ∀ (l : List Ptr) (x : Option Ptr), Lseg h x (l ++ [t]) → t ∉ l → p ∉ l → p ≠ t →
      Lseg (Function.update (Function.update h p vp) t vt) x (l ++ [t] ++ [p]) := by
  intro l
  induction l with
  | nil =>
    intro x hx _ _ hpt
    simp only [List.nil_append, Lseg] at hx
    simp [Lseg, hx.1, hvt, Function.update_noteq hpt, hvp]
  | cons a l ih =>
    intro x hx ht hp hpt
    simp only [List.cons_append, Lseg] at hx
    have hat : a ≠ t := fun e => ht (by simp [e])
    have hap : a ≠ p := fun e => hp (by simp [e])
    have ht2 : t ∉ l := fun e => ht (by simp [e])
    have hp2 : p ∉ l := fun e => hp (by simp [e])
    simp only [List.cons_append, Lseg, Function.update_noteq hat, Function.update_noteq hap]
    exact ⟨hx.1, by simpa using ih _ hx.2 ht2 hp2 hpt⟩

theorem add_tail_fields (h : Heap) (Q : WorkQueue) (p : Ptr) :
    ∃ hd, (_work_queue_add_tail_unlocked h Q p).2
      = { Q with head := hd, tail := some p, n_items := Q.n_items + 1 } := by
  simp only [_work_queue_add_tail_unlocked]
  cases Q.tail with
  | none => exact ⟨some p, rfl⟩
  | some t => exact ⟨Q.head, rfl⟩

theorem add_tail_payload (h : Heap) (Q : WorkQueue) (p x : Ptr) :
    payload ((_work_queue_add_tail_unlocked h Q p).1 x) = payload (h x) := by
  simp only [_work_queue_add_tail_unlocked]
  cases Q.tail with
  | none =>
    simp only [Function.update_apply]
    split
    · next e => subst e; rfl
    · rfl
  | some t =>
    simp only [Function.update_apply]
    split
    · next e =>
      subst e
      split
      · next e2 => subst e2; rfl
      · rfl
    · split
      · next e2 => subst e2; rfl
      · rfl

theorem payload_update (h : Heap) (c x : Ptr) (v : WorkItem) (hv : payload v = payload (h c)) :
    payload (Function.update h c v x) = payload (h x) := by
  simp only [Function.update_apply]
  split
  · next e => subst e; exact hv
  · rfl

theorem update_next_payload (h : Heap) (c x : Ptr) (v : Option Ptr) :
    payload (Function.update h c { h c with next := v } x) = payload (h x) := by
  simp only [Function.update_apply]
  split
  · next e => subst e; rfl
  · rfl

theorem add_tail_chain (h : Heap) (Q : WorkQueue) (l : List Ptr) (p : Ptr)
    (hr : Chain h Q l) (hp : p ∉ l) :
    Chain (_work_queue_add_tail_unlocked h Q p).1 (_work_queue_add_tail_unlocked h Q p).2
      (l ++ [p]) := by
  obtain ⟨hseg, htail, hcount, hnd⟩ := hr
  have hnd2 : (l ++ [p]).Nodup := by
    rw [List.nodup_append]
    refine ⟨hnd, by simp, ?_⟩
    intro a ha hb
    simp at hb
    subst hb
    exact hp ha
  rcases List.eq_nil_or_concat l with hl | ⟨L, t, hl⟩
  · subst hl
    simp only [List.getLast?_nil] at htail
    simp only [Lseg] at hseg
    simp only [_work_queue_add_tail_unlocked, htail]
    refine ⟨?_, ?_, ?_, hnd2⟩
    · simp [Lseg]
    · simp
    · simp [hcount]
  · rw [List.concat_eq_append] at hl
    subst hl
    have htl : Q.tail = some t := by simpa using htail
    simp only [_work_queue_add_tail_unlocked, htl]
    have hpt : p ≠ t := fun e => hp (by simp [e])
    have hpL : p ∉ L := fun e => hp (by simp [e])
    have htL : t ∉ L := by
      have := List.nodup_append.1 hnd
      intro e
      exact this.2.2 e (by simp)
    refine ⟨?_, ?_, ?_, hnd2⟩
    · exact Lseg_snoc h t p { h p with next := none }
        { Function.update h p { h p with next := none } t with next := some p }
        rfl rfl L _ hseg htL hpL hpt
    · simp
    · simp [hcount]; ring

theorem drain_chain (h : Heap) (Q : WorkQueue) (p : Ptr) (l : List Ptr)
    (hr : Chain h Q (p :: l)) :
    ∃ Q1, _work_queue_drain_one_unlocked h Q
        = .ok (some p, Function.update h p { h p with next := none }, Q1)
      ∧ Chain (Function.update h p { h p with next := none }) Q1 l
      ∧ ∃ hd tl, Q1 = { Q with head := hd, tail := tl, n_items := Q.n_items - 1 } := by
  obtain ⟨hseg, htail, hcount, hnd⟩ := hr
  simp only [Lseg] at hseg
  obtain ⟨hhead, hrest⟩ := hseg
  have hpl : p ∉ l := (List.nodup_cons.1 hnd).1
  have hndl : l.Nodup := (List.nodup_cons.1 hnd).2
  cases l with
  | nil =>
    simp only [Lseg] at hrest
    have hn : Q.n_items = 1 := by simpa using hcount
    refine ⟨{ Q with head := none, tail := none, n_items := Q.n_items - 1 }, ?_, ?_,
      none, none, rfl⟩
    · simp [_work_queue_drain_one_unlocked, hhead, hrest, hn]
    · exact ⟨by simp [Lseg], by simp, by simp [hn], hndl⟩
  | cons b l =>
    simp only [Lseg] at hrest
    refine ⟨{ Q with head := some b, n_items := Q.n_items - 1 }, ?_, ?_,
      some b, Q.tail, rfl⟩
    · simp [_work_queue_drain_one_unlocked, hhead, hrest.1]
    · refine ⟨?_, ?_, ?_, hndl⟩
      · rw [Lseg_update_of_not_mem h p _ _ _ hpl]
        exact ⟨rfl, hrest.2⟩
      · simpa using htail
      · simp [hcount]

theorem drain_empty (h : Heap) (Q : WorkQueue) (hr : Chain h Q []) :
    _work_queue_drain_one_unlocked h Q = .ok (none, h, Q) := by
  have hh : Q.head = none := by simpa [Lseg] using hr.seg
  simp [_work_queue_drain_one_unlocked, hh]

theorem add_tail_many_chain :
    ∀ (ps : List Ptr) (h : Heap) (Q : WorkQueue) (l : List Ptr),
      Chain h Q l → (l ++ ps).Nodup →
      Chain (add_tail_many h Q ps).1 (add_tail_many h Q ps).2 (l ++ ps) := by
  intro ps
  induction ps with
  | nil => intro h Q l hr _; simpa [add_tail_many] using hr
  | cons p ps ih =>
    intro h Q l hr hnd
    have hnd2 : (l ++ [p] ++ ps).Nodup := by simpa using hnd
    have hp : p ∉ l := by
      have := List.nodup_append.1 hnd
      intro e
      exact this.2.2 e (by simp)
    have := ih _ _ (l ++ [p]) (add_tail_chain h Q l p hr hp) hnd2
    simpa [add_tail_many] using this

theorem drain_many_chain :
    ∀ (l : List Ptr) (h : Heap) (Q : WorkQueue), Chain h Q l →
      ∃ h1 Q1, drain_many h Q l.length = .ok (l.map some, h1, Q1) ∧ Chain h1 Q1 [] := by
  intro l
  induction l with
  | nil => intro h Q hr; exact ⟨h, Q, rfl, hr⟩
  | cons p l ih =>
    intro h Q hr
    obtain ⟨Q1, hd, hr1, _⟩ := drain_chain h Q p l hr
    obtain ⟨h2, Q2, hd2, hr2⟩ := ih _ Q1 hr1
    exact ⟨h2, Q2, by simp [drain_many, hd, hd2], hr2⟩

/-! ## C5 -/

/-- C5: items leave a queue in the order they were appended.  From a queue
holding the chain `l`, appending the fresh items `ps` with
`_work_queue_add_tail_unlocked` and then calling
`_work_queue_drain_one_unlocked` once per item returns `l` followed by `ps`, in
that order, and leaves an empty queue on which a further drain returns NULL
and changes neither memory nor the queue. -/
theorem fifo_order (h : Heap) (Q : WorkQueue) (l ps : List Ptr)
    (hr : Chain h Q l) (hfresh : (l ++ ps).Nodup) :
    ∃ h1 Q1,
      drain_many (add_tail_many h Q ps).1 (add_tail_many h Q ps).2 (l.length + ps.length)
        = .ok ((l ++ ps).map some, h1, Q1)
      ∧ _work_queue_drain_one_unlocked h1 Q1 = .ok (none, h1, Q1) := by
  obtain ⟨h1, Q1, hd, hr1⟩ :=
    drain_many_chain (l ++ ps) _ _ (add_tail_many_chain ps h Q l hr hfresh)
  refine ⟨h1, Q1, ?_, drain_empty h1 Q1 hr1⟩
  simpa using hd

theorem Lseg_congr (h h2 : Heap) :
    ∀ (l : List Ptr) (x : Option Ptr), (∀ p ∈ l, (h2 p).next = (h p).next) →
      (Lseg h2 x l ↔ Lseg h x l) := by
  intro l
  induction l with
  | nil => intro x _; simp [Lseg]
  | cons a l ih =>
    intro x hn
    simp only [Lseg]
    rw [hn a (by simp), ih _ (fun p hp => hn p (by simp [hp]))]

theorem Chain_congr (h h2 : Heap) (Q Q2 : WorkQueue) (l : List Ptr) (hr : Chain h Q l)
    (hh : Q2.head = Q.head) (ht : Q2.tail = Q.tail) (hn : Q2.n_items = Q.n_items)
    (hnext : ∀ p ∈ l, (h2 p).next = (h p).next) : Chain h2 Q2 l :=
  ⟨by rw [hh]; exact (Lseg_congr h h2 l _ hnext).2 hr.seg, by rw [ht]; exact hr.tail,
    by rw [hn]; exact hr.count, hr.nodup⟩

theorem more_thread_ok (env : Env) (s : Engine) (q : QId) (ht : env.thread_create = 0) :
    ∃ k : Int, _more_thread_unlocked env s q
      = (1, { s with queues := Function.update s.queues q
                       { s.queues q with n_threads := (s.queues q).n_threads + k },
                     threads := Function.update s.threads q
                       (if k = 0 then s.threads q else Pc.wait :: s.threads q) })
      ∧ (k = 0 ∨ k = 1) := by
  by_cases hc : (s.queues q).n_threads = 0 ∨
      (decide ((s.queues q).n_threads < (s.queues q).width) &&
        decide ((s.queues q).n_threads - (s.queues q).n_running < (s.queues q).n_items + 1)) = true
  · refine ⟨1, ?_, Or.inr rfl⟩
    simp only [_more_thread_unlocked, ht]
    rw [if_pos hc]
    simp
  · refine ⟨0, ?_, Or.inl rfl⟩
    simp only [_more_thread_unlocked, ht]
    rw [if_neg hc]
    simp

/-- With `pthread_create` and `new0` succeeding, the prepare step returns a
non-negative value and touches, of queue `q`, only `n_threads` and `n_running`;
in memory, only the runner block and the `next` field of the pool's tail. -/
theorem prepare_executive_ok (env : Env) (s : Engine) (q : QId)
    (hq : q ≠ QId.concurrent) (hv : (s.queues q).vtable ≠ none)
    (hc : (s.queues QId.concurrent).vtable = some VTable.queue)
    (ht : env.thread_create = 0)
    (hr : (s.queues q).vtable = some VTable.bucket → env.runner ≠ none) :
    ∃ (r0 : Int) (s1 : Engine) (a b : Int), prepare_executive env s q = .ok (r0, s1) ∧ 0 ≤ r0
      ∧ s1.queues q = { s.queues q with n_threads := a, n_running := b }
      ∧ (s1.queues QId.concurrent).vtable = some VTable.queue
      ∧ s1.log = s.log
      ∧ (∀ x, env.runner ≠ some x → (s.queues QId.concurrent).tail ≠ some x →
          s1.heap x = s.heap x)
      ∧ ((s.queues q).vtable = some VTable.queue → s1.heap = s.heap) := by
  cases hvt : (s.queues q).vtable with
  | none => exact absurd hvt hv
  | some vt =>
    cases vt with
    | queue =>
      obtain ⟨k, hk, _⟩ := more_thread_ok env s q ht
      refine ⟨1, (_more_thread_unlocked env s q).2, (s.queues q).n_threads + k,
        (s.queues q).n_running,
        by simp [prepare_executive, hvt, prepare_executive_queue, hk], by decide, ?_⟩
      rw [hk]
      refine ⟨?_, ?_, rfl, fun _ _ _ => rfl, fun _ => rfl⟩
      · simp
      · simp [Function.update_noteq (Ne.symm hq), hc]
    | bucket =>
      by_cases hw : (s.queues q).n_running ≥ (s.queues q).width
      · refine ⟨0, s, (s.queues q).n_threads, (s.queues q).n_running,
          by simp [prepare_executive, hvt, prepare_executive_bucket, hw], le_refl _,
          rfl, hc, rfl, fun _ _ _ => rfl, fun _ => rfl⟩
      · cases hrn : env.runner with
        | none => exact absurd hrn (hr hvt)
        | some r =>
          obtain ⟨k, hk, _⟩ := more_thread_ok env (s.setItem r (runner_item q)) QId.concurrent ht
          have hc2 : ((s.setItem r (runner_item q)).queues QId.concurrent).vtable
              = some VTable.queue := hc
          have hp : prepare_executive env s q = prepare_executive_bucket env s q := by
            simp [prepare_executive, hvt]
          rw [hp]
          simp only [prepare_executive_bucket, if_neg hw, hrn, add_unlocked_with,
            prepare_executive_pool, hc2, prepare_executive_queue, hk]
          simp only [Bool.false_and, Bool.not_false, Bool.and_true, Bool.false_eq_true,
            if_false, show ¬ ((1 : Int) < 0) by decide]
          refine ⟨0, _, (s.queues q).n_threads, (s.queues q).n_running + 1, rfl, le_refl _,
            ?_, ?_, ?_, ?_, ?_⟩
          · simp [Engine.setQ, Engine.setItem, Function.update_noteq hq]
          · simp [Engine.setQ, Engine.setItem, Function.update_noteq (Ne.symm hq),
              _work_queue_add_tail_unlocked]
            cases (s.queues QId.concurrent).tail <;> simp [hc]
          · simp [Engine.setQ, Engine.setItem]
          · intro x hx1 hx2
            have hx1 : x ≠ r := fun e => hx1 (by simp [e])
            cases htl : (s.queues QId.concurrent).tail with
            | none =>
              simp [Engine.setQ, Engine.setItem, _work_queue_add_tail_unlocked, htl,
                Function.update_noteq hx1]
            | some t =>
              have hx3 : x ≠ t := fun e => hx2 (by simp [htl, e])
              simp [Engine.setQ, Engine.setItem, _work_queue_add_tail_unlocked, htl,
                Function.update_noteq hx1, Function.update_noteq hx3]
          · intro h; cases h

theorem add_unlocked_accept (env : Env) (s : Engine) (q : QId) (item : Ptr)
    (do_rewind impose : Bool) (hq : q ≠ QId.concurrent)
    (hv : (s.queues q).vtable ≠ none)
    (hc : (s.queues QId.concurrent).vtable = some VTable.queue)
    (ht : env.thread_create = 0)
    (hr : (s.queues q).vtable = some VTable.bucket → env.runner ≠ none)
    (hroom : impose = false ∨ (s.queues q).n_items < (s.queues q).maxsize) :
    ∃ (s1 s2 : Engine) (a b : Int),
      _work_queue_add_unlocked env s q item do_rewind impose = .ok (0, s2)
      ∧ s1.queues q = { s.queues q with n_threads := a, n_running := b }
      ∧ (s1.queues QId.concurrent).vtable = some VTable.queue
      ∧ s1.log = s.log
      ∧ (∀ x, env.runner ≠ some x → (s.queues QId.concurrent).tail ≠ some x →
          s1.heap x = s.heap x)
      ∧ ((s.queues q).vtable = some VTable.queue → s1.heap = s.heap)
      ∧ s2 = { s1 with heap := (_work_queue_add_tail_unlocked s1.heap (s1.queues q) item).1,
                       queues := Function.update s1.queues q
                         (_work_queue_add_tail_unlocked s1.heap (s1.queues q) item).2 } := by
  obtain ⟨r0, s1, a, b, hp, hr0, h1, h2, h3, h4, h5⟩ :=
    prepare_executive_ok env s q hq hv hc ht hr
  refine ⟨s1, _, a, b, ?_, h1, h2, h3, h4, h5, rfl⟩
  have hfull : (impose && decide ((s.queues q).n_items ≥ (s.queues q).maxsize)) = false := by
    rcases hroom with h | h
    · simp [h]
    · simp [h]
  simp only [_work_queue_add_unlocked, add_unlocked_with, hfull, hp, Bool.false_and,
    Bool.false_eq_true, if_false, not_lt.2 hr0]

theorem work_queue_ref_ok (s : Engine) (q : QId) (hq1 : q ≠ QId.concurrent)
    (hq2 : q ≠ QId.main) (hx : 0 < (s.queues q).xref_cnt) :
    work_queue_ref s q
      = .ok (s.setQ q { s.queues q with xref_cnt := (s.queues q).xref_cnt + 1 }) := by
  simp [work_queue_ref, hq1, hq2, hx]

theorem work_queue_unref_ok (env : Env) (s : Engine) (q : QId) (hq1 : q ≠ QId.concurrent)
    (hq2 : q ≠ QId.main) (hx : 1 < (s.queues q).xref_cnt) :
    work_queue_unref env s q
      = .ok (s.setQ q { s.queues q with xref_cnt := (s.queues q).xref_cnt - 1 }) := by
  have h0 : 0 < (s.queues q).xref_cnt := by omega
  have h1 : ¬ (s.queues q).xref_cnt - 1 = 0 := by omega
  simp [work_queue_unref, hq1, hq2, h0, h1, Engine.setQ]

/-- An add that finds room: the item is written at `item`, the prepare step
runs (state `s1`), the item is linked at the tail, and the reference taken for
the call is dropped again. -/
theorem add_item_accept (env : Env) (s : Engine) (q : QId) (do_rewind : Bool)
    (w : Nat) (notify cancel : Option Nat) (data : Data) (item : Ptr)
    (hc : Callable s q) (ha : env.alloc = some item) (ht : env.thread_create = 0)
    (hr : (s.queues q).vtable = some VTable.bucket → env.runner ≠ none)
    (hroom : (s.queues q).n_items < (s.queues q).maxsize) :
    ∃ (s1 s2 : Engine) (a b : Int),
      add_item env s q do_rewind w notify cancel data = .ok (0, s2)
      ∧ s1.queues q = { s.queues q with n_threads := a, n_running := b }
      ∧ (s1.queues QId.concurrent).vtable = some VTable.queue
      ∧ s1.log = s.log
      ∧ (∀ x, env.runner ≠ some x → (s.queues QId.concurrent).tail ≠ some x → x ≠ item →
          s1.heap x = s.heap x)
      ∧ (env.runner ≠ some item → (s.queues QId.concurrent).tail ≠ some item →
          s1.heap item = { work := some (Fn.user w), notify := notify.map Fn.user,
                           cancel := cancel.map Fn.user, data := data, next := none })
      ∧ ((s.queues q).vtable = some VTable.queue →
          s1.heap = Function.update s.heap item
            { work := some (Fn.user w), notify := notify.map Fn.user,
              cancel := cancel.map Fn.user, data := data, next := none })
      ∧ s2 = { s1 with heap := (_work_queue_add_tail_unlocked s1.heap (s1.queues q) item).1,
                       queues := Function.update s1.queues q
                         (_work_queue_add_tail_unlocked s1.heap (s1.queues q) item).2 } := by
  obtain ⟨hq1, hq2, hx, hv, hp⟩ := hc
  obtain ⟨s1, s2, a, b, hadd, h1, h2, h3, h4, h5, h6⟩ :=
    add_unlocked_accept env
      ((s.setQ q { s.queues q with xref_cnt := (s.queues q).xref_cnt + 1 }).setItem item
        { work := some (Fn.user w), notify := notify.map Fn.user,
          cancel := cancel.map Fn.user, data := data, next := none })
      q item do_rewind true hq1 (by simpa [Engine.setQ, Engine.setItem] using hv)
      (by simpa [Engine.setQ, Engine.setItem, Function.update_noteq (Ne.symm hq1)] using hp)
      ht (by simpa [Engine.setQ, Engine.setItem] using hr)
      (Or.inr (by simpa [Engine.setQ, Engine.setItem] using hroom))
  simp only [Engine.setQ, Engine.setItem, Function.update_same] at h1 h3 h4 h5
  simp only [Function.update_noteq (Ne.symm hq1)] at h4
  have hx2 : 1 < (s2.queues q).xref_cnt := by
    rw [h6]
    simp only [Function.update_same, _work_queue_add_tail_unlocked]
    cases (s1.queues q).tail <;> simp [h1, hx]
  refine ⟨s1.setQ q { s1.queues q with xref_cnt := (s.queues q).xref_cnt },
    s2.setQ q { s2.queues q with xref_cnt := (s2.queues q).xref_cnt - 1 }, a, b, ?_, ?_, ?_,
    ?_, ?_, ?_, ?_, ?_⟩
  · simp only [add_item, work_queue_ref_ok s q hq1 hq2 hx, ha, _work_queue_add]
    rw [hadd]
    simp only [lt_self_iff_false, if_false]
    rw [work_queue_unref_ok env s2 q hq1 hq2 hx2]
  · simp [Engine.setQ, h1]
  · simpa [Engine.setQ, Function.update_noteq (Ne.symm hq1)] using h2
  · simpa [Engine.setQ] using h3
  · intro x hx1 hx2 hx3
    have := h4 x hx1 hx2
    simpa [Engine.setQ, Function.update_noteq hx3] using this
  · intro hx1 hx2
    have := h4 item hx1 hx2
    simpa [Engine.setQ] using this
  · intro hvq
    have := h5 hvq
    simpa [Engine.setQ] using this
  · rw [h6]
    simp only [Engine.setQ, Function.update_same, _work_queue_add_tail_unlocked]
    cases htl : (s1.queues q).tail <;> simp [h1, htl]

/-! ## C1 -/

theorem add_item_reject (env : Env) (s : Engine) (q : QId) (w : Nat) (notify cancel : Option Nat)
    (data : Data) (item : Ptr)
    (hq1 : q ≠ QId.concurrent) (hq2 : q ≠ QId.main)
    (hx : 0 < (s.queues q).xref_cnt) (ha : env.alloc = some item)
    (hfull : (s.queues q).maxsize ≤ (s.queues q).n_items) :
    add_item env s q false w notify cancel data
      = .ok (-EAGAIN,
          { s with heap := Function.update s.heap item
                     { work := some (Fn.user w), notify := notify.map Fn.user,
                       cancel := cancel.map Fn.user, data := data, next := none },
                   log := s.log ++ [Event.free item] }) := by
  have hx0 : ¬ (s.queues q).xref_cnt = 0 := by omega
  have hx1 : ¬ (s.queues q).xref_cnt + 1 = 0 := by omega
  have hx2 : 0 < (s.queues q).xref_cnt + 1 := by omega
  have hE : (-EAGAIN : Int) < 0 := by decide
  simp [add_item, work_queue_ref, work_queue_unref, hq1, hq2, hx, ha, _work_queue_add,
    _work_queue_add_unlocked, add_unlocked_with, Engine.setQ, Engine.setItem, hfull,
    Engine.free, Engine.emit, hE, hx0, hx1, hx2]

/-- One `work_queue_add` with the C library succeeding: the return value is
decided by `n_items` against `maxsize` alone, and the facts that make the next
add succeed are kept. -/
theorem add_item_step (env : Env) (s : Engine) (q : QId) (w : Nat) (notify cancel : Option Nat)
    (data : Data) (item : Ptr) (hc : Callable s q) (he : EnvOk env item) :
    ∃ s2 : Engine, add_item env s q false w notify cancel data
        = .ok (if (s.queues q).n_items < (s.queues q).maxsize then 0 else -EAGAIN, s2)
      ∧ Callable s2 q
      ∧ (s2.queues q).maxsize = (s.queues q).maxsize
      ∧ (s2.queues q).n_items
          = (s.queues q).n_items + (if (s.queues q).n_items < (s.queues q).maxsize then 1 else 0)
      := by
  by_cases hroom : (s.queues q).n_items < (s.queues q).maxsize
  · obtain ⟨s1, s2, a, b, hadd, h1, h2, _, _, _, _, h6⟩ :=
      add_item_accept env s q false w notify cancel data item hc he.alloc he.thread
        (fun _ => he.runner) hroom
    have hq2 : s2.queues q = (_work_queue_add_tail_unlocked s1.heap (s1.queues q) item).2 := by
      rw [h6]; simp
    have hcq : s2.queues QId.concurrent = s1.queues QId.concurrent := by
      rw [h6]; simp [Function.update_noteq (Ne.symm hc.ne_conc)]
    refine ⟨s2, by simp [hadd, hroom], ⟨hc.ne_conc, hc.ne_main, ?_, ?_, ?_⟩, ?_, ?_⟩
    · rw [hq2]; simp only [_work_queue_add_tail_unlocked]
      cases (s1.queues q).tail <;> simp [h1, hc.xref]
    · rw [hq2]; simp only [_work_queue_add_tail_unlocked]
      cases (s1.queues q).tail <;> simp [h1, hc.vtable]
    · rw [hcq]; exact h2
    · rw [hq2]; simp only [_work_queue_add_tail_unlocked]
      cases (s1.queues q).tail <;> simp [h1]
    · rw [hq2]; simp only [_work_queue_add_tail_unlocked]
      cases (s1.queues q).tail <;> simp [h1, hroom]
  · have hfull : (s.queues q).maxsize ≤ (s.queues q).n_items := not_lt.1 hroom
    have hrej := add_item_reject env s q w notify cancel data item hc.ne_conc hc.ne_main
      hc.xref he.alloc hfull
    refine ⟨{ s with heap := Function.update s.heap item
                       { work := some (Fn.user w), notify := notify.map Fn.user,
                         cancel := cancel.map Fn.user, data := data, next := none },
                     log := s.log ++ [Event.free item] }, ?_,
      ⟨hc.ne_conc, hc.ne_main, hc.xref, hc.vtable, hc.pool⟩, rfl, by simp [hroom]⟩
    rw [hrej]; simp [hroom]

theorem submit_all_add :
    ∀ (xs : List Submission) (s : Engine) (q : QId), Callable s q →
      (∀ x ∈ xs, ∃ item, EnvOk x.env item) →
      ∃ s2 : Engine, submit_all false q s xs
        = .ok ((List.range xs.length).map
            (fun (i : Nat) => if (i : Int) < (s.queues q).maxsize - (s.queues q).n_items
              then (0 : Int) else -EAGAIN), s2) := by
  intro xs
  induction xs with
  | nil => intro s q _ _; exact ⟨s, rfl⟩
  | cons x xs ih =>
    intro s q hc he
    obtain ⟨item, hx⟩ := he x (by simp)
    obtain ⟨s1, h1, hc1, hm1, hn1⟩ := add_item_step x.env s q x.work x.notify x.cancel x.data
      item hc hx
    obtain ⟨s2, h2⟩ := ih s1 q hc1 (fun y hy => he y (by simp [hy]))
    refine ⟨s2, ?_⟩
    simp only [submit_all, work_queue_add, Bool.false_eq_true, if_false, h1, h2, hm1, hn1,
      List.length_cons, List.range_succ_eq_map, List.map_cons, List.map_map]
    have hhead : (if (s.queues q).n_items < (s.queues q).maxsize then (0 : Int) else -EAGAIN)
        = if ((0 : Nat) : Int) < (s.queues q).maxsize - (s.queues q).n_items then (0 : Int)
          else -EAGAIN := by
      by_cases hroom : (s.queues q).n_items < (s.queues q).maxsize
      · have h0 : ((0 : Nat) : Int) < (s.queues q).maxsize - (s.queues q).n_items := by
          simp; omega
        rw [if_pos hroom, if_pos h0]
      · have h0 : ¬ ((0 : Nat) : Int) < (s.queues q).maxsize - (s.queues q).n_items := by
          simp; omega
        rw [if_neg hroom, if_neg h0]
    have htail : ∀ i : Nat,
        (if (i : Int) < (s.queues q).maxsize - ((s.queues q).n_items +
            if (s.queues q).n_items < (s.queues q).maxsize then 1 else 0) then (0 : Int)
          else -EAGAIN)
        = if ((i + 1 : Nat) : Int) < (s.queues q).maxsize - (s.queues q).n_items then (0 : Int)
          else -EAGAIN := by
      intro i
      by_cases hroom : (s.queues q).n_items < (s.queues q).maxsize
      · simp only [hroom, if_true, Nat.cast_succ]
        congr 1
        apply propext
        constructor <;> intro h <;> omega
      · simp only [hroom, if_false, Nat.cast_succ, add_zero]
        have h1 : ¬ (i : Int) + 1 < (s.queues q).maxsize - (s.queues q).n_items := by omega
        have h2 : ¬ (i : Int) < (s.queues q).maxsize - (s.queues q).n_items := by omega
        rw [if_neg h1, if_neg h2]
    rw [hhead]
    have hmap : List.map (fun (i : Nat) =>
          if (i : Int) < (s.queues q).maxsize - ((s.queues q).n_items +
            if (s.queues q).n_items < (s.queues q).maxsize then 1 else 0) then (0 : Int)
          else -EAGAIN) (List.range xs.length)
        = List.map ((fun (i : Nat) =>
            if (i : Int) < (s.queues q).maxsize - (s.queues q).n_items then (0 : Int)
            else -EAGAIN) ∘ Nat.succ) (List.range xs.length) := by
      apply List.map_congr_left
      intro i _
      exact htail i
    rw [hmap]

/-- C1: on a live private queue or bucket `q` (a reference is held, the engine is
initialised) and with `new0` and `pthread_create` succeeding,
`work_queue_add` returns `-EAGAIN` exactly when `n_items >= maxsize`, whatever
`n_running` is.  When it does, no queue object and no thread changes (so
`n_items`, `n_running`, `n_threads`, `xref_cnt`, `head` and `tail` of `q` are
as before), memory changes only in the block allocated for the rejected item,
and the chain of `q` is the same.  As a consequence `N` adds in a row, with
nothing dequeued in between, return 0 for the calls numbered
`i < maxsize - n_items` and `-EAGAIN` for all later ones. -/
theorem add_full_iff_no_room (s : Engine) (q : QId) (hc : Callable s q) :
    (∀ (env : Env) (w : Nat) (notify cancel : Option Nat) (data : Data) (item : Ptr),
      EnvOk env item →
      ∃ (r : Int) (s2 : Engine),
        work_queue_add env s (some q) (some w) notify cancel data = .ok (r, s2)
        ∧ (r = -EAGAIN ↔ (s.queues q).n_items ≥ (s.queues q).maxsize)
        ∧ (r = -EAGAIN →
            s2.queues = s.queues ∧ s2.threads = s.threads
            ∧ (∀ x, x ≠ item → s2.heap x = s.heap x)
            ∧ ∀ l, Chain s.heap (s.queues q) l → item ∉ l → Chain s2.heap (s2.queues q) l))
    ∧ (∀ xs : List Submission, (∀ x ∈ xs, ∃ item, EnvOk x.env item) →
        ∃ s2 : Engine, submit_all false q s xs
          = .ok ((List.range xs.length).map
              (fun (i : Nat) => if (i : Int) < (s.queues q).maxsize - (s.queues q).n_items
                then (0 : Int) else -EAGAIN), s2)) := by
  refine ⟨?_, fun xs hxs => submit_all_add xs s q hc hxs⟩
  intro env w notify cancel data item he
  by_cases hroom : (s.queues q).n_items < (s.queues q).maxsize
  · obtain ⟨s2, h1, _, _, _⟩ := add_item_step env s q w notify cancel data item hc he
    rw [if_pos hroom] at h1
    refine ⟨0, s2, by simpa [work_queue_add] using h1, ?_, ?_⟩
    · constructor
      · intro h; exact absurd h (by decide)
      · intro h; omega
    · intro h; exact absurd h (by decide)
  · have hfull : (s.queues q).maxsize ≤ (s.queues q).n_items := not_lt.1 hroom
    have hrej := add_item_reject env s q w notify cancel data item hc.ne_conc hc.ne_main
      hc.xref he.alloc hfull
    refine ⟨-EAGAIN, _, by simpa [work_queue_add] using hrej, ?_, ?_⟩
    · exact ⟨fun _ => hfull, fun _ => rfl⟩
    · intro _
      refine ⟨rfl, rfl, fun x hx => by simp [Function.update_noteq hx], ?_⟩
      intro l hr hl
      exact ⟨(Lseg_update_of_not_mem s.heap item _ l _ hl).2 hr.seg, hr.tail, hr.count,
        hr.nodup⟩

/-! ## Rewind on a full queue whose head is a user item -/

theorem static_of_payload (a b : WorkItem) (h : payload a = payload b) :
    work_item_is_static a = work_item_is_static b := by
  have hw : a.work = b.work := by
    have := congrArg WorkItem.work h; simpa [payload] using this
  simp [work_item_is_static, work_item_is_stop, work_item_is_barrier, hw]

theorem cancel_calls_append (a b : List Event) :
    cancel_calls (a ++ b) = cancel_calls a ++ cancel_calls b := by
  induction a with
  | nil => rfl
  | cons e a ih => cases e <;> simp [cancel_calls, ih]

theorem static_false_iff (it : WorkItem) :
    work_item_is_static it = false ↔
      work_item_is_stop it = false ∧ work_item_is_barrier it = false := by
  simp [work_item_is_static]

/-- One `work_queue_run_main_queue (0)` when the head of the main queue is a
user item with a notifier of the caller: the item is taken off, its notifier
runs, the item is freed, the call returns 0. -/
theorem run_main_user (env : Env) (s : Engine) (p : Ptr) (l : List Ptr) (f : Nat)
    (hch : Chain s.heap (s.queues QId.main) (p :: l))
    (hst : work_item_is_static (s.heap p) = false)
    (hn : (s.heap p).notify = some (Fn.user f)) :
    ∃ s2 : Engine, work_queue_run_main_queue env s = .ok (0, s2)
      ∧ Chain s2.heap (s2.queues QId.main) l
      ∧ (∀ x, payload (s2.heap x) = payload (s.heap x))
      ∧ s2.log = s.log ++ [Event.notify (Fn.user f) (s.heap p).data p, Event.free p]
      ∧ (s2.queues QId.main).n_running = (s.queues QId.main).n_running
      ∧ (s2.queues QId.main).n_threads = (s.queues QId.main).n_threads
      ∧ (∀ q, q ≠ QId.main → s2.queues q = s.queues q) := by
  obtain ⟨Q1, hd, hch1, hd1, tl1, hQ1⟩ := drain_chain s.heap (s.queues QId.main) p l hch
  obtain ⟨hs1, hs2⟩ := (static_false_iff _).1 hst
  have hhead : (s.queues QId.main).head = some p := by
    have := hch.seg; simp only [Lseg] at this; exact this.1
  apply Exists.intro
  constructor
  · simp only [work_queue_run_main_queue, work_queue_run_unlocked, run_begin, hhead, hs1, hs2,
      Bool.false_and, Bool.false_eq_true, if_false, hd, run_end, work_item_execute,
      decide_True, if_true, Function.update_same, hn, call_fn, Engine.emit, hst, Bool.not_false,
      Engine.setQ]
    rfl
  · simp only [Function.update_same, Function.update_idem]
    refine ⟨?_, ?_, ?_, ?_, ?_, ?_⟩
    · refine Chain_congr _ _ _ _ _ hch1 rfl rfl rfl (fun x _ => ?_)
      simp only [Function.update_apply]
      split <;> rfl
    · intro x
      exact payload_update _ _ _ _ (by simp [payload, hn])
    · simp [hn]
      simpa [work_item_is_static, work_item_is_stop, work_item_is_barrier] using hst
    · rw [hQ1]; simp
    · rw [hQ1]
    · intro q hq; simp [Function.update_noteq hq]

theorem run_main_many_users (env : Env) :
    ∀ (l : List Ptr) (s : Engine), Chain s.heap (s.queues QId.main) l → UserItems s.heap l →
      ∃ s2 : Engine, run_main_many env s (l.length + 1)
        = .ok (List.replicate l.length 0 ++ [-EAGAIN], s2) := by
  intro l
  induction l with
  | nil =>
    intro s hch _
    have hh : (s.queues QId.main).head = none := by simpa [Lseg] using hch.seg
    exact ⟨s, by simp [run_main_many, work_queue_run_main_queue, work_queue_run_unlocked,
      run_begin, hh]⟩
  | cons p l ih =>
    intro s hch hu
    obtain ⟨hst, f, hn⟩ := hu p (by simp)
    obtain ⟨s1, h1, hch1, hpay, _, _, _, _⟩ := run_main_user env s p l f hch hst hn
    have hu1 : UserItems s1.heap l := by
      intro x hx
      obtain ⟨hxs, g, hg⟩ := hu x (by simp [hx])
      refine ⟨by rw [static_of_payload _ _ (hpay x)]; exact hxs, g, ?_⟩
      have := congrArg WorkItem.notify (hpay x)
      simp only [payload] at this
      rw [this, hg]
    obtain ⟨s2, h2⟩ := ih s1 hch1 hu1
    refine ⟨s2, ?_⟩
    have : (p :: l).length + 1 = (l.length + 1) + 1 := by simp
    rw [this, run_main_many, h1]
    simp only [h2, List.length_cons, List.replicate_succ, List.cons_append]

theorem run_begin_ret_eagain (env : Env) (s : Engine) (q : QId) (s2 : Engine)
    (h : run_begin env s q = .ok (Ran.ret (-EAGAIN), s2)) : (s.queues q).head = none := by
  cases hh : (s.queues q).head with
  | none => rfl
  | some hd =>
    exfalso
    simp only [run_begin, hh] at h
    split at h
    · simp at h; exact absurd h.1 (by decide)
    · split at h
      · split at h
        · simp at h; exact absurd h.1 (by decide)
        · split at h
          · cases h
          · split at h
            · cases h
            · simp at h; exact absurd h.1 (by decide)
      · split at h
        · split at h
          · cases h
          · split at h
            · cases h
            · simp at h; exact absurd h.1 (by decide)
        · split at h
          · cases h
          · simp at h

theorem run_unlocked_eagain_iff (env : Env) (s : Engine) (q : QId) (r : Int) (s2 : Engine)
    (h : work_queue_run_unlocked env s q = .ok (r, s2)) :
    r = -EAGAIN ↔ (s.queues q).head = none := by
  constructor
  · intro hr
    subst hr
    simp only [work_queue_run_unlocked] at h
    split at h
    · cases h
    · next r1 s1 hb =>
      simp only [Except.ok.injEq, Prod.mk.injEq] at h
      rw [h.1] at hb
      exact run_begin_ret_eagain env s q s1 hb
    · split at h
      · cases h
      · simp at h; exact absurd h.1 (by decide)
  · intro hh
    simp [work_queue_run_unlocked, run_begin, hh] at h
    exact h.1.symm

/-- One `work_queue_run_main_queue (0)` when the head of the main queue is a
stop item: the item is taken off (state `s0`), its notifier runs on `s0`, the
item is not freed, and the call returns `-ECANCELED`. -/
theorem run_main_stop (env : Env) (s : Engine) (p : Ptr) (l : List Ptr) (f : Fn)
    (hch : Chain s.heap (s.queues QId.main) (p :: l))
    (hs : work_item_is_stop (s.heap p) = true)
    (hn : (s.heap p).notify = some f) (ht : (s.queues QId.main).n_threads ≤ 1) :
    ∃ s0 : Engine, Chain s0.heap (s0.queues QId.main) l
      ∧ s0.log = s.log ++ [Event.notify f (s.heap p).data p]
      ∧ (∀ x, payload (s0.heap x) = payload (s.heap x))
      ∧ work_queue_run_main_queue env s
          = (match call_fn s0 f (s.heap p).data with
             | .ok s1 => .ok (-ECANCELED, s1)
             | .error e => .error e) := by
  obtain ⟨Q1, hd, hch1, hd1, tl1, hQ1⟩ := drain_chain s.heap (s.queues QId.main) p l hch
  have hhead : (s.queues QId.main).head = some p := by
    have := hch.seg; simp only [Lseg] at this; exact this.1
  have hw : (s.heap p).work = some Fn.wq_stop := by
    simpa [work_item_is_stop] using hs
  have hb : work_item_is_barrier (s.heap p) = false := by
    simp [work_item_is_barrier, hw]
  have hst : work_item_is_static
      { work := (s.heap p).work, notify := (s.heap p).notify, cancel := (s.heap p).cancel,
        data := (s.heap p).data, next := none } = true := by
    simp [work_item_is_static, work_item_is_stop, hw]
  have hst2 : work_item_is_static
      { work := (s.heap p).work, notify := some f, cancel := (s.heap p).cancel,
        data := (s.heap p).data, next := none } = true := by
    simp [work_item_is_static, work_item_is_stop, hw]
  refine ⟨({ s with heap := Function.update s.heap p { s.heap p with next := none },
                    queues := Function.update s.queues QId.main Q1 }).emit
            (Event.notify f (s.heap p).data p), ?_, ?_, ?_, ?_⟩
  · exact Chain_congr _ _ _ _ _ hch1 (by simp [Engine.emit]) (by simp [Engine.emit])
      (by simp [Engine.emit]) (fun _ _ => rfl)
  · simp [Engine.emit]
  · intro x
    simp only [Engine.emit]
    rw [update_next_payload]
  · simp only [work_queue_run_main_queue, work_queue_run_unlocked, run_begin, hhead, hb, hs,
      Bool.false_and, Bool.false_eq_true, if_false, if_true, not_lt.2 ht, hd,
      work_item_execute, decide_True, Function.update_same, hn, hst, Bool.not_true,
      List.append_nil]
    cases call_fn _ f (s.heap p).data <;> simp [hst2]

/-- C8: `work_queue_run_main_queue` with `timeout = 0`.  Whatever it returns, the
return value is `-EAGAIN` exactly when the main queue is empty, and then the
engine is unchanged.  When the head is a user item (with the notifier of its
submitter), exactly that item is taken off and freed after its notifier has
run, and the call returns 0.  When the head is a stop item (the main queue
has its single `n_threads = 1`), the item is taken off, its notifier runs,
and the call returns `-ECANCELED`.  With `k` user items on the main queue and
nothing else happening, `k` calls in a row return 0 and the next one returns
`-EAGAIN`. -/
theorem run_main_queue_zero_timeout (env : Env) (s : Engine) :
    (∀ (r : Int) (s2 : Engine), work_queue_run_main_queue env s = .ok (r, s2) →
        (r = -EAGAIN ↔ (s.queues QId.main).head = none))
    ∧ ((s.queues QId.main).head = none → work_queue_run_main_queue env s = .ok (-EAGAIN, s))
    ∧ (∀ (p : Ptr) (l : List Ptr) (f : Nat),
        Chain s.heap (s.queues QId.main) (p :: l) →
        work_item_is_static (s.heap p) = false → (s.heap p).notify = some (Fn.user f) →
        ∃ s2 : Engine, work_queue_run_main_queue env s = .ok (0, s2)
          ∧ Chain s2.heap (s2.queues QId.main) l
          ∧ (∀ x, payload (s2.heap x) = payload (s.heap x))
          ∧ s2.log = s.log ++ [Event.notify (Fn.user f) (s.heap p).data p, Event.free p])
    ∧ (∀ (p : Ptr) (l : List Ptr) (f : Fn),
        Chain s.heap (s.queues QId.main) (p :: l) →
        work_item_is_stop (s.heap p) = true → (s.heap p).notify = some f →
        (s.queues QId.main).n_threads ≤ 1 →
        ∃ s0 : Engine, Chain s0.heap (s0.queues QId.main) l
          ∧ s0.log = s.log ++ [Event.notify f (s.heap p).data p]
          ∧ (∀ x, payload (s0.heap x) = payload (s.heap x))
          ∧ work_queue_run_main_queue env s
              = (match call_fn s0 f (s.heap p).data with
                 | .ok s1 => .ok (-ECANCELED, s1)
                 | .error e => .error e))
    ∧ (∀ l : List Ptr, Chain s.heap (s.queues QId.main) l → UserItems s.heap l →
        ∃ s2 : Engine, run_main_many env s (l.length + 1)
          = .ok (List.replicate l.length 0 ++ [-EAGAIN], s2)) := by
  refine ⟨fun r s2 h => run_unlocked_eagain_iff env s QId.main r s2 h, ?_, ?_, ?_,
    fun l hch hu => run_main_many_users env l s hch hu⟩
  · intro hh
    simp [work_queue_run_main_queue, work_queue_run_unlocked, run_begin, hh]
  · intro p l f hch hst hn
    obtain ⟨s2, h1, h2, h3, h4, _⟩ := run_main_user env s p l f hch hst hn
    exact ⟨s2, h1, h2, h3, h4⟩
  · intro p l f hch hs hn ht
    exact run_main_stop env s p l f hch hs hn ht

/-! ## C2, C3, C9: runs on which the code departs from the claim -/

/-- C2 (failing input): a private queue of `maxsize` 2 is full with the flush
barrier at the head and one user item behind it, at the tail.
`work_queue_add_rewind` evicts that user item, but the barrier does not keep
its place: afterwards the queue links only the new item, while `n_items` is
still 2.  (`_work_queue_unlink_one_unlocked` sets `tail` to NULL instead of to
the barrier, so `_work_queue_add_tail_unlocked` overwrites `head`.) -/
theorem rewind_drops_sentinel_ahead_of_tail :
    queue_view (run_steps Engine.boot run_barrier_then_item) q0
      = some ([Ptr.ctl q0, Ptr.node 6], 2, 2, 1, 1)
    ∧ queue_view (run_steps Engine.boot (run_barrier_then_item ++ [rewind_after_barrier])) q0
      = some ([Ptr.node 8], 2, 2, 1, 0) := by
  constructor <;> decide

/-- C9 (failing input): on a private queue of `maxsize` 1, after a flush barrier
and two rewind adds, `n_items` is 2 while the queue links a single user item
and no barrier or stop item: `n_items <= maxsize + k` fails with `k = 0`. -/
theorem n_items_exceeds_bound :
    queue_view (run_steps Engine.boot run_two_rewinds) q0
      = some ([Ptr.node 10], 2, 1, 1, 0)
    ∧ ¬ ((2 : Int) ≤ 1 + ((0 : Nat) : Int)) := by
  constructor <;> decide

/-- C3 (failing input): `work_queue_flush` returns 0 although an item added
before the call is still pending in the queue and its work has not run (the
worker thread has not taken the lock yet: `n_running = 0`); and it returns 0
although an item added before the call, whose work has run, still waits on
the main queue for its notifier. -/
theorem flush_returns_early :
    (log_view (run_steps Engine.boot run_flush_before_worker)
        = some [Event.flush_returned q0 0]
      ∧ queue_view (run_steps Engine.boot run_flush_before_worker) q0
        = some ([Ptr.node 0], 1, 10, 0, 0))
    ∧ (log_view (run_steps Engine.boot run_flush_before_notify)
        = some [Event.work (Fn.user 1) (Data.user 0) (Ptr.node 0), Event.flush_returned q0 0]
      ∧ queue_view (run_steps Engine.boot run_flush_before_notify) QId.main
        = some ([Ptr.node 0], 1, 65535, 0, 0)) := by
  refine ⟨⟨?_, ?_⟩, ⟨?_, ?_⟩⟩ <;> decide

/-! ## C10 -/

theorem View.Ok.view_ok_eff0 {v w : View} (h : Eff0 v w) : v.Ok → w.Ok := by
  induction h with
  | same v => exact id
  | spawn v hv hc =>
    intro hok
    obtain ⟨hw, hn, hr, hl⟩ := hok.live hv
    have h0 : v.threads.length = 0 := by
      rcases hc with h | h
      · rw [hn] at h; exact_mod_cast h
      · rw [hn, hw] at h; omega
    have hnil : v.threads = [] := List.length_eq_zero.1 h0
    refine ⟨hok.kind, fun h => by simp [hv] at h, fun _ => ⟨hw, ?_, ?_, ?_⟩⟩
    · simp [hn, hnil]
    · simp [hr, hnil, Pc.busy]
    · simp [hnil]
  | freed v hc =>
    intro hok
    refine ⟨by simp, fun _ => ?_, fun h => by simp at h⟩
    cases hv : v.vtable with
    | none => exact hok.dead hv
    | some vt =>
      cases vt with
      | queue =>
        obtain ⟨_, hn, _, _⟩ := hok.live hv
        have h0 : v.threads.length = 0 := by
          have := hc hv; rw [hn] at this; exact_mod_cast this
        exact List.length_eq_zero.1 h0
      | bucket => exact absurd hv hok.kind
  | init v hv =>
    intro hok
    have hnil := hok.dead hv
    exact ⟨by simp, fun h => by simp at h, fun _ => by simp [hnil]⟩
  | trans a b c _ _ ih1 ih2 => exact fun h => ih2 (ih1 h)

/-- While a private queue has a thread, no thread is created for it and it is
neither freed nor created. -/
theorem Eff0.stuck {v w : View} (h : Eff0 v w) : v.Ok → v.threads ≠ [] → w = v := by
  induction h with
  | same v => intro _ _; rfl
  | spawn v hv hc =>
    intro hok hne
    exfalso
    obtain ⟨hw, hn, hr, hl⟩ := hok.live hv
    have h0 : v.threads.length = 0 := by
      rcases hc with h | h
      · rw [hn] at h; exact_mod_cast h
      · rw [hn, hw] at h; omega
    exact hne (List.length_eq_zero.1 h0)
  | freed v hc =>
    intro hok hne
    exfalso
    cases hv : v.vtable with
    | none => exact hne (hok.dead hv)
    | some vt =>
      cases vt with
      | queue =>
        obtain ⟨_, hn, _, _⟩ := hok.live hv
        have h0 : v.threads.length = 0 := by
          have := hc hv; rw [hn] at this; exact_mod_cast this
        exact hne (List.length_eq_zero.1 h0)
      | bucket => exact absurd hv hok.kind
  | init v hv =>
    intro hok hne
    exact absurd (hok.dead hv) hne
  | trans a b c _ _ ih1 ih2 =>
    intro hok hne
    have h1 := ih1 hok hne
    subst h1
    exact ih2 hok hne

theorem View.Ok.single {v : View} (hok : v.Ok) (pc : Pc) (hm : pc ∈ v.threads) :
    v.threads = [pc] ∧ v.vtable = some VTable.queue := by
  have hlive : v.vtable = some VTable.queue := by
    cases hv : v.vtable with
    | none => have := hok.dead hv; rw [this] at hm; simp at hm
    | some vt =>
      cases vt with
      | queue => rfl
      | bucket => exact absurd hv hok.kind
  obtain ⟨_, _, _, hl⟩ := hok.live hlive
  refine ⟨?_, hlive⟩
  cases hth : v.threads with
  | nil => rw [hth] at hm; simp at hm
  | cons a t =>
    rw [hth] at hm hl
    have ht : t = [] := by
      cases t with
      | nil => rfl
      | cons b t => simp at hl
    subst ht
    simp at hm
    rw [hm]

theorem View.Ok.eff {v w : View} (h : Eff v w) : v.Ok → w.Ok := by
  cases h with
  | base _ h0 => exact View.Ok.view_ok_eff0 h0
  | exit hm =>
    intro hok
    obtain ⟨h1, hv⟩ := hok.single _ hm
    obtain ⟨hw, hn, hr, hl⟩ := hok.live hv
    refine ⟨hok.kind, fun h => by simp [hv] at h, fun _ => ⟨hw, ?_, ?_, ?_⟩⟩
    · simp [hn, h1]
    · simp [hr, h1, Pc.busy]
    · simp [h1]
  | take p hm =>
    intro hok
    obtain ⟨h1, hv⟩ := hok.single _ hm
    obtain ⟨hw, hn, hr, hl⟩ := hok.live hv
    refine ⟨hok.kind, fun h => by simp [hv] at h, fun _ => ⟨hw, ?_, ?_, ?_⟩⟩
    · simp [hn, h1]
    · simp [hr, h1, Pc.busy]
    · simp [h1]
  | move old new hm ho hnw =>
    intro hok
    obtain ⟨h1, hv⟩ := hok.single _ hm
    obtain ⟨hw, hn, hr, hl⟩ := hok.live hv
    refine ⟨hok.kind, fun h => by simp [hv] at h, fun _ => ⟨hw, ?_, ?_, ?_⟩⟩
    · simp [hn, h1]
    · simp [hr, h1, ho, hnw]
    · simp [h1]
  | relock hm =>
    intro hok
    obtain ⟨h1, hv⟩ := hok.single _ hm
    obtain ⟨hw, hn, hr, hl⟩ := hok.live hv
    refine ⟨hok.kind, fun h => by simp [hv] at h, fun _ => ⟨hw, ?_, ?_, ?_⟩⟩
    · simp [hn, h1]
    · simp [hr, h1, Pc.busy]
    · simp [h1]

theorem SameCtr.same_ctr_refl (Q : WorkQueue) : SameCtr Q Q := ⟨rfl, rfl, rfl, rfl⟩

theorem Quiet.quiet_refl (s : Engine) : Quiet s s := ⟨fun _ => SameCtr.same_ctr_refl _, rfl⟩

theorem Quiet.quiet_trans {a b c : Engine} (h1 : Quiet a b) (h2 : Quiet b c) : Quiet a c :=
  ⟨fun o => ⟨(h2.1 o).1.trans (h1.1 o).1, (h2.1 o).2.1.trans (h1.1 o).2.1,
    (h2.1 o).2.2.1.trans (h1.1 o).2.2.1, (h2.1 o).2.2.2.trans (h1.1 o).2.2.2⟩,
    h2.2.trans h1.2⟩

theorem Quiet.same_view {s s1 : Engine} (h : Quiet s s1) (o : QId) : view s1 o = view s o := by
  obtain ⟨h1, h2, h3, h4⟩ := h.1 o
  simp [WQ.view, h1, h2, h3, h4, h.2]

theorem Quiet.quiet_eff0 {s s1 : Engine} (h : Quiet s s1) (o : QId) : Eff0 (view s o) (view s1 o) := by
  rw [h.same_view o]; exact Eff0.same _

theorem Quiet.of_list {s : Engine} (q : QId) (h1 : Heap) (Q1 : WorkQueue) (log : List Event)
    (hq : SameCtr (s.queues q) Q1) :
    Quiet s { s with heap := h1, queues := Function.update s.queues q Q1, log := log } := by
  refine ⟨fun o => ?_, rfl⟩
  by_cases ho : o = q
  · subst ho; simpa using hq
  · simp [Function.update_noteq ho, SameCtr.same_ctr_refl]

theorem drain_ctr (h : Heap) (Q : WorkQueue) (r : Option Ptr) (h1 : Heap) (Q1 : WorkQueue)
    (hd : _work_queue_drain_one_unlocked h Q = .ok (r, h1, Q1)) : SameCtr Q Q1 := by
  simp only [_work_queue_drain_one_unlocked] at hd
  split at hd
  · simp only [Except.ok.injEq, Prod.mk.injEq] at hd
    rw [← hd.2.2]; exact SameCtr.same_ctr_refl _
  · split at hd
    · split at hd
      · simp only [Except.ok.injEq, Prod.mk.injEq] at hd
        rw [← hd.2.2]; exact ⟨rfl, rfl, rfl, rfl⟩
      · cases hd
    · simp only [Except.ok.injEq, Prod.mk.injEq] at hd
      rw [← hd.2.2]; exact ⟨rfl, rfl, rfl, rfl⟩

theorem add_tail_ctr (h : Heap) (Q : WorkQueue) (p : Ptr) :
    SameCtr Q (_work_queue_add_tail_unlocked h Q p).2 := by
  obtain ⟨hd, hQ⟩ := add_tail_fields h Q p
  rw [hQ]; exact ⟨rfl, rfl, rfl, rfl⟩

theorem unlink_ctr (h : Heap) (Q : WorkQueue) (l : Link) :
    SameCtr Q (_work_queue_unlink_one_unlocked h Q l).2.2 := by
  simp only [_work_queue_unlink_one_unlocked]
  split
  · exact SameCtr.same_ctr_refl _
  · cases l <;> simp only [Link.set] <;> split <;> exact ⟨rfl, rfl, rfl, rfl⟩

theorem more_thread_eff (env : Env) (s : Engine) (q o : QId)
    (h : q = o → (s.queues o).vtable = some VTable.queue) :
    Eff0 (view s o) (view (_more_thread_unlocked env s q).2 o) := by
  simp only [_more_thread_unlocked]
  split
  · next hc =>
    split
    · split <;> exact Eff0.same _
    · by_cases hq : q = o
      · subst hq
        have := Eff0.spawn (view s q) (h rfl)
          (by
            rcases hc with h0 | h1
            · exact Or.inl h0
            · simp only [Bool.and_eq_true, decide_eq_true_eq] at h1
              exact Or.inr h1.1)
        simpa [view] using this
      · have : view { s with
            queues := Function.update s.queues q
              { s.queues q with n_threads := (s.queues q).n_threads + 1 },
            threads := Function.update s.threads q (Pc.wait :: s.threads q) } o = view s o := by
          simp [view, Function.update_noteq (Ne.symm hq)]
        rw [this]; exact Eff0.same _
  · exact Eff0.same _

theorem evict_one_quiet (env : Env) (s : Engine) (q : QId) (r : Int) (s2 : Engine)
    (h : evict_one env s q = .ok (r, s2)) : Quiet s s2 := by
  simp only [evict_one] at h
  split at h
  · split at h
    · cases h
    · simp only [Except.ok.injEq, Prod.mk.injEq] at h
      rw [← h.2]
      exact Quiet.of_list q _ _ _ (unlink_ctr _ _ _)
  · cases h

theorem add_tail_quiet (s : Engine) (q : QId) (item : Ptr) :
    Quiet s { s with heap := (_work_queue_add_tail_unlocked s.heap (s.queues q) item).1,
                     queues := Function.update s.queues q
                       (_work_queue_add_tail_unlocked s.heap (s.queues q) item).2 } :=
  Quiet.of_list q _ _ s.log (add_tail_ctr _ _ _)

theorem add_unlocked_with_eff (prepare : Engine → QId → Except Fault (Int × Engine))
    (env : Env) (s : Engine) (q : QId) (item : Ptr) (do_rewind impose : Bool) (o : QId)
    (r : Int) (s2 : Engine)
    (hprep : ∀ r0 s1, prepare s q = .ok (r0, s1) → Eff0 (view s o) (view s1 o))
    (h : add_unlocked_with prepare env s q item do_rewind impose = .ok (r, s2)) :
    Eff0 (view s o) (view s2 o) := by
  simp only [add_unlocked_with] at h
  split at h
  · simp only [Except.ok.injEq, Prod.mk.injEq] at h
    rw [← h.2]; exact Eff0.same _
  · split at h
    · cases h
    · next r0 s1 hp =>
      have he := hprep r0 s1 hp
      split at h
      · simp only [Except.ok.injEq, Prod.mk.injEq] at h
        rw [← h.2]; exact he
      · split at h
        · cases h
        · next r4 s4 hev =>
          simp only [Except.ok.injEq, Prod.mk.injEq] at h
          have hq4 : Quiet s1 s4 := by
            split at hev
            · exact evict_one_quiet env s1 q r4 s4 hev
            · simp only [Except.ok.injEq, Prod.mk.injEq] at hev
              rw [← hev.2]; exact Quiet.quiet_refl _
          have hq5 := Quiet.quiet_trans hq4 (add_tail_quiet s4 q item)
          rw [← h.2, hq5.same_view o]
          exact he

theorem prepare_executive_pool_eff (env : Env) (s : Engine) (q o : QId) (r : Int) (s1 : Engine)
    (h : prepare_executive_pool env s q = .ok (r, s1)) : Eff0 (view s o) (view s1 o) := by
  simp only [prepare_executive_pool] at h
  split at h
  · cases h
  · next hv =>
    simp only [prepare_executive_queue, Except.ok.injEq] at h
    have := more_thread_eff env s q o (fun e => by rw [← e]; exact hv)
    rw [h] at this
    exact this
  · split at h
    · simp only [Except.ok.injEq, Prod.mk.injEq] at h
      rw [← h.2]; exact Eff0.same _
    · cases h

theorem prepare_executive_bucket_eff (env : Env) (s : Engine) (b o : QId) (r : Int)
    (s1 : Engine) (hbo : b ≠ o)
    (h : prepare_executive_bucket env s b = .ok (r, s1)) : Eff0 (view s o) (view s1 o) := by
  simp only [prepare_executive_bucket] at h
  split at h
  · simp only [Except.ok.injEq, Prod.mk.injEq] at h
    rw [← h.2]; exact Eff0.same _
  · split at h
    · simp only [Except.ok.injEq, Prod.mk.injEq] at h
      rw [← h.2]; exact Eff0.same _
    · next exc hr =>
      split at h
      · cases h
      · next r2 s2 hadd =>
        have h1 : view (s.setItem exc (runner_item b)) o = view s o := rfl
        have he := add_unlocked_with_eff _ env _ _ _ _ _ o r2 s2
          (fun r0 s0 hp => prepare_executive_pool_eff env _ _ o r0 s0 hp) hadd
        rw [h1] at he
        split at h
        · simp only [Except.ok.injEq, Prod.mk.injEq] at h
          rw [← h.2]
          exact he
        · simp only [Except.ok.injEq, Prod.mk.injEq] at h
          rw [← h.2]
          have : view (s2.setQ b { s2.queues b with n_running := (s2.queues b).n_running + 1 }) o
              = view s2 o := by
            simp [view, Engine.setQ, Function.update_noteq (Ne.symm hbo)]
          rw [this]
          exact he

theorem prepare_executive_eff (env : Env) (s : Engine) (q o : QId) (r : Int) (s1 : Engine)
    (hk : (s.queues o).vtable ≠ some VTable.bucket)
    (h : prepare_executive env s q = .ok (r, s1)) : Eff0 (view s o) (view s1 o) := by
  simp only [prepare_executive] at h
  split at h
  · cases h
  · next hv =>
    simp only [prepare_executive_queue, Except.ok.injEq] at h
    have := more_thread_eff env s q o (fun e => by rw [← e]; exact hv)
    rw [h] at this
    exact this
  · next hv =>
    have hbo : q ≠ o := fun e => hk (by rw [← e]; exact hv)
    exact prepare_executive_bucket_eff env s q o r s1 hbo h

theorem add_unlocked_eff (env : Env) (s : Engine) (q : QId) (item : Ptr)
    (do_rewind impose : Bool) (o : QId) (r : Int) (s2 : Engine)
    (hk : (s.queues o).vtable ≠ some VTable.bucket)
    (h : _work_queue_add_unlocked env s q item do_rewind impose = .ok (r, s2)) :
    Eff0 (view s o) (view s2 o) :=
  add_unlocked_with_eff _ env s q item do_rewind impose o r s2
    (fun r0 s1 hp => prepare_executive_eff env s q o r0 s1 hk hp) h

theorem Quiet.setQ (s : Engine) (q : QId) (Q1 : WorkQueue) (h : SameCtr (s.queues q) Q1) :
    Quiet s (s.setQ q Q1) := by
  refine ⟨fun o => ?_, rfl⟩
  by_cases ho : o = q
  · subst ho; simpa [Engine.setQ] using h
  · simp [Engine.setQ, Function.update_noteq ho, SameCtr.same_ctr_refl]

theorem Quiet.setItem (s : Engine) (p : Ptr) (it : WorkItem) : Quiet s (s.setItem p it) :=
  ⟨fun _ => SameCtr.same_ctr_refl _, rfl⟩

theorem Quiet.kind {s s1 : Engine} (h : Quiet s s1) (o : QId)
    (hk : (s.queues o).vtable ≠ some VTable.bucket) :
    (s1.queues o).vtable ≠ some VTable.bucket := by
  rw [(h.1 o).1]; exact hk

theorem Eff0.of_quiet_left {s s1 s2 : Engine} (o : QId) (h : Quiet s s1)
    (he : Eff0 (view s1 o) (view s2 o)) : Eff0 (view s o) (view s2 o) := by
  rw [← h.same_view o]; exact he

theorem Eff0.of_quiet_right {s s1 s2 : Engine} (o : QId) (he : Eff0 (view s o) (view s1 o))
    (h : Quiet s1 s2) : Eff0 (view s o) (view s2 o) := by
  rw [h.same_view o]; exact he

theorem work_queue_ref_quiet (s : Engine) (q : QId) (s1 : Engine)
    (h : work_queue_ref s q = .ok s1) : Quiet s s1 := by
  simp only [work_queue_ref] at h
  split at h
  · simp only [Except.ok.injEq] at h; rw [← h]; exact Quiet.quiet_refl _
  · split at h
    · simp only [Except.ok.injEq] at h
      rw [← h]
      exact Quiet.setQ s q _ ⟨rfl, rfl, rfl, rfl⟩
    · cases h

theorem work_queue_unref_eff (env : Env) (s : Engine) (q o : QId) (s1 : Engine)
    (hk : (s.queues o).vtable ≠ some VTable.bucket)
    (h : work_queue_unref env s q = .ok s1) : Eff0 (view s o) (view s1 o) := by
  simp only [work_queue_unref] at h
  split at h
  · simp only [Except.ok.injEq] at h; rw [← h]; exact Eff0.same _
  · split at h
    · have hq1 : Quiet s (s.setQ q { s.queues q with xref_cnt := (s.queues q).xref_cnt - 1 }) :=
        Quiet.setQ s q _ ⟨rfl, rfl, rfl, rfl⟩
      split at h
      · split at h
        · split at h
          · cases h
          · next r3 s3 hadd =>
            simp only [Except.ok.injEq] at h
            rw [← h]
            have hq2 := Quiet.quiet_trans hq1 (Quiet.setItem _ (Ptr.ctl q)
              { work := some Fn.wq_stop, data := Data.queue q,
                notify := some Fn.work_queue_free, next := none,
                cancel := ((s.setQ q { s.queues q with
                  xref_cnt := (s.queues q).xref_cnt - 1 }).heap (Ptr.ctl q)).cancel })
            exact Eff0.of_quiet_left o hq2
              (add_unlocked_eff env _ q _ _ _ o r3 s3 (hq2.kind o hk) hadd)
        · cases h
      · simp only [Except.ok.injEq] at h
        rw [← h]
        exact hq1.quiet_eff0 o
    · cases h

theorem add_item_eff (env : Env) (s : Engine) (q : QId) (do_rewind : Bool) (w : Nat)
    (notify cancel : Option Nat) (data : Data) (o : QId) (r : Int) (s2 : Engine)
    (hok : (view s o).Ok)
    (h : add_item env s q do_rewind w notify cancel data = .ok (r, s2)) :
    Eff0 (view s o) (view s2 o) := by
  simp only [add_item] at h
  split at h
  · cases h
  · next s1 href =>
    have hq1 := work_queue_ref_quiet s q s1 href
    split at h
    · cases h
    · next r4 s4 hres =>
      have he4 : Eff0 (view s o) (view s4 o) := by
        split at hres
        · simp only [Except.ok.injEq, Prod.mk.injEq] at hres
          rw [← hres.2]; exact hq1.quiet_eff0 o
        · next item _ =>
          split at hres
          · cases hres
          · next r3 s3 hadd =>
            have hq2 := Quiet.quiet_trans hq1 (Quiet.setItem s1 item
              { work := some (Fn.user w), notify := notify.map Fn.user,
                cancel := cancel.map Fn.user, data := data, next := none })
            have he3 := Eff0.of_quiet_left o hq2
              (add_unlocked_eff env _ q item do_rewind true o r3 s3 (hq2.kind o hok.kind) hadd)
            split at hres
            · simp only [Except.ok.injEq, Prod.mk.injEq] at hres
              rw [← hres.2]
              exact Eff0.of_quiet_right o he3 ⟨fun _ => SameCtr.same_ctr_refl _, rfl⟩
            · simp only [Except.ok.injEq, Prod.mk.injEq] at hres
              rw [← hres.2]; exact he3
      split at h
      · cases h
      · next s5 hun =>
        simp only [Except.ok.injEq, Prod.mk.injEq] at h
        rw [← h.2]
        exact Eff0.trans _ _ _ he4
          (work_queue_unref_eff env s4 q o s5 (hok.view_ok_eff0 he4).kind hun)

theorem init_global_once_view (s : Engine) (o : QId) (h1 : o ≠ QId.concurrent)
    (h2 : o ≠ QId.main) : view (init_global_once s) o = view s o := by
  simp only [init_global_once]
  split
  · rfl
  · simp [view, Engine.setQ, _work_queue_init, Engine.setItem, Function.update_noteq h1,
      Function.update_noteq h2]

theorem work_queue_add_eff (env : Env) (s : Engine) (q : Option QId) (w notify cancel : Option Nat)
    (data : Data) (o : QId) (r : Int) (s2 : Engine) (h1 : o ≠ QId.concurrent)
    (h2 : o ≠ QId.main) (hok : (view s o).Ok)
    (h : work_queue_add env s q w notify cancel data = .ok (r, s2)) :
    Eff0 (view s o) (view s2 o) := by
  simp only [work_queue_add] at h
  split at h
  · cases h
  · split at h
    · have hv := init_global_once_view s o h1 h2
      have := add_item_eff env (init_global_once s) QId.concurrent false _ notify cancel data o r
        s2 (by rw [hv]; exact hok) h
      rw [hv] at this
      exact this
    · exact add_item_eff env s _ false _ notify cancel data o r s2 hok h

theorem work_queue_add_rewind_eff (env : Env) (s : Engine) (q : Option QId)
    (w notify cancel : Option Nat) (data : Data) (o : QId) (r : Int) (s2 : Engine)
    (hok : (view s o).Ok)
    (h : work_queue_add_rewind env s q w notify cancel data = .ok (r, s2)) :
    Eff0 (view s o) (view s2 o) := by
  simp only [work_queue_add_rewind] at h
  split at h
  · cases h
  · split at h
    · cases h
    · split at h
      · cases h
      · exact add_item_eff env s _ true _ notify cancel data o r s2 hok h

theorem work_queue_free_eff (s : Engine) (q o : QId) (s1 : Engine)
    (h : _work_queue_free s q = .ok s1) : Eff0 (view s o) (view s1 o) := by
  simp only [_work_queue_free] at h
  split at h
  · cases h
  · split at h
    · cases h
    · split at h
      · cases h
      · next hq hx hth =>
        split at h
        · cases h
        · simp only [Except.ok.injEq] at h
          rw [← h]
          by_cases ho : o = q
          · subst ho
            have := Eff0.freed (view s o) (by
              intro hv
              by_contra hne
              exact hth ⟨hv, hne⟩)
            simpa [view, Engine.setQ, Engine.setItem, WorkQueue.zero] using this
          · have : view { ((({ s with
                  private_queues :=
                    if (s.queues q).vtable = some VTable.queue then s.private_queues.erase q
                    else s.private_queues,
                  buckets :=
                    if (s.queues q).vtable = some VTable.bucket then s.buckets.erase q
                    else s.buckets } : Engine).setQ q WorkQueue.zero).setItem (Ptr.ctl q)
                    WorkItem.zero) with
                log := s.log ++
                  (match (s.queues q).destroy_notify with
                   | some f => [Event.destroy f (s.queues q).context]
                   | none => []) } o = view s o := by
              simp [view, Engine.setQ, Engine.setItem, Function.update_noteq ho]
            simp only [Engine.setQ, Engine.setItem] at this ⊢
            rw [this]
            exact Eff0.same _

theorem call_fn_eff (s : Engine) (f : Fn) (d : Data) (o : QId) (s1 : Engine)
    (h : call_fn s f d = .ok s1) : Eff0 (view s o) (view s1 o) := by
  simp only [call_fn] at h
  split at h
  · simp only [Except.ok.injEq] at h
    rw [← h]; exact Eff0.same _
  · exact work_queue_free_eff s _ o s1 h
  · simp only [Except.ok.injEq] at h
    rw [← h]; exact Eff0.same _

theorem work_item_finish_eff (env : Env) (s : Engine) (item : Ptr) (need_free : Bool) (o : QId)
    (s1 : Engine) (hk : (s.queues o).vtable ≠ some VTable.bucket)
    (h : work_item_finish env s item need_free = .ok s1) : Eff0 (view s o) (view s1 o) := by
  simp only [work_item_finish] at h
  split at h
  · split at h
    · cases h
    · next r s2 hadd =>
      split at h
      · simp only [Except.ok.injEq] at h
        rw [← h]
        exact add_unlocked_eff env s QId.main item false false o r s2 hk hadd
      · cases h
  · simp only [Except.ok.injEq] at h
    rw [← h]; exact Eff0.same _

theorem work_item_execute_eff (env : Env) (s : Engine) (item : Ptr) (do_notify : Bool) (o : QId)
    (s1 : Engine) (hok : (view s o).Ok)
    (h : work_item_execute env s item do_notify = .ok s1) : Eff0 (view s o) (view s1 o) := by
  simp only [work_item_execute] at h
  split at h
  · split at h
    · cases h
    · next f _ =>
      split at h
      · cases h
      · next s2 hcall =>
        simp only [Except.ok.injEq] at h
        rw [← h]
        have := call_fn_eff _ f _ o s2 hcall
        exact this
  · split at h
    · cases h
    · next f _ =>
      split at h
      · cases h
      · next s2 hcall =>
        have he := call_fn_eff _ f _ o s2 hcall
        have he2 : Eff0 (view s o) (view s2 o) := he
        exact Eff0.trans _ _ _ he2
          (work_item_finish_eff env s2 item _ o s1 (hok.view_ok_eff0 he2).kind h)

theorem run_begin_eff (env : Env) (s : Engine) (q o : QId) (ran : Ran) (s1 : Engine)
    (hok : (view s o).Ok) (h : run_begin env s q = .ok (ran, s1)) :
    (∀ r, ran = Ran.ret r → Eff0 (view s o) (view s1 o))
    ∧ (∀ p, ran = Ran.took p →
        if q = o then view s1 o = { view s o with n_running := (view s o).n_running + 1 }
        else view s1 o = view s o) := by
  simp only [run_begin] at h
  split at h
  · simp only [Except.ok.injEq, Prod.mk.injEq] at h
    rw [← h.1, ← h.2]
    exact ⟨fun _ _ => Eff0.same _, fun p hp => by cases hp⟩
  · next hd hhead =>
    split at h
    · simp only [Except.ok.injEq, Prod.mk.injEq] at h
      rw [← h.1, ← h.2]
      exact ⟨fun _ _ => Eff0.same _, fun p hp => by cases hp⟩
    · split at h
      · split at h
        · simp only [Except.ok.injEq, Prod.mk.injEq] at h
          rw [← h.1, ← h.2]
          exact ⟨fun _ _ => Eff0.same _, fun p hp => by cases hp⟩
        · split at h
          · cases h
          · next x h1 Q1 hdr =>
            split at h
            · cases h
            · next s2 hex =>
              simp only [Except.ok.injEq, Prod.mk.injEq] at h
              rw [← h.1, ← h.2]
              have hq : Quiet s { s with heap := h1, queues := Function.update s.queues q Q1 } :=
                Quiet.of_list q h1 Q1 s.log (drain_ctr _ _ _ _ _ hdr)
              refine ⟨fun _ _ => ?_, fun p hp => by cases hp⟩
              exact Eff0.of_quiet_left o hq (work_item_execute_eff env _ hd _ o s2
                (by rw [hq.same_view o]; exact hok) hex)
      · split at h
        · split at h
          · cases h
          · next x h1 Q1 hdr =>
            split at h
            · cases h
            · next s2 hex =>
              simp only [Except.ok.injEq, Prod.mk.injEq] at h
              rw [← h.1, ← h.2]
              have hq : Quiet s { s with heap := h1, queues := Function.update s.queues q Q1 } :=
                Quiet.of_list q h1 Q1 s.log (drain_ctr _ _ _ _ _ hdr)
              refine ⟨fun _ _ => ?_, fun p hp => by cases hp⟩
              exact Eff0.of_quiet_left o hq (work_item_execute_eff env _ hd _ o s2
                (by rw [hq.same_view o]; exact hok) hex)
        · split at h
          · cases h
          · next x h1 Q1 hdr =>
            simp only [Except.ok.injEq, Prod.mk.injEq] at h
            rw [← h.1, ← h.2]
            obtain ⟨c1, c2, c3, c4⟩ := drain_ctr _ _ _ _ _ hdr
            refine ⟨fun r hr => (by cases hr), fun p _ => ?_⟩
            by_cases hqo : q = o
            · subst hqo
              simp [view, c1, c2, c3, c4]
            · simp [view, hqo, Function.update_noteq (Ne.symm hqo)]

theorem run_end_eff (env : Env) (s : Engine) (q o : QId) (p : Ptr) (s1 : Engine)
    (hqo : q ≠ o) (hok : (view s o).Ok) (h : run_end env s q p = .ok s1) :
    Eff0 (view s o) (view s1 o) := by
  simp only [run_end] at h
  split at h
  · cases h
  · next s2 hex =>
    simp only [Except.ok.injEq] at h
    rw [← h]
    have he := work_item_execute_eff env s p _ o s2 hok hex
    have : view (s2.setQ q { s2.queues q with n_running := (s2.queues q).n_running - 1 }) o
        = view s2 o := by
      simp [view, Engine.setQ, Function.update_noteq (Ne.symm hqo)]
    rw [this]
    exact he

theorem work_queue_new_eff (s : Engine) (n m : Nat) (maxsize : Int) (s1 : Engine)
    (hg : (s.queues (QId.queue m)).vtable = none)
    (h : work_queue_new s m maxsize = .ok s1) :
    Eff0 (view s (QId.queue n)) (view s1 (QId.queue n)) := by
  simp only [work_queue_new] at h
  split at h
  · simp only [Except.ok.injEq] at h
    rw [← h]
    have hv := init_global_once_view s (QId.queue n) (by simp) (by simp)
    by_cases hmn : m = n
    · subst hmn
      have h0 : (view s (QId.queue m)).vtable = none := hg
      have := Eff0.init (view s (QId.queue m)) h0
      have e : view { ((_work_queue_init (init_global_once s) (QId.queue m) VTable.queue).setQ
            (QId.queue m)
            { (_work_queue_init (init_global_once s) (QId.queue m) VTable.queue).queues
                (QId.queue m) with maxsize := maxsize, width := 1 }) with
            private_queues := QId.queue m ::
              ((_work_queue_init (init_global_once s) (QId.queue m) VTable.queue).setQ
                (QId.queue m)
                { (_work_queue_init (init_global_once s) (QId.queue m) VTable.queue).queues
                    (QId.queue m) with maxsize := maxsize, width := 1 }).private_queues }
            (QId.queue m)
          = { vtable := some VTable.queue, width := 1, n_threads := 0, n_running := 0,
              threads := (view s (QId.queue m)).threads } := by
        have ht : (init_global_once s).threads = s.threads := by
          simp only [init_global_once]
          split <;> rfl
        simp [view, Engine.setQ, _work_queue_init, Engine.setItem, WorkQueue.zero, ht]
      rw [e]
      exact this
    · have hne : QId.queue n ≠ QId.queue m := by
        intro hc; injection hc with hc; exact hmn hc.symm
      have e : view { ((_work_queue_init (init_global_once s) (QId.queue m) VTable.queue).setQ
            (QId.queue m)
            { (_work_queue_init (init_global_once s) (QId.queue m) VTable.queue).queues
                (QId.queue m) with maxsize := maxsize, width := 1 }) with
            private_queues := QId.queue m ::
              ((_work_queue_init (init_global_once s) (QId.queue m) VTable.queue).setQ
                (QId.queue m)
                { (_work_queue_init (init_global_once s) (QId.queue m) VTable.queue).queues
                    (QId.queue m) with maxsize := maxsize, width := 1 }).private_queues }
            (QId.queue n)
          = view (init_global_once s) (QId.queue n) := by
        simp [view, Engine.setQ, _work_queue_init, Engine.setItem, Function.update_noteq hne]
      rw [e, hv]
      exact Eff0.same _
  · cases h

theorem work_bucket_new_view (s : Engine) (n m : Nat) (maxsize width : Int) (s1 : Engine)
    (h : work_bucket_new s m maxsize width = .ok s1) :
    view s1 (QId.queue n) = view s (QId.queue n) := by
  simp only [work_bucket_new] at h
  split at h
  · split at h
    · simp only [Except.ok.injEq] at h
      rw [← h, ← init_global_once_view s (QId.queue n) (by simp) (by simp)]
      have hne : QId.queue n ≠ QId.bucket m := by simp
      simp [view, Engine.setQ, _work_queue_init, Engine.setItem, Function.update_noteq hne]
    · cases h
  · cases h

theorem work_queue_set_destroy_notify_eff (env : Env) (s : Engine) (q : QId)
    (destroy_notify : Option Nat) (context : Data) (o : QId) (s2 : Engine)
    (hk : (s.queues o).vtable ≠ some VTable.bucket)
    (h : work_queue_set_destroy_notify env s q destroy_notify context = .ok s2) :
    Eff0 (view s o) (view s2 o) := by
  simp only [work_queue_set_destroy_notify] at h
  split at h
  · cases h
  · next s1 hr =>
    have hq1 := work_queue_ref_quiet s q s1 hr
    have hq2 : Quiet s1 (s1.setQ q { s1.queues q with
        destroy_notify := destroy_notify.map Fn.user, context := context }) :=
      Quiet.setQ s1 q _ ⟨rfl, rfl, rfl, rfl⟩
    have hq := hq1.quiet_trans hq2
    exact Eff0.of_quiet_left o hq (work_queue_unref_eff env _ q o s2 (hq.kind o hk) h)

theorem flush_begin_quiet (s : Engine) (q : QId) (in_stop : Bool) (s2 : Engine)
    (h : flush_begin s q in_stop = .ok s2) : Quiet s s2 := by
  simp only [flush_begin] at h
  split at h
  · cases h
  · split at h
    · cases h
    · next s1 hr =>
      split at h
      · simp only [Except.ok.injEq] at h
        rw [← h]
        exact work_queue_ref_quiet s q s1 hr
      · cases h

theorem flush_exit_eff (env : Env) (s : Engine) (q : QId) (in_stop : Bool) (r : Int) (o : QId)
    (s2 : Engine) (hk : (s.queues o).vtable ≠ some VTable.bucket)
    (h : flush_exit env s q in_stop r = .ok s2) : Eff0 (view s o) (view s2 o) := by
  simp only [flush_exit] at h
  split at h
  · cases h
  · next s1 hu =>
    simp only [Except.ok.injEq] at h
    rw [← h]
    exact work_queue_unref_eff env (s.setItem (Ptr.ctl q) WorkItem.zero) q o s1 hk hu

theorem flush_iter_eff (env : Env) (s : Engine) (q : QId) (in_stop : Bool) (o : QId)
    (s2 : Engine) (hok : (view s o).Ok)
    (h : flush_iter env s q in_stop = .ok s2) : Eff0 (view s o) (view s2 o) := by
  simp only [flush_iter] at h
  split at h
  · exact flush_exit_eff env s q in_stop 0 o s2 hok.kind h
  · split at h
    · cases h
    · next r s1 ha =>
      have he := add_unlocked_eff env s q _ false false o r s1 hok.kind ha
      have hok1 := hok.view_ok_eff0 he
      split at h
      · exact Eff0.trans _ _ _ he (flush_exit_eff env s1 q in_stop r o s2 hok1.kind h)
      · simp only [Except.ok.injEq] at h
        rw [← h]
        exact he

theorem stop_out_eff (env : Env) (s : Engine) (q : QId) (r : Int) (o : QId)
    (s2 : Engine) (hk : (s.queues o).vtable ≠ some VTable.bucket)
    (h : stop_out env s q r = .ok s2) : Eff0 (view s o) (view s2 o) := by
  simp only [stop_out] at h
  split at h
  · cases h
  · next s1 hu =>
    simp only [Except.ok.injEq] at h
    rw [← h]
    exact work_queue_unref_eff env _ q o s1 hk hu

theorem stop_body_eff (env : Env) (s : Engine) (q : QId) (r : Int) (o : QId)
    (s2 : Engine) (hok : (view s o).Ok)
    (h : stop_body env s q r = .ok s2) : Eff0 (view s o) (view s2 o) := by
  simp only [stop_body] at h
  split at h
  · exact stop_out_eff env s q r o s2 hok.kind h
  · split at h
    · split at h
      · split at h
        · have he := fun hk => stop_out_eff env _ q r o s2 hk h
          exact he hok.kind
        · split at h
          · cases h
          · next r1 s1 ha =>
            have he0 := fun hk => add_unlocked_eff env _ q _ false false o r1 s1 hk ha
            have he : Eff0 (view s o) (view s1 o) := he0 hok.kind
            have hok1 : (view s1 o).Ok := View.Ok.view_ok_eff0 he hok
            split at h
            · exact Eff0.trans _ _ _ he (stop_out_eff env s1 q r1 o s2 hok1.kind h)
            · simp only [Except.ok.injEq] at h
              rw [← h]
              exact he
      · cases h
    · exact stop_out_eff env s q r o s2 hok.kind h

theorem move_view_eq (s : Engine) (q : QId) (old new : Pc) :
    view (s.move q old new) q
      = { view s q with threads := new :: (view s q).threads.erase old } := by
  simp [view, Engine.move]

theorem move_view_ne (s : Engine) (q o : QId) (old new : Pc) (hqo : q ≠ o) :
    view (s.move q old new) o = view s o := by
  simp [view, Engine.move, Function.update_noteq (Ne.symm hqo)]

theorem setQ_view_ne (s : Engine) (q o : QId) (Q : WorkQueue) (hqo : q ≠ o) :
    view (s.setQ q Q) o = view s o := by
  simp [view, Engine.setQ, Function.update_noteq (Ne.symm hqo)]

/-- A thread of `q` that holds an item runs code with the effect `Eff0` and
goes on holding an item. -/
theorem eff0_then_move {s s1 : Engine} (q o : QId) (old new : Pc) (hok : (view s o).Ok)
    (he : Eff0 (view s o) (view s1 o)) (hm : old ∈ s.threads q) (hb1 : old.busy = true)
    (hb2 : new.busy = true) : Eff (view s o) (view (s1.move q old new) o) := by
  by_cases hqo : q = o
  · subst hqo
    have hne : (view s q).threads ≠ [] := by
      intro hc
      have : old ∈ (view s q).threads := hm
      rw [hc] at this
      simp at this
    have hst := he.stuck hok hne
    rw [move_view_eq, hst]
    exact Eff.move _ old new hm hb1 hb2
  · rw [move_view_ne _ _ _ _ _ hqo]
    exact Eff.base _ _ he

theorem worker_run_eff (env : Env) (s : Engine) (q o : QId) (s2 : Engine)
    (hok : (view s o).Ok) (hm : Pc.wait ∈ s.threads q)
    (h : worker_run env s q = .ok s2) : Eff (view s o) (view s2 o) := by
  simp only [worker_run] at h
  split at h
  · cases h
  · next r s1 hb =>
    have he := (run_begin_eff env s q o _ s1 hok hb).1 r rfl
    split at h
    · simp only [Except.ok.injEq] at h
      rw [← h]
      by_cases hqo : q = o
      · subst hqo
        have hne : (view s q).threads ≠ [] := by
          intro hc
          have : Pc.wait ∈ (view s q).threads := hm
          rw [hc] at this
          simp at this
        have hst := he.stuck hok hne
        have e : view (thread_exit s1 q) q
            = { view s1 q with n_threads := (view s1 q).n_threads - 1,
                               threads := (view s1 q).threads.erase Pc.wait } := by
          simp [view, thread_exit]
        rw [e, hst]
        exact Eff.exit _ hm
      · have e : view (thread_exit s1 q) o = view s1 o := by
          simp [view, thread_exit, Function.update_noteq (Ne.symm hqo)]
        rw [e]
        exact Eff.base _ _ he
    · simp only [Except.ok.injEq] at h
      rw [← h]
      exact Eff.base _ _ he
  · next p s1 hb =>
    have he := (run_begin_eff env s q o _ s1 hok hb).2 p rfl
    simp only [Except.ok.injEq] at h
    rw [← h]
    by_cases hqo : q = o
    · subst hqo
      simp only [if_true] at he
      rw [move_view_eq, he]
      exact Eff.take _ p hm
    · simp only [hqo, if_false] at he
      rw [move_view_ne _ _ _ _ _ hqo, he]
      exact Eff.base _ _ (Eff0.same _)

theorem runner_iter_eff (env : Env) (s : Engine) (q : QId) (r : Ptr) (m : Nat) (stop : Bool)
    (n : Nat) (s2 : Engine) (hok : (view s (QId.queue n)).Ok)
    (hm : Pc.runner r m stop ∈ s.threads q)
    (h : runner_iter env s q r m stop = .ok s2) :
    Eff (view s (QId.queue n)) (view s2 (QId.queue n)) := by
  have hbo : QId.bucket m ≠ QId.queue n := by simp
  have leave : ∀ s1 : Engine, Eff0 (view s (QId.queue n)) (view s1 (QId.queue n)) →
      Eff (view s (QId.queue n))
        (view ((s1.setQ (QId.bucket m) { s1.queues (QId.bucket m) with
            n_running := (s1.queues (QId.bucket m)).n_running - 1 }).move q
          (Pc.runner r m stop) (Pc.runner_fin r)) (QId.queue n)) := by
    intro s1 he
    refine eff0_then_move q _ _ _ hok ?_ hm rfl rfl
    rw [setQ_view_ne _ _ _ _ hbo]
    exact he
  simp only [runner_iter] at h
  split at h
  · simp only [Except.ok.injEq] at h
    rw [← h]
    exact leave s (Eff0.same _)
  · next hd hhead =>
    split at h
    · simp only [Except.ok.injEq] at h
      rw [← h]
      exact leave s (Eff0.same _)
    · split at h
      · split at h
        · split at h
          · cases h
          · next x h1 Q1 hdr =>
            split at h
            · cases h
            · next s3 hex =>
              simp only [Except.ok.injEq] at h
              rw [← h]
              have hq : Quiet s
                  { s with heap := h1, queues := Function.update s.queues (QId.bucket m) Q1 } :=
                Quiet.of_list (QId.bucket m) h1 Q1 s.log (drain_ctr _ _ _ _ _ hdr)
              exact leave s3 (Eff0.of_quiet_left _ hq (work_item_execute_eff env _ hd _ _ s3
                (by rw [hq.same_view]; exact hok) hex))
        · simp only [Except.ok.injEq] at h
          rw [← h]
          exact leave s (Eff0.same _)
      · split at h
        · cases h
        · next x h1 Q1 hdr =>
          simp only [Except.ok.injEq] at h
          rw [← h]
          have hq : Quiet s
              { s with heap := h1, queues := Function.update s.queues (QId.bucket m) Q1 } :=
            Quiet.of_list (QId.bucket m) h1 Q1 s.log (drain_ctr _ _ _ _ _ hdr)
          exact eff0_then_move q _ _ _ hok (hq.quiet_eff0 _) hm rfl rfl

/-- What one step does to the view of a private queue. -/
theorem fire_core_eff (s : Engine) (st : Step) (n : Nat) (s2 : Engine)
    (hok : (view s (QId.queue n)).Ok) (h : fire_core s st = .ok s2) :
    Eff (view s (QId.queue n)) (view s2 (QId.queue n)) := by
  cases st with
  | new_queue m maxsize =>
    simp only [fire_core] at h
    split at h
    · next hg => exact Eff.base _ _ (work_queue_new_eff s n m maxsize s2 hg h)
    · cases h
  | new_bucket m maxsize width =>
    simp only [fire_core] at h
    split at h
    · rw [work_bucket_new_view s n m maxsize width s2 h]
      exact Eff.base _ _ (Eff0.same _)
    · cases h
  | set_destroy_notify env q f ctx =>
    exact Eff.base _ _ (work_queue_set_destroy_notify_eff env s q f ctx _ s2 hok.kind h)
  | ref q =>
    exact Eff.base _ _ ((work_queue_ref_quiet s q s2 h).quiet_eff0 _)
  | unref env q =>
    exact Eff.base _ _ (work_queue_unref_eff env s q _ s2 hok.kind h)
  | add env q work notify cancel data =>
    simp only [fire_core] at h
    split at h
    · cases h
    · split at h
      · cases h
      · next r s1 ha =>
        simp only [Except.ok.injEq] at h
        rw [← h]
        exact Eff.base _ _ (work_queue_add_eff env s q work notify cancel data _ r s1
          (by simp) (by simp) hok ha)
  | add_rewind env q work notify cancel data =>
    simp only [fire_core] at h
    split at h
    · cases h
    · next r s1 ha =>
      simp only [Except.ok.injEq] at h
      rw [← h]
      exact Eff.base _ _ (work_queue_add_rewind_eff env s q work notify cancel data _ r s1 hok ha)
  | flush_begin q =>
    simp only [fire_core] at h
    split at h
    · exact Eff.base _ _ ((flush_begin_quiet s q false s2 h).quiet_eff0 _)
    · cases h
  | flush_iter env q =>
    simp only [fire_core] at h
    split at h
    · exact Eff.base _ _ (flush_iter_eff env s q _ _ s2 hok h)
    · cases h
  | flush_wake q =>
    simp only [fire_core] at h
    split at h
    · split at h
      · simp only [Except.ok.injEq] at h
        rw [← h]
        exact Eff.base _ _ (Eff0.same _)
      · cases h
    · cases h
  | stop_begin q =>
    simp only [fire_core] at h
    split at h
    · split at h
      · cases h
      · split at h
        · cases h
        · next s1 hr =>
          exact Eff.base _ _ (((work_queue_ref_quiet s q s1 hr).quiet_trans
            (flush_begin_quiet s1 q true s2 h)).quiet_eff0 _)
    · cases h
  | stop_body env q =>
    simp only [fire_core] at h
    split at h
    · exact Eff.base _ _ (stop_body_eff env s q _ _ s2 hok h)
    · cases h
  | stop_wake env q =>
    simp only [fire_core] at h
    split at h
    · split at h
      · exact Eff.base _ _ (stop_out_eff env (s.setItem (Ptr.ctl q) WorkItem.zero) q 0 _ s2
          hok.kind h)
      · cases h
    · cases h
  | main_run env =>
    simp only [fire_core] at h
    split at h
    · cases h
    · next r s1 hb =>
      simp only [Except.ok.injEq] at h
      rw [← h]
      exact Eff.base _ _ ((run_begin_eff env s QId.main _ _ s1 hok hb).1 r rfl)
    · next p s1 hb =>
      simp only [Except.ok.injEq] at h
      rw [← h]
      have he := (run_begin_eff env s QId.main (QId.queue n) _ s1 hok hb).2 p rfl
      simp only [reduceCtorEq, if_false] at he
      have e : view { s1 with main_stack := p :: s1.main_stack } (QId.queue n)
          = view s1 (QId.queue n) := rfl
      rw [e, he]
      exact Eff.base _ _ (Eff0.same _)
  | main_done env =>
    simp only [fire_core] at h
    split at h
    · cases h
    · next p rest hst =>
      split at h
      · cases h
      · next s1 he =>
        simp only [Except.ok.injEq] at h
        rw [← h]
        exact Eff.base _ _ (run_end_eff env s QId.main _ p s1 (by simp) hok he)
  | worker_run env q =>
    simp only [fire_core] at h
    split at h
    · next hm => exact worker_run_eff env s q _ s2 hok hm h
    · cases h
  | worker_work env q p =>
    simp only [fire_core] at h
    split at h
    · next hm =>
      split at h
      · cases h
      · next s1 hex =>
        simp only [Except.ok.injEq] at h
        rw [← h]
        exact eff0_then_move q _ _ _ hok (work_item_execute_eff env s p _ _ s1 hok hex)
          hm.1 rfl rfl
    · cases h
  | worker_relock q =>
    simp only [fire_core] at h
    split at h
    · next hm =>
      simp only [Except.ok.injEq] at h
      rw [← h]
      by_cases hqo : q = QId.queue n
      · subst hqo
        rw [move_view_eq]
        have e : view (s.setQ (QId.queue n) { s.queues (QId.queue n) with
              n_running := (s.queues (QId.queue n)).n_running - 1 }) (QId.queue n)
            = { view s (QId.queue n) with
                n_running := (view s (QId.queue n)).n_running - 1 } := by
          simp [view, Engine.setQ]
        rw [e]
        exact Eff.relock _ hm
      · rw [move_view_ne _ _ _ _ _ hqo, setQ_view_ne _ _ _ _ hqo]
        exact Eff.base _ _ (Eff0.same _)
    · cases h
  | runner_enter q r b =>
    simp only [fire_core] at h
    split at h
    · next hm =>
      simp only [Except.ok.injEq] at h
      rw [← h]
      exact eff0_then_move q _ _ _ hok (Eff0.same _) hm.1 rfl rfl
    · cases h
  | runner_iter env q r b stop =>
    simp only [fire_core] at h
    split at h
    · next hm => exact runner_iter_eff env s q r b stop n s2 hok hm h
    · cases h
  | runner_work env q r b p =>
    simp only [fire_core] at h
    split at h
    · next hm =>
      split at h
      · cases h
      · next s1 hex =>
        simp only [Except.ok.injEq] at h
        rw [← h]
        exact eff0_then_move q _ _ _ hok (work_item_execute_eff env s p _ _ s1 hok hex)
          hm rfl rfl
    · cases h
  | runner_return env q r =>
    simp only [fire_core] at h
    split at h
    · next hm =>
      split at h
      · cases h
      · next s1 hex =>
        simp only [Except.ok.injEq] at h
        rw [← h]
        exact eff0_then_move q _ _ _ hok (work_item_finish_eff env s r _ _ s1 hok.kind hex)
          hm rfl rfl
    · cases h

theorem fire_eff (s : Engine) (st : Step) (n : Nat) (s2 : Engine)
    (hok : (view s (QId.queue n)).Ok) (h : fire s st = .ok s2) :
    Eff (view s (QId.queue n)) (view s2 (QId.queue n)) := by
  simp only [fire] at h
  split at h
  · exact fire_core_eff s st n s2 hok h
  · split at h
    · split at h
      · cases h
      · next s1 hf =>
        simp only [Except.ok.injEq] at h
        rw [← h]
        exact fire_core_eff s st n s1 hok hf
    · cases h

/-- In every state the engine can reach, every private queue satisfies the
invariant `View.Ok`. -/
theorem reachable_view_ok (s : Engine) (hr : Reachable s) (n : Nat) :
    (view s (QId.queue n)).Ok := by
  induction hr with
  | boot =>
    refine ⟨?_, fun _ => rfl, fun h => ?_⟩
    · simp [view, Engine.boot, WorkQueue.zero]
    · simp [view, Engine.boot, WorkQueue.zero] at h
  | step s s2 st _ hf ih => exact ih.eff (fire_eff s st n s2 ih hf)

theorem View.Ok.threads_le {v : View} (hok : v.Ok) : v.threads.length ≤ 1 := by
  cases hv : v.vtable with
  | none => simp [hok.dead hv]
  | some vt =>
    cases vt with
    | queue => exact (hok.live hv).2.2.2
    | bucket => exact absurd hv hok.kind

theorem reachable_run_steps (l : List Step) : ∀ (s s2 : Engine), Reachable s →
    run_steps s l = .ok s2 → Reachable s2 := by
  induction l with
  | nil =>
    intro s s2 hr h
    simp only [run_steps, Except.ok.injEq] at h
    rw [← h]
    exact hr
  | cons st rest ih =>
    intro s s2 hr h
    simp only [run_steps] at h
    split at h
    · cases h
    · next s1 hf => exact ih s1 s2 (Reachable.step s s1 st hr hf) h

theorem reachable_state_after (l : List Step) : Reachable (state_after l) := by
  unfold state_after
  split
  · next s h => exact reachable_run_steps l _ s Reachable.boot h
  · exact Reachable.boot

/-- C10: in every state the engine can reach, a private queue (a live queue
made by `work_queue_new`) has `width = 1` and `0 ≤ n_running ≤ n_threads ≤ 1`;
`n_threads` is the number of worker threads the queue has, and `n_running` the
number of them that hold an item between taking it off the queue and
re-taking the lock, so at most one work callback of the queue is executing;
and after any further step the queue still has at most one thread, so a
second one is never created while one exists. -/
theorem private_queue_one_thread (s : Engine) (hr : Reachable s) (n : Nat)
    (hv : (s.queues (QId.queue n)).vtable = some VTable.queue) :
    (s.queues (QId.queue n)).width = 1
    ∧ 0 ≤ (s.queues (QId.queue n)).n_running
    ∧ (s.queues (QId.queue n)).n_running ≤ (s.queues (QId.queue n)).n_threads
    ∧ (s.queues (QId.queue n)).n_threads ≤ 1
    ∧ (s.queues (QId.queue n)).n_threads = ((s.threads (QId.queue n)).length : Int)
    ∧ (s.queues (QId.queue n)).n_running
        = (((s.threads (QId.queue n)).countP Pc.busy : Nat) : Int)
    ∧ ∀ (st : Step) (s2 : Engine), fire s st = .ok s2 →
        (s2.threads (QId.queue n)).length ≤ 1 := by
  have hok := reachable_view_ok s hr n
  obtain ⟨hw, hn, hrun, hl⟩ := hok.live hv
  have hc : (s.threads (QId.queue n)).countP Pc.busy ≤ (s.threads (QId.queue n)).length :=
    List.countP_le_length _
  have hn2 : (s.queues (QId.queue n)).n_threads = ((s.threads (QId.queue n)).length : Int) := hn
  have hr2 : (s.queues (QId.queue n)).n_running
      = (((s.threads (QId.queue n)).countP Pc.busy : Nat) : Int) := hrun
  have hl2 : (s.threads (QId.queue n)).length ≤ 1 := hl
  refine ⟨hw, ?_, ?_, ?_, hn2, hr2, ?_⟩
  · rw [hr2]; exact Int.natCast_nonneg _
  · rw [hr2, hn2]; exact_mod_cast hc
  · rw [hn2]; exact_mod_cast hl2
  · intro st s2 hf
    exact (reachable_view_ok s2 (Reachable.step s s2 st hr hf) n).threads_le

/-! ## C4: lists without the item count -/

theorem WF.congr {h h2 : Heap} {Q Q2 : WorkQueue} {l : List Ptr} (hw : WF h Q l)
    (hh : Q2.head = Q.head) (ht : Q2.tail = Q.tail)
    (hnext : ∀ p ∈ l, (h2 p).next = (h p).next) : WF h2 Q2 l :=
  ⟨by rw [hh]; exact (Lseg_congr h h2 l _ hnext).2 hw.seg, by rw [ht]; exact hw.tail, hw.nodup⟩

theorem WF.nil_iff {h : Heap} {Q : WorkQueue} {l : List Ptr} (hw : WF h Q l) :
    Q.tail = none ↔ l = [] := by
  rw [hw.tail]
  exact List.getLast?_eq_none_iff

theorem Lseg_iff_Seg (h : Heap) : ∀ (l : List Ptr) (x : Option Ptr),
    Lseg h x l ↔ Seg h x l none := by
  intro l
  induction l with
  | nil => intro x; simp [Lseg, Seg]
  | cons a l ih => intro x; simp [Lseg, Seg, ih]

theorem Seg_append (h : Heap) : ∀ (l m : List Ptr) (x y : Option Ptr),
    Seg h x (l ++ m) y ↔ ∃ z, Seg h x l z ∧ Seg h z m y := by
  intro l
  induction l with
  | nil =>
    intro m x y
    simp only [List.nil_append, Seg]
    constructor
    · intro hs; exact ⟨x, rfl, hs⟩
    · rintro ⟨z, rfl, hs⟩; exact hs
  | cons a l ih =>
    intro m x y
    show (x = some a ∧ Seg h (h a).next (l ++ m) y) ↔
      ∃ z, (x = some a ∧ Seg h (h a).next l z) ∧ Seg h z m y
    rw [ih]
    constructor
    · rintro ⟨hx, z, h1, h2⟩; exact ⟨z, ⟨hx, h1⟩, h2⟩
    · rintro ⟨z, ⟨hx, h1⟩, h2⟩; exact ⟨hx, z, h1, h2⟩

theorem Seg_congr (h h2 : Heap) : ∀ (l : List Ptr) (x y : Option Ptr),
    (∀ p ∈ l, (h2 p).next = (h p).next) → (Seg h2 x l y ↔ Seg h x l y) := by
  intro l
  induction l with
  | nil => intro x y _; simp [Seg]
  | cons a l ih =>
    intro x y hn
    simp only [Seg]
    rw [hn a (by simp), ih _ _ (fun p hp => hn p (by simp [hp]))]

/-- Writing the `next` field of the last item of a chain redirects the chain. -/
theorem Seg_set_last (h : Heap) (t : Ptr) (v : WorkItem) : ∀ (l : List Ptr) (x y : Option Ptr),
    Seg h x (l ++ [t]) y → t ∉ l → Seg (Function.update h t v) x (l ++ [t]) v.next := by
  intro l
  induction l with
  | nil =>
    intro x y hs _
    simp only [List.nil_append, Seg] at hs ⊢
    exact ⟨hs.1, by simp⟩
  | cons a l ih =>
    intro x y hs ht
    simp only [List.cons_append, Seg] at hs ⊢
    have hat : a ≠ t := fun e => ht (by simp [e])
    refine ⟨hs.1, ?_⟩
    rw [Function.update_noteq hat]
    exact ih _ _ hs.2 (fun e => ht (by simp [e]))

theorem Seg_last_next (h : Heap) (t : Ptr) : ∀ (l : List Ptr) (x y : Option Ptr),
    Seg h x (l ++ [t]) y → (h t).next = y := by
  intro l
  induction l with
  | nil => intro x y hs; simp only [List.nil_append, Seg] at hs; exact hs.2
  | cons a l ih => intro x y hs; simp only [List.cons_append, Seg] at hs; exact ih _ _ hs.2

theorem Seg_head (h : Heap) (l : List Ptr) (x y : Option Ptr) (hs : Seg h x l y) :
    l = [] ∧ x = y ∨ ∃ a r, l = a :: r ∧ x = some a := by
  cases l with
  | nil => exact Or.inl ⟨rfl, hs⟩
  | cons a r => exact Or.inr ⟨a, r, rfl, hs.1⟩

theorem WF_add_tail (h : Heap) (Q : WorkQueue) (l : List Ptr) (p : Ptr)
    (hw : WF h Q l) (hp : p ∉ l) :
    WF (_work_queue_add_tail_unlocked h Q p).1 (_work_queue_add_tail_unlocked h Q p).2
      (l ++ [p]) := by
  obtain ⟨hseg, htail, hnd⟩ := hw
  have hnd2 : (l ++ [p]).Nodup := by
    rw [List.nodup_append]
    refine ⟨hnd, by simp, ?_⟩
    intro a ha hb
    simp at hb
    subst hb
    exact hp ha
  rcases List.eq_nil_or_concat l with hl | ⟨l0, t, hl⟩
  · subst hl
    have ht : Q.tail = none := by simpa using htail
    have hh : Q.head = none := by simpa [Lseg] using hseg
    refine ⟨?_, ?_, hnd2⟩
    · simp [_work_queue_add_tail_unlocked, ht, Lseg]
    · simp [_work_queue_add_tail_unlocked, ht]
  · rw [List.concat_eq_append] at hl
    subst hl
    have ht : Q.tail = some t := by simpa using htail
    have htl : t ∉ l0 := by
      have := List.nodup_append.1 hnd
      intro e
      exact this.2.2 e (by simp)
    have hpt : p ≠ t := fun e => hp (by simp [e])
    have hpl : p ∉ l0 := fun e => hp (by simp [e])
    refine ⟨?_, ?_, hnd2⟩
    · simp only [_work_queue_add_tail_unlocked, ht]
      rw [Lseg_iff_Seg] at hseg ⊢
      rw [Seg_append]
      refine ⟨some p, ?_, ?_⟩
      · have h1 : Seg (Function.update h p { h p with next := none }) Q.head (l0 ++ [t]) none := by
          rw [Seg_congr h _ (l0 ++ [t]) _ _]
          · exact hseg
          · intro x hx
            have : x ≠ p := fun e => hp (e ▸ hx)
            rw [Function.update_noteq this]
        have := Seg_set_last (Function.update h p { h p with next := none }) t
          { Function.update h p { h p with next := none } t with next := some p } l0 _ _ h1 htl
        simpa using this
      · simp [Seg, Function.update_noteq hpt]
    · simp [_work_queue_add_tail_unlocked, ht]

theorem WF_drain (h : Heap) (Q : WorkQueue) (l : List Ptr) (hw : WF h Q l)
    (r : Option Ptr) (h1 : Heap) (Q1 : WorkQueue)
    (hd : _work_queue_drain_one_unlocked h Q = .ok (r, h1, Q1)) :
    (l = [] ∧ r = none ∧ h1 = h ∧ Q1 = Q)
    ∨ ∃ p rest, l = p :: rest ∧ r = some p ∧ Q.head = some p ∧ WF h1 Q1 rest
        ∧ h1 = Function.update h p { h p with next := none } := by
  obtain ⟨hseg, htail, hnd⟩ := hw
  cases l with
  | nil =>
    left
    simp only [Lseg] at hseg
    simp only [_work_queue_drain_one_unlocked, hseg, Except.ok.injEq, Prod.mk.injEq] at hd
    exact ⟨rfl, hd.1.symm, hd.2.1.symm, hd.2.2.symm⟩
  | cons p rest =>
    right
    simp only [Lseg] at hseg
    obtain ⟨hhead, hrest⟩ := hseg
    have hpl : p ∉ rest := (List.nodup_cons.1 hnd).1
    have hndl : rest.Nodup := (List.nodup_cons.1 hnd).2
    refine ⟨p, rest, rfl, ?_⟩
    simp only [_work_queue_drain_one_unlocked, hhead] at hd
    cases rest with
    | nil =>
      simp only [Lseg] at hrest
      simp only [hrest] at hd
      split at hd
      · simp only [Except.ok.injEq, Prod.mk.injEq] at hd
        obtain ⟨e1, e2, e3⟩ := hd
        subst e1 e2 e3
        exact ⟨rfl, hhead, ⟨by simp [Lseg], by simp, hndl⟩, rfl⟩
      · cases hd
    | cons b l =>
      simp only [Lseg] at hrest
      simp only [hrest.1, Except.ok.injEq, Prod.mk.injEq] at hd
      obtain ⟨e1, e2, e3⟩ := hd
      subst e1 e2 e3
      refine ⟨rfl, hhead, ⟨?_, ?_, hndl⟩, rfl⟩
      · rw [Lseg_update_of_not_mem h p _ _ _ hpl]
        exact ⟨rfl, hrest.2⟩
      · simpa using htail

theorem Link.after_cons (link : Link) (p : Ptr) (pre : List Ptr) :
    (Link.next p).after pre = link.after (p :: pre) := by
  cases pre with
  | nil => simp [Link.after]
  | cons b r =>
    have ht : (b :: r).getLast? = some ((b :: r).getLast (by simp)) :=
      List.getLast?_eq_getLast _ _
    simp only [Link.after, List.getLast?_cons_cons, ht]

/-- The eviction scan stops at the link behind a prefix of barrier and stop
items. -/
theorem scan_normal_spec (h : Heap) (Q : WorkQueue) : ∀ (fuel : Nat) (link : Link)
    (rest : List Ptr), Lseg h (link.get h Q) rest →
    ∃ pre post, rest = pre ++ post ∧ (∀ x ∈ pre, work_item_is_static (h x) = true)
      ∧ scan_normal h Q fuel link = link.after pre
      ∧ Seg h (link.get h Q) pre ((link.after pre).get h Q) := by
  intro fuel
  induction fuel with
  | zero =>
    intro link rest _
    exact ⟨[], rest, rfl, by simp, rfl, rfl⟩
  | succ n ih =>
    intro link rest hl
    cases rest with
    | nil =>
      simp only [Lseg] at hl
      exact ⟨[], [], rfl, by simp, by simp [scan_normal, hl, Link.after], rfl⟩
    | cons p r =>
      simp only [Lseg] at hl
      by_cases hst : work_item_is_static (h p) = true
      · obtain ⟨pre, post, e1, e2, e3, e4⟩ := ih (Link.next p) r hl.2
        refine ⟨p :: pre, post, by simp [e1], ?_, ?_, ?_⟩
        · intro x hx
          rcases List.mem_cons.1 hx with e | e
          · rw [e]; exact hst
          · exact e2 x e
        · simp only [scan_normal, hl.1, hst, if_true]
          rw [e3, Link.after_cons link]
        · refine ⟨hl.1, ?_⟩
          rw [← Link.after_cons link]
          exact e4
      · refine ⟨[], p :: r, rfl, by simp, ?_, rfl⟩
        simp [scan_normal, hl.1, hst, Link.after]

theorem getLast_ne_of_not_mem (c b : Ptr) (l : List Ptr) (hc : c ∉ b :: l) :
    (b :: l).getLast? ≠ some c := by
  intro e
  obtain ⟨ys, hys⟩ := List.getLast?_eq_some_iff.1 e
  apply hc
  rw [hys]
  simp

/-- Unlinking the item `c` behind the prefix `pre`: with items behind `c` the
list stays well formed; without, `tail` is left NULL. -/
theorem unlink_wf (h : Heap) (Q : WorkQueue) (pre post : List Ptr) (c : Ptr)
    (hw : WF h Q (pre ++ c :: post)) :
    ∃ h2 Q2, _work_queue_unlink_one_unlocked h Q (Link.head.after pre) = (some c, h2, Q2)
      ∧ (post ≠ [] → WF h2 Q2 (pre ++ post))
      ∧ (post = [] → Q2.tail = none)
      ∧ (∀ x, x ∉ pre ++ c :: post → h2 x = h x)
      ∧ (∀ x, payload (h2 x) = payload (h x))
      ∧ ∃ hd tl n, Q2 = { Q with head := hd, tail := tl, n_items := n } := by
  obtain ⟨hseg, htail, hnd⟩ := hw
  have hcpost : c ∉ post := by
    have := (List.nodup_append.1 hnd).2.1
    exact (List.nodup_cons.1 this).1
  have hcpre : c ∉ pre := by
    intro e
    exact (List.nodup_append.1 hnd).2.2 e (by simp)
  rw [Lseg_iff_Seg, Seg_append] at hseg
  obtain ⟨z, hpre, hrest⟩ := hseg
  simp only [Seg] at hrest
  obtain ⟨hz, hpost⟩ := hrest
  subst hz
  have hpost2 : Lseg (Function.update h c { h c with next := none }) (h c).next post := by
    rw [Lseg_update_of_not_mem h c _ _ _ hcpost, Lseg_iff_Seg]
    exact hpost
  rcases List.eq_nil_or_concat pre with hp | ⟨pre0, t, hp⟩
  · subst hp
    simp only [Seg] at hpre
    simp only [List.nil_append] at htail hnd ⊢
    cases post with
    | nil =>
      simp only [Seg] at hpost
      have ht : Q.tail = some c := by simpa using htail
      refine ⟨Function.update h c { h c with next := none },
        { Q with head := none, tail := none, n_items := Q.n_items - 1 }, ?_, ?_, ?_, ?_, ?_,
        none, none, _, rfl⟩
      · simp [_work_queue_unlink_one_unlocked, Link.after, Link.get, Link.set, hpre, hpost, ht]
      · intro hne; exact absurd rfl hne
      · intro _; rfl
      · intro x hx
        have : x ≠ c := fun e => hx (by simp [e])
        rw [Function.update_noteq this]
      · intro x; exact update_next_payload h c x none
    | cons b l =>
      have ht : Q.tail ≠ some c := by
        rw [htail]
        simpa using getLast_ne_of_not_mem c b l hcpost
      have hb : (h c).next = some b := hpost.1
      refine ⟨Function.update h c { h c with next := none },
        { Q with head := some b, n_items := Q.n_items - 1 }, ?_, ?_, ?_, ?_, ?_,
        some b, Q.tail, _, rfl⟩
      · simp [_work_queue_unlink_one_unlocked, Link.after, Link.get, Link.set, hpre, hb, ht]
      · intro _
        refine ⟨?_, by simpa using htail, (List.nodup_cons.1 hnd).2⟩
        have := hpost2
        rw [hb] at this
        exact this
      · intro hne; cases hne
      · intro x hx
        have : x ≠ c := fun e => hx (by simp [e])
        rw [Function.update_noteq this]
      · intro x; exact update_next_payload h c x none
  · rw [List.concat_eq_append] at hp
    subst hp
    have htc : (h t).next = some c := Seg_last_next h t pre0 _ _ hpre
    have hne_tc : t ≠ c := fun e => hcpre (by simp [e])
    have htpre0 : t ∉ pre0 := by
      have := (List.nodup_append.1 (List.nodup_append.1 hnd).1)
      intro e
      exact this.2.2 e (by simp)
    have htpost : t ∉ post := by
      intro e
      exact (List.nodup_append.1 hnd).2.2 (show t ∈ pre0 ++ [t] by simp)
        (show t ∈ c :: post by simp [e])
    have hlink : Link.head.after (pre0 ++ [t]) = Link.next t := by
      simp [Link.after]
    -- the chain through the prefix, redirected past `c`
    have hpre2 : Seg (Function.update (Function.update h t { h t with next := (h c).next }) c
        { h c with next := none }) Q.head (pre0 ++ [t]) (h c).next := by
      rw [Seg_congr (Function.update h t { h t with next := (h c).next }) _ (pre0 ++ [t])]
      · exact Seg_set_last h t { h t with next := (h c).next } pre0 _ _ hpre htpre0
      · intro x hx
        have : x ≠ c := fun e => hcpre (e ▸ hx)
        rw [Function.update_noteq this]
    have hpost3 : Seg (Function.update (Function.update h t { h t with next := (h c).next }) c
        { h c with next := none }) (h c).next post none := by
      rw [Seg_congr h _ post]
      · exact hpost
      · intro x hx
        have h1 : x ≠ c := fun e => hcpost (e ▸ hx)
        have h2 : x ≠ t := fun e => htpost (e ▸ hx)
        rw [Function.update_noteq h1, Function.update_noteq h2]
    have hpay : ∀ x, payload (Function.update (Function.update h t
        { h t with next := (h c).next }) c { h c with next := none } x) = payload (h x) := by
      intro x
      rw [payload_update _ c x _ (by
        rw [Function.update_noteq (Ne.symm hne_tc)]; rfl)]
      exact update_next_payload h t x _
    have hframe : ∀ x, x ∉ pre0 ++ [t] ++ c :: post →
        Function.update (Function.update h t { h t with next := (h c).next }) c
          { h c with next := none } x = h x := by
      intro x hx
      have h1 : x ≠ c := fun e => hx (by simp [e])
      have h2 : x ≠ t := fun e => hx (by simp [e])
      rw [Function.update_noteq h1, Function.update_noteq h2]
    have hu : _work_queue_unlink_one_unlocked h Q (Link.next t)
        = (some c, Function.update (Function.update h t { h t with next := (h c).next }) c
            { h c with next := none },
          if Q.tail = some c then
            { Q with n_items := Q.n_items - 1, tail := (h c).next }
          else { Q with n_items := Q.n_items - 1 }) := by
      simp only [_work_queue_unlink_one_unlocked, Link.get, htc, Link.set]
      rw [Function.update_noteq (Ne.symm hne_tc)]
      by_cases hq : Q.tail = some c
      · simp [hq, Function.update_noteq hne_tc]
      · simp [hq]
    rw [hlink]
    cases post with
    | nil =>
      simp only [Seg] at hpost
      have ht : Q.tail = some c := by simpa using htail
      rw [if_pos ht] at hu
      rw [hpost] at hu hframe hpay
      refine ⟨_, _, hu, ?_, ?_, hframe, hpay, Q.head, none, _, rfl⟩
      · intro hne; exact absurd rfl hne
      · intro _; rfl
    | cons b l =>
      have ht : Q.tail ≠ some c := by
        rw [htail]
        simpa using getLast_ne_of_not_mem c b l hcpost
      rw [if_neg ht] at hu
      refine ⟨_, _, hu, ?_, ?_, hframe, hpay, Q.head, Q.tail, _, rfl⟩
      · intro _
        refine ⟨?_, ?_, ?_⟩
        · rw [Lseg_iff_Seg, Seg_append]
          exact ⟨_, hpre2, hpost3⟩
        · simpa using htail
        · have h1 := List.nodup_append.1 hnd
          rw [List.nodup_append]
          refine ⟨h1.1, (List.nodup_cons.1 h1.2.1).2, ?_⟩
          intro a ha hb
          exact h1.2.2 ha (by simp [hb])
      · intro hne; cases hne

theorem add_tail_frame (h : Heap) (Q : WorkQueue) (item x : Ptr) (h1 : x ≠ item)
    (h2 : Q.tail ≠ some x) : (_work_queue_add_tail_unlocked h Q item).1 x = h x := by
  simp only [_work_queue_add_tail_unlocked]
  cases ht : Q.tail with
  | none => simp [Function.update_noteq h1]
  | some t =>
    have hxt : x ≠ t := fun e => h2 (by rw [ht, e])
    simp [Function.update_noteq h1, Function.update_noteq hxt]

theorem WF.tail_mem {h : Heap} {Q : WorkQueue} {l : List Ptr} (hw : WF h Q l) (t : Ptr)
    (ht : Q.tail = some t) : t ∈ l := by
  rw [hw.tail] at ht
  exact List.mem_of_getLast?_eq_some ht

/-- The list of a queue after `_work_queue_unlink_one_unlocked` has removed the
item behind the prefix `pre` and `_work_queue_add_tail_unlocked` has added
`item`: when the removed item was the last one, the prefix is lost. -/
theorem evict_add_wf (h : Heap) (Q : WorkQueue) (pre post : List Ptr) (c item : Ptr)
    (hw : WF h Q (pre ++ c :: post)) (hi : item ∉ pre ++ c :: post) :
    ∃ h2 Q2, _work_queue_unlink_one_unlocked h Q (Link.head.after pre) = (some c, h2, Q2)
      ∧ WF (_work_queue_add_tail_unlocked h2 Q2 item).1 (_work_queue_add_tail_unlocked h2 Q2 item).2
          ((if post = [] then [] else pre ++ post) ++ [item])
      ∧ (∀ x, x ∉ pre ++ c :: post → x ≠ item →
          (_work_queue_add_tail_unlocked h2 Q2 item).1 x = h x)
      ∧ (∀ x, payload ((_work_queue_add_tail_unlocked h2 Q2 item).1 x) = payload (h x))
      ∧ (∀ x, payload (h2 x) = payload (h x))
      ∧ ∃ hd tl n, (_work_queue_add_tail_unlocked h2 Q2 item).2
          = { Q with head := hd, tail := tl, n_items := n } := by
  obtain ⟨h2, Q2, hu, hne, hnil, hframe, hpay, hd, tl, n, hQ⟩ := unlink_wf h Q pre post c hw
  obtain ⟨hd5, hQ5⟩ := add_tail_fields h2 Q2 item
  refine ⟨h2, Q2, hu, ?_, ?_, ?_, hpay, hd5, some item, n + 1, by rw [hQ5, hQ]⟩
  · by_cases hp : post = []
    · have ht := hnil hp
      simp only [hp, if_true, List.nil_append]
      refine ⟨?_, ?_, by simp⟩
      · simp [_work_queue_add_tail_unlocked, ht, Lseg]
      · simp [_work_queue_add_tail_unlocked, ht]
    · simp only [hp, if_false]
      refine WF_add_tail h2 Q2 _ item (hne hp) ?_
      intro e
      apply hi
      simp only [List.mem_append, List.mem_cons] at e ⊢
      rcases e with e | e
      · exact Or.inl e
      · exact Or.inr (Or.inr e)
  · intro x hx hxi
    rw [add_tail_frame h2 Q2 item x hxi, hframe x hx]
    intro e
    by_cases hp : post = []
    · rw [hnil hp] at e; cases e
    · have := (hne hp).tail_mem x e
      apply hx
      simp only [List.mem_append, List.mem_cons] at this ⊢
      rcases this with e | e
      · exact Or.inl e
      · exact Or.inr (Or.inr e)
  · intro x
    rw [add_tail_payload, hpay]

theorem Seg_end_unique (h : Heap) : ∀ (l : List Ptr) (x y z : Option Ptr),
    Seg h x l y → Seg h x l z → y = z := by
  intro l
  induction l with
  | nil => intro x y z h1 h2; simp only [Seg] at h1 h2; rw [← h1, ← h2]
  | cons a l ih => intro x y z h1 h2; exact ih _ _ _ h1.2 h2.2

/-- What a successful eviction scan has found in a well-formed list. -/
theorem scan_found (h : Heap) (Q : WorkQueue) (l : List Ptr) (hw : WF h Q l) (fuel : Nat)
    (c : Ptr) (hget : (scan_normal h Q fuel Link.head).get h Q = some c) :
    ∃ pre post, l = pre ++ c :: post ∧ (∀ x ∈ pre, work_item_is_static (h x) = true)
      ∧ scan_normal h Q fuel Link.head = Link.head.after pre := by
  obtain ⟨pre, post0, e1, e2, e3, e4⟩ := scan_normal_spec h Q fuel Link.head l hw.seg
  have hseg := hw.seg
  rw [e1, Lseg_iff_Seg, Seg_append] at hseg
  obtain ⟨z, hz1, hz2⟩ := hseg
  have hz : (Link.head.after pre).get h Q = z := Seg_end_unique h pre _ _ _ e4 hz1
  rw [e3, hz] at hget
  subst hget
  cases post0 with
  | nil => simp only [Seg] at hz2; cases hz2
  | cons a post =>
    have : a = c := by
      have := hz2.1
      injection this with this
      exact this.symm
    subst this
    exact ⟨pre, post, e1, e2, e3⟩

/-! ## C4: the log, item by item -/

theorem about_append (l m : List Event) (p : Ptr) :
    about (l ++ m) p = about l p ++ about m p := by
  simp [about]

theorem about_nil (p : Ptr) : about [] p = [] := rfl

theorem about_of_ne (evs : List Event) (p : Ptr) (h : ∀ e ∈ evs, e.item ≠ some p) :
    about evs p = [] := by
  simp only [about, List.filter_eq_nil_iff]
  intro e he
  simpa using h e he

theorem about_of_eq (evs : List Event) (p : Ptr) (h : ∀ e ∈ evs, e.item = some p) :
    about evs p = evs := by
  simp only [about, List.filter_eq_self]
  intro e he
  simpa using h e he

theorem about_emit_ne (log evs : List Event) (p : Ptr) (h : ∀ e ∈ evs, e.item ≠ some p) :
    about (log ++ evs) p = about log p := by
  rw [about_append, about_of_ne evs p h, List.append_nil]

theorem hist_work_congr (it it2 : WorkItem) (p : Ptr) (h : payload it2 = payload it) :
    hist_work it2 p = hist_work it p := by
  have h1 : it2.work = it.work := by simpa [payload] using congrArg WorkItem.work h
  have h2 : it2.data = it.data := by simpa [payload] using congrArg WorkItem.data h
  simp [hist_work, h1, h2]

theorem hist_run_congr (it it2 : WorkItem) (p : Ptr) (h : payload it2 = payload it) :
    hist_run it2 p = hist_run it p := by
  have h1 : it2.notify = it.notify := by simpa [payload] using congrArg WorkItem.notify h
  have h2 : it2.data = it.data := by simpa [payload] using congrArg WorkItem.data h
  simp [hist_run, hist_work_congr it it2 p h, h1, h2]

theorem hist_evict_congr (it it2 : WorkItem) (p : Ptr) (h : payload it2 = payload it) :
    hist_evict it2 p = hist_evict it p := by
  have h1 : it2.cancel = it.cancel := by simpa [payload] using congrArg WorkItem.cancel h
  have h2 : it2.data = it.data := by simpa [payload] using congrArg WorkItem.data h
  simp [hist_evict, h1, h2]

theorem Life_congr (pl : Place) (it it2 : WorkItem) (p : Ptr) (hist : List Event)
    (h : payload it2 = payload it) : Life pl it2 p hist ↔ Life pl it p hist := by
  have h1 : it2.notify = it.notify := by simpa [payload] using congrArg WorkItem.notify h
  cases pl <;>
    simp [Life, hist_work_congr it it2 p h, hist_run_congr it it2 p h,
      hist_evict_congr it it2 p h, h1]

theorem payload_work {it it2 : WorkItem} (h : payload it2 = payload it) : it2.work = it.work := by
  simpa [payload] using congrArg WorkItem.work h

theorem payload_notify {it it2 : WorkItem} (h : payload it2 = payload it) :
    it2.notify = it.notify := by
  simpa [payload] using congrArg WorkItem.notify h

theorem payload_cancel {it it2 : WorkItem} (h : payload it2 = payload it) :
    it2.cancel = it.cancel := by
  simpa [payload] using congrArg WorkItem.cancel h

theorem payload_data {it it2 : WorkItem} (h : payload it2 = payload it) : it2.data = it.data := by
  simpa [payload] using congrArg WorkItem.data h

theorem NodeOk_congr {it it2 : WorkItem} (h : payload it2 = payload it) (hn : NodeOk it) :
    NodeOk it2 := by
  unfold NodeOk at *
  rw [payload_work h, payload_notify h]
  exact hn

theorem CtlOk_congr {q : QId} {it it2 : WorkItem} (h : payload it2 = payload it)
    (hn : CtlOk q it) : CtlOk q it2 := by
  unfold CtlOk at *
  rw [payload_work h, payload_notify h, payload_data h]
  exact hn

/-! ## C4: ownership across pieces of code -/

theorem Drop.drop_refl (own : Ptr → Place) (p : Ptr) : Drop own own p := Or.inl rfl

theorem Drop.drop_trans {own own1 own2 : Ptr → Place} {p : Ptr} (h1 : Drop own own1 p)
    (h2 : Drop own1 own2 p) : Drop own own2 p := by
  rcases h1 with h1 | ⟨h1, o, ho, h1b⟩
  · rcases h2 with h2 | ⟨h2, o, ho, h2b⟩
    · exact Or.inl (h2.trans h1)
    · exact Or.inr ⟨h2, o, ho, by rw [← h1]; exact h2b⟩
  · rcases h2 with h2 | ⟨h2, o2, _, h2b⟩
    · exact Or.inr ⟨by rw [h2]; exact h1, o, ho, h1b⟩
    · rw [h1] at h2b; cases h2b

theorem Drop.busy {own own2 : Ptr → Place} {p : Ptr} (h : Drop own own2 p)
    (hb : (own2 p).busy = true) : (own p).busy = true := by
  rcases h with h | ⟨h, _⟩
  · rw [← h]; exact hb
  · rw [h] at hb; cases hb

theorem Drop.idle {own own2 : Ptr → Place} {p : Ptr} (h : Drop own own2 p)
    (hb : (own p).busy = false) : own2 p = own p := by
  rcases h with h | ⟨_, o, _, h⟩
  · exact h
  · rw [h] at hb; cases hb

theorem Drop.drop_thr_iff {own own2 : Ptr → Place} {p : Ptr} (h : Drop own own2 p) (o : QId) :
    own2 p = Place.thr o ↔ own p = Place.thr o := by
  rcases h with h | ⟨h, o2, _, h2⟩
  · rw [h]
  · rw [h, h2]; simp

theorem Drop.mstack_iff {own own2 : Ptr → Place} {p : Ptr} (h : Drop own own2 p) :
    own2 p = Place.mstack ↔ own p = Place.mstack := by
  rcases h with h | ⟨h, o2, _, h2⟩
  · rw [h]
  · rw [h, h2]; simp

theorem Drop.acc {own own2 : Ptr → Place} {p : Ptr} (h : Drop own own2 p)
    (ha : own p ≠ Place.out) : own2 p ≠ Place.out := by
  rcases h with h | ⟨h, _⟩
  · rw [h]; exact ha
  · rw [h]; simp

theorem Trans.trans_refl (s : Engine) (own : Ptr → Place) (S : Ptr → Prop) : Trans s own s own S :=
  ⟨fun _ => Or.inr (Or.inl rfl), fun _ _ => Or.inr rfl, fun _ h => h⟩

theorem Trans.trans_trans {s s1 s2 : Engine} {own own1 own2 : Ptr → Place} {S : Ptr → Prop}
    (h1 : Trans s own s1 own1 S) (h2 : Trans s1 own1 s2 own2 S) : Trans s own s2 own2 S := by
  constructor
  · intro p
    rcases h1.drop p with a | a
    · exact Or.inl a
    · rcases h2.drop p with b | b
      · exact Or.inl b
      · exact Or.inr (a.drop_trans b)
  · intro p hb
    rcases h1.drop p with a | a
    · exact Or.inl a
    · rcases h1.quiet p hb with c | c
      · exact Or.inl c
      · have e := a.idle hb
        rcases h2.quiet p (by rw [e]; exact hb) with d | d
        · exact Or.inl d
        · exact Or.inr (d.trans c)
  · intro p hp
    exact h2.acc p (h1.acc p hp)

theorem Trans.trans_mono {s s1 : Engine} {own own1 : Ptr → Place} {S T : Ptr → Prop}
    (h : Trans s own s1 own1 S) (hst : ∀ p, S p → T p) : Trans s own s1 own1 T :=
  ⟨fun p => (h.drop p).imp (hst p) id, fun p hb => (h.quiet p hb).imp (hst p) id, h.acc⟩

theorem ProtoSame.proto_same_refl (s : Engine) : ProtoSame s s :=
  ⟨rfl, rfl, fun _ => rfl, fun _ => rfl, fun _ => rfl⟩

theorem ProtoSame.proto_same_trans {s s1 s2 : Engine} (h1 : ProtoSame s s1) (h2 : ProtoSame s1 s2) :
    ProtoSame s s2 :=
  ⟨h2.ctl.trans h1.ctl, h2.flags.trans h1.flags, fun q => (h2.work q).trans (h1.work q),
    fun q => (h2.notify q).trans (h1.notify q), fun q => (h2.vtable q).trans (h1.vtable q)⟩

theorem HeldSame.held_same_refl (s : Engine) : HeldSame s s := ⟨fun _ => rfl, rfl, id, fun _ _ h => h, fun _ _ h => Or.inl h⟩

theorem HeldSame.held_same_trans {s s1 s2 : Engine} (h1 : HeldSame s s1) (h2 : HeldSame s1 s2) :
    HeldSame s s2 :=
  ⟨fun o => (h2.items o).trans (h1.items o), h2.stack.trans h1.stack,
    fun h => h2.nomain (h1.nomain h), fun o pc h => h2.mem o pc (h1.mem o pc h),
    fun o pc h => (h2.back o pc h).elim (h1.back o pc) Or.inr⟩

/-- The protocol invariant survives code that leaves the protocol state alone
and makes no control item busy. -/
theorem Proto.proto_transfer {s s2 : Engine} {own own2 : Ptr → Place} (hp : Proto s own)
    (hs : ProtoSame s s2)
    (hb : ∀ q, (own2 (Ptr.ctl q)).busy = true → (own (Ptr.ctl q)).busy = true) :
    Proto s2 own2 := by
  have nb : ∀ q, (own (Ptr.ctl q)).busy = false → (own2 (Ptr.ctl q)).busy = false := by
    intro q h
    cases hc : (own2 (Ptr.ctl q)).busy with
    | false => rfl
    | true => rw [hb q hc] at h; cases h
  constructor
  · intro q b h; rw [hs.ctl] at h; exact nb q (hp.r2 q b h)
  · intro q b h hf; rw [hs.ctl] at h; rw [hs.flags] at hf; exact nb q (hp.r3 q b h hf)
  · intro q h hf; rw [hs.ctl] at h; rw [hs.flags] at hf; exact nb q (hp.r4 q h hf)
  · intro q h hw; rw [hs.ctl] at h; rw [hs.work] at hw; exact nb q (hp.r5 q h hw)
  · intro q h1 h2 h3 h4
    rw [hs.ctl] at h3 h4
    rw [hs.work, hs.notify, hs.vtable]
    exact hp.r6 q h1 h2 h3 h4

/-- The holders of items stay right when the held items and their places stay. -/
theorem Held.held_transfer {s s2 : Engine} {own own2 : Ptr → Place} (hh : Held s own)
    (hs : HeldSame s s2) (ht : ∀ p o, own2 p = Place.thr o ↔ own p = Place.thr o)
    (hm : ∀ p, own2 p = Place.mstack ↔ own p = Place.mstack) : Held s2 own2 := by
  constructor
  · intro o p
    rw [hs.items, hh.thr o p]
    simp only [ht p o]
  · intro p
    rw [hs.stack, hh.stk p]
    simp only [hm p]
  · exact hs.nomain hh.nomain

/-! ## C4: the memory invariant under the list primitives -/

theorem Shape.not_mem {s : Engine} {own : Ptr → Place} {ch : QId → List Ptr}
    (hs : Shape s own ch) (p : Ptr) (o : QId) (h : own p ≠ Place.inq o) : p ∉ ch o :=
  fun hm => h ((hs.mem o p).1 hm)

theorem Shape.idle_not_mem {s : Engine} {own : Ptr → Place} {ch : QId → List Ptr}
    (hs : Shape s own ch) (p : Ptr) (o : QId) (h : (own p).busy = false) : p ∉ ch o := by
  intro hm
  rw [(hs.mem o p).1 hm] at h
  cases h

/-- The invariant depends on the heap, on `head`, `tail`, `vtable` and
`xref_cnt` of the queues, on the thread count and width of the main queue,
and on the log. -/
theorem Shape.shape_alike {s s2 : Engine} {own : Ptr → Place} {ch : QId → List Ptr}
    (hs : Shape s own ch) (hh : s2.heap = s.heap)
    (hq : ∀ o, (s2.queues o).head = (s.queues o).head ∧ (s2.queues o).tail = (s.queues o).tail
      ∧ (s2.queues o).vtable = (s.queues o).vtable
      ∧ ((s.queues o).vtable = none
          ∨ (s.heap (Ptr.ctl o)).notify = some Fn.work_queue_free →
        (s2.queues o).xref_cnt = (s.queues o).xref_cnt))
    (hm : (s2.queues QId.main).n_threads = (s.queues QId.main).n_threads
      ∧ (s2.queues QId.main).width = (s.queues QId.main).width)
    (hl : s2.log = s.log) (hi : s2.initialized = s.initialized) : Shape s2 own ch := by
  constructor
  · intro o
    rw [hh]
    exact (hs.wf o).congr (hq o).1 (hq o).2.1 (fun _ _ => rfl)
  · exact hs.mem
  · intro k; rw [hh]; exact hs.node k
  · intro q; rw [hh]; exact hs.ctl q
  · intro q hv
    rw [(hq q).2.2.1] at hv
    rw [(hq q).2.2.2 (Or.inl hv)]
    exact hs.dead q hv
  · rw [(hq QId.main).2.2.1, hm.1, hm.2]
    exact hs.mainq
  · intro k u hw
    rw [hh] at hw ⊢
    rw [hl]
    exact hs.life k u hw
  · rw [hi, (hq _).2.2.1, (hq _).2.2.1]
    exact hs.boot
  · intro q h1 h2 hn
    rw [hh] at hn
    rw [(hq q).2.2.2 (Or.inr hn)]
    exact hs.fin q h1 h2 hn

/-- Rewriting the list of one queue `q`: the new list is well formed, memory
outside it keeps its links, every cell keeps its payload. -/
theorem Shape.relist {s : Engine} {own : Ptr → Place} {ch : QId → List Ptr}
    (hs : Shape s own ch) (q : QId) (h2 : Heap) (Q2 : WorkQueue) (l2 : List Ptr)
    (own2 : Ptr → Place) (log2 : List Event)
    (hw : WF h2 Q2 l2)
    (hframe : ∀ o x, o ≠ q → x ∈ ch o → (h2 x).next = (s.heap x).next)
    (hpay : ∀ x, payload (h2 x) = payload (s.heap x))
    (hQ : Q2.vtable = (s.queues q).vtable ∧ Q2.xref_cnt = (s.queues q).xref_cnt
      ∧ Q2.n_threads = (s.queues q).n_threads ∧ Q2.width = (s.queues q).width)
    (hmem : ∀ o p, p ∈ Function.update ch q l2 o ↔ own2 p = Place.inq o)
    (hdead : ∀ q0, (s.queues q0).vtable = none →
      (own2 (Ptr.ctl q0)).busy = false ∧ (q0 = q → l2 = []))
    (hlife : ∀ k u, (s.heap (Ptr.node k)).work = some (Fn.user u) →
      Life (own2 (Ptr.node k)) (s.heap (Ptr.node k)) (Ptr.node k) (about log2 (Ptr.node k)))
    (hfin : ∀ q0, q0 ≠ QId.concurrent → q0 ≠ QId.main →
      (s.heap (Ptr.ctl q0)).notify = some Fn.work_queue_free →
      (own2 (Ptr.ctl q0) = Place.inq q0 →
          (Function.update ch q l2 q0).getLast? = some (Ptr.ctl q0))
        ∧ ((own2 (Ptr.ctl q0)).busy = true → own2 (Ptr.ctl q0) ≠ Place.inq q0 →
            Function.update ch q l2 q0 = [])) :
    Shape { s with heap := h2, queues := Function.update s.queues q Q2, log := log2 } own2
      (Function.update ch q l2) := by
  constructor
  · intro o
    by_cases hoq : o = q
    · subst hoq
      simpa using hw
    · simp only [Function.update_noteq hoq]
      exact (hs.wf o).congr rfl rfl (fun x hx => hframe o x hoq hx)
  · exact hmem
  · intro k
    exact NodeOk_congr (hpay _) (hs.node k)
  · intro q0
    exact CtlOk_congr (hpay _) (hs.ctl q0)
  · intro q0 hv
    by_cases hoq : q0 = q
    · subst hoq
      simp only [Function.update_same] at hv ⊢
      rw [hQ.1] at hv
      obtain ⟨a, b⟩ := hdead q0 hv
      exact ⟨a, b rfl, by rw [hQ.2.1]; exact (hs.dead q0 hv).2.2⟩
    · simp only [Function.update_noteq hoq] at hv ⊢
      exact ⟨(hdead q0 hv).1, (hs.dead q0 hv).2.1, (hs.dead q0 hv).2.2⟩
  · by_cases hoq : QId.main = q
    · subst hoq
      simp only [Function.update_same]
      rw [hQ.1, hQ.2.2.1, hQ.2.2.2]
      exact hs.mainq
    · simp only [Function.update_noteq hoq]
      exact hs.mainq
  · intro k u hwk
    have hp := hpay (Ptr.node k)
    have hwk2 : (s.heap (Ptr.node k)).work = some (Fn.user u) := by
      rw [← payload_work hp]; exact hwk
    exact (Life_congr _ _ _ _ _ hp).2 (hlife k u hwk2)
  · intro hi
    have hv : ∀ o, ((Function.update s.queues q Q2) o).vtable = (s.queues o).vtable := by
      intro o
      by_cases hoq : o = q
      · subst hoq; simp [hQ.1]
      · simp [Function.update_noteq hoq]
    show ((Function.update s.queues q Q2) _).vtable = none
      ∧ ((Function.update s.queues q Q2) _).vtable = none
    rw [hv, hv]
    exact hs.boot hi
  · intro q0 h1 h2 hn
    have hn2 : (s.heap (Ptr.ctl q0)).notify = some Fn.work_queue_free := by
      rw [← payload_notify (hpay _)]; exact hn
    refine ⟨?_, hfin q0 h1 h2 hn2⟩
    show ((Function.update s.queues q Q2) q0).xref_cnt = 0
    by_cases hoq : q0 = q
    · subst hoq
      rw [Function.update_same, hQ.2.1]
      exact (hs.fin q0 h1 h2 hn2).1
    · rw [Function.update_noteq hoq]
      exact (hs.fin q0 h1 h2 hn2).1

/-- Linking an item the engine does not keep at the tail of queue `q`. -/
theorem Shape.link {s : Engine} {own : Ptr → Place} {ch : QId → List Ptr}
    (hs : Shape s own ch) (q : QId) (item : Ptr) (hidle : (own item).busy = false)
    (hv : (s.queues q).vtable ≠ none)
    (hctl : ∀ q0, item = Ptr.ctl q0 → (s.queues q0).vtable ≠ none)
    (hlife : ∀ k u, item = Ptr.node k → (s.heap item).work = some (Fn.user u) →
      Life (Place.inq q) (s.heap item) item (about s.log item))
    (harm : q ≠ QId.concurrent → q ≠ QId.main → item ≠ Ptr.ctl q →
      (s.heap (Ptr.ctl q)).notify ≠ some Fn.work_queue_free)
    (hfwd : ∀ q0, item = Ptr.ctl q0 → q0 ≠ q → q0 ≠ QId.concurrent → q0 ≠ QId.main →
      (s.heap (Ptr.ctl q0)).notify = some Fn.work_queue_free → ch q0 = []) :
    Shape { s with heap := (_work_queue_add_tail_unlocked s.heap (s.queues q) item).1,
                   queues := Function.update s.queues q
                     (_work_queue_add_tail_unlocked s.heap (s.queues q) item).2 }
      (Function.update own item (Place.inq q)) (Function.update ch q (ch q ++ [item])) := by
  have hnm : ∀ o, item ∉ ch o := fun o => hs.idle_not_mem item o hidle
  obtain ⟨hd, hQ⟩ := add_tail_fields s.heap (s.queues q) item
  refine hs.relist q _ _ (ch q ++ [item]) _ s.log (WF_add_tail _ _ _ _ (hs.wf q) (hnm q))
    ?_ (fun x => add_tail_payload _ _ _ x) (by rw [hQ]; exact ⟨rfl, rfl, rfl, rfl⟩) ?_ ?_ ?_ ?_
  · intro o x hoq hx
    rw [add_tail_frame]
    · intro e; exact hnm o (e ▸ hx)
    · intro e
      have h1 := (hs.mem q x).1 ((hs.wf q).tail_mem x e)
      have h2 := (hs.mem o x).1 hx
      rw [h1] at h2
      injection h2 with h2
      exact hoq h2.symm
  · intro o p
    by_cases hpi : p = item
    · subst hpi
      by_cases hoq : o = q
      · subst hoq; simp
      · simp only [Function.update_noteq hoq, Function.update_same]
        constructor
        · intro hm; exact absurd hm (hnm o)
        · intro e; injection e with e; exact absurd e.symm hoq
    · by_cases hoq : o = q
      · subst hoq
        simp only [Function.update_same, Function.update_noteq hpi, List.mem_append,
          List.mem_singleton, hpi, or_false]
        exact hs.mem o p
      · simp only [Function.update_noteq hoq, Function.update_noteq hpi]
        exact hs.mem o p
  · intro q0 hv0
    refine ⟨?_, fun e => absurd (e ▸ hv0) hv⟩
    by_cases hpi : Ptr.ctl q0 = item
    · exact absurd hv0 (hctl q0 hpi.symm)
    · rw [Function.update_noteq hpi]
      exact (hs.dead q0 hv0).1
  · intro k u hw
    by_cases hpi : Ptr.node k = item
    · rw [hpi, Function.update_same]
      rw [hpi] at hw
      exact hlife k u hpi.symm hw
    · rw [Function.update_noteq hpi]
      exact hs.life k u hw
  · intro q0 h1 h2 hn
    by_cases hpi : Ptr.ctl q0 = item
    · rw [hpi, Function.update_same]
      by_cases hoq : q0 = q
      · subst hoq
        rw [Function.update_same]
        refine ⟨fun _ => ?_, fun _ e => absurd rfl e⟩
        rw [← hpi]
        simp
      · rw [Function.update_noteq hoq]
        refine ⟨fun e => ?_, fun _ _ => hfwd q0 hpi.symm hoq h1 h2 hn⟩
        injection e with e
        exact absurd e.symm hoq
    · rw [Function.update_noteq hpi]
      by_cases hoq : q0 = q
      · subst hoq
        exact absurd hn (harm h1 h2 (Ne.symm hpi))
      · rw [Function.update_noteq hoq]
        exact (hs.fin q0 h1 h2 hn).2

theorem drain_fields (h : Heap) (Q : WorkQueue) (r : Option Ptr) (h1 : Heap) (Q1 : WorkQueue)
    (hd : _work_queue_drain_one_unlocked h Q = .ok (r, h1, Q1)) :
    ∃ hd tl n, Q1 = { Q with head := hd, tail := tl, n_items := n } := by
  simp only [_work_queue_drain_one_unlocked] at hd
  split at hd
  · simp only [Except.ok.injEq, Prod.mk.injEq] at hd
    exact ⟨Q.head, Q.tail, Q.n_items, hd.2.2.symm⟩
  · split at hd
    · split at hd
      · simp only [Except.ok.injEq, Prod.mk.injEq] at hd
        exact ⟨_, _, _, hd.2.2.symm⟩
      · cases hd
    · simp only [Except.ok.injEq, Prod.mk.injEq] at hd
      exact ⟨_, Q.tail, _, hd.2.2.symm⟩

/-- Taking the head item off queue `q`; the item goes to the place `X`. -/
theorem Shape.pop {s : Engine} {own : Ptr → Place} {ch : QId → List Ptr}
    (hs : Shape s own ch) (q : QId) (r : Option Ptr) (h1 : Heap) (Q1 : WorkQueue)
    (hd : _work_queue_drain_one_unlocked s.heap (s.queues q) = .ok (r, h1, Q1)) :
    (r = none ∧ (s.queues q).head = none ∧ h1 = s.heap ∧ Q1 = s.queues q)
    ∨ ∃ p rest, r = some p ∧ (s.queues q).head = some p ∧ ch q = p :: rest
        ∧ own p = Place.inq q
        ∧ (∀ x, payload (h1 x) = payload (s.heap x))
        ∧ ∀ X : Place, (∀ o, X ≠ Place.inq o) →
          (∀ k u, p = Ptr.node k → (s.heap p).work = some (Fn.user u) →
            Life X (s.heap p) p (about s.log p)) →
          Shape { s with heap := h1, queues := Function.update s.queues q Q1 }
            (Function.update own p X) (Function.update ch q rest) := by
  rcases WF_drain _ _ _ (hs.wf q) r h1 Q1 hd with ⟨hl, hr, e1, e2⟩ | ⟨p, rest, hl, hr, hh, hw, e1⟩
  · left
    have := (hs.wf q).seg
    rw [hl] at this
    exact ⟨hr, this, e1, e2⟩
  · right
    have hown : own p = Place.inq q := (hs.mem q p).1 (by rw [hl]; simp)
    have hpay : ∀ x, payload (h1 x) = payload (s.heap x) := by
      intro x; rw [e1]; exact update_next_payload _ _ _ _
    refine ⟨p, rest, hr, hh, hl, hown, hpay, ?_⟩
    intro X hX hlife
    obtain ⟨hd2, tl2, n2, hQ⟩ := drain_fields _ _ _ _ _ hd
    have hnd : p ∉ rest := by
      have := (hs.wf q).nodup
      rw [hl] at this
      exact (List.nodup_cons.1 this).1
    refine hs.relist q _ _ rest _ s.log hw ?_ hpay (by rw [hQ]; exact ⟨rfl, rfl, rfl, rfl⟩)
      ?_ ?_ ?_ ?_
    · intro o x hoq hx
      have : x ≠ p := by
        intro e
        have h2 := (hs.mem o x).1 hx
        rw [e, hown] at h2
        injection h2 with h2
        exact hoq h2.symm
      rw [e1, Function.update_noteq this]
    · intro o x
      by_cases hxp : x = p
      · subst hxp
        simp only [Function.update_same]
        constructor
        · intro hm
          by_cases hoq : o = q
          · subst hoq
            simp only [Function.update_same] at hm
            exact absurd hm hnd
          · simp only [Function.update_noteq hoq] at hm
            have h2 := (hs.mem o x).1 hm
            rw [hown] at h2
            injection h2 with h2
            exact absurd h2.symm hoq
        · intro e; exact absurd e (hX o)
      · simp only [Function.update_noteq hxp]
        by_cases hoq : o = q
        · subst hoq
          simp only [Function.update_same]
          rw [← hs.mem o x, hl]
          simp [hxp]
        · simp only [Function.update_noteq hoq]
          exact hs.mem o x
    · intro q0 hv0
      obtain ⟨d1, d2, _⟩ := hs.dead q0 hv0
      refine ⟨?_, ?_⟩
      · by_cases hpi : Ptr.ctl q0 = p
        · rw [hpi, hown] at d1; cases d1
        · rw [Function.update_noteq hpi]; exact d1
      · intro e
        subst e
        rw [hl] at d2
        cases d2
    · intro k u hwk
      by_cases hpi : Ptr.node k = p
      · rw [hpi, Function.update_same]
        rw [hpi] at hwk
        exact hlife k u hpi.symm hwk
      · rw [Function.update_noteq hpi]
        exact hs.life k u hwk
    · intro q0 h1 h2 hn
      obtain ⟨_, f1, f2⟩ := hs.fin q0 h1 h2 hn
      by_cases hpi : Ptr.ctl q0 = p
      · rw [hpi, Function.update_same]
        refine ⟨fun e => absurd e (hX q0), fun _ _ => ?_⟩
        by_cases hoq : q0 = q
        · subst hoq
          rw [Function.update_same]
          have hlast := f1 (by rw [hpi]; exact hown)
          rw [hl, hpi] at hlast
          cases rest with
          | nil => rfl
          | cons a rest2 =>
            exfalso
            apply hnd
            have : (a :: rest2).getLast? = some p := by
              simpa [List.getLast?_cons_cons] using hlast
            exact List.mem_of_mem_getLast? this
        · rw [Function.update_noteq hoq]
          apply f2
          · rw [hpi, hown]; rfl
          · rw [hpi, hown]
            intro e
            injection e with e
            exact hoq e.symm
      · rw [Function.update_noteq hpi]
        by_cases hoq : q0 = q
        · subst hoq
          rw [Function.update_same]
          refine ⟨fun e => ?_, fun hb hne => ?_⟩
          · have hlast := f1 e
            rw [hl] at hlast
            cases rest with
            | nil =>
              simp only [List.getLast?_singleton, Option.some.injEq] at hlast
              exact absurd hlast.symm hpi
            | cons a rest2 =>
              simpa [List.getLast?_cons_cons] using hlast
          · have := f2 hb hne
            rw [hl] at this
            cases this
        · rw [Function.update_noteq hoq]
          exact ⟨f1, f2⟩

theorem static_not_user (it : WorkItem) (u : Nat) (hs : work_item_is_static it = true) :
    it.work ≠ some (Fn.user u) := by
  intro e
  simp [work_item_is_static, work_item_is_stop, work_item_is_barrier, e] at hs

/-- A rewind add on a full queue `q`: the eviction of the first user item and
the linking of `item`, as in `_work_queue_add_unlocked`. -/
theorem Shape.evict_link {s : Engine} {own : Ptr → Place} {ch : QId → List Ptr}
    (hs : Shape s own ch) (env : Env) (q : QId) (item : Ptr) (hqm : q ≠ QId.main)
    (hidle : (own item).busy = false) (hv : (s.queues q).vtable ≠ none)
    (hctl : ∀ q0, item = Ptr.ctl q0 → (s.queues q0).vtable ≠ none)
    (hlife : ∀ k u, item = Ptr.node k → (s.heap item).work = some (Fn.user u) →
      about s.log item = [])
    (harm : q ≠ QId.concurrent → q ≠ QId.main → item ≠ Ptr.ctl q →
      (s.heap (Ptr.ctl q)).notify ≠ some Fn.work_queue_free)
    (hfwd : ∀ q0, item = Ptr.ctl q0 → q0 ≠ q → q0 ≠ QId.concurrent → q0 ≠ QId.main →
      (s.heap (Ptr.ctl q0)).notify = some Fn.work_queue_free → ch q0 = [])
    (r : Int) (s4 : Engine) (he : evict_one env s q = .ok (r, s4)) :
    ∃ own2 ch2,
      Shape { s4 with heap := (_work_queue_add_tail_unlocked s4.heap (s4.queues q) item).1,
                      queues := Function.update s4.queues q
                        (_work_queue_add_tail_unlocked s4.heap (s4.queues q) item).2 } own2 ch2
      ∧ own2 item = Place.inq q
      ∧ (∀ p, p ≠ item → Drop own own2 p)
      ∧ (∀ p, (own p).busy = false → about s4.log p = about s.log p)
      ∧ (∀ x, payload ((_work_queue_add_tail_unlocked s4.heap (s4.queues q) item).1 x)
          = payload (s.heap x))
      ∧ (∃ hd tl n, (_work_queue_add_tail_unlocked s4.heap (s4.queues q) item).2
          = { s.queues q with head := hd, tail := tl, n_items := n })
      ∧ s4.threads = s.threads ∧ s4.main_stack = s.main_stack ∧ s4.flags = s.flags
      ∧ s4.ctl = s.ctl ∧ (∀ o, o ≠ q → s4.queues o = s.queues o) := by
  simp only [evict_one] at he
  split at he
  · next c hget =>
    split at he
    · cases he
    · next hst =>
      obtain ⟨pre, post, hl, hpre, hscan⟩ := scan_found _ _ _ (hs.wf q) env.fuel c hget
      have hnm : ∀ o, item ∉ ch o := fun o => hs.idle_not_mem item o hidle
      have hi : item ∉ pre ++ c :: post := by rw [← hl]; exact hnm q
      have hwq := hs.wf q
      rw [hl] at hwq
      obtain ⟨h2, Q2, hu, hw5, hframe, hpay5, hpay2, hd5, tl5, n5, hQ5⟩ :=
        evict_add_wf _ _ pre post c item hwq hi
      rw [hscan, hu] at he
      simp only [Except.ok.injEq, Prod.mk.injEq] at he
      obtain ⟨_, he⟩ := he
      subst he
      simp only [Function.update_same, Function.update_idem]
      have hcq : c ∈ ch q := by rw [hl]; simp
      have hcown : own c = Place.inq q := (hs.mem q c).1 hcq
      have hci : c ≠ item := fun e => hi (by simp [e])
      have hnd := (hs.wf q).nodup
      rw [hl] at hnd
      have hcnot : c ∉ (if post = [] then [] else pre ++ post) := by
        have h1 : c ∉ post := (List.nodup_cons.1 (List.nodup_append.1 hnd).2.1).1
        have h2 : c ∉ pre := fun e => (List.nodup_append.1 hnd).2.2 e (by simp)
        split
        · simp
        · simp [h1, h2]
      have hsub : ∀ x, x ∈ (if post = [] then [] else pre ++ post) → x ∈ ch q := by
        intro x hx
        rw [hl]
        split at hx
        · cases hx
        · simp only [List.mem_append, List.mem_cons] at hx ⊢
          rcases hx with e | e
          · exact Or.inl e
          · exact Or.inr (Or.inr e)
      have hlost : ∀ x, x ∈ ch q → x ∉ (if post = [] then [] else pre ++ post) → x ≠ c →
          work_item_is_static (s.heap x) = true := by
        intro x hx hnx hxc
        rw [hl] at hx
        by_cases hp : post = []
        · simp only [List.mem_append, List.mem_cons, hp, List.not_mem_nil, or_false] at hx
          rcases hx with e | e
          · exact hpre x e
          · exact absurd e hxc
        · simp only [hp, if_false, List.mem_append] at hnx
          simp only [List.mem_append, List.mem_cons] at hx
          rcases hx with e | e | e
          · exact absurd (Or.inl e) hnx
          · exact absurd e hxc
          · exact absurd (Or.inr e) hnx
      have hab : ∀ p, p ≠ c → about (s.log ++ evict_events h2 c) p = about s.log p := by
        intro p hp
        apply about_emit_ne
        intro e he
        simp only [evict_events, List.mem_append, List.mem_singleton] at he
        rcases he with he | he
        · split at he
          · simp only [List.mem_singleton] at he
            rw [he]
            simp only [Event.item, ne_eq, Option.some.injEq]
            exact fun e => hp e.symm
          · cases he
        · rw [he]
          simp only [Event.item, ne_eq, Option.some.injEq]
          exact fun e => hp e.symm
      generalize (if post = [] then [] else pre ++ post) = lcore at hw5 hcnot hsub hlost
      refine ⟨fun p => if p = item then Place.inq q
          else if own p = Place.inq q then
            (if p ∈ lcore then Place.inq q else Place.gone)
          else own p,
        Function.update ch q (lcore ++ [item]), ?_, by simp,
        ?_, ?_, hpay5, ⟨hd5, tl5, n5, hQ5⟩, trivial, trivial, trivial, trivial, ?_⟩
      · refine hs.relist q _ _ _ _ _ hw5 ?_ hpay5 (by rw [hQ5]; exact ⟨rfl, rfl, rfl, rfl⟩)
          ?_ ?_ ?_ ?_
        · intro o x hoq hx
          rw [hframe x]
          · rw [← hl]
            intro e
            have h1 := (hs.mem q x).1 e
            have h2 := (hs.mem o x).1 hx
            rw [h1] at h2
            injection h2 with h2
            exact hoq h2.symm
          · intro e; exact hnm o (e ▸ hx)
        · intro o p
          by_cases hpi : p = item
          · subst hpi
            by_cases hoq : o = q
            · subst hoq; simp
            · simp only [Function.update_noteq hoq, if_true]
              constructor
              · intro hm; exact absurd hm (hnm o)
              · intro e; injection e with e; exact absurd e.symm hoq
          · simp only [hpi, if_false]
            by_cases hoq : o = q
            · subst hoq
              simp only [Function.update_same, List.mem_append, List.mem_singleton, hpi,
                or_false]
              constructor
              · intro hm
                rw [if_pos ((hs.mem o p).1 (hsub p hm)), if_pos hm]
              · intro e
                split at e
                · split at e
                  · assumption
                  · cases e
                · next hne => exact absurd e hne
            · simp only [Function.update_noteq hoq]
              constructor
              · intro hm
                have h1 := (hs.mem o p).1 hm
                rw [if_neg (by rw [h1]; intro e; injection e with e; exact hoq e)]
                exact h1
              · intro e
                split at e
                · split at e
                  · injection e with e; exact absurd e.symm hoq
                  · cases e
                · exact (hs.mem o p).2 e
        · intro q0 hv0
          refine ⟨?_, fun e => absurd (e ▸ hv0) hv⟩
          have d1 := (hs.dead q0 hv0).1
          by_cases hpi : Ptr.ctl q0 = item
          · exact absurd hv0 (hctl q0 hpi.symm)
          · simp only [hpi, if_false]
            split
            · next e => rw [e] at d1; cases d1
            · exact d1
        · intro k u hwk
          by_cases hpi : Ptr.node k = item
          · simp only [hpi, if_true]
            rw [hpi] at hwk
            simp only [Life, hqm, if_false]
            rw [hab item (Ne.symm hci)]
            exact hlife k u hpi.symm hwk
          · simp only [hpi, if_false]
            by_cases hkc : Ptr.node k = c
            · rw [hkc] at hwk ⊢
              rw [if_pos hcown, if_neg hcnot]
              have h0 := hs.life k u (by rw [hkc]; exact hwk)
              rw [hkc, hcown] at h0
              simp only [Life, hqm, if_false] at h0
              simp only [Life]
              right
              rw [about_append, h0, List.nil_append, about_of_eq]
              · exact hist_evict_congr _ _ _ (hpay2 c)
              · intro e he
                simp only [evict_events, List.mem_append, List.mem_singleton] at he
                rcases he with he | he
                · split at he
                  · simp only [List.mem_singleton] at he
                    rw [he]; rfl
                  · cases he
                · rw [he]; rfl
            · rw [hab _ hkc]
              have h0 := hs.life k u hwk
              split
              · next e =>
                split
                · rw [e] at h0; exact h0
                · next hnx =>
                  exact absurd hwk (static_not_user _ u
                    (hlost _ ((hs.mem q _).2 e) hnx hkc))
              · exact h0
        · intro q0 h1 h2 hn
          obtain ⟨_, f1, f2⟩ := hs.fin q0 h1 h2 hn
          by_cases hpi : Ptr.ctl q0 = item
          · simp only [hpi, if_true]
            by_cases hoq : q0 = q
            · subst hoq
              rw [Function.update_same]
              refine ⟨fun _ => ?_, fun _ e => absurd rfl e⟩
              rw [← hpi]
              simp
            · rw [Function.update_noteq hoq]
              refine ⟨fun e => ?_, fun _ _ => hfwd q0 hpi.symm hoq h1 h2 hn⟩
              injection e with e
              exact absurd e.symm hoq
          · simp only [hpi, if_false]
            by_cases hoq : q0 = q
            · subst hoq
              exact absurd hn (harm h1 h2 (Ne.symm hpi))
            · rw [Function.update_noteq hoq]
              by_cases e : own (Ptr.ctl q0) = Place.inq q
              · rw [if_pos e]
                have hb : (own (Ptr.ctl q0)).busy = true := by rw [e]; rfl
                have hne : own (Ptr.ctl q0) ≠ Place.inq q0 := by
                  rw [e]
                  intro e2
                  injection e2 with e2
                  exact hoq e2.symm
                refine ⟨fun e2 => ?_, fun _ _ => f2 hb hne⟩
                split at e2
                · injection e2 with e2
                  exact absurd e2.symm hoq
                · cases e2
              · rw [if_neg e]
                exact ⟨f1, f2⟩
      · intro p hpi
        simp only [Drop, hpi, if_false]
        split
        · next e =>
          split
          · exact Or.inl e.symm
          · exact Or.inr ⟨rfl, q, hqm, e⟩
        · exact Or.inl rfl
      · intro p hb
        apply hab
        intro e
        rw [e, hcown] at hb
        cases hb
      · intro o hoq
        simp [Function.update_noteq hoq]
  · cases he

/-- Events are logged and items that are in no list change their place. -/
theorem Shape.relog {s : Engine} {own : Ptr → Place} {ch : QId → List Ptr}
    (hs : Shape s own ch) (log2 : List Event) (own2 : Ptr → Place)
    (hmem : ∀ p o, own2 p = Place.inq o ↔ own p = Place.inq o)
    (hdead : ∀ q0, (s.queues q0).vtable = none → (own2 (Ptr.ctl q0)).busy = false)
    (hlife : ∀ k u, (s.heap (Ptr.node k)).work = some (Fn.user u) →
      Life (own2 (Ptr.node k)) (s.heap (Ptr.node k)) (Ptr.node k) (about log2 (Ptr.node k)))
    (hfin : ∀ q0, (own2 (Ptr.ctl q0)).busy = true → (own (Ptr.ctl q0)).busy = true) :
    Shape { s with log := log2 } own2 ch :=
  ⟨hs.wf, fun o p => by rw [hmem p o]; exact hs.mem o p, hs.node, hs.ctl,
    fun q0 hv => ⟨hdead q0 hv, (hs.dead q0 hv).2⟩, hs.mainq, hlife, hs.boot,
    fun q0 h1 h2 hn => ⟨(hs.fin q0 h1 h2 hn).1,
      fun e => (hs.fin q0 h1 h2 hn).2.1 ((hmem _ _).1 e),
      fun hb hne => (hs.fin q0 h1 h2 hn).2.2 (hfin q0 hb) (fun e => hne ((hmem _ _).2 e))⟩⟩

/-- The cell of an item that is in no list is written. -/
theorem Shape.set_idle {s : Engine} {own : Ptr → Place} {ch : QId → List Ptr}
    (hs : Shape s own ch) (p : Ptr) (v : WorkItem) (hidle : ∀ o, own p ≠ Place.inq o)
    (hnode : ∀ k, p = Ptr.node k → NodeOk v)
    (hctl : ∀ q, p = Ptr.ctl q → CtlOk q v)
    (hlife : ∀ k u, p = Ptr.node k → v.work = some (Fn.user u) →
      Life (own p) v p (about s.log p))
    (hfin : ∀ q, p = Ptr.ctl q → q ≠ QId.concurrent → q ≠ QId.main →
      v.notify = some Fn.work_queue_free →
      (s.queues q).xref_cnt = 0 ∧ ((own p).busy = true → ch q = [])) :
    Shape (s.setItem p v) own ch := by
  have hnm : ∀ o, p ∉ ch o := fun o => hs.not_mem p o (hidle o)
  constructor
  · intro o
    refine (hs.wf o).congr rfl rfl ?_
    intro x hx
    have : x ≠ p := fun e => hnm o (e ▸ hx)
    simp [Engine.setItem, Function.update_noteq this]
  · exact hs.mem
  · intro k
    by_cases hk : Ptr.node k = p
    · simp only [Engine.setItem, hk, Function.update_same]
      exact hnode k hk.symm
    · simp only [Engine.setItem, Function.update_noteq hk]
      exact hs.node k
  · intro q
    by_cases hk : Ptr.ctl q = p
    · simp only [Engine.setItem, hk, Function.update_same]
      exact hctl q hk.symm
    · simp only [Engine.setItem, Function.update_noteq hk]
      exact hs.ctl q
  · exact hs.dead
  · exact hs.mainq
  · intro k u hw
    by_cases hk : Ptr.node k = p
    · simp only [Engine.setItem, hk, Function.update_same] at hw ⊢
      exact hlife k u hk.symm hw
    · simp only [Engine.setItem, Function.update_noteq hk] at hw ⊢
      exact hs.life k u hw
  · exact hs.boot
  · intro q h1 h2 hn
    by_cases hk : Ptr.ctl q = p
    · simp only [Engine.setItem, hk, Function.update_same] at hn
      obtain ⟨a, b⟩ := hfin q hk.symm h1 h2 hn
      refine ⟨a, fun e => absurd (hk ▸ e) (hidle q), fun hb _ => b (hk ▸ hb)⟩
    · simp only [Engine.setItem, Function.update_noteq hk] at hn
      exact hs.fin q h1 h2 hn

/-! ## C4: the invariant along the add path -/

theorem Place.idle_not_held {pl : Place} (h : pl.busy = false) :
    (∀ o, pl ≠ Place.thr o) ∧ pl ≠ Place.mstack := by
  cases pl <;> simp [Place.busy] at h ⊢

theorem Post.post_refl {s : Engine} {own : Ptr → Place} {ch : QId → List Ptr} (hs : Shape s own ch)
    (S : Ptr → Prop) (hS : ∀ p, S p → (own p).busy = false) : Post s own s own ch S :=
  ⟨hs, Trans.trans_refl s own S, fun p hp => ⟨hS p hp, Place.idle_not_held (hS p hp)⟩,
    fun _ _ => rfl, ProtoSame.proto_same_refl s, HeldSame.held_same_refl s, fun _ => rfl⟩

theorem Post.post_mono {s s2 : Engine} {own own2 : Ptr → Place} {ch2 : QId → List Ptr}
    {S T : Ptr → Prop} (h : Post s own s2 own2 ch2 S) (hst : ∀ p, S p → T p)
    (hT : ∀ p, T p → ¬ S p → (own p).busy = false) : Post s own s2 own2 ch2 T := by
  refine ⟨h.shape, h.trans.trans_mono hst, ?_, ?_, h.proto, h.held, h.xref⟩
  · intro p hp
    by_cases hsp : S p
    · exact h.grow p hsp
    · have hb := hT p hp hsp
      have hd : Drop own own2 p := (h.trans.drop p).resolve_left hsp
      have e := hd.idle hb
      refine ⟨hb, ?_⟩
      rw [e]
      exact Place.idle_not_held hb
  · intro x hx
    exact h.pay x (fun hs => hx (hst x hs))

theorem more_thread_post {s : Engine} {own : Ptr → Place} {ch : QId → List Ptr}
    (hs : Shape s own ch) (env : Env) (q : QId) (hv : (s.queues q).vtable ≠ none)
    (S : Ptr → Prop) (hS : ∀ p, S p → (own p).busy = false) :
    Post s own (_more_thread_unlocked env s q).2 own ch S := by
  simp only [_more_thread_unlocked]
  split
  · next hc =>
    split
    · split <;> exact Post.post_refl hs S hS
    · have hqm : q ≠ QId.main := by
        intro e
        subst e
        rcases hs.mainq with h0 | ⟨_, h1, h2⟩
        · exact hv h0
        · rw [h1, h2] at hc
          simp at hc
      have hsh : Shape { s with
          queues := Function.update s.queues q
            { s.queues q with n_threads := (s.queues q).n_threads + 1 },
          threads := Function.update s.threads q (Pc.wait :: s.threads q) } own ch := by
        refine hs.shape_alike rfl ?_ ?_ rfl rfl
        · intro o
          by_cases hoq : o = q
          · subst hoq; simp
          · simp [Function.update_noteq hoq]
        · simp [Function.update_noteq (Ne.symm hqm)]
      refine ⟨hsh, ⟨fun _ => Or.inr (Or.inl rfl), fun _ _ => Or.inr rfl, fun _ h => h⟩, ?_,
        fun _ _ => rfl,
        ⟨rfl, rfl, fun _ => rfl, fun _ => rfl, ?_⟩, ⟨?_, rfl, ?_, ?_, ?_⟩, ?_⟩
      · intro p hp
        exact ⟨hS p hp, Place.idle_not_held (hS p hp)⟩
      · intro o
        by_cases hoq : o = q
        · subst hoq; simp
        · simp [Function.update_noteq hoq]
      · intro o
        by_cases hoq : o = q
        · subst hoq; simp [Pc.items]
        · simp [Function.update_noteq hoq]
      · intro h
        simpa [Function.update_noteq (Ne.symm hqm)] using h
      · intro o pc h
        by_cases hoq : o = q
        · subst hoq
          simp only [Function.update_same]
          exact List.mem_cons_of_mem _ h
        · simpa [Function.update_noteq hoq] using h
      · intro o pc h
        by_cases hoq : o = q
        · subst hoq
          simp only [Function.update_same, List.mem_cons] at h
          exact h.elim Or.inr Or.inl
        · simp only [Function.update_noteq hoq] at h
          exact Or.inl h
      · intro o
        by_cases hoq : o = q
        · subst hoq; simp
        · simp [Function.update_noteq hoq]
  · exact Post.post_refl hs S hS

theorem prepare_executive_pool_post {s : Engine} {own : Ptr → Place} {ch : QId → List Ptr}
    (hs : Shape s own ch) (env : Env) (q : QId) (S : Ptr → Prop)
    (hS : ∀ p, S p → (own p).busy = false) (r : Int) (s1 : Engine)
    (h : prepare_executive_pool env s q = .ok (r, s1)) :
    (s.queues q).vtable ≠ none ∧ Post s own s1 own ch S := by
  simp only [prepare_executive_pool] at h
  split at h
  · cases h
  · next hv =>
    simp only [Except.ok.injEq, prepare_executive_queue] at h
    have hv2 : (s.queues q).vtable ≠ none := by rw [hv]; simp
    refine ⟨hv2, ?_⟩
    have := more_thread_post hs env q hv2 S hS
    rw [h] at this
    exact this
  · next hv =>
    have hv2 : (s.queues q).vtable ≠ none := by rw [hv]; simp
    split at h
    · simp only [Except.ok.injEq, Prod.mk.injEq] at h
      rw [← h.2]
      exact ⟨hv2, Post.post_refl hs S hS⟩
    · cases h

theorem Post.then_link {s s1 s2 : Engine} {own own1 own2 : Ptr → Place}
    {ch1 ch2 : QId → List Ptr} {S1 S2 : Ptr → Prop}
    (P1 : Post s own s1 own1 ch1 S1) (P2 : Post s1 own1 s2 own2 ch2 S2)
    (hidle : ∀ p, S2 p → (own p).busy = false) :
    Post s own s2 own2 ch2 (fun p => S1 p ∨ S2 p) := by
  refine ⟨P2.shape, (P1.trans.trans_mono (fun _ h => Or.inl h)).trans_trans
    (P2.trans.trans_mono (fun _ h => Or.inr h)), ?_, ?_, P1.proto.proto_same_trans P2.proto,
    P1.held.held_same_trans P2.held, fun q => (P2.xref q).trans (P1.xref q)⟩
  · intro p hp
    by_cases h2 : S2 p
    · exact ⟨hidle p h2, (P2.grow p h2).2⟩
    · have h1 : S1 p := hp.resolve_right h2
      have hd : Drop own1 own2 p := (P2.trans.drop p).resolve_left h2
      obtain ⟨a, b, c⟩ := P1.grow p h1
      exact ⟨a, fun o e => b o ((hd.drop_thr_iff o).1 e), fun e => c (hd.mstack_iff.1 e)⟩
  · intro x hx
    have h1 : ¬ S1 x := fun h => hx (Or.inl h)
    have h2 : ¬ S2 x := fun h => hx (Or.inr h)
    rw [P2.pay x h2, P1.pay x h1]

/-- `_work_queue_add_tail_unlocked` on queue `q` for an item the engine does
not keep. -/
theorem link_post {s : Engine} {own : Ptr → Place} {ch : QId → List Ptr}
    (hs : Shape s own ch) (q : QId) (item : Ptr) (hidle : (own item).busy = false)
    (hv : (s.queues q).vtable ≠ none)
    (hctl : ∀ q0, item = Ptr.ctl q0 → (s.queues q0).vtable ≠ none)
    (hlife : ∀ k u, item = Ptr.node k → (s.heap item).work = some (Fn.user u) →
      Life (Place.inq q) (s.heap item) item (about s.log item))
    (harm : q ≠ QId.concurrent → q ≠ QId.main → item ≠ Ptr.ctl q →
      (s.heap (Ptr.ctl q)).notify ≠ some Fn.work_queue_free)
    (hfwd : ∀ q0, item = Ptr.ctl q0 → q0 ≠ q → q0 ≠ QId.concurrent → q0 ≠ QId.main →
      (s.heap (Ptr.ctl q0)).notify = some Fn.work_queue_free → ch q0 = []) :
    Post s own
      { s with heap := (_work_queue_add_tail_unlocked s.heap (s.queues q) item).1,
               queues := Function.update s.queues q
                 (_work_queue_add_tail_unlocked s.heap (s.queues q) item).2 }
      (Function.update own item (Place.inq q)) (Function.update ch q (ch q ++ [item]))
      (fun p => p = item) := by
  obtain ⟨hd, hQ⟩ := add_tail_fields s.heap (s.queues q) item
  refine ⟨hs.link q item hidle hv hctl hlife harm hfwd, ⟨?_, fun _ _ => Or.inr rfl, ?_⟩, ?_,
    fun x _ => add_tail_payload _ _ _ x,
    ⟨rfl, rfl, fun q0 => payload_work (add_tail_payload _ _ _ _),
      fun q0 => payload_notify (add_tail_payload _ _ _ _), ?_⟩, ⟨fun _ => rfl, rfl, id, fun _ _ h => h, fun _ _ h => Or.inl h⟩, ?_⟩
  · intro p
    by_cases hp : p = item
    · exact Or.inl hp
    · exact Or.inr (Or.inl (by simp [Function.update_noteq hp]))
  · intro p hp
    by_cases hpi : p = item
    · subst hpi; simp
    · simpa [Function.update_noteq hpi] using hp
  · intro p hp
    subst hp
    refine ⟨hidle, ?_, ?_⟩ <;> simp
  · intro o
    by_cases hoq : o = q
    · subst hoq; simp [hQ]
    · simp [Function.update_noteq hoq]
  · intro o
    by_cases hoq : o = q
    · subst hoq; simp [hQ]
    · simp [Function.update_noteq hoq]

/-- The tail of `_work_queue_add_unlocked`: the eviction when the queue is
full, then the linking of `item`. -/
theorem add_tail_part_post {s : Engine} {own : Ptr → Place} {ch : QId → List Ptr}
    (hs : Shape s own ch) (env : Env) (q : QId) (item : Ptr) (full : Bool)
    (hqm : full = true → q ≠ QId.main) (hidle : (own item).busy = false)
    (hv : (s.queues q).vtable ≠ none)
    (hctl : ∀ q0, item = Ptr.ctl q0 → (s.queues q0).vtable ≠ none)
    (hlife : ∀ k u, item = Ptr.node k → (s.heap item).work = some (Fn.user u) →
      Life (Place.inq q) (s.heap item) item (about s.log item))
    (harm : q ≠ QId.concurrent → q ≠ QId.main → item ≠ Ptr.ctl q →
      (s.heap (Ptr.ctl q)).notify ≠ some Fn.work_queue_free)
    (hfwd : ∀ q0, item = Ptr.ctl q0 → q0 ≠ q → q0 ≠ QId.concurrent → q0 ≠ QId.main →
      (s.heap (Ptr.ctl q0)).notify = some Fn.work_queue_free → ch q0 = [])
    (r : Int) (s4 : Engine)
    (h : (if full = true then evict_one env s q else .ok (0, s)) = .ok (r, s4)) :
    ∃ own2 ch2,
      Post s own
        { s4 with heap := (_work_queue_add_tail_unlocked s4.heap (s4.queues q) item).1,
                  queues := Function.update s4.queues q
                    (_work_queue_add_tail_unlocked s4.heap (s4.queues q) item).2 }
        own2 ch2 (fun p => p = item)
      ∧ own2 item = Place.inq q ∧ about s4.log item = about s.log item ∧ 0 ≤ r
      ∧ ∀ x, payload ((_work_queue_add_tail_unlocked s4.heap (s4.queues q) item).1 x)
          = payload (s.heap x) := by
  by_cases hf : full = true
  · rw [if_pos hf] at h
    have hq := hqm hf
    have hlife2 : ∀ k u, item = Ptr.node k → (s.heap item).work = some (Fn.user u) →
        about s.log item = [] := by
      intro k u hk hw
      have := hlife k u hk hw
      simpa only [Life, hq, if_false] using this
    obtain ⟨own2, ch2, hsh, hown, hdrop, hab, hpay, ⟨hd, tl, n, hQ⟩, e1, e2, e3, e4, e5⟩ :=
      hs.evict_link env q item hq hidle hv hctl hlife2 harm hfwd r s4 h
    have hr : 0 ≤ r := by
      simp only [evict_one] at h
      split at h
      · split at h
        · cases h
        · simp only [Except.ok.injEq, Prod.mk.injEq] at h
          rw [← h.1]; decide
      · cases h
    refine ⟨own2, ch2, ⟨hsh, ⟨?_, ?_, ?_⟩, ?_, fun x _ => hpay x,
      ⟨e4, e3, fun q0 => payload_work (hpay _), fun q0 => payload_notify (hpay _), ?_⟩,
      ⟨fun o => by rw [show _ = s4.threads from rfl, e1], e2, fun h => by
        rw [show _ = s4.threads from rfl, e1]; exact h, fun o pc h => by
        rw [show _ = s4.threads from rfl, e1]; exact h, fun o pc h => by
        rw [show _ = s4.threads from rfl, e1] at h; exact Or.inl h⟩, ?_⟩, hown, hab item hidle,
      hr, hpay⟩
    · intro p
      by_cases hp : p = item
      · exact Or.inl hp
      · exact Or.inr (hdrop p hp)
    · intro p hb
      exact Or.inr (hab p hb)
    · intro p hp
      by_cases hpi : p = item
      · rw [hpi, hown]; simp
      · exact (hdrop p hpi).acc hp
    · intro p hp
      subst hp
      refine ⟨hidle, ?_, ?_⟩ <;> simp [hown]
    · intro o
      by_cases hoq : o = q
      · subst hoq; simp [hQ]
      · simp only [Function.update_noteq hoq]; rw [e5 o hoq]
    · intro o
      by_cases hoq : o = q
      · subst hoq; simp [hQ]
      · simp only [Function.update_noteq hoq]; rw [e5 o hoq]
  · rw [if_neg hf] at h
    simp only [Except.ok.injEq, Prod.mk.injEq] at h
    obtain ⟨hr, hs4⟩ := h
    subst hs4
    exact ⟨_, _, link_post hs q item hidle hv hctl hlife harm hfwd, by simp, rfl, by rw [← hr],
      fun x => add_tail_payload _ _ _ x⟩

/-- `_work_queue_add_unlocked` with its `prepare_executive` passed in: on
failure the item keeps its place, on success it is linked in `q`. -/
theorem add_unlocked_with_post {s : Engine} {own : Ptr → Place} {ch : QId → List Ptr}
    (hs : Shape s own ch) (prepare : Engine → QId → Except Fault (Int × Engine))
    (env : Env) (q : QId) (item : Ptr) (do_rewind impose : Bool)
    (S1 : Ptr → Prop) (hS1 : ∀ p, S1 p → (own p).busy = false) (hi1 : ¬ S1 item)
    (hidle : (own item).busy = false) (hqm : do_rewind = true → q ≠ QId.main)
    (hctl : ∀ q0, item = Ptr.ctl q0 → (s.queues q0).vtable ≠ none)
    (hlife : ∀ k u, item = Ptr.node k → (s.heap item).work = some (Fn.user u) →
      Life (Place.inq q) (s.heap item) item (about s.log item))
    (harm : q ≠ QId.concurrent → q ≠ QId.main → item ≠ Ptr.ctl q →
      (s.heap (Ptr.ctl q)).notify ≠ some Fn.work_queue_free)
    (hfwd : ∀ q0, item = Ptr.ctl q0 → q0 ≠ q → q0 ≠ QId.concurrent → q0 ≠ QId.main →
      (s.heap (Ptr.ctl q0)).notify = some Fn.work_queue_free → ∀ p, own p ≠ Place.inq q0)
    (hprep : ∀ r0 s1, prepare s q = .ok (r0, s1) →
      (s.queues q).vtable ≠ none
        ∧ ∃ own1 ch1, Post s own s1 own1 ch1 S1 ∧ (r0 < 0 → own1 = own)
          ∧ ∀ q0 p, q0 ≠ QId.concurrent → own1 p = Place.inq q0 → own p = Place.inq q0)
    (r : Int) (s2 : Engine)
    (h : add_unlocked_with prepare env s q item do_rewind impose = .ok (r, s2)) :
    ∃ own2 ch2, Post s own s2 own2 ch2 (fun p => S1 p ∨ p = item)
      ∧ (r < 0 → own2 = own) ∧ (0 ≤ r → own2 item = Place.inq q)
      ∧ about s2.log item = about s.log item
      ∧ payload (s2.heap item) = payload (s.heap item) := by
  have hS : ∀ p, (S1 p ∨ p = item) → ¬ S1 p → (own p).busy = false := by
    intro p hp hn
    rcases hp with hp | hp
    · exact absurd hp hn
    · rw [hp]; exact hidle
  simp only [add_unlocked_with] at h
  split at h
  · simp only [Except.ok.injEq, Prod.mk.injEq] at h
    obtain ⟨hr, hs2⟩ := h
    subst hs2
    refine ⟨own, ch, Post.post_refl hs _ ?_, fun _ => rfl, fun h0 => ?_, rfl, rfl⟩
    · intro p hp
      by_cases h1 : S1 p
      · exact hS1 p h1
      · exact hS p hp h1
    · rw [← hr] at h0
      exact absurd h0 (by decide)
  · next hfull =>
    split at h
    · cases h
    · next r0 s1 hp =>
      obtain ⟨hv, own1, ch1, P1, hfail1, hmem1⟩ := hprep r0 s1 hp
      have hd1 : own1 item = own item := ((P1.trans.drop item).resolve_left hi1).idle hidle
      have ha1 : about s1.log item = about s.log item :=
        (P1.trans.quiet item hidle).resolve_left hi1
      split at h
      · next hr0 =>
        simp only [Except.ok.injEq, Prod.mk.injEq] at h
        obtain ⟨hr, hs2⟩ := h
        subst hs2
        subst hr
        exact ⟨own1, ch1, P1.post_mono (fun _ h => Or.inl h) hS, fun _ => hfail1 hr0,
          fun h0 => absurd hr0 (not_lt.2 h0), ha1, P1.pay item hi1⟩
      · split at h
        · cases h
        · next r4 s4 h4 =>
          simp only [Except.ok.injEq, Prod.mk.injEq] at h
          obtain ⟨hr, hs2⟩ := h
          subst hs2
          subst hr
          have hidle1 : (own1 item).busy = false := by rw [hd1]; exact hidle
          have hv1 : (s1.queues q).vtable ≠ none := by rw [P1.proto.vtable]; exact hv
          have hctl1 : ∀ q0, item = Ptr.ctl q0 → (s1.queues q0).vtable ≠ none := by
            intro q0 e; rw [P1.proto.vtable]; exact hctl q0 e
          have hpay1 := P1.pay item hi1
          have hlife1 : ∀ k u, item = Ptr.node k → (s1.heap item).work = some (Fn.user u) →
              Life (Place.inq q) (s1.heap item) item (about s1.log item) := by
            intro k u hk hw
            rw [ha1, Life_congr _ _ _ _ _ hpay1]
            exact hlife k u hk (by rw [← payload_work hpay1]; exact hw)
          obtain ⟨own2, ch2, P2, hown, hab, hr4, hpay4⟩ :=
            add_tail_part_post P1.shape env q item _ (by
              intro hf
              apply hqm
              cases hdr : do_rewind with
              | true => rfl
              | false =>
                exfalso
                apply hfull
                simp [hdr]
                simpa using hf) hidle1 hv1 hctl1 hlife1
              (fun h1 h2 h3 => by rw [P1.proto.notify]; exact harm h1 h2 h3)
              (fun q0 e hq0 h1 h2 hn => by
                rw [P1.proto.notify] at hn
                apply List.eq_nil_iff_forall_not_mem.2
                intro x hx
                exact hfwd q0 e hq0 h1 h2 hn x (hmem1 q0 x h1 ((P1.shape.mem q0 x).1 hx)))
              r4 s4 h4
          refine ⟨own2, ch2, P1.then_link P2 (fun p hp => by rw [hp]; exact hidle),
            fun h0 => absurd h0 (not_lt.2 hr4), fun _ => hown, ?_, ?_⟩
          · show about s4.log item = about s.log item
            rw [hab, ha1]
          · rw [← hpay1]
            exact hpay4 item

/-- A call that moves no item. -/
theorem Post.post_still {s s2 : Engine} {own : Ptr → Place} {ch : QId → List Ptr}
    (hs2 : Shape s2 own ch) (S : Ptr → Prop) (hS : ∀ p, S p → (own p).busy = false)
    (hlog : ∀ p, ¬ S p → about s2.log p = about s.log p)
    (hpay : ∀ x, ¬ S x → payload (s2.heap x) = payload (s.heap x))
    (hproto : ProtoSame s s2) (hheld : HeldSame s s2)
    (hxref : ∀ q, (s2.queues q).xref_cnt = (s.queues q).xref_cnt) :
    Post s own s2 own ch S := by
  refine ⟨hs2, ⟨fun _ => Or.inr (Or.inl rfl), ?_, fun _ h => h⟩,
    fun p hp => ⟨hS p hp, Place.idle_not_held (hS p hp)⟩, hpay, hproto, hheld, hxref⟩
  intro p _
  by_cases hp : S p
  · exact Or.inl hp
  · exact Or.inr (hlog p hp)

theorem Post.post_seq {s s1 s2 : Engine} {own own1 own2 : Ptr → Place}
    {ch1 ch2 : QId → List Ptr} {S : Ptr → Prop}
    (P1 : Post s own s1 own1 ch1 S) (P2 : Post s1 own1 s2 own2 ch2 S) :
    Post s own s2 own2 ch2 S :=
  (P1.then_link P2 (fun p hp => (P1.grow p hp).1)).post_mono (fun _ hp => hp.elim id id)
    (fun _ hp hn => absurd (Or.inl hp) hn)

/-- The count of running items of a queue is written. -/
theorem Post.set_running {s : Engine} {own : Ptr → Place} {ch : QId → List Ptr}
    (hs : Shape s own ch) (b : QId) (n : Int) (S : Ptr → Prop)
    (hS : ∀ p, S p → (own p).busy = false) :
    Post s own (s.setQ b { s.queues b with n_running := n }) own ch S := by
  have hq : ∀ o, ((s.setQ b { s.queues b with n_running := n }).queues o).head
        = (s.queues o).head
      ∧ ((s.setQ b { s.queues b with n_running := n }).queues o).tail = (s.queues o).tail
      ∧ ((s.setQ b { s.queues b with n_running := n }).queues o).vtable = (s.queues o).vtable
      ∧ ((s.setQ b { s.queues b with n_running := n }).queues o).xref_cnt
        = (s.queues o).xref_cnt
      ∧ ((s.setQ b { s.queues b with n_running := n }).queues o).n_threads
        = (s.queues o).n_threads
      ∧ ((s.setQ b { s.queues b with n_running := n }).queues o).width = (s.queues o).width := by
    intro o
    by_cases hob : o = b
    · subst hob; simp [Engine.setQ]
    · simp [Engine.setQ, Function.update_noteq hob]
  have hsh : Shape (s.setQ b { s.queues b with n_running := n }) own ch :=
    hs.shape_alike rfl (fun o => ⟨(hq o).1, (hq o).2.1, (hq o).2.2.1, fun _ => (hq o).2.2.2.1⟩)
      ⟨(hq _).2.2.2.2.1, (hq _).2.2.2.2.2⟩ rfl rfl
  refine Post.post_still hsh S hS (fun _ _ => rfl) (fun _ _ => rfl)
    ⟨rfl, rfl, fun _ => rfl, fun _ => rfl, fun o => (hq o).2.2.1⟩ ⟨fun _ => rfl, rfl, id, fun _ _ h => h, fun _ _ h => Or.inl h⟩
    (fun o => (hq o).2.2.2.1)

theorem runner_item_ok (b : QId) : NodeOk (runner_item b) := by
  simp [NodeOk, runner_item]

/-- Source `prepare_executive_bucket`: the runner item, when one is made and
queued, is linked in the shared pool. -/
theorem prepare_executive_bucket_post {s : Engine} {own : Ptr → Place} {ch : QId → List Ptr}
    (hs : Shape s own ch) (env : Env) (b : QId)
    (hrun : ∀ x, env.runner = some x → (own x).busy = false ∧ ∃ k, x = Ptr.node k)
    (r : Int) (s1 : Engine) (h : prepare_executive_bucket env s b = .ok (r, s1)) :
    ∃ own1 ch1, Post s own s1 own1 ch1 (fun p => env.runner = some p)
      ∧ (r < 0 → own1 = own)
      ∧ ∀ q0 p, q0 ≠ QId.concurrent → own1 p = Place.inq q0 → own p = Place.inq q0 := by
  have hS : ∀ p, env.runner = some p → (own p).busy = false := fun p hp => (hrun p hp).1
  simp only [prepare_executive_bucket] at h
  split at h
  · simp only [Except.ok.injEq, Prod.mk.injEq] at h
    rw [← h.2]
    exact ⟨own, ch, Post.post_refl hs _ hS, fun _ => rfl, fun _ _ _ e => e⟩
  · split at h
    · simp only [Except.ok.injEq, Prod.mk.injEq] at h
      rw [← h.2]
      exact ⟨own, ch, Post.post_refl hs _ hS, fun _ => rfl, fun _ _ _ e => e⟩
    · next exc hexc =>
      obtain ⟨hidle, k, hk⟩ := hrun exc hexc
      have hni : ∀ o, own exc ≠ Place.inq o := by
        intro o e; rw [e] at hidle; cases hidle
      have hs1 : Shape (s.setItem exc (runner_item b)) own ch := by
        refine hs.set_idle exc _ hni (fun _ _ => runner_item_ok b) ?_ ?_ ?_
        · intro q e; rw [hk] at e; cases e
        · intro _ u _ hw; simp [runner_item] at hw
        · intro q e; rw [hk] at e; cases e
      have P0 : Post s own (s.setItem exc (runner_item b)) own ch
          (fun p => env.runner = some p) := by
        refine Post.post_still hs1 _ hS (fun _ _ => rfl) ?_
          ⟨rfl, rfl, ?_, ?_, fun _ => rfl⟩ ⟨fun _ => rfl, rfl, id, fun _ _ h => h, fun _ _ h => Or.inl h⟩ (fun _ => rfl)
        · intro x hx
          have : x ≠ exc := fun e => hx (by rw [e]; exact hexc)
          simp [Engine.setItem, Function.update_noteq this]
        · intro q
          have : Ptr.ctl q ≠ exc := by rw [hk]; simp
          simp [Engine.setItem, Function.update_noteq this]
        · intro q
          have : Ptr.ctl q ≠ exc := by rw [hk]; simp
          simp [Engine.setItem, Function.update_noteq this]
      split at h
      · cases h
      · next r2 s2 ha =>
        obtain ⟨own2, ch2, P2, hfail, hsucc, _, hpay2⟩ :=
          add_unlocked_with_post hs1 (prepare_executive_pool env) env QId.concurrent exc
            false false (fun _ => False) (fun _ hp => absurd hp id) id hidle
            (fun e => by cases e) (fun q0 e => by rw [hk] at e; cases e)
            (fun _ u _ hw => by simp [Engine.setItem, runner_item] at hw)
            (fun e => absurd rfl e) (fun q0 e => by rw [hk] at e; cases e)
            (fun r0 s0 hp => by
              obtain ⟨a, b⟩ := prepare_executive_pool_post hs1 env QId.concurrent
                (fun _ => False) (fun _ hp => absurd hp id) r0 s0 hp
              exact ⟨a, own, ch, b, fun _ => rfl, fun _ _ _ e => e⟩) r2 s2 ha
        have hmem2 : ∀ q0 p, q0 ≠ QId.concurrent → own2 p = Place.inq q0 →
            own p = Place.inq q0 := by
          intro q0 p hq0 e
          by_cases hr2 : r2 < 0
          · rw [hfail hr2] at e
            exact e
          · by_cases hpe : p = exc
            · rw [hpe, hsucc (not_lt.1 hr2)] at e
              injection e with e
              exact absurd e.symm hq0
            · rcases (P2.trans.drop p).resolve_left (fun hp => hp.elim id hpe) with h0 | h0
              · rw [← h0]; exact e
              · rw [h0.1] at e
                cases e
        have P12 : Post s own s2 own2 ch2 (fun p => env.runner = some p) := by
          refine (P0.then_link P2 ?_).post_mono ?_ ?_
          · intro p hp
            rcases hp with hp | hp
            · exact absurd hp id
            · rw [hp]; exact hidle
          · intro p hp
            rcases hp with hp | hp | hp
            · exact hp
            · exact absurd hp id
            · rw [hp]; exact hexc
          · intro p hp hn
            exact absurd (Or.inl hp) hn
        have hwork : (s2.heap exc).work = some Fn.wq_run_bucket := by
          rw [payload_work hpay2]
          simp [Engine.setItem, runner_item]
        split at h
        · next hr2 =>
          simp only [Except.ok.injEq, Prod.mk.injEq] at h
          rw [← h.2]
          have hown2 : own2 exc = own exc := by rw [hfail hr2]
          have hS2 : ∀ p, env.runner = some p → (own2 p).busy = false := by
            intro p hp
            rw [hexc] at hp
            injection hp with hp
            rw [← hp, hown2]
            exact hidle
          have hsh : Shape (s2.free exc) own2 ch2 := by
            refine P12.shape.relog _ own2 (fun _ _ => Iff.rfl)
              (fun q0 hv => (P12.shape.dead q0 hv).1) ?_ (fun _ h => h)
            intro k2 u hw
            have hne : Ptr.node k2 ≠ exc := by
              intro e; rw [e, hwork] at hw; cases hw
            rw [about_emit_ne]
            · exact P12.shape.life k2 u hw
            · intro e he
              simp only [List.mem_singleton] at he
              rw [he]
              simp only [Event.item, ne_eq, Option.some.injEq]
              exact fun e => hne e.symm
          refine ⟨own2, ch2, P12.post_seq (Post.post_still hsh _ hS2 ?_
            (fun _ _ => rfl) ⟨rfl, rfl, fun _ => rfl, fun _ => rfl, fun _ => rfl⟩
            ⟨fun _ => rfl, rfl, id, fun _ _ h => h, fun _ _ h => Or.inl h⟩ (fun _ => rfl)), fun _ => hfail hr2,
            hmem2⟩
          intro p hp
          apply about_emit_ne
          intro e he
          simp only [List.mem_singleton] at he
          rw [he]
          simp only [Event.item, ne_eq, Option.some.injEq]
          intro e2
          exact hp (by rw [← e2]; exact hexc)
        · simp only [Except.ok.injEq, Prod.mk.injEq] at h
          rw [← h.2]
          have hS2 : ∀ p, env.runner = some p → (own2 p).busy = false → True := fun _ _ _ => trivial
          refine ⟨own2, ch2, ?_, fun h0 => (by rw [← h.1] at h0; exact absurd h0 (by decide)),
            hmem2⟩
          have P3 := Post.set_running P12.shape b ((s2.queues b).n_running + 1)
            (fun _ => False) (fun _ hp => absurd hp id)
          exact (P12.then_link P3 (fun _ hp => absurd hp id)).post_mono
            (fun _ hp => hp.elim id (fun hf => absurd hf id))
            (fun _ hp hn => absurd (Or.inl hp) hn)

theorem prepare_executive_post {s : Engine} {own : Ptr → Place} {ch : QId → List Ptr}
    (hs : Shape s own ch) (env : Env) (q : QId)
    (hrun : ∀ x, env.runner = some x → (own x).busy = false ∧ ∃ k, x = Ptr.node k)
    (r : Int) (s1 : Engine) (h : prepare_executive env s q = .ok (r, s1)) :
    (s.queues q).vtable ≠ none
      ∧ ∃ own1 ch1, Post s own s1 own1 ch1 (fun p => env.runner = some p)
        ∧ (r < 0 → own1 = own)
        ∧ ∀ q0 p, q0 ≠ QId.concurrent → own1 p = Place.inq q0 → own p = Place.inq q0 := by
  have hS : ∀ p, env.runner = some p → (own p).busy = false := fun p hp => (hrun p hp).1
  simp only [prepare_executive] at h
  split at h
  · cases h
  · next hv =>
    simp only [Except.ok.injEq, prepare_executive_queue] at h
    have hv2 : (s.queues q).vtable ≠ none := by rw [hv]; simp
    refine ⟨hv2, own, ch, ?_, fun _ => rfl, fun _ _ _ e => e⟩
    have := more_thread_post hs env q hv2 _ hS
    rw [h] at this
    exact this
  · next hv =>
    have hv2 : (s.queues q).vtable ≠ none := by rw [hv]; simp
    exact ⟨hv2, prepare_executive_bucket_post hs env q hrun r s1 h⟩

/-- Source `_work_queue_add_unlocked`: on failure the item keeps its place, on
success it is linked in `q`; a runner item may be linked in the shared pool. -/
theorem add_unlocked_post {s : Engine} {own : Ptr → Place} {ch : QId → List Ptr}
    (hs : Shape s own ch) (env : Env) (q : QId) (item : Ptr) (do_rewind impose : Bool)
    (hrun : ∀ x, env.runner = some x → (own x).busy = false ∧ ∃ k, x = Ptr.node k)
    (hir : env.runner ≠ some item)
    (hidle : (own item).busy = false) (hqm : do_rewind = true → q ≠ QId.main)
    (hctl : ∀ q0, item = Ptr.ctl q0 → (s.queues q0).vtable ≠ none)
    (hlife : ∀ k u, item = Ptr.node k → (s.heap item).work = some (Fn.user u) →
      Life (Place.inq q) (s.heap item) item (about s.log item))
    (harm : q ≠ QId.concurrent → q ≠ QId.main → item ≠ Ptr.ctl q →
      (s.heap (Ptr.ctl q)).notify ≠ some Fn.work_queue_free)
    (hfwd : ∀ q0, item = Ptr.ctl q0 → q0 ≠ q → q0 ≠ QId.concurrent → q0 ≠ QId.main →
      (s.heap (Ptr.ctl q0)).notify = some Fn.work_queue_free → ∀ p, own p ≠ Place.inq q0)
    (r : Int) (s2 : Engine)
    (h : _work_queue_add_unlocked env s q item do_rewind impose = .ok (r, s2)) :
    ∃ own2 ch2, Post s own s2 own2 ch2 (fun p => env.runner = some p ∨ p = item)
      ∧ (r < 0 → own2 = own) ∧ (0 ≤ r → own2 item = Place.inq q)
      ∧ about s2.log item = about s.log item
      ∧ payload (s2.heap item) = payload (s.heap item) :=
  add_unlocked_with_post hs (prepare_executive env) env q item do_rewind impose
    (fun p => env.runner = some p) (fun p hp => (hrun p hp).1) hir hidle hqm hctl hlife
    harm hfwd (fun r0 s1 hp => prepare_executive_post hs env q hrun r0 s1 hp) r s2 h

/-! ## C4: the invariants along the API calls -/

theorem Post.post_to2 {s s2 : Engine} {own own2 : Ptr → Place} {ch2 : QId → List Ptr}
    {S : Ptr → Prop} (P : Post s own s2 own2 ch2 S) (hp : Proto s own)
    (hS : ∀ q, ¬ S (Ptr.ctl q)) : Post2 s own s2 own2 ch2 S :=
  ⟨P.shape, hp.proto_transfer P.proto (fun q hb => ((P.trans.drop _).resolve_left (hS q)).busy hb),
    P.trans, fun p hp => (P.grow p hp).2, fun _ hk => P.pay _ hk, P.held⟩

theorem Post2.then {s s1 s2 : Engine} {own own1 own2 : Ptr → Place}
    {ch1 ch2 : QId → List Ptr} {S1 S2 : Ptr → Prop}
    (P1 : Post2 s own s1 own1 ch1 S1) (P2 : Post2 s1 own1 s2 own2 ch2 S2) :
    Post2 s own s2 own2 ch2 (fun p => S1 p ∨ S2 p) := by
  refine ⟨P2.shape, P2.proto, (P1.trans.trans_mono (fun _ h => Or.inl h)).trans_trans
    (P2.trans.trans_mono (fun _ h => Or.inr h)), ?_, ?_, P1.held.held_same_trans P2.held⟩
  · intro p hp
    by_cases h2 : S2 p
    · exact P2.grow p h2
    · have h1 : S1 p := hp.resolve_right h2
      have hd : Drop own1 own2 p := (P2.trans.drop p).resolve_left h2
      obtain ⟨b, c⟩ := P1.grow p h1
      exact ⟨fun o e => b o ((hd.drop_thr_iff o).1 e), fun e => c (hd.mstack_iff.1 e)⟩
  · intro k hk
    rw [P2.pay k (fun h => hk (Or.inr h)), P1.pay k (fun h => hk (Or.inl h))]

theorem Post2.post2_mono {s s2 : Engine} {own own2 : Ptr → Place} {ch2 : QId → List Ptr}
    {S T : Ptr → Prop} (h : Post2 s own s2 own2 ch2 S) (hst : ∀ p, S p → T p)
    (hT : ∀ p, T p → ¬ S p → (own p).busy = false) : Post2 s own s2 own2 ch2 T := by
  refine ⟨h.shape, h.proto, h.trans.trans_mono hst, ?_, fun k hk => h.pay k (fun hs => hk (hst _ hs)),
    h.held⟩
  intro p hp
  by_cases hsp : S p
  · exact h.grow p hsp
  · have hb := hT p hp hsp
    have hd : Drop own own2 p := (h.trans.drop p).resolve_left hsp
    rw [hd.idle hb]
    exact Place.idle_not_held hb

theorem Post2.post2_seq {s s1 s2 : Engine} {own own1 own2 : Ptr → Place}
    {ch1 ch2 : QId → List Ptr} {S : Ptr → Prop}
    (P1 : Post2 s own s1 own1 ch1 S) (P2 : Post2 s1 own1 s2 own2 ch2 S) :
    Post2 s own s2 own2 ch2 S := by
  have P := P1.then P2
  exact ⟨P.shape, P.proto, ⟨fun p => (P.trans.drop p).imp (fun h => h.elim id id) id,
    fun p hb => (P.trans.quiet p hb).imp (fun h => h.elim id id) id, P.trans.acc⟩,
    fun p hp => P.grow p (Or.inl hp), fun k hk => P.pay k (fun h => hk (h.elim id id)), P.held⟩

theorem Post2.post2_refl {s : Engine} {own : Ptr → Place} {ch : QId → List Ptr} (hs : Shape s own ch)
    (hp : Proto s own) (S : Ptr → Prop) (hS : ∀ p, S p → (own p).busy = false) :
    Post2 s own s own ch S :=
  ⟨hs, hp, Trans.trans_refl s own S, fun p h => Place.idle_not_held (hS p h), fun _ _ => rfl,
    HeldSame.held_same_refl s⟩

/-- The protocol invariant when only the protocol state of queue `q` moves. -/
theorem Proto.update_one {s s2 : Engine} {own own2 : Ptr → Place} (hp : Proto s own) (q : QId)
    (hctl : ∀ q0, q0 ≠ q → s2.ctl q0 = s.ctl q0)
    (hflags : ∀ q0, q0 ≠ q → s2.flags q0 = s.flags q0)
    (hwork : ∀ q0, q0 ≠ q → (s2.heap (Ptr.ctl q0)).work = (s.heap (Ptr.ctl q0)).work)
    (hnotify : ∀ q0, q0 ≠ q → (s2.heap (Ptr.ctl q0)).notify = (s.heap (Ptr.ctl q0)).notify)
    (hvt : ∀ q0, q0 ≠ q → (s2.queues q0).vtable = (s.queues q0).vtable)
    (hbusy : ∀ q0, q0 ≠ q → (own2 (Ptr.ctl q0)).busy = true → (own (Ptr.ctl q0)).busy = true)
    (h2 : ∀ b, s2.ctl q = CtlPc.flush_loop b → (own2 (Ptr.ctl q)).busy = false)
    (h3 : ∀ b, s2.ctl q = CtlPc.flush_wait b → s2.flags q = true →
      (own2 (Ptr.ctl q)).busy = false)
    (h4 : s2.ctl q = CtlPc.stop_wait → s2.flags q = true → (own2 (Ptr.ctl q)).busy = false)
    (h5 : (s2.ctl q = CtlPc.idle ∨ ∃ r, s2.ctl q = CtlPc.stop_body r) →
      (s2.heap (Ptr.ctl q)).work = none → (own2 (Ptr.ctl q)).busy = false)
    (h6 : q ≠ QId.concurrent → q ≠ QId.main → s2.ctl q ≠ CtlPc.idle →
      (∀ r, s2.ctl q ≠ CtlPc.stop_body r) →
      (s2.heap (Ptr.ctl q)).work ≠ none ∧ (s2.heap (Ptr.ctl q)).notify = some Fn.set_bool
        ∧ (s2.queues q).vtable ≠ none) :
    Proto s2 own2 := by
  have nb : ∀ q0, q0 ≠ q → (own (Ptr.ctl q0)).busy = false →
      (own2 (Ptr.ctl q0)).busy = false := by
    intro q0 hq h
    cases hc : (own2 (Ptr.ctl q0)).busy with
    | false => rfl
    | true => rw [hbusy q0 hq hc] at h; cases h
  constructor
  · intro q0 b h
    by_cases hq : q0 = q
    · subst hq; exact h2 b h
    · rw [hctl q0 hq] at h; exact nb q0 hq (hp.r2 q0 b h)
  · intro q0 b h hf
    by_cases hq : q0 = q
    · subst hq; exact h3 b h hf
    · rw [hctl q0 hq] at h; rw [hflags q0 hq] at hf; exact nb q0 hq (hp.r3 q0 b h hf)
  · intro q0 h hf
    by_cases hq : q0 = q
    · subst hq; exact h4 h hf
    · rw [hctl q0 hq] at h; rw [hflags q0 hq] at hf; exact nb q0 hq (hp.r4 q0 h hf)
  · intro q0 h hw
    by_cases hq : q0 = q
    · subst hq; exact h5 h hw
    · rw [hctl q0 hq] at h; rw [hwork q0 hq] at hw; exact nb q0 hq (hp.r5 q0 h hw)
  · intro q0 a b c d
    by_cases hq : q0 = q
    · subst hq; exact h6 a b c d
    · rw [hctl q0 hq] at c d
      rw [hwork q0 hq, hnotify q0 hq, hvt q0 hq]
      exact hp.r6 q0 a b c d

/-- Under the protocol invariant, the control item of a queue other than the
pool and the main queue whose `work` is NULL is not kept by the engine. -/
theorem Proto.idle_of_unarmed {s : Engine} {own : Ptr → Place} (hp : Proto s own) (q : QId)
    (h1 : q ≠ QId.concurrent) (h2 : q ≠ QId.main) (hw : (s.heap (Ptr.ctl q)).work = none) :
    (own (Ptr.ctl q)).busy = false
      ∧ (s.ctl q = CtlPc.idle ∨ ∃ r, s.ctl q = CtlPc.stop_body r) := by
  have key : s.ctl q = CtlPc.idle ∨ ∃ r, s.ctl q = CtlPc.stop_body r := by
    by_contra hc
    push_neg at hc
    exact (hp.r6 q h1 h2 hc.1 hc.2).1 hw
  exact ⟨hp.r5 q key hw, key⟩

/-- Fields of a queue other than its list, its kind and the counts of the
main queue are written. -/
theorem Shape.shape_set_queue {s : Engine} {own : Ptr → Place} {ch : QId → List Ptr}
    (hs : Shape s own ch) (b : QId) (Q2 : WorkQueue)
    (hhead : Q2.head = (s.queues b).head) (htail : Q2.tail = (s.queues b).tail)
    (hvt : Q2.vtable = (s.queues b).vtable)
    (hx : (s.queues b).vtable = none
        ∨ (s.heap (Ptr.ctl b)).notify = some Fn.work_queue_free →
      Q2.xref_cnt = (s.queues b).xref_cnt)
    (hm : b = QId.main → Q2.n_threads = (s.queues b).n_threads ∧ Q2.width = (s.queues b).width) :
    Shape (s.setQ b Q2) own ch := by
  refine hs.shape_alike rfl ?_ ?_ rfl rfl
  · intro o
    by_cases hob : o = b
    · subst hob; simp [Engine.setQ, hhead, htail, hvt]; exact hx
    · simp [Engine.setQ, Function.update_noteq hob]
  · by_cases hob : QId.main = b
    · have := hm hob.symm
      subst hob
      simp [Engine.setQ, this.1, this.2]
    · simp [Engine.setQ, Function.update_noteq hob]

theorem Post2.post2_set_queue {s : Engine} {own : Ptr → Place} {ch : QId → List Ptr}
    (hs : Shape s own ch) (hp : Proto s own) (b : QId) (Q2 : WorkQueue)
    (hhead : Q2.head = (s.queues b).head) (htail : Q2.tail = (s.queues b).tail)
    (hvt : Q2.vtable = (s.queues b).vtable)
    (hx : (s.queues b).vtable = none
        ∨ (s.heap (Ptr.ctl b)).notify = some Fn.work_queue_free →
      Q2.xref_cnt = (s.queues b).xref_cnt)
    (hm : b = QId.main → Q2.n_threads = (s.queues b).n_threads ∧ Q2.width = (s.queues b).width)
    (S : Ptr → Prop) (hS : ∀ p, S p → (own p).busy = false) :
    Post2 s own (s.setQ b Q2) own ch S := by
  have hsh : Shape (s.setQ b Q2) own ch := hs.shape_set_queue b Q2 hhead htail hvt hx hm
  refine ⟨hsh, hp.proto_transfer ⟨rfl, rfl, fun _ => rfl, fun _ => rfl, ?_⟩ (fun _ h => h),
    ⟨fun _ => Or.inr (Or.inl rfl), fun _ _ => Or.inr rfl, fun _ h => h⟩,
    fun p h => Place.idle_not_held (hS p h), fun _ _ => rfl, ⟨fun _ => rfl, rfl, id, fun _ _ h => h, fun _ _ h => Or.inl h⟩⟩
  intro o
  by_cases hob : o = b
  · subst hob; simp [Engine.setQ, hvt]
  · simp [Engine.setQ, Function.update_noteq hob]

/-- A queue to which a reference is left has not been handed to
`_work_queue_free`. -/
theorem Shape.unarmed_of_xref {s : Engine} {own : Ptr → Place} {ch : QId → List Ptr}
    (hs : Shape s own ch) (q : QId) (h1 : q ≠ QId.concurrent) (h2 : q ≠ QId.main)
    (h : (s.queues q).xref_cnt > 0) :
    (s.heap (Ptr.ctl q)).notify ≠ some Fn.work_queue_free := by
  intro hn
  have := (hs.fin q h1 h2 hn).1
  rw [this] at h
  exact absurd h (by decide)

theorem Shape.live_of_xref {s : Engine} {own : Ptr → Place} {ch : QId → List Ptr}
    (hs : Shape s own ch) (q : QId) (h : (s.queues q).xref_cnt > 0) :
    (s.queues q).vtable ≠ none := by
  intro hv
  have := (hs.dead q hv).2.2
  rw [this] at h
  exact absurd h (by decide)

theorem ref_post2 {s : Engine} {own : Ptr → Place} {ch : QId → List Ptr}
    (hs : Shape s own ch) (hp : Proto s own) (q : QId) (s1 : Engine)
    (S : Ptr → Prop) (hS : ∀ p, S p → (own p).busy = false)
    (h : work_queue_ref s q = .ok s1) :
    Post2 s own s1 own ch S
    ∧ (q ≠ QId.concurrent → q ≠ QId.main →
        (s.queues q).xref_cnt > 0 ∧ (s1.queues q).xref_cnt = (s.queues q).xref_cnt + 1
        ∧ (s.queues q).vtable ≠ none)
    ∧ s1.heap = s.heap ∧ s1.log = s.log ∧ s1.ctl = s.ctl ∧ s1.flags = s.flags := by
  simp only [work_queue_ref] at h
  split at h
  · next hc =>
    simp only [Except.ok.injEq] at h
    subst h
    exact ⟨Post2.post2_refl hs hp S hS, fun a b => absurd hc (by simp [a, b]), rfl, rfl, rfl, rfl⟩
  · rename_i hc
    split at h
    · next hx =>
      simp only [Except.ok.injEq] at h
      subst h
      have hv := hs.live_of_xref q hx
      have hnf := hs.unarmed_of_xref q (fun e => hc (Or.inl e)) (fun e => hc (Or.inr e)) hx
      have P : Post2 s own
          (s.setQ q { s.queues q with xref_cnt := (s.queues q).xref_cnt + 1 }) own ch S :=
        Post2.post2_set_queue hs hp q { s.queues q with xref_cnt := (s.queues q).xref_cnt + 1 }
          rfl rfl rfl (fun e => e.elim (fun e => absurd e hv) (fun e => absurd e hnf))
          (fun _ => ⟨rfl, rfl⟩) S hS
      exact ⟨P, fun _ _ => ⟨hx, by simp [Engine.setQ], hv⟩, rfl, rfl, rfl, rfl⟩
    · cases h

/-- A call that moves no item, logs nothing and leaves memory alone. -/
theorem PostQ.postq_still {s s2 : Engine} {own : Ptr → Place} {ch : QId → List Ptr}
    (hs2 : Shape s2 own ch) (S : Ptr → Prop) (hS : ∀ p, S p → (own p).busy = false) (q : QId)
    (hl : s2.log = s.log) (hh : s2.heap = s.heap) (hc : s2.ctl = s.ctl)
    (hf : s2.flags = s.flags) (ht : s2.threads = s.threads)
    (hm : s2.main_stack = s.main_stack)
    (hv : ∀ q0, (s2.queues q0).vtable = (s.queues q0).vtable) :
    PostQ s own s2 own ch S q :=
  ⟨hs2, ⟨fun _ => Or.inr (Or.inl rfl), fun _ _ => Or.inr (by rw [hl]), fun _ h => h⟩,
    fun p h => Place.idle_not_held (hS p h), fun _ _ => by rw [hh],
    ⟨fun _ => by rw [ht], hm, fun h => by rw [ht]; exact h,
      fun _ _ h => by rw [ht]; exact h, fun _ _ h => by rw [ht] at h; exact Or.inl h⟩, hc, hf, fun q0 _ => by rw [hh],
    fun q0 _ => by rw [hh], hv, fun _ _ h => h, Or.inl ⟨by rw [hh], rfl⟩⟩

theorem setQ_vtable (s : Engine) (q : QId) (Q2 : WorkQueue) (h : Q2.vtable = (s.queues q).vtable)
    (o : QId) : ((s.setQ q Q2).queues o).vtable = (s.queues o).vtable := by
  by_cases hoq : o = q
  · subst hoq; simp [Engine.setQ, h]
  · simp [Engine.setQ, Function.update_noteq hoq]

/-- Source `work_queue_unref`: at the last reference the control item, which
the engine does not keep then, becomes the stop item and is linked in `q`. -/
theorem unref_core {s : Engine} {own : Ptr → Place} {ch : QId → List Ptr}
    (hs : Shape s own ch) (env : Env) (q : QId)
    (hidle0 : q ≠ QId.concurrent → q ≠ QId.main → (s.queues q).xref_cnt = 1 →
      (s.heap (Ptr.ctl q)).work = none → (own (Ptr.ctl q)).busy = false)
    (hrun : (s.queues q).xref_cnt = 1 →
      ∀ x, env.runner = some x → (own x).busy = false ∧ ∃ k, x = Ptr.node k)
    (s5 : Engine) (h : work_queue_unref env s q = .ok s5) :
    ∃ own2 ch2, PostQ s own s5 own2 ch2
      (fun p => ((s.queues q).xref_cnt = 1 ∧ env.runner = some p)
        ∨ (p = Ptr.ctl q ∧ (own p).busy = false)) q := by
  have hS : ∀ p, (((s.queues q).xref_cnt = 1 ∧ env.runner = some p)
      ∨ (p = Ptr.ctl q ∧ (own p).busy = false)) → (own p).busy = false := by
    intro p hp
    rcases hp with hp | hp
    · exact (hrun hp.1 p hp.2).1
    · exact hp.2
  simp only [work_queue_unref] at h
  split at h
  · simp only [Except.ok.injEq] at h
    subst h
    exact ⟨own, ch, PostQ.postq_still hs _ hS q rfl rfl rfl rfl rfl rfl (fun _ => rfl)⟩
  · next hc =>
    push_neg at hc
    obtain ⟨hq1, hq2⟩ := hc
    split at h
    · next hpos =>
      have hv := hs.live_of_xref q hpos
      have hnf := hs.unarmed_of_xref q hq1 hq2 hpos
      have hs1 : Shape (s.setQ q { s.queues q with xref_cnt := (s.queues q).xref_cnt - 1 })
          own ch :=
        hs.shape_set_queue q { s.queues q with xref_cnt := (s.queues q).xref_cnt - 1 }
          rfl rfl rfl (fun e => e.elim (fun e => absurd e hv) (fun e => absurd e hnf))
          (fun _ => ⟨rfl, rfl⟩)
      split at h
      · next hz =>
        have hx1 : (s.queues q).xref_cnt = 1 := by
          simp only [Engine.setQ, Function.update_same] at hz
          omega
        have hrun1 := hrun hx1
        split at h
        · next hw =>
          have hw0 : (s.heap (Ptr.ctl q)).work = none := hw
          have hidle := hidle0 hq1 hq2 hx1 hw0
          have hni : ∀ o, own (Ptr.ctl q) ≠ Place.inq o := by
            intro o e; rw [e] at hidle; cases hidle
          split at h
          · cases h
          · next r3 s3 ha =>
            simp only [Except.ok.injEq] at h
            subst h
            have hs2 := hs1.set_idle (Ptr.ctl q)
              { work := some Fn.wq_stop, data := Data.queue q,
                notify := some Fn.work_queue_free, next := none,
                cancel := ((s.setQ q { s.queues q with
                  xref_cnt := (s.queues q).xref_cnt - 1 }).heap (Ptr.ctl q)).cancel }
              hni (fun k e => by cases e)
              (fun q0 e => by
                injection e with e
                subst e
                simp [CtlOk])
              (fun k _ e => by cases e)
              (fun q0 e _ _ _ => by
                injection e with e
                subst e
                exact ⟨hz, fun hb => by rw [hidle] at hb; cases hb⟩)
            obtain ⟨own2, ch2, P, _, _, _, hpay⟩ := add_unlocked_post hs2 env q (Ptr.ctl q)
              false false hrun1 (fun e => by
                obtain ⟨_, k, hk⟩ := hrun1 _ e
                cases hk) hidle (fun e => by cases e)
              (fun q0 e => by
                injection e with e
                subst e
                simpa [Engine.setItem, Engine.setQ] using hv)
              (fun k _ e => by cases e) (fun _ _ e => absurd rfl e)
              (fun q0 e hq0 => by
                injection e with e
                exact absurd e.symm hq0) r3 s3 ha
            have hw5 : (s3.heap (Ptr.ctl q)).work = some Fn.wq_stop := by
              rw [payload_work hpay]
              simp [Engine.setItem]
            have hSS : ∀ p, (env.runner = some p ∨ p = Ptr.ctl q) →
                (((s.queues q).xref_cnt = 1 ∧ env.runner = some p)
                  ∨ (p = Ptr.ctl q ∧ (own p).busy = false)) := by
              intro p hp
              rcases hp with e | e
              · exact Or.inl ⟨hx1, e⟩
              · exact Or.inr ⟨e, by rw [e]; exact hidle⟩
            refine ⟨own2, ch2, P.shape, ⟨?_, ?_, P.trans.acc⟩, ?_, ?_,
              ⟨P.held.items, P.held.stack, P.held.nomain, P.held.mem, P.held.back⟩, by rw [P.proto.ctl]; rfl,
              by rw [P.proto.flags]; rfl, ?_, ?_, ?_, ?_, Or.inr ⟨hw5, hw0⟩⟩
            · intro p
              exact (P.trans.drop p).imp (hSS p) id
            · intro p hb
              exact (P.trans.quiet p hb).imp (hSS p) id
            · intro p hp
              refine (P.grow p ?_).2
              rcases hp with e | e
              · exact Or.inl e.2
              · exact Or.inr e.1
            · intro k hk
              rw [P.pay _ (fun e => hk (hSS _ e))]
              simp [Engine.setItem, Engine.setQ]
            · intro q0 hq0
              have : Ptr.ctl q0 ≠ Ptr.ctl q := by simp [hq0]
              rw [P.proto.work]
              simp [Engine.setItem, Engine.setQ, Function.update_noteq this]
            · intro q0 hq0
              have : Ptr.ctl q0 ≠ Ptr.ctl q := by simp [hq0]
              rw [P.proto.notify]
              simp [Engine.setItem, Engine.setQ, Function.update_noteq this]
            · intro q0
              rw [P.proto.vtable]
              exact setQ_vtable s q
                { s.queues q with xref_cnt := (s.queues q).xref_cnt - 1 } rfl q0
            · intro q0 hq0 hb
              have hn : ¬ (env.runner = some (Ptr.ctl q0) ∨ Ptr.ctl q0 = Ptr.ctl q) := by
                intro e
                rcases e with e | e
                · obtain ⟨_, k, hk⟩ := hrun1 _ e
                  cases hk
                · injection e with e
                  exact hq0 e
              exact ((P.trans.drop _).resolve_left hn).busy hb
        · cases h
      · simp only [Except.ok.injEq] at h
        subst h
        exact ⟨own, ch, PostQ.postq_still hs1 _ hS q rfl rfl rfl rfl rfl rfl (fun q0 => setQ_vtable s q
          { s.queues q with xref_cnt := (s.queues q).xref_cnt - 1 } rfl q0)⟩
    · cases h

/-- The protocol invariant after a call described by `PostQ` on a queue whose
flush or stop, if any, is not waiting. -/
theorem PostQ.postq_to2 {s s2 : Engine} {own own2 : Ptr → Place} {ch2 : QId → List Ptr}
    {S : Ptr → Prop} {q : QId} (P : PostQ s own s2 own2 ch2 S q) (hp : Proto s own)
    (hkey : (s.heap (Ptr.ctl q)).work = none →
      (s.ctl q = CtlPc.idle ∨ ∃ r, s.ctl q = CtlPc.stop_body r)) :
    Post2 s own s2 own2 ch2 S := by
  refine ⟨P.shape, ?_, P.trans, P.grow, P.pay, P.held⟩
  rcases P.self with ⟨e1, e2⟩ | ⟨e1, e0⟩
  · refine hp.proto_transfer ⟨P.ctl, P.flags, ?_, ?_, P.vtable⟩ ?_
    · intro q0
      by_cases hq0 : q0 = q
      · subst hq0; exact payload_work e1
      · exact P.work q0 hq0
    · intro q0
      by_cases hq0 : q0 = q
      · subst hq0; exact payload_notify e1
      · exact P.notify q0 hq0
    · intro q0 hb
      by_cases hq0 : q0 = q
      · subst hq0; rw [← e2]; exact hb
      · exact P.busy q0 hq0 hb
  · have hk := hkey e0
    have hc5 : s2.ctl q = s.ctl q := by rw [P.ctl]
    refine hp.update_one q (fun q0 _ => by rw [P.ctl]) (fun q0 _ => by rw [P.flags]) P.work
      P.notify (fun q0 _ => P.vtable q0) P.busy ?_ ?_ ?_ ?_ ?_
    · intro b e
      rw [hc5] at e
      rcases hk with k | ⟨r, k⟩ <;> rw [k] at e <;> cases e
    · intro b e
      rw [hc5] at e
      rcases hk with k | ⟨r, k⟩ <;> rw [k] at e <;> cases e
    · intro e
      rw [hc5] at e
      rcases hk with k | ⟨r, k⟩ <;> rw [k] at e <;> cases e
    · intro _ e
      rw [e1] at e
      cases e
    · intro _ _ e3 e4
      rw [hc5] at e3 e4
      rcases hk with k | ⟨r, k⟩
      · exact absurd k e3
      · exact absurd k (e4 r)

theorem unref_post2 {s : Engine} {own : Ptr → Place} {ch : QId → List Ptr}
    (hs : Shape s own ch) (hp : Proto s own) (env : Env) (q : QId)
    (hrun : (s.queues q).xref_cnt = 1 →
      ∀ x, env.runner = some x → (own x).busy = false ∧ ∃ k, x = Ptr.node k)
    (s5 : Engine) (h : work_queue_unref env s q = .ok s5) :
    ∃ own2 ch2, Post2 s own s5 own2 ch2
      (fun p => ((s.queues q).xref_cnt = 1 ∧ env.runner = some p)
        ∨ (p = Ptr.ctl q ∧ (own p).busy = false)) := by
  by_cases hq : q = QId.concurrent ∨ q = QId.main
  · refine ⟨own, ch, ?_⟩
    simp only [work_queue_unref, if_pos hq, Except.ok.injEq] at h
    subst h
    refine Post2.post2_refl hs hp _ ?_
    intro p hp0
    rcases hp0 with e | e
    · exact (hrun e.1 p e.2).1
    · exact e.2
  · push_neg at hq
    obtain ⟨own2, ch2, P⟩ := unref_core hs env q
      (fun h1 h2 _ hw => (hp.idle_of_unarmed q h1 h2 hw).1) hrun s5 h
    exact ⟨own2, ch2, P.postq_to2 hp (fun hw => (hp.idle_of_unarmed q hq.1 hq.2 hw).2)⟩

/-- Source `work_queue_unref` when the count does not reach zero. -/
theorem unref_plain_post2 {s : Engine} {own : Ptr → Place} {ch : QId → List Ptr}
    (hs : Shape s own ch) (hp : Proto s own) (env : Env) (q : QId) (s5 : Engine)
    (S : Ptr → Prop) (hS : ∀ p, S p → (own p).busy = false)
    (hx : q = QId.concurrent ∨ q = QId.main ∨ (s.queues q).xref_cnt ≠ 1)
    (h : work_queue_unref env s q = .ok s5) : Post2 s own s5 own ch S := by
  simp only [work_queue_unref] at h
  split at h
  · simp only [Except.ok.injEq] at h
    subst h
    exact Post2.post2_refl hs hp S hS
  · next hc =>
    have hx1 : (s.queues q).xref_cnt ≠ 1 := by
      rcases hx with e | e | e
      · exact absurd (Or.inl e) hc
      · exact absurd (Or.inr e) hc
      · exact e
    split at h
    · next hpos =>
      have hv := hs.live_of_xref q hpos
      have hnf := hs.unarmed_of_xref q (fun e => hc (Or.inl e)) (fun e => hc (Or.inr e)) hpos
      split at h
      · next hz =>
        exfalso
        apply hx1
        simp only [Engine.setQ, Function.update_same] at hz
        omega
      · simp only [Except.ok.injEq] at h
        subst h
        exact Post2.post2_set_queue hs hp q { s.queues q with xref_cnt := (s.queues q).xref_cnt - 1 }
          rfl rfl rfl (fun e => e.elim (fun e => absurd e hv) (fun e => absurd e hnf))
          (fun _ => ⟨rfl, rfl⟩) S hS
    · cases h

theorem about_free_ne (log : List Event) (item p : Ptr) (h : p ≠ item) :
    about (log ++ [Event.free item]) p = about log p := by
  apply about_emit_ne
  intro e he
  simp only [List.mem_singleton] at he
  rw [he]
  simp only [Event.item, ne_eq, Option.some.injEq]
  exact fun e => h e.symm

theorem about_free_eq (log : List Event) (item : Ptr) :
    about (log ++ [Event.free item]) item = about log item ++ [Event.free item] := by
  rw [about_append]
  congr 1
  simp [about, Event.item]

/-- The middle of `work_queue_add` and `work_queue_add_rewind`: the new item
is filled in and added; when the add fails it is freed. -/
theorem add_fresh_post2 {s : Engine} {own : Ptr → Place} {ch : QId → List Ptr}
    (hs : Shape s own ch) (hp : Proto s own) (env : Env) (q : QId) (do_rewind : Bool)
    (v : WorkItem) (hv : NodeOk v) (hqm : q ≠ QId.main) (item : Ptr)
    (halloc : own item = Place.out ∧ (∃ k, item = Ptr.node k) ∧ about s.log item = [])
    (hrun : ∀ x, env.runner = some x → (own x).busy = false ∧ ∃ k, x = Ptr.node k)
    (hne : env.runner ≠ some item)
    (harm : q ≠ QId.concurrent → q ≠ QId.main →
      (s.heap (Ptr.ctl q)).notify ≠ some Fn.work_queue_free)
    (r : Int) (s3 : Engine)
    (h : _work_queue_add env (s.setItem item v) q item do_rewind true = .ok (r, s3)) :
    ∃ own2 ch2, Post2 s own (if r < 0 then s3.free item else s3) own2 ch2
        (fun p => env.runner = some p ∨ p = item)
      ∧ ∀ o, (s3.queues o).xref_cnt = (s.queues o).xref_cnt := by
  obtain ⟨hout, ⟨k, hk⟩, hab⟩ := halloc
  have hidle : (own item).busy = false := by rw [hout]; rfl
  have hni : ∀ o, own item ≠ Place.inq o := by intro o e; rw [hout] at e; cases e
  have hs2 : Shape (s.setItem item v) own ch := by
    refine hs.set_idle item v hni (fun _ _ => hv) (fun q0 e => by rw [hk] at e; cases e) ?_
      (fun q0 e => by rw [hk] at e; cases e)
    intro _ u _ _
    rw [hout, hab]
    exact Or.inl rfl
  have hcn : ∀ q0, Ptr.ctl q0 ≠ item := by intro q0 e; rw [hk] at e; cases e
  obtain ⟨own2, ch2, P, hfail, hsucc, hab3, hpay3⟩ := add_unlocked_post hs2 env q item do_rewind
    true hrun hne hidle (fun _ => hqm) (fun q0 e => absurd e.symm (hcn q0))
    (fun _ u _ _ => by
      simp only [Life, hqm, if_false]
      exact hab)
    (fun h1 h2 _ => by
      have := harm h1 h2
      simpa [Engine.setItem, Function.update_noteq (hcn q)] using this)
    (fun q0 e => absurd e.symm (hcn q0)) r s3 h
  have hproto : Proto s3 own2 := by
    refine hp.proto_transfer ⟨by rw [P.proto.ctl]; rfl, by rw [P.proto.flags]; rfl, ?_, ?_, ?_⟩ ?_
    · intro q0
      rw [P.proto.work]
      simp [Engine.setItem, Function.update_noteq (hcn q0)]
    · intro q0
      rw [P.proto.notify]
      simp [Engine.setItem, Function.update_noteq (hcn q0)]
    · intro q0
      rw [P.proto.vtable]
      rfl
    · intro q0 hb
      have hn : ¬ (env.runner = some (Ptr.ctl q0) ∨ Ptr.ctl q0 = item) := by
        intro e
        rcases e with e | e
        · obtain ⟨_, k2, hk2⟩ := hrun _ e
          cases hk2
        · exact hcn q0 e
      exact ((P.trans.drop _).resolve_left hn).busy hb
  have P3 : Post2 s own s3 own2 ch2 (fun p => env.runner = some p ∨ p = item) := by
    refine ⟨P.shape, hproto, ⟨P.trans.drop, P.trans.quiet, P.trans.acc⟩,
      fun p hp => (P.grow p hp).2, ?_, ⟨P.held.items, P.held.stack, P.held.nomain, P.held.mem, P.held.back⟩⟩
    intro k2 hk2
    rw [P.pay _ hk2]
    have : Ptr.node k2 ≠ item := fun e => hk2 (Or.inr e)
    simp [Engine.setItem, Function.update_noteq this]
  refine ⟨own2, ch2, ?_, fun o => by rw [P.xref]; rfl⟩
  by_cases hr : r < 0
  · rw [if_pos hr]
    have hown : own2 = own := hfail hr
    have hab3b : about s3.log item = [] := by rw [hab3]; exact hab
    have hsh : Shape (s3.free item) own2 ch2 := by
      refine P.shape.relog _ own2 (fun _ _ => Iff.rfl) (fun q0 hv0 => (P.shape.dead q0 hv0).1) ?_
        (fun _ h => h)
      intro k2 u hw
      by_cases hki : Ptr.node k2 = item
      · rw [hki, hown, hout, about_free_eq, hab3b]
        exact Or.inr rfl
      · rw [about_free_ne _ _ _ hki]
        exact P.shape.life k2 u hw
    refine P3.post2_seq ⟨hsh, hproto.proto_transfer ⟨rfl, rfl, fun _ => rfl, fun _ => rfl, fun _ => rfl⟩
      (fun _ h => h), ⟨fun _ => Or.inr (Or.inl rfl), ?_, fun _ h => h⟩, ?_, fun _ _ => rfl,
      ⟨fun _ => rfl, rfl, id, fun _ _ h => h, fun _ _ h => Or.inl h⟩⟩
    · intro p _
      by_cases hpi : p = item
      · exact Or.inl (Or.inr hpi)
      · exact Or.inr (about_free_ne _ _ _ hpi)
    · intro p hp
      rw [hown]
      rcases hp with e | e
      · exact Place.idle_not_held (hrun p e).1
      · rw [e]; exact Place.idle_not_held hidle
  · rw [if_neg hr]
    exact P3

/-- Shared body of `work_queue_add` and `work_queue_add_rewind`. -/
theorem add_item_post2 {s : Engine} {own : Ptr → Place} {ch : QId → List Ptr}
    (hs : Shape s own ch) (hp : Proto s own) (env : Env) (q : QId) (do_rewind : Bool)
    (w : Nat) (notify cancel : Option Nat) (data : Data) (hqm : q ≠ QId.main)
    (halloc : ∀ x, env.alloc = some x →
      own x = Place.out ∧ (∃ k, x = Ptr.node k) ∧ about s.log x = [])
    (hrun : ∀ x, env.runner = some x → (own x).busy = false ∧ ∃ k, x = Ptr.node k)
    (hne : ∀ x, env.alloc = some x → env.runner ≠ some x) (r : Int) (s5 : Engine)
    (h : add_item env s q do_rewind w notify cancel data = .ok (r, s5)) :
    ∃ own2 ch2, Post2 s own s5 own2 ch2 (fun p => env.runner = some p ∨ env.alloc = some p) := by
  have hS : ∀ p, (env.runner = some p ∨ env.alloc = some p) → (own p).busy = false := by
    intro p hp
    rcases hp with e | e
    · exact (hrun p e).1
    · rw [(halloc p e).1]; rfl
  simp only [add_item] at h
  split at h
  · cases h
  · next s1 href =>
    obtain ⟨P0, hx, hheap, hlog, _, _⟩ := ref_post2 hs hp q s1 _ hS href
    have hxq : ∀ s4 : Engine, (∀ o, (s4.queues o).xref_cnt = (s1.queues o).xref_cnt) →
        (q = QId.concurrent ∨ q = QId.main ∨ (s4.queues q).xref_cnt ≠ 1) := by
      intro s4 h4
      by_cases h1 : q = QId.concurrent
      · exact Or.inl h1
      · right; right
        obtain ⟨a, b, _⟩ := hx h1 hqm
        rw [h4, b]
        omega
    split at h
    · cases h
    · next r4 s4 hres =>
      split at h
      · cases h
      · next s6 hun =>
        simp only [Except.ok.injEq, Prod.mk.injEq] at h
        obtain ⟨_, h⟩ := h
        subst h
        obtain ⟨a, hal⟩ : ∃ a, env.alloc = a := ⟨_, rfl⟩
        cases a with
        | none =>
          rw [hal] at hres
          simp only [Except.ok.injEq, Prod.mk.injEq] at hres
          obtain ⟨_, hres⟩ := hres
          subst hres
          refine ⟨own, ch, P0.post2_seq (unref_plain_post2 P0.shape P0.proto env q s6 _ hS
            (hxq s1 (fun _ => rfl)) hun)⟩
        | some item =>
          rw [hal] at hres
          simp only at hres
          split at hres
          · cases hres
          · next r3 s3 hadd =>
            obtain ⟨hout, hk, hab⟩ := halloc item hal
            have hS1 : ∀ p, (env.runner = some p ∨ p = item) → (own p).busy = false := by
              intro p hp
              rcases hp with e | e
              · exact (hrun p e).1
              · rw [e, hout]; rfl
            obtain ⟨own2, ch2, P, hxr⟩ := add_fresh_post2 P0.shape P0.proto env q do_rewind
              { work := some (Fn.user w), notify := notify.map Fn.user,
                cancel := cancel.map Fn.user, data := data, next := none }
              (by cases notify <;> simp [NodeOk]) hqm item
              ⟨hout, hk, by rw [hlog]; exact hab⟩ hrun (hne item hal)
              (fun h1 h2 => P0.shape.unarmed_of_xref q h1 h2 (by
                obtain ⟨a, b, _⟩ := hx h1 h2
                rw [b]
                omega)) r3 s3 hadd
            have hS2 : ∀ p, (env.runner = some p ∨ p = item) → (own2 p).busy = false → True :=
              fun _ _ _ => trivial
            have hs4 : s4 = (if r3 < 0 then s3.free item else s3) := by
              split at hres
              · next hr =>
                simp only [Except.ok.injEq, Prod.mk.injEq] at hres
                rw [if_pos hr]; exact hres.2.symm
              · next hr =>
                simp only [Except.ok.injEq, Prod.mk.injEq] at hres
                rw [if_neg hr]; exact hres.2.symm
            have hx4 : ∀ o, (s4.queues o).xref_cnt = (s1.queues o).xref_cnt := by
              intro o
              rw [hs4]
              split
              · exact hxr o
              · exact hxr o
            rw [← hs4] at P
            have PU := unref_plain_post2 P.shape P.proto env q s6 (fun _ => False)
              (fun _ hf => absurd hf id) (hxq s4 hx4) hun
            have P04 := (P0.post2_mono (T := fun p => env.runner = some p ∨ p = item)
              (fun p hp => by
                rcases hp with e | e
                · exact Or.inl e
                · rw [hal] at e
                  injection e with e
                  exact Or.inr e.symm) (fun p hp _ => hS1 p hp)).post2_seq P
            have P06 := P04.then PU
            refine ⟨own2, ch2, P06.post2_mono ?_ ?_⟩
            · intro p hp
              rcases hp with (e | e) | e
              · exact Or.inl e
              · rw [e]; exact Or.inr hal
              · exact absurd e id
            · intro p hp hn
              exact hS p hp

/-- Fields the invariants do not read are written. -/
theorem Post2.post2_alike {s s2 : Engine} {own : Ptr → Place} {ch : QId → List Ptr}
    (hs : Shape s own ch) (hp : Proto s own) (S : Ptr → Prop)
    (hS : ∀ p, S p → (own p).busy = false) (h1 : s2.heap = s.heap) (h2 : s2.queues = s.queues)
    (h3 : s2.log = s.log) (h4 : s2.ctl = s.ctl) (h5 : s2.flags = s.flags)
    (h6 : s2.threads = s.threads) (h7 : s2.main_stack = s.main_stack)
    (h8 : s2.initialized = s.initialized) : Post2 s own s2 own ch S := by
  refine ⟨hs.shape_alike h1 (fun o => by rw [h2]; exact ⟨rfl, rfl, rfl, fun _ => rfl⟩)
      (by rw [h2]; exact ⟨rfl, rfl⟩) h3 h8,
    hp.proto_transfer ⟨h4, h5, fun _ => by rw [h1], fun _ => by rw [h1], fun _ => by rw [h2]⟩
      (fun _ h => h),
    ⟨fun _ => Or.inr (Or.inl rfl), fun _ _ => Or.inr (by rw [h3]), fun _ h => h⟩,
    fun p h => Place.idle_not_held (hS p h), fun _ _ => by rw [h1],
    ⟨fun _ => by rw [h6], h7, fun h => by rw [h6]; exact h, fun _ _ h => by rw [h6]; exact h,
      fun _ _ h => by rw [h6] at h; exact Or.inl h⟩⟩

/-- Source `_work_queue_init` on the slot of a queue that does not exist,
followed by the setting of its size and width. -/
theorem init_queue_post2 {s : Engine} {own : Ptr → Place} {ch : QId → List Ptr}
    (hs : Shape s own ch) (hp : Proto s own) (q : QId) (Q2 : WorkQueue)
    (hv : (s.queues q).vtable = none) (h1 : q ≠ QId.concurrent) (h2 : q ≠ QId.main)
    (hh : Q2.head = none) (ht : Q2.tail = none) (hvt : Q2.vtable ≠ none)
    (S : Ptr → Prop) (hS : ∀ p, S p → (own p).busy = false) :
    Post2 s own ((s.setItem (Ptr.ctl q) WorkItem.zero).setQ q Q2) own ch S := by
  obtain ⟨hidle, hch, _⟩ := hs.dead q hv
  have hnm : ∀ o, Ptr.ctl q ∉ ch o := fun o => hs.idle_not_mem _ o hidle
  have hq : ∀ o, o ≠ q →
      ((s.setItem (Ptr.ctl q) WorkItem.zero).setQ q Q2).queues o = s.queues o := by
    intro o ho
    simp [Engine.setQ, Engine.setItem, Function.update_noteq ho]
  have hqq : ((s.setItem (Ptr.ctl q) WorkItem.zero).setQ q Q2).queues q = Q2 := by
    simp [Engine.setQ]
  have hheap : ∀ x, x ≠ Ptr.ctl q →
      ((s.setItem (Ptr.ctl q) WorkItem.zero).setQ q Q2).heap x = s.heap x := by
    intro x hx
    simp [Engine.setQ, Engine.setItem, Function.update_noteq hx]
  have hkey : s.ctl q = CtlPc.idle ∨ ∃ r, s.ctl q = CtlPc.stop_body r := by
    by_contra hc
    push_neg at hc
    exact (hp.r6 q h1 h2 hc.1 hc.2).2.2 hv
  refine ⟨?_, ?_, ⟨fun _ => Or.inr (Or.inl rfl), fun _ _ => Or.inr rfl, fun _ h => h⟩,
    fun p h => Place.idle_not_held (hS p h),
    fun k _ => by rw [hheap (Ptr.node k) (by simp)], ⟨fun _ => rfl, rfl, id, fun _ _ h => h, fun _ _ h => Or.inl h⟩⟩
  · constructor
    · intro o
      by_cases hoq : o = q
      · subst hoq
        rw [hqq, hch]
        exact ⟨by rw [hh]; rfl, by rw [ht]; rfl, List.nodup_nil⟩
      · rw [hq o hoq]
        refine (hs.wf o).congr rfl rfl ?_
        intro x hx
        rw [hheap x (fun e => hnm o (e ▸ hx))]
    · exact hs.mem
    · intro k
      rw [hheap _ (by simp)]
      exact hs.node k
    · intro q0
      by_cases hq0 : q0 = q
      · subst hq0
        simp [Engine.setQ, Engine.setItem, CtlOk, WorkItem.zero]
      · rw [hheap _ (by simp [hq0])]
        exact hs.ctl q0
    · intro q0 hv0
      by_cases hq0 : q0 = q
      · subst hq0
        rw [hqq] at hv0
        exact absurd hv0 hvt
      · rw [hq q0 hq0] at hv0 ⊢
        exact hs.dead q0 hv0
    · rw [hq _ (Ne.symm h2)]
      exact hs.mainq
    · intro k u hw
      rw [hheap _ (by simp)] at hw ⊢
      exact hs.life k u hw
    · intro hi
      rw [hq _ (Ne.symm h1), hq _ (Ne.symm h2)]
      exact hs.boot hi
    · intro q0 a b hn
      by_cases hq0 : q0 = q
      · subst hq0
        simp [Engine.setQ, Engine.setItem, WorkItem.zero] at hn
      · rw [hheap _ (by simp [hq0])] at hn
        rw [hq q0 hq0]
        exact hs.fin q0 a b hn
  · refine hp.update_one q (fun _ _ => rfl) (fun _ _ => rfl) ?_ ?_ ?_ (fun _ _ h => h)
      (fun _ _ => hidle) (fun _ _ _ => hidle) (fun _ _ => hidle) (fun _ _ => hidle) ?_
    · intro q0 hq0
      rw [hheap _ (by simp [hq0])]
    · intro q0 hq0
      rw [hheap _ (by simp [hq0])]
    · intro q0 hq0
      rw [hq q0 hq0]
    · intro _ _ e1 e2
      rcases hkey with k | ⟨r, k⟩
      · exact absurd k e1
      · exact absurd k (e2 r)

/-- Source `init_global_once`. -/
theorem init_global_once_post2 {s : Engine} {own : Ptr → Place} {ch : QId → List Ptr}
    (hs : Shape s own ch) (hp : Proto s own) (S : Ptr → Prop)
    (hS : ∀ p, S p → (own p).busy = false) :
    Post2 s own (init_global_once s) own ch S := by
  by_cases hi : s.initialized = true
  · have : init_global_once s = s := by simp [init_global_once, hi]
    rw [this]
    exact Post2.post2_refl hs hp S hS
  · have hi0 : s.initialized = false := by simpa using hi
    obtain ⟨hvc, hvm⟩ := hs.boot hi0
    obtain ⟨hic, hcc, _⟩ := hs.dead _ hvc
    obtain ⟨him, hcm, _⟩ := hs.dead _ hvm
    have ha : ∀ x, x ≠ Ptr.ctl QId.concurrent → x ≠ Ptr.ctl QId.main →
        (init_global_once s).heap x = s.heap x := by
      intro x h1 h2
      simp [init_global_once, hi0, _work_queue_init, Engine.setItem, Engine.setQ,
        Function.update_noteq h1, Function.update_noteq h2]
    have hbc : (init_global_once s).heap (Ptr.ctl QId.concurrent) = WorkItem.zero := by
      simp [init_global_once, hi0, _work_queue_init, Engine.setItem, Engine.setQ,
        Function.update_apply]
    have hbm : (init_global_once s).heap (Ptr.ctl QId.main) = WorkItem.zero := by
      simp [init_global_once, hi0, _work_queue_init, Engine.setItem, Engine.setQ]
    have hc : ∀ o, o ≠ QId.concurrent → o ≠ QId.main →
        (init_global_once s).queues o = s.queues o := by
      intro o h1 h2
      simp [init_global_once, hi0, _work_queue_init, Engine.setItem, Engine.setQ,
        Function.update_noteq h1, Function.update_noteq h2]
    have hdc : ((init_global_once s).queues QId.concurrent).head = none
        ∧ ((init_global_once s).queues QId.concurrent).tail = none
        ∧ ((init_global_once s).queues QId.concurrent).vtable = some VTable.queue := by
      simp [init_global_once, hi0, _work_queue_init, Engine.setItem, Engine.setQ,
        Function.update_apply, WorkQueue.zero]
    have hdm : ((init_global_once s).queues QId.main).head = none
        ∧ ((init_global_once s).queues QId.main).tail = none
        ∧ ((init_global_once s).queues QId.main).vtable = some VTable.queue
        ∧ ((init_global_once s).queues QId.main).n_threads = 1
        ∧ ((init_global_once s).queues QId.main).width = 1 := by
      simp [init_global_once, hi0, _work_queue_init, Engine.setItem, Engine.setQ,
        Function.update_apply, WorkQueue.zero]
    have he : (init_global_once s).log = s.log ∧ (init_global_once s).ctl = s.ctl
        ∧ (init_global_once s).flags = s.flags ∧ (init_global_once s).threads = s.threads
        ∧ (init_global_once s).main_stack = s.main_stack
        ∧ (init_global_once s).initialized = true := by
      simp [init_global_once, hi0, _work_queue_init, Engine.setItem, Engine.setQ]
    obtain ⟨e1, e2, e3, e4, e5, e6⟩ := he
    have hnc : ∀ o, Ptr.ctl QId.concurrent ∉ ch o := fun o => hs.idle_not_mem _ o hic
    have hnmn : ∀ o, Ptr.ctl QId.main ∉ ch o := fun o => hs.idle_not_mem _ o him
    refine ⟨?_, ?_, ⟨fun _ => Or.inr (Or.inl rfl), fun _ _ => Or.inr (by rw [e1]),
      fun _ h => h⟩, fun p h => Place.idle_not_held (hS p h),
      fun k _ => by rw [ha (Ptr.node k) (by simp) (by simp)],
      ⟨fun _ => by rw [e4], e5, fun h => by rw [e4]; exact h, fun _ _ h => by rw [e4]; exact h,
        fun _ _ h => by rw [e4] at h; exact Or.inl h⟩⟩
    · constructor
      · intro o
        by_cases h1 : o = QId.concurrent
        · subst h1
          rw [hcc]
          exact ⟨by rw [hdc.1]; rfl, by rw [hdc.2.1]; rfl, List.nodup_nil⟩
        · by_cases h2 : o = QId.main
          · subst h2
            rw [hcm]
            exact ⟨by rw [hdm.1]; rfl, by rw [hdm.2.1]; rfl, List.nodup_nil⟩
          · rw [hc o h1 h2]
            refine (hs.wf o).congr rfl rfl ?_
            intro x hx
            rw [ha x (fun e => hnc o (e ▸ hx)) (fun e => hnmn o (e ▸ hx))]
      · exact hs.mem
      · intro k
        rw [ha _ (by simp) (by simp)]
        exact hs.node k
      · intro q0
        by_cases h1 : q0 = QId.concurrent
        · subst h1; rw [hbc]; simp [CtlOk, WorkItem.zero]
        · by_cases h2 : q0 = QId.main
          · subst h2; rw [hbm]; simp [CtlOk, WorkItem.zero]
          · rw [ha _ (by simp [h1]) (by simp [h2])]
            exact hs.ctl q0
      · intro q0 hv0
        by_cases h1 : q0 = QId.concurrent
        · subst h1; rw [hdc.2.2] at hv0; cases hv0
        · by_cases h2 : q0 = QId.main
          · subst h2; rw [hdm.2.2.1] at hv0; cases hv0
          · rw [hc q0 h1 h2] at hv0 ⊢
            exact hs.dead q0 hv0
      · exact Or.inr ⟨hdm.2.2.1, hdm.2.2.2.1, hdm.2.2.2.2⟩
      · intro k u hw
        rw [ha _ (by simp) (by simp)] at hw ⊢
        rw [e1]
        exact hs.life k u hw
      · intro h0
        rw [e6] at h0
        cases h0
      · intro q0 h1 h2 hn
        rw [ha _ (by simp [h1]) (by simp [h2])] at hn
        rw [hc q0 h1 h2]
        exact hs.fin q0 h1 h2 hn
    · have key : ∀ q0, (q0 = QId.concurrent ∨ q0 = QId.main) → (own (Ptr.ctl q0)).busy = false := by
        intro q0 h
        rcases h with h | h
        · rw [h]; exact hic
        · rw [h]; exact him
      constructor
      · intro q0 b h
        rw [e2] at h
        exact hp.r2 q0 b h
      · intro q0 b h hf
        rw [e2] at h; rw [e3] at hf
        exact hp.r3 q0 b h hf
      · intro q0 h hf
        rw [e2] at h; rw [e3] at hf
        exact hp.r4 q0 h hf
      · intro q0 h hw
        rw [e2] at h
        by_cases h1 : q0 = QId.concurrent
        · exact key q0 (Or.inl h1)
        · by_cases h2 : q0 = QId.main
          · exact key q0 (Or.inr h2)
          · rw [ha _ (by simp [h1]) (by simp [h2])] at hw
            exact hp.r5 q0 h hw
      · intro q0 h1 h2 h3 h4
        rw [e2] at h3 h4
        rw [ha _ (by simp [h1]) (by simp [h2]), hc q0 h1 h2]
        exact hp.r6 q0 h1 h2 h3 h4

theorem work_queue_add_post2 {s : Engine} {own : Ptr → Place} {ch : QId → List Ptr}
    (hs : Shape s own ch) (hp : Proto s own) (env : Env) (q : Option QId)
    (w notify cancel : Option Nat) (data : Data) (hqm : q ≠ some QId.main)
    (halloc : ∀ x, env.alloc = some x →
      own x = Place.out ∧ (∃ k, x = Ptr.node k) ∧ about s.log x = [])
    (hrun : ∀ x, env.runner = some x → (own x).busy = false ∧ ∃ k, x = Ptr.node k)
    (hne : ∀ x, env.alloc = some x → env.runner ≠ some x) (r : Int) (s5 : Engine)
    (h : work_queue_add env s q w notify cancel data = .ok (r, s5)) :
    ∃ own2 ch2, Post2 s own s5 own2 ch2 (fun p => env.runner = some p ∨ env.alloc = some p) := by
  have hS : ∀ p, (env.runner = some p ∨ env.alloc = some p) → (own p).busy = false := by
    intro p hp
    rcases hp with e | e
    · exact (hrun p e).1
    · rw [(halloc p e).1]; rfl
  simp only [work_queue_add] at h
  split at h
  · cases h
  · next w0 =>
    split at h
    · have P1 := init_global_once_post2 hs hp _ hS
      have hlog : (init_global_once s).log = s.log := by
        simp only [init_global_once]
        split
        · rfl
        · simp [_work_queue_init, Engine.setItem, Engine.setQ]
      obtain ⟨own2, ch2, P2⟩ := add_item_post2 P1.shape P1.proto env QId.concurrent false w0
        notify cancel data (by simp) (fun x hx => by rw [hlog]; exact halloc x hx) hrun hne r s5 h
      exact ⟨own2, ch2, P1.post2_seq P2⟩
    · next q0 =>
      exact add_item_post2 hs hp env q0 false w0 notify cancel data
        (fun e => hqm (by rw [e])) halloc hrun hne r s5 h

theorem work_queue_add_rewind_post2 {s : Engine} {own : Ptr → Place} {ch : QId → List Ptr}
    (hs : Shape s own ch) (hp : Proto s own) (env : Env) (q : Option QId)
    (w notify cancel : Option Nat) (data : Data)
    (halloc : ∀ x, env.alloc = some x →
      own x = Place.out ∧ (∃ k, x = Ptr.node k) ∧ about s.log x = [])
    (hrun : ∀ x, env.runner = some x → (own x).busy = false ∧ ∃ k, x = Ptr.node k)
    (hne : ∀ x, env.alloc = some x → env.runner ≠ some x) (r : Int) (s5 : Engine)
    (h : work_queue_add_rewind env s q w notify cancel data = .ok (r, s5)) :
    ∃ own2 ch2, Post2 s own s5 own2 ch2 (fun p => env.runner = some p ∨ env.alloc = some p) := by
  simp only [work_queue_add_rewind] at h
  split at h
  · cases h
  · next w0 =>
    split at h
    · cases h
    · next q0 =>
      split at h
      · cases h
      · next hc =>
        push_neg at hc
        exact add_item_post2 hs hp env q0 true w0 notify cancel data hc.2 halloc hrun hne r s5 h

theorem init_global_once_queue (s : Engine) (o : QId) (h1 : o ≠ QId.concurrent)
    (h2 : o ≠ QId.main) : (init_global_once s).queues o = s.queues o := by
  simp only [init_global_once]
  split
  · rfl
  · simp [_work_queue_init, Engine.setItem, Engine.setQ, Function.update_noteq h1,
      Function.update_noteq h2]

theorem work_queue_new_post2 {s : Engine} {own : Ptr → Place} {ch : QId → List Ptr}
    (hs : Shape s own ch) (hp : Proto s own) (n : Nat) (maxsize : Int) (s5 : Engine)
    (hv : (s.queues (QId.queue n)).vtable = none)
    (h : work_queue_new s n maxsize = .ok s5) :
    Post2 s own s5 own ch (fun _ => False) := by
  have hS : ∀ p : Ptr, False → (own p).busy = false := fun _ hf => absurd hf id
  simp only [work_queue_new] at h
  split at h
  · simp only [Except.ok.injEq] at h
    subst h
    have P1 := init_global_once_post2 hs hp _ hS
    have hv1 : ((init_global_once s).queues (QId.queue n)).vtable = none := by
      rw [init_global_once_queue s _ (by simp) (by simp)]; exact hv
    have P2 := init_queue_post2 P1.shape P1.proto (QId.queue n)
      { WorkQueue.zero with vtable := some VTable.queue, xref_cnt := 1 } hv1 (by simp) (by simp)
      rfl rfl (by simp) _ hS
    have P3 := Post2.post2_set_queue P2.shape P2.proto (QId.queue n)
      { (_work_queue_init (init_global_once s) (QId.queue n) VTable.queue).queues (QId.queue n)
          with maxsize := maxsize, width := 1 }
      rfl rfl rfl (fun _ => rfl) (fun e => by cases e) _ hS
    refine ((P1.post2_seq P2).post2_seq P3).post2_seq (Post2.post2_alike P3.shape P3.proto _ hS rfl rfl rfl rfl rfl rfl
      rfl rfl)
  · cases h

theorem work_bucket_new_post2 {s : Engine} {own : Ptr → Place} {ch : QId → List Ptr}
    (hs : Shape s own ch) (hp : Proto s own) (n : Nat) (maxsize width : Int) (s5 : Engine)
    (hv : (s.queues (QId.bucket n)).vtable = none)
    (h : work_bucket_new s n maxsize width = .ok s5) :
    Post2 s own s5 own ch (fun _ => False) := by
  have hS : ∀ p : Ptr, False → (own p).busy = false := fun _ hf => absurd hf id
  simp only [work_bucket_new] at h
  split at h
  · split at h
    · simp only [Except.ok.injEq] at h
      subst h
      have P1 := init_global_once_post2 hs hp _ hS
      have hv1 : ((init_global_once s).queues (QId.bucket n)).vtable = none := by
        rw [init_global_once_queue s _ (by simp) (by simp)]; exact hv
      have P2 := init_queue_post2 P1.shape P1.proto (QId.bucket n)
        { WorkQueue.zero with vtable := some VTable.bucket, xref_cnt := 1 } hv1 (by simp)
        (by simp) rfl rfl (by simp) _ hS
      have P3 := Post2.post2_set_queue P2.shape P2.proto (QId.bucket n)
        { (_work_queue_init (init_global_once s) (QId.bucket n) VTable.bucket).queues
            (QId.bucket n) with maxsize := maxsize, width := width }
        rfl rfl rfl (fun _ => rfl) (fun e => by cases e) _ hS
      refine ((P1.post2_seq P2).post2_seq P3).post2_seq (Post2.post2_alike P3.shape P3.proto _ hS rfl rfl rfl rfl rfl
        rfl rfl rfl)
    · cases h
  · cases h

theorem set_destroy_notify_post2 {s : Engine} {own : Ptr → Place} {ch : QId → List Ptr}
    (hs : Shape s own ch) (hp : Proto s own) (env : Env) (q : QId)
    (destroy_notify : Option Nat) (context : Data) (s5 : Engine)
    (h : work_queue_set_destroy_notify env s q destroy_notify context = .ok s5) :
    Post2 s own s5 own ch (fun _ => False) := by
  have hS : ∀ p : Ptr, False → (own p).busy = false := fun _ hf => absurd hf id
  simp only [work_queue_set_destroy_notify] at h
  split at h
  · cases h
  · next s1 href =>
    obtain ⟨P0, hx, _⟩ := ref_post2 hs hp q s1 _ hS href
    have P1 := Post2.post2_set_queue P0.shape P0.proto q
      { s1.queues q with destroy_notify := destroy_notify.map Fn.user, context := context }
      rfl rfl rfl (fun _ => rfl) (fun _ => ⟨rfl, rfl⟩) _ hS
    refine (P0.post2_seq P1).post2_seq (unref_plain_post2 P1.shape P1.proto env q s5 _ hS ?_ h)
    by_cases h1 : q = QId.concurrent
    · exact Or.inl h1
    · by_cases h2 : q = QId.main
      · exact Or.inr (Or.inl h2)
      · right; right
        obtain ⟨a, b, _⟩ := hx h1 h2
        simp only [Engine.setQ, Function.update_same]
        rw [b]
        omega

/-! ## C4: the invariants along flush and stop -/

theorem about_event_none (log : List Event) (ev : Event) (p : Ptr) (h : ev.item = none) :
    about (log ++ [ev]) p = about log p := by
  apply about_emit_ne
  intro e he
  simp only [List.mem_singleton] at he
  rw [he, h]
  simp

/-- The end of a flush or stop call: after the last `work_queue_unref` the
call returns (the flush inside a stop goes on in the stop). -/
theorem close_core {s sz s1 : Engine} {own own2 : Ptr → Place} {ch2 : QId → List Ptr}
    {S : Ptr → Prop} {q : QId} (P : PostQ sz own s1 own2 ch2 S q) (hp : Proto s own)
    (hc : sz.ctl = s.ctl) (hf : sz.flags = s.flags) (hl : sz.log = s.log)
    (hh : ∀ x, x ≠ Ptr.ctl q → sz.heap x = s.heap x) (hq : sz.queues = s.queues)
    (ht : sz.threads = s.threads) (hm : sz.main_stack = s.main_stack)
    (hidle0 : (sz.heap (Ptr.ctl q)).work = none → (own (Ptr.ctl q)).busy = false)
    (pc2 : CtlPc) (hpc : pc2 = CtlPc.idle ∨ ∃ r, pc2 = CtlPc.stop_body r)
    (ev : Event) (hev : ev.item = none) :
    Post2 s own { s1 with ctl := Function.update s1.ctl q pc2, log := s1.log ++ [ev] }
      own2 ch2 S := by
  have hsh : Shape { s1 with ctl := Function.update s1.ctl q pc2, log := s1.log ++ [ev] }
      own2 ch2 := by
    have h1 : Shape { s1 with log := s1.log ++ [ev] } own2 ch2 := by
      refine P.shape.relog _ own2 (fun _ _ => Iff.rfl) (fun q0 hv => (P.shape.dead q0 hv).1) ?_
        (fun _ h => h)
      intro k u hw
      rw [about_event_none _ _ _ hev]
      exact P.shape.life k u hw
    exact h1.shape_alike rfl (fun _ => ⟨rfl, rfl, rfl, fun _ => rfl⟩) ⟨rfl, rfl⟩ rfl rfl
  refine ⟨hsh, ?_, ⟨P.trans.drop, ?_, P.trans.acc⟩, P.grow, ?_,
    ⟨fun o => by rw [← ht]; exact P.held.items o, by rw [← hm]; exact P.held.stack,
      fun h => P.held.nomain (by rw [ht]; exact h),
      fun o pc h => P.held.mem o pc (by rw [ht]; exact h),
      fun o pc h => by rw [← ht]; exact P.held.back o pc h⟩⟩
  · have hne : ∀ q0, q0 ≠ q → Ptr.ctl q0 ≠ Ptr.ctl q := by
      intro q0 h e
      injection e with e
      exact h e
    refine hp.update_one q ?_ ?_ ?_ ?_ ?_ P.busy ?_ ?_ ?_ ?_ ?_
    · intro q0 hq0
      show Function.update s1.ctl q pc2 q0 = s.ctl q0
      rw [Function.update_noteq hq0, P.ctl, hc]
    · intro q0 _
      show s1.flags q0 = s.flags q0
      rw [P.flags, hf]
    · intro q0 hq0
      show (s1.heap (Ptr.ctl q0)).work = _
      rw [P.work q0 hq0, hh _ (hne q0 hq0)]
    · intro q0 hq0
      show (s1.heap (Ptr.ctl q0)).notify = _
      rw [P.notify q0 hq0, hh _ (hne q0 hq0)]
    · intro q0 _
      show (s1.queues q0).vtable = _
      rw [P.vtable, hq]
    · intro b e
      have e2 : pc2 = CtlPc.flush_loop b := by simpa using e
      rcases hpc with k | ⟨r, k⟩ <;> rw [k] at e2 <;> cases e2
    · intro b e
      have e2 : pc2 = CtlPc.flush_wait b := by simpa using e
      rcases hpc with k | ⟨r, k⟩ <;> rw [k] at e2 <;> cases e2
    · intro e
      have e2 : pc2 = CtlPc.stop_wait := by simpa using e
      rcases hpc with k | ⟨r, k⟩ <;> rw [k] at e2 <;> cases e2
    · intro _ hw
      have hw1 : (s1.heap (Ptr.ctl q)).work = none := hw
      rcases P.self with ⟨e1, e2⟩ | ⟨e1, _⟩
      · rw [e2]
        exact hidle0 (by rw [← payload_work e1]; exact hw1)
      · rw [e1] at hw1; cases hw1
    · intro _ _ e3 e4
      have e5 : pc2 ≠ CtlPc.idle := by simpa using e3
      have e6 : ∀ r, pc2 ≠ CtlPc.stop_body r := by simpa using e4
      rcases hpc with k | ⟨r, k⟩
      · exact absurd k e5
      · exact absurd k (e6 r)
  · intro p hb
    refine (P.trans.quiet p hb).imp id ?_
    intro e
    show about (s1.log ++ [ev]) p = about s.log p
    rw [about_event_none _ _ _ hev, e, hl]
  · intro k hk
    show payload (s1.heap (Ptr.node k)) = _
    rw [P.pay k hk, hh _ (by simp)]

theorem ctl_ne_of_ne {q0 q : QId} (h : q0 ≠ q) : Ptr.ctl q0 ≠ Ptr.ctl q := by
  intro e
  injection e with e
  exact h e

/-- Source `work_queue_flush` up to its loop: the control item, at rest,
becomes the barrier. -/
theorem flush_begin_post2 {s : Engine} {own : Ptr → Place} {ch : QId → List Ptr}
    (hs : Shape s own ch) (hp : Proto s own) (q : QId) (in_stop : Bool)
    (hpc : s.ctl q = CtlPc.idle) (s2 : Engine) (h : flush_begin s q in_stop = .ok s2) :
    Post2 s own s2 own ch (fun _ => False) := by
  have hS : ∀ p : Ptr, False → (own p).busy = false := fun _ hf => absurd hf id
  simp only [flush_begin] at h
  split at h
  · cases h
  · next hqm =>
    split at h
    · cases h
    · next s1 href =>
      obtain ⟨P0, hx, hheap, hlog, hctl, hflags⟩ := ref_post2 hs hp q s1 _ hS href
      split at h
      · next hw =>
        simp only [Except.ok.injEq] at h
        subst h
        have hidle : (own (Ptr.ctl q)).busy = false :=
          P0.proto.r5 q (Or.inl (by rw [hctl]; exact hpc)) hw
        have hni : ∀ o, own (Ptr.ctl q) ≠ Place.inq o := by
          intro o e; rw [e] at hidle; cases hidle
        have hs2 := P0.shape.set_idle (Ptr.ctl q)
          { work := some Fn.wq_barrier, data := Data.flag q, notify := some Fn.set_bool,
            cancel := (s1.heap (Ptr.ctl q)).cancel, next := (s1.heap (Ptr.ctl q)).next }
          hni (fun k e => by cases e)
          (fun q0 e => by
            injection e with e
            subst e
            simp [CtlOk])
          (fun k _ e => by cases e) (fun _ _ _ _ e => by simp at e)
        refine P0.post2_seq ⟨hs2.shape_alike rfl (fun _ => ⟨rfl, rfl, rfl, fun _ => rfl⟩) ⟨rfl, rfl⟩ rfl rfl,
          ?_, ⟨fun _ => Or.inr (Or.inl rfl), fun _ _ => Or.inr rfl, fun _ h => h⟩,
          fun _ hf => absurd hf id, ?_, ⟨fun _ => rfl, rfl, id, fun _ _ h => h, fun _ _ h => Or.inl h⟩⟩
        · refine P0.proto.update_one q ?_ (fun _ _ => rfl) ?_ ?_ (fun _ _ => rfl)
            (fun _ _ h => h) (fun _ _ => hidle) ?_ ?_ ?_ ?_
          · intro q0 hq0
            simp [Engine.setItem, Function.update_noteq hq0]
          · intro q0 hq0
            simp [Engine.setItem, Function.update_noteq (ctl_ne_of_ne hq0)]
          · intro q0 hq0
            simp [Engine.setItem, Function.update_noteq (ctl_ne_of_ne hq0)]
          · intro b e; simp at e
          · intro e; simp at e
          · intro e; simp at e
          · intro h1 h2 _ _
            refine ⟨by simp [Engine.setItem], by simp [Engine.setItem], ?_⟩
            obtain ⟨a, b, c⟩ := hx h1 h2
            have : (s1.queues q).xref_cnt > 0 := by rw [b]; omega
            exact P0.shape.live_of_xref q this
        · intro k _
          simp [Engine.setItem]
      · cases h

theorem setItem_same (s : Engine) (p : Ptr) : s.setItem p (s.heap p) = s := by
  simp [Engine.setItem]

/-- Source `work_queue_flush` after its loop. -/
theorem flush_exit_post2 {s : Engine} {own : Ptr → Place} {ch : QId → List Ptr}
    (hs : Shape s own ch) (hp : Proto s own) (env : Env) (q : QId) (in_stop : Bool) (r : Int)
    (hidle : (own (Ptr.ctl q)).busy = false)
    (hrun : ∀ x, env.runner = some x → (own x).busy = false ∧ ∃ k, x = Ptr.node k)
    (s2 : Engine) (h : flush_exit env s q in_stop r = .ok s2) :
    ∃ own2 ch2, Post2 s own s2 own2 ch2
      (fun p => env.runner = some p ∨ (p = Ptr.ctl q ∧ (own p).busy = false)) := by
  simp only [flush_exit] at h
  split at h
  · cases h
  · next s1 hun =>
    simp only [Except.ok.injEq] at h
    subst h
    have hni : ∀ o, own (Ptr.ctl q) ≠ Place.inq o := by
      intro o e; rw [e] at hidle; cases hidle
    have hsz := hs.set_idle (Ptr.ctl q) WorkItem.zero hni (fun k e => by cases e)
      (fun q0 _ => by simp [CtlOk, WorkItem.zero]) (fun k _ e => by cases e)
      (fun _ _ _ _ e => by simp [WorkItem.zero] at e)
    obtain ⟨own2, ch2, P⟩ := unref_core hsz env q (fun _ _ _ _ => hidle) (fun _ => hrun) s1 hun
    have P2 := close_core P hp rfl rfl rfl
      (fun x hx => by simp [Engine.setItem, Function.update_noteq hx]) rfl rfl rfl
      (fun _ => hidle) (if in_stop then CtlPc.stop_body r else CtlPc.idle)
      (by cases in_stop
          · exact Or.inl rfl
          · exact Or.inr ⟨r, rfl⟩)
      (Event.flush_returned q r) rfl
    refine ⟨own2, ch2, P2.post2_mono ?_ ?_⟩
    · intro p hp0
      rcases hp0 with e | e
      · exact Or.inl e.2
      · exact Or.inr e
    · intro p hp0 hn
      rcases hp0 with e | e
      · exact (hrun p e).1
      · exact e.2

/-- Label `out:` of `work_queue_stop`. -/
theorem stop_out_post2 {s : Engine} {own : Ptr → Place} {ch : QId → List Ptr}
    (hs : Shape s own ch) (hp : Proto s own) (env : Env) (q : QId) (r : Int)
    (hidle0 : (s.heap (Ptr.ctl q)).work = none → (own (Ptr.ctl q)).busy = false)
    (hrun : ∀ x, env.runner = some x → (own x).busy = false ∧ ∃ k, x = Ptr.node k)
    (s2 : Engine) (h : stop_out env s q r = .ok s2) :
    ∃ own2 ch2, Post2 s own s2 own2 ch2
      (fun p => env.runner = some p ∨ (p = Ptr.ctl q ∧ (own p).busy = false)) := by
  simp only [stop_out] at h
  split at h
  · cases h
  · next s1 hun =>
    simp only [Except.ok.injEq] at h
    subst h
    obtain ⟨own2, ch2, P⟩ := unref_core hs env q (fun _ _ _ hw => hidle0 hw) (fun _ => hrun)
      s1 hun
    have P2 := close_core P hp rfl rfl rfl (fun _ _ => rfl) rfl rfl rfl hidle0 CtlPc.idle
      (Or.inl rfl) (Event.stop_returned q r) rfl
    refine ⟨own2, ch2, P2.post2_mono ?_ ?_⟩
    · intro p hp0
      rcases hp0 with e | e
      · exact Or.inl e.2
      · exact Or.inr e
    · intro p hp0 hn
      rcases hp0 with e | e
      · exact (hrun p e).1
      · exact e.2

theorem add_unlocked_live (env : Env) (s : Engine) (q : QId) (item : Ptr) (dr : Bool) (r : Int)
    (s2 : Engine) (h : _work_queue_add_unlocked env s q item dr false = .ok (r, s2)) :
    (s.queues q).vtable ≠ none := by
  intro hv
  simp [_work_queue_add_unlocked, add_unlocked_with, prepare_executive, hv] at h

theorem Post.to2_with {s s2 : Engine} {own own2 : Ptr → Place} {ch2 : QId → List Ptr}
    {S : Ptr → Prop} (P : Post s own s2 own2 ch2 S) (hp2 : Proto s2 own2) :
    Post2 s own s2 own2 ch2 S :=
  ⟨P.shape, hp2, P.trans, fun p hp => (P.grow p hp).2, fun _ hk => P.pay _ hk, P.held⟩

/-- The control item of `q`, at rest, is linked into `q`. -/
theorem ctl_add_post {s : Engine} {own : Ptr → Place} {ch : QId → List Ptr}
    (hs : Shape s own ch) (env : Env) (q : QId) (hidle : (own (Ptr.ctl q)).busy = false)
    (hrun : ∀ x, env.runner = some x → (own x).busy = false ∧ ∃ k, x = Ptr.node k)
    (r : Int) (s1 : Engine)
    (h : _work_queue_add_unlocked env s q (Ptr.ctl q) false false = .ok (r, s1)) :
    ∃ own2 ch2, Post s own s1 own2 ch2 (fun p => env.runner = some p ∨ p = Ptr.ctl q)
      ∧ (r < 0 → own2 = own) := by
  have hv := add_unlocked_live env s q _ _ r s1 h
  have hir : env.runner ≠ some (Ptr.ctl q) := by
    intro e
    obtain ⟨_, k, hk⟩ := hrun _ e
    cases hk
  obtain ⟨own2, ch2, P, a, _⟩ := add_unlocked_post hs env q (Ptr.ctl q) false false hrun hir
    hidle (fun e => by cases e)
    (fun q0 e => by
      injection e with e
      subst e
      exact hv)
    (fun k u e => by cases e) (fun _ _ e => absurd rfl e)
    (fun q0 e hq0 => by
      injection e with e
      exact absurd e.symm hq0) r s1 h
  exact ⟨own2, ch2, P, a⟩

/-- After the control item of `q` is linked, the flush or stop call on `q`
starts to wait with its flag down. -/
theorem wait_post2 {s s1 : Engine} {own own2 : Ptr → Place} {ch2 : QId → List Ptr}
    {q : QId} {env : Env} (hp : Proto s own)
    (P : Post s own s1 own2 ch2 (fun p => env.runner = some p ∨ p = Ptr.ctl q))
    (hrun : ∀ x, env.runner = some x → (own x).busy = false ∧ ∃ k, x = Ptr.node k)
    (pc2 : CtlPc) (hpc : (∃ b, pc2 = CtlPc.flush_wait b) ∨ pc2 = CtlPc.stop_wait)
    (hk : q ≠ QId.concurrent → q ≠ QId.main →
      (s.heap (Ptr.ctl q)).work ≠ none ∧ (s.heap (Ptr.ctl q)).notify = some Fn.set_bool
        ∧ (s.queues q).vtable ≠ none) :
    Post2 s own { s1 with flags := Function.update s1.flags q false,
                          ctl := Function.update s1.ctl q pc2 } own2 ch2
      (fun p => env.runner = some p ∨ p = Ptr.ctl q) := by
  refine ⟨P.shape.shape_alike rfl (fun _ => ⟨rfl, rfl, rfl, fun _ => rfl⟩) ⟨rfl, rfl⟩ rfl rfl, ?_,
    ⟨P.trans.drop, P.trans.quiet, P.trans.acc⟩, fun p hp => (P.grow p hp).2,
    fun _ hk => P.pay _ hk, ⟨P.held.items, P.held.stack, P.held.nomain, P.held.mem, P.held.back⟩⟩
  refine hp.update_one q ?_ ?_ ?_ ?_ ?_ ?_ ?_ ?_ ?_ ?_ ?_
  · intro q0 hq0
    show Function.update s1.ctl q pc2 q0 = s.ctl q0
    rw [Function.update_noteq hq0, P.proto.ctl]
  · intro q0 hq0
    show Function.update s1.flags q false q0 = s.flags q0
    rw [Function.update_noteq hq0, P.proto.flags]
  · intro q0 _
    exact P.proto.work q0
  · intro q0 _
    exact P.proto.notify q0
  · intro q0 _
    exact P.proto.vtable q0
  · intro q0 hq0 hb
    rcases P.trans.drop (Ptr.ctl q0) with e | e
    · rcases e with e | e
      · obtain ⟨_, k, hk⟩ := hrun _ e
        cases hk
      · injection e with e
        exact absurd e hq0
    · exact e.busy hb
  · intro b e
    have e2 : pc2 = CtlPc.flush_loop b := by simpa using e
    rcases hpc with ⟨b0, k⟩ | k <;> rw [k] at e2 <;> cases e2
  · intro b _ e
    simp at e
  · intro _ e
    simp at e
  · intro e
    have e2 : pc2 = CtlPc.idle ∨ ∃ r, pc2 = CtlPc.stop_body r := by simpa using e
    rcases hpc with ⟨b0, k⟩ | k <;> rcases e2 with e2 | ⟨r, e2⟩ <;> rw [k] at e2 <;> cases e2
  · intro h1 h2 _ _
    obtain ⟨a, b, c⟩ := hk h1 h2
    refine ⟨?_, ?_, ?_⟩
    · show (s1.heap (Ptr.ctl q)).work ≠ none
      rw [P.proto.work]; exact a
    · show (s1.heap (Ptr.ctl q)).notify = _
      rw [P.proto.notify]; exact b
    · show (s1.queues q).vtable ≠ none
      rw [P.proto.vtable]; exact c

/-- One pass of the loop of `work_queue_flush`. -/
theorem flush_iter_post2 {s : Engine} {own : Ptr → Place} {ch : QId → List Ptr}
    (hs : Shape s own ch) (hp : Proto s own) (env : Env) (q : QId) (in_stop : Bool)
    (hpc : s.ctl q = CtlPc.flush_loop in_stop)
    (hrun : ∀ x, env.runner = some x → (own x).busy = false ∧ ∃ k, x = Ptr.node k)
    (s2 : Engine) (h : flush_iter env s q in_stop = .ok s2) :
    ∃ own2 ch2, Post2 s own s2 own2 ch2 (fun p => env.runner = some p ∨ p = Ptr.ctl q) := by
  have hidle := hp.r2 q in_stop hpc
  have hmono : ∀ {sa sb : Engine} {oa ob : Ptr → Place} {cb : QId → List Ptr},
      oa (Ptr.ctl q) = own (Ptr.ctl q) →
      Post2 sa oa sb ob cb
        (fun p => env.runner = some p ∨ (p = Ptr.ctl q ∧ (oa p).busy = false)) →
      Post2 sa oa sb ob cb (fun p => env.runner = some p ∨ p = Ptr.ctl q) := by
    intro sa sb oa ob cb e P
    refine P.post2_mono (fun p hp0 => hp0.imp id (fun x => x.1)) ?_
    intro p hp0 hn
    rcases hp0 with e1 | e1
    · exact absurd (Or.inl e1) hn
    · subst e1
      rw [e]; exact hidle
  simp only [flush_iter] at h
  split at h
  · obtain ⟨own2, ch2, P⟩ := flush_exit_post2 hs hp env q in_stop 0 hidle hrun s2 h
    exact ⟨own2, ch2, hmono rfl P⟩
  · split at h
    · cases h
    · next r s1 hadd =>
      obtain ⟨own1, ch1, P, hfail⟩ := ctl_add_post hs env q hidle hrun r s1 hadd
      split at h
      · next hr =>
        have e := hfail hr
        subst e
        have hp1 : Proto s1 own1 := hp.proto_transfer P.proto (fun _ hb => hb)
        obtain ⟨own2, ch2, P2⟩ := flush_exit_post2 P.shape hp1 env q in_stop r hidle hrun s2 h
        exact ⟨own2, ch2, (P.to2_with hp1).post2_seq (hmono rfl P2)⟩
      · simp only [Except.ok.injEq] at h
        subst h
        refine ⟨own1, ch1, wait_post2 hp P hrun _ (Or.inl ⟨in_stop, rfl⟩) ?_⟩
        intro h1 h2
        exact hp.r6 q h1 h2 (by rw [hpc]; intro e; cases e) (by rw [hpc]; intro r0 e; cases e)

/-- The control item of `q`, at rest while the stop call on `q` is between
its flush and its wait, is written. -/
theorem arm_post2 {s : Engine} {own : Ptr → Place} {ch : QId → List Ptr}
    (hs : Shape s own ch) (hp : Proto s own) (q : QId) (r : Int)
    (hpc : s.ctl q = CtlPc.stop_body r) (hidle : (own (Ptr.ctl q)).busy = false)
    (v : WorkItem) (hv : CtlOk q v) (hnf : v.notify ≠ some Fn.work_queue_free)
    (S : Ptr → Prop) (hS : ∀ p, S p → (own p).busy = false) :
    Post2 s own (s.setItem (Ptr.ctl q) v) own ch S := by
  have hni : ∀ o, own (Ptr.ctl q) ≠ Place.inq o := by
    intro o e; rw [e] at hidle; cases hidle
  have hs2 := hs.set_idle (Ptr.ctl q) v hni (fun k e => by cases e)
    (fun q0 e => by
      injection e with e
      subst e
      exact hv)
    (fun k _ e => by cases e) (fun _ _ _ _ e => absurd e hnf)
  refine ⟨hs2, ?_, ⟨fun _ => Or.inr (Or.inl rfl), fun _ _ => Or.inr rfl, fun _ h => h⟩,
    fun p h => Place.idle_not_held (hS p h), ?_, ⟨fun _ => rfl, rfl, id, fun _ _ h => h, fun _ _ h => Or.inl h⟩⟩
  · refine hp.update_one q (fun _ _ => rfl) (fun _ _ => rfl) ?_ ?_ (fun _ _ => rfl)
      (fun _ _ h => h) (fun _ _ => hidle) (fun _ _ _ => hidle) (fun _ _ => hidle)
      (fun _ _ => hidle) ?_
    · intro q0 hq0
      simp [Engine.setItem, Function.update_noteq (ctl_ne_of_ne hq0)]
    · intro q0 hq0
      simp [Engine.setItem, Function.update_noteq (ctl_ne_of_ne hq0)]
    · intro _ _ _ e
      exact absurd hpc (e r)
  · intro k _
    simp [Engine.setItem]

/-- Source `work_queue_stop` after its flush. -/
theorem stop_body_post2 {s : Engine} {own : Ptr → Place} {ch : QId → List Ptr}
    (hs : Shape s own ch) (hp : Proto s own) (env : Env) (q : QId) (r : Int)
    (hpc : s.ctl q = CtlPc.stop_body r)
    (hrun : ∀ x, env.runner = some x → (own x).busy = false ∧ ∃ k, x = Ptr.node k)
    (s2 : Engine) (h : stop_body env s q r = .ok s2) :
    ∃ own2 ch2, Post2 s own s2 own2 ch2
      (fun p => env.runner = some p ∨ (p = Ptr.ctl q ∧ (own p).busy = false)) := by
  have hS : ∀ p, env.runner = some p ∨ (p = Ptr.ctl q ∧ (own p).busy = false) →
      (own p).busy = false := by
    intro p hp0
    rcases hp0 with e | e
    · exact (hrun p e).1
    · exact e.2
  have hi0 := hp.r5 q (Or.inr ⟨r, hpc⟩)
  simp only [stop_body] at h
  split at h
  · exact stop_out_post2 hs hp env q r hi0 hrun s2 h
  · split at h
    · next hvq =>
      split at h
      · next hw =>
        have hidle := hi0 hw
        have P1 := arm_post2 hs hp q r hpc hidle
          { work := some Fn.wq_stop, data := Data.flag q, notify := some Fn.set_bool,
            cancel := (s.heap (Ptr.ctl q)).cancel, next := (s.heap (Ptr.ctl q)).next }
          (by simp [CtlOk]) (by simp) _ hS
        split at h
        · obtain ⟨own2, ch2, P2⟩ := stop_out_post2 P1.shape P1.proto env q r (fun _ => hidle)
            hrun s2 h
          exact ⟨own2, ch2, P1.post2_seq P2⟩
        · split at h
          · cases h
          · next r1 s3 hadd =>
            obtain ⟨own1, ch1, P, hfail⟩ := ctl_add_post P1.shape env q hidle hrun r1 s3 hadd
            have P' : Post (s.setItem (Ptr.ctl q)
                { work := some Fn.wq_stop, data := Data.flag q, notify := some Fn.set_bool,
                  cancel := (s.heap (Ptr.ctl q)).cancel, next := (s.heap (Ptr.ctl q)).next })
                own s3 own1 ch1
                (fun p => env.runner = some p ∨ (p = Ptr.ctl q ∧ (own p).busy = false)) :=
              P.post_mono (fun p hp0 => hp0.imp id (fun x => ⟨x, by rw [x]; exact hidle⟩))
                (fun p hp0 hn => hS p hp0)
            split at h
            · next hr =>
              have e := hfail hr
              subst e
              have hp1 : Proto s3 own1 := P1.proto.proto_transfer P.proto (fun _ hb => hb)
              obtain ⟨own2, ch2, P2⟩ := stop_out_post2 P.shape hp1 env q r1 (fun _ => hidle)
                hrun s2 h
              exact ⟨own2, ch2, P1.post2_seq ((P'.to2_with hp1).post2_seq P2)⟩
            · simp only [Except.ok.injEq] at h
              subst h
              have W := wait_post2 P1.proto P hrun CtlPc.stop_wait (Or.inr rfl)
                (fun _ _ => ⟨by simp [Engine.setItem], by simp [Engine.setItem],
                  by
                    show (s.queues q).vtable ≠ none
                    rw [hvq]; simp⟩)
              exact ⟨own1, ch1, P1.post2_seq (W.post2_mono
                (fun p hp0 => hp0.imp id (fun x => ⟨x, by rw [x]; exact hidle⟩))
                (fun p hp0 hn => hS p hp0))⟩
      · cases h
    · exact stop_out_post2 hs hp env q r hi0 hrun s2 h

/-! ## C4: the invariants along the execution of an item -/

/-- An item that is in no list changes its place to another place off the
lists. -/
theorem Shape.place {s : Engine} {own : Ptr → Place} {ch : QId → List Ptr}
    (hs : Shape s own ch) (p : Ptr) (X : Place) (h1 : ∀ o, own p ≠ Place.inq o)
    (h2 : ∀ o, X ≠ Place.inq o)
    (hdead : ∀ q0, p = Ptr.ctl q0 → (s.queues q0).vtable = none → X.busy = false)
    (hlife : ∀ k u, p = Ptr.node k → (s.heap p).work = some (Fn.user u) →
      Life X (s.heap p) p (about s.log p))
    (hX : X.busy = true → (own p).busy = true) :
    Shape s (Function.update own p X) ch := by
  constructor
  · exact hs.wf
  · intro o x
    by_cases hx : x = p
    · subst hx
      rw [Function.update_same]
      constructor
      · intro hm; exact absurd ((hs.mem o x).1 hm) (h1 o)
      · intro e; exact absurd e (h2 o)
    · rw [Function.update_noteq hx]
      exact hs.mem o x
  · exact hs.node
  · exact hs.ctl
  · intro q0 hv
    refine ⟨?_, (hs.dead q0 hv).2⟩
    by_cases hx : Ptr.ctl q0 = p
    · subst hx
      rw [Function.update_same]
      exact hdead q0 rfl hv
    · rw [Function.update_noteq hx]
      exact (hs.dead q0 hv).1
  · exact hs.mainq
  · intro k u hw
    by_cases hx : Ptr.node k = p
    · subst hx
      rw [Function.update_same]
      exact hlife k u rfl hw
    · rw [Function.update_noteq hx]
      exact hs.life k u hw
  · exact hs.boot
  · intro q0 a b hn
    obtain ⟨f0, f1, f2⟩ := hs.fin q0 a b hn
    refine ⟨f0, ?_, ?_⟩
    · by_cases hx : Ptr.ctl q0 = p
      · rw [hx, Function.update_same]
        intro e
        exact absurd e (h2 q0)
      · rw [Function.update_noteq hx]
        exact f1
    · by_cases hx : Ptr.ctl q0 = p
      · rw [hx, Function.update_same]
        intro hb _
        exact f2 (by rw [hx]; exact hX hb) (by rw [hx]; exact h1 q0)
      · rw [Function.update_noteq hx]
        exact f2

/-- The memory of queue `q`, whose list is empty, is zeroed. -/
theorem Shape.kill {s : Engine} {own : Ptr → Place} {ch : QId → List Ptr}
    (hs : Shape s own ch) (q : QId) (hqc : q ≠ QId.concurrent) (hqm : q ≠ QId.main)
    (hidle : (own (Ptr.ctl q)).busy = false) (hempty : ch q = []) :
    Shape ((s.setQ q WorkQueue.zero).setItem (Ptr.ctl q) WorkItem.zero)
      (fun p => if own p = Place.inq q then Place.gone else own p)
      (Function.update ch q []) := by
  have hnone : ∀ p, own p ≠ Place.inq q := by
    intro p e
    have := (hs.mem q p).2 e
    rw [hempty] at this
    cases this
  have hheap : ∀ x, x ≠ Ptr.ctl q →
      ((s.setQ q WorkQueue.zero).setItem (Ptr.ctl q) WorkItem.zero).heap x = s.heap x := by
    intro x hx
    simp [Engine.setItem, Engine.setQ, Function.update_noteq hx]
  have hqs : ∀ o, o ≠ q →
      ((s.setQ q WorkQueue.zero).setItem (Ptr.ctl q) WorkItem.zero).queues o = s.queues o := by
    intro o ho
    simp [Engine.setItem, Engine.setQ, Function.update_noteq ho]
  have hqq : ((s.setQ q WorkQueue.zero).setItem (Ptr.ctl q) WorkItem.zero).queues q
      = WorkQueue.zero := by
    simp [Engine.setItem, Engine.setQ]
  have hbusy : ∀ p, (if own p = Place.inq q then Place.gone else own p).busy = true →
      (own p).busy = true := by
    intro p hb
    split at hb
    · cases hb
    · exact hb
  constructor
  · intro o
    by_cases ho : o = q
    · subst ho
      rw [hqq, Function.update_same]
      exact ⟨rfl, rfl, List.nodup_nil⟩
    · rw [hqs o ho, Function.update_noteq ho]
      refine (hs.wf o).congr rfl rfl ?_
      intro x hx
      rw [hheap]
      intro e
      rw [e] at hx
      exact hs.idle_not_mem _ _ hidle hx
  · intro o p
    by_cases ho : o = q
    · subst ho
      rw [Function.update_same]
      constructor
      · intro hm; cases hm
      · intro e
        split at e
        · cases e
        · next hn => exact absurd e hn
    · rw [Function.update_noteq ho]
      rw [hs.mem o p]
      constructor
      · intro e
        rw [if_neg]
        · exact e
        · rw [e]; intro e2; injection e2 with e2; exact ho e2
      · intro e
        split at e
        · cases e
        · exact e
  · intro k
    rw [hheap _ (by intro e; cases e)]
    exact hs.node k
  · intro q0
    by_cases ho : q0 = q
    · subst ho
      simp [Engine.setItem, CtlOk, WorkItem.zero]
    · rw [hheap _ (ctl_ne_of_ne ho)]
      exact hs.ctl q0
  · intro q0 hv
    by_cases ho : q0 = q
    · subst ho
      rw [hqq, Function.update_same]
      refine ⟨?_, rfl, rfl⟩
      cases hb : (if own (Ptr.ctl q0) = Place.inq q0 then Place.gone
        else own (Ptr.ctl q0)).busy
      · rfl
      · rw [hbusy _ hb] at hidle
        cases hidle
    · rw [hqs q0 ho] at hv ⊢
      rw [Function.update_noteq ho]
      obtain ⟨a, b, c⟩ := hs.dead q0 hv
      refine ⟨?_, b, c⟩
      cases hb : (if own (Ptr.ctl q0) = Place.inq q then Place.gone
        else own (Ptr.ctl q0)).busy
      · rfl
      · rw [hbusy _ hb] at a
        cases a
  · rw [hqs _ (Ne.symm hqm)]
    exact hs.mainq
  · intro k u hw
    rw [hheap _ (by intro e; cases e)] at hw ⊢
    have h0 := hs.life k u hw
    show Life _ _ _ (about s.log (Ptr.node k))
    rw [if_neg (hnone _)]
    exact h0
  · intro hi
    rw [hqs _ (Ne.symm hqc), hqs _ (Ne.symm hqm)]
    exact hs.boot hi
  · intro q0 a b hn
    by_cases ho : q0 = q
    · subst ho
      simp [Engine.setItem, WorkItem.zero] at hn
    · rw [hheap _ (ctl_ne_of_ne ho)] at hn
      rw [hqs q0 ho, Function.update_noteq ho, if_neg (hnone _)]
      exact hs.fin q0 a b hn

/-- Source `_work_queue_free`, called as the notifier of the stop item that
the last `work_queue_unref` queued. -/
theorem free_post2 {s : Engine} {own : Ptr → Place} {ch : QId → List Ptr}
    (hs : Shape s own ch) (hp : Proto s own) (q : QId)
    (hidle : (own (Ptr.ctl q)).busy = false)
    (hn : (s.heap (Ptr.ctl q)).notify ≠ some Fn.set_bool)
    (hempty : q ≠ QId.concurrent → q ≠ QId.main → ch q = [])
    (s2 : Engine) (h : _work_queue_free s q = .ok s2) :
    ∃ own2 ch2, Post2 s own s2 own2 ch2 (fun p => p = Ptr.ctl q) := by
  simp only [_work_queue_free] at h
  split at h
  · cases h
  · next hq =>
    push_neg at hq
    split at h
    · cases h
    · split at h
      · cases h
      · split at h
        · cases h
        · simp only [Except.ok.injEq] at h
          have hk : s.ctl q = CtlPc.idle ∨ ∃ r, s.ctl q = CtlPc.stop_body r := by
            by_contra hc
            push_neg at hc
            exact hn (hp.r6 q hq.1 hq.2 hc.1 hc.2).2.1
          have hs1 : Shape { s with
              private_queues :=
                if (s.queues q).vtable = some VTable.queue then s.private_queues.erase q
                else s.private_queues,
              buckets := if (s.queues q).vtable = some VTable.bucket then s.buckets.erase q
                else s.buckets } own ch :=
            hs.shape_alike rfl (fun _ => ⟨rfl, rfl, rfl, fun _ => rfl⟩) ⟨rfl, rfl⟩ rfl rfl
          have hs2 := hs1.kill q hq.1 hq.2 hidle (hempty hq.1 hq.2)
          have hown : ∀ p, (own p).busy = false →
              (if own p = Place.inq q then Place.gone else own p) = own p := by
            intro p hb
            rw [if_neg]
            intro e
            rw [e] at hb
            cases hb
          have hbusy : ∀ p, (if own p = Place.inq q then Place.gone else own p).busy = true →
              (own p).busy = true := by
            intro p hb
            split at hb
            · cases hb
            · exact hb
          have hab : ∀ p : Ptr, about (s.log ++
              (match (s.queues q).destroy_notify with
               | some f => [Event.destroy f (s.queues q).context]
               | none => [])) p = about s.log p := by
            intro p
            apply about_emit_ne
            intro e he
            split at he
            · simp only [List.mem_singleton] at he
              rw [he]
              simp [Event.item]
            · cases he
          have hs3 := hs2.relog (s.log ++
              (match (s.queues q).destroy_notify with
               | some f => [Event.destroy f (s.queues q).context]
               | none => [])) _ (fun _ _ => Iff.rfl) (fun q0 hv => (hs2.dead q0 hv).1)
            (fun k u hw => by
              rw [hab]
              exact hs2.life k u hw) (fun _ h => h)
          subst h
          refine ⟨_, _, hs3, ?_, ⟨?_, fun p _ => Or.inr (hab p), ?_⟩, ?_, ?_,
            ⟨fun _ => rfl, rfl, id, fun _ _ h => h, fun _ _ h => Or.inl h⟩⟩
          · refine hp.update_one q (fun _ _ => rfl) (fun _ _ => rfl) ?_ ?_ ?_
              (fun q0 _ hb => hbusy _ hb) ?_ ?_ ?_ ?_ ?_
            · intro q0 hq0
              simp [Engine.setItem, Engine.setQ, Function.update_noteq (ctl_ne_of_ne hq0)]
            · intro q0 hq0
              simp [Engine.setItem, Engine.setQ, Function.update_noteq (ctl_ne_of_ne hq0)]
            · intro q0 hq0
              simp [Engine.setItem, Engine.setQ, Function.update_noteq hq0]
            · intro _ _
              show (if own (Ptr.ctl q) = Place.inq q then Place.gone
                else own (Ptr.ctl q)).busy = false
              rw [hown _ hidle]; exact hidle
            · intro _ _ _
              show (if own (Ptr.ctl q) = Place.inq q then Place.gone
                else own (Ptr.ctl q)).busy = false
              rw [hown _ hidle]; exact hidle
            · intro _ _
              show (if own (Ptr.ctl q) = Place.inq q then Place.gone
                else own (Ptr.ctl q)).busy = false
              rw [hown _ hidle]; exact hidle
            · intro _ _
              show (if own (Ptr.ctl q) = Place.inq q then Place.gone
                else own (Ptr.ctl q)).busy = false
              rw [hown _ hidle]; exact hidle
            · intro _ _ e3 e4
              have e3' : s.ctl q ≠ CtlPc.idle := e3
              have e4' : ∀ r, s.ctl q ≠ CtlPc.stop_body r := e4
              rcases hk with k | ⟨r, k⟩
              · exact absurd k e3'
              · exact absurd k (e4' r)
          · intro p
            right
            by_cases e : own p = Place.inq q
            · right
              exact ⟨by simp [e], q, hq.2, e⟩
            · left
              simp [e]
          · intro p hne
            show (if own p = Place.inq q then Place.gone else own p) ≠ Place.out
            split
            · intro e; cases e
            · exact hne
          · intro p hp0
            subst hp0
            show (∀ o, (if own (Ptr.ctl q) = Place.inq q then Place.gone
                else own (Ptr.ctl q)) ≠ Place.thr o)
              ∧ (if own (Ptr.ctl q) = Place.inq q then Place.gone
                else own (Ptr.ctl q)) ≠ Place.mstack
            rw [hown _ hidle]
            exact Place.idle_not_held hidle
          · intro k _
            simp [Engine.setItem, Engine.setQ]

theorem call_fn_other (s : Engine) (f : Fn) (d : Data) (h1 : f ≠ Fn.set_bool)
    (h2 : f ≠ Fn.work_queue_free) : call_fn s f d = .ok s := by
  unfold call_fn
  split
  · exact absurd rfl h1
  · exact absurd rfl h2
  · rfl

/-- The call at hand takes an item from the thread that held it. -/
theorem place_post2 {s : Engine} {own : Ptr → Place} {ch : QId → List Ptr}
    (hs : Shape s own ch) (hp : Proto s own) (item : Ptr)
    (hhold : (∃ o, own item = Place.thr o) ∨ own item = Place.mstack)
    (hlife : ∀ k u, item = Ptr.node k → (s.heap item).work = some (Fn.user u) →
      Life Place.gone (s.heap item) item (about s.log item)) :
    Post2 s own s (Function.update own item Place.gone) ch (fun p => p = item) := by
  have hni : ∀ o, own item ≠ Place.inq o := by
    intro o e
    rcases hhold with ⟨o2, e2⟩ | e2 <;> rw [e2] at e <;> cases e
  have hb : ∀ p, (Function.update own item Place.gone p).busy = true → (own p).busy = true := by
    intro p h
    by_cases e : p = item
    · subst e
      rw [Function.update_same] at h
      cases h
    · rw [Function.update_noteq e] at h
      exact h
  refine ⟨hs.place item Place.gone hni (fun o e => by cases e) (fun _ _ _ => rfl) hlife
      (fun e => by cases e),
    hp.proto_transfer (ProtoSame.proto_same_refl s) (fun q h => hb _ h), ⟨?_, fun _ _ => Or.inr rfl, ?_⟩, ?_,
    fun _ _ => rfl, HeldSame.held_same_refl s⟩
  · intro p
    by_cases e : p = item
    · exact Or.inl e
    · exact Or.inr (Or.inl (Function.update_noteq e _ _))
  · intro p hne
    by_cases e : p = item
    · subst e
      rw [Function.update_same]
      intro e2; cases e2
    · rw [Function.update_noteq e]
      exact hne
  · intro p e
    subst e
    rw [Function.update_same]
    exact ⟨fun o e => (by cases e), fun e => (by cases e)⟩

/-- Events about an item in the hands of the call at hand are logged. -/
theorem emit_post2 {s : Engine} {own : Ptr → Place} {ch : QId → List Ptr}
    (hs : Shape s own ch) (hp : Proto s own) (item : Ptr) (evs : List Event)
    (hev : ∀ e ∈ evs, e.item = some item)
    (hheld : (∀ o, own item ≠ Place.thr o) ∧ own item ≠ Place.mstack)
    (hlife : ∀ k u, item = Ptr.node k → (s.heap item).work = some (Fn.user u) →
      Life (own item) (s.heap item) item (about s.log item ++ evs)) :
    Post2 s own { s with log := s.log ++ evs } own ch (fun p => p = item) := by
  have hab : ∀ p, p ≠ item → about (s.log ++ evs) p = about s.log p := by
    intro p hne
    apply about_emit_ne
    intro e he
    rw [hev e he]
    intro e2
    injection e2 with e2
    exact hne e2.symm
  have hsh : Shape { s with log := s.log ++ evs } own ch := by
    refine hs.relog _ own (fun _ _ => Iff.rfl) (fun q0 hv => (hs.dead q0 hv).1) ?_
      (fun _ h => h)
    intro k u hw
    by_cases e : Ptr.node k = item
    · rw [e] at hw ⊢
      rw [about_append, about_of_eq evs item hev]
      exact hlife k u e.symm hw
    · rw [hab _ e]
      exact hs.life k u hw
  refine ⟨hsh, hp.proto_transfer ⟨rfl, rfl, fun _ => rfl, fun _ => rfl, fun _ => rfl⟩ (fun _ h => h),
    ⟨fun _ => Or.inr (Or.inl rfl), ?_, fun _ h => h⟩, ?_, fun _ _ => rfl, ⟨fun _ => rfl, rfl, id, fun _ _ h => h, fun _ _ h => Or.inl h⟩⟩
  · intro p _
    by_cases e : p = item
    · exact Or.inl e
    · exact Or.inr (hab p e)
  · intro p e
    subst e
    exact hheld

theorem hist_run_no_notify (it : WorkItem) (p : Ptr) (h : it.notify = none) :
    hist_run it p = hist_work it p ++ [Event.free p] := by
  simp [hist_run, h]

/-- Source `work_item_execute (item, false)` after the work of the item has
returned. -/
theorem finish_post2 {s : Engine} {own own0 : Ptr → Place} {ch : QId → List Ptr}
    (hs : Shape s own ch) (hp0 : Proto s own0) (env : Env) (item : Ptr) (need_free : Bool)
    (hb0 : ∀ q, (own (Ptr.ctl q)).busy = true → (own0 (Ptr.ctl q)).busy = true)
    (hb1 : ∀ q, item = Ptr.ctl q → (own0 (Ptr.ctl q)).busy = true)
    (hown : own item = Place.gone)
    (hrun : ∀ x, env.runner = some x → (own x).busy = false ∧ ∃ k, x = Ptr.node k)
    (hir : env.runner ≠ some item)
    (hctl : ∀ q0, item = Ptr.ctl q0 → (s.queues q0).vtable ≠ none)
    (huser : ∀ k u, item = Ptr.node k → (s.heap item).work = some (Fn.user u) →
      about s.log item = hist_work (s.heap item) item ∧ need_free = true)
    (hfwd : ∀ q0, item = Ptr.ctl q0 → q0 ≠ QId.concurrent → q0 ≠ QId.main →
      (s.heap (Ptr.ctl q0)).notify = some Fn.work_queue_free → ∀ p, own p ≠ Place.inq q0)
    (s2 : Engine) (h : work_item_finish env s item need_free = .ok s2) :
    ∃ own2 ch2, Post2 s own s2 own2 ch2 (fun p => env.runner = some p ∨ p = item) := by
  have hidle : (own item).busy = false := by rw [hown]; rfl
  simp only [work_item_finish] at h
  split at h
  · next hn =>
    split at h
    · cases h
    · next r s1 hadd =>
      split at h
      · simp only [Except.ok.injEq] at h
        subst h
        obtain ⟨own2, ch2, P, _, _, _, _⟩ := add_unlocked_post hs env QId.main item false false
          hrun hir hidle (fun e => by cases e) hctl
          (fun k u e hw => by
            simp only [Life, if_true]
            refine ⟨(huser k u e hw).1, ?_⟩
            intro e2
            rw [e2] at hn
            cases hn)
          (fun _ e => absurd rfl e) (fun q0 e _ h1 h2 hn0 => hfwd q0 e h1 h2 hn0)
          r s1 hadd
        refine ⟨own2, ch2, P.to2_with (hp0.proto_transfer P.proto ?_)⟩
        intro q hb
        by_cases e : item = Ptr.ctl q
        · exact hb1 q e
        · rcases P.trans.drop (Ptr.ctl q) with e2 | e2
          · rcases e2 with e2 | e2
            · obtain ⟨_, k, hk⟩ := hrun _ e2
              cases hk
            · exact absurd e2.symm e
          · exact hb0 q (e2.busy hb)
      · cases h
  · next hn =>
    simp only [Except.ok.injEq] at h
    subst h
    have hnn : (s.heap item).notify = none := by
      cases hx : (s.heap item).notify
      · rfl
      · rw [hx] at hn
        exact absurd rfl hn
    have hp1 : Proto s own := hp0.proto_transfer (ProtoSame.proto_same_refl s) hb0
    have P := emit_post2 hs hp1 item (if need_free = true then [Event.free item] else [])
      (by
        intro e he
        split at he
        · simp only [List.mem_singleton] at he
          rw [he]; rfl
        · cases he)
      (by rw [hown]; exact ⟨fun o e => (by cases e), fun e => (by cases e)⟩)
      (by
        intro k u e hw
        obtain ⟨a, b⟩ := huser k u e hw
        rw [a, b, if_pos rfl, hown]
        left
        exact (hist_run_no_notify _ _ hnn).symm)
    exact ⟨own, ch, P.post2_mono (fun p e => Or.inr e) (fun p hp0 hn => by
      rcases hp0 with e | e
      · exact (hrun p e).1
      · exact absurd e hn)⟩

theorem Post2.weaken {s s2 : Engine} {own own2 : Ptr → Place} {ch2 : QId → List Ptr}
    {S T : Ptr → Prop} (h : Post2 s own s2 own2 ch2 S) (hst : ∀ p, S p → T p)
    (hts : ∀ p, T p → S p) : Post2 s own s2 own2 ch2 T :=
  h.post2_mono hst (fun p ht hn => absurd (hts p ht) hn)

/-- The flag of the flush or stop call on `q` is raised while the control item
of `q` is at rest. -/
theorem flag_post2 {s : Engine} {own : Ptr → Place} {ch : QId → List Ptr}
    (hs : Shape s own ch) (hp : Proto s own) (q : QId)
    (hidle : (own (Ptr.ctl q)).busy = false) (S : Ptr → Prop)
    (hS : ∀ p, S p → (∀ o, own p ≠ Place.thr o) ∧ own p ≠ Place.mstack) :
    Post2 s own { s with flags := Function.update s.flags q true } own ch S := by
  refine ⟨hs.shape_alike rfl (fun _ => ⟨rfl, rfl, rfl, fun _ => rfl⟩) ⟨rfl, rfl⟩ rfl rfl, ?_,
    ⟨fun _ => Or.inr (Or.inl rfl), fun _ _ => Or.inr rfl, fun _ h => h⟩, hS, fun _ _ => rfl,
    ⟨fun _ => rfl, rfl, id, fun _ _ h => h, fun _ _ h => Or.inl h⟩⟩
  refine hp.update_one q (fun _ _ => rfl) ?_ (fun _ _ => rfl) (fun _ _ => rfl) (fun _ _ => rfl)
    (fun _ _ h => h) (fun _ _ => hidle) (fun _ _ _ => hidle) (fun _ _ => hidle)
    (fun _ _ => hidle) ?_
  · intro q0 hq0
    show Function.update s.flags q true q0 = s.flags q0
    rw [Function.update_noteq hq0]
  · intro h1 h2 h3 h4
    exact hp.r6 q h1 h2 h3 h4

theorem user_not_static (it : WorkItem) (u : Nat) (h : it.work = some (Fn.user u)) :
    work_item_is_static it = false := by
  simp [work_item_is_static, work_item_is_stop, work_item_is_barrier, h]

theorem hist_run_notify (it : WorkItem) (p : Ptr) (f : Fn) (h : it.notify = some f) :
    hist_run it p = hist_work it p ++ ([Event.notify f it.data p] ++ [Event.free p]) := by
  simp [hist_run, h]

theorem hist_work_some (it : WorkItem) (p : Ptr) (f : Fn) (h : it.work = some f) :
    hist_work it p = [Event.work f it.data p] := by
  simp [hist_work, h]

/-- Source `work_item_execute` on an item of the engine itself (a control item
or a runner item) that a thread holds. -/
theorem execute_engine_post2 {s : Engine} {own : Ptr → Place} {ch : QId → List Ptr}
    (hs : Shape s own ch) (hp : Proto s own) (env : Env) (item : Ptr) (do_notify : Bool)
    (hhold : (∃ o, own item = Place.thr o) ∨ own item = Place.mstack)
    (hrun : ∀ x, env.runner = some x → (own x).busy = false ∧ ∃ k, x = Ptr.node k)
    (hnu : ∀ k u, item = Ptr.node k → (s.heap item).work ≠ some (Fn.user u))
    (s2 : Engine) (h : work_item_execute env s item do_notify = .ok s2) :
    ∃ own2 ch2, Post2 s own s2 own2 ch2 (fun p => p = item ∨ env.runner = some p) := by
  have hbusy : (own item).busy = true := by
    rcases hhold with ⟨o, e⟩ | e <;> rw [e] <;> rfl
  have hir : env.runner ≠ some item := by
    intro e
    rw [(hrun _ e).1] at hbusy
    cases hbusy
  have hctl : ∀ q0, item = Ptr.ctl q0 → (s.queues q0).vtable ≠ none := by
    intro q0 e hv
    rw [e, (hs.dead q0 hv).1] at hbusy
    cases hbusy
  have hne : ∀ o, own item ≠ Place.inq o := by
    intro o e
    rcases hhold with ⟨o2, e2⟩ | e2 <;> rw [e2] at e <;> cases e
  have P0 := place_post2 hs hp item hhold (fun k u e hw => absurd hw (hnu k u e))
  have hown : Function.update own item Place.gone item = Place.gone := Function.update_same _ _ _
  have hheld : (∀ o, Function.update own item Place.gone item ≠ Place.thr o)
      ∧ Function.update own item Place.gone item ≠ Place.mstack := by
    rw [hown]
    exact ⟨fun o e => (by cases e), fun e => (by cases e)⟩
  have hfin : ∀ {sb : Engine} {ob : Ptr → Place} {cb : QId → List Ptr},
      Post2 s (Function.update own item Place.gone) sb ob cb (fun p => p = item) →
      ∃ own2 ch2, Post2 s own sb own2 ch2 (fun p => p = item ∨ env.runner = some p) := by
    intro sb ob cb P
    exact ⟨ob, cb, ((P0.post2_seq P).post2_mono (fun p e => Or.inl e) (fun p hp0 hn => by
      rcases hp0 with e | e
      · exact absurd e hn
      · exact (hrun p e).1))⟩
  have hok : (∀ k, item = Ptr.node k → NodeOk (s.heap item))
      ∧ (∀ q, item = Ptr.ctl q → CtlOk q (s.heap item)) :=
    ⟨fun k e => by rw [e]; exact hs.node k, fun q e => by rw [e]; exact hs.ctl q⟩
  simp only [work_item_execute] at h
  split at h
  · next hdn =>
    have hdn' : do_notify = true := hdn
    split at h
    · cases h
    · next f hf =>
      split at h
      · cases h
      · next s1 hcall =>
        simp only [Except.ok.injEq] at h
        subst h
        by_cases hsb : f = Fn.set_bool
        · subst hsb
          cases item with
          | node k => exact absurd hf (hok.1 k rfl).2.2.1
          | ctl q =>
            have hd := (hok.2 q rfl).2.2.2.1 hf
            rw [hd] at hcall
            simp only [call_fn, Except.ok.injEq] at hcall
            subst hcall
            have P1 := emit_post2 P0.shape P0.proto (Ptr.ctl q)
              [Event.notify Fn.set_bool (Data.flag q) (Ptr.ctl q)]
              (by intro e he; simp only [List.mem_singleton] at he; rw [he]; rfl) hheld
              (fun k u e => by cases e)
            have P2 := flag_post2 P1.shape P1.proto q (by rw [hown]; rfl)
              (fun p => p = Ptr.ctl q) (fun p e => by rw [e]; exact hheld)
            have P3 := emit_post2 P2.shape P2.proto (Ptr.ctl q)
              (if (!work_item_is_static (s.heap (Ptr.ctl q))) = true
                then [Event.free (Ptr.ctl q)] else [])
              (by
                intro e he
                split at he
                · simp only [List.mem_singleton] at he
                  rw [he]; rfl
                · cases he)
              hheld (fun k u e => by cases e)
            exact hfin ((P1.post2_seq P2).post2_seq P3)
        · by_cases hwf : f = Fn.work_queue_free
          · subst hwf
            cases item with
            | node k => exact absurd hf (hok.1 k rfl).2.2.2.1
            | ctl q =>
              have hd := (hok.2 q rfl).2.2.1 hf
              rw [hd] at hcall
              simp only [call_fn] at hcall
              have P1 := emit_post2 P0.shape P0.proto (Ptr.ctl q)
                [Event.notify Fn.work_queue_free (Data.queue q) (Ptr.ctl q)]
                (by intro e he; simp only [List.mem_singleton] at he; rw [he]; rfl) hheld
                (fun k u e => by cases e)
              obtain ⟨own2, ch2, P2⟩ := free_post2 P1.shape P1.proto q (by rw [hown]; rfl)
                (by
                  show (s.heap (Ptr.ctl q)).notify ≠ some Fn.set_bool
                  rw [hf]
                  intro e; cases e)
                (fun h1 h2 => (hs.fin q h1 h2 hf).2.2 hbusy (hne q))
                s1 hcall
              have P3 := emit_post2 P2.shape P2.proto (Ptr.ctl q)
                (if (!work_item_is_static (s.heap (Ptr.ctl q))) = true
                  then [Event.free (Ptr.ctl q)] else [])
                (by
                  intro e he
                  split at he
                  · simp only [List.mem_singleton] at he
                    rw [he]; rfl
                  · cases he)
                (P2.grow _ rfl) (fun k u e => by cases e)
              exact hfin ((P1.post2_seq P2).post2_seq P3)
          · rw [call_fn_other _ _ _ hsb hwf] at hcall
            simp only [Except.ok.injEq] at hcall
            subst hcall
            have P1 := emit_post2 P0.shape P0.proto item
              ([Event.notify f (s.heap item).data item]
                ++ (if (!work_item_is_static (s.heap item)) = true
                  then [Event.free item] else []))
              (by
                intro e he
                simp only [List.mem_append, List.mem_singleton] at he
                rcases he with he | he
                · rw [he]; rfl
                · split at he
                  · simp only [List.mem_singleton] at he
                    rw [he]; rfl
                  · cases he)
              hheld (fun k u e hw => absurd hw (hnu k u e))
            have e : ({ s.emit (Event.notify f (s.heap item).data item) with
                log := (s.emit (Event.notify f (s.heap item).data item)).log
                  ++ (if (!work_item_is_static (s.heap item)) = true
                    then [Event.free item] else []) } : Engine)
                = { s with log := s.log ++ ([Event.notify f (s.heap item).data item]
                  ++ (if (!work_item_is_static (s.heap item)) = true
                    then [Event.free item] else [])) } := by
              simp [Engine.emit, List.append_assoc]
            rw [e]
            exact hfin P1
  · next hdn =>
    have hdn' : do_notify = false := by
      cases do_notify
      · rfl
      · exact absurd rfl hdn
    split at h
    · cases h
    · next f hf =>
      have hf1 : f ≠ Fn.set_bool := by
        cases item with
        | node k => intro e; rw [e] at hf; exact (hok.1 k rfl).1 hf
        | ctl q => intro e; rw [e] at hf; exact (hok.2 q rfl).1 hf
      have hf2 : f ≠ Fn.work_queue_free := by
        cases item with
        | node k => intro e; rw [e] at hf; exact (hok.1 k rfl).2.1 hf
        | ctl q => intro e; rw [e] at hf; exact (hok.2 q rfl).2.1 hf
      rw [call_fn_other _ _ _ hf1 hf2] at h
      simp only at h
      have P1 := emit_post2 P0.shape P0.proto item [Event.work f (s.heap item).data item]
        (by intro e he; simp only [List.mem_singleton] at he; rw [he]; rfl) hheld
        (fun k u e hw => absurd hw (hnu k u e))
      obtain ⟨own2, ch2, P2⟩ := finish_post2 P1.shape
        (hp.proto_transfer ⟨rfl, rfl, fun _ => rfl, fun _ => rfl, fun _ => rfl⟩ (fun _ hb => hb))
        env item (!work_item_is_static (s.heap item))
        (fun q hb => by
          by_cases e : Ptr.ctl q = item
          · rw [e]; exact hbusy
          · rw [Function.update_noteq e] at hb
            exact hb)
        (fun q e => by rw [← e]; exact hbusy)
        hown
        (fun x e => ⟨by
          have := (hrun x e).1
          by_cases e2 : x = item
          · rw [e2, hown]; rfl
          · rw [Function.update_noteq e2]; exact this, (hrun x e).2⟩)
        hir hctl (fun k u e hw => absurd hw (hnu k u e))
        (fun q0 e h1 h2 hn0 x e2 => by
          have hc := (hs.fin q0 h1 h2 hn0).2.2 (by rw [← e]; exact hbusy)
            (by rw [← e]; exact hne q0)
          by_cases e3 : x = item
          · rw [e3, hown] at e2
            cases e2
          · rw [Function.update_noteq e3] at e2
            have := (hs.mem q0 x).2 e2
            rw [hc] at this
            cases this)
        s2 h
      exact ⟨own2, ch2, (((P0.post2_seq P1).then P2).weaken
        (fun p hp0 => by
          rcases hp0 with e | e | e
          · exact Or.inl e
          · exact Or.inr e
          · exact Or.inl e)
        (fun p hp0 => by
          rcases hp0 with e | e
          · exact Or.inl e
          · exact Or.inr (Or.inl e)))⟩

/-- A user item that a thread holds is let go of: the events `evs`, which end
its life, are logged. -/
theorem retire_post2 {s : Engine} {own : Ptr → Place} {ch : QId → List Ptr}
    (hs : Shape s own ch) (hp : Proto s own) (item : Ptr)
    (hhold : (∃ o, own item = Place.thr o) ∨ own item = Place.mstack)
    (evs : List Event) (hev : ∀ e ∈ evs, e.item = some item)
    (hlife : ∀ k u, item = Ptr.node k → (s.heap item).work = some (Fn.user u) →
      Life Place.gone (s.heap item) item (about s.log item ++ evs)) :
    Post2 s own { s with log := s.log ++ evs } (Function.update own item Place.gone) ch
      (fun p => p = item) := by
  have hni : ∀ o, own item ≠ Place.inq o := by
    intro o e
    rcases hhold with ⟨o2, e2⟩ | e2 <;> rw [e2] at e <;> cases e
  have hb : ∀ p, (Function.update own item Place.gone p).busy = true → (own p).busy = true := by
    intro p h
    by_cases e : p = item
    · subst e
      rw [Function.update_same] at h
      cases h
    · rw [Function.update_noteq e] at h
      exact h
  have hab : ∀ p, p ≠ item → about (s.log ++ evs) p = about s.log p := by
    intro p hne
    apply about_emit_ne
    intro e he
    rw [hev e he]
    intro e2
    injection e2 with e2
    exact hne e2.symm
  have hsh : Shape { s with log := s.log ++ evs } (Function.update own item Place.gone) ch := by
    refine hs.relog _ _ ?_ ?_ ?_ (fun q h => hb _ h)
    · intro p o
      by_cases e : p = item
      · subst e
        rw [Function.update_same]
        constructor
        · intro e2; cases e2
        · intro e2; exact absurd e2 (hni o)
      · rw [Function.update_noteq e]
    · intro q0 hv
      cases hc : (Function.update own item Place.gone (Ptr.ctl q0)).busy
      · rfl
      · have := hb _ hc
        rw [(hs.dead q0 hv).1] at this
        cases this
    · intro k u hw
      by_cases e : Ptr.node k = item
      · rw [e] at hw ⊢
        rw [Function.update_same, about_append, about_of_eq evs item hev]
        exact hlife k u e.symm hw
      · rw [Function.update_noteq e, hab _ e]
        exact hs.life k u hw
  refine ⟨hsh, hp.proto_transfer ⟨rfl, rfl, fun _ => rfl, fun _ => rfl, fun _ => rfl⟩
      (fun q h => hb _ h), ⟨?_, ?_, ?_⟩, ?_, fun _ _ => rfl,
    ⟨fun _ => rfl, rfl, id, fun _ _ h => h, fun _ _ h => Or.inl h⟩⟩
  · intro p
    by_cases e : p = item
    · exact Or.inl e
    · exact Or.inr (Or.inl (Function.update_noteq e _ _))
  · intro p _
    by_cases e : p = item
    · exact Or.inl e
    · exact Or.inr (hab p e)
  · intro p hne
    by_cases e : p = item
    · subst e
      rw [Function.update_same]
      intro e2; cases e2
    · rw [Function.update_noteq e]
      exact hne
  · intro p e
    subst e
    rw [Function.update_same]
    exact ⟨fun o e => (by cases e), fun e => (by cases e)⟩

/-- On the live main queue, `_work_queue_add` without a size limit links the
item and returns 0: the main queue never asks for a thread. -/
theorem add_main_eq (env : Env) (s : Engine) (item : Ptr)
    (hv : (s.queues QId.main).vtable = some VTable.queue)
    (hn : (s.queues QId.main).n_threads = 1) (hw : (s.queues QId.main).width = 1) :
    _work_queue_add env s QId.main item false false
      = .ok (0, { s with
          heap := (_work_queue_add_tail_unlocked s.heap (s.queues QId.main) item).1,
          queues := Function.update s.queues QId.main
            (_work_queue_add_tail_unlocked s.heap (s.queues QId.main) item).2 }) := by
  simp [_work_queue_add, _work_queue_add_unlocked, add_unlocked_with, prepare_executive, hv,
    prepare_executive_queue, _more_thread_unlocked, hn, hw]

/-- A worker has run the work of a user item that has a notifier: the call of
the work is logged and the item is linked in the main queue. -/
theorem Shape.forward {s : Engine} {own : Ptr → Place} {ch : QId → List Ptr}
    (hs : Shape s own ch) (k : Nat) (ev : Event) (hev : ev.item = some (Ptr.node k))
    (hni : ∀ o, own (Ptr.node k) ≠ Place.inq o)
    (hv : (s.queues QId.main).vtable ≠ none)
    (hlife : ∀ u, (s.heap (Ptr.node k)).work = some (Fn.user u) →
      Life (Place.inq QId.main) (s.heap (Ptr.node k)) (Ptr.node k)
        (about (s.log ++ [ev]) (Ptr.node k))) :
    Shape { s with
        heap := (_work_queue_add_tail_unlocked s.heap (s.queues QId.main) (Ptr.node k)).1,
        queues := Function.update s.queues QId.main
          (_work_queue_add_tail_unlocked s.heap (s.queues QId.main) (Ptr.node k)).2,
        log := s.log ++ [ev] }
      (Function.update own (Ptr.node k) (Place.inq QId.main))
      (Function.update ch QId.main (ch QId.main ++ [Ptr.node k])) := by
  have hnm : ∀ o, Ptr.node k ∉ ch o := fun o => hs.not_mem _ o (hni o)
  have hab : ∀ p, p ≠ Ptr.node k → about (s.log ++ [ev]) p = about s.log p := by
    intro p hne
    apply about_emit_ne
    intro e he
    simp only [List.mem_singleton] at he
    rw [he, hev]
    intro e2
    injection e2 with e2
    exact hne e2.symm
  obtain ⟨hd, hQ⟩ := add_tail_fields s.heap (s.queues QId.main) (Ptr.node k)
  refine hs.relist QId.main _ _ (ch QId.main ++ [Ptr.node k]) _ (s.log ++ [ev])
    (WF_add_tail _ _ _ _ (hs.wf QId.main) (hnm QId.main))
    ?_ (fun x => add_tail_payload _ _ _ x) (by rw [hQ]; exact ⟨rfl, rfl, rfl, rfl⟩) ?_ ?_ ?_ ?_
  · intro o x hoq hx
    rw [add_tail_frame]
    · intro e; exact hnm o (e ▸ hx)
    · intro e
      have h1 := (hs.mem QId.main x).1 ((hs.wf QId.main).tail_mem x e)
      have h2 := (hs.mem o x).1 hx
      rw [h1] at h2
      injection h2 with h2
      exact hoq h2.symm
  · intro o p
    by_cases hpi : p = Ptr.node k
    · subst hpi
      by_cases hoq : o = QId.main
      · subst hoq; simp
      · simp only [Function.update_noteq hoq, Function.update_same]
        constructor
        · intro hm; exact absurd hm (hnm o)
        · intro e; injection e with e; exact absurd e.symm hoq
    · by_cases hoq : o = QId.main
      · subst hoq
        simp only [Function.update_same, Function.update_noteq hpi, List.mem_append,
          List.mem_singleton, hpi, or_false]
        exact hs.mem _ p
      · simp only [Function.update_noteq hoq, Function.update_noteq hpi]
        exact hs.mem o p
  · intro q0 hv0
    refine ⟨?_, fun e => absurd (e ▸ hv0) hv⟩
    rw [Function.update_noteq (by intro e; cases e)]
    exact (hs.dead q0 hv0).1
  · intro k2 u hw
    by_cases hpi : Ptr.node k2 = Ptr.node k
    · rw [hpi, Function.update_same]
      rw [hpi] at hw
      exact hlife u hw
    · rw [Function.update_noteq hpi, hab _ hpi]
      exact hs.life k2 u hw
  · intro q0 h1 h2 hn
    rw [Function.update_noteq (by intro e; cases e), Function.update_noteq h2]
    exact (hs.fin q0 h1 h2 hn).2

/-- Source `work_item_execute` on a user item that a thread holds: the worker
runs its work and forwards it to the main queue, or frees it when it has no
notifier; the main thread runs its notifier and frees it. -/
theorem execute_user_post2 {s : Engine} {own : Ptr → Place} {ch : QId → List Ptr}
    (hs : Shape s own ch) (hp : Proto s own) (env : Env) (k u : Nat) (do_notify : Bool)
    (hhold : (∃ o, own (Ptr.node k) = Place.thr o) ∨ own (Ptr.node k) = Place.mstack)
    (hw : (s.heap (Ptr.node k)).work = some (Fn.user u))
    (huser : do_notify = true ↔ own (Ptr.node k) = Place.mstack)
    (s2 : Engine) (h : work_item_execute env s (Ptr.node k) do_notify = .ok s2) :
    ∃ own2 ch2, Post2 s own s2 own2 ch2 (fun p => p = Ptr.node k) := by
  have hok := hs.node k
  have hl := hs.life k u hw
  have hst := user_not_static _ u hw
  have hni : ∀ o, own (Ptr.node k) ≠ Place.inq o := by
    intro o e
    rcases hhold with ⟨o2, e2⟩ | e2 <;> rw [e2] at e <;> cases e
  simp only [work_item_execute, hst, Bool.not_false] at h
  cases do_notify with
  | true =>
    have hm : own (Ptr.node k) = Place.mstack := huser.1 rfl
    rw [hm] at hl
    simp only [Life] at hl
    simp only [if_true] at h
    split at h
    · cases h
    · next f hf =>
      have hf1 : f ≠ Fn.set_bool := fun e => hok.2.2.1 (by rw [hf, e])
      have hf2 : f ≠ Fn.work_queue_free := fun e => hok.2.2.2.1 (by rw [hf, e])
      rw [call_fn_other _ _ _ hf1 hf2] at h
      simp only [Except.ok.injEq] at h
      subst h
      have P := retire_post2 hs hp (Ptr.node k) hhold
        ([Event.notify f (s.heap (Ptr.node k)).data (Ptr.node k)] ++ [Event.free (Ptr.node k)])
        (by
          intro e he
          simp only [List.mem_append, List.mem_singleton] at he
          rcases he with he | he <;> rw [he] <;> rfl)
        (fun _ _ _ _ => by
          simp only [Life]
          left
          rw [hl.1]
          exact (hist_run_notify _ _ f hf).symm)
      refine ⟨Function.update own (Ptr.node k) Place.gone, ch, ?_⟩
      have e : ∀ s3 : Engine, s3 = { s with log := s.log
          ++ ([Event.notify f (s.heap (Ptr.node k)).data (Ptr.node k)]
            ++ [Event.free (Ptr.node k)]) } →
          Post2 s own s3 (Function.update own (Ptr.node k) Place.gone) ch
            (fun p => p = Ptr.node k) := fun s3 e3 => e3 ▸ P
      apply e
      simp [Engine.emit, List.append_assoc]
  | false =>
    obtain ⟨o, ho⟩ : ∃ o, own (Ptr.node k) = Place.thr o := by
      rcases hhold with e | e
      · exact e
      · exact absurd (huser.2 e) (by decide)
    rw [ho] at hl
    simp only [Life] at hl
    simp only [Bool.false_eq_true, if_false, hw] at h
    rw [call_fn_other _ _ _ (by simp) (by simp)] at h
    simp only [work_item_finish] at h
    have hwev : about (s.log ++ [Event.work (Fn.user u) (s.heap (Ptr.node k)).data (Ptr.node k)])
        (Ptr.node k) = hist_work (s.heap (Ptr.node k)) (Ptr.node k) := by
      rw [about_append, hl, List.nil_append, hist_work_some _ _ _ hw]
      apply about_of_eq
      intro e he
      simp only [List.mem_singleton] at he
      rw [he]; rfl
    split at h
    · next hn =>
      have hn0 : (s.heap (Ptr.node k)).notify ≠ none := by
        intro e
        have hn1 : (s.heap (Ptr.node k)).notify.isSome = true := hn
        rw [e] at hn1
        cases hn1
      have hmain : (s.queues QId.main).vtable = some VTable.queue
          ∧ (s.queues QId.main).n_threads = 1 ∧ (s.queues QId.main).width = 1 := by
        rcases hs.mainq with e | e
        · exfalso
          simp [_work_queue_add, _work_queue_add_unlocked, add_unlocked_with, prepare_executive,
            Engine.emit, e] at h
        · exact e
      rw [add_main_eq env (s.emit (Event.work (Fn.user u) (s.heap (Ptr.node k)).data (Ptr.node k)))
        (Ptr.node k) hmain.1 hmain.2.1 hmain.2.2] at h
      simp only [if_true, Except.ok.injEq] at h
      subst h
      have hsh := hs.forward k (Event.work (Fn.user u) (s.heap (Ptr.node k)).data (Ptr.node k))
        rfl hni (by rw [hmain.1]; simp)
        (fun _ _ => by
          simp only [Life, if_true]
          exact ⟨hwev, hn0⟩)
      refine ⟨Function.update own (Ptr.node k) (Place.inq QId.main),
        Function.update ch QId.main (ch QId.main ++ [Ptr.node k]), ?_⟩
      have e : ∀ s3 : Engine, s3 = { s with
          heap := (_work_queue_add_tail_unlocked s.heap (s.queues QId.main) (Ptr.node k)).1,
          queues := Function.update s.queues QId.main
            (_work_queue_add_tail_unlocked s.heap (s.queues QId.main) (Ptr.node k)).2,
          log := s.log ++ [Event.work (Fn.user u) (s.heap (Ptr.node k)).data (Ptr.node k)] } →
          Post2 s own s3 (Function.update own (Ptr.node k) (Place.inq QId.main))
            (Function.update ch QId.main (ch QId.main ++ [Ptr.node k]))
            (fun p => p = Ptr.node k) := by
        intro s3 e3
        subst e3
        refine ⟨hsh, ?_, ⟨?_, ?_, ?_⟩, ?_, ?_,
          ⟨fun _ => rfl, rfl, id, fun _ _ h => h, fun _ _ h => Or.inl h⟩⟩
        · refine hp.proto_transfer ⟨rfl, rfl, fun q0 => payload_work (add_tail_payload _ _ _ _),
            fun q0 => payload_notify (add_tail_payload _ _ _ _), ?_⟩ ?_
          · intro q0
            obtain ⟨hd, hQ⟩ := add_tail_fields s.heap (s.queues QId.main) (Ptr.node k)
            by_cases hoq : q0 = QId.main
            · subst hoq
              show (Function.update s.queues QId.main _ QId.main).vtable = _
              rw [Function.update_same, hQ]
              rfl
            · show (Function.update s.queues QId.main _ q0).vtable = _
              rw [Function.update_noteq hoq]
          · intro q0 hb
            rw [Function.update_noteq (by intro e; cases e)] at hb
            exact hb
        · intro p
          by_cases e : p = Ptr.node k
          · exact Or.inl e
          · exact Or.inr (Or.inl (Function.update_noteq e _ _))
        · intro p _
          by_cases e : p = Ptr.node k
          · exact Or.inl e
          · right
            apply about_emit_ne
            intro e1 he
            simp only [List.mem_singleton] at he
            rw [he]
            simp only [Event.item, ne_eq, Option.some.injEq]
            exact fun e2 => e e2.symm
        · intro p hne
          by_cases e : p = Ptr.node k
          · rw [e, Function.update_same]
            intro e2; cases e2
          · rw [Function.update_noteq e]
            exact hne
        · intro p e
          rw [e, Function.update_same]
          exact ⟨fun o e => (by cases e), fun e => (by cases e)⟩
        · intro k2 _
          exact add_tail_payload _ _ _ _
      apply e
      simp [Engine.emit]
    · next hn =>
      simp only [if_true, Except.ok.injEq] at h
      subst h
      have hnn : (s.heap (Ptr.node k)).notify = none := by
        have hn1 : ¬ (s.heap (Ptr.node k)).notify.isSome = true := hn
        cases hx : (s.heap (Ptr.node k)).notify
        · rfl
        · rw [hx] at hn1
          exact absurd rfl hn1
      have P := retire_post2 hs hp (Ptr.node k) hhold
        ([Event.work (Fn.user u) (s.heap (Ptr.node k)).data (Ptr.node k)]
          ++ [Event.free (Ptr.node k)])
        (by
          intro e he
          simp only [List.mem_append, List.mem_singleton] at he
          rcases he with he | he <;> rw [he] <;> rfl)
        (fun _ _ _ _ => by
          simp only [Life]
          left
          rw [hl, List.nil_append, hist_run_no_notify _ _ hnn, hist_work_some _ _ _ hw])
      refine ⟨Function.update own (Ptr.node k) Place.gone, ch, ?_⟩
      have e : ∀ s3 : Engine, s3 = { s with log := s.log
          ++ ([Event.work (Fn.user u) (s.heap (Ptr.node k)).data (Ptr.node k)]
            ++ [Event.free (Ptr.node k)]) } →
          Post2 s own s3 (Function.update own (Ptr.node k) Place.gone) ch
            (fun p => p = Ptr.node k) := fun s3 e3 => e3 ▸ P
      apply e
      simp [Engine.emit, List.append_assoc]

/-- Source `work_item_execute` on an item that a thread holds. -/
theorem execute_post2 {s : Engine} {own : Ptr → Place} {ch : QId → List Ptr}
    (hs : Shape s own ch) (hp : Proto s own) (env : Env) (item : Ptr) (do_notify : Bool)
    (hhold : (∃ o, own item = Place.thr o) ∨ own item = Place.mstack)
    (hrun : ∀ x, env.runner = some x → (own x).busy = false ∧ ∃ k, x = Ptr.node k)
    (huser : ∀ k u, item = Ptr.node k → (s.heap item).work = some (Fn.user u) →
      (do_notify = true ↔ own item = Place.mstack))
    (s2 : Engine) (h : work_item_execute env s item do_notify = .ok s2) :
    ∃ own2 ch2, Post2 s own s2 own2 ch2 (fun p => p = item ∨ env.runner = some p) := by
  by_cases hu : ∃ k u, item = Ptr.node k ∧ (s.heap item).work = some (Fn.user u)
  · obtain ⟨k, u, hk, hw⟩ := hu
    subst hk
    obtain ⟨own2, ch2, P⟩ := execute_user_post2 hs hp env k u do_notify hhold hw
      (huser k u rfl hw) s2 h
    exact ⟨own2, ch2, P.post2_mono (fun p e => Or.inl e) (fun p hp0 hn => by
      rcases hp0 with e | e
      · exact absurd e hn
      · exact (hrun p e).1)⟩
  · push_neg at hu
    exact execute_engine_post2 hs hp env item do_notify hhold hrun hu s2 h

/-! ## C4: the invariants along `work_queue_run_unlocked` and the runners -/

/-- A thread takes the head item `hd` off queue `q`. -/
theorem pop_held {s : Engine} {own : Ptr → Place} {ch : QId → List Ptr}
    (hs : Shape s own ch) (hp : Proto s own) (q : QId) (hd : Ptr)
    (hhead : (s.queues q).head = some hd) (r : Option Ptr) (h1 : Heap) (Q1 : WorkQueue)
    (hdr : _work_queue_drain_one_unlocked s.heap (s.queues q) = .ok (r, h1, Q1))
    (X : Place) (hX : (∃ o, X = Place.thr o) ∨ X = Place.mstack)
    (hlife : ∀ k u, hd = Ptr.node k → (s.heap hd).work = some (Fn.user u) →
      Life X (s.heap hd) hd (about s.log hd)) :
    own hd = Place.inq q
      ∧ (∀ x, payload (h1 x) = payload (s.heap x))
      ∧ (∃ a b c, Q1 = { s.queues q with head := a, tail := b, n_items := c })
      ∧ ∃ ch2, Shape { s with heap := h1, queues := Function.update s.queues q Q1 }
          (Function.update own hd X) ch2
        ∧ Proto { s with heap := h1, queues := Function.update s.queues q Q1 }
          (Function.update own hd X) := by
  have hXn : ∀ o, X ≠ Place.inq o := by
    intro o e
    rcases hX with ⟨o2, e2⟩ | e2 <;> rw [e2] at e <;> cases e
  obtain ⟨a, b, c, hQ⟩ := drain_fields _ _ _ _ _ hdr
  rcases hs.pop q r h1 Q1 hdr with ⟨_, e, _⟩ | ⟨p, rest, _, e, _, hown, hpay, hshape⟩
  · rw [e] at hhead
    cases hhead
  · rw [e] at hhead
    injection hhead with hhead
    subst hhead
    refine ⟨hown, hpay, ⟨a, b, c, hQ⟩, _, hshape X hXn hlife, ?_⟩
    refine hp.proto_transfer ⟨rfl, rfl, fun q0 => payload_work (hpay _),
      fun q0 => payload_notify (hpay _), ?_⟩ ?_
    · intro q0
      show (Function.update s.queues q Q1 q0).vtable = _
      by_cases e2 : q0 = q
      · subst e2
        rw [Function.update_same, hQ]
      · rw [Function.update_noteq e2]
    · intro q0 hb
      by_cases e2 : Ptr.ctl q0 = p
      · rw [e2, hown]; rfl
      · rw [Function.update_noteq e2] at hb
        exact hb

/-- A barrier or stop item at the head of `q` is taken off and executed under
the lock of `q`. -/
theorem inline_post2 {s : Engine} {own : Ptr → Place} {ch : QId → List Ptr}
    (hs : Shape s own ch) (hp : Proto s own) (env : Env) (q : QId) (hd : Ptr)
    (hhead : (s.queues q).head = some hd)
    (hstatic : work_item_is_static (s.heap hd) = true)
    (hrun : ∀ x, env.runner = some x → (own x).busy = false ∧ ∃ k, x = Ptr.node k)
    (do_notify : Bool) (r : Option Ptr) (h1 : Heap) (Q1 : WorkQueue)
    (hdr : _work_queue_drain_one_unlocked s.heap (s.queues q) = .ok (r, h1, Q1))
    (s2 : Engine)
    (hex : work_item_execute env { s with heap := h1, queues := Function.update s.queues q Q1 }
      hd do_notify = .ok s2) :
    ∃ own2 ch2, Post2 s own s2 own2 ch2 (fun p => p = hd ∨ env.runner = some p) := by
  obtain ⟨hown, hpay, _, ch1, hs1, hp1⟩ := pop_held hs hp q hd hhead r h1 Q1 hdr Place.mstack
    (Or.inr rfl) (fun k u _ hw => absurd hw (static_not_user _ u hstatic))
  have hne : ∀ x, env.runner = some x → x ≠ hd := by
    intro x e e2
    have := (hrun x e).1
    rw [e2, hown] at this
    cases this
  obtain ⟨own2, ch2, P⟩ := execute_post2 hs1 hp1 env hd do_notify
    (Or.inr (Function.update_same _ _ _))
    (fun x e => ⟨by rw [Function.update_noteq (hne x e)]; exact (hrun x e).1, (hrun x e).2⟩)
    (fun k u _ hw => by
      have hw2 : (h1 hd).work = some (Fn.user u) := hw
      rw [payload_work (hpay hd)] at hw2
      exact absurd hw2 (static_not_user _ u hstatic))
    s2 hex
  refine ⟨own2, ch2, P.shape, P.proto, ⟨?_, ?_, ?_⟩, P.grow, ?_,
    ⟨P.held.items, P.held.stack, P.held.nomain, P.held.mem, P.held.back⟩⟩
  · intro p
    by_cases e : p = hd
    · exact Or.inl (Or.inl e)
    · have := P.trans.drop p
      rw [Drop, Function.update_noteq e] at this
      exact this
  · intro p hb
    have e : p ≠ hd := by
      intro e
      rw [e, hown] at hb
      cases hb
    have := P.trans.quiet p (by rw [Function.update_noteq e]; exact hb)
    exact this
  · intro p hne0
    apply P.trans.acc
    by_cases e : p = hd
    · rw [e, Function.update_same]
      intro e2; cases e2
    · rw [Function.update_noteq e]
      exact hne0
  · intro k hk
    rw [P.pay k hk]
    exact hpay _

/-! ## C4: the invariant along the steps of the engine -/

/-- The holder counts after a step, from the balance of what the threads hold
and what ownership says. -/
theorem Held.step {s s2 : Engine} {own own2 : Ptr → Place} (hh : Held s own)
    (hthr : ∀ o x, ((s2.threads o).flatMap Pc.items).count x
        + (if own x = Place.thr o then 1 else 0)
      = ((s.threads o).flatMap Pc.items).count x + (if own2 x = Place.thr o then 1 else 0))
    (hstk : ∀ x, s2.main_stack.count x + (if own x = Place.mstack then 1 else 0)
      = s.main_stack.count x + (if own2 x = Place.mstack then 1 else 0))
    (hnm : s2.threads QId.main = []) : Held s2 own2 := by
  refine ⟨?_, ?_, hnm⟩
  · intro o x
    have h1 := hthr o x
    have h2 := hh.thr o x
    omega
  · intro x
    have h1 := hstk x
    have h2 := hh.stk x
    omega

theorem count_move (l : List Pc) (old new : Pc) (h : old ∈ l) (x : Ptr) :
    ((new :: l.erase old).flatMap Pc.items).count x + (Pc.items old).count x
      = (l.flatMap Pc.items).count x + (Pc.items new).count x := by
  have hperm : (l.flatMap Pc.items).Perm ((old :: l.erase old).flatMap Pc.items) :=
    (List.perm_cons_erase h).flatMap_right _
  rw [hperm.count_eq]
  simp only [List.flatMap_cons, List.count_append]
  omega

theorem count_erase_wait (l : List Pc) (x : Ptr) :
    ((l.erase Pc.wait).flatMap Pc.items).count x = (l.flatMap Pc.items).count x := by
  by_cases h : Pc.wait ∈ l
  · have hperm : (l.flatMap Pc.items).Perm ((Pc.wait :: l.erase Pc.wait).flatMap Pc.items) :=
      (List.perm_cons_erase h).flatMap_right _
    rw [hperm.count_eq]
    simp [List.flatMap_cons, Pc.items]
  · rw [List.erase_of_not_mem h]

/-- An item that the call did not take from a thread is held after the call
by whoever held it before. -/
theorem Post2.post2_thr_iff {s s2 : Engine} {own own2 : Ptr → Place} {ch2 : QId → List Ptr}
    {S : Ptr → Prop} (P : Post2 s own s2 own2 ch2 S) (x : Ptr)
    (hx : S x → (∀ o, own x ≠ Place.thr o) ∧ own x ≠ Place.mstack) :
    (∀ o, own2 x = Place.thr o ↔ own x = Place.thr o)
      ∧ (own2 x = Place.mstack ↔ own x = Place.mstack) := by
  by_cases hs : S x
  · obtain ⟨a, b⟩ := hx hs
    obtain ⟨c, d⟩ := P.grow x hs
    exact ⟨fun o => ⟨fun e => absurd e (c o), fun e => absurd e (a o)⟩,
      ⟨fun e => absurd e d, fun e => absurd e b⟩⟩
  · have hd := (P.trans.drop x).resolve_left hs
    exact ⟨fun o => hd.drop_thr_iff o, hd.mstack_iff⟩

/-- Blocks not yet handed out stay untouched by a call that does not name
them. -/
theorem Post2.fresh {s s2 : Engine} {own own2 : Ptr → Place} {ch2 : QId → List Ptr}
    {S : Ptr → Prop} (P : Post2 s own s2 own2 ch2 S) (b b2 : Nat) (hf : Fresh s own b)
    (hb : b ≤ b2) (hS : ∀ k, S (Ptr.node k) → k < b2) : Fresh s2 own2 b2 := by
  intro k hk
  have hn : ¬ S (Ptr.node k) := fun h => absurd (hS k h) (by omega)
  obtain ⟨a, c⟩ := hf k (by omega)
  have hd := (P.trans.drop _).resolve_left hn
  have hidle : (own (Ptr.node k)).busy = false := by rw [a]; rfl
  refine ⟨by rw [hd.idle hidle]; exact a, ?_⟩
  rw [(P.trans.quiet _ hidle).resolve_left hn]
  exact c

/-- The invariant after a call that moves no thread. -/
theorem Post2.inv {s s2 : Engine} {own own2 : Ptr → Place} {ch2 : QId → List Ptr}
    {S : Ptr → Prop} (P : Post2 s own s2 own2 ch2 S) (hh : Held s own) (b b2 : Nat)
    (hf : Fresh s own b) (hb : b ≤ b2)
    (hS : ∀ p, S p → ((∀ o, own p ≠ Place.thr o) ∧ own p ≠ Place.mstack)
      ∧ ∀ k, p = Ptr.node k → k < b2) :
    Shape s2 own2 ch2 ∧ Proto s2 own2 ∧ Held s2 own2 ∧ Fresh s2 own2 b2 := by
  refine ⟨P.shape, P.proto, ?_, P.fresh b b2 hf hb (fun k h => (hS _ h).2 k rfl)⟩
  have hiff := fun x => P.post2_thr_iff x (fun h => (hS x h).1)
  exact hh.held_transfer P.held (fun p o => (hiff p).1 o) (fun p => (hiff p).2)

/-- What `new0` answers is a block the engine never saw. -/
theorem env_facts {s : Engine} {own : Ptr → Place} (hf : Fresh s own s.brk) (env : Env)
    (he : env.fresh s) :
    (∀ x, env.alloc = some x → own x = Place.out ∧ (∃ k, x = Ptr.node k) ∧ about s.log x = [])
      ∧ (∀ x, env.runner = some x → (own x).busy = false ∧ ∃ k, x = Ptr.node k)
      ∧ (∀ x, env.alloc = some x → env.runner ≠ some x)
      ∧ (∀ k, env.alloc = some (Ptr.node k) → k < s.brk + 2)
      ∧ (∀ k, env.runner = some (Ptr.node k) → k < s.brk + 2) := by
  obtain ⟨h1, h2⟩ := he
  refine ⟨?_, ?_, ?_, ?_, ?_⟩
  · intro x e
    rcases h1 with h | h
    · rw [h] at e; cases e
    · rw [h] at e
      injection e with e
      subst e
      exact ⟨(hf _ (le_refl _)).1, ⟨_, rfl⟩, (hf _ (le_refl _)).2⟩
  · intro x e
    rcases h2 with h | h
    · rw [h] at e; cases e
    · rw [h] at e
      injection e with e
      subst e
      exact ⟨by rw [(hf _ (Nat.le_succ _)).1]; rfl, ⟨_, rfl⟩⟩
  · intro x e e2
    rcases h1 with h | h
    · rw [h] at e; cases e
    · rcases h2 with h0 | h0
      · rw [h0] at e2; cases e2
      · rw [h] at e
        rw [h0] at e2
        injection e with e
        injection e2 with e2
        rw [← e] at e2
        injection e2 with e2
        omega
  · intro k e
    rcases h1 with h | h
    · rw [h] at e; cases e
    · rw [h] at e
      injection e with e
      injection e with e
      omega
  · intro k e
    rcases h2 with h | h
    · rw [h] at e; cases e
    · rw [h] at e
      injection e with e
      injection e with e
      omega

theorem Fresh.fresh_mono {s : Engine} {own : Ptr → Place} {b b2 : Nat} (hf : Fresh s own b)
    (h : b ≤ b2) : Fresh s own b2 :=
  fun k hk => hf k (le_trans h hk)

/-- An item the engine keeps or kept is a block handed out before. -/
theorem Fresh.old {s : Engine} {own : Ptr → Place} {b : Nat} (hf : Fresh s own b) (k : Nat)
    (h : own (Ptr.node k) ≠ Place.out) : k < b := by
  by_contra hc
  exact h (hf k (by omega)).1

/-! ## C4: threads, their items, and the invariant after a call -/

/-- A thread holds its items in the sense of ownership. -/
theorem Held.own_of_mem {s : Engine} {own : Ptr → Place} (hh : Held s own) (o : QId) (pc : Pc)
    (p : Ptr) (hpc : pc ∈ s.threads o) (hp : p ∈ pc.items) : own p = Place.thr o := by
  have hc : 0 < ((s.threads o).flatMap Pc.items).count p :=
    List.count_pos_iff.2 (List.mem_flatMap.2 ⟨pc, hpc, hp⟩)
  have := hh.thr o p
  by_contra hn
  rw [if_neg hn] at this
  omega

theorem Pc.runner_of_mem (pc : Pc) (r : Ptr) (h : pc.runner_of = some r) : r ∈ pc.items := by
  cases pc <;> simp [Pc.runner_of, Pc.items] at h ⊢ <;> simp [h]

/-- The item that the main thread is notifying is on its stack in the sense
of ownership. -/
theorem Held.own_of_stack {s : Engine} {own : Ptr → Place} (hh : Held s own) (p : Ptr)
    (hp : p ∈ s.main_stack) : own p = Place.mstack := by
  have hc : 0 < s.main_stack.count p := List.count_pos_iff.2 hp
  have := hh.stk p
  by_contra hn
  rw [if_neg hn] at this
  omega

theorem RunnerOk.runner_congr {it it2 : WorkItem} {pc : Pc} (h : payload it2 = payload it)
    (hr : RunnerOk it pc) : RunnerOk it2 pc := by
  unfold RunnerOk at *
  rw [payload_work h, payload_data h]
  exact hr

/-- A runner item stays one when the thread stays with its bucket or leaves
the loop. -/
theorem RunnerOk.of_bucket {it : WorkItem} {pc pc2 : Pc} (hr : RunnerOk it pc)
    (hb : ∀ m, pc2.bucket_of = some m → pc.bucket_of = some m) : RunnerOk it pc2 :=
  ⟨hr.1, fun m hm => hr.2 m (hb m hm)⟩

/-- A runner item is not an item that a caller submitted. -/
theorem Runs.not_user {s : Engine} (hr : Runs s) (o : QId) (pc : Pc) (r : Ptr)
    (hpc : pc ∈ s.threads o) (hro : pc.runner_of = some r) (u : Nat) :
    (s.heap r).work ≠ some (Fn.user u) := by
  rw [(hr o pc r hpc hro).2.1]
  simp

/-- What `new0` may answer was not handed out before. -/
theorem env_low {s : Engine} (env : Env) (he : env.fresh s) :
    (∀ k, env.alloc = some (Ptr.node k) → s.brk ≤ k)
      ∧ (∀ k, env.runner = some (Ptr.node k) → s.brk ≤ k) := by
  obtain ⟨h1, h2⟩ := he
  constructor
  · intro k e
    rcases h1 with h | h
    · rw [h] at e; cases e
    · rw [h] at e
      injection e with e
      injection e with e
      omega
  · intro k e
    rcases h2 with h | h
    · rw [h] at e; cases e
    · rw [h] at e
      injection e with e
      injection e with e
      omega

/-- Runner items stay runner items across a call that names no held item. -/
theorem Runs.of_post2 {s s2 : Engine} {own own2 : Ptr → Place} {ch2 : QId → List Ptr}
    {S : Ptr → Prop} (hr : Runs s) (hh : Held s own) (P : Post2 s own s2 own2 ch2 S)
    (hS : ∀ p, S p → ∀ o, own p ≠ Place.thr o) : Runs s2 := by
  intro o pc r hpc hro
  rcases P.held.back o pc hpc with h | h
  · obtain ⟨⟨k, hk⟩, hok⟩ := hr o pc r h hro
    subst hk
    have hown := hh.own_of_mem o pc _ h (Pc.runner_of_mem pc _ hro)
    have hn : ¬ S (Ptr.node k) := fun hs => hS _ hs o hown
    exact ⟨⟨k, rfl⟩, hok.runner_congr (P.pay k hn)⟩
  · rw [h] at hro
    cases hro

/-- A block handed out before the call that the engine keeps after it was
kept before, when the call names no other such block. -/
theorem Post2.keep_busy {s s2 : Engine} {own own2 : Ptr → Place} {ch2 : QId → List Ptr}
    {S : Ptr → Prop} (P : Post2 s own s2 own2 ch2 S)
    (hSk : ∀ k, S (Ptr.node k) → k < s.brk → (own (Ptr.node k)).busy = true) :
    ∀ k, k < s.brk → (own2 (Ptr.node k)).busy = true → (own (Ptr.node k)).busy = true := by
  intro k hk hb
  by_cases hx : S (Ptr.node k)
  · exact hSk k hx hk
  · rcases (P.trans.drop _).resolve_left hx with h | ⟨h, _⟩
    · rw [← h]; exact hb
    · rw [h] at hb
      cases hb

/-- No thread holds, after the call, a block that was not handed out before
it. -/
theorem Post2.keep_fresh {s s2 : Engine} {own own2 : Ptr → Place} {ch2 : QId → List Ptr}
    {S : Ptr → Prop} (P : Post2 s own s2 own2 ch2 S) (hf : Fresh s own s.brk) :
    ∀ k, s.brk ≤ k → (∀ o, own2 (Ptr.node k) ≠ Place.thr o)
      ∧ own2 (Ptr.node k) ≠ Place.mstack := by
  intro k hk
  by_cases hx : S (Ptr.node k)
  · exact P.grow _ hx
  · have ho := (hf k hk).1
    rcases (P.trans.drop _).resolve_left hx with h | ⟨h, _⟩
    · rw [h, ho]
      exact ⟨fun o e => (by cases e), fun e => (by cases e)⟩
    · rw [h]
      exact ⟨fun o e => (by cases e), fun e => (by cases e)⟩

/-- A block that was not handed out is held by no thread. -/
theorem Fresh.not_held {s : Engine} {own : Ptr → Place} (hf : Fresh s own s.brk) :
    ∀ k, s.brk ≤ k → (∀ o, own (Ptr.node k) ≠ Place.thr o)
      ∧ own (Ptr.node k) ≠ Place.mstack := by
  intro k hk
  rw [(hf k hk).1]
  exact ⟨fun o e => (by cases e), fun e => (by cases e)⟩

/-- The invariant after a call that moves no thread and takes no item from a
thread. -/
theorem post2_good {s s2 : Engine} {own own2 : Ptr → Place} {ch2 : QId → List Ptr}
    {S : Ptr → Prop} (hh : Held s own) (hf : Fresh s own s.brk) (hr : Runs s)
    (P : Post2 s own s2 own2 ch2 S) (b2 : Nat) (hb : s.brk ≤ b2)
    (hS : ∀ p, S p → ((∀ o, own p ≠ Place.thr o) ∧ own p ≠ Place.mstack)
      ∧ ∀ k, p = Ptr.node k → k < b2)
    (hSk : ∀ k, S (Ptr.node k) → k < s.brk → (own (Ptr.node k)).busy = true) :
    Next s own s2 b2 := by
  obtain ⟨a, b, c, d⟩ := P.inv hh s.brk b2 hf hb hS
  exact ⟨own2, ch2, a, b, c, d, hr.of_post2 hh P (fun p hp => (hS p hp).1.1),
    P.keep_busy hSk, fun o p hm _ => Or.inl (P.held.mem o _ hm), P.keep_fresh hf, P.trans.acc⟩

/-- The invariant after a call that names only items the engine does not
keep. -/
theorem post2_good_idle {s s2 : Engine} {own own2 : Ptr → Place} {ch2 : QId → List Ptr}
    {S : Ptr → Prop} (hh : Held s own) (hf : Fresh s own s.brk) (hr : Runs s)
    (P : Post2 s own s2 own2 ch2 S) (b2 : Nat) (hb : s.brk ≤ b2)
    (hS : ∀ p, S p → (own p).busy = false ∧ ∀ k, p = Ptr.node k → k < b2)
    (hlow : ∀ k, S (Ptr.node k) → s.brk ≤ k) :
    Next s own s2 b2 :=
  post2_good hh hf hr P b2 hb (fun p hp => ⟨Place.idle_not_held (hS p hp).1, (hS p hp).2⟩)
    (fun k hk hlt => absurd (hlow k hk) (by omega))

/-- The invariant of the state that a step leads to, without what the step
keeps. -/
theorem Next.good_at {s s2 : Engine} {own : Ptr → Place} {b : Nat} (h : Next s own s2 b) :
    GoodAt s2 b := by
  obtain ⟨own2, ch2, a, b, c, d, e, _⟩ := h
  exact ⟨own2, ch2, a, b, c, d, e⟩

/-- The holder counts after one thread of `q` has moved from `old` to `new`. -/
theorem Held.held_moved {s s1 s2 : Engine} {own own1 : Ptr → Place} (hh : Held s own)
    (hs : HeldSame s s1) (q : QId) (old new : Pc) (hold : old ∈ s.threads q)
    (hthr : s2.threads = Function.update s1.threads q (new :: (s1.threads q).erase old))
    (hstk : s2.main_stack = s1.main_stack)
    (hown : ∀ x o, (if own1 x = Place.thr o then 1 else 0)
        + (if o = q then (Pc.items old).count x else 0)
      = (if own x = Place.thr o then 1 else 0)
        + (if o = q then (Pc.items new).count x else 0))
    (hm : ∀ x, own1 x = Place.mstack ↔ own x = Place.mstack) : Held s2 own1 := by
  have hqm : q ≠ QId.main := by
    intro e
    rw [e, hh.nomain] at hold
    cases hold
  refine ⟨?_, ?_, ?_⟩
  · intro o x
    have h0 := hh.thr o x
    have h1 := hown x o
    rw [hthr]
    by_cases hoq : o = q
    · subst hoq
      rw [Function.update_same]
      have h2 := count_move (s1.threads o) old new (hs.mem o old hold) x
      rw [hs.items o] at h2
      simp only [if_true] at h1
      omega
    · rw [Function.update_noteq hoq, hs.items o]
      simp only [if_neg hoq, Nat.add_zero] at h1
      omega
  · intro x
    rw [hstk, hs.stack, hh.stk x]
    by_cases h : own x = Place.mstack
    · rw [if_pos h, if_pos ((hm x).2 h)]
    · rw [if_neg h, if_neg (fun e => h ((hm x).1 e))]
  · rw [hthr, Function.update_noteq (Ne.symm hqm)]
    exact hs.nomain hh.nomain

/-- Runner items after one thread of `q` has moved from `old` to `new`. -/
theorem Runs.runs_moved {s1 s2 : Engine} (q : QId) (old new : Pc)
    (hthr : s2.threads = Function.update s1.threads q (new :: (s1.threads q).erase old))
    (hr1 : ∀ o pc r, pc ∈ s1.threads o → pc.runner_of = some r →
      (∃ k, r = Ptr.node k) ∧ RunnerOk (s2.heap r) pc)
    (hnew : ∀ r, new.runner_of = some r →
      (∃ k, r = Ptr.node k) ∧ RunnerOk (s2.heap r) new) : Runs s2 := by
  intro o pc r hpc hro
  rw [hthr] at hpc
  by_cases hoq : o = q
  · subst hoq
    rw [Function.update_same, List.mem_cons] at hpc
    rcases hpc with h | h
    · rw [h] at hro ⊢
      exact hnew r hro
    · exact hr1 o pc r (List.mem_of_mem_erase h) hro
  · rw [Function.update_noteq hoq] at hpc
    exact hr1 o pc r hpc hro

/-! ## C4: the invariant along the API calls -/

theorem step_new_queue {s : Engine} {own : Ptr → Place} {ch : QId → List Ptr}
    (hs : Shape s own ch) (hp : Proto s own) (hh : Held s own) (hf : Fresh s own s.brk)
    (hr : Runs s) (n : Nat) (maxsize : Int) (s2 : Engine)
    (h : fire_core s (Step.new_queue n maxsize) = .ok s2) : Next s own s2 s.brk := by
  simp only [fire_core] at h
  split at h
  · next hv =>
    exact post2_good_idle hh hf hr (work_queue_new_post2 hs hp n maxsize s2 hv h) _ (le_refl _)
      (fun _ hp => absurd hp id) (fun _ hp => absurd hp id)
  · cases h

theorem step_new_bucket {s : Engine} {own : Ptr → Place} {ch : QId → List Ptr}
    (hs : Shape s own ch) (hp : Proto s own) (hh : Held s own) (hf : Fresh s own s.brk)
    (hr : Runs s) (n : Nat) (maxsize width : Int) (s2 : Engine)
    (h : fire_core s (Step.new_bucket n maxsize width) = .ok s2) : Next s own s2 s.brk := by
  simp only [fire_core] at h
  split at h
  · next hv =>
    exact post2_good_idle hh hf hr (work_bucket_new_post2 hs hp n maxsize width s2 hv h) _
      (le_refl _) (fun _ hp => absurd hp id) (fun _ hp => absurd hp id)
  · cases h

theorem step_set_destroy_notify {s : Engine} {own : Ptr → Place} {ch : QId → List Ptr}
    (hs : Shape s own ch) (hp : Proto s own) (hh : Held s own) (hf : Fresh s own s.brk)
    (hr : Runs s) (env : Env) (q : QId) (f : Option Nat) (ctx : Data) (s2 : Engine)
    (h : fire_core s (Step.set_destroy_notify env q f ctx) = .ok s2) : Next s own s2 s.brk := by
  simp only [fire_core] at h
  exact post2_good_idle hh hf hr (set_destroy_notify_post2 hs hp env q f ctx s2 h) _ (le_refl _)
    (fun _ hp => absurd hp id) (fun _ hp => absurd hp id)

theorem step_ref {s : Engine} {own : Ptr → Place} {ch : QId → List Ptr}
    (hs : Shape s own ch) (hp : Proto s own) (hh : Held s own) (hf : Fresh s own s.brk)
    (hr : Runs s) (q : QId) (s2 : Engine)
    (h : fire_core s (Step.ref q) = .ok s2) : Next s own s2 s.brk := by
  simp only [fire_core] at h
  exact post2_good_idle hh hf hr
    (ref_post2 hs hp q s2 (fun _ => False) (fun _ hp => absurd hp id) h).1 _ (le_refl _)
    (fun _ hp => absurd hp id) (fun _ hp => absurd hp id)

theorem step_unref {s : Engine} {own : Ptr → Place} {ch : QId → List Ptr}
    (hs : Shape s own ch) (hp : Proto s own) (hh : Held s own) (hf : Fresh s own s.brk)
    (hr : Runs s) (env : Env) (he : env.fresh s) (q : QId) (s2 : Engine)
    (h : fire_core s (Step.unref env q) = .ok s2) : Next s own s2 (s.brk + 2) := by
  simp only [fire_core] at h
  obtain ⟨_, e2, _, _, e5⟩ := env_facts hf env he
  obtain ⟨own2, ch2, P⟩ := unref_post2 hs hp env q (fun _ => e2) s2 h
  refine post2_good_idle hh hf hr P _ (Nat.le_add_right _ _) ?_ ?_
  · intro p hp
    rcases hp with ⟨_, hp⟩ | ⟨hp, hb⟩
    · exact ⟨(e2 p hp).1, fun k hk => e5 k (by rw [← hk]; exact hp)⟩
    · exact ⟨hb, fun k hk => by rw [hk] at hp; cases hp⟩
  · intro k hk
    rcases hk with ⟨_, hk⟩ | ⟨hk, _⟩
    · exact (env_low env he).2 k hk
    · cases hk

theorem step_add {s : Engine} {own : Ptr → Place} {ch : QId → List Ptr}
    (hs : Shape s own ch) (hp : Proto s own) (hh : Held s own) (hf : Fresh s own s.brk)
    (hr : Runs s) (env : Env) (he : env.fresh s) (q : Option QId)
    (work notify cancel : Option Nat) (data : Data) (s2 : Engine)
    (h : fire_core s (Step.add env q work notify cancel data) = .ok s2) :
    Next s own s2 (s.brk + 2) := by
  simp only [fire_core] at h
  obtain ⟨e1, e2, e3, e4, e5⟩ := env_facts hf env he
  split at h
  · cases h
  · next hq =>
    split at h
    · cases h
    · next r s1 ha =>
      simp only [Except.ok.injEq] at h
      subst h
      obtain ⟨own2, ch2, P⟩ :=
        work_queue_add_post2 hs hp env q work notify cancel data hq e1 e2 e3 r s1 ha
      refine post2_good_idle hh hf hr P _ (Nat.le_add_right _ _) ?_ ?_
      · intro p hp
        rcases hp with hp | hp
        · exact ⟨(e2 p hp).1, fun k hk => e5 k (by rw [← hk]; exact hp)⟩
        · exact ⟨by rw [(e1 p hp).1]; rfl, fun k hk => e4 k (by rw [← hk]; exact hp)⟩
      · intro k hk
        rcases hk with hk | hk
        · exact (env_low env he).2 k hk
        · exact (env_low env he).1 k hk

theorem step_add_rewind {s : Engine} {own : Ptr → Place} {ch : QId → List Ptr}
    (hs : Shape s own ch) (hp : Proto s own) (hh : Held s own) (hf : Fresh s own s.brk)
    (hr : Runs s) (env : Env) (he : env.fresh s) (q : Option QId)
    (work notify cancel : Option Nat) (data : Data) (s2 : Engine)
    (h : fire_core s (Step.add_rewind env q work notify cancel data) = .ok s2) :
    Next s own s2 (s.brk + 2) := by
  simp only [fire_core] at h
  obtain ⟨e1, e2, e3, e4, e5⟩ := env_facts hf env he
  split at h
  · cases h
  · next r s1 ha =>
    simp only [Except.ok.injEq] at h
    subst h
    obtain ⟨own2, ch2, P⟩ :=
      work_queue_add_rewind_post2 hs hp env q work notify cancel data e1 e2 e3 r s1 ha
    refine post2_good_idle hh hf hr P _ (Nat.le_add_right _ _) ?_ ?_
    · intro p hp
      rcases hp with hp | hp
      · exact ⟨(e2 p hp).1, fun k hk => e5 k (by rw [← hk]; exact hp)⟩
      · exact ⟨by rw [(e1 p hp).1]; rfl, fun k hk => e4 k (by rw [← hk]; exact hp)⟩
    · intro k hk
      rcases hk with hk | hk
      · exact (env_low env he).2 k hk
      · exact (env_low env he).1 k hk

theorem step_flush_begin {s : Engine} {own : Ptr → Place} {ch : QId → List Ptr}
    (hs : Shape s own ch) (hp : Proto s own) (hh : Held s own) (hf : Fresh s own s.brk)
    (hr : Runs s) (q : QId) (s2 : Engine)
    (h : fire_core s (Step.flush_begin q) = .ok s2) : Next s own s2 s.brk := by
  simp only [fire_core] at h
  split at h
  · next hpc =>
    exact post2_good_idle hh hf hr (flush_begin_post2 hs hp q false hpc s2 h) _ (le_refl _)
      (fun _ hp => absurd hp id) (fun _ hp => absurd hp id)
  · cases h

theorem step_flush_iter {s : Engine} {own : Ptr → Place} {ch : QId → List Ptr}
    (hs : Shape s own ch) (hp : Proto s own) (hh : Held s own) (hf : Fresh s own s.brk)
    (hr : Runs s) (env : Env) (he : env.fresh s) (q : QId) (s2 : Engine)
    (h : fire_core s (Step.flush_iter env q) = .ok s2) : Next s own s2 (s.brk + 2) := by
  simp only [fire_core] at h
  obtain ⟨_, e2, _, _, e5⟩ := env_facts hf env he
  split at h
  · next in_stop hpc =>
    obtain ⟨own2, ch2, P⟩ := flush_iter_post2 hs hp env q in_stop hpc e2 s2 h
    refine post2_good_idle hh hf hr P _ (Nat.le_add_right _ _) ?_ ?_
    · intro p hp
      rcases hp with hx | hx
      · exact ⟨(e2 p hx).1, fun k hk => e5 k (by rw [← hk]; exact hx)⟩
      · rw [hx]
        exact ⟨hp.r2 q in_stop hpc, fun k hk => by cases hk⟩
    · intro k hk
      rcases hk with hk | hk
      · exact (env_low env he).2 k hk
      · cases hk
  · cases h

theorem step_stop_begin {s : Engine} {own : Ptr → Place} {ch : QId → List Ptr}
    (hs : Shape s own ch) (hp : Proto s own) (hh : Held s own) (hf : Fresh s own s.brk)
    (hr : Runs s) (q : QId) (s2 : Engine)
    (h : fire_core s (Step.stop_begin q) = .ok s2) : Next s own s2 s.brk := by
  simp only [fire_core] at h
  split at h
  · next hpc =>
    split at h
    · cases h
    · split at h
      · cases h
      · next s1 h1 =>
        obtain ⟨P1, _, _, _, hc, _⟩ :=
          ref_post2 hs hp q s1 (fun _ => False) (fun _ hp => absurd hp id) h1
        have P2 := flush_begin_post2 P1.shape P1.proto q true (by rw [hc]; exact hpc) s2 h
        exact post2_good_idle hh hf hr (P1.post2_seq P2) _ (le_refl _)
          (fun _ hp => absurd hp id) (fun _ hp => absurd hp id)
  · cases h

theorem step_stop_body {s : Engine} {own : Ptr → Place} {ch : QId → List Ptr}
    (hs : Shape s own ch) (hp : Proto s own) (hh : Held s own) (hf : Fresh s own s.brk)
    (hr : Runs s) (env : Env) (he : env.fresh s) (q : QId) (s2 : Engine)
    (h : fire_core s (Step.stop_body env q) = .ok s2) : Next s own s2 (s.brk + 2) := by
  simp only [fire_core] at h
  obtain ⟨_, e2, _, _, e5⟩ := env_facts hf env he
  split at h
  · next r hpc =>
    obtain ⟨own2, ch2, P⟩ := stop_body_post2 hs hp env q r hpc e2 s2 h
    refine post2_good_idle hh hf hr P _ (Nat.le_add_right _ _) ?_ ?_
    · intro p hp
      rcases hp with hp | ⟨hp, hb⟩
      · exact ⟨(e2 p hp).1, fun k hk => e5 k (by rw [← hk]; exact hp)⟩
      · exact ⟨hb, fun k hk => by rw [hk] at hp; cases hp⟩
    · intro k hk
      rcases hk with hk | ⟨hk, _⟩
      · exact (env_low env he).2 k hk
      · cases hk
  · cases h

/-! ## C4: the invariant when a flush or stop call wakes up -/

/-- The flush call on `q` has seen its flag and goes back to the head of its
loop. -/
theorem step_flush_wake {s : Engine} {own : Ptr → Place} {ch : QId → List Ptr}
    (hs : Shape s own ch) (hp : Proto s own) (hh : Held s own) (hf : Fresh s own s.brk)
    (hr : Runs s) (q : QId) (s2 : Engine)
    (h : fire_core s (Step.flush_wake q) = .ok s2) : Next s own s2 s.brk := by
  simp only [fire_core] at h
  split at h
  · next in_stop hpc =>
    split at h
    · next hflag =>
      simp only [Except.ok.injEq] at h
      subst h
      refine ⟨own, ch, hs.shape_alike rfl (fun _ => ⟨rfl, rfl, rfl, fun _ => rfl⟩) ⟨rfl, rfl⟩
        rfl rfl, ?_, ⟨hh.thr, hh.stk, hh.nomain⟩, hf, hr, fun _ _ hb => hb,
        fun _ _ hm _ => Or.inl hm, hf.not_held, fun _ h => h⟩
      refine hp.update_one q ?_ (fun _ _ => rfl) (fun _ _ => rfl) (fun _ _ => rfl)
        (fun _ _ => rfl) (fun _ _ h => h) ?_ ?_ ?_ ?_ ?_
      · intro q0 hq0
        simp [Function.update_noteq hq0]
      · intro _ _
        exact hp.r3 q in_stop hpc hflag
      · intro b e
        simp at e
      · intro e
        simp at e
      · intro e
        simp at e
      · intro h1 h2 _ _
        exact hp.r6 q h1 h2 (by rw [hpc]; simp) (by rw [hpc]; simp)
    · cases h
  · cases h

/-- Source `work_queue_stop` after its wait: `zero(q->item)`, then the label
`out:`. -/
theorem stop_wake_post2 {s : Engine} {own : Ptr → Place} {ch : QId → List Ptr}
    (hs : Shape s own ch) (hp : Proto s own) (env : Env) (q : QId)
    (hidle : (own (Ptr.ctl q)).busy = false)
    (hrun : ∀ x, env.runner = some x → (own x).busy = false ∧ ∃ k, x = Ptr.node k)
    (s2 : Engine) (h : stop_out env (s.setItem (Ptr.ctl q) WorkItem.zero) q 0 = .ok s2) :
    ∃ own2 ch2, Post2 s own s2 own2 ch2
      (fun p => env.runner = some p ∨ (p = Ptr.ctl q ∧ (own p).busy = false)) := by
  simp only [stop_out] at h
  split at h
  · cases h
  · next s1 hun =>
    simp only [Except.ok.injEq] at h
    subst h
    have hni : ∀ o, own (Ptr.ctl q) ≠ Place.inq o := by
      intro o e; rw [e] at hidle; cases hidle
    have hsz := hs.set_idle (Ptr.ctl q) WorkItem.zero hni (fun k e => by cases e)
      (fun q0 _ => by simp [CtlOk, WorkItem.zero]) (fun k _ e => by cases e)
      (fun _ _ _ _ e => by simp [WorkItem.zero] at e)
    obtain ⟨own2, ch2, P⟩ := unref_core hsz env q (fun _ _ _ _ => hidle) (fun _ => hrun) s1 hun
    have P2 := close_core P hp rfl rfl rfl
      (fun x hx => by simp [Engine.setItem, Function.update_noteq hx]) rfl rfl rfl
      (fun _ => hidle) CtlPc.idle (Or.inl rfl) (Event.stop_returned q 0) rfl
    refine ⟨own2, ch2, P2.post2_mono ?_ ?_⟩
    · intro p hp0
      rcases hp0 with e | e
      · exact Or.inl e.2
      · exact Or.inr e
    · intro p hp0 hn
      rcases hp0 with e | e
      · exact (hrun p e).1
      · exact e.2

theorem step_stop_wake {s : Engine} {own : Ptr → Place} {ch : QId → List Ptr}
    (hs : Shape s own ch) (hp : Proto s own) (hh : Held s own) (hf : Fresh s own s.brk)
    (hr : Runs s) (env : Env) (he : env.fresh s) (q : QId) (s2 : Engine)
    (h : fire_core s (Step.stop_wake env q) = .ok s2) : Next s own s2 (s.brk + 2) := by
  simp only [fire_core] at h
  obtain ⟨_, e2, _, _, e5⟩ := env_facts hf env he
  split at h
  · next hpc =>
    split at h
    · next hflag =>
      obtain ⟨own2, ch2, P⟩ := stop_wake_post2 hs hp env q (hp.r4 q hpc hflag) e2 s2 h
      refine post2_good_idle hh hf hr P _ (Nat.le_add_right _ _) ?_ ?_
      · intro p hx
        rcases hx with hx | ⟨hx, hb⟩
        · exact ⟨(e2 p hx).1, fun k hk => e5 k (by rw [← hk]; exact hx)⟩
        · exact ⟨hb, fun k hk => by rw [hk] at hx; cases hx⟩
      · intro k hk
        rcases hk with hk | ⟨hk, _⟩
        · exact (env_low env he).2 k hk
        · cases hk
    · cases h
  · cases h

/-! ## C4: the invariant when a thread moves on -/

theorem count_flatMap_two (l : List Pc) (pc1 pc2 : Pc) (p : Ptr) (h1 : pc1 ∈ l)
    (h2 : pc2 ∈ l.erase pc1) (hp1 : p ∈ pc1.items) (hp2 : p ∈ pc2.items) :
    2 ≤ (l.flatMap Pc.items).count p := by
  have hperm : (l.flatMap Pc.items).Perm ((pc1 :: l.erase pc1).flatMap Pc.items) :=
    (List.perm_cons_erase h1).flatMap_right _
  rw [hperm.count_eq, List.flatMap_cons, List.count_append]
  have a : 0 < pc1.items.count p := List.count_pos_iff.2 hp1
  have b : 0 < ((l.erase pc1).flatMap Pc.items).count p :=
    List.count_pos_iff.2 (List.mem_flatMap.2 ⟨pc2, h2, hp2⟩)
  omega

theorem count_items_le (l : List Pc) (pc : Pc) (p : Ptr) (h : pc ∈ l) :
    pc.items.count p ≤ (l.flatMap Pc.items).count p := by
  have hperm : (l.flatMap Pc.items).Perm ((pc :: l.erase pc).flatMap Pc.items) :=
    (List.perm_cons_erase h).flatMap_right _
  rw [hperm.count_eq, List.flatMap_cons, List.count_append]
  omega

theorem Held.count_le {s : Engine} {own : Ptr → Place} (hh : Held s own) (o : QId) (p : Ptr) :
    ((s.threads o).flatMap Pc.items).count p ≤ 1 := by
  rw [hh.thr o p]
  split <;> omega

/-- An item is held by one thread only. -/
theorem Held.unique {s : Engine} {own : Ptr → Place} (hh : Held s own) (o1 o2 : QId)
    (pc1 pc2 : Pc) (p : Ptr) (h1 : pc1 ∈ s.threads o1) (h2 : pc2 ∈ s.threads o2)
    (hp1 : p ∈ pc1.items) (hp2 : p ∈ pc2.items) : o1 = o2 ∧ pc1 = pc2 := by
  have e1 := hh.own_of_mem o1 pc1 p h1 hp1
  have e2 := hh.own_of_mem o2 pc2 p h2 hp2
  rw [e1] at e2
  injection e2 with e2
  subst e2
  refine ⟨rfl, ?_⟩
  by_contra hne
  have := count_flatMap_two _ pc1 pc2 p h1 ((List.mem_erase_of_ne (Ne.symm hne)).2 h2) hp1 hp2
  have := hh.count_le o1 p
  omega

/-- A thread holds an item once. -/
theorem Held.items_count {s : Engine} {own : Ptr → Place} (hh : Held s own) (o : QId) (pc : Pc)
    (p : Ptr) (h : pc ∈ s.threads o) : pc.items.count p ≤ 1 :=
  le_trans (count_items_le _ pc p h) (hh.count_le o p)

/-- Runner items stay runner items when a call has run on items that the
thread `old` held, and the thread moves on. -/
theorem Runs.after_move {s s1 : Engine} {own own1 : Ptr → Place} {ch1 : QId → List Ptr}
    {S : Ptr → Prop} (hr : Runs s) (hh : Held s own) (P : Post2 s own s1 own1 ch1 S)
    (q : QId) (old new : Pc) (hold : old ∈ s.threads q)
    (hS : ∀ p, S p → (∀ o, own p ≠ Place.thr o) ∨ p ∈ old.items)
    (hnew : ∀ r, new.runner_of = some r →
      (∃ k, r = Ptr.node k) ∧ RunnerOk (s1.heap r) new) :
    Runs (s1.move q old new) := by
  have key : ∀ o pc r, pc ∈ s1.threads o → (o = q → pc ∈ (s1.threads q).erase old) →
      pc.runner_of = some r → (∃ k, r = Ptr.node k) ∧ RunnerOk (s1.heap r) pc := by
    intro o pc r hpc her hro
    rcases P.held.back o pc hpc with h | h
    · obtain ⟨⟨k, hk⟩, hok⟩ := hr o pc r h hro
      subst hk
      have hmem := Pc.runner_of_mem pc _ hro
      have hown := hh.own_of_mem o pc _ h hmem
      have hn : ¬ S (Ptr.node k) := by
        intro hs
        rcases hS _ hs with h0 | h0
        · exact h0 o hown
        · obtain ⟨e1, e2⟩ := hh.unique o q pc old _ h hold hmem h0
          have h3 := her e1
          rw [e2] at h3
          have h4 := count_flatMap_two _ old old _ (P.held.mem q old hold) h3 h0 h0
          rw [P.held.items q] at h4
          have := hh.count_le q (Ptr.node k)
          omega
      exact ⟨⟨k, rfl⟩, hok.runner_congr (P.pay k hn)⟩
    · rw [h] at hro
      cases hro
  intro o pc r hpc hro
  simp only [Engine.move] at hpc
  by_cases hoq : o = q
  · subst hoq
    rw [Function.update_same, List.mem_cons] at hpc
    rcases hpc with h | h
    · rw [h] at hro ⊢
      exact hnew r hro
    · exact key o pc r (List.mem_of_mem_erase h) (fun _ => h) hro
  · rw [Function.update_noteq hoq] at hpc
    exact key o pc r hpc (fun e => absurd e hoq) hro

/-- Two states with the same memory and the same list heads link the same
items. -/
theorem Shape.same_lists {s s2 : Engine} {own own2 : Ptr → Place} {ch ch2 : QId → List Ptr}
    (h1 : Shape s own ch) (h2 : Shape s2 own2 ch2) (hh : s2.heap = s.heap)
    (hq : ∀ o, (s2.queues o).head = (s.queues o).head) (p : Ptr) (o : QId) :
    own2 p = Place.inq o ↔ own p = Place.inq o := by
  have e : ch2 o = ch o := by
    have a := (h2.wf o).seg
    rw [hh, hq o] at a
    exact Lseg_functional _ _ _ _ a (h1.wf o).seg
  rw [← h1.mem, ← h2.mem, e]

/-- A runner item whose `__wq_run_bucket` has returned stays with its thread
when another thread moves. -/
theorem keep_fin_move {s s1 : Engine} (hm : HeldSame s s1) (q : QId) (old new : Pc)
    (o : QId) (p : Ptr) (h : Pc.runner_fin p ∈ s.threads o)
    (hne : ¬ (o = q ∧ old = Pc.runner_fin p)) :
    Pc.runner_fin p ∈ (s1.move q old new).threads o := by
  have h1 := hm.mem o _ h
  simp only [Engine.move]
  by_cases hoq : o = q
  · subst hoq
    rw [Function.update_same]
    have hno : Pc.runner_fin p ≠ old := fun e => hne ⟨rfl, e.symm⟩
    exact List.mem_cons_of_mem _ ((List.mem_erase_of_ne hno).2 h1)
  · rw [Function.update_noteq hoq]
    exact h1

/-- The invariant after a call has run on items that the thread `old` of `q`
held, and the thread moves on to `new` with the items the call did not name. -/
theorem exec_move_good {s s1 : Engine} {own own1 : Ptr → Place} {ch1 : QId → List Ptr}
    {S : Ptr → Prop} (hh : Held s own) (hf : Fresh s own s.brk) (hr : Runs s)
    (P : Post2 s own s1 own1 ch1 S) (b2 : Nat) (hb : s.brk ≤ b2)
    (q : QId) (old new : Pc) (hold : old ∈ s.threads q)
    (hS : ∀ p, S p → ((∀ o, own p ≠ Place.thr o) ∧ own p ≠ Place.mstack) ∨ p ∈ old.items)
    (hSb : ∀ k, S (Ptr.node k) → k < b2)
    (hgo : ∀ x, S x → x ∉ new.items)
    (hstay : ∀ x, ¬ S x → new.items.count x = old.items.count x)
    (hnew : ∀ r, new.runner_of = some r →
      (∃ k, r = Ptr.node k) ∧ RunnerOk (s1.heap r) new)
    (hSk : ∀ k, S (Ptr.node k) → k < s.brk → (own (Ptr.node k)).busy = true)
    (hfin : ∀ p, old = Pc.runner_fin p → (s.heap p).notify = none → (own1 p).busy = false) :
    Next s own (s1.move q old new) b2 := by
  have hsh : Shape (s1.move q old new) own1 ch1 :=
    P.shape.shape_alike rfl (fun _ => ⟨rfl, rfl, rfl, fun _ => rfl⟩) ⟨rfl, rfl⟩ rfl rfl
  have hpr : Proto (s1.move q old new) own1 :=
    ⟨P.proto.r2, P.proto.r3, P.proto.r4, P.proto.r5, P.proto.r6⟩
  have hfr : Fresh (s1.move q old new) own1 b2 := P.fresh s.brk b2 hf hb hSb
  have hkeep : Keep s own (s1.move q old new) own1 := by
    refine ⟨P.keep_busy hSk, ?_, P.keep_fresh hf, P.trans.acc⟩
    intro o p hm hn
    by_cases hc : o = q ∧ old = Pc.runner_fin p
    · exact Or.inr (hfin p hc.2 hn)
    · exact Or.inl (keep_fin_move P.held q old new o p hm hc)
  refine ⟨own1, ch1, hsh, hpr, ?_, hfr, hr.after_move hh P q old new hold
    (fun p hp => (hS p hp).imp (fun h => h.1) id) hnew, hkeep⟩
  refine hh.held_moved P.held q old new hold rfl rfl ?_ ?_
  · intro x o
    by_cases hx : S x
    · have h1 : ¬ own1 x = Place.thr o := (P.grow x hx).1 o
      have h2 : new.items.count x = 0 := List.count_eq_zero.2 (hgo x hx)
      rw [if_neg h1, h2]
      rcases hS x hx with ⟨h3, _⟩ | h3
      · have h4 : old.items.count x = 0 := by
          apply List.count_eq_zero.2
          intro hm
          exact h3 q (hh.own_of_mem q old x hold hm)
        rw [if_neg (h3 o), h4]
      · have h4 : own x = Place.thr q := hh.own_of_mem q old x hold h3
        have h5 : old.items.count x = 1 :=
          le_antisymm (hh.items_count q old x hold) (List.count_pos_iff.2 h3)
        rw [h4, h5]
        by_cases hoq : o = q
        · subst hoq; simp
        · rw [if_neg hoq, if_neg hoq, if_neg (fun e => hoq (by injection e with e; exact e.symm))]
    · have hd := (P.trans.drop x).resolve_left hx
      rw [hstay x hx]
      by_cases h : own x = Place.thr o
      · rw [if_pos h, if_pos ((hd.drop_thr_iff o).2 h)]
      · rw [if_neg h, if_neg (fun e => h ((hd.drop_thr_iff o).1 e))]
  · intro x
    by_cases hx : S x
    · constructor
      · intro e
        exact absurd e (P.grow x hx).2
      · intro e
        rcases hS x hx with ⟨_, h3⟩ | h3
        · exact absurd e h3
        · rw [hh.own_of_mem q old x hold h3] at e
          cases e
    · exact ((P.trans.drop x).resolve_left hx).mstack_iff

/-! ## C4: the invariant along the steps of the threads that run items -/

theorem step_worker_work {s : Engine} {own : Ptr → Place} {ch : QId → List Ptr}
    (hs : Shape s own ch) (hp : Proto s own) (hh : Held s own) (hf : Fresh s own s.brk)
    (hr : Runs s) (env : Env) (he : env.fresh s) (q : QId) (p : Ptr) (s2 : Engine)
    (h : fire_core s (Step.worker_work env q p) = .ok s2) : Next s own s2 (s.brk + 2) := by
  simp only [fire_core] at h
  obtain ⟨_, e2, _, _, e5⟩ := env_facts hf env he
  split at h
  · next hg =>
    obtain ⟨hmem, _⟩ := hg
    split at h
    · cases h
    · next s1 hex =>
      simp only [Except.ok.injEq] at h
      subst h
      have hown : own p = Place.thr q := hh.own_of_mem q _ p hmem (by simp [Pc.items])
      obtain ⟨own1, ch1, P⟩ := execute_post2 hs hp env p false (Or.inl ⟨q, hown⟩) e2
        (fun k u _ _ => by rw [hown]; simp) s1 hex
      refine exec_move_good hh hf hr P _ (Nat.le_add_right _ _) q (Pc.exec p) Pc.fin hmem
        ?_ ?_ ?_ ?_ ?_ ?_ ?_
      · intro x hx
        rcases hx with hx | hx
        · right; rw [hx]; simp [Pc.items]
        · left; exact Place.idle_not_held (e2 x hx).1
      · intro k hx
        rcases hx with hx | hx
        · have := hf.old k (by rw [hx, hown]; simp)
          omega
        · exact e5 k hx
      · intro x _
        simp [Pc.items]
      · intro x hx
        have hne : x ≠ p := fun e => hx (Or.inl e)
        simp [Pc.items, List.count_cons, Ne.symm hne]
      · intro k e
        cases e
      · intro k hx hlt
        rcases hx with hx | hx
        · rw [hx, hown]; rfl
        · have := (env_low env he).2 k hx
          omega
      · intro x e
        cases e
  · cases h

theorem step_runner_work {s : Engine} {own : Ptr → Place} {ch : QId → List Ptr}
    (hs : Shape s own ch) (hp : Proto s own) (hh : Held s own) (hf : Fresh s own s.brk)
    (hr : Runs s) (env : Env) (he : env.fresh s) (q : QId) (r : Ptr) (b : Nat) (p : Ptr)
    (s2 : Engine) (h : fire_core s (Step.runner_work env q r b p) = .ok s2) :
    Next s own s2 (s.brk + 2) := by
  simp only [fire_core] at h
  obtain ⟨_, e2, _, _, e5⟩ := env_facts hf env he
  split at h
  · next hmem =>
    split at h
    · cases h
    · next s1 hex =>
      simp only [Except.ok.injEq] at h
      subst h
      have hown : own p = Place.thr q := hh.own_of_mem q _ p hmem (by simp [Pc.items])
      have hownr : own r = Place.thr q := hh.own_of_mem q _ r hmem (by simp [Pc.items])
      have hrp : r ≠ p := by
        intro e
        have := hh.items_count q _ p hmem
        rw [e] at this
        simp [Pc.items] at this
      have hrr : env.runner ≠ some r := by
        intro e
        have := (e2 r e).1
        rw [hownr] at this
        cases this
      obtain ⟨own1, ch1, P⟩ := execute_post2 hs hp env p false (Or.inl ⟨q, hown⟩) e2
        (fun k u _ _ => by rw [hown]; simp) s1 hex
      have hnr : ¬ (r = p ∨ env.runner = some r) := fun e => e.elim hrp hrr
      refine exec_move_good hh hf hr P _ (Nat.le_add_right _ _) q (Pc.runner_exec r b p)
        (Pc.runner r b (work_item_is_stop (s.heap p))) hmem ?_ ?_ ?_ ?_ ?_ ?_ ?_
      · intro x hx
        rcases hx with hx | hx
        · right; rw [hx]; simp [Pc.items]
        · left; exact Place.idle_not_held (e2 x hx).1
      · intro k hx
        rcases hx with hx | hx
        · have := hf.old k (by rw [hx, hown]; simp)
          omega
        · exact e5 k hx
      · intro x hx
        simp only [Pc.items, List.mem_singleton]
        intro e
        rw [e] at hx
        exact hnr hx
      · intro x hx
        have hne : x ≠ p := fun e => hx (Or.inl e)
        simp [Pc.items, List.count_cons, Ne.symm hne]
      · intro r0 e
        simp only [Pc.runner_of, Option.some.injEq] at e
        subst e
        obtain ⟨⟨k, hk⟩, hok⟩ := hr q _ r hmem rfl
        subst hk
        exact ⟨⟨k, rfl⟩, (hok.runner_congr (P.pay k hnr)).of_bucket (fun m hm => hm)⟩
      · intro k hx hlt
        rcases hx with hx | hx
        · rw [hx, hown]; rfl
        · have := (env_low env he).2 k hx
          omega
      · intro x e
        cases e
  · cases h

theorem step_runner_return {s : Engine} {own : Ptr → Place} {ch : QId → List Ptr}
    (hs : Shape s own ch) (hp : Proto s own) (hh : Held s own) (hf : Fresh s own s.brk)
    (hr : Runs s) (env : Env) (he : env.fresh s) (q : QId) (r : Ptr)
    (s2 : Engine) (h : fire_core s (Step.runner_return env q r) = .ok s2) :
    Next s own s2 (s.brk + 2) := by
  simp only [fire_core] at h
  obtain ⟨_, e2, _, _, e5⟩ := env_facts hf env he
  split at h
  · next hmem =>
    split at h
    · cases h
    · next s1 hex =>
      simp only [Except.ok.injEq] at h
      subst h
      have hownr : own r = Place.thr q := hh.own_of_mem q _ r hmem (by simp [Pc.items])
      have hrr : env.runner ≠ some r := by
        intro e
        have := (e2 r e).1
        rw [hownr] at this
        cases this
      have hnu : ∀ k u, r = Ptr.node k → (s.heap r).work ≠ some (Fn.user u) := by
        intro k u e
        exact hr.not_user q _ r hmem rfl u
      have P0 := place_post2 hs hp r (Or.inl ⟨q, hownr⟩)
        (fun k u e hw => absurd hw (hnu k u e))
      obtain ⟨own1, ch1, P1⟩ := finish_post2 P0.shape hp env r
        (!work_item_is_static (s.heap r))
        (by
          intro q0 hb
          by_cases e : Ptr.ctl q0 = r
          · rw [e, hownr]; rfl
          · rw [Function.update_noteq e] at hb
            exact hb)
        (by
          intro q0 e
          rw [← e, hownr]; rfl)
        (Function.update_same _ _ _)
        (by
          intro x hx
          have hne : x ≠ r := fun e => hrr (by rw [← e]; exact hx)
          rw [Function.update_noteq hne]
          exact e2 x hx)
        hrr
        (by
          intro q0 e hv
          have := (hs.dead q0 hv).1
          rw [← e, hownr] at this
          cases this)
        (fun k u e hw => absurd hw (hnu k u e))
        (fun q0 e => by
          obtain ⟨⟨k, hk⟩, _⟩ := hr q _ r hmem rfl
          rw [hk] at e
          cases e) s1 hex
      have P : Post2 s own s1 own1 ch1 (fun p => p = r ∨ env.runner = some p) :=
        (P0.then P1).weaken (fun p hp0 => by
            rcases hp0 with e | e | e
            · exact Or.inl e
            · exact Or.inr e
            · exact Or.inl e)
          (fun p hp0 => hp0.elim Or.inl (fun e => Or.inr (Or.inl e)))
      refine exec_move_good hh hf hr P _ (Nat.le_add_right _ _) q (Pc.runner_fin r) Pc.fin hmem
        ?_ ?_ ?_ ?_ ?_ ?_ ?_
      · intro x hx
        rcases hx with hx | hx
        · right; rw [hx]; simp [Pc.items]
        · left; exact Place.idle_not_held (e2 x hx).1
      · intro k hx
        rcases hx with hx | hx
        · have := hf.old k (by rw [hx, hownr]; simp)
          omega
        · exact e5 k hx
      · intro x _
        simp [Pc.items]
      · intro x hx
        have hne : x ≠ r := fun e => hx (Or.inl e)
        simp [Pc.items, List.count_cons, Ne.symm hne]
      · intro k e
        cases e
      · intro k hx hlt
        rcases hx with hx | hx
        · rw [hx, hownr]; rfl
        · have := (env_low env he).2 k hx
          omega
      · intro x e hn
        injection e with e
        subst e
        simp only [work_item_finish, hn, Option.isSome_none, Bool.false_eq_true, if_false,
          Except.ok.injEq] at hex
        subst hex
        have hiff := hs.same_lists P.shape rfl (fun _ => rfl) r
        obtain ⟨g1, g2⟩ := P.grow r (Or.inl rfl)
        cases hown1 : own1 r with
        | out => rfl
        | gone => rfl
        | inq o =>
          have := (hiff o).1 hown1
          rw [hownr] at this
          cases this
        | thr o => exact absurd hown1 (g1 o)
        | mstack => exact absurd hown1 g2
  · cases h

/-- Events about an item that a thread holds and that no caller submitted are
logged. -/
theorem emit_held_post2 {s : Engine} {own : Ptr → Place} {ch : QId → List Ptr}
    (hs : Shape s own ch) (hp : Proto s own) (item : Ptr) (evs : List Event)
    (hev : ∀ e ∈ evs, e.item = some item) (hbusy : (own item).busy = true)
    (hnu : ∀ k u, item = Ptr.node k → (s.heap item).work ≠ some (Fn.user u)) :
    Post2 s own { s with log := s.log ++ evs } own ch (fun _ => False) := by
  have hab : ∀ p, p ≠ item → about (s.log ++ evs) p = about s.log p := by
    intro p hne
    apply about_emit_ne
    intro e he
    rw [hev e he]
    simp only [ne_eq, Option.some.injEq]
    exact fun e => hne e.symm
  refine ⟨?_, ⟨hp.r2, hp.r3, hp.r4, hp.r5, hp.r6⟩,
    ⟨fun _ => Or.inr (Or.inl rfl), ?_, fun _ h => h⟩, fun _ h => absurd h id, fun _ _ => rfl,
    ⟨fun _ => rfl, rfl, id, fun _ _ h => h, fun _ _ h => Or.inl h⟩⟩
  · refine hs.relog _ own (fun _ _ => Iff.rfl) (fun q0 hv => (hs.dead q0 hv).1) ?_
      (fun _ h => h)
    intro k u hw
    have hne : Ptr.node k ≠ item := by
      intro e
      exact hnu k u e.symm (by rw [← e]; exact hw)
    rw [hab _ hne]
    exact hs.life k u hw
  · intro p hb
    right
    apply hab
    intro e
    rw [e, hbusy] at hb
    cases hb

theorem step_runner_enter {s : Engine} {own : Ptr → Place} {ch : QId → List Ptr}
    (hs : Shape s own ch) (hp : Proto s own) (hh : Held s own) (hf : Fresh s own s.brk)
    (hr : Runs s) (q : QId) (r : Ptr) (b : Nat) (s2 : Engine)
    (h : fire_core s (Step.runner_enter q r b) = .ok s2) : Next s own s2 s.brk := by
  simp only [fire_core] at h
  split at h
  · next hg =>
    obtain ⟨hmem, hw, hdat⟩ := hg
    simp only [Except.ok.injEq] at h
    subst h
    have hownr : own r = Place.thr q := hh.own_of_mem q _ r hmem (by simp [Pc.items])
    have P := emit_held_post2 hs hp r [Event.work Fn.wq_run_bucket (Data.queue (QId.bucket b)) r]
      (by intro e he; simp only [List.mem_singleton] at he; rw [he]; rfl)
      (by rw [hownr]; rfl) (fun k u _ => by rw [hw]; simp)
    refine exec_move_good hh hf hr P _ (le_refl _) q (Pc.exec r) (Pc.runner r b false) hmem
      (fun _ hx => absurd hx id) (fun _ hx => absurd hx id) (fun _ hx => absurd hx id)
      (fun _ _ => rfl) ?_ (fun _ hx _ => absurd hx id) (fun _ e => by cases e)
    intro r0 e
    simp only [Pc.runner_of, Option.some.injEq] at e
    subst e
    refine ⟨?_, hw, ?_⟩
    · cases r with
      | node k => exact ⟨k, rfl⟩
      | ctl q0 => exact absurd hw (hs.ctl q0).2.2.2.2
    · intro m hm
      simp only [Pc.bucket_of, Option.some.injEq] at hm
      subst hm
      exact hdat
  · cases h

theorem step_worker_relock {s : Engine} {own : Ptr → Place} {ch : QId → List Ptr}
    (hs : Shape s own ch) (hp : Proto s own) (hh : Held s own) (hf : Fresh s own s.brk)
    (hr : Runs s) (q : QId) (s2 : Engine)
    (h : fire_core s (Step.worker_relock q) = .ok s2) : Next s own s2 s.brk := by
  simp only [fire_core] at h
  split at h
  · next hmem =>
    simp only [Except.ok.injEq] at h
    subst h
    have hqm : q ≠ QId.main := by
      intro e
      rw [e, hh.nomain] at hmem
      cases hmem
    have P := Post2.post2_set_queue hs hp q
      { s.queues q with n_running := (s.queues q).n_running - 1 } rfl rfl rfl (fun _ => rfl)
      (fun e => absurd e hqm) (fun _ => False) (fun _ hx => absurd hx id)
    exact exec_move_good hh hf hr P _ (le_refl _) q Pc.fin Pc.wait hmem
      (fun _ hx => absurd hx id) (fun _ hx => absurd hx id) (fun _ hx => absurd hx id)
      (fun _ _ => rfl) (fun k e => by cases e) (fun _ hx _ => absurd hx id)
      (fun _ e => by cases e)
  · cases h

/-! ## C4: the invariant when a thread takes an item off a queue -/

/-- The head item of a queue is linked in that queue. -/
theorem Shape.head_own {s : Engine} {own : Ptr → Place} {ch : QId → List Ptr}
    (hs : Shape s own ch) (q : QId) (hd : Ptr) (hhead : (s.queues q).head = some hd) :
    own hd = Place.inq q := by
  have hw := hs.wf q
  cases hl : ch q with
  | nil =>
    have := hw.seg
    rw [hl] at this
    simp only [Lseg] at this
    rw [this] at hhead
    cases hhead
  | cons p rest =>
    have := hw.seg
    rw [hl] at this
    simp only [Lseg] at this
    rw [this.1] at hhead
    injection hhead with e
    subst e
    exact (hs.mem q p).1 (by rw [hl]; simp)

/-- A thread of a queue, or the main thread, takes the head item `hd` off
queue `q`; the count of running items may be written. -/
theorem take_core {s : Engine} {own : Ptr → Place} {ch : QId → List Ptr}
    (hs : Shape s own ch) (hp : Proto s own) (q : QId) (hd : Ptr)
    (hhead : (s.queues q).head = some hd) (r : Option Ptr) (h1 : Heap) (Q1 : WorkQueue)
    (hdr : _work_queue_drain_one_unlocked s.heap (s.queues q) = .ok (r, h1, Q1))
    (X : Place) (hX : (q = QId.main ∧ X = Place.mstack) ∨ (q ≠ QId.main ∧ ∃ o, X = Place.thr o))
    (n : Int) :
    own hd = Place.inq q
      ∧ (∀ x, payload (h1 x) = payload (s.heap x))
      ∧ ∃ ch2, Shape { s with heap := h1,
                              queues := Function.update s.queues q { Q1 with n_running := n } }
          (Function.update own hd X) ch2
        ∧ Proto { s with heap := h1,
                         queues := Function.update s.queues q { Q1 with n_running := n } }
          (Function.update own hd X) := by
  have hown := hs.head_own q hd hhead
  obtain ⟨_, hpay, _, ch2, hs2, hp2⟩ := pop_held hs hp q hd hhead r h1 Q1 hdr X
    (by
      rcases hX with ⟨_, e⟩ | ⟨_, o, e⟩
      · exact Or.inr e
      · exact Or.inl ⟨o, e⟩)
    (by
      intro k u e hw
      have hl := hs.life k u (by rw [← e]; exact hw)
      rw [← e, hown] at hl
      rcases hX with ⟨e1, e2⟩ | ⟨e1, o, e2⟩
      · rw [e2]
        simpa only [Life, e1, if_true] using hl
      · rw [e2]
        simpa only [Life, e1, if_false] using hl)
  refine ⟨hown, hpay, ch2, ?_, ?_⟩
  · have := hs2.shape_set_queue q { Q1 with n_running := n }
      (by simp) (by simp) (by simp) (fun _ => by simp) (fun e => by simp)
    simpa [Engine.setQ] using this
  · refine hp2.proto_transfer ⟨rfl, rfl, fun _ => rfl, fun _ => rfl, ?_⟩ (fun _ h => h)
    intro q0
    by_cases e : q0 = q
    · subst e; simp
    · simp [Function.update_noteq e]

/-- The three ways `run_begin` ends: nothing is done, a barrier or stop item
at the head is taken off and executed under the lock, or the head item is
taken off to be run. -/
theorem run_begin_cases (env : Env) (s : Engine) (q : QId) (ran : Ran) (s1 : Engine)
    (h : run_begin env s q = .ok (ran, s1)) :
    ((∃ r, ran = Ran.ret r) ∧ s1 = s)
    ∨ (∃ r hd r0 h1 Q1, ran = Ran.ret r ∧ (s.queues q).head = some hd
        ∧ work_item_is_static (s.heap hd) = true
        ∧ _work_queue_drain_one_unlocked s.heap (s.queues q) = .ok (r0, h1, Q1)
        ∧ work_item_execute env { s with heap := h1, queues := Function.update s.queues q Q1 }
            hd (decide (q = QId.main)) = .ok s1)
    ∨ (∃ hd r0 h1 Q1, ran = Ran.took hd ∧ (s.queues q).head = some hd
        ∧ _work_queue_drain_one_unlocked s.heap (s.queues q) = .ok (r0, h1, Q1)
        ∧ s1 = { s with heap := h1,
                        queues := Function.update s.queues q
                          { Q1 with n_running := Q1.n_running + 1 } }) := by
  simp only [run_begin] at h
  split at h
  · simp only [Except.ok.injEq, Prod.mk.injEq] at h
    exact Or.inl ⟨⟨_, h.1.symm⟩, h.2.symm⟩
  · next hd hhead =>
    split at h
    · simp only [Except.ok.injEq, Prod.mk.injEq] at h
      exact Or.inl ⟨⟨_, h.1.symm⟩, h.2.symm⟩
    · split at h
      · next hstop =>
        have hst : work_item_is_static (s.heap hd) = true := by
          simp [work_item_is_static, hstop]
        split at h
        · simp only [Except.ok.injEq, Prod.mk.injEq] at h
          exact Or.inl ⟨⟨_, h.1.symm⟩, h.2.symm⟩
        · split at h
          · cases h
          · next r0 h1 Q1 hdr =>
            split at h
            · cases h
            · next s2 hex =>
              simp only [Except.ok.injEq, Prod.mk.injEq] at h
              obtain ⟨e1, e2⟩ := h
              subst e2
              exact Or.inr (Or.inl ⟨_, hd, r0, h1, Q1, e1.symm, hhead, hst, hdr, hex⟩)
      · split at h
        · next hbar =>
          have hst : work_item_is_static (s.heap hd) = true := by
            simp [work_item_is_static, hbar]
          split at h
          · cases h
          · next r0 h1 Q1 hdr =>
            split at h
            · cases h
            · next s2 hex =>
              simp only [Except.ok.injEq, Prod.mk.injEq] at h
              obtain ⟨e1, e2⟩ := h
              subst e2
              exact Or.inr (Or.inl ⟨_, hd, r0, h1, Q1, e1.symm, hhead, hst, hdr, hex⟩)
        · split at h
          · cases h
          · next r0 h1 Q1 hdr =>
            simp only [Except.ok.injEq, Prod.mk.injEq] at h
            obtain ⟨e1, e2⟩ := h
            exact Or.inr (Or.inr ⟨hd, r0, h1, Q1, e1.symm, hhead, hdr, e2.symm⟩)

/-- The invariant when `run_begin` returns without leaving an item to run. -/
theorem run_begin_ret_good {s : Engine} {own : Ptr → Place} {ch : QId → List Ptr}
    (hs : Shape s own ch) (hp : Proto s own) (hh : Held s own) (hf : Fresh s own s.brk)
    (hr : Runs s) (env : Env) (he : env.fresh s) (q : QId) (r : Int) (s1 : Engine)
    (h : run_begin env s q = .ok (Ran.ret r, s1)) : Next s own s1 (s.brk + 2) := by
  obtain ⟨_, e2, _, _, e5⟩ := env_facts hf env he
  rcases run_begin_cases env s q _ s1 h with ⟨_, e⟩ | ⟨_, hd, r0, h1, Q1, _, hhead, hst, hdr, hex⟩
    | ⟨hd, _, _, _, e, _⟩
  · rw [e]
    exact ⟨own, ch, hs, hp, hh, hf.fresh_mono (Nat.le_add_right _ _), hr, fun _ _ hb => hb,
      fun _ _ hm _ => Or.inl hm, hf.not_held, fun _ h => h⟩
  · obtain ⟨own1, ch1, P⟩ := inline_post2 hs hp env q hd hhead hst e2 _ r0 h1 Q1 hdr s1 hex
    have hown := hs.head_own q hd hhead
    refine post2_good hh hf hr P _ (Nat.le_add_right _ _) ?_ ?_
    · intro p hx
      rcases hx with hx | hx
      · rw [hx, hown]
        refine ⟨⟨fun o e => (by cases e), fun e => (by cases e)⟩, ?_⟩
        intro k e
        have := hf.old k (by rw [← e, ← hx, hx, hown]; simp)
        omega
      · exact ⟨Place.idle_not_held (e2 p hx).1, fun k hk => e5 k (by rw [← hk]; exact hx)⟩
    · intro k hx hlt
      rcases hx with hx | hx
      · rw [hx, hown]
        rfl
      · have := (env_low env he).2 k hx
        omega
  · cases e

/-- The invariant after a thread of `q` has taken the head item of `qd` (its
own queue, or the bucket it serves) to run it. -/
theorem take_good {s : Engine} {own : Ptr → Place} {ch : QId → List Ptr}
    (hs : Shape s own ch) (hp : Proto s own) (hh : Held s own) (hf : Fresh s own s.brk)
    (hr : Runs s) (qd : QId) (hd : Ptr) (hhead : (s.queues qd).head = some hd)
    (r0 : Option Ptr) (h1 : Heap) (Q1 : WorkQueue)
    (hdr : _work_queue_drain_one_unlocked s.heap (s.queues qd) = .ok (r0, h1, Q1))
    (hqd : qd ≠ QId.main) (n : Int) (q : QId) (old new : Pc) (hold : old ∈ s.threads q)
    (hitems : ∀ x, new.items.count x = old.items.count x + (if x = hd then 1 else 0))
    (hrun : new.runner_of = old.runner_of)
    (hbk : ∀ m, new.bucket_of = some m → old.bucket_of = some m)
    (hnf : ∀ p, old ≠ Pc.runner_fin p) (b2 : Nat) (hb : s.brk ≤ b2) :
    Next s own
      (({ s with heap := h1,
                 queues := Function.update s.queues qd { Q1 with n_running := n } }).move
        q old new) b2 := by
  obtain ⟨hown, hpay, ch2, hs2, hp2⟩ := take_core hs hp qd hd hhead r0 h1 Q1 hdr (Place.thr q)
    (Or.inr ⟨hqd, q, rfl⟩) n
  have key : ∀ s1 : Engine, s1.threads = s.threads → s1.main_stack = s.main_stack →
      s1.heap = h1 → s1.log = s.log → Shape s1 (Function.update own hd (Place.thr q)) ch2 →
      Proto s1 (Function.update own hd (Place.thr q)) → Next s own (s1.move q old new) b2 := by
    intro s1 e1 e2 e3 e4 hs2 hp2
    have hsame : HeldSame s s1 :=
      ⟨fun o => by rw [e1], e2, fun h => by rw [e1]; exact h, fun o pc h => by rw [e1]; exact h,
        fun o pc h => by rw [e1] at h; exact Or.inl h⟩
    refine ⟨Function.update own hd (Place.thr q), ch2,
      hs2.shape_alike rfl (fun _ => ⟨rfl, rfl, rfl, fun _ => rfl⟩) ⟨rfl, rfl⟩ rfl rfl,
      ⟨hp2.r2, hp2.r3, hp2.r4, hp2.r5, hp2.r6⟩, ?_, ?_, ?_, ?_, ?_, ?_, ?_⟩
    · refine hh.held_moved hsame q old new hold rfl rfl ?_ ?_
      · intro x o
        rw [hitems x]
        by_cases hx : x = hd
        · subst hx
          rw [Function.update_same, hown, if_pos rfl]
          by_cases hoq : o = q
          · subst hoq
            simp
            omega
          · rw [if_neg hoq, if_neg hoq,
              if_neg (fun e => hoq (by injection e with e; exact e.symm)),
              if_neg (fun e => by cases e)]
        · rw [Function.update_noteq hx, if_neg hx, Nat.add_zero]
      · intro x
        by_cases hx : x = hd
        · subst hx
          rw [Function.update_same, hown]
          constructor <;> intro e <;> cases e
        · rw [Function.update_noteq hx]
    · intro k hk
      have hne : Ptr.node k ≠ hd := by
        intro e
        have := hf.old k (by rw [e, hown]; simp)
        omega
      rw [Function.update_noteq hne]
      show own (Ptr.node k) = Place.out ∧ about s1.log (Ptr.node k) = []
      rw [e4]
      exact hf k (by omega)
    · have hr1 : ∀ o pc r, pc ∈ s1.threads o → pc.runner_of = some r →
          (∃ k, r = Ptr.node k) ∧ RunnerOk ((s1.move q old new).heap r) pc := by
        intro o pc r hpc hro
        rw [e1] at hpc
        obtain ⟨hk, hok⟩ := hr o pc r hpc hro
        refine ⟨hk, ?_⟩
        show RunnerOk (s1.heap r) pc
        rw [e3]
        exact hok.runner_congr (hpay _)
      refine Runs.runs_moved q old new rfl hr1 ?_
      intro r hro
      obtain ⟨hk, hok⟩ := hr q old r hold (by rw [← hrun]; exact hro)
      refine ⟨hk, ?_⟩
      show RunnerOk (s1.heap r) new
      rw [e3]
      exact (hok.runner_congr (hpay _)).of_bucket hbk
    · intro k hk hb2
      by_cases hx : Ptr.node k = hd
      · rw [hx, hown]
        rfl
      · rw [Function.update_noteq hx] at hb2
        exact hb2
    · intro o p hm _
      exact Or.inl (keep_fin_move hsame q old new o p hm (fun hc => hnf p hc.2))
    · intro k hk
      have hne : Ptr.node k ≠ hd := by
        intro e
        have := hf.old k (by rw [e, hown]; simp)
        omega
      rw [Function.update_noteq hne]
      exact hf.not_held k hk
    · intro p hne
      by_cases hx : p = hd
      · rw [hx, Function.update_same]
        intro e
        cases e
      · rw [Function.update_noteq hx]
        exact hne
  exact key _ rfl rfl rfl rfl hs2 hp2

/-! ## C4: the invariant along the steps that take items off the queues -/

/-- The invariant when a thread of `q` ends. -/
theorem thread_exit_good {s0 s : Engine} {own0 : Ptr → Place} {b : Nat}
    (hg : Next s0 own0 s b) (q : QId) (hqm : q ≠ QId.main) :
    Next s0 own0 (thread_exit s q) b := by
  obtain ⟨own, ch, hs, hp, hh, hf, hr, hk1, hk2, hk3⟩ := hg
  have hq : ∀ o, ((thread_exit s q).queues o).head = (s.queues o).head
      ∧ ((thread_exit s q).queues o).tail = (s.queues o).tail
      ∧ ((thread_exit s q).queues o).vtable = (s.queues o).vtable
      ∧ ((thread_exit s q).queues o).xref_cnt = (s.queues o).xref_cnt := by
    intro o
    by_cases e : o = q
    · subst e; simp [thread_exit]
    · simp [thread_exit, Function.update_noteq e]
  refine ⟨own, ch, ?_, ?_, ?_, hf, ?_, hk1, ?_, hk3⟩
  · refine hs.shape_alike rfl (fun o => ⟨(hq o).1, (hq o).2.1, (hq o).2.2.1, fun _ => (hq o).2.2.2⟩)
      ?_ rfl rfl
    simp [thread_exit, Function.update_noteq (Ne.symm hqm)]
  · exact hp.proto_transfer ⟨rfl, rfl, fun _ => rfl, fun _ => rfl, fun o => (hq o).2.2.1⟩
      (fun _ h => h)
  · refine ⟨?_, hh.stk, ?_⟩
    · intro o x
      by_cases e : o = q
      · subst e
        simp only [thread_exit, Function.update_same]
        rw [count_erase_wait]
        exact hh.thr o x
      · simp only [thread_exit, Function.update_noteq e]
        exact hh.thr o x
    · simp only [thread_exit, Function.update_noteq (Ne.symm hqm)]
      exact hh.nomain
  · intro o pc r hpc hro
    have hmem : pc ∈ s.threads o := by
      by_cases e : o = q
      · subst e
        simp only [thread_exit, Function.update_same] at hpc
        exact List.mem_of_mem_erase hpc
      · simpa only [thread_exit, Function.update_noteq e] using hpc
    exact hr o pc r hmem hro
  · intro o p hm hn
    rcases hk2 o p hm hn with h | h
    · left
      by_cases e : o = q
      · subst e
        simp only [thread_exit, Function.update_same]
        exact (List.mem_erase_of_ne (by simp)).2 h
      · simpa only [thread_exit, Function.update_noteq e] using h
    · exact Or.inr h

theorem step_worker_run {s : Engine} {own : Ptr → Place} {ch : QId → List Ptr}
    (hs : Shape s own ch) (hp : Proto s own) (hh : Held s own) (hf : Fresh s own s.brk)
    (hr : Runs s) (env : Env) (he : env.fresh s) (q : QId) (s2 : Engine)
    (h : fire_core s (Step.worker_run env q) = .ok s2) : Next s own s2 (s.brk + 2) := by
  simp only [fire_core] at h
  split at h
  · next hmem =>
    have hqm : q ≠ QId.main := by
      intro e
      rw [e, hh.nomain] at hmem
      cases hmem
    simp only [worker_run] at h
    split at h
    · cases h
    · next r s1 hrb =>
      have hg := run_begin_ret_good hs hp hh hf hr env he q r s1 hrb
      split at h
      · simp only [Except.ok.injEq] at h
        subst h
        exact thread_exit_good hg q hqm
      · simp only [Except.ok.injEq] at h
        subst h
        exact hg
    · next p s1 hrb =>
      simp only [Except.ok.injEq] at h
      subst h
      rcases run_begin_cases env s q _ s1 hrb with ⟨⟨_, e⟩, _⟩ | ⟨_, _, _, _, _, e, _⟩
        | ⟨hd, r0, h1, Q1, e, hhead, hdr, e1⟩
      · cases e
      · cases e
      · injection e with e
        subst e
        subst e1
        exact take_good hs hp hh hf hr q p hhead r0 h1 Q1 hdr hqm _ q Pc.wait (Pc.exec p) hmem
          (fun x => by
            by_cases hx : x = p
            · subst hx; simp [Pc.items]
            · simp [Pc.items, hx, List.count_cons, Ne.symm hx])
          rfl (fun m hm => by cases hm) (fun _ e => by cases e) _ (Nat.le_add_right _ _)
  · cases h

theorem step_runner_iter {s : Engine} {own : Ptr → Place} {ch : QId → List Ptr}
    (hs : Shape s own ch) (hp : Proto s own) (hh : Held s own) (hf : Fresh s own s.brk)
    (hr : Runs s) (env : Env) (he : env.fresh s) (q : QId) (r : Ptr) (m : Nat) (stop : Bool)
    (s2 : Engine) (h : fire_core s (Step.runner_iter env q r m stop) = .ok s2) :
    Next s own s2 (s.brk + 2) := by
  simp only [fire_core] at h
  obtain ⟨_, e2, _, _, e5⟩ := env_facts hf env he
  split at h
  · next hmem =>
    have hownr : own r = Place.thr q := hh.own_of_mem q _ r hmem (by simp [Pc.items])
    have hbm : QId.bucket m ≠ QId.main := by intro e; cases e
    have hrr : env.runner ≠ some r := by
      intro e
      have := (e2 r e).1
      rw [hownr] at this
      cases this
    -- the runner leaves the loop
    have hleave : ∀ (s1 : Engine) (own1 : Ptr → Place) (ch1 : QId → List Ptr) (S : Ptr → Prop),
        Post2 s own s1 own1 ch1 S →
        (∀ p, S p → ((∀ o, own p ≠ Place.thr o) ∧ own p ≠ Place.mstack)) →
        (∀ k, S (Ptr.node k) → k < s.brk + 2) →
        (∀ k, S (Ptr.node k) → k < s.brk → (own (Ptr.node k)).busy = true) →
        Next s own ((s1.setQ (QId.bucket m)
          { s1.queues (QId.bucket m) with
              n_running := (s1.queues (QId.bucket m)).n_running - 1 }).move q
            (Pc.runner r m stop) (Pc.runner_fin r)) (s.brk + 2) := by
      intro s1 own1 ch1 S P hS hSb hSk
      have P2 := Post2.post2_set_queue P.shape P.proto (QId.bucket m)
        { s1.queues (QId.bucket m) with
            n_running := (s1.queues (QId.bucket m)).n_running - 1 } rfl rfl rfl (fun _ => rfl)
        (fun e => absurd e hbm) (fun _ => False) (fun _ hx => absurd hx id)
      have P3 : Post2 s own _ own1 ch1 S :=
        (P.then P2).weaken (fun p hx => hx.elim id (fun e => absurd e id)) (fun p hx => Or.inl hx)
      have hnr : ¬ S r := fun hx => (hS r hx).1 q hownr
      refine exec_move_good hh hf hr P3 _ (Nat.le_add_right _ _) q (Pc.runner r m stop)
        (Pc.runner_fin r) hmem (fun p hx => Or.inl (hS p hx)) hSb ?_ (fun _ _ => rfl) ?_ hSk
        (fun _ e => by cases e)
      · intro x hx
        simp only [Pc.items, List.mem_singleton]
        intro e
        rw [e] at hx
        exact hnr hx
      · intro r0 e
        simp only [Pc.runner_of, Option.some.injEq] at e
        subst e
        obtain ⟨⟨k, hk⟩, hok⟩ := hr q _ r hmem rfl
        subst hk
        refine ⟨⟨k, rfl⟩, ?_⟩
        show RunnerOk (s1.heap (Ptr.node k)) _
        exact (hok.runner_congr (P.pay k hnr)).of_bucket (fun m hm => by cases hm)
    have hleave0 := hleave s own ch (fun _ => False)
      (Post2.post2_refl hs hp _ (fun _ hx => absurd hx id)) (fun _ hx => absurd hx id)
      (fun _ hx => absurd hx id) (fun _ hx _ => absurd hx id)
    simp only [runner_iter] at h
    split at h
    · simp only [Except.ok.injEq] at h
      subst h
      exact hleave0
    · next hd hhead =>
      have hown := hs.head_own _ hd hhead
      split at h
      · simp only [Except.ok.injEq] at h
        subst h
        exact hleave0
      · split at h
        · next hst =>
          have hst2 : work_item_is_static (s.heap hd) = true := by
            simpa [work_item_is_static] using hst
          split at h
          · split at h
            · cases h
            · next r0 h1 Q1 hdr =>
              split at h
              · cases h
              · next s1 hex =>
                simp only [Except.ok.injEq] at h
                subst h
                obtain ⟨own1, ch1, P⟩ := inline_post2 hs hp env _ hd hhead hst2 e2 false r0 h1 Q1
                  hdr s1 hex
                refine hleave s1 own1 ch1 _ P ?_ ?_ ?_
                · intro p hx
                  rcases hx with hx | hx
                  · rw [hx, hown]
                    exact ⟨fun o e => (by cases e), fun e => (by cases e)⟩
                  · exact Place.idle_not_held (e2 p hx).1
                · intro k hx
                  rcases hx with hx | hx
                  · have := hf.old k (by rw [hx, hown]; simp)
                    omega
                  · exact e5 k hx
                · intro k hx hlt
                  rcases hx with hx | hx
                  · rw [hx, hown]
                    rfl
                  · have := (env_low env he).2 k hx
                    omega
          · simp only [Except.ok.injEq] at h
            subst h
            exact hleave0
        · split at h
          · cases h
          · next r0 h1 Q1 hdr =>
            simp only [Except.ok.injEq] at h
            subst h
            have hne : hd ≠ r := by
              intro e
              rw [e, hownr] at hown
              cases hown
            exact take_good hs hp hh hf hr (QId.bucket m) hd hhead r0 h1 Q1 hdr hbm Q1.n_running
              q (Pc.runner r m stop) (Pc.runner_exec r m hd) hmem
              (fun x => by
                by_cases hx : x = hd
                · subst hx; simp [Pc.items, List.count_cons, hne]
                · simp [Pc.items, hx, List.count_cons, Ne.symm hx])
              rfl (fun m hm => hm) (fun _ e => by cases e) _ (Nat.le_add_right _ _)
  · cases h

/-! ## C4: the invariant along the steps of the main thread -/

/-- The invariant after the main thread has taken the head item of the main
queue to notify it. -/
theorem take_main_good {s : Engine} {own : Ptr → Place} {ch : QId → List Ptr}
    (hs : Shape s own ch) (hp : Proto s own) (hh : Held s own) (hf : Fresh s own s.brk)
    (hr : Runs s) (hd : Ptr) (hhead : (s.queues QId.main).head = some hd)
    (r0 : Option Ptr) (h1 : Heap) (Q1 : WorkQueue)
    (hdr : _work_queue_drain_one_unlocked s.heap (s.queues QId.main) = .ok (r0, h1, Q1))
    (n : Int) (b2 : Nat) (hb : s.brk ≤ b2) :
    Next s own
      { s with heap := h1,
               queues := Function.update s.queues QId.main { Q1 with n_running := n },
               main_stack := hd :: s.main_stack } b2 := by
  obtain ⟨hown, hpay, ch2, hs2, hp2⟩ := take_core hs hp QId.main hd hhead r0 h1 Q1 hdr
    Place.mstack (Or.inl ⟨rfl, rfl⟩) n
  refine ⟨Function.update own hd Place.mstack, ch2,
    hs2.shape_alike rfl (fun _ => ⟨rfl, rfl, rfl, fun _ => rfl⟩) ⟨rfl, rfl⟩ rfl rfl,
    ⟨hp2.r2, hp2.r3, hp2.r4, hp2.r5, hp2.r6⟩, ?_, ?_, ?_, ?_, ?_, ?_, ?_⟩
  · refine hh.step ?_ ?_ hh.nomain
    · intro o x
      by_cases hx : x = hd
      · subst hx
        rw [Function.update_same, hown, if_neg (fun e => by cases e),
          if_neg (fun e => by cases e)]
      · rw [Function.update_noteq hx]
    · intro x
      by_cases hx : x = hd
      · subst hx
        rw [Function.update_same, hown, if_neg (fun e => by cases e), if_pos rfl]
        show (x :: s.main_stack).count x + 0 = _
        rw [List.count_cons_self]
      · rw [Function.update_noteq hx]
        show (hd :: s.main_stack).count x + _ = _
        rw [List.count_cons_of_ne hx]
  · intro k hk
    have hne : Ptr.node k ≠ hd := by
      intro e
      have := hf.old k (by rw [e, hown]; simp)
      omega
    rw [Function.update_noteq hne]
    exact hf k (by omega)
  · intro o pc r hpc hro
    obtain ⟨hk, hok⟩ := hr o pc r hpc hro
    exact ⟨hk, hok.runner_congr (hpay _)⟩
  · intro k hk hb2
    by_cases hx : Ptr.node k = hd
    · rw [hx, hown]
      rfl
    · rw [Function.update_noteq hx] at hb2
      exact hb2
  · intro o p hm _
    exact Or.inl hm
  · intro k hk
    have hne : Ptr.node k ≠ hd := by
      intro e
      have := hf.old k (by rw [e, hown]; simp)
      omega
    rw [Function.update_noteq hne]
    exact hf.not_held k hk
  · intro p hne
    by_cases hx : p = hd
    · rw [hx, Function.update_same]
      intro e
      cases e
    · rw [Function.update_noteq hx]
      exact hne

theorem step_main_run {s : Engine} {own : Ptr → Place} {ch : QId → List Ptr}
    (hs : Shape s own ch) (hp : Proto s own) (hh : Held s own) (hf : Fresh s own s.brk)
    (hr : Runs s) (env : Env) (he : env.fresh s) (s2 : Engine)
    (h : fire_core s (Step.main_run env) = .ok s2) : Next s own s2 (s.brk + 2) := by
  simp only [fire_core] at h
  split at h
  · cases h
  · next r s1 hrb =>
    simp only [Except.ok.injEq] at h
    subst h
    exact run_begin_ret_good hs hp hh hf hr env he QId.main r s1 hrb
  · next p s1 hrb =>
    simp only [Except.ok.injEq] at h
    subst h
    rcases run_begin_cases env s QId.main _ s1 hrb with ⟨⟨_, e⟩, _⟩ | ⟨_, _, _, _, _, e, _⟩
      | ⟨hd, r0, h1, Q1, e, hhead, hdr, e1⟩
    · cases e
    · cases e
    · injection e with e
      subst e
      subst e1
      exact take_main_good hs hp hh hf hr p hhead r0 h1 Q1 hdr _ _ (Nat.le_add_right _ _)

/-- The invariant after a call has run on the item on top of the stack of the
main thread, and the item has left the stack. -/
theorem pop_stack_good {s s1 : Engine} {own own1 : Ptr → Place} {ch1 : QId → List Ptr}
    {S : Ptr → Prop} (hh : Held s own) (hf : Fresh s own s.brk) (hr : Runs s)
    (P : Post2 s own s1 own1 ch1 S) (b2 : Nat) (hb : s.brk ≤ b2)
    (p : Ptr) (rest : List Ptr) (hst : s.main_stack = p :: rest) (hp : S p)
    (hS : ∀ x, S x → x ≠ p → (own x).busy = false)
    (hSb : ∀ k, S (Ptr.node k) → k < b2)
    (hSk : ∀ k, S (Ptr.node k) → k < s.brk → (own (Ptr.node k)).busy = true) :
    Next s own { s1 with main_stack := rest } b2 := by
  have hown : own p = Place.mstack := hh.own_of_stack p (by rw [hst]; simp)
  have hS2 : ∀ x, S x → ∀ o, own x ≠ Place.thr o := by
    intro x hx o e
    by_cases hxp : x = p
    · rw [hxp, hown] at e
      cases e
    · have := hS x hx hxp
      rw [e] at this
      cases this
  have hr1 : Runs s1 := hr.of_post2 hh P hS2
  refine ⟨own1, ch1,
    P.shape.shape_alike rfl (fun _ => ⟨rfl, rfl, rfl, fun _ => rfl⟩) ⟨rfl, rfl⟩ rfl rfl,
    ⟨P.proto.r2, P.proto.r3, P.proto.r4, P.proto.r5, P.proto.r6⟩, ?_,
    P.fresh s.brk b2 hf hb hSb, fun o pc r hpc hro => hr1 o pc r hpc hro, P.keep_busy hSk,
    fun o p hm _ => Or.inl (P.held.mem o _ hm), P.keep_fresh hf, P.trans.acc⟩
  refine hh.step ?_ ?_ (P.held.nomain hh.nomain)
  · intro o x
    show ((s1.threads o).flatMap Pc.items).count x + _ = _
    rw [P.held.items o]
    by_cases hx : S x
    · rw [if_neg (hS2 x hx o), if_neg ((P.grow x hx).1 o)]
    · have hd := (P.trans.drop x).resolve_left hx
      by_cases e : own x = Place.thr o
      · rw [if_pos e, if_pos ((hd.drop_thr_iff o).2 e)]
      · rw [if_neg e, if_neg (fun e1 => e ((hd.drop_thr_iff o).1 e1))]
  · intro x
    show rest.count x + _ = _
    rw [hst]
    by_cases hxp : x = p
    · subst hxp
      rw [if_pos hown, if_neg (P.grow x hp).2, List.count_cons_self]
    · rw [List.count_cons_of_ne hxp]
      by_cases hx : S x
      · have hb0 := hS x hx hxp
        rw [if_neg (fun e => by rw [e] at hb0; cases hb0), if_neg (P.grow x hx).2]
      · have hd := (P.trans.drop x).resolve_left hx
        by_cases e : own x = Place.mstack
        · rw [if_pos e, if_pos (hd.mstack_iff.2 e)]
        · rw [if_neg e, if_neg (fun e1 => e (hd.mstack_iff.1 e1))]

theorem step_main_done {s : Engine} {own : Ptr → Place} {ch : QId → List Ptr}
    (hs : Shape s own ch) (hp : Proto s own) (hh : Held s own) (hf : Fresh s own s.brk)
    (hr : Runs s) (env : Env) (he : env.fresh s) (s2 : Engine)
    (h : fire_core s (Step.main_done env) = .ok s2) : Next s own s2 (s.brk + 2) := by
  simp only [fire_core] at h
  obtain ⟨_, e2, _, _, e5⟩ := env_facts hf env he
  split at h
  · cases h
  · next p rest hst =>
    split at h
    · cases h
    · next s1 hre =>
      simp only [Except.ok.injEq] at h
      subst h
      have hown : own p = Place.mstack := hh.own_of_stack p (by rw [hst]; simp)
      simp only [run_end] at hre
      split at hre
      · cases hre
      · next s0 hex =>
        simp only [Except.ok.injEq] at hre
        subst hre
        obtain ⟨own1, ch1, P⟩ := execute_post2 hs hp env p (decide (QId.main = QId.main))
          (Or.inr hown) e2 (fun k u _ _ => by simp [hown]) s0 hex
        have P2 := Post2.post2_set_queue P.shape P.proto QId.main
          { s0.queues QId.main with n_running := (s0.queues QId.main).n_running - 1 }
          rfl rfl rfl (fun _ => rfl) (fun _ => ⟨rfl, rfl⟩) (fun _ => False)
          (fun _ hx => absurd hx id)
        have P3 : Post2 s own _ own1 ch1 (fun x => x = p ∨ env.runner = some x) :=
          (P.then P2).weaken (fun _ hx => hx.elim id (fun e => absurd e id))
            (fun _ hx => Or.inl hx)
        refine pop_stack_good hh hf hr P3 _ (Nat.le_add_right _ _) p rest hst (Or.inl rfl) ?_ ?_
          ?_
        · intro x hx hxp
          exact (e2 x (hx.resolve_left hxp)).1
        · intro k hx
          rcases hx with hx | hx
          · have := hf.old k (by rw [hx, hown]; simp)
            omega
          · exact e5 k hx
        · intro k hx hlt
          rcases hx with hx | hx
          · rw [hx, hown]
            rfl
          · have := (env_low env he).2 k hx
            omega

/-! ## C4: the invariant in every reachable state -/

theorem init_global_once_brk (s : Engine) : (init_global_once s).brk = s.brk := by
  simp only [init_global_once]
  split <;> rfl

theorem work_queue_ref_brk (s : Engine) (q : QId) (s1 : Engine)
    (h : work_queue_ref s q = .ok s1) : s1.brk = s.brk := by
  simp only [work_queue_ref] at h
  split at h
  · simp only [Except.ok.injEq] at h
    rw [← h]
  · split at h
    · simp only [Except.ok.injEq] at h
      rw [← h]
      rfl
    · cases h

theorem flush_begin_brk (s : Engine) (q : QId) (in_stop : Bool) (s2 : Engine)
    (h : flush_begin s q in_stop = .ok s2) : s2.brk = s.brk := by
  simp only [flush_begin] at h
  split at h
  · cases h
  · split at h
    · cases h
    · next s1 h1 =>
      split at h
      · simp only [Except.ok.injEq] at h
        rw [← h]
        exact work_queue_ref_brk s q s1 h1
      · cases h

/-- A step that asks nothing of the C library leaves the allocation mark. -/
theorem fire_core_brk (s : Engine) (st : Step) (s2 : Engine) (hn : st.env = none)
    (h : fire_core s st = .ok s2) : s2.brk = s.brk := by
  cases st with
  | new_queue n maxsize =>
    simp only [fire_core] at h
    split at h
    · simp only [work_queue_new] at h
      split at h
      · simp only [Except.ok.injEq] at h
        rw [← h]
        exact init_global_once_brk s
      · cases h
    · cases h
  | new_bucket n maxsize width =>
    simp only [fire_core] at h
    split at h
    · simp only [work_bucket_new] at h
      split at h
      · split at h
        · simp only [Except.ok.injEq] at h
          rw [← h]
          exact init_global_once_brk s
        · cases h
      · cases h
    · cases h
  | ref q => exact work_queue_ref_brk s _ s2 h
  | flush_begin q =>
    simp only [fire_core] at h
    split at h
    · exact flush_begin_brk s _ _ s2 h
    · cases h
  | flush_wake q =>
    simp only [fire_core] at h
    split at h
    · split at h
      · simp only [Except.ok.injEq] at h
        rw [← h]
      · cases h
    · cases h
  | stop_begin q =>
    simp only [fire_core] at h
    split at h
    · split at h
      · cases h
      · split at h
        · cases h
        · next s1 h1 =>
          rw [flush_begin_brk s1 _ _ s2 h, work_queue_ref_brk s _ s1 h1]
    · cases h
  | worker_relock q =>
    simp only [fire_core] at h
    split at h
    · simp only [Except.ok.injEq] at h
      rw [← h]
      rfl
    · cases h
  | runner_enter q r b =>
    simp only [fire_core] at h
    split at h
    · simp only [Except.ok.injEq] at h
      rw [← h]
      rfl
    · cases h
  | set_destroy_notify env q f ctx => cases hn
  | unref env q => cases hn
  | add env q work notify cancel data => cases hn
  | add_rewind env q work notify cancel data => cases hn
  | flush_iter env q => cases hn
  | stop_body env q => cases hn
  | stop_wake env q => cases hn
  | main_run env => cases hn
  | main_done env => cases hn
  | worker_run env q => cases hn
  | worker_work env q p => cases hn
  | runner_iter env q r b stop => cases hn
  | runner_work env q r b p => cases hn
  | runner_return env q r => cases hn

theorem GoodAt.set_brk {s : Engine} {b : Nat} (hg : GoodAt s b) : Good { s with brk := b } := by
  obtain ⟨own, ch, hs, hp, hh, hf, hr⟩ := hg
  exact ⟨own, ch,
    ⟨hs.shape_alike rfl (fun _ => ⟨rfl, rfl, rfl, fun _ => rfl⟩) ⟨rfl, rfl⟩ rfl rfl,
      ⟨hp.r2, hp.r3, hp.r4, hp.r5, hp.r6⟩, ⟨hh.thr, hh.stk, hh.nomain⟩, hf⟩,
    fun o pc r hpc hro => hr o pc r hpc hro⟩

theorem GoodAt.good {s : Engine} (hg : GoodAt s s.brk) : Good s := by
  obtain ⟨own, ch, hs, hp, hh, hf, hr⟩ := hg
  exact ⟨own, ch, ⟨hs, hp, hh, hf⟩, hr⟩

/-- What a step leaves of the invariant, before the allocation mark moves. -/
theorem fire_core_good {s : Engine} {own : Ptr → Place} {ch : QId → List Ptr}
    (hs : Shape s own ch) (hp : Proto s own) (hh : Held s own) (hf : Fresh s own s.brk)
    (hr : Runs s) (st : Step) (he : ∀ env, st.env = some env → env.fresh s) (s2 : Engine)
    (h : fire_core s st = .ok s2) :
    (st.env = none → Next s own s2 s.brk) ∧ (st.env ≠ none → Next s own s2 (s.brk + 2)) := by
  cases st with
  | new_queue n maxsize =>
    exact ⟨fun _ => step_new_queue hs hp hh hf hr n maxsize s2 h, fun e => absurd rfl e⟩
  | new_bucket n maxsize width =>
    exact ⟨fun _ => step_new_bucket hs hp hh hf hr n maxsize width s2 h, fun e => absurd rfl e⟩
  | set_destroy_notify env q f ctx =>
    exact ⟨fun e => (by cases e), fun _ =>
      let ⟨own2, ch2, a, b, c, d, e, f⟩ := step_set_destroy_notify hs hp hh hf hr env q f ctx s2 h
      ⟨own2, ch2, a, b, c, d.fresh_mono (Nat.le_add_right _ _), e, f⟩⟩
  | ref q =>
    exact ⟨fun _ => step_ref hs hp hh hf hr q s2 h, fun e => absurd rfl e⟩
  | unref env q =>
    exact ⟨fun e => (by cases e), fun _ => step_unref hs hp hh hf hr env (he env rfl) q s2 h⟩
  | add env q work notify cancel data =>
    exact ⟨fun e => (by cases e),
      fun _ => step_add hs hp hh hf hr env (he env rfl) q work notify cancel data s2 h⟩
  | add_rewind env q work notify cancel data =>
    exact ⟨fun e => (by cases e),
      fun _ => step_add_rewind hs hp hh hf hr env (he env rfl) q work notify cancel data s2 h⟩
  | flush_begin q =>
    exact ⟨fun _ => step_flush_begin hs hp hh hf hr q s2 h, fun e => absurd rfl e⟩
  | flush_iter env q =>
    exact ⟨fun e => (by cases e), fun _ => step_flush_iter hs hp hh hf hr env (he env rfl) q s2 h⟩
  | flush_wake q =>
    exact ⟨fun _ => step_flush_wake hs hp hh hf hr q s2 h, fun e => absurd rfl e⟩
  | stop_begin q =>
    exact ⟨fun _ => step_stop_begin hs hp hh hf hr q s2 h, fun e => absurd rfl e⟩
  | stop_body env q =>
    exact ⟨fun e => (by cases e), fun _ => step_stop_body hs hp hh hf hr env (he env rfl) q s2 h⟩
  | stop_wake env q =>
    exact ⟨fun e => (by cases e), fun _ => step_stop_wake hs hp hh hf hr env (he env rfl) q s2 h⟩
  | main_run env =>
    exact ⟨fun e => (by cases e), fun _ => step_main_run hs hp hh hf hr env (he env rfl) s2 h⟩
  | main_done env =>
    exact ⟨fun e => (by cases e), fun _ => step_main_done hs hp hh hf hr env (he env rfl) s2 h⟩
  | worker_run env q =>
    exact ⟨fun e => (by cases e), fun _ => step_worker_run hs hp hh hf hr env (he env rfl) q s2 h⟩
  | worker_work env q p =>
    exact ⟨fun e => (by cases e),
      fun _ => step_worker_work hs hp hh hf hr env (he env rfl) q p s2 h⟩
  | worker_relock q =>
    exact ⟨fun _ => step_worker_relock hs hp hh hf hr q s2 h, fun e => absurd rfl e⟩
  | runner_enter q r b =>
    exact ⟨fun _ => step_runner_enter hs hp hh hf hr q r b s2 h, fun e => absurd rfl e⟩
  | runner_iter env q r b stop =>
    exact ⟨fun e => (by cases e),
      fun _ => step_runner_iter hs hp hh hf hr env (he env rfl) q r b stop s2 h⟩
  | runner_work env q r b p =>
    exact ⟨fun e => (by cases e),
      fun _ => step_runner_work hs hp hh hf hr env (he env rfl) q r b p s2 h⟩
  | runner_return env q r =>
    exact ⟨fun e => (by cases e),
      fun _ => step_runner_return hs hp hh hf hr env (he env rfl) q r s2 h⟩

/-- Every step of the engine keeps the invariant. -/
theorem fire_good (s : Engine) (st : Step) (s2 : Engine) (hg : Good s)
    (h : fire s st = .ok s2) : Good s2 := by
  obtain ⟨own, ch, ⟨hs, hp, hh, hf⟩, hr⟩ := hg
  simp only [fire] at h
  split at h
  · next hn =>
    have hb := fire_core_brk s st s2 hn h
    have := (fire_core_good hs hp hh hf hr st (fun env e => by rw [hn] at e; cases e) s2 h).1 hn
    rw [← hb] at this
    exact this.good_at.good
  · next env hn =>
    split at h
    · next hfr =>
      split at h
      · cases h
      · next s1 h1 =>
        simp only [Except.ok.injEq] at h
        rw [← h]
        have := (fire_core_good hs hp hh hf hr st (fun env0 e => by
          rw [hn] at e
          injection e with e
          rw [← e]
          exact hfr) s1 h1).2 (by rw [hn]; simp)
        exact this.good_at.set_brk
    · cases h

/-- The state before any call satisfies the invariant, with no block handed
out and every list empty. -/
theorem boot_inv : Inv Engine.boot (fun _ => Place.out) (fun _ => []) ∧ Runs Engine.boot := by
  refine ⟨⟨?_, ?_, ?_, ?_⟩, ?_⟩
  · refine ⟨?_, ?_, ?_, ?_, ?_, Or.inl rfl, ?_, fun _ => ⟨rfl, rfl⟩, ?_⟩
    · intro o
      exact ⟨rfl, rfl, List.nodup_nil⟩
    · intro o p
      simp
    · intro k
      simp [NodeOk, Engine.boot, WorkItem.zero]
    · intro q
      simp [CtlOk, Engine.boot, WorkItem.zero]
    · intro q _
      exact ⟨rfl, rfl, rfl⟩
    · intro k u hw
      simp [Engine.boot, WorkItem.zero] at hw
    · intro q _ _ hn
      simp [Engine.boot, WorkItem.zero] at hn
  · refine ⟨fun _ _ _ => rfl, fun _ _ _ _ => rfl, fun _ _ _ => rfl, fun _ _ _ => rfl, ?_⟩
    intro q _ _ h
    exact absurd rfl h
  · exact ⟨fun _ _ => rfl, fun _ => rfl, rfl⟩
  · intro k _
    exact ⟨rfl, rfl⟩
  · intro o pc k hpc
    cases hpc

/-- The state before any call satisfies the invariant. -/
theorem boot_good : Good Engine.boot :=
  ⟨fun _ => Place.out, fun _ => [], boot_inv⟩

/-- C4 and C12 rest on this: the invariant holds in every reachable state. -/
theorem reachable_good (s : Engine) (hr : Reachable s) : Good s := by
  induction hr with
  | boot => exact boot_good
  | step s s2 st _ h ih => exact fire_good s st s2 ih h

/-! ## C4, C12: what the log tells about a submitted item -/

theorem invoked_about (log : List Event) (p : Ptr) : invoked (about log p) p = invoked log p := by
  induction log with
  | nil => rfl
  | cons e log ih =>
    simp only [invoked, Prod.mk.injEq] at ih ⊢
    by_cases he : e.item = some p
    · have : about (e :: log) p = e :: about log p := by
        simp [about, List.filter_cons, he]
      rw [this]
      simp only [List.filter_cons]
      constructor
      · split <;> simp [ih.1]
      · split <;> simp [ih.2]
    · have : about (e :: log) p = about log p := by
        simp [about, List.filter_cons, he]
      rw [this, ih.1, ih.2]
      simp only [List.filter_cons]
      cases e <;> simp [Event.item] at he ⊢ <;> simp [he]

theorem work_ran_about (log : List Event) (p : Ptr) :
    work_ran (about log p) p = work_ran log p := by
  induction log with
  | nil => rfl
  | cons e log ih =>
    simp only [work_ran] at ih ⊢
    by_cases he : e.item = some p
    · have : about (e :: log) p = e :: about log p := by
        simp [about, List.filter_cons, he]
      rw [this]
      simp only [List.any_cons, ih]
    · have : about (e :: log) p = about log p := by
        simp [about, List.filter_cons, he]
      rw [this, ih]
      simp only [List.any_cons]
      cases e <;> simp [Event.item] at he ⊢
      simp [he]

/-- The events about a submitted item, in every state the engine can reach:
none, or the `free` of a failed add, or its work, or its work followed by its
notifier (if any) and `free`, or its cancel callback (if any) followed by
`free`. -/
theorem item_history (s : Engine) (hr : Reachable s) (k u : Nat)
    (hw : (s.heap (Ptr.node k)).work = some (Fn.user u)) :
    about s.log (Ptr.node k) = []
    ∨ about s.log (Ptr.node k) = [Event.free (Ptr.node k)]
    ∨ about s.log (Ptr.node k) = hist_work (s.heap (Ptr.node k)) (Ptr.node k)
    ∨ about s.log (Ptr.node k) = hist_run (s.heap (Ptr.node k)) (Ptr.node k)
    ∨ about s.log (Ptr.node k) = hist_evict (s.heap (Ptr.node k)) (Ptr.node k) := by
  obtain ⟨own, ch, ⟨hs, _, _, _⟩, _⟩ := reachable_good s hr
  have hl := hs.life k u hw
  cases hp : own (Ptr.node k) with
  | out =>
    rw [hp] at hl
    rcases hl with h | h
    · exact Or.inl h
    · exact Or.inr (Or.inl h)
  | inq o =>
    rw [hp] at hl
    simp only [Life] at hl
    split at hl
    · exact Or.inr (Or.inr (Or.inl hl.1))
    · exact Or.inl hl
  | thr o =>
    rw [hp] at hl
    exact Or.inl hl
  | mstack =>
    rw [hp] at hl
    exact Or.inr (Or.inr (Or.inl hl.1))
  | gone =>
    rw [hp] at hl
    rcases hl with h | h
    · exact Or.inr (Or.inr (Or.inr (Or.inl h)))
    · exact Or.inr (Or.inr (Or.inr (Or.inr h)))

/-- The counts of notifier and cancel calls, and whether the work ran, for
each of the histories an item can have. -/
theorem history_counts (it : WorkItem) (p : Ptr) (u : Nat) (hw : it.work = some (Fn.user u))
    (hist : List Event)
    (h : hist = [] ∨ hist = [Event.free p] ∨ hist = hist_work it p ∨ hist = hist_run it p
      ∨ hist = hist_evict it p) :
    (invoked hist p).1 + (invoked hist p).2 ≤ 1
    ∧ ((invoked hist p).1 = 1 → it.notify ≠ none ∧ work_ran hist p = true
        ∧ hist = hist_run it p)
    ∧ ((invoked hist p).2 = 1 → it.cancel ≠ none ∧ work_ran hist p = false
        ∧ hist = hist_evict it p)
    ∧ (work_ran hist p = true → (invoked hist p).2 = 0) := by
  rcases h with h | h | h | h | h
  · subst h
    simp [invoked, work_ran]
  · subst h
    simp [invoked, work_ran]
  · subst h
    simp [invoked, work_ran, hist_work, hw]
  · subst h
    cases hn : it.notify with
    | none => simp [invoked, work_ran, hist_run, hist_work, hw, hn]
    | some f => simp [invoked, work_ran, hist_run, hist_work, hw, hn]
  · subst h
    cases hc : it.cancel with
    | none => simp [invoked, work_ran, hist_evict, hc]
    | some f => simp [invoked, work_ran, hist_evict, hc]

/-! ## C12: no code but the eviction of a rewind add calls a cancel callback -/

theorem Calm.calm_refl (s : Engine) : Calm s s := ⟨[], by simp, fun _ h => by cases h⟩

theorem Calm.of_log {s s2 : Engine} (h : s2.log = s.log) : Calm s s2 :=
  ⟨[], by simp [h], fun _ h => by cases h⟩

/-- Calm code run from a state with the same log. -/
theorem Calm.from_log {s s1 s2 : Engine} (c : Calm s1 s2) (h : s1.log = s.log) : Calm s s2 := by
  obtain ⟨evs, a, b⟩ := c
  exact ⟨evs, by rw [a, h], b⟩

theorem Calm.calm_trans {a b c : Engine} (h1 : Calm a b) (h2 : Calm b c) : Calm a c := by
  obtain ⟨e1, a1, b1⟩ := h1
  obtain ⟨e2, a2, b2⟩ := h2
  refine ⟨e1 ++ e2, by rw [a2, a1, List.append_assoc], ?_⟩
  intro e he
  rcases List.mem_append.1 he with h | h
  · exact b1 e h
  · exact b2 e h

theorem Calm.of_emit {s s2 : Engine} (evs : List Event) (h : s2.log = s.log ++ evs)
    (hc : ∀ e ∈ evs, e.is_cancel = false) : Calm s s2 := ⟨evs, h, hc⟩

theorem cancel_calls_calm (evs : List Event) (h : ∀ e ∈ evs, e.is_cancel = false) :
    cancel_calls evs = [] := by
  induction evs with
  | nil => rfl
  | cons e evs ih =>
    have he := h e (by simp)
    have ih2 := ih (fun x hx => h x (by simp [hx]))
    cases e <;> simp [Event.is_cancel] at he <;> simp [cancel_calls, ih2]

/-- Calm code leaves the list of cancel calls as it is. -/
theorem Calm.cancel_calls_eq {s s2 : Engine} (h : Calm s s2) :
    cancel_calls s2.log = cancel_calls s.log := by
  obtain ⟨evs, a, b⟩ := h
  rw [a, cancel_calls_append, cancel_calls_calm evs b, List.append_nil]

theorem more_thread_calm (env : Env) (s : Engine) (q : QId) :
    Calm s (_more_thread_unlocked env s q).2 := by
  apply Calm.of_log
  simp only [_more_thread_unlocked]
  split
  · split
    · split <;> rfl
    · rfl
  · rfl

theorem add_unlocked_with_calm (prepare : Engine → QId → Except Fault (Int × Engine))
    (env : Env) (s : Engine) (q : QId) (item : Ptr) (impose : Bool) (r : Int) (s2 : Engine)
    (hprep : ∀ r0 s1, prepare s q = .ok (r0, s1) → Calm s s1)
    (h : add_unlocked_with prepare env s q item false impose = .ok (r, s2)) : Calm s s2 := by
  simp only [add_unlocked_with] at h
  split at h
  · simp only [Except.ok.injEq, Prod.mk.injEq] at h
    rw [← h.2]; exact Calm.calm_refl _
  · next hfull =>
    have hnf : (impose && decide ((s.queues q).n_items ≥ (s.queues q).maxsize)) = false := by
      cases hc : (impose && decide ((s.queues q).n_items ≥ (s.queues q).maxsize)) with
      | false => rfl
      | true => simp [hc] at hfull
    split at h
    · cases h
    · next r0 s1 hp =>
      have he := hprep r0 s1 hp
      split at h
      · simp only [Except.ok.injEq, Prod.mk.injEq] at h
        rw [← h.2]; exact he
      · rw [hnf] at h
        simp only [Bool.false_eq_true, if_false, Except.ok.injEq, Prod.mk.injEq] at h
        rw [← h.2]
        exact he.calm_trans (Calm.of_log rfl)

theorem prepare_executive_pool_calm (env : Env) (s : Engine) (q : QId) (r : Int) (s1 : Engine)
    (h : prepare_executive_pool env s q = .ok (r, s1)) : Calm s s1 := by
  simp only [prepare_executive_pool] at h
  split at h
  · cases h
  · simp only [prepare_executive_queue, Except.ok.injEq] at h
    have := more_thread_calm env s q
    rw [h] at this
    exact this
  · split at h
    · simp only [Except.ok.injEq, Prod.mk.injEq] at h
      rw [← h.2]; exact Calm.calm_refl _
    · cases h

theorem prepare_executive_bucket_calm (env : Env) (s : Engine) (b : QId) (r : Int)
    (s1 : Engine) (h : prepare_executive_bucket env s b = .ok (r, s1)) : Calm s s1 := by
  simp only [prepare_executive_bucket] at h
  split at h
  · simp only [Except.ok.injEq, Prod.mk.injEq] at h
    rw [← h.2]; exact Calm.calm_refl _
  · split at h
    · simp only [Except.ok.injEq, Prod.mk.injEq] at h
      rw [← h.2]; exact Calm.calm_refl _
    · next exc hr =>
      split at h
      · cases h
      · next r2 s2 hadd =>
        have he : Calm s s2 :=
          (add_unlocked_with_calm _ env _ _ _ _ r2 s2
            (fun r0 s0 hp => prepare_executive_pool_calm env _ _ r0 s0 hp) hadd).from_log rfl
        split at h
        · simp only [Except.ok.injEq, Prod.mk.injEq] at h
          rw [← h.2]
          exact he.calm_trans (Calm.of_emit [Event.free exc] rfl (by simp [Event.is_cancel]))
        · simp only [Except.ok.injEq, Prod.mk.injEq] at h
          rw [← h.2]
          exact he.calm_trans (Calm.of_log rfl)

theorem prepare_executive_calm (env : Env) (s : Engine) (q : QId) (r : Int) (s1 : Engine)
    (h : prepare_executive env s q = .ok (r, s1)) : Calm s s1 := by
  simp only [prepare_executive] at h
  split at h
  · cases h
  · simp only [prepare_executive_queue, Except.ok.injEq] at h
    have := more_thread_calm env s q
    rw [h] at this
    exact this
  · exact prepare_executive_bucket_calm env s q r s1 h

theorem add_unlocked_calm (env : Env) (s : Engine) (q : QId) (item : Ptr) (impose : Bool)
    (r : Int) (s2 : Engine)
    (h : _work_queue_add_unlocked env s q item false impose = .ok (r, s2)) : Calm s s2 :=
  add_unlocked_with_calm _ env s q item impose r s2
    (fun r0 s1 hp => prepare_executive_calm env s q r0 s1 hp) h

theorem work_queue_ref_calm (s : Engine) (q : QId) (s1 : Engine)
    (h : work_queue_ref s q = .ok s1) : Calm s s1 := by
  apply Calm.of_log
  simp only [work_queue_ref] at h
  split at h
  · simp only [Except.ok.injEq] at h
    rw [← h]
  · split at h
    · simp only [Except.ok.injEq] at h
      rw [← h]
      rfl
    · cases h

theorem work_queue_unref_calm (env : Env) (s : Engine) (q : QId) (s1 : Engine)
    (h : work_queue_unref env s q = .ok s1) : Calm s s1 := by
  simp only [work_queue_unref] at h
  split at h
  · simp only [Except.ok.injEq] at h
    rw [← h]; exact Calm.calm_refl _
  · split at h
    · split at h
      · split at h
        · split at h
          · cases h
          · next r3 s3 hadd =>
            simp only [Except.ok.injEq] at h
            rw [← h]
            exact (add_unlocked_calm env _ q _ false r3 s3 hadd).from_log rfl
        · cases h
      · simp only [Except.ok.injEq] at h
        rw [← h]
        exact Calm.of_log rfl
    · cases h

theorem add_item_calm (env : Env) (s : Engine) (q : QId) (w : Nat)
    (notify cancel : Option Nat) (data : Data) (r : Int) (s2 : Engine)
    (h : add_item env s q false w notify cancel data = .ok (r, s2)) : Calm s s2 := by
  simp only [add_item] at h
  split at h
  · cases h
  · next s1 href =>
    have h1 := work_queue_ref_calm s q s1 href
    split at h
    · cases h
    · next r4 s4 hres =>
      have h4 : Calm s1 s4 := by
        split at hres
        · simp only [Except.ok.injEq, Prod.mk.injEq] at hres
          rw [← hres.2]; exact Calm.calm_refl _
        · next item _ =>
          split at hres
          · cases hres
          · next r3 s3 hadd =>
            have h3 : Calm s1 s3 := (add_unlocked_calm env _ q item true r3 s3 hadd).from_log rfl
            split at hres
            · simp only [Except.ok.injEq, Prod.mk.injEq] at hres
              rw [← hres.2]
              exact h3.calm_trans
                (Calm.of_emit [Event.free item] rfl (by simp [Event.is_cancel]))
            · simp only [Except.ok.injEq, Prod.mk.injEq] at hres
              rw [← hres.2]
              exact h3
      split at h
      · cases h
      · next s5 hun =>
        simp only [Except.ok.injEq, Prod.mk.injEq] at h
        rw [← h.2]
        exact (h1.calm_trans h4).calm_trans (work_queue_unref_calm env s4 q s5 hun)

theorem init_global_once_calm (s : Engine) : Calm s (init_global_once s) := by
  apply Calm.of_log
  simp only [init_global_once]
  split <;> rfl

theorem work_queue_add_calm (env : Env) (s : Engine) (q : Option QId)
    (w notify cancel : Option Nat) (data : Data) (r : Int) (s2 : Engine)
    (h : work_queue_add env s q w notify cancel data = .ok (r, s2)) : Calm s s2 := by
  simp only [work_queue_add] at h
  split at h
  · cases h
  · split at h
    · exact (init_global_once_calm s).calm_trans (add_item_calm env _ _ _ _ _ _ r s2 h)
    · exact add_item_calm env _ _ _ _ _ _ r s2 h

theorem work_queue_free_calm (s : Engine) (q : QId) (s1 : Engine)
    (h : _work_queue_free s q = .ok s1) : Calm s s1 := by
  simp only [_work_queue_free] at h
  split at h
  · cases h
  · split at h
    · cases h
    · split at h
      · cases h
      · split at h
        · cases h
        · simp only [Except.ok.injEq] at h
          rw [← h]
          refine Calm.of_emit _ rfl ?_
          intro e he
          split at he
          · simp only [List.mem_singleton] at he
            rw [he]; rfl
          · cases he

theorem call_fn_calm (s : Engine) (f : Fn) (d : Data) (s1 : Engine)
    (h : call_fn s f d = .ok s1) : Calm s s1 := by
  simp only [call_fn] at h
  split at h
  · simp only [Except.ok.injEq] at h
    rw [← h]; exact Calm.of_log rfl
  · exact work_queue_free_calm s _ s1 h
  · simp only [Except.ok.injEq] at h
    rw [← h]; exact Calm.calm_refl _

theorem work_item_finish_calm (env : Env) (s : Engine) (item : Ptr) (need_free : Bool)
    (s1 : Engine) (h : work_item_finish env s item need_free = .ok s1) : Calm s s1 := by
  simp only [work_item_finish] at h
  split at h
  · split at h
    · cases h
    · next r s0 hadd =>
      split at h
      · simp only [Except.ok.injEq] at h
        rw [← h]
        exact add_unlocked_calm env s QId.main item false r s0 hadd
      · cases h
  · simp only [Except.ok.injEq] at h
    rw [← h]
    refine Calm.of_emit _ rfl ?_
    intro e he
    split at he
    · simp only [List.mem_singleton] at he
      rw [he]; rfl
    · cases he

theorem work_item_execute_calm (env : Env) (s : Engine) (item : Ptr) (do_notify : Bool)
    (s1 : Engine) (h : work_item_execute env s item do_notify = .ok s1) : Calm s s1 := by
  simp only [work_item_execute] at h
  split at h
  · split at h
    · cases h
    · next f _ =>
      split at h
      · cases h
      · next s0 hcall =>
        simp only [Except.ok.injEq] at h
        rw [← h]
        refine ((Calm.of_emit [Event.notify f (s.heap item).data item] rfl
          (by simp [Event.is_cancel])).calm_trans (call_fn_calm _ f _ s0 hcall)).calm_trans
          (Calm.of_emit _ rfl ?_)
        intro e he
        split at he
        · simp only [List.mem_singleton] at he
          rw [he]; rfl
        · cases he
  · split at h
    · cases h
    · next f _ =>
      split at h
      · cases h
      · next s0 hcall =>
        exact ((Calm.of_emit [Event.work f (s.heap item).data item] rfl
          (by simp [Event.is_cancel])).calm_trans (call_fn_calm _ f _ s0 hcall)).calm_trans
          (work_item_finish_calm env s0 item _ s1 h)

/-! ## C12: the steps of the engine other than a rewind add are calm -/

theorem run_begin_calm (env : Env) (s : Engine) (q : QId) (ran : Ran) (s1 : Engine)
    (h : run_begin env s q = .ok (ran, s1)) : Calm s s1 := by
  rcases run_begin_cases env s q ran s1 h with ⟨_, e⟩ | ⟨_, hd, r0, h1, Q1, _, _, _, _, hex⟩
    | ⟨hd, r0, h1, Q1, _, _, _, e⟩
  · rw [e]; exact Calm.calm_refl _
  · exact (work_item_execute_calm env _ hd _ s1 hex).from_log rfl
  · rw [e]; exact Calm.of_log rfl

theorem run_end_calm (env : Env) (s : Engine) (q : QId) (p : Ptr) (s1 : Engine)
    (h : run_end env s q p = .ok s1) : Calm s s1 := by
  simp only [run_end] at h
  split at h
  · cases h
  · next s0 hex =>
    simp only [Except.ok.injEq] at h
    rw [← h]
    exact (work_item_execute_calm env s p _ s0 hex).calm_trans (Calm.of_log rfl)

theorem set_destroy_notify_calm (env : Env) (s : Engine) (q : QId) (f : Option Nat)
    (ctx : Data) (s2 : Engine)
    (h : work_queue_set_destroy_notify env s q f ctx = .ok s2) : Calm s s2 := by
  simp only [work_queue_set_destroy_notify] at h
  split at h
  · cases h
  · next s1 href =>
    exact (work_queue_ref_calm s q s1 href).calm_trans
      ((work_queue_unref_calm env _ q s2 h).from_log rfl)

theorem flush_begin_calm (s : Engine) (q : QId) (in_stop : Bool) (s2 : Engine)
    (h : flush_begin s q in_stop = .ok s2) : Calm s s2 := by
  simp only [flush_begin] at h
  split at h
  · cases h
  · split at h
    · cases h
    · next s1 href =>
      split at h
      · simp only [Except.ok.injEq] at h
        rw [← h]
        exact (work_queue_ref_calm s q s1 href).calm_trans (Calm.of_log rfl)
      · cases h

theorem flush_exit_calm (env : Env) (s : Engine) (q : QId) (in_stop : Bool) (r : Int)
    (s2 : Engine) (h : flush_exit env s q in_stop r = .ok s2) : Calm s s2 := by
  simp only [flush_exit] at h
  split at h
  · cases h
  · next s1 hun =>
    simp only [Except.ok.injEq] at h
    rw [← h]
    exact ((work_queue_unref_calm env _ q s1 hun).from_log rfl).calm_trans
      (Calm.of_emit [Event.flush_returned q r] rfl (by simp [Event.is_cancel]))

theorem flush_iter_calm (env : Env) (s : Engine) (q : QId) (in_stop : Bool) (s2 : Engine)
    (h : flush_iter env s q in_stop = .ok s2) : Calm s s2 := by
  simp only [flush_iter] at h
  split at h
  · exact flush_exit_calm env s q in_stop 0 s2 h
  · split at h
    · cases h
    · next r s1 hadd =>
      have h1 := add_unlocked_calm env s q _ false r s1 hadd
      split at h
      · exact h1.calm_trans (flush_exit_calm env s1 q in_stop r s2 h)
      · simp only [Except.ok.injEq] at h
        rw [← h]
        exact h1.calm_trans (Calm.of_log rfl)

theorem stop_out_calm (env : Env) (s : Engine) (q : QId) (r : Int) (s2 : Engine)
    (h : stop_out env s q r = .ok s2) : Calm s s2 := by
  simp only [stop_out] at h
  split at h
  · cases h
  · next s1 hun =>
    simp only [Except.ok.injEq] at h
    rw [← h]
    exact (work_queue_unref_calm env _ q s1 hun).calm_trans
      (Calm.of_emit [Event.stop_returned q r] rfl (by simp [Event.is_cancel]))

theorem stop_body_calm (env : Env) (s : Engine) (q : QId) (r : Int) (s2 : Engine)
    (h : stop_body env s q r = .ok s2) : Calm s s2 := by
  simp only [stop_body] at h
  split at h
  · exact stop_out_calm env s q r s2 h
  · split at h
    · split at h
      · split at h
        · exact (stop_out_calm env _ q r s2 h).from_log rfl
        · split at h
          · cases h
          · next r1 s1 hadd =>
            have h1 : Calm s s1 := (add_unlocked_calm env _ q _ false r1 s1 hadd).from_log rfl
            split at h
            · exact h1.calm_trans (stop_out_calm env s1 q r1 s2 h)
            · simp only [Except.ok.injEq] at h
              rw [← h]
              exact h1.calm_trans (Calm.of_log rfl)
      · cases h
    · exact stop_out_calm env s q r s2 h

theorem worker_run_calm (env : Env) (s : Engine) (q : QId) (s2 : Engine)
    (h : worker_run env s q = .ok s2) : Calm s s2 := by
  simp only [worker_run] at h
  split at h
  · cases h
  · next r s1 hrb =>
    have h1 := run_begin_calm env s q _ s1 hrb
    split at h
    · simp only [Except.ok.injEq] at h
      rw [← h]
      exact h1.calm_trans (Calm.of_log rfl)
    · simp only [Except.ok.injEq] at h
      rw [← h]
      exact h1
  · next p s1 hrb =>
    simp only [Except.ok.injEq] at h
    rw [← h]
    exact (run_begin_calm env s q _ s1 hrb).calm_trans (Calm.of_log rfl)

theorem runner_iter_calm (env : Env) (s : Engine) (q : QId) (r : Ptr) (m : Nat) (stop : Bool)
    (s2 : Engine) (h : runner_iter env s q r m stop = .ok s2) : Calm s s2 := by
  simp only [runner_iter] at h
  split at h
  · simp only [Except.ok.injEq] at h
    rw [← h]; exact Calm.of_log rfl
  · next hd _ =>
    split at h
    · simp only [Except.ok.injEq] at h
      rw [← h]; exact Calm.of_log rfl
    · split at h
      · split at h
        · split at h
          · cases h
          · next r0 h1 Q1 _ =>
            split at h
            · cases h
            · next s1 hex =>
              simp only [Except.ok.injEq] at h
              rw [← h]
              exact ((work_item_execute_calm env _ hd false s1 hex).from_log rfl).calm_trans
                (Calm.of_log rfl)
        · simp only [Except.ok.injEq] at h
          rw [← h]; exact Calm.of_log rfl
      · split at h
        · cases h
        · simp only [Except.ok.injEq] at h
          rw [← h]; exact Calm.of_log rfl

/-- A step of the engine that is not a call of `work_queue_add_rewind` calls
no cancel callback; before the allocation mark moves. -/
theorem fire_core_calm (s : Engine) (st : Step) (s2 : Engine)
    (hst : ∀ env q w n c d, st ≠ Step.add_rewind env q w n c d)
    (h : fire_core s st = .ok s2) : Calm s s2 := by
  cases st with
  | new_queue n maxsize =>
    simp only [fire_core] at h
    split at h
    · simp only [work_queue_new] at h
      split at h
      · simp only [Except.ok.injEq] at h
        rw [← h]
        exact (init_global_once_calm s).calm_trans (Calm.of_log rfl)
      · cases h
    · cases h
  | new_bucket n maxsize width =>
    simp only [fire_core] at h
    split at h
    · simp only [work_bucket_new] at h
      split at h
      · split at h
        · simp only [Except.ok.injEq] at h
          rw [← h]
          exact (init_global_once_calm s).calm_trans (Calm.of_log rfl)
        · cases h
      · cases h
    · cases h
  | set_destroy_notify env q f ctx => exact set_destroy_notify_calm env s q f ctx s2 h
  | ref q => exact work_queue_ref_calm s q s2 h
  | unref env q => exact work_queue_unref_calm env s q s2 h
  | add env q work notify cancel data =>
    simp only [fire_core] at h
    split at h
    · cases h
    · split at h
      · cases h
      · next r s1 ha =>
        simp only [Except.ok.injEq] at h
        rw [← h]
        exact work_queue_add_calm env s q work notify cancel data r s1 ha
  | add_rewind env q work notify cancel data => exact absurd rfl (hst env q work notify cancel data)
  | flush_begin q =>
    simp only [fire_core] at h
    split at h
    · exact flush_begin_calm s q false s2 h
    · cases h
  | flush_iter env q =>
    simp only [fire_core] at h
    split at h
    · exact flush_iter_calm env s q _ s2 h
    · cases h
  | flush_wake q =>
    simp only [fire_core] at h
    split at h
    · split at h
      · simp only [Except.ok.injEq] at h
        rw [← h]; exact Calm.of_log rfl
      · cases h
    · cases h
  | stop_begin q =>
    simp only [fire_core] at h
    split at h
    · split at h
      · cases h
      · split at h
        · cases h
        · next s1 h1 =>
          exact (work_queue_ref_calm s q s1 h1).calm_trans (flush_begin_calm s1 q true s2 h)
    · cases h
  | stop_body env q =>
    simp only [fire_core] at h
    split at h
    · exact stop_body_calm env s q _ s2 h
    · cases h
  | stop_wake env q =>
    simp only [fire_core] at h
    split at h
    · split at h
      · exact (stop_out_calm env _ q 0 s2 h).from_log rfl
      · cases h
    · cases h
  | main_run env =>
    simp only [fire_core] at h
    split at h
    · cases h
    · next r s1 hrb =>
      simp only [Except.ok.injEq] at h
      rw [← h]
      exact run_begin_calm env s QId.main _ s1 hrb
    · next p s1 hrb =>
      simp only [Except.ok.injEq] at h
      rw [← h]
      exact (run_begin_calm env s QId.main _ s1 hrb).calm_trans (Calm.of_log rfl)
  | main_done env =>
    simp only [fire_core] at h
    split at h
    · cases h
    · next p rest _ =>
      split at h
      · cases h
      · next s1 hre =>
        simp only [Except.ok.injEq] at h
        rw [← h]
        exact (run_end_calm env s QId.main p s1 hre).calm_trans (Calm.of_log rfl)
  | worker_run env q =>
    simp only [fire_core] at h
    split at h
    · exact worker_run_calm env s q s2 h
    · cases h
  | worker_work env q p =>
    simp only [fire_core] at h
    split at h
    · split at h
      · cases h
      · next s1 hex =>
        simp only [Except.ok.injEq] at h
        rw [← h]
        exact (work_item_execute_calm env s p false s1 hex).calm_trans (Calm.of_log rfl)
    · cases h
  | worker_relock q =>
    simp only [fire_core] at h
    split at h
    · simp only [Except.ok.injEq] at h
      rw [← h]; exact Calm.of_log rfl
    · cases h
  | runner_enter q r b =>
    simp only [fire_core] at h
    split at h
    · simp only [Except.ok.injEq] at h
      rw [← h]
      exact Calm.of_emit [Event.work Fn.wq_run_bucket (Data.queue (QId.bucket b)) r] rfl
        (by simp [Event.is_cancel])
    · cases h
  | runner_iter env q r b stop =>
    simp only [fire_core] at h
    split at h
    · exact runner_iter_calm env s q r b stop s2 h
    · cases h
  | runner_work env q r b p =>
    simp only [fire_core] at h
    split at h
    · split at h
      · cases h
      · next s1 hex =>
        simp only [Except.ok.injEq] at h
        rw [← h]
        exact (work_item_execute_calm env s p false s1 hex).calm_trans (Calm.of_log rfl)
    · cases h
  | runner_return env q r =>
    simp only [fire_core] at h
    split at h
    · split at h
      · cases h
      · next s1 hex =>
        simp only [Except.ok.injEq] at h
        rw [← h]
        exact (work_item_finish_calm env s r _ s1 hex).calm_trans (Calm.of_log rfl)
    · cases h

/-- A step of the engine that is not a call of `work_queue_add_rewind` calls
no cancel callback. -/
theorem fire_calm (s : Engine) (st : Step) (s2 : Engine)
    (hst : ∀ env q w n c d, st ≠ Step.add_rewind env q w n c d)
    (h : fire s st = .ok s2) : Calm s s2 := by
  simp only [fire] at h
  split at h
  · exact fire_core_calm s st s2 hst h
  · split at h
    · split at h
      · cases h
      · next s1 h1 =>
        simp only [Except.ok.injEq] at h
        rw [← h]
        exact (fire_core_calm s st s1 hst h1).calm_trans (Calm.of_log rfl)
    · cases h

/-! ## C4, C12: the claims -/

/-- What the log holds about a submitted item that a thread or the main
thread holds: nothing, or on the stack of the main thread its work. -/
theorem held_history (s : Engine) (hr : Reachable s) (k u : Nat)
    (hw : (s.heap (Ptr.node k)).work = some (Fn.user u)) :
    (∀ o pc, pc ∈ s.threads o → Ptr.node k ∈ pc.items → about s.log (Ptr.node k) = [])
    ∧ (Ptr.node k ∈ s.main_stack →
        about s.log (Ptr.node k) = hist_work (s.heap (Ptr.node k)) (Ptr.node k)) := by
  obtain ⟨own, ch, ⟨hs, _, hh, _⟩, _⟩ := reachable_good s hr
  have hl := hs.life k u hw
  constructor
  · intro o pc hpc hm
    rw [hh.own_of_mem o pc _ hpc hm] at hl
    exact hl
  · intro hm
    rw [hh.own_of_stack _ hm] at hl
    exact hl.1

/-- In every state the engine can reach, the log holds about a submitted item
one of five histories: nothing; the `free` of a failed add; its work; its
work, its notifier if it has one, and `free`; its cancel callback if it has
one, and `free`.  Hence its notifier and its cancel callback are invoked at
most once taken together (never both, none twice), the notifier only on an
item that has one and whose work has run, the cancel callback only on an item
that has one and whose work has not run. -/
theorem callbacks_at_most_once (s : Engine) (hr : Reachable s) (k u : Nat)
    (hw : (s.heap (Ptr.node k)).work = some (Fn.user u)) :
    (about s.log (Ptr.node k) = []
      ∨ about s.log (Ptr.node k) = [Event.free (Ptr.node k)]
      ∨ about s.log (Ptr.node k) = hist_work (s.heap (Ptr.node k)) (Ptr.node k)
      ∨ about s.log (Ptr.node k) = hist_run (s.heap (Ptr.node k)) (Ptr.node k)
      ∨ about s.log (Ptr.node k) = hist_evict (s.heap (Ptr.node k)) (Ptr.node k))
    ∧ (invoked s.log (Ptr.node k)).1 + (invoked s.log (Ptr.node k)).2 ≤ 1
    ∧ ((invoked s.log (Ptr.node k)).1 = 1 →
        (s.heap (Ptr.node k)).notify ≠ none ∧ work_ran s.log (Ptr.node k) = true)
    ∧ ((invoked s.log (Ptr.node k)).2 = 1 →
        (s.heap (Ptr.node k)).cancel ≠ none ∧ work_ran s.log (Ptr.node k) = false) := by
  have h5 := item_history s hr k u hw
  obtain ⟨a, b, c, _⟩ := history_counts (s.heap (Ptr.node k)) (Ptr.node k) u hw _ h5
  simp only [invoked_about, work_ran_about] at a b c
  exact ⟨h5, a, fun h => ⟨(b h).1, (b h).2.1⟩, fun h => ⟨(c h).1, (c h).2.1⟩⟩

/-- C4 (counterexample): an item with a cancel callback and without a notifier
is added to a private queue and run to the end; the queue and the main queue
are empty, the worker thread is idle, the item is freed, and neither callback
was invoked although not both are NULL. -/
theorem item_without_notifier_gets_no_callback :
    Reachable item_without_notifier_done
    ∧ (item_without_notifier_done.heap (Ptr.node 0)).work = some (Fn.user 1)
    ∧ (item_without_notifier_done.heap (Ptr.node 0)).notify = none
    ∧ (item_without_notifier_done.heap (Ptr.node 0)).cancel = some (Fn.user 3)
    ∧ log_view (run_steps Engine.boot run_item_without_notifier)
        = some [Event.work (Fn.user 1) (Data.user 0) (Ptr.node 0), Event.free (Ptr.node 0)]
    ∧ queue_view (run_steps Engine.boot run_item_without_notifier) q0
        = some ([], 0, 10, 0, 0)
    ∧ queue_view (run_steps Engine.boot run_item_without_notifier) QId.main
        = some ([], 0, 65535, 0, 0)
    ∧ item_without_notifier_done.threads q0 = [Pc.wait]
    ∧ item_without_notifier_done.main_stack = []
    ∧ invoked item_without_notifier_done.log (Ptr.node 0) = (0, 0) :=
  ⟨reachable_state_after _, by decide, by decide, by decide, by decide, by decide, by decide,
    by decide, by decide, by decide⟩

/-- C12: a step of the engine that is not a call of `work_queue_add_rewind`
invokes no cancel callback.  In every state the engine can reach, a submitted
item whose cancel callback was invoked has the history of an evicted item (its
cancel, then `free`): its work and its notifier were not invoked, and no thread
holds it; and an item that a thread or the main thread holds (it was dequeued
for execution), or whose work has run, has not had its cancel callback
invoked. -/
theorem cancel_only_by_eviction (s : Engine) (hr : Reachable s) :
    (∀ st s2, fire s st = .ok s2 → (∀ env q w n c d, st ≠ Step.add_rewind env q w n c d) →
      cancel_calls s2.log = cancel_calls s.log)
    ∧ ∀ k u, (s.heap (Ptr.node k)).work = some (Fn.user u) →
      (invoked s.log (Ptr.node k)).2 ≤ 1
      ∧ ((invoked s.log (Ptr.node k)).2 = 1 →
          about s.log (Ptr.node k) = hist_evict (s.heap (Ptr.node k)) (Ptr.node k)
          ∧ work_ran s.log (Ptr.node k) = false
          ∧ (invoked s.log (Ptr.node k)).1 = 0
          ∧ (∀ o pc, pc ∈ s.threads o → Ptr.node k ∉ pc.items)
          ∧ Ptr.node k ∉ s.main_stack)
      ∧ (((∃ o pc, pc ∈ s.threads o ∧ Ptr.node k ∈ pc.items) ∨ Ptr.node k ∈ s.main_stack
            ∨ work_ran s.log (Ptr.node k) = true) →
          (invoked s.log (Ptr.node k)).2 = 0) := by
  refine ⟨fun st s2 h hst => (fire_calm s st s2 hst h).cancel_calls_eq, ?_⟩
  intro k u hw
  have h5 := item_history s hr k u hw
  obtain ⟨a, _, c, d⟩ := history_counts (s.heap (Ptr.node k)) (Ptr.node k) u hw _ h5
  obtain ⟨e1, e2⟩ := held_history s hr k u hw
  simp only [invoked_about, work_ran_about] at a c d
  have hheld : ((∃ o pc, pc ∈ s.threads o ∧ Ptr.node k ∈ pc.items) ∨ Ptr.node k ∈ s.main_stack
      ∨ work_ran s.log (Ptr.node k) = true) → (invoked s.log (Ptr.node k)).2 = 0 := by
    intro h
    rcases h with ⟨o, pc, hpc, hm⟩ | h | h
    · rw [← invoked_about, e1 o pc hpc hm]
      rfl
    · rw [← invoked_about, e2 h]
      simp [invoked, hist_work, hw]
    · exact d h
  refine ⟨by omega, ?_, hheld⟩
  intro h1
  obtain ⟨_, c2, c3⟩ := c h1
  refine ⟨c3, c2, by omega, ?_, ?_⟩
  · intro o pc hpc hm
    have := hheld (Or.inl ⟨o, pc, hpc, hm⟩)
    omega
  · intro hm
    have := hheld (Or.inr (Or.inl hm))
    omega

/-- Witness of `cancel_only_by_eviction`: the item that the first rewind add
of `run_two_rewinds` evicted. -/
theorem cancel_only_by_eviction_witness :
    (Reachable two_rewinds_done
      ∧ (two_rewinds_done.heap (Ptr.node 4)).work = some (Fn.user 1)
      ∧ (invoked two_rewinds_done.log (Ptr.node 4)).2 = 1)
    ∧ about two_rewinds_done.log (Ptr.node 4)
        = hist_evict (two_rewinds_done.heap (Ptr.node 4)) (Ptr.node 4)
    ∧ work_ran two_rewinds_done.log (Ptr.node 4) = false
    ∧ (invoked two_rewinds_done.log (Ptr.node 4)).1 = 0 :=
  ⟨⟨reachable_state_after _, by decide, by decide⟩,
    (((cancel_only_by_eviction two_rewinds_done (reachable_state_after _)).2 4 1
      (by decide)).2.1 (by decide)).1,
    (((cancel_only_by_eviction two_rewinds_done (reachable_state_after _)).2 4 1
      (by decide)).2.1 (by decide)).2.1,
    (((cancel_only_by_eviction two_rewinds_done (reachable_state_after _)).2 4 1
      (by decide)).2.1 (by decide)).2.2.1⟩

/-! ## C11: what the calls change in memory and in the counters of the queues -/

theorem Same.of_quiet {s s2 : Engine} (A : Ptr → Prop) (hq : Quiet s s2)
    (hpay : ∀ k, payload (s2.heap (Ptr.node k)) = payload (s.heap (Ptr.node k)))
    (hptr : ∀ x, Pointed s2 x → Pointed s x ∨ A x) : Same s s2 A :=
  ⟨fun o => (hq.1 o).2.2.2, fun o => ⟨(hq.1 o).1, (hq.1 o).2.1⟩, fun o _ => by rw [hq.2],
    hpay, hptr⟩

theorem Same.same_refl (s : Engine) (A : Ptr → Prop) : Same s s A :=
  ⟨fun _ => rfl, fun _ => ⟨rfl, rfl⟩, fun _ _ => rfl, fun _ => rfl, fun _ h => Or.inl h⟩

theorem Same.same_trans {s s1 s2 : Engine} {A : Ptr → Prop} (h1 : Same s s1 A)
    (h2 : Same s1 s2 A) : Same s s2 A := by
  refine ⟨fun o => (h2.run o).trans (h1.run o),
    fun o => ⟨((h2.vt o).1).trans (h1.vt o).1, ((h2.vt o).2).trans (h1.vt o).2⟩,
    fun o hv => ?_, fun k => (h2.pay k).trans (h1.pay k), fun x hx => ?_⟩
  · rw [h2.thr o (by rw [(h1.vt o).1]; exact hv), h1.thr o hv]
  · rcases h2.ptr x hx with a | a
    · exact h1.ptr x a
    · exact Or.inr a

theorem Same.same_mono {s s2 : Engine} {A A2 : Ptr → Prop} (h : Same s s2 A)
    (hA : ∀ x, A x → A2 x) : Same s s2 A2 :=
  ⟨h.run, h.vt, h.thr, h.pay, fun x hx => (h.ptr x hx).imp id (hA x)⟩

/-- A piece of code that changes no counter is a call that links no runner. -/
theorem Same.adds {s s2 : Engine} {A : Ptr → Prop} (h : Same s s2 A) (env : Env) (q : QId)
    (W : Ptr → Prop) : Adds s s2 env q A W := by
  refine ⟨fun k => Or.inl (h.pay k), fun x hx => ?_, fun o => ?_, ?_, h.vt, h.thr⟩
  · rcases h.ptr x hx with a | a
    · exact Or.inl a
    · exact Or.inr (Or.inl a)
  · exact ⟨by rw [h.run o], fun _ => h.run o⟩
  · intro hlt
    rw [h.run q] at hlt
    exact absurd hlt (lt_irrefl _)

theorem Adds.adds_refl (s : Engine) (env : Env) (q : QId) (A W : Ptr → Prop) :
    Adds s s env q A W :=
  (Same.same_refl s A).adds env q W

theorem Adds.adds_trans {s s1 s2 : Engine} {env : Env} {q : QId} {A W : Ptr → Prop}
    (h1 : Adds s s1 env q A W) (h2 : Adds s1 s2 env q A W)
    (hrn : ∀ x, env.runner = some x → ∃ k, x = Ptr.node k)
    (hW : ∀ x, W x → env.runner ≠ some x) : Adds s s2 env q A W := by
  refine ⟨?_, ?_, ?_, ?_, ?_, ?_⟩
  · intro k
    rcases h2.pay k with e | ⟨w, u, hu⟩ | ⟨r, e, v⟩
    · rcases h1.pay k with e1 | ⟨w, u, hu⟩ | ⟨r, e1, v⟩
      · exact Or.inl (e.trans e1)
      · exact Or.inr (Or.inl ⟨w, u, by rw [payload_work e]; exact hu⟩)
      · exact Or.inr (Or.inr ⟨r, e.trans e1, v⟩)
    · exact Or.inr (Or.inl ⟨w, u, hu⟩)
    · exact Or.inr (Or.inr ⟨r, e, by rw [← (h1.vt q).1]; exact v⟩)
  · intro x hx
    rcases h2.ptr x hx with a | a | ⟨r, lt⟩
    · rcases h1.ptr x a with b | b | ⟨r, lt⟩
      · exact Or.inl b
      · exact Or.inr (Or.inl b)
      · exact Or.inr (Or.inr ⟨r, lt_of_lt_of_le lt (h2.run q).1⟩)
    · exact Or.inr (Or.inl a)
    · exact Or.inr (Or.inr ⟨r, lt_of_le_of_lt (h1.run q).1 lt⟩)
  · intro o
    exact ⟨le_trans (h1.run o).1 (h2.run o).1,
      fun hne => by rw [(h2.run o).2 hne, (h1.run o).2 hne]⟩
  · intro hlt
    by_cases c : (s1.queues q).n_running < (s2.queues q).n_running
    · obtain ⟨v, w, p⟩ := h2.lim c
      exact ⟨by rw [← (h1.vt q).1]; exact v, by rw [← (h1.vt q).2]; exact w, p⟩
    · have he : (s2.queues q).n_running = (s1.queues q).n_running :=
        le_antisymm (not_lt.1 c) (h2.run q).1
      rw [he] at hlt
      obtain ⟨v, w, p⟩ := h1.lim hlt
      refine ⟨v, by rw [he]; exact w, ?_⟩
      intro x hx
      obtain ⟨k, hk⟩ := hrn x hx
      subst hk
      rcases h2.pay k with e | ⟨w0, _⟩ | ⟨_, e, _⟩
      · exact e.trans (p _ hx)
      · exact absurd hx (hW _ w0)
      · exact e
  · intro o
    exact ⟨((h2.vt o).1).trans (h1.vt o).1, ((h2.vt o).2).trans (h1.vt o).2⟩
  · intro o hv
    rw [h2.thr o (by rw [(h1.vt o).1]; exact hv), h1.thr o hv]

theorem Adds.adds_mono {s s2 : Engine} {env : Env} {q : QId} {A W A2 W2 : Ptr → Prop}
    (h : Adds s s2 env q A W) (hA : ∀ x, A x → A2 x) (hW : ∀ x, W x → W2 x) :
    Adds s s2 env q A2 W2 := by
  refine ⟨?_, ?_, h.run, h.lim, h.vt, h.thr⟩
  · intro k
    rcases h.pay k with e | ⟨w, u⟩ | e
    · exact Or.inl e
    · exact Or.inr (Or.inl ⟨hW _ w, u⟩)
    · exact Or.inr (Or.inr e)
  · intro x hx
    rcases h.ptr x hx with a | a | a
    · exact Or.inl a
    · exact Or.inr (Or.inl (hA _ a))
    · exact Or.inr (Or.inr a)

/-- What `_work_queue_add_tail_unlocked` links is the item. -/
theorem add_tail_next (h : Heap) (Q : WorkQueue) (item p x : Ptr)
    (hx : ((_work_queue_add_tail_unlocked h Q item).1 p).next = some x) :
    (h p).next = some x ∨ x = item := by
  simp only [_work_queue_add_tail_unlocked] at hx
  cases ht : Q.tail with
  | none =>
    rw [ht] at hx
    simp only [Function.update_apply] at hx
    split at hx
    · cases hx
    · exact Or.inl hx
  | some t =>
    rw [ht] at hx
    simp only [Function.update_apply] at hx
    split at hx
    · simp only [Option.some.injEq] at hx
      exact Or.inr hx.symm
    · split at hx
      · cases hx
      · exact Or.inl hx

theorem add_tail_head (h : Heap) (Q : WorkQueue) (item x : Ptr)
    (hx : (_work_queue_add_tail_unlocked h Q item).2.head = some x) :
    Q.head = some x ∨ x = item := by
  simp only [_work_queue_add_tail_unlocked] at hx
  cases ht : Q.tail with
  | none =>
    rw [ht] at hx
    simp only [Option.some.injEq] at hx
    exact Or.inr hx.symm
  | some t =>
    rw [ht] at hx
    exact Or.inl hx

/-- Pointers after a change to memory and to one queue record. -/
theorem pointed_of {s : Engine} (q : QId) (h1 : Heap) (Q1 : WorkQueue) (log : List Event)
    (A : Ptr → Prop)
    (hh : ∀ x, Q1.head = some x → Pointed s x ∨ A x)
    (hn : ∀ p x, (h1 p).next = some x → Pointed s x ∨ A x) (x : Ptr)
    (hx : Pointed { s with heap := h1, queues := Function.update s.queues q Q1, log := log } x) :
    Pointed s x ∨ A x := by
  rcases hx with ⟨o, ho⟩ | ⟨p, hp⟩
  · by_cases e : o = q
    · subst e
      simp only [Function.update_same] at ho
      exact hh x ho
    · simp only [Function.update_noteq e] at ho
      exact Or.inl (Or.inl ⟨o, ho⟩)
  · exact hn p x hp

theorem add_tail_same (A : Ptr → Prop) (s : Engine) (q : QId) (item : Ptr) (hA : A item) :
    Same s { s with heap := (_work_queue_add_tail_unlocked s.heap (s.queues q) item).1,
                    queues := Function.update s.queues q
                      (_work_queue_add_tail_unlocked s.heap (s.queues q) item).2 } A := by
  refine Same.of_quiet A (add_tail_quiet s q item) (fun k => add_tail_payload _ _ _ _) ?_
  refine pointed_of q _ _ s.log A ?_ ?_
  · intro x hx
    rcases add_tail_head _ _ _ _ hx with h | h
    · exact Or.inl (Or.inl ⟨q, h⟩)
    · rw [h]; exact Or.inr hA
  · intro p x hx
    rcases add_tail_next _ _ _ _ _ hx with h | h
    · exact Or.inl (Or.inr ⟨p, h⟩)
    · rw [h]; exact Or.inr hA

/-- Memory after `_work_queue_unlink_one_unlocked`: the content of the blocks
is kept, and every link was there before. -/
theorem unlink_ptr (h : Heap) (Q : WorkQueue) (l : Link) :
    (∀ x, payload ((_work_queue_unlink_one_unlocked h Q l).2.1 x) = payload (h x))
      ∧ (∀ p x, ((_work_queue_unlink_one_unlocked h Q l).2.1 p).next = some x →
          ∃ p0, (h p0).next = some x)
      ∧ (∀ x, (_work_queue_unlink_one_unlocked h Q l).2.2.head = some x →
          Q.head = some x ∨ ∃ p0, (h p0).next = some x) := by
  simp only [_work_queue_unlink_one_unlocked]
  split
  · exact ⟨fun _ => rfl, fun p x hx => ⟨p, hx⟩, fun x hx => Or.inl hx⟩
  · next item hitem =>
    cases l with
    | head =>
      simp only [Link.set]
      have hpay : ∀ x, payload (Function.update h item { h item with next := none } x)
          = payload (h x) := fun x => update_next_payload h item x none
      have hnx : ∀ p x, (Function.update h item { h item with next := none } p).next = some x →
          ∃ p0, (h p0).next = some x := by
        intro p x hx
        simp only [Function.update_apply] at hx
        split at hx
        · cases hx
        · exact ⟨p, hx⟩
      split
      · exact ⟨hpay, hnx, fun x hx => Or.inr ⟨item, hx⟩⟩
      · exact ⟨hpay, hnx, fun x hx => Or.inr ⟨item, hx⟩⟩
    | next prev =>
      simp only [Link.set]
      have hpay : ∀ x, payload (Function.update
          (Function.update h prev { h prev with next := (h item).next }) item
          { Function.update h prev { h prev with next := (h item).next } item with
            next := none } x) = payload (h x) := by
        intro x
        rw [update_next_payload, update_next_payload]
      have hnx : ∀ p x, (Function.update
          (Function.update h prev { h prev with next := (h item).next }) item
          { Function.update h prev { h prev with next := (h item).next } item with
            next := none } p).next = some x → ∃ p0, (h p0).next = some x := by
        intro p x hx
        simp only [Function.update_apply] at hx
        split at hx
        · cases hx
        · split at hx
          · exact ⟨item, hx⟩
          · exact ⟨p, hx⟩
      split
      · exact ⟨hpay, hnx, fun x hx => Or.inl hx⟩
      · exact ⟨hpay, hnx, fun x hx => Or.inl hx⟩

theorem evict_one_same (env : Env) (A : Ptr → Prop) (s : Engine) (q : QId)
    (r : Int) (s2 : Engine) (h : evict_one env s q = .ok (r, s2)) :
    Same s s2 A ∧ r = 1 := by
  refine ⟨Same.of_quiet A (evict_one_quiet env s q r s2 h) ?_ ?_, ?_⟩
  all_goals
    simp only [evict_one] at h
    split at h
    · split at h
      · cases h
      · simp only [Except.ok.injEq, Prod.mk.injEq] at h
        obtain ⟨a, b, c⟩ := unlink_ptr s.heap (s.queues q)
          (scan_normal s.heap (s.queues q) env.fuel Link.head)
        first
          | exact h.1.symm
          | rw [← h.2]
            first
              | exact fun k => a _
              | exact pointed_of q _ _ _ A
                  (fun x hx => Or.inl ((c x hx).elim (fun e => Or.inl ⟨q, e⟩) Or.inr))
                  (fun p x hx => Or.inl (Or.inr (b p x hx)))
    · cases h

theorem more_thread_same (env : Env) (A : Ptr → Prop) (s : Engine) (q : QId)
    (hv : (s.queues q).vtable = some VTable.queue) :
    Same s (_more_thread_unlocked env s q).2 A := by
  simp only [_more_thread_unlocked]
  split
  · split
    · split <;> exact Same.same_refl _ _
    · refine ⟨fun o => ?_, fun o => ?_, fun o ho => ?_, fun _ => rfl, fun x hx => Or.inl ?_⟩
      · by_cases e : o = q
        · subst e
          simp
        · simp [Function.update_noteq e]
      · by_cases e : o = q
        · subst e
          simp
        · simp [Function.update_noteq e]
      · have e : o ≠ q := fun e => ho (by rw [e]; exact hv)
        simp [Function.update_noteq e]
      · rcases hx with ⟨o, ho⟩ | ⟨p, hp⟩
        · left
          refine ⟨o, ?_⟩
          by_cases e : o = q
          · subst e
            simpa using ho
          · simpa [Function.update_noteq e] using ho
        · exact Or.inr ⟨p, hp⟩
  · exact Same.same_refl _ _

/-- The part of `_work_queue_add_unlocked` after `prepare_executive`: evict an
item if the queue is full, then link the new item. -/
theorem add_rest_same (env : Env) (A : Ptr → Prop) (s1 : Engine) (q : QId) (item : Ptr)
    (full : Bool) (r : Int) (s4 : Engine) (hA : A item)
    (hev : (if full = true then evict_one env s1 q else .ok (0, s1)) = .ok (r, s4)) :
    Same s1 { s4 with heap := (_work_queue_add_tail_unlocked s4.heap (s4.queues q) item).1,
                      queues := Function.update s4.queues q
                        (_work_queue_add_tail_unlocked s4.heap (s4.queues q) item).2 } A
      ∧ 0 ≤ r := by
  have h4 : Same s1 s4 A ∧ 0 ≤ r := by
    split at hev
    · obtain ⟨a, b⟩ := evict_one_same env A s1 q r s4 hev
      exact ⟨a, by rw [b]; decide⟩
    · simp only [Except.ok.injEq, Prod.mk.injEq] at hev
      rw [← hev.1, ← hev.2]
      exact ⟨Same.same_refl _ _, le_refl _⟩
  exact ⟨h4.1.same_trans (add_tail_same A s4 q item hA), h4.2⟩

/-- The add that `prepare_executive_bucket` makes on the shared pool. -/
theorem pool_add_same (env : Env) (s : Engine) (q : QId) (item : Ptr) (dr im : Bool)
    (r : Int) (s2 : Engine)
    (h : add_unlocked_with (prepare_executive_pool env) env s q item dr im = .ok (r, s2)) :
    Same s s2 (fun x => x = item ∧ 0 ≤ r) := by
  simp only [add_unlocked_with] at h
  split at h
  · simp only [Except.ok.injEq, Prod.mk.injEq] at h
    rw [← h.2]
    exact Same.same_refl _ _
  · split at h
    · cases h
    · next r0 s1 hp =>
      have h1 : Same s s1 (fun x => x = item ∧ 0 ≤ r) := by
        simp only [prepare_executive_pool] at hp
        split at hp
        · cases hp
        · next hv =>
          simp only [prepare_executive_queue, Except.ok.injEq] at hp
          have := more_thread_same env (fun x => x = item ∧ 0 ≤ r) s q hv
          rw [hp] at this
          exact this
        · split at hp
          · simp only [Except.ok.injEq, Prod.mk.injEq] at hp
            rw [← hp.2]
            exact Same.same_refl _ _
          · cases hp
      split at h
      · simp only [Except.ok.injEq, Prod.mk.injEq] at h
        rw [← h.2]
        exact h1
      · split at h
        · cases h
        · next r4 s4 hev =>
          simp only [Except.ok.injEq, Prod.mk.injEq] at h
          obtain ⟨a, b⟩ := add_rest_same env (fun x => x = item) s1 q item _ r4 s4 rfl hev
          rw [← h.2]
          exact h1.same_trans (a.same_mono (fun x hx => ⟨hx, by rw [← h.1]; exact b⟩))

/-- Pointers after an item has been written with an empty `next` field or with
the one it had. -/
theorem pointed_setItem {s : Engine} (p : Ptr) (v : WorkItem)
    (hv : v.next = none ∨ v.next = (s.heap p).next) (x : Ptr)
    (hx : Pointed (s.setItem p v) x) : Pointed s x := by
  rcases hx with ⟨o, ho⟩ | ⟨p0, hp⟩
  · exact Or.inl ⟨o, ho⟩
  · simp only [Engine.setItem, Function.update_apply] at hp
    split at hp
    · next e =>
      rcases hv with h | h
      · rw [h] at hp
        cases hp
      · rw [h] at hp
        exact Or.inr ⟨p, hp⟩
    · exact Or.inr ⟨p0, hp⟩

/-- Pointers after a queue record has changed in fields other than `head`. -/
theorem pointed_setQ {s : Engine} (q : QId) (Q : WorkQueue) (hQ : Q.head = (s.queues q).head)
    (x : Ptr) (hx : Pointed (s.setQ q Q) x) : Pointed s x := by
  rcases hx with ⟨o, ho⟩ | ⟨p0, hp⟩
  · simp only [Engine.setQ, Function.update_apply] at ho
    split at ho
    · next e =>
      rw [hQ] at ho
      exact Or.inl ⟨q, ho⟩
    · exact Or.inl ⟨o, ho⟩
  · exact Or.inr ⟨p0, hp⟩

theorem prepare_executive_bucket_adds (env : Env) (A W : Ptr → Prop) (s : Engine) (b : QId)
    (r : Int) (s1 : Engine) (hv : (s.queues b).vtable = some VTable.bucket)
    (hrn : ∀ x, env.runner = some x → ∃ k, x = Ptr.node k)
    (h : prepare_executive_bucket env s b = .ok (r, s1)) : Adds s s1 env b A W := by
  simp only [prepare_executive_bucket] at h
  split at h
  · simp only [Except.ok.injEq, Prod.mk.injEq] at h
    rw [← h.2]
    exact Adds.adds_refl _ _ _ _ _
  · next hlt =>
    split at h
    · simp only [Except.ok.injEq, Prod.mk.injEq] at h
      rw [← h.2]
      exact Adds.adds_refl _ _ _ _ _
    · next exc hr =>
      split at h
      · cases h
      · next r2 s2 hadd =>
        have hS := pool_add_same env _ _ _ _ _ r2 s2 hadd
        have hpay : ∀ k, payload (s2.heap (Ptr.node k)) = payload (s.heap (Ptr.node k))
            ∨ (W (Ptr.node k) ∧ ∃ u, (s2.heap (Ptr.node k)).work = some (Fn.user u))
            ∨ (env.runner = some (Ptr.node k)
                ∧ payload (s2.heap (Ptr.node k)) = payload (runner_item b)
                ∧ (s.queues b).vtable = some VTable.bucket) := by
          intro k
          by_cases e : Ptr.node k = exc
          · refine Or.inr (Or.inr ⟨by rw [e]; exact hr, ?_, hv⟩)
            rw [hS.pay k, e]
            simp [Engine.setItem]
          · left
            rw [hS.pay k]
            simp [Engine.setItem, Function.update_noteq e]
        have hexc : payload (s2.heap exc) = payload (runner_item b) := by
          obtain ⟨k, hk⟩ := hrn exc hr
          subst hk
          rw [hS.pay k]
          simp [Engine.setItem]
        have hptr : ∀ x, Pointed s2 x → Pointed s x ∨ (x = exc ∧ 0 ≤ r2) := by
          intro x hx
          rcases hS.ptr x hx with a | a
          · exact Or.inl (pointed_setItem exc _ (Or.inl rfl) x a)
          · exact Or.inr a
        have hrun : ∀ o, (s2.queues o).n_running = (s.queues o).n_running := hS.run
        have hvt : ∀ o, (s2.queues o).vtable = (s.queues o).vtable
            ∧ (s2.queues o).width = (s.queues o).width := hS.vt
        have hthr : ∀ o, (s.queues o).vtable ≠ some VTable.queue → s2.threads o = s.threads o :=
          hS.thr
        split at h
        · next hneg =>
          simp only [Except.ok.injEq, Prod.mk.injEq] at h
          rw [← h.2]
          refine ⟨hpay, ?_, fun o => ⟨le_of_eq (hrun o).symm, fun _ => hrun o⟩, ?_, hvt, hthr⟩
          · intro x hx
            rcases hptr x hx with a | ⟨_, a⟩
            · exact Or.inl a
            · omega
          · intro hl
            have := hrun b
            simp only [Engine.free, Engine.emit] at hl
            omega
        · next hpos =>
          simp only [Except.ok.injEq, Prod.mk.injEq] at h
          rw [← h.2]
          have hNb : ((s2.setQ b { s2.queues b with n_running := (s2.queues b).n_running + 1 }).queues
              b).n_running = (s.queues b).n_running + 1 := by
            simp [Engine.setQ, hrun b]
          refine ⟨hpay, ?_, ?_, ?_, ?_, hthr⟩
          · intro x hx
            rcases hptr x (pointed_setQ b _ (by rfl) x hx) with a | ⟨a, _⟩
            · exact Or.inl a
            · refine Or.inr (Or.inr ⟨by rw [a]; exact hr, ?_⟩)
              rw [hNb]
              omega
          · intro o
            by_cases e : o = b
            · subst e
              rw [hNb]
              exact ⟨by omega, fun hne => absurd rfl hne⟩
            · simp only [Engine.setQ, Function.update_noteq e]
              exact ⟨le_of_eq (hrun o).symm, fun _ => hrun o⟩
          · intro _
            refine ⟨hv, ?_, ?_⟩
            · rw [hNb]
              omega
            · intro x hx
              rw [hr] at hx
              injection hx with hx
              rw [← hx]
              exact hexc
          · intro o
            by_cases e : o = b
            · subst e
              simp only [Engine.setQ, Function.update_same]
              exact hvt o
            · simp only [Engine.setQ, Function.update_noteq e]
              exact hvt o

theorem prepare_executive_adds (env : Env) (A W : Ptr → Prop) (s : Engine) (q : QId)
    (r : Int) (s1 : Engine) (hrn : ∀ x, env.runner = some x → ∃ k, x = Ptr.node k)
    (h : prepare_executive env s q = .ok (r, s1)) : Adds s s1 env q A W := by
  simp only [prepare_executive] at h
  split at h
  · cases h
  · next hv =>
    simp only [prepare_executive_queue, Except.ok.injEq] at h
    have := (more_thread_same env A s q hv).adds env q W
    rw [h] at this
    exact this
  · next hv => exact prepare_executive_bucket_adds env A W s q r s1 hv hrn h

/-- Source `_work_queue_add_unlocked`: the item is linked when the call
answers `r >= 0`. -/
theorem add_unlocked_adds (env : Env) (W : Ptr → Prop) (s : Engine) (q : QId) (item : Ptr)
    (dr im : Bool) (r : Int) (s2 : Engine)
    (hrn : ∀ x, env.runner = some x → ∃ k, x = Ptr.node k)
    (hW : ∀ x, W x → env.runner ≠ some x)
    (h : _work_queue_add_unlocked env s q item dr im = .ok (r, s2)) :
    Adds s s2 env q (fun x => x = item ∧ 0 ≤ r) W := by
  simp only [_work_queue_add_unlocked, add_unlocked_with] at h
  split at h
  · simp only [Except.ok.injEq, Prod.mk.injEq] at h
    rw [← h.2]
    exact Adds.adds_refl _ _ _ _ _
  · split at h
    · cases h
    · next r0 s1 hp =>
      have h1 := prepare_executive_adds env (fun x => x = item ∧ 0 ≤ r) W s q r0 s1 hrn hp
      split at h
      · simp only [Except.ok.injEq, Prod.mk.injEq] at h
        rw [← h.2]
        exact h1
      · split at h
        · cases h
        · next r4 s4 hev =>
          simp only [Except.ok.injEq, Prod.mk.injEq] at h
          obtain ⟨a, b⟩ := add_rest_same env (fun x => x = item) s1 q item _ r4 s4 rfl hev
          rw [← h.2]
          exact h1.adds_trans
            ((a.same_mono (fun x hx => ⟨hx, by rw [← h.1]; exact b⟩)).adds env q W) hrn hW

/-! ## C11: what the API calls change in memory and in the counters -/

/-- A change to fields other than memory, the queue records and the threads. -/
theorem Same.of_eq {s s2 : Engine} (A : Ptr → Prop) (hh : s2.heap = s.heap)
    (hq : s2.queues = s.queues) (ht : s2.threads = s.threads) : Same s s2 A := by
  refine ⟨fun o => by rw [hq], fun o => by rw [hq]; exact ⟨rfl, rfl⟩, fun o _ => by rw [ht],
    fun k => by rw [hh], fun x hx => Or.inl ?_⟩
  rcases hx with ⟨o, ho⟩ | ⟨p, hp⟩
  · rw [hq] at ho
    exact Or.inl ⟨o, ho⟩
  · rw [hh] at hp
    exact Or.inr ⟨p, hp⟩

/-- A piece of code followed by a change to fields other than memory, the
queue records and the threads. -/
theorem Same.same_tail {s s1 s2 : Engine} {A : Ptr → Prop} (h : Same s s1 A)
    (hh : s2.heap = s1.heap) (hq : s2.queues = s1.queues) (ht : s2.threads = s1.threads) :
    Same s s2 A :=
  h.same_trans (Same.of_eq A hh hq ht)

theorem Adds.adds_tail {s s1 s2 : Engine} {env : Env} {q : QId} {A W : Ptr → Prop}
    (h : Adds s s1 env q A W) (hh : s2.heap = s1.heap) (hq : s2.queues = s1.queues)
    (ht : s2.threads = s1.threads) : Adds s s2 env q A W := by
  have hp : ∀ x, Pointed s2 x → Pointed s1 x := by
    intro x hx
    rcases hx with ⟨o, ho⟩ | ⟨p, hp⟩
    · rw [hq] at ho
      exact Or.inl ⟨o, ho⟩
    · rw [hh] at hp
      exact Or.inr ⟨p, hp⟩
  refine ⟨?_, ?_, ?_, ?_, ?_, ?_⟩
  · intro k
    rw [hh]
    exact h.pay k
  · intro x hx
    rw [hq]
    exact h.ptr x (hp x hx)
  · intro o
    rw [hq]
    exact h.run o
  · rw [hq, hh]
    exact h.lim
  · intro o
    rw [hq]
    exact h.vt o
  · intro o hv
    rw [ht]
    exact h.thr o hv

theorem Same.same_setQ (s : Engine) (q : QId) (Q : WorkQueue) (A : Ptr → Prop)
    (hc : SameCtr (s.queues q) Q) (hh : Q.head = (s.queues q).head) : Same s (s.setQ q Q) A :=
  Same.of_quiet A (Quiet.setQ s q Q hc) (fun _ => rfl)
    (fun x hx => Or.inl (pointed_setQ q Q hh x hx))

theorem Same.setCtl (s : Engine) (q : QId) (v : WorkItem) (A : Ptr → Prop)
    (hv : v.next = none ∨ v.next = (s.heap (Ptr.ctl q)).next) :
    Same s (s.setItem (Ptr.ctl q) v) A :=
  Same.of_quiet A (Quiet.setItem s _ v) (fun k => by simp [Engine.setItem])
    (fun x hx => Or.inl (pointed_setItem _ v hv x hx))

theorem work_queue_ref_same (s : Engine) (q : QId) (s1 : Engine) (A : Ptr → Prop)
    (h : work_queue_ref s q = .ok s1) : Same s s1 A := by
  simp only [work_queue_ref] at h
  split at h
  · simp only [Except.ok.injEq] at h
    rw [← h]
    exact Same.same_refl _ _
  · split at h
    · simp only [Except.ok.injEq] at h
      rw [← h]
      exact Same.same_setQ s q _ A ⟨rfl, rfl, rfl, rfl⟩ rfl
    · cases h

theorem work_queue_unref_adds (env : Env) (W : Ptr → Prop) (s : Engine) (q : QId)
    (s1 : Engine) (hrn : ∀ x, env.runner = some x → ∃ k, x = Ptr.node k)
    (hW : ∀ x, W x → env.runner ≠ some x)
    (h : work_queue_unref env s q = .ok s1) :
    Adds s s1 env q (fun x => x = Ptr.ctl q) W := by
  simp only [work_queue_unref] at h
  split at h
  · simp only [Except.ok.injEq] at h
    rw [← h]
    exact Adds.adds_refl _ _ _ _ _
  · split at h
    · have h1 : Same s (s.setQ q { s.queues q with xref_cnt := (s.queues q).xref_cnt - 1 })
          (fun x => x = Ptr.ctl q) := Same.same_setQ s q _ _ ⟨rfl, rfl, rfl, rfl⟩ rfl
      split at h
      · split at h
        · split at h
          · cases h
          · next r3 s3 hadd =>
            simp only [Except.ok.injEq] at h
            rw [← h]
            have h2 := h1.same_trans (Same.setCtl _ q
              { work := some Fn.wq_stop, data := Data.queue q,
                notify := some Fn.work_queue_free, next := none,
                cancel := ((s.setQ q { s.queues q with
                  xref_cnt := (s.queues q).xref_cnt - 1 }).heap (Ptr.ctl q)).cancel }
              (fun x => x = Ptr.ctl q) (Or.inl rfl))
            have h3 := add_unlocked_adds env W _ q _ _ _ r3 s3 hrn hW hadd
            exact (h2.adds env q W).adds_trans (h3.adds_mono (fun x hx => hx.1) (fun _ hx => hx))
              hrn hW
        · cases h
      · simp only [Except.ok.injEq] at h
        rw [← h]
        exact h1.adds env q W
    · cases h

theorem add_item_adds (env : Env) (s : Engine) (q : QId) (dr : Bool) (w : Nat)
    (notify cancel : Option Nat) (data : Data) (r : Int) (s5 : Engine)
    (hrn : ∀ x, env.runner = some x → ∃ k, x = Ptr.node k)
    (hal : ∀ x, env.alloc = some x → env.runner ≠ some x)
    (h : add_item env s q dr w notify cancel data = .ok (r, s5)) :
    Adds s s5 env q (fun x => env.alloc = some x ∨ x = Ptr.ctl q)
      (fun x => env.alloc = some x) := by
  simp only [add_item] at h
  split at h
  · cases h
  · next s1 href =>
    have h1 := (work_queue_ref_same s q s1 (fun x => env.alloc = some x ∨ x = Ptr.ctl q)
      href).adds env q (fun x => env.alloc = some x)
    split at h
    · cases h
    · next r4 s4 hres =>
      have h4 : Adds s s4 env q (fun x => env.alloc = some x ∨ x = Ptr.ctl q)
          (fun x => env.alloc = some x) := by
        split at hres
        · simp only [Except.ok.injEq, Prod.mk.injEq] at hres
          rw [← hres.2]
          exact h1
        · next item hit =>
          split at hres
          · cases hres
          · next r3 s3 hadd =>
            have h2 : Adds s1 (s1.setItem item
                { work := some (Fn.user w), notify := notify.map Fn.user,
                  cancel := cancel.map Fn.user, data := data, next := none }) env q
                (fun x => env.alloc = some x ∨ x = Ptr.ctl q) (fun x => env.alloc = some x) := by
              refine ⟨fun k => ?_, fun x hx => Or.inl (pointed_setItem _ _ (Or.inl rfl) x hx),
                fun o => ⟨le_refl _, fun _ => rfl⟩, fun hl => absurd hl (lt_irrefl _),
                fun o => ⟨rfl, rfl⟩, fun o _ => rfl⟩
              by_cases e : Ptr.node k = item
              · refine Or.inr (Or.inl ⟨by rw [e]; exact hit, w, ?_⟩)
                rw [e]
                simp [Engine.setItem]
              · left
                simp [Engine.setItem, Function.update_noteq e]
            have h3 : Adds _ s3 env q (fun x => env.alloc = some x ∨ x = Ptr.ctl q)
                (fun x => env.alloc = some x) :=
              (add_unlocked_adds env (fun x => env.alloc = some x) _ q item dr true r3
                s3 hrn hal hadd).adds_mono (fun x hx => Or.inl (hx.1.symm ▸ hit))
                (fun _ hx => hx)
            have h5 := (h1.adds_trans h2 hrn hal).adds_trans h3 hrn hal
            split at hres
            · simp only [Except.ok.injEq, Prod.mk.injEq] at hres
              rw [← hres.2]
              exact h5.adds_tail rfl rfl rfl
            · simp only [Except.ok.injEq, Prod.mk.injEq] at hres
              rw [← hres.2]
              exact h5
      split at h
      · cases h
      · next s6 hun =>
        simp only [Except.ok.injEq, Prod.mk.injEq] at h
        rw [← h.2]
        exact h4.adds_trans ((work_queue_unref_adds env _ s4 q s6 hrn hal hun).adds_mono
          (fun x hx => Or.inr hx) (fun _ hx => hx)) hrn hal

theorem set_destroy_notify_adds (env : Env) (s : Engine) (q : QId) (f : Option Nat)
    (ctx : Data) (s2 : Engine) (hrn : ∀ x, env.runner = some x → ∃ k, x = Ptr.node k)
    (h : work_queue_set_destroy_notify env s q f ctx = .ok s2) :
    Adds s s2 env q (fun x => x = Ptr.ctl q) (fun _ => False) := by
  simp only [work_queue_set_destroy_notify] at h
  split at h
  · cases h
  · next s1 href =>
    have h1 := work_queue_ref_same s q s1 (fun x => x = Ptr.ctl q) href
    have h2 := h1.same_trans (Same.same_setQ s1 q { s1.queues q with
      destroy_notify := f.map Fn.user, context := ctx } _ ⟨rfl, rfl, rfl, rfl⟩ rfl)
    exact (h2.adds env q _).adds_trans
      (work_queue_unref_adds env _ _ q s2 hrn (fun _ hx => absurd hx id) h) hrn
      (fun _ hx => absurd hx id)

theorem flush_begin_same (s : Engine) (q : QId) (in_stop : Bool) (s2 : Engine)
    (A : Ptr → Prop) (h : flush_begin s q in_stop = .ok s2) : Same s s2 A := by
  simp only [flush_begin] at h
  split at h
  · cases h
  · split at h
    · cases h
    · next s1 href =>
      split at h
      · simp only [Except.ok.injEq] at h
        rw [← h]
        exact ((work_queue_ref_same s q s1 A href).same_trans
          (Same.setCtl s1 q _ A (by exact Or.inr rfl))).same_tail rfl rfl rfl
      · cases h

theorem flush_exit_adds (env : Env) (s : Engine) (q : QId) (in_stop : Bool) (r : Int)
    (s2 : Engine) (hrn : ∀ x, env.runner = some x → ∃ k, x = Ptr.node k)
    (h : flush_exit env s q in_stop r = .ok s2) :
    Adds s s2 env q (fun x => x = Ptr.ctl q) (fun _ => False) := by
  simp only [flush_exit] at h
  split at h
  · cases h
  · next s1 hun =>
    simp only [Except.ok.injEq] at h
    rw [← h]
    have h1 := Same.setCtl s q WorkItem.zero (fun x => x = Ptr.ctl q) (Or.inl rfl)
    have h2 := work_queue_unref_adds env (fun _ => False) _ q s1 hrn (fun _ hx => absurd hx id) hun
    exact ((h1.adds env q _).adds_trans h2 hrn (fun _ hx => absurd hx id)).adds_tail rfl rfl rfl

theorem flush_iter_adds (env : Env) (s : Engine) (q : QId) (in_stop : Bool) (s2 : Engine)
    (hrn : ∀ x, env.runner = some x → ∃ k, x = Ptr.node k)
    (h : flush_iter env s q in_stop = .ok s2) :
    Adds s s2 env q (fun x => x = Ptr.ctl q) (fun _ => False) := by
  simp only [flush_iter] at h
  split at h
  · exact flush_exit_adds env s q in_stop 0 s2 hrn h
  · split at h
    · cases h
    · next r s1 hadd =>
      have h1 := (add_unlocked_adds env (fun _ => False) s q _ _ _ r s1 hrn
        (fun _ hx => absurd hx id) hadd).adds_mono (fun x hx => hx.1) (fun _ hx => hx)
      split at h
      · exact h1.adds_trans (flush_exit_adds env s1 q in_stop r s2 hrn h) hrn
          (fun _ hx => absurd hx id)
      · simp only [Except.ok.injEq] at h
        rw [← h]
        exact h1.adds_tail rfl rfl rfl

theorem stop_out_adds (env : Env) (s : Engine) (q : QId) (r : Int) (s2 : Engine)
    (hrn : ∀ x, env.runner = some x → ∃ k, x = Ptr.node k)
    (h : stop_out env s q r = .ok s2) :
    Adds s s2 env q (fun x => x = Ptr.ctl q) (fun _ => False) := by
  simp only [stop_out] at h
  split at h
  · cases h
  · next s1 hun =>
    simp only [Except.ok.injEq] at h
    rw [← h]
    have h2 := work_queue_unref_adds env (fun _ => False) _ q s1 hrn (fun _ hx => absurd hx id) hun
    exact h2.adds_tail rfl rfl rfl

theorem stop_body_adds (env : Env) (s : Engine) (q : QId) (r : Int) (s2 : Engine)
    (hrn : ∀ x, env.runner = some x → ∃ k, x = Ptr.node k)
    (h : stop_body env s q r = .ok s2) :
    Adds s s2 env q (fun x => x = Ptr.ctl q) (fun _ => False) := by
  simp only [stop_body] at h
  split at h
  · exact stop_out_adds env s q r s2 hrn h
  · split at h
    · split at h
      · have h1 := (Same.setCtl s q
          { work := some Fn.wq_stop, data := Data.flag q, notify := some Fn.set_bool,
            cancel := (s.heap (Ptr.ctl q)).cancel, next := (s.heap (Ptr.ctl q)).next }
          (fun x => x = Ptr.ctl q) (Or.inr rfl)).adds env q (fun _ => False)
        split at h
        · exact h1.adds_trans (stop_out_adds env _ q r s2 hrn h) hrn (fun _ hx => absurd hx id)
        · split at h
          · cases h
          · next r1 s1 hadd =>
            have h2 := h1.adds_trans ((add_unlocked_adds env (fun _ => False) _ q _ _ _ r1 s1 hrn
              (fun _ hx => absurd hx id) hadd).adds_mono (fun x hx => hx.1) (fun _ hx => hx)) hrn
              (fun _ hx => absurd hx id)
            split at h
            · exact h2.adds_trans (stop_out_adds env s1 q r1 s2 hrn h) hrn
                (fun _ hx => absurd hx id)
            · simp only [Except.ok.injEq] at h
              rw [← h]
              exact h2.adds_tail rfl rfl rfl
      · cases h
    · exact stop_out_adds env s q r s2 hrn h

/-! ## C11: what running an item changes in memory and in the counters -/

theorem Execs.of_same {s s2 : Engine} {A : Ptr → Prop} (h : Same s s2 A) : Execs s s2 A :=
  ⟨h.pay, h.ptr, fun _ => Or.inl ⟨(h.vt _).1, (h.vt _).2, h.run _⟩, fun _ hv => h.thr _ hv,
    fun hm => by rw [(h.vt _).1]; exact hm⟩

theorem Execs.execs_refl (s : Engine) (A : Ptr → Prop) : Execs s s A :=
  Execs.of_same (Same.same_refl s A)

theorem Execs.execs_trans {s s1 s2 : Engine} {A : Ptr → Prop} (h1 : Execs s s1 A)
    (h2 : Execs s1 s2 A) : Execs s s2 A := by
  refine ⟨fun k => (h2.pay k).trans (h1.pay k), fun x hx => ?_, fun m => ?_, fun m hv => ?_,
    fun hm => h2.mainv (h1.mainv hm)⟩
  · rcases h2.ptr x hx with a | a
    · exact h1.ptr x a
    · exact Or.inr a
  · rcases h1.bk m with ⟨a1, b1, c1⟩ | ⟨a1, b1, c1⟩
    · rcases h2.bk m with ⟨a2, b2, c2⟩ | ⟨a2, b2, c2⟩
      · exact Or.inl ⟨a2.trans a1, b2.trans b1, c2.trans c1⟩
      · exact Or.inr ⟨a2, b2, fun hv => by rw [← c1]; exact c2 (by rw [a1]; exact hv)⟩
    · rcases h2.bk m with ⟨a2, b2, c2⟩ | ⟨a2, b2, c2⟩
      · exact Or.inr ⟨a2.trans a1, c2.trans b1, c1⟩
      · exact Or.inr ⟨a2, b2, c1⟩
  · have hv1 : (s1.queues (QId.bucket m)).vtable ≠ some VTable.queue := by
      rcases h1.bk m with ⟨a1, _, _⟩ | ⟨a1, _, _⟩
      · rw [a1]; exact hv
      · rw [a1]; simp
    rw [h2.thr m hv1, h1.thr m hv]

theorem Execs.execs_mono {s s2 : Engine} {A A2 : Ptr → Prop} (h : Execs s s2 A)
    (hA : ∀ x, A x → A2 x) : Execs s s2 A2 :=
  ⟨h.pay, fun x hx => (h.ptr x hx).imp id (hA x), h.bk, h.thr, h.mainv⟩

theorem Execs.execs_tail {s s1 s2 : Engine} {A : Ptr → Prop} (h : Execs s s1 A)
    (hh : s2.heap = s1.heap) (hq : s2.queues = s1.queues) (ht : s2.threads = s1.threads) :
    Execs s s2 A :=
  h.execs_trans (Execs.of_same (Same.of_eq A hh hq ht))

/-- An add to a queue that is not a bucket links no runner item. -/
theorem Same.same_of_adds {s s2 : Engine} {env : Env} {q : QId} {A : Ptr → Prop}
    (h : Adds s s2 env q A (fun _ => False))
    (hq : (s.queues q).vtable ≠ some VTable.bucket) : Same s s2 A := by
  have hN : (s2.queues q).n_running = (s.queues q).n_running := by
    by_contra hne
    have hlt : (s.queues q).n_running < (s2.queues q).n_running :=
      lt_of_le_of_ne (h.run q).1 (fun e => hne e.symm)
    exact hq (h.lim hlt).1
  have hrun : ∀ o, (s2.queues o).n_running = (s.queues o).n_running := by
    intro o
    by_cases e : o = q
    · rw [e]; exact hN
    · exact (h.run o).2 e
  refine ⟨hrun, h.vt, h.thr, fun k => ?_, fun x hx => ?_⟩
  · rcases h.pay k with e | ⟨w, _⟩ | ⟨_, _, v⟩
    · exact e
    · exact absurd w id
    · exact absurd v hq
  · rcases h.ptr x hx with a | a | ⟨_, lt⟩
    · exact Or.inl a
    · exact Or.inr a
    · rw [hN] at lt
      exact absurd lt (lt_irrefl _)

theorem work_queue_free_execs (s : Engine) (q : QId) (s1 : Engine) (A : Ptr → Prop)
    (h : _work_queue_free s q = .ok s1) : Execs s s1 A := by
  simp only [_work_queue_free] at h
  split at h
  · cases h
  · next hq =>
    split at h
    · cases h
    · split at h
      · cases h
      · split at h
        · cases h
        · next hb =>
          simp only [Except.ok.injEq] at h
          rw [← h]
          refine ⟨fun k => ?_, fun x hx => Or.inl ?_, fun m => ?_, fun m _ => rfl, ?_⟩
          · simp [Engine.setItem, Engine.setQ]
          · rcases hx with ⟨o, ho⟩ | ⟨p, hp⟩
            · simp only [Engine.setItem, Engine.setQ, Function.update_apply] at ho
              split at ho
              · simp [WorkQueue.zero] at ho
              · exact Or.inl ⟨o, ho⟩
            · simp only [Engine.setItem, Engine.setQ, Function.update_apply] at hp
              split at hp
              · simp [WorkItem.zero] at hp
              · exact Or.inr ⟨p, hp⟩
          · by_cases e : QId.bucket m = q
            · right
              subst e
              refine ⟨by simp [Engine.setItem, Engine.setQ, WorkQueue.zero],
                by simp [Engine.setItem, Engine.setQ, WorkQueue.zero], ?_⟩
              intro hv
              by_contra hne
              exact hb ⟨hv, hne⟩
            · left
              simp [Engine.setItem, Engine.setQ, Function.update_noteq e]
          · have e : QId.main ≠ q := fun e => hq (Or.inr e.symm)
            intro hm
            simpa [Engine.setItem, Engine.setQ, Function.update_noteq e] using hm

theorem call_fn_execs (s : Engine) (f : Fn) (d : Data) (s1 : Engine) (A : Ptr → Prop)
    (h : call_fn s f d = .ok s1) : Execs s s1 A := by
  unfold call_fn at h
  split at h
  · simp only [Except.ok.injEq] at h
    rw [← h]
    exact (Execs.execs_refl s A).execs_tail rfl rfl rfl
  · exact work_queue_free_execs s _ s1 A h
  · simp only [Except.ok.injEq] at h
    rw [← h]
    exact Execs.execs_refl s A

theorem work_item_finish_same (env : Env) (s : Engine) (item : Ptr) (nf : Bool) (s2 : Engine)
    (hm : (s.queues QId.main).vtable ≠ some VTable.bucket)
    (hrn : ∀ x, env.runner = some x → ∃ k, x = Ptr.node k)
    (h : work_item_finish env s item nf = .ok s2) : Same s s2 (fun x => x = item) := by
  simp only [work_item_finish] at h
  split at h
  · split at h
    · cases h
    · next r s1 hadd =>
      split at h
      · simp only [Except.ok.injEq] at h
        rw [← h]
        exact Same.same_of_adds ((add_unlocked_adds env (fun _ => False) s QId.main item _ _ r s1 hrn
          (fun _ hx => absurd hx id) hadd).adds_mono (fun x hx => hx.1) (fun _ hx => hx)) hm
      · cases h
  · simp only [Except.ok.injEq] at h
    rw [← h]
    exact (Same.same_refl s _).same_tail rfl rfl rfl

theorem work_item_execute_execs (env : Env) (s : Engine) (item : Ptr) (dn : Bool)
    (s2 : Engine) (hm : (s.queues QId.main).vtable ≠ some VTable.bucket)
    (hrn : ∀ x, env.runner = some x → ∃ k, x = Ptr.node k)
    (h : work_item_execute env s item dn = .ok s2) : Execs s s2 (fun x => x = item) := by
  simp only [work_item_execute] at h
  split at h
  · split at h
    · cases h
    · next f hf =>
      split at h
      · cases h
      · next s1 hc =>
        simp only [Except.ok.injEq] at h
        rw [← h]
        have h0 : Execs s (s.emit (Event.notify f (s.heap item).data item)) (fun x => x = item) :=
          (Execs.execs_refl s _).execs_tail rfl rfl rfl
        exact (h0.execs_trans (call_fn_execs _ f _ s1 _ hc)).execs_tail rfl rfl rfl
  · split at h
    · cases h
    · next f hf =>
      split at h
      · cases h
      · next s1 hc =>
        have h0 : Execs s (s.emit (Event.work f (s.heap item).data item)) (fun x => x = item) :=
          (Execs.execs_refl s _).execs_tail rfl rfl rfl
        have h1 := h0.execs_trans (call_fn_execs _ f _ s1 _ hc)
        exact h1.execs_trans (Execs.of_same (work_item_finish_same env s1 item _ s2
          (h1.mainv hm) hrn h))

/-- Memory after `_work_queue_drain_one_unlocked`: the content of the blocks
is kept, and every link was there before. -/
theorem drain_ptr (h : Heap) (Q : WorkQueue) (r : Option Ptr) (h1 : Heap) (Q1 : WorkQueue)
    (hd : _work_queue_drain_one_unlocked h Q = .ok (r, h1, Q1)) :
    (∀ x, payload (h1 x) = payload (h x))
      ∧ (∀ p x, (h1 p).next = some x → (h p).next = some x)
      ∧ (∀ x, Q1.head = some x → ∃ p0, (h p0).next = some x) := by
  simp only [_work_queue_drain_one_unlocked] at hd
  split at hd
  · next hnone =>
    simp only [Except.ok.injEq, Prod.mk.injEq] at hd
    obtain ⟨_, e1, e2⟩ := hd
    subst e1
    subst e2
    exact ⟨fun _ => rfl, fun _ _ hx => hx, fun x hx => by rw [hnone] at hx; cases hx⟩
  · next item hitem =>
    have hn : ∀ p x, (Function.update h item { h item with next := none } p).next = some x →
        (h p).next = some x := by
      intro p x hx
      simp only [Function.update_apply] at hx
      split at hx
      · cases hx
      · exact hx
    split at hd
    · split at hd
      · simp only [Except.ok.injEq, Prod.mk.injEq] at hd
        obtain ⟨_, e1, e2⟩ := hd
        subst e1
        subst e2
        exact ⟨fun x => update_next_payload h item x none, hn, fun x hx => by cases hx⟩
      · cases hd
    · next nx hnx =>
      simp only [Except.ok.injEq, Prod.mk.injEq] at hd
      obtain ⟨_, e1, e2⟩ := hd
      subst e1
      subst e2
      refine ⟨fun x => update_next_payload h item x none, hn, fun x hx => ⟨item, ?_⟩⟩
      simp only [Option.some.injEq] at hx
      rw [← hx]
      exact hnx

theorem drain_same (s : Engine) (q : QId) (r : Option Ptr) (h1 : Heap) (Q1 : WorkQueue)
    (A : Ptr → Prop)
    (hd : _work_queue_drain_one_unlocked s.heap (s.queues q) = .ok (r, h1, Q1)) :
    Same s { s with heap := h1, queues := Function.update s.queues q Q1 } A := by
  obtain ⟨a, b, c⟩ := drain_ptr _ _ _ _ _ hd
  refine Same.of_quiet A (Quiet.of_list q h1 Q1 s.log (drain_ctr _ _ _ _ _ hd)) (fun k => a _)
    (pointed_of q h1 Q1 s.log A (fun x hx => Or.inl (Or.inr (c x hx)))
      (fun p x hx => Or.inl (Or.inr ⟨p, b p x hx⟩)))

/-- A piece of code followed by changes to the threads and the counters of
queues that are not buckets. -/
theorem Execs.tail2 {s s1 s2 : Engine} {A : Ptr → Prop} (h : Execs s s1 A)
    (hh : s2.heap = s1.heap)
    (hq : ∀ o, (s2.queues o).head = (s1.queues o).head
      ∧ (s2.queues o).vtable = (s1.queues o).vtable)
    (hb : ∀ m, s2.queues (QId.bucket m) = s1.queues (QId.bucket m))
    (ht : ∀ m, s2.threads (QId.bucket m) = s1.threads (QId.bucket m)) : Execs s s2 A := by
  refine ⟨fun k => by rw [hh]; exact h.pay k, fun x hx => ?_, fun m => by rw [hb m]; exact h.bk m,
    fun m hv => by rw [ht m]; exact h.thr m hv, fun hm => by rw [(hq _).2]; exact h.mainv hm⟩
  apply h.ptr
  rcases hx with ⟨o, ho⟩ | ⟨p, hp⟩
  · rw [(hq o).1] at ho
    exact Or.inl ⟨o, ho⟩
  · rw [hh] at hp
    exact Or.inr ⟨p, hp⟩

/-- Items that were linked before the call need not be named. -/
theorem Execs.execs_absorb {s s2 : Engine} {A : Ptr → Prop} (h : Execs s s2 A)
    (hA : ∀ x, A x → Pointed s x) : Execs s s2 (fun _ => False) :=
  ⟨h.pay, fun x hx => Or.inl ((h.ptr x hx).elim id (hA x)), h.bk, h.thr, h.mainv⟩

theorem init_execs (s : Engine) (q : QId) (vt : VTable) (A : Ptr → Prop)
    (hq : ∀ m, q ≠ QId.bucket m) (hv : q = QId.main → vt = VTable.queue) :
    Execs s (_work_queue_init s q vt) A := by
  refine ⟨fun k => ?_, fun x hx => Or.inl ?_, fun m => Or.inl ?_, fun m _ => rfl, fun hm => ?_⟩
  · simp [_work_queue_init, Engine.setItem, Engine.setQ]
  · rcases hx with ⟨o, ho⟩ | ⟨p, hp⟩
    · simp only [_work_queue_init, Engine.setItem, Engine.setQ, Function.update_apply] at ho
      split at ho
      · simp [WorkQueue.zero] at ho
      · exact Or.inl ⟨o, ho⟩
    · simp only [_work_queue_init, Engine.setItem, Engine.setQ, Function.update_apply] at hp
      split at hp
      · simp [WorkItem.zero] at hp
      · exact Or.inr ⟨p, hp⟩
  · have e : QId.bucket m ≠ q := fun e => hq m e.symm
    simp [_work_queue_init, Engine.setItem, Engine.setQ, Function.update_noteq e]
  · by_cases e : QId.main = q
    · have := hv e.symm
      subst e
      simp [_work_queue_init, Engine.setItem, Engine.setQ, this]
    · simpa [_work_queue_init, Engine.setItem, Engine.setQ, Function.update_noteq e] using hm

theorem init_global_once_execs (s : Engine) (A : Ptr → Prop) :
    Execs s (init_global_once s) A := by
  simp only [init_global_once]
  split
  · exact Execs.execs_refl s A
  · have h1 := init_execs s QId.concurrent VTable.queue A (fun m e => by cases e)
      (fun e => by cases e)
    have h2 := h1.execs_trans (init_execs _ QId.main VTable.queue A (fun m e => by cases e)
      (fun _ => rfl))
    refine h2.tail2 rfl (fun o => ?_) (fun m => ?_) (fun m => rfl)
    · by_cases e1 : o = QId.main
      · subst e1
        simp [Engine.setQ]
      · by_cases e2 : o = QId.concurrent
        · subst e2
          simp [Engine.setQ, Function.update_noteq e1]
        · simp [Engine.setQ, Function.update_noteq e1, Function.update_noteq e2]
    · simp [Engine.setQ]

theorem work_queue_new_execs (s : Engine) (n : Nat) (maxsize : Int) (s2 : Engine)
    (A : Ptr → Prop) (h : work_queue_new s n maxsize = .ok s2) : Execs s s2 A := by
  simp only [work_queue_new] at h
  split at h
  · simp only [Except.ok.injEq] at h
    rw [← h]
    have h1 := (init_global_once_execs s A).execs_trans
      (init_execs _ (QId.queue n) VTable.queue A (fun m e => by cases e) (fun e => by cases e))
    refine h1.tail2 rfl (fun o => ?_) (fun m => ?_) (fun m => rfl)
    · by_cases e1 : o = QId.queue n
      · subst e1
        simp [Engine.setQ]
      · simp [Engine.setQ, Function.update_noteq e1]
    · simp [Engine.setQ]
  · cases h

theorem run_begin_execs (env : Env) (s : Engine) (q : QId) (ran : Ran) (s1 : Engine)
    (hq : ∀ m, q ≠ QId.bucket m)
    (hm : (s.queues QId.main).vtable ≠ some VTable.bucket)
    (hrn : ∀ x, env.runner = some x → ∃ k, x = Ptr.node k)
    (h : run_begin env s q = .ok (ran, s1)) : Execs s s1 (fun _ => False) := by
  have hin : ∀ (hd : Ptr) (r0 : Option Ptr) (h1 : Heap) (Q1 : WorkQueue) (dn : Bool)
      (s2 : Engine), (s.queues q).head = some hd →
      _work_queue_drain_one_unlocked s.heap (s.queues q) = .ok (r0, h1, Q1) →
      work_item_execute env { s with heap := h1, queues := Function.update s.queues q Q1 }
        hd dn = .ok s2 → Execs s s2 (fun _ => False) := by
    intro hd r0 h1 Q1 dn s2 hhead hdr hex
    have a := drain_same s q r0 h1 Q1 (fun x => x = hd) hdr
    have b := work_item_execute_execs env _ hd dn s2 (by rw [(a.vt _).1]; exact hm) hrn hex
    exact ((Execs.of_same a).execs_trans b).execs_absorb
      (fun x hx => Or.inl ⟨q, by rw [hx]; exact hhead⟩)
  simp only [run_begin] at h
  split at h
  · simp only [Except.ok.injEq, Prod.mk.injEq] at h
    rw [← h.2]
    exact Execs.execs_refl _ _
  · next hd hhead =>
    split at h
    · simp only [Except.ok.injEq, Prod.mk.injEq] at h
      rw [← h.2]
      exact Execs.execs_refl _ _
    · split at h
      · split at h
        · simp only [Except.ok.injEq, Prod.mk.injEq] at h
          rw [← h.2]
          exact Execs.execs_refl _ _
        · split at h
          · cases h
          · next r0 h1 Q1 hdr =>
            split at h
            · cases h
            · next s2 hex =>
              simp only [Except.ok.injEq, Prod.mk.injEq] at h
              rw [← h.2]
              exact hin hd r0 h1 Q1 _ s2 hhead hdr hex
      · split at h
        · split at h
          · cases h
          · next r0 h1 Q1 hdr =>
            split at h
            · cases h
            · next s2 hex =>
              simp only [Except.ok.injEq, Prod.mk.injEq] at h
              rw [← h.2]
              exact hin hd r0 h1 Q1 _ s2 hhead hdr hex
        · split at h
          · cases h
          · next r0 h1 Q1 hdr =>
            simp only [Except.ok.injEq, Prod.mk.injEq] at h
            rw [← h.2]
            have a := Execs.of_same (drain_same s q r0 h1 Q1 (fun _ => False) hdr)
            refine a.tail2 rfl (fun o => ?_) (fun m => ?_) (fun m => rfl)
            · by_cases e : o = q
              · subst e
                simp
              · simp [Function.update_noteq e]
            · have e : QId.bucket m ≠ q := fun e => hq m e.symm
              simp [Function.update_noteq e]

/-! ## C11: what one step changes in memory and in the buckets -/

/-- Where the blocks that `new0` answers during a step lie. -/
theorem env_where {s : Engine} (env : Env) (he : env.fresh s) :
    (∀ k, env.alloc = some (Ptr.node k) → k = s.brk)
      ∧ (∀ k, env.runner = some (Ptr.node k) → k = s.brk + 1)
      ∧ (∀ x, env.runner = some x → ∃ k, x = Ptr.node k)
      ∧ (∀ x, env.alloc = some x → env.runner ≠ some x) := by
  obtain ⟨h1, h2⟩ := he
  refine ⟨?_, ?_, ?_, ?_⟩
  · intro k e
    rcases h1 with h | h
    · rw [h] at e; cases e
    · rw [h] at e
      injection e with e
      injection e with e
      exact e.symm
  · intro k e
    rcases h2 with h | h
    · rw [h] at e; cases e
    · rw [h] at e
      injection e with e
      injection e with e
      exact e.symm
  · intro x e
    rcases h2 with h | h
    · rw [h] at e; cases e
    · rw [h] at e
      injection e with e
      exact ⟨_, e.symm⟩
  · intro x e e2
    rcases h1 with h | h
    · rw [h] at e; cases e
    · rcases h2 with h0 | h0
      · rw [h0] at e2; cases e2
      · rw [h] at e
        rw [h0] at e2
        injection e with e
        injection e2 with e2
        rw [← e] at e2
        injection e2 with e2
        omega

/-- The facts of a step that is a call which adds to queue `q`. -/
theorem Facts.facts_of_adds {s s2 : Engine} {env : Env} {q : QId} {A : Ptr → Prop}
    (h : Adds s s2 env q A (fun x => env.alloc = some x)) (he : env.fresh s)
    (hA : ∀ k, A (Ptr.node k) → env.alloc = some (Ptr.node k)) :
    Facts s s2 (s.brk + 2) := by
  obtain ⟨e1, e2, _, e4⟩ := env_where env he
  refine ⟨?_, ?_, ?_, ?_, ?_⟩
  · intro k hk
    rcases h.pay k with e | ⟨w, _⟩ | ⟨r, _⟩
    · exact e
    · have := e1 k w
      omega
    · have := e2 k r
      omega
  · intro k hk hp
    rcases h.ptr _ hp with a | a | ⟨r, _⟩
    · exact a
    · have := e1 k (hA k a)
      omega
    · have := e2 k r
      omega
  · intro k hk1 hk2 hnp hw hp hw2
    rcases h.ptr _ hp with a | a | ⟨r, lt⟩
    · exact absurd a hnp
    · have ha := hA k a
      exfalso
      rcases h.pay k with e | ⟨_, u, hu⟩ | ⟨r, _⟩
      · rw [payload_work e, hw] at hw2
        cases hw2
      · rw [hu] at hw2
        cases hw2
      · exact e4 _ ha r
    · refine ⟨e2 k r, ?_⟩
      intro m hd
      have hpay := (h.lim lt).2.2 _ r
      have hd2 : (s2.heap (Ptr.node k)).data = Data.queue q := by
        rw [payload_data hpay]
        rfl
      rw [hd] at hd2
      injection hd2 with hd2
      rw [hd2]
      exact lt
  · intro m
    by_cases e : (s2.queues (QId.bucket m)).n_running = (s.queues (QId.bucket m)).n_running
    · exact Or.inl ⟨(h.vt _).1, (h.vt _).2, e⟩
    · have hq : QId.bucket m = q := by
        by_contra hne
        exact e ((h.run _).2 hne)
      have lt : (s.queues (QId.bucket m)).n_running < (s2.queues (QId.bucket m)).n_running :=
        lt_of_le_of_ne (h.run _).1 (fun e0 => e e0.symm)
      subst hq
      obtain ⟨a, b, _⟩ := h.lim lt
      exact Or.inr (Or.inl ⟨(h.vt _).1, (h.vt _).2, a, lt, b⟩)
  · intro m hv hn
    rw [h.thr _ hv]
    exact hn

/-- The facts of a step that runs items and links none but those in `A`,
which were handed out before. -/
theorem Facts.of_execs {s s2 : Engine} {A : Ptr → Prop} (h : Execs s s2 A) (b2 : Nat)
    (hb : s.brk ≤ b2) (hA : ∀ k, A (Ptr.node k) → k < s.brk) : Facts s s2 b2 := by
  refine ⟨fun k _ => h.pay k, ?_, ?_, ?_, ?_⟩
  · intro k hk hp
    rcases h.ptr _ hp with a | a
    · exact a
    · have := hA k a
      omega
  · intro k hk1 hk2 hnp hw hp hw2
    rcases h.ptr _ hp with a | a
    · exact absurd a hnp
    · have := hA k a
      omega
  · intro m
    rcases h.bk m with a | a
    · exact Or.inl a
    · exact Or.inr (Or.inr (Or.inr (Or.inl a)))
  · intro m hv hn
    rw [h.thr m hv]
    exact hn

/-- The facts of a step that starts with `init_global_once`. -/
theorem Facts.after_init {s s2 : Engine} {b2 : Nat}
    (h : Facts (init_global_once s) s2 b2) (hb : (init_global_once s).brk = s.brk) :
    Facts s s2 b2 := by
  have h0 := init_global_once_execs s (fun _ => False)
  have hp : ∀ x, Pointed (init_global_once s) x → Pointed s x :=
    fun x hx => (h0.ptr x hx).elim id (fun e => absurd e id)
  have hbk : ∀ m, (init_global_once s).queues (QId.bucket m) = s.queues (QId.bucket m) := by
    intro m
    simp only [init_global_once]
    split
    · rfl
    · simp [Engine.setQ, _work_queue_init, Engine.setItem]
  have hth : (init_global_once s).threads = s.threads := by
    simp only [init_global_once]
    split
    · rfl
    · rfl
  refine ⟨?_, ?_, ?_, ?_, ?_⟩
  · intro k hk
    rw [← h0.pay k]
    exact h.pay k (by rw [hb]; exact hk)
  · intro k hk hx
    exact hp _ (h.ptr k hk hx)
  · intro k hk1 hk2 hnp hw hx hw2
    have := h.tok k (by rw [hb]; exact hk1) hk2 (fun e => hnp (hp _ e))
      (by rw [payload_work (h0.pay k)]; exact hw) hx hw2
    rw [hb] at this
    refine ⟨this.1, fun m hd => ?_⟩
    have := this.2 m hd
    rw [hbk m] at this
    exact this
  · intro m
    have := h.bk m
    simp only [BStep, hbk m, hth] at this ⊢
    exact this
  · intro m hv hn
    have := h.thr m (by rw [hbk m]; exact hv) (by rw [hth]; exact hn)
    exact this

/-! ## C11: the facts of each step -/

/-- A queue with a thread is not a bucket. -/
theorem not_bucket_of_thread {s : Engine} (hrec : ∀ m, BRec s m) (q : QId) (pc : Pc)
    (h : pc ∈ s.threads q) : ∀ m, q ≠ QId.bucket m := by
  intro m e
  rw [e, (hrec m).nothr] at h
  cases h

theorem Shape.main_not_bucket {s : Engine} {own : Ptr → Place} {ch : QId → List Ptr}
    (hs : Shape s own ch) : (s.queues QId.main).vtable ≠ some VTable.bucket := by
  rcases hs.mainq with h | ⟨h, _⟩
  · rw [h]; simp
  · rw [h]; simp

theorem Execs.move {s s1 : Engine} {A : Ptr → Prop} (h : Execs s s1 A) (q : QId)
    (old new : Pc) (hq : ∀ m, q ≠ QId.bucket m) : Execs s (s1.move q old new) A :=
  h.tail2 rfl (fun _ => ⟨rfl, rfl⟩) (fun _ => rfl)
    (fun m => by simp [Engine.move, Function.update_noteq (fun e => hq m e.symm)])

theorem facts_new_queue (s : Engine) (n : Nat) (maxsize : Int) (s2 : Engine)
    (h : fire_core s (Step.new_queue n maxsize) = .ok s2) : Facts s s2 s.brk := by
  simp only [fire_core] at h
  split at h
  · exact Facts.of_execs (work_queue_new_execs s n maxsize s2 (fun _ => False) h) _ (le_refl _)
      (fun _ hx => absurd hx id)
  · cases h

/-- Source `work_bucket_new` after `init_global_once`. -/
theorem bucket_init_facts (s : Engine) (n : Nat) (maxsize width : Int) (l : List QId)
    (hv : (s.queues (QId.bucket n)).vtable = none) (hw : 0 < width) :
    Facts s
      { ((_work_queue_init s (QId.bucket n) VTable.bucket).setQ (QId.bucket n)
          { (_work_queue_init s (QId.bucket n) VTable.bucket).queues (QId.bucket n) with
            maxsize := maxsize, width := width }) with buckets := l } s.brk := by
  refine ⟨fun k _ => ?_, fun k _ hx => ?_, ?_, fun m => ?_, fun m _ hn => hn⟩
  · simp [_work_queue_init, Engine.setItem, Engine.setQ]
  · rcases hx with ⟨o, ho⟩ | ⟨p, hp⟩
    · simp only [_work_queue_init, Engine.setItem, Engine.setQ, Function.update_apply] at ho
      split at ho
      · simp [WorkQueue.zero] at ho
      · exact Or.inl ⟨o, ho⟩
    · simp only [_work_queue_init, Engine.setItem, Engine.setQ, Function.update_apply] at hp
      split at hp
      · simp [WorkItem.zero] at hp
      · exact Or.inr ⟨p, hp⟩
  · intro k h1 h2
    omega
  · by_cases e : m = n
    · subst e
      refine Or.inr (Or.inr (Or.inr (Or.inr ⟨hv, ?_, ?_, ?_⟩)))
      · simp [_work_queue_init, Engine.setItem, Engine.setQ]
      · simpa [_work_queue_init, Engine.setItem, Engine.setQ] using hw
      · simp [_work_queue_init, Engine.setItem, Engine.setQ, WorkQueue.zero]
    · have e2 : QId.bucket m ≠ QId.bucket n := fun h => e (by injection h)
      left
      simp [_work_queue_init, Engine.setItem, Engine.setQ, Function.update_noteq e2]

theorem facts_new_bucket (s : Engine) (n : Nat) (maxsize width : Int) (s2 : Engine)
    (h : fire_core s (Step.new_bucket n maxsize width) = .ok s2) : Facts s s2 s.brk := by
  simp only [fire_core] at h
  split at h
  · next hv =>
    simp only [work_bucket_new] at h
    split at h
    · split at h
      · next hw =>
        simp only [Except.ok.injEq] at h
        rw [← h]
        have hbk : (init_global_once s).queues (QId.bucket n) = s.queues (QId.bucket n) := by
          simp only [init_global_once]
          split
          · rfl
          · simp [Engine.setQ, _work_queue_init, Engine.setItem]
        have := bucket_init_facts (init_global_once s) n maxsize width
          (QId.bucket n :: (init_global_once s).buckets) (by rw [hbk]; exact hv) hw
        rw [init_global_once_brk] at this
        exact Facts.after_init this (init_global_once_brk s)
      · cases h
    · cases h
  · cases h

theorem facts_set_destroy_notify (s : Engine) (env : Env) (he : env.fresh s) (q : QId)
    (f : Option Nat) (ctx : Data) (s2 : Engine)
    (h : fire_core s (Step.set_destroy_notify env q f ctx) = .ok s2) :
    Facts s s2 (s.brk + 2) := by
  simp only [fire_core] at h
  obtain ⟨_, _, e3, _⟩ := env_where env he
  exact Facts.facts_of_adds ((set_destroy_notify_adds env s q f ctx s2 e3 h).adds_mono
    (fun _ hx => hx) (fun _ hx => absurd hx id)) he (fun k hx => by cases hx)

theorem facts_ref (s : Engine) (q : QId) (s2 : Engine)
    (h : fire_core s (Step.ref q) = .ok s2) : Facts s s2 s.brk := by
  simp only [fire_core] at h
  exact Facts.of_execs (Execs.of_same (work_queue_ref_same s q s2 (fun _ => False) h)) _
    (le_refl _) (fun _ hx => absurd hx id)

theorem facts_unref (s : Engine) (env : Env) (he : env.fresh s) (q : QId) (s2 : Engine)
    (h : fire_core s (Step.unref env q) = .ok s2) : Facts s s2 (s.brk + 2) := by
  simp only [fire_core] at h
  obtain ⟨_, _, e3, e4⟩ := env_where env he
  exact Facts.facts_of_adds (work_queue_unref_adds env _ s q s2 e3 e4 h) he (fun k hx => by cases hx)

theorem facts_add_item (s : Engine) (env : Env) (he : env.fresh s) (q : QId) (dr : Bool)
    (w : Nat) (notify cancel : Option Nat) (data : Data) (r : Int) (s2 : Engine)
    (h : add_item env s q dr w notify cancel data = .ok (r, s2)) : Facts s s2 (s.brk + 2) := by
  obtain ⟨_, _, e3, e4⟩ := env_where env he
  refine Facts.facts_of_adds (add_item_adds env s q dr w notify cancel data r s2 e3 e4 h) he ?_
  intro k hx
  rcases hx with hx | hx
  · exact hx
  · cases hx

theorem facts_add (s : Engine) (env : Env) (he : env.fresh s) (q : Option QId)
    (work notify cancel : Option Nat) (data : Data) (s2 : Engine)
    (h : fire_core s (Step.add env q work notify cancel data) = .ok s2) :
    Facts s s2 (s.brk + 2) := by
  simp only [fire_core] at h
  split at h
  · cases h
  · split at h
    · cases h
    · next r s1 ha =>
      simp only [Except.ok.injEq] at h
      subst h
      simp only [work_queue_add] at ha
      split at ha
      · cases ha
      · next w =>
        split at ha
        · have he0 : env.fresh (init_global_once s) := by
            unfold Env.fresh at he ⊢
            rw [init_global_once_brk]
            exact he
          have := facts_add_item _ env he0 _ _ _ _ _ _ r s1 ha
          rw [init_global_once_brk] at this
          exact Facts.after_init this (init_global_once_brk s)
        · exact facts_add_item s env he _ _ _ _ _ _ r s1 ha

theorem facts_add_rewind (s : Engine) (env : Env) (he : env.fresh s) (q : Option QId)
    (work notify cancel : Option Nat) (data : Data) (s2 : Engine)
    (h : fire_core s (Step.add_rewind env q work notify cancel data) = .ok s2) :
    Facts s s2 (s.brk + 2) := by
  simp only [fire_core] at h
  split at h
  · cases h
  · next r s1 ha =>
    simp only [Except.ok.injEq] at h
    subst h
    simp only [work_queue_add_rewind] at ha
    split at ha
    · cases ha
    · split at ha
      · cases ha
      · split at ha
        · cases ha
        · exact facts_add_item s env he _ _ _ _ _ _ r s1 ha

theorem facts_flush_begin (s : Engine) (q : QId) (s2 : Engine)
    (h : fire_core s (Step.flush_begin q) = .ok s2) : Facts s s2 s.brk := by
  simp only [fire_core] at h
  split at h
  · exact Facts.of_execs (Execs.of_same (flush_begin_same s q false s2 (fun _ => False) h)) _
      (le_refl _) (fun _ hx => absurd hx id)
  · cases h

theorem facts_flush_iter (s : Engine) (env : Env) (he : env.fresh s) (q : QId) (s2 : Engine)
    (h : fire_core s (Step.flush_iter env q) = .ok s2) : Facts s s2 (s.brk + 2) := by
  simp only [fire_core] at h
  obtain ⟨_, _, e3, _⟩ := env_where env he
  split at h
  · exact Facts.facts_of_adds ((flush_iter_adds env s q _ s2 e3 h).adds_mono
      (fun _ hx => hx) (fun _ hx => absurd hx id)) he (fun k hx => by cases hx)
  · cases h

theorem facts_flush_wake (s : Engine) (q : QId) (s2 : Engine)
    (h : fire_core s (Step.flush_wake q) = .ok s2) : Facts s s2 s.brk := by
  simp only [fire_core] at h
  split at h
  · next in_stop _ =>
    split at h
    · simp only [Except.ok.injEq] at h
      rw [← h]
      have e : Execs s { s with ctl := Function.update s.ctl q (CtlPc.flush_loop in_stop) }
          (fun _ => False) := (Execs.execs_refl s (fun _ => False)).execs_tail rfl rfl rfl
      exact Facts.of_execs e _ (le_refl _) (fun _ hx => absurd hx id)
    · cases h
  · cases h

theorem facts_stop_begin (s : Engine) (q : QId) (s2 : Engine)
    (h : fire_core s (Step.stop_begin q) = .ok s2) : Facts s s2 s.brk := by
  simp only [fire_core] at h
  split at h
  · split at h
    · cases h
    · split at h
      · cases h
      · next s1 h1 =>
        exact Facts.of_execs (Execs.of_same ((work_queue_ref_same s q s1 (fun _ => False)
          h1).same_trans (flush_begin_same s1 q true s2 _ h))) _ (le_refl _)
          (fun _ hx => absurd hx id)
  · cases h

theorem facts_stop_body (s : Engine) (env : Env) (he : env.fresh s) (q : QId) (s2 : Engine)
    (h : fire_core s (Step.stop_body env q) = .ok s2) : Facts s s2 (s.brk + 2) := by
  simp only [fire_core] at h
  obtain ⟨_, _, e3, _⟩ := env_where env he
  split at h
  · exact Facts.facts_of_adds ((stop_body_adds env s q _ s2 e3 h).adds_mono
      (fun _ hx => hx) (fun _ hx => absurd hx id)) he (fun k hx => by cases hx)
  · cases h

theorem facts_stop_wake (s : Engine) (env : Env) (he : env.fresh s) (q : QId) (s2 : Engine)
    (h : fire_core s (Step.stop_wake env q) = .ok s2) : Facts s s2 (s.brk + 2) := by
  simp only [fire_core] at h
  obtain ⟨_, _, e3, _⟩ := env_where env he
  split at h
  · split at h
    · have h1 := (Same.setCtl s q WorkItem.zero (fun x => x = Ptr.ctl q) (Or.inl rfl)).adds env q
        (fun _ => False)
      have h2 := h1.adds_trans (stop_out_adds env _ q 0 s2 e3 h) e3 (fun _ hx => absurd hx id)
      exact Facts.facts_of_adds (h2.adds_mono (fun _ hx => hx) (fun _ hx => absurd hx id)) he
        (fun k hx => by cases hx)
    · cases h
  · cases h

/-! ## C11: the facts of the steps of the threads -/

/-- A static item that a runner meets is run without a call of its notifier:
no queue is freed. -/
theorem execute_static_same (env : Env) (s : Engine) (item : Ptr) (s2 : Engine)
    (hst : work_item_is_static (s.heap item) = true)
    (hm : (s.queues QId.main).vtable ≠ some VTable.bucket)
    (hrn : ∀ x, env.runner = some x → ∃ k, x = Ptr.node k)
    (h : work_item_execute env s item false = .ok s2) : Same s s2 (fun x => x = item) := by
  simp only [work_item_execute, Bool.false_eq_true, if_false] at h
  split at h
  · cases h
  · next f hf =>
    have hf1 : f ≠ Fn.set_bool := by
      intro e
      rw [e] at hf
      simp [work_item_is_static, work_item_is_stop, work_item_is_barrier, hf] at hst
    have hf2 : f ≠ Fn.work_queue_free := by
      intro e
      rw [e] at hf
      simp [work_item_is_static, work_item_is_stop, work_item_is_barrier, hf] at hst
    rw [call_fn_other _ _ _ hf1 hf2] at h
    simp only at h
    have h0 : Same s (s.emit (Event.work f (s.heap item).data item)) (fun x => x = item) :=
      (Same.same_refl s _).same_tail rfl rfl rfl
    exact h0.same_trans (work_item_finish_same env _ item _ s2 hm hrn h)

theorem Same.same_absorb {s s2 : Engine} {A : Ptr → Prop} (h : Same s s2 A)
    (hA : ∀ x, A x → Pointed s x) : Same s s2 (fun _ => False) :=
  ⟨h.run, h.vt, h.thr, h.pay, fun x hx => Or.inl ((h.ptr x hx).elim id (hA x))⟩

/-- A runner of the bucket at `QId.bucket m` leaves the loop of
`__wq_run_bucket`. -/
theorem Facts.leave {s s1 : Engine} (h : Same s s1 (fun _ => False)) (b2 : Nat) (q : QId)
    (r : Ptr) (m : Nat) (stop : Bool) (hmem : Pc.runner r m stop ∈ s.threads q)
    (hq : ∀ m0, q ≠ QId.bucket m0) :
    Facts s ((s1.setQ (QId.bucket m)
      { s1.queues (QId.bucket m) with
          n_running := (s1.queues (QId.bucket m)).n_running - 1 }).move q
        (Pc.runner r m stop) (Pc.runner_fin r)) b2 := by
  have hp : ∀ x, Pointed ((s1.setQ (QId.bucket m)
      { s1.queues (QId.bucket m) with
          n_running := (s1.queues (QId.bucket m)).n_running - 1 }).move q
        (Pc.runner r m stop) (Pc.runner_fin r)) x → Pointed s x := by
    intro x hx
    have h1 : Pointed s1 x := pointed_setQ (QId.bucket m) _ (by rfl) x hx
    exact (h.ptr x h1).elim id (fun e => absurd e id)
  refine ⟨fun k _ => h.pay k, fun k _ hx => hp _ hx, ?_, fun m0 => ?_, fun m0 hv hn => ?_⟩
  · intro k _ _ hnp _ hx _
    exact absurd (hp _ hx) hnp
  · by_cases e : m0 = m
    · subst e
      refine Or.inr (Or.inr (Or.inl ⟨?_, ?_, ?_, q, r, stop, hmem, ?_⟩))
      · simpa [Engine.move, Engine.setQ] using (h.vt _).1
      · simpa [Engine.move, Engine.setQ] using (h.vt _).2
      · simp [Engine.move, Engine.setQ, h.run]
      · simp [Engine.move]
    · have e2 : QId.bucket m0 ≠ QId.bucket m := fun h0 => e (by injection h0)
      left
      simp only [Engine.move, Engine.setQ, Function.update_noteq e2]
      exact ⟨(h.vt _).1, (h.vt _).2, h.run _⟩
  · have e : QId.bucket m0 ≠ q := fun e => hq m0 e.symm
    simp only [Engine.move, Engine.setQ, Function.update_noteq e]
    rw [h.thr _ hv]
    exact hn

theorem facts_main_run {s : Engine} {own : Ptr → Place} {ch : QId → List Ptr}
    (hs : Shape s own ch) (env : Env) (he : env.fresh s) (s2 : Engine)
    (h : fire_core s (Step.main_run env) = .ok s2) : Facts s s2 (s.brk + 2) := by
  simp only [fire_core] at h
  obtain ⟨_, _, e3, _⟩ := env_where env he
  split at h
  · cases h
  · next r s1 hrb =>
    simp only [Except.ok.injEq] at h
    subst h
    exact Facts.of_execs (run_begin_execs env s QId.main _ _ (fun m e => by cases e)
      hs.main_not_bucket e3 hrb) _ (Nat.le_add_right _ _) (fun _ hx => absurd hx id)
  · next p s1 hrb =>
    simp only [Except.ok.injEq] at h
    subst h
    have e := (run_begin_execs env s QId.main _ s1 (fun m e => by cases e)
      hs.main_not_bucket e3 hrb)
    have e2 : Execs s { s1 with main_stack := p :: s1.main_stack } (fun _ => False) :=
      e.execs_tail rfl rfl rfl
    exact Facts.of_execs e2 _ (Nat.le_add_right _ _) (fun _ hx => absurd hx id)

theorem facts_main_done {s : Engine} {own : Ptr → Place} {ch : QId → List Ptr}
    (hs : Shape s own ch) (hh : Held s own) (hf : Fresh s own s.brk) (env : Env)
    (he : env.fresh s) (s2 : Engine)
    (h : fire_core s (Step.main_done env) = .ok s2) : Facts s s2 (s.brk + 2) := by
  simp only [fire_core] at h
  obtain ⟨_, _, e3, _⟩ := env_where env he
  split at h
  · cases h
  · next p rest hst =>
    split at h
    · cases h
    · next s1 hre =>
      simp only [Except.ok.injEq] at h
      subst h
      have hown : own p = Place.mstack := hh.own_of_stack p (by rw [hst]; simp)
      simp only [run_end] at hre
      split at hre
      · cases hre
      · next s0 hex =>
        simp only [Except.ok.injEq] at hre
        subst hre
        have e := work_item_execute_execs env s p _ s0 hs.main_not_bucket e3 hex
        have e2 : Execs s { s0.setQ QId.main { s0.queues QId.main with
            n_running := (s0.queues QId.main).n_running - 1 } with main_stack := rest }
            (fun x => x = p) := by
          refine e.tail2 rfl (fun o => ?_) (fun m => ?_) (fun m => rfl)
          · by_cases e1 : o = QId.main
            · subst e1
              simp [Engine.setQ]
            · simp [Engine.setQ, Function.update_noteq e1]
          · simp [Engine.setQ]
        refine Facts.of_execs e2 _ (Nat.le_add_right _ _) ?_
        intro k hx
        exact hf.old k (by rw [hx, hown]; simp)

theorem facts_worker_run {s : Engine} {own : Ptr → Place} {ch : QId → List Ptr}
    (hs : Shape s own ch) (hrec : ∀ m, BRec s m) (env : Env) (he : env.fresh s) (q : QId)
    (s2 : Engine) (h : fire_core s (Step.worker_run env q) = .ok s2) :
    Facts s s2 (s.brk + 2) := by
  simp only [fire_core] at h
  obtain ⟨_, _, e3, _⟩ := env_where env he
  split at h
  · next hmem =>
    have hq := not_bucket_of_thread hrec q _ hmem
    simp only [worker_run] at h
    split at h
    · cases h
    · next r s1 hrb =>
      have e := run_begin_execs env s q _ s1 hq hs.main_not_bucket e3 hrb
      split at h
      · simp only [Except.ok.injEq] at h
        subst h
        have e2 : Execs s (thread_exit s1 q) (fun _ => False) := by
          refine e.tail2 rfl (fun o => ?_) (fun m => ?_) (fun m => ?_)
          · by_cases e1 : o = q
            · subst e1
              simp [thread_exit]
            · simp [thread_exit, Function.update_noteq e1]
          · simp [thread_exit, Function.update_noteq (fun e => hq m e.symm)]
          · simp [thread_exit, Function.update_noteq (fun e => hq m e.symm)]
        exact Facts.of_execs e2 _ (Nat.le_add_right _ _) (fun _ hx => absurd hx id)
      · simp only [Except.ok.injEq] at h
        subst h
        exact Facts.of_execs e _ (Nat.le_add_right _ _) (fun _ hx => absurd hx id)
    · next p s1 hrb =>
      simp only [Except.ok.injEq] at h
      subst h
      have e := run_begin_execs env s q _ s1 hq hs.main_not_bucket e3 hrb
      exact Facts.of_execs (e.move q _ _ hq) _ (Nat.le_add_right _ _)
        (fun _ hx => absurd hx id)
  · cases h

theorem facts_worker_work {s : Engine} {own : Ptr → Place} {ch : QId → List Ptr}
    (hs : Shape s own ch) (hh : Held s own) (hf : Fresh s own s.brk) (hrec : ∀ m, BRec s m)
    (env : Env) (he : env.fresh s) (q : QId) (p : Ptr) (s2 : Engine)
    (h : fire_core s (Step.worker_work env q p) = .ok s2) : Facts s s2 (s.brk + 2) := by
  simp only [fire_core] at h
  obtain ⟨_, _, e3, _⟩ := env_where env he
  split at h
  · next hg =>
    have hq := not_bucket_of_thread hrec q _ hg.1
    have hown : own p = Place.thr q := hh.own_of_mem q _ p hg.1 (by simp [Pc.items])
    split at h
    · cases h
    · next s1 hex =>
      simp only [Except.ok.injEq] at h
      subst h
      have e := work_item_execute_execs env s p _ s1 hs.main_not_bucket e3 hex
      refine Facts.of_execs (e.move q _ _ hq) _ (Nat.le_add_right _ _) ?_
      intro k hx
      exact hf.old k (by rw [hx, hown]; simp)
  · cases h

theorem facts_worker_relock {s : Engine} (hrec : ∀ m, BRec s m) (q : QId) (s2 : Engine)
    (h : fire_core s (Step.worker_relock q) = .ok s2) : Facts s s2 s.brk := by
  simp only [fire_core] at h
  split at h
  · next hmem =>
    have hq := not_bucket_of_thread hrec q _ hmem
    simp only [Except.ok.injEq] at h
    subst h
    have e : Execs s ((s.setQ q { s.queues q with n_running := (s.queues q).n_running - 1 }).move
        q Pc.fin Pc.wait) (fun _ => False) := by
      refine (Execs.execs_refl s _).tail2 rfl (fun o => ?_) (fun m => ?_) (fun m => ?_)
      · by_cases e1 : o = q
        · subst e1
          simp [Engine.move, Engine.setQ]
        · simp [Engine.move, Engine.setQ, Function.update_noteq e1]
      · simp [Engine.move, Engine.setQ, Function.update_noteq (fun e => hq m e.symm)]
      · simp [Engine.move, Engine.setQ, Function.update_noteq (fun e => hq m e.symm)]
    exact Facts.of_execs e _ (le_refl _) (fun _ hx => absurd hx id)
  · cases h

theorem facts_runner_enter {s : Engine} (hrec : ∀ m, BRec s m) (q : QId) (r : Ptr) (b : Nat)
    (s2 : Engine) (h : fire_core s (Step.runner_enter q r b) = .ok s2) :
    Facts s s2 s.brk := by
  simp only [fire_core] at h
  split at h
  · next hg =>
    have hq := not_bucket_of_thread hrec q _ hg.1
    simp only [Except.ok.injEq] at h
    subst h
    have e : Execs s (s.emit (Event.work Fn.wq_run_bucket (Data.queue (QId.bucket b)) r))
        (fun _ => False) := (Execs.execs_refl s _).execs_tail rfl rfl rfl
    exact Facts.of_execs (e.move q _ _ hq) _ (le_refl _) (fun _ hx => absurd hx id)
  · cases h

theorem facts_runner_work {s : Engine} {own : Ptr → Place} {ch : QId → List Ptr}
    (hs : Shape s own ch) (hh : Held s own) (hf : Fresh s own s.brk) (hrec : ∀ m, BRec s m)
    (env : Env) (he : env.fresh s) (q : QId) (r : Ptr) (b : Nat) (p : Ptr) (s2 : Engine)
    (h : fire_core s (Step.runner_work env q r b p) = .ok s2) : Facts s s2 (s.brk + 2) := by
  simp only [fire_core] at h
  obtain ⟨_, _, e3, _⟩ := env_where env he
  split at h
  · next hmem =>
    have hq := not_bucket_of_thread hrec q _ hmem
    have hown : own p = Place.thr q := hh.own_of_mem q _ p hmem (by simp [Pc.items])
    split at h
    · cases h
    · next s1 hex =>
      simp only [Except.ok.injEq] at h
      subst h
      have e := work_item_execute_execs env s p _ s1 hs.main_not_bucket e3 hex
      refine Facts.of_execs (e.move q _ _ hq) _ (Nat.le_add_right _ _) ?_
      intro k hx
      exact hf.old k (by rw [hx, hown]; simp)
  · cases h

theorem facts_runner_return {s : Engine} {own : Ptr → Place} {ch : QId → List Ptr}
    (hs : Shape s own ch) (hh : Held s own) (hf : Fresh s own s.brk) (hrec : ∀ m, BRec s m)
    (env : Env) (he : env.fresh s) (q : QId) (r : Ptr) (s2 : Engine)
    (h : fire_core s (Step.runner_return env q r) = .ok s2) : Facts s s2 (s.brk + 2) := by
  simp only [fire_core] at h
  obtain ⟨_, _, e3, _⟩ := env_where env he
  split at h
  · next hmem =>
    have hq := not_bucket_of_thread hrec q _ hmem
    have hown : own r = Place.thr q := hh.own_of_mem q _ r hmem (by simp [Pc.items])
    split at h
    · cases h
    · next s1 hex =>
      simp only [Except.ok.injEq] at h
      subst h
      have e := Execs.of_same (work_item_finish_same env s r _ s1 hs.main_not_bucket e3 hex)
      refine Facts.of_execs (e.move q _ _ hq) _ (Nat.le_add_right _ _) ?_
      intro k hx
      exact hf.old k (by rw [hx, hown]; simp)
  · cases h

theorem facts_runner_iter {s : Engine} {own : Ptr → Place} {ch : QId → List Ptr}
    (hs : Shape s own ch) (hrec : ∀ m, BRec s m) (env : Env) (he : env.fresh s) (q : QId)
    (r : Ptr) (m : Nat) (stop : Bool) (s2 : Engine)
    (h : fire_core s (Step.runner_iter env q r m stop) = .ok s2) :
    Facts s s2 (s.brk + 2) := by
  simp only [fire_core] at h
  obtain ⟨_, _, e3, _⟩ := env_where env he
  split at h
  · next hmem =>
    have hq := not_bucket_of_thread hrec q _ hmem
    have hleave0 := Facts.leave (Same.same_refl s (fun _ => False)) (s.brk + 2) q r m stop hmem hq
    simp only [runner_iter] at h
    split at h
    · simp only [Except.ok.injEq] at h
      subst h
      exact hleave0
    · next hd hhead =>
      split at h
      · simp only [Except.ok.injEq] at h
        subst h
        exact hleave0
      · split at h
        · next hst =>
          have hst2 : work_item_is_static (s.heap hd) = true := by
            simpa [work_item_is_static] using hst
          split at h
          · split at h
            · cases h
            · next r0 h1 Q1 hdr =>
              split at h
              · cases h
              · next s1 hex =>
                simp only [Except.ok.injEq] at h
                subst h
                have a := drain_same s (QId.bucket m) r0 h1 Q1 (fun x => x = hd) hdr
                obtain ⟨hpay, _, _⟩ := drain_ptr _ _ _ _ _ hdr
                have b := execute_static_same env _ hd s1
                  (by
                    rw [← hst2]
                    exact static_of_payload _ _ (hpay hd))
                  (by rw [(a.vt _).1]; exact hs.main_not_bucket) e3 hex
                exact Facts.leave ((a.same_trans b).same_absorb
                  (fun x hx => Or.inl ⟨QId.bucket m, by rw [hx]; exact hhead⟩)) _ q r m stop
                  hmem hq
          · simp only [Except.ok.injEq] at h
            subst h
            exact hleave0
        · split at h
          · cases h
          · next r0 h1 Q1 hdr =>
            simp only [Except.ok.injEq] at h
            subst h
            have a := Execs.of_same (drain_same s (QId.bucket m) r0 h1 Q1 (fun _ => False) hdr)
            exact Facts.of_execs (a.move q _ _ hq) _ (Nat.le_add_right _ _)
              (fun _ hx => absurd hx id)
  · cases h

/-! ## C11: the invariant of the buckets along the steps -/

theorem mem_pointed (h : Heap) : ∀ (l : List Ptr) (x : Option Ptr) (p : Ptr), Lseg h x l →
    p ∈ l → x = some p ∨ ∃ p0, (h p0).next = some p := by
  intro l
  induction l with
  | nil => intro x p _ hp; cases hp
  | cons a l ih =>
    intro x p hl hp
    simp only [Lseg] at hl
    rcases List.mem_cons.1 hp with e | e
    · left
      rw [e]
      exact hl.1
    · right
      rcases ih _ p hl.2 e with h1 | h1
      · exact ⟨a, h1⟩
      · exact h1

/-- An item that waits in a list is pointed to. -/
theorem Shape.pointed_of_inq {s : Engine} {own : Ptr → Place} {ch : QId → List Ptr}
    (hs : Shape s own ch) (p : Ptr) (o : QId) (h : own p = Place.inq o) : Pointed s p := by
  rcases mem_pointed s.heap (ch o) _ p (hs.wf o).seg ((hs.mem o p).2 h) with e | e
  · exact Or.inl ⟨o, e⟩
  · exact Or.inr e

/-- The runner item of a thread inside the loop of `__wq_run_bucket` is a
live runner item of its bucket. -/
theorem tok_of_runner {s : Engine} {own : Ptr → Place} (hh : Held s own) (hr : Runs s)
    (q : QId) (pc : Pc) (r : Ptr) (m : Nat) (hmem : pc ∈ s.threads q)
    (hro : pc.runner_of = some r) (hbk : pc.bucket_of = some m) : Tok s own m r := by
  obtain ⟨_, hw, hd⟩ := hr q pc r hmem hro
  have hin := Pc.runner_of_mem pc r hro
  refine ⟨hw, hd m hbk, ?_, ?_⟩
  · rw [hh.own_of_mem q pc r hmem hin]
    rfl
  · intro o hfin
    obtain ⟨_, e⟩ := hh.unique o q _ pc r hfin hmem (by simp [Pc.items]) hin
    rw [← e] at hbk
    cases hbk

/-- A live runner item after a step was one before the step, or is the runner
block of the step, and then `n_running` of its bucket went up. -/
theorem tok_back {s s2 : Engine} {own own2 : Ptr → Place} {ch ch2 : QId → List Ptr}
    {b2 : Nat} (hs : Shape s own ch) (hb : BInv s own) (hs2 : Shape s2 own2 ch2)
    (hf2 : Fresh s2 own2 b2) (hk : Keep s own s2 own2) (hfa : Facts s s2 b2) (m : Nat)
    (p : Ptr) (ht : Tok s2 own2 m p) :
    Tok s own m p ∨ (p = Ptr.node (s.brk + 1)
      ∧ (s.queues (QId.bucket m)).n_running < (s2.queues (QId.bucket m)).n_running) := by
  obtain ⟨hw, hd, hbusy, hfin⟩ := ht
  cases p with
  | ctl q0 => exact absurd hw (hs2.ctl q0).2.2.2.2
  | node k =>
    by_cases hlt : k < s.brk
    · left
      have hpay := hfa.pay k (Or.inl hlt)
      have hw1 : (s.heap (Ptr.node k)).work = some Fn.wq_run_bucket := by
        rw [← payload_work hpay]; exact hw
      refine ⟨hw1, by rw [← payload_data hpay]; exact hd, hk.1 k hlt hbusy, ?_⟩
      intro o hm
      rcases hk.2.1 o _ hm ((hs.node k).2.2.2.2 hw1) with h | h
      · exact hfin o h
      · rw [h] at hbusy
        cases hbusy
    · right
      have hge : s.brk ≤ k := not_lt.1 hlt
      by_cases hlt2 : k < b2
      · have hp2 : Pointed s2 (Ptr.node k) := by
          cases ho : own2 (Ptr.node k) with
          | out => rw [ho] at hbusy; cases hbusy
          | gone => rw [ho] at hbusy; cases hbusy
          | inq o => exact hs2.pointed_of_inq _ o ho
          | thr o => exact absurd ho ((hk.2.2.1 k hge).1 o)
          | mstack => exact absurd ho (hk.2.2.1 k hge).2
        obtain ⟨e, hN⟩ := hfa.tok k hge hlt2 (hb.noptr k hge) (hb.blank k hge) hp2 hw
        exact ⟨by rw [e], hN m hd⟩
      · have := (hf2 k (not_lt.1 hlt2)).1
        rw [this] at hbusy
        cases hbusy

/-- The invariant of the buckets after a step. -/
theorem binv_next {s s2 : Engine} {own own2 : Ptr → Place} {ch ch2 : QId → List Ptr}
    {b2 : Nat} (hs : Shape s own ch) (hh : Held s own) (hr : Runs s) (hb : BInv s own)
    (hs2 : Shape s2 own2 ch2) (hf2 : Fresh s2 own2 b2) (hk : Keep s own s2 own2)
    (hfa : Facts s s2 b2) (hle : s.brk ≤ b2) (hb2 : s2.brk = b2) : BInv s2 own2 := by
  have hback := fun m p => tok_back hs hb hs2 hf2 hk hfa m p
  have hrun : ∀ m q r stop, Pc.runner r m stop ∈ s.threads q →
      1 ≤ (s.queues (QId.bucket m)).n_running := by
    intro m q r stop hm
    obtain ⟨l, hl, hlen⟩ := hb.tok m
    have hin := hl r (tok_of_runner hh hr q _ r m hm rfl rfl)
    have := List.length_pos_of_mem hin
    omega
  have hnn : ∀ m, 0 ≤ (s.queues (QId.bucket m)).n_running := by
    intro m
    obtain ⟨l, _, hlen⟩ := hb.tok m
    omega
  refine ⟨?_, ?_, ?_, ?_⟩
  · intro k hk0 hp
    rw [hb2] at hk0
    exact hb.noptr k (le_trans hle hk0) (hfa.ptr k hk0 hp)
  · intro k hk0
    rw [hb2] at hk0
    rw [payload_work (hfa.pay k (Or.inr hk0))]
    exact hb.blank k (le_trans hle hk0)
  · intro m
    have hrec := hb.recs m
    refine ⟨hfa.thr m hrec.kind hrec.nothr, ?_, ?_, ?_⟩
    · rcases hfa.bk m with ⟨a, _, _⟩ | ⟨a, _, _⟩ | ⟨a, _, _⟩ | ⟨a, _, _⟩ | ⟨_, a, _⟩
      · rw [a]; exact hrec.kind
      · rw [a]; exact hrec.kind
      · rw [a]; exact hrec.kind
      · rw [a]; simp
      · rw [a]; simp
    · intro hv
      rcases hfa.bk m with ⟨a, _, c⟩ | ⟨a, _, c, _⟩ | ⟨a, _, _, q, r, stop, hm, _⟩ | ⟨_, c, _⟩
        | ⟨_, a, _⟩
      · rw [c]
        exact hrec.dead (by rw [← a]; exact hv)
      · rw [a, c] at hv
        cases hv
      · have := hrun m q r stop hm
        have := hrec.dead (by rw [← a]; exact hv)
        omega
      · exact c
      · rw [a] at hv
        cases hv
    · intro hv
      rcases hfa.bk m with ⟨a, b, c⟩ | ⟨a, b, _, _, e⟩ | ⟨a, b, c, _⟩ | ⟨a, _, _⟩
        | ⟨_, _, b, c⟩
      · rw [b, c]
        exact hrec.live (by rw [← a]; exact hv)
      · rw [b]
        exact ⟨(hrec.live (by rw [← a]; exact hv)).1, e⟩
      · rw [b, c]
        have := hrec.live (by rw [← a]; exact hv)
        exact ⟨this.1, by omega⟩
      · rw [a] at hv
        cases hv
      · rw [c]
        exact ⟨b, le_of_lt b⟩
  · intro m
    obtain ⟨l, hl, hlen⟩ := hb.tok m
    have hrec := hb.recs m
    have hempty : (s.queues (QId.bucket m)).n_running = 0 →
        (s2.queues (QId.bucket m)).n_running = 0 →
        ∃ l2 : List Ptr, (∀ p, Tok s2 own2 m p → p ∈ l2)
          ∧ (l2.length : Int) ≤ (s2.queues (QId.bucket m)).n_running := by
      intro h0 h2
      refine ⟨[], ?_, by rw [h2]; simp⟩
      intro p ht
      rcases hback m p ht with t | ⟨_, lt⟩
      · have hin := hl p t
        have := List.length_pos_of_mem hin
        omega
      · omega
    rcases hfa.bk m with ⟨_, _, c⟩ | ⟨_, _, _, c, _⟩ | ⟨_, _, c, q, r, stop, hm, hm2⟩
      | ⟨_, c, d⟩ | ⟨a, _, _, c⟩
    · refine ⟨l, ?_, by rw [c]; exact hlen⟩
      intro p ht
      rcases hback m p ht with t | ⟨_, lt⟩
      · exact hl p t
      · omega
    · refine ⟨Ptr.node (s.brk + 1) :: l, ?_, ?_⟩
      · intro p ht
        rcases hback m p ht with t | ⟨e, _⟩
        · exact List.mem_cons_of_mem _ (hl p t)
        · rw [e]
          exact List.mem_cons_self _ _
      · rw [List.length_cons]
        push_cast
        omega
    · have hin := hl r (tok_of_runner hh hr q _ r m hm rfl rfl)
      refine ⟨l.erase r, ?_, ?_⟩
      · intro p ht
        rcases hback m p ht with t | ⟨_, lt⟩
        · have hne : p ≠ r := by
            intro e
            rw [e] at ht
            exact ht.2.2.2 q hm2
          exact (List.mem_erase_of_ne hne).2 (hl p t)
        · omega
      · rw [List.length_erase_of_mem hin]
        have := List.length_pos_of_mem hin
        omega
    · refine hempty ?_ c
      cases hv : (s.queues (QId.bucket m)).vtable with
      | none => exact hrec.dead hv
      | some v =>
        cases v with
        | queue => exact absurd hv hrec.kind
        | bucket => exact d hv
    · exact hempty (hrec.dead a) c

/-! ## C11: the invariant of the buckets in every reachable state -/

/-- The facts of a step, before the allocation mark moves. -/
theorem fire_core_facts {s : Engine} {own : Ptr → Place} {ch : QId → List Ptr}
    (hs : Shape s own ch) (hh : Held s own) (hf : Fresh s own s.brk) (hrec : ∀ m, BRec s m)
    (st : Step) (he : ∀ env, st.env = some env → env.fresh s) (s2 : Engine)
    (h : fire_core s st = .ok s2) :
    (st.env = none → Facts s s2 s.brk) ∧ (st.env ≠ none → Facts s s2 (s.brk + 2)) := by
  cases st with
  | new_queue n maxsize =>
    exact ⟨fun _ => facts_new_queue s n maxsize s2 h, fun e => absurd rfl e⟩
  | new_bucket n maxsize width =>
    exact ⟨fun _ => facts_new_bucket s n maxsize width s2 h, fun e => absurd rfl e⟩
  | set_destroy_notify env q f ctx =>
    exact ⟨fun e => (by cases e),
      fun _ => facts_set_destroy_notify s env (he env rfl) q f ctx s2 h⟩
  | ref q =>
    exact ⟨fun _ => facts_ref s q s2 h, fun e => absurd rfl e⟩
  | unref env q =>
    exact ⟨fun e => (by cases e), fun _ => facts_unref s env (he env rfl) q s2 h⟩
  | add env q work notify cancel data =>
    exact ⟨fun e => (by cases e),
      fun _ => facts_add s env (he env rfl) q work notify cancel data s2 h⟩
  | add_rewind env q work notify cancel data =>
    exact ⟨fun e => (by cases e),
      fun _ => facts_add_rewind s env (he env rfl) q work notify cancel data s2 h⟩
  | flush_begin q =>
    exact ⟨fun _ => facts_flush_begin s q s2 h, fun e => absurd rfl e⟩
  | flush_iter env q =>
    exact ⟨fun e => (by cases e), fun _ => facts_flush_iter s env (he env rfl) q s2 h⟩
  | flush_wake q =>
    exact ⟨fun _ => facts_flush_wake s q s2 h, fun e => absurd rfl e⟩
  | stop_begin q =>
    exact ⟨fun _ => facts_stop_begin s q s2 h, fun e => absurd rfl e⟩
  | stop_body env q =>
    exact ⟨fun e => (by cases e), fun _ => facts_stop_body s env (he env rfl) q s2 h⟩
  | stop_wake env q =>
    exact ⟨fun e => (by cases e), fun _ => facts_stop_wake s env (he env rfl) q s2 h⟩
  | main_run env =>
    exact ⟨fun e => (by cases e), fun _ => facts_main_run hs env (he env rfl) s2 h⟩
  | main_done env =>
    exact ⟨fun e => (by cases e), fun _ => facts_main_done hs hh hf env (he env rfl) s2 h⟩
  | worker_run env q =>
    exact ⟨fun e => (by cases e), fun _ => facts_worker_run hs hrec env (he env rfl) q s2 h⟩
  | worker_work env q p =>
    exact ⟨fun e => (by cases e),
      fun _ => facts_worker_work hs hh hf hrec env (he env rfl) q p s2 h⟩
  | worker_relock q =>
    exact ⟨fun _ => facts_worker_relock hrec q s2 h, fun e => absurd rfl e⟩
  | runner_enter q r b =>
    exact ⟨fun _ => facts_runner_enter hrec q r b s2 h, fun e => absurd rfl e⟩
  | runner_iter env q r b stop =>
    exact ⟨fun e => (by cases e),
      fun _ => facts_runner_iter hs hrec env (he env rfl) q r b stop s2 h⟩
  | runner_work env q r b p =>
    exact ⟨fun e => (by cases e),
      fun _ => facts_runner_work hs hh hf hrec env (he env rfl) q r b p s2 h⟩
  | runner_return env q r =>
    exact ⟨fun e => (by cases e),
      fun _ => facts_runner_return hs hh hf hrec env (he env rfl) q r s2 h⟩

/-- Every step of the engine keeps the invariants, and along it an item that
was handed to the engine stays so, and a block handed out before the step
keeps its content. -/
theorem fire_carry {s : Engine} {own : Ptr → Place} {ch : QId → List Ptr}
    (hi : Inv s own ch) (hr : Runs s) (hb : BInv s own) (st : Step) (s2 : Engine)
    (h : fire s st = .ok s2) :
    ∃ own2 ch2, Inv s2 own2 ch2 ∧ Runs s2 ∧ BInv s2 own2
      ∧ (∀ p, own p ≠ Place.out → own2 p ≠ Place.out)
      ∧ (∀ k, k < s.brk → payload (s2.heap (Ptr.node k)) = payload (s.heap (Ptr.node k)))
      ∧ s.brk ≤ s2.brk := by
  obtain ⟨hs, hp, hh, hf⟩ := hi
  simp only [fire] at h
  split at h
  · next hn =>
    have hbrk := fire_core_brk s st s2 hn h
    have he : ∀ env, st.env = some env → env.fresh s := fun env e => by rw [hn] at e; cases e
    obtain ⟨own2, ch2, a, b, c, d, e, k⟩ := (fire_core_good hs hp hh hf hr st he s2 h).1 hn
    have hfa := (fire_core_facts hs hh hf hb.recs st he s2 h).1 hn
    exact ⟨own2, ch2, ⟨a, b, c, by rw [hbrk]; exact d⟩, e,
      binv_next hs hh hr hb a d k hfa (le_refl _) hbrk, k.2.2.2,
      fun k0 hk0 => hfa.pay k0 (Or.inl hk0), by rw [hbrk]⟩
  · next env hn =>
    split at h
    · next hfr =>
      split at h
      · cases h
      · next s1 h1 =>
        simp only [Except.ok.injEq] at h
        rw [← h]
        have he : ∀ env0, st.env = some env0 → env0.fresh s := by
          intro env0 e
          rw [hn] at e
          injection e with e
          rw [← e]
          exact hfr
        have hne : st.env ≠ none := by rw [hn]; simp
        obtain ⟨own2, ch2, a, b, c, d, e, k⟩ := (fire_core_good hs hp hh hf hr st he s1 h1).2 hne
        have hfa := (fire_core_facts hs hh hf hb.recs st he s1 h1).2 hne
        have a2 : Shape { s1 with brk := s.brk + 2 } own2 ch2 :=
          a.shape_alike rfl (fun _ => ⟨rfl, rfl, rfl, fun _ => rfl⟩) ⟨rfl, rfl⟩ rfl rfl
        have hfa2 : Facts s { s1 with brk := s.brk + 2 } (s.brk + 2) :=
          ⟨hfa.pay, hfa.ptr, hfa.tok, hfa.bk, hfa.thr⟩
        exact ⟨own2, ch2, ⟨a2, ⟨b.r2, b.r3, b.r4, b.r5, b.r6⟩, ⟨c.thr, c.stk, c.nomain⟩, d⟩,
          fun o pc r hpc hro => e o pc r hpc hro,
          binv_next hs hh hr hb a2 d k hfa2 (Nat.le_add_right _ _) rfl, k.2.2.2,
          fun k0 hk0 => hfa.pay k0 (Or.inl hk0), Nat.le_add_right _ _⟩
    · cases h

/-- Every step of the engine keeps the invariant of the buckets. -/
theorem fire_full (s : Engine) (st : Step) (s2 : Engine) (hg : Full s)
    (h : fire s st = .ok s2) : Full s2 := by
  obtain ⟨own, ch, hi, hr, hb⟩ := hg
  obtain ⟨own2, ch2, a, b, c, _⟩ := fire_carry hi hr hb st s2 h
  exact ⟨own2, ch2, a, b, c⟩

/-- The state before any call satisfies the invariant of the buckets. -/
theorem boot_full : Full Engine.boot := by
  refine ⟨fun _ => Place.out, fun _ => [], boot_inv.1, boot_inv.2, ?_, ?_, ?_, ?_⟩
  · intro k _ hp
    rcases hp with ⟨o, ho⟩ | ⟨p, hp⟩
    · simp [Engine.boot, WorkQueue.zero] at ho
    · simp [Engine.boot, WorkItem.zero] at hp
  · intro k _
    rfl
  · intro m
    exact ⟨rfl, by simp [Engine.boot, WorkQueue.zero], fun _ => rfl,
      fun h => by simp [Engine.boot, WorkQueue.zero] at h⟩
  · intro m
    refine ⟨[], ?_, by simp [Engine.boot, WorkQueue.zero]⟩
    intro p ht
    have := ht.1
    simp [Engine.boot, WorkItem.zero] at this

/-- C11 rests on this: the invariant of the buckets holds in every reachable
state. -/
theorem reachable_full (s : Engine) (hr : Reachable s) : Full s := by
  induction hr with
  | boot => exact boot_full
  | step s s2 st _ h ih => exact fire_full s st s2 ih h

/-! ## C11: at most `width` runners of a bucket -/

theorem works_for_length (m : Nat) (l : List Pc) :
    (l.filter (Pc.works_for m)).length = (l.flatMap (Pc.run_items m)).length := by
  induction l with
  | nil => rfl
  | cons pc l ih =>
    rw [List.flatMap_cons, List.length_append, ← ih]
    cases pc with
    | runner_exec r b p =>
      by_cases e : b = m
      · simp [List.filter_cons, Pc.works_for, Pc.run_items, e]
        omega
      · simp [List.filter_cons, Pc.works_for, Pc.run_items, e]
    | _ => simp [List.filter_cons, Pc.works_for, Pc.run_items]

theorem running_work_eq (s : Engine) (m : Nat) (os : List QId) :
    running_work s m os
      = (os.flatMap (fun o => (s.threads o).flatMap (Pc.run_items m))).length := by
  induction os with
  | nil => rfl
  | cons o os ih =>
    simp only [running_work, List.map_cons, List.sum_cons, List.flatMap_cons,
      List.length_append] at ih ⊢
    rw [works_for_length, ih]

theorem run_items_count (m : Nat) (pc : Pc) (p : Ptr) :
    (pc.run_items m).count p ≤ pc.items.count p := by
  cases pc with
  | runner_exec r b x =>
    by_cases e : b = m
    · simp only [Pc.run_items, Pc.items, e, if_true, List.count_cons, List.count_nil]
      omega
    · simp [Pc.run_items, e]
  | _ => simp [Pc.run_items]

theorem count_flatMap_le {α β : Type} [DecidableEq β] (f g : α → List β) (p : β)
    (h : ∀ a, (f a).count p ≤ (g a).count p) :
    ∀ l : List α, (l.flatMap f).count p ≤ (l.flatMap g).count p := by
  intro l
  induction l with
  | nil => simp
  | cons a l ih =>
    rw [List.flatMap_cons, List.flatMap_cons, List.count_append, List.count_append]
    have := h a
    omega

/-- A runner item is run by at most one thread of one queue. -/
theorem run_count_le_one {s : Engine} {own : Ptr → Place} (hh : Held s own) (m : Nat)
    (p : Ptr) : ∀ os : List QId,
      ((∀ o, o ∈ os → own p ≠ Place.thr o) →
        (os.flatMap (fun o => (s.threads o).flatMap (Pc.run_items m))).count p = 0)
      ∧ (os.Nodup →
        (os.flatMap (fun o => (s.threads o).flatMap (Pc.run_items m))).count p ≤ 1) := by
  intro os
  have hone : ∀ o, ((s.threads o).flatMap (Pc.run_items m)).count p
      ≤ if own p = Place.thr o then 1 else 0 := by
    intro o
    rw [← hh.thr o p]
    exact count_flatMap_le _ _ p (fun pc => run_items_count m pc p) _
  induction os with
  | nil => exact ⟨fun _ => rfl, fun _ => by simp⟩
  | cons o os ih =>
    constructor
    · intro hne
      rw [List.flatMap_cons, List.count_append, ih.1 (fun o1 h1 => hne o1 (List.mem_cons_of_mem _ h1))]
      have := hone o
      rw [if_neg (hne o (List.mem_cons_self _ _))] at this
      omega
    · intro hnd
      rw [List.nodup_cons] at hnd
      rw [List.flatMap_cons, List.count_append]
      have h1 := hone o
      by_cases e : own p = Place.thr o
      · rw [if_pos e] at h1
        have : ∀ o1, o1 ∈ os → own p ≠ Place.thr o1 := by
          intro o1 hm e1
          rw [e] at e1
          injection e1 with e1
          rw [e1] at hnd
          exact hnd.1 hm
        rw [ih.1 this]
        omega
      · rw [if_neg e] at h1
        have := ih.2 hnd.2
        omega

/-- The threads that run the work of an item of a bucket are no more than the
`n_running` of the bucket. -/
theorem running_le {s : Engine} {own : Ptr → Place} (hh : Held s own) (hr : Runs s)
    (hb : BInv s own) (m : Nat) (os : List QId) (hnd : os.Nodup) :
    (running_work s m os : Int) ≤ (s.queues (QId.bucket m)).n_running := by
  obtain ⟨l, hl, hlen⟩ := hb.tok m
  have hnd2 : (os.flatMap (fun o => (s.threads o).flatMap (Pc.run_items m))).Nodup :=
    List.nodup_iff_count_le_one.2 (fun p => (run_count_le_one hh m p os).2 hnd)
  have hsub : (os.flatMap (fun o => (s.threads o).flatMap (Pc.run_items m))) ⊆ l := by
    intro p hp
    obtain ⟨o, _, hp⟩ := List.mem_flatMap.1 hp
    obtain ⟨pc, hpc, hp⟩ := List.mem_flatMap.1 hp
    apply hl
    cases pc with
    | runner_exec r b x =>
      by_cases e : b = m
      · subst e
        simp only [Pc.run_items, if_true, List.mem_singleton] at hp
        subst hp
        exact tok_of_runner hh hr o _ _ _ hpc rfl rfl
      · simp [Pc.run_items, e] at hp
    | _ => simp [Pc.run_items] at hp
  have hle := (List.subperm_of_subset hnd2 hsub).length_le
  rw [running_work_eq]
  omega

/-- At its width, `prepare_executive_bucket` does nothing. -/
theorem prepare_bucket_full (env : Env) (s : Engine) (b : QId)
    (h : (s.queues b).width ≤ (s.queues b).n_running) :
    prepare_executive_bucket env s b = .ok (0, s) := by
  simp only [prepare_executive_bucket]
  rw [if_pos h]

/-- An add on the shared pool that does not fail leaves the item at the tail. -/
theorem pool_add_tail (env : Env) (s : Engine) (q : QId) (item : Ptr) (dr : Bool)
    (r : Int) (s2 : Engine)
    (h : add_unlocked_with (prepare_executive_pool env) env s q item dr false = .ok (r, s2))
    (hr : 0 ≤ r) : (s2.queues q).tail = some item := by
  simp only [add_unlocked_with, Bool.false_and, Bool.false_eq_true, if_false] at h
  split at h
  · cases h
  · next r0 s1 hp =>
    split at h
    · simp only [Except.ok.injEq, Prod.mk.injEq] at h
      omega
    · simp only [Except.ok.injEq, Prod.mk.injEq] at h
      rw [← h.2]
      obtain ⟨hd, hQ⟩ := add_tail_fields s1.heap (s1.queues q) item
      simp [hQ]

/-- Below its width, `prepare_executive_bucket` links the runner item at the
tail of the shared pool and adds one to `n_running`, or fails and leaves
`n_running` as it was. -/
theorem prepare_bucket_below (env : Env) (s : Engine) (b : QId) (r : Int) (s2 : Engine)
    (hrn : ∀ x, env.runner = some x → ∃ k, x = Ptr.node k) (hb : b ≠ QId.concurrent)
    (hlt : (s.queues b).n_running < (s.queues b).width)
    (h : prepare_executive_bucket env s b = .ok (r, s2)) :
    (r = 0 ∧ (s2.queues b).n_running = (s.queues b).n_running + 1
        ∧ ∃ x, env.runner = some x ∧ (s2.queues QId.concurrent).tail = some x
          ∧ payload (s2.heap x) = payload (runner_item b))
      ∨ (r < 0 ∧ (s2.queues b).n_running = (s.queues b).n_running) := by
  simp only [prepare_executive_bucket] at h
  rw [if_neg (by omega)] at h
  split at h
  · simp only [Except.ok.injEq, Prod.mk.injEq] at h
    rw [← h.1, ← h.2]
    exact Or.inr ⟨by decide, rfl⟩
  · next exc hr =>
    split at h
    · cases h
    · next r2 s1 hadd =>
      have hS := pool_add_same env _ _ _ _ _ r2 s1 hadd
      split at h
      · next hneg =>
        simp only [Except.ok.injEq, Prod.mk.injEq] at h
        rw [← h.1, ← h.2]
        refine Or.inr ⟨hneg, ?_⟩
        show (s1.queues b).n_running = _
        rw [hS.run b]
        rfl
      · next hpos =>
        simp only [Except.ok.injEq, Prod.mk.injEq] at h
        rw [← h.1, ← h.2]
        refine Or.inl ⟨rfl, ?_, exc, hr, ?_, ?_⟩
        · simp only [Engine.setQ, Function.update_same]
          rw [hS.run b]
          rfl
        · simp only [Engine.setQ, Function.update_noteq (Ne.symm hb)]
          exact pool_add_tail env _ _ _ _ r2 s1 hadd (by omega)
        · obtain ⟨k, hk⟩ := hrn exc hr
          subst hk
          show payload (s1.heap (Ptr.node k)) = _
          rw [hS.pay k]
          simp [Engine.setItem]

/-- A step that allocates is its effect on the rest of the state, then the
move of the allocation mark. -/
theorem fire_env_core (s : Engine) (st : Step) (s2 : Engine) (env : Env)
    (hn : st.env = some env) (h : fire s st = .ok s2) :
    env.fresh s ∧ ∃ s1, fire_core s st = .ok s1 ∧ s2 = { s1 with brk := s.brk + 2 } := by
  simp only [fire] at h
  split at h
  · next hn2 => rw [hn] at hn2; cases hn2
  · next env2 hn2 =>
    rw [hn] at hn2
    injection hn2 with hn2
    subst hn2
    split at h
    · next hfr =>
      split at h
      · cases h
      · next s1 h1 =>
        simp only [Except.ok.injEq] at h
        exact ⟨hfr, s1, h1, h.symm⟩
    · cases h

/-- What a step does to the record of a bucket. -/
theorem fire_bstep (s : Engine) (hg : Full s) (st : Step) (s2 : Engine)
    (h : fire s st = .ok s2) (m : Nat) : BStep s s2 m := by
  obtain ⟨own, ch, ⟨hs, hp, hh, hf⟩, hr, hb⟩ := hg
  cases hn : st.env with
  | none =>
    have he : ∀ env, st.env = some env → env.fresh s := fun env e => by rw [hn] at e; cases e
    have h1 : fire_core s st = .ok s2 := by
      simp only [fire, hn] at h
      exact h
    exact ((fire_core_facts hs hh hf hb.recs st he s2 h1).1 hn).bk m
  | some env =>
    obtain ⟨hfr, s1, h1, e⟩ := fire_env_core s st s2 env hn h
    have he : ∀ env0, st.env = some env0 → env0.fresh s := by
      intro env0 e0
      rw [hn] at e0
      injection e0 with e0
      rw [← e0]
      exact hfr
    have hfa := ((fire_core_facts hs hh hf hb.recs st he s1 h1).2 (by rw [hn]; simp)).bk m
    rw [e]
    exact hfa

/-- A step of a runner at the head of its loop: the runner leaves the loop
and takes one off `n_running`, or takes the head item and leaves `n_running`
as it was. -/
theorem runner_iter_count {s : Engine} {own : Ptr → Place} {ch : QId → List Ptr}
    (hs : Shape s own ch) (env : Env) (he : env.fresh s) (q : QId) (r : Ptr) (m : Nat)
    (stop : Bool) (s2 : Engine) (h : fire_core s (Step.runner_iter env q r m stop) = .ok s2) :
    (Pc.runner_fin r ∈ s2.threads q
        ∧ (s2.queues (QId.bucket m)).n_running = (s.queues (QId.bucket m)).n_running - 1)
      ∨ (∃ hd, (s.queues (QId.bucket m)).head = some hd ∧ Pc.runner_exec r m hd ∈ s2.threads q
        ∧ (s2.queues (QId.bucket m)).n_running = (s.queues (QId.bucket m)).n_running) := by
  simp only [fire_core] at h
  obtain ⟨_, _, e3, _⟩ := env_where env he
  have hleave : ∀ s1 : Engine, Same s s1 (fun _ => False) →
      (Pc.runner_fin r ∈ (((s1.setQ (QId.bucket m)
          { s1.queues (QId.bucket m) with
              n_running := (s1.queues (QId.bucket m)).n_running - 1 }).move q
            (Pc.runner r m stop) (Pc.runner_fin r))).threads q
        ∧ ((((s1.setQ (QId.bucket m)
          { s1.queues (QId.bucket m) with
              n_running := (s1.queues (QId.bucket m)).n_running - 1 }).move q
            (Pc.runner r m stop) (Pc.runner_fin r))).queues (QId.bucket m)).n_running
          = (s.queues (QId.bucket m)).n_running - 1) := by
    intro s1 hS
    constructor
    · simp [Engine.move]
    · simp [Engine.move, Engine.setQ, hS.run]
  split at h
  · next hmem =>
    simp only [runner_iter] at h
    split at h
    · simp only [Except.ok.injEq] at h
      subst h
      exact Or.inl (hleave s (Same.same_refl s _))
    · next hd hhead =>
      split at h
      · simp only [Except.ok.injEq] at h
        subst h
        exact Or.inl (hleave s (Same.same_refl s _))
      · split at h
        · next hst =>
          have hst2 : work_item_is_static (s.heap hd) = true := by
            simpa [work_item_is_static] using hst
          split at h
          · split at h
            · cases h
            · next r0 h1 Q1 hdr =>
              split at h
              · cases h
              · next s1 hex =>
                simp only [Except.ok.injEq] at h
                subst h
                have a := drain_same s (QId.bucket m) r0 h1 Q1 (fun x => x = hd) hdr
                obtain ⟨hpay, _, _⟩ := drain_ptr _ _ _ _ _ hdr
                have b := execute_static_same env _ hd s1
                  (by
                    rw [← hst2]
                    exact static_of_payload _ _ (hpay hd))
                  (by rw [(a.vt _).1]; exact hs.main_not_bucket) e3 hex
                exact Or.inl (hleave s1 ((a.same_trans b).same_absorb
                  (fun x hx => Or.inl ⟨QId.bucket m, by rw [hx]; exact hhead⟩)))
          · simp only [Except.ok.injEq] at h
            subst h
            exact Or.inl (hleave s (Same.same_refl s _))
        · split at h
          · cases h
          · next r0 h1 Q1 hdr =>
            simp only [Except.ok.injEq] at h
            subst h
            have a := drain_same s (QId.bucket m) r0 h1 Q1 (fun _ => False) hdr
            refine Or.inr ⟨hd, hhead, by simp [Engine.move], ?_⟩
            have := a.run (QId.bucket m)
            simpa [Engine.move] using this
  · cases h

/-- C11: in every reachable state the bucket at `QId.bucket m` has
`0 ≤ n_running`, and `n_running ≤ width` with `0 < width` once it is created.
The bucket has no thread of its own, and over any list of distinct queues the
threads that run the work of an item of the bucket are at most `n_running`,
hence at most `width`.  `prepare_executive_bucket` does nothing when
`width ≤ n_running`; below the width it either links the runner item at the
tail of the shared pool and adds one to `n_running`, or fails and leaves
`n_running` as it was.  Every step leaves the record of the bucket as it was,
raises `n_running` within the width, takes one off it while a runner leaves its
loop, or frees or creates the bucket with `n_running = 0`; a step of a runner
at the head of its loop either leaves the loop and takes one off `n_running`,
or takes the head item and leaves `n_running` as it was. -/
theorem bucket_running_within_width (s : Engine) (hr : Reachable s) (m : Nat) :
    0 ≤ (s.queues (QId.bucket m)).n_running
    ∧ ((s.queues (QId.bucket m)).vtable = some VTable.bucket →
        (s.queues (QId.bucket m)).n_running ≤ (s.queues (QId.bucket m)).width
          ∧ 0 < (s.queues (QId.bucket m)).width)
    ∧ s.threads (QId.bucket m) = []
    ∧ (∀ os : List QId, os.Nodup →
        (running_work s m os : Int) ≤ (s.queues (QId.bucket m)).n_running)
    ∧ (∀ os : List QId, os.Nodup → (s.queues (QId.bucket m)).vtable = some VTable.bucket →
        (running_work s m os : Int) ≤ (s.queues (QId.bucket m)).width)
    ∧ (∀ env, (s.queues (QId.bucket m)).width ≤ (s.queues (QId.bucket m)).n_running →
        prepare_executive_bucket env s (QId.bucket m) = .ok (0, s))
    ∧ (∀ env r s2, env.fresh s →
        (s.queues (QId.bucket m)).n_running < (s.queues (QId.bucket m)).width →
        prepare_executive_bucket env s (QId.bucket m) = .ok (r, s2) →
        (r = 0
          ∧ (s2.queues (QId.bucket m)).n_running = (s.queues (QId.bucket m)).n_running + 1
          ∧ ∃ x, env.runner = some x ∧ (s2.queues QId.concurrent).tail = some x
            ∧ payload (s2.heap x) = payload (runner_item (QId.bucket m)))
        ∨ (r < 0
          ∧ (s2.queues (QId.bucket m)).n_running = (s.queues (QId.bucket m)).n_running))
    ∧ (∀ st s2, fire s st = .ok s2 → BStep s s2 m)
    ∧ (∀ env q r stop s2, fire s (Step.runner_iter env q r m stop) = .ok s2 →
        (Pc.runner_fin r ∈ s2.threads q
          ∧ (s2.queues (QId.bucket m)).n_running = (s.queues (QId.bucket m)).n_running - 1)
        ∨ (∃ hd, (s.queues (QId.bucket m)).head = some hd
          ∧ Pc.runner_exec r m hd ∈ s2.threads q
          ∧ (s2.queues (QId.bucket m)).n_running = (s.queues (QId.bucket m)).n_running)) := by
  have hg := reachable_full s hr
  obtain ⟨own, ch, ⟨hs, hp, hh, hf⟩, hrun, hb⟩ := hg
  have hle := running_le hh hrun hb m
  have h0 : 0 ≤ (s.queues (QId.bucket m)).n_running := by
    have := hle [] List.nodup_nil
    have h2 : (0 : Int) ≤ (running_work s m [] : Int) := Int.ofNat_nonneg _
    omega
  refine ⟨h0, ?_, (hb.recs m).nothr, hle, ?_, ?_, ?_, ?_, ?_⟩
  · intro hv
    exact ⟨((hb.recs m).live hv).2, ((hb.recs m).live hv).1⟩
  · intro os hnd hv
    exact le_trans (hle os hnd) ((hb.recs m).live hv).2
  · intro env hw
    exact prepare_bucket_full env s _ hw
  · intro env r s2 he hlt h
    exact prepare_bucket_below env s _ r s2 (env_where env he).2.2.1 (fun e => by cases e) hlt h
  · intro st s2 h
    exact fire_bstep s (reachable_full s hr) st s2 h m
  · intro env q r stop s2 h
    obtain ⟨hfr, s1, h1, e⟩ := fire_env_core s (Step.runner_iter env q r m stop) s2 env rfl h
    rw [e]
    exact runner_iter_count hs env hfr q r m stop s1 h1

/-- Witness of `bucket_running_within_width`: in the state where a runner is
running the work of the single item of a bucket of width 2, `n_running` is 1,
one thread of the shared pool runs work of the bucket, and the bounds hold. -/
theorem bucket_running_within_width_witness :
    Reachable bucket_item_running
    ∧ (bucket_item_running.queues (QId.bucket 0)).vtable = some VTable.bucket
    ∧ (bucket_item_running.queues (QId.bucket 0)).width = 2
    ∧ (bucket_item_running.queues (QId.bucket 0)).n_running = 1
    ∧ bucket_item_running.threads QId.concurrent
        = [Pc.runner_exec (Ptr.node 1) 0 (Ptr.node 0)]
    ∧ running_work bucket_item_running 0 [QId.concurrent] = 1
    ∧ (running_work bucket_item_running 0 [QId.concurrent] : Int)
        ≤ (bucket_item_running.queues (QId.bucket 0)).n_running
    ∧ (bucket_item_running.queues (QId.bucket 0)).n_running
        ≤ (bucket_item_running.queues (QId.bucket 0)).width :=
  ⟨reachable_state_after _, by decide, by decide, by decide, by decide, by decide,
    (bucket_running_within_width bucket_item_running (reachable_state_after _) 0).2.2.2.1
      [QId.concurrent] (by decide),
    ((bucket_running_within_width bucket_item_running (reachable_state_after _) 0).2.1
      (by decide)).1⟩

/-! ## C22, C28, C29, C30: runs on which the code departs from the claim -/

/-- C22 (failing input): in the state `barrier_then_item` the queue satisfies
the structural invariant, with the list `[barrier, u1]`.  The eviction scan of a
rewind add stops at the `next` field of the barrier; unlinking the tail item
`u1` there leaves `head` at the barrier but `tail = NULL` (the fix-up
`q->tail = *link_start` reads the link after it was set to `u1->next`), so no
list satisfies the invariant any more; after the whole rewind add the queue
has `head = tail =` the new item, which is its only linked node, while
`n_items = 2`. -/
theorem unlink_tail_breaks_list_invariant :
    Chain barrier_then_item.heap (barrier_then_item.queues q0) [Ptr.ctl q0, Ptr.node 6]
    ∧ scan_normal barrier_then_item.heap (barrier_then_item.queues q0) 8 Link.head
        = Link.next (Ptr.ctl q0)
    ∧ unlink_behind_barrier.1 = some (Ptr.node 6)
    ∧ unlink_behind_barrier.2.2.head = some (Ptr.ctl q0)
    ∧ unlink_behind_barrier.2.2.tail = none
    ∧ unlink_behind_barrier.2.2.n_items = 1
    ∧ (¬ ∃ l, Chain unlink_behind_barrier.2.1 unlink_behind_barrier.2.2 l)
    ∧ (rewound_behind_barrier.queues q0).head = some (Ptr.node 8)
    ∧ (rewound_behind_barrier.queues q0).tail = some (Ptr.node 8)
    ∧ (rewound_behind_barrier.heap (Ptr.node 8)).next = none
    ∧ (rewound_behind_barrier.queues q0).n_items = 2
    ∧ ¬ ∃ l, Chain rewound_behind_barrier.heap (rewound_behind_barrier.queues q0) l := by
  have h4 : unlink_behind_barrier.2.2.head = some (Ptr.ctl q0) := by decide
  have h5 : unlink_behind_barrier.2.2.tail = none := by decide
  have h8 : (rewound_behind_barrier.queues q0).head = some (Ptr.node 8) := by decide
  have h10 : (rewound_behind_barrier.heap (Ptr.node 8)).next = none := by decide
  have h11 : (rewound_behind_barrier.queues q0).n_items = 2 := by decide
  refine ⟨⟨by decide, by decide, by decide, by decide⟩, by decide, by decide, h4, h5, by decide,
    ?_, h8, by decide, h10, h11, ?_⟩
  · rintro ⟨l, hl⟩
    have hseg := hl.seg
    have htail := hl.tail
    rw [h4] at hseg
    rw [h5] at htail
    cases l with
    | nil => cases hseg
    | cons a l => exact absurd htail.symm (by simp [List.getLast?_cons_cons, List.getLast?_eq_none_iff])
  · rintro ⟨l, hl⟩
    have hseg := hl.seg
    have hcount := hl.count
    rw [h8] at hseg
    rw [h11] at hcount
    cases l with
    | nil => cases hseg
    | cons a l =>
      simp only [Lseg] at hseg
      obtain ⟨e, hrest⟩ := hseg
      injection e with e
      rw [← e, h10] at hrest
      cases l with
      | nil => simp at hcount
      | cons b l => exact absurd hrest.1 (by simp)

/-- C28 (failing input): `work_queue_stop` on a private queue that has no
worker thread returns 0 with the control item still armed as a stop item,
though the item is linked in no list; the next `work_queue_unref`, which
drops the last reference, fails the assertion `q->item.work == NULL`, and so
does a following `work_queue_flush` or `work_queue_stop`.  The same happens
when `work_queue_stop` is called a second time after a first call has stopped
the worker. -/
theorem stop_leaves_control_item_armed :
    (log_view (run_steps Engine.boot run_stop_without_thread)
        = some [Event.flush_returned q0 0, Event.stop_returned q0 0]
      ∧ (stopped_without_thread.heap (Ptr.ctl q0)).work = some Fn.wq_stop
      ∧ stopped_without_thread.ctl q0 = CtlPc.idle
      ∧ queue_view (run_steps Engine.boot run_stop_without_thread) q0 = some ([], 0, 10, 0, 0)
      ∧ queue_view (run_steps Engine.boot run_stop_without_thread) QId.main
          = some ([], 0, 65535, 0, 0)
      ∧ (stopped_without_thread.queues q0).xref_cnt = 1
      ∧ fault_of (fire stopped_without_thread (Step.unref (env_at 4) q0))
          = some Fault.assert_failed
      ∧ fault_of (fire stopped_without_thread (Step.flush_begin q0))
          = some Fault.assert_failed
      ∧ fault_of (fire stopped_without_thread (Step.stop_begin q0))
          = some Fault.assert_failed)
    ∧ (fault_of (run_steps Engine.boot run_stop_twice) = none
      ∧ (stopped_twice.heap (Ptr.ctl q0)).work = some Fn.wq_stop
      ∧ stopped_twice.ctl q0 = CtlPc.idle
      ∧ queue_view (run_steps Engine.boot run_stop_twice) q0 = some ([], 0, 10, 0, 0)
      ∧ queue_view (run_steps Engine.boot run_stop_twice) QId.main
          = some ([], 0, 65535, 0, 0)
      ∧ (stopped_twice.queues q0).xref_cnt = 1
      ∧ fault_of (fire stopped_twice (Step.unref (env_at 24) q0))
          = some Fault.assert_failed) := by
  refine ⟨⟨?_, ?_, ?_, ?_, ?_, ?_, ?_, ?_, ?_⟩, ⟨?_, ?_, ?_, ?_, ?_, ?_, ?_⟩⟩ <;> decide

/-- C29 (failing input): a private queue of `maxsize` 1 whose single item is
running and whose flush barrier is queued is full (`n_items = 1 = maxsize`)
and links no user item.  `work_queue_add_rewind` in this state scans past the
barrier to the end of the list, unlinks nothing and reads `tmp->cancel` through
the NULL pointer. -/
theorem rewind_finds_no_user_item :
    fault_of (run_steps Engine.boot run_barrier_alone) = none
    ∧ queue_view (run_steps Engine.boot run_barrier_alone) q0
        = some ([Ptr.ctl q0], 1, 1, 1, 1)
    ∧ work_item_is_barrier (barrier_alone.heap (Ptr.ctl q0)) = true
    ∧ scan_normal barrier_alone.heap (barrier_alone.queues q0) 8 Link.head
        = Link.next (Ptr.ctl q0)
    ∧ (Link.next (Ptr.ctl q0)).get barrier_alone.heap (barrier_alone.queues q0) = none
    ∧ fault_of (fire barrier_alone
          (Step.add_rewind (env_at 6) (some q0) (some 1) (some 2) (some 3) (Data.user 1)))
        = some Fault.null_deref := by
  refine ⟨?_, ?_, ?_, ?_, ?_, ?_⟩ <;> decide

/-- C30 (failing input): on a bucket of width 1 the last runner finds the flush
barrier at the head with `n_running = 1`, executes it and leaves the loop,
though a user item is queued behind the barrier.  With the lock released the
bucket has `n_items = 1` and `n_running = 0`; no runner item is in the shared
pool, and once the thread of the runner has ended no thread is left. -/
theorem barrier_strands_items_behind_it :
    fault_of (run_steps Engine.boot run_runner_gone) = none
    ∧ queue_view (run_steps Engine.boot (run_barrier_before_item.take 9)) b0
        = some ([Ptr.ctl b0, Ptr.node 8], 2, 10, 1, 1)
    ∧ queue_view (run_steps Engine.boot run_barrier_before_item) b0
        = some ([Ptr.node 8], 1, 10, 0, 0)
    ∧ queue_view (run_steps Engine.boot run_barrier_before_item) QId.concurrent
        = some ([], 0, 65535, 1, 0)
    ∧ (state_after run_barrier_before_item).threads QId.concurrent
        = [Pc.runner_fin (Ptr.node 1)]
    ∧ queue_view (run_steps Engine.boot run_runner_gone) b0
        = some ([Ptr.node 8], 1, 10, 0, 0)
    ∧ queue_view (run_steps Engine.boot run_runner_gone) QId.concurrent
        = some ([], 0, 65535, 0, 0)
    ∧ (state_after run_runner_gone).threads QId.concurrent = [] := by
  refine ⟨?_, ?_, ?_, ?_, ?_, ?_, ?_, ?_⟩ <;> decide

/-- C23 (counterexample): on a full private queue (`n_items = 1 = maxsize`) that
has its worker thread (`n_threads = 1`), no attempt to create a thread is due,
and the add with `impose_maxsize` and without rewind returns `-EAGAIN`, a
negative value, whatever `pthread_create` would answer: the add fails though no
attempt to create a thread has failed. -/
theorem full_add_fails_without_thread_attempt :
    (full_queue.queues q0).vtable = some VTable.queue
    ∧ (full_queue.queues q0).n_threads = 1
    ∧ (full_queue.queues q0).n_items = 1
    ∧ (full_queue.queues q0).maxsize = 1
    ∧ ¬ attempt_condition (full_queue.queues q0)
    ∧ add_result (_work_queue_add_unlocked (env_at 2) full_queue q0 (Ptr.node 2) false true)
        = some (-EAGAIN)
    ∧ add_result (_work_queue_add_unlocked { env_at 2 with thread_create := 11 } full_queue q0
          (Ptr.node 2) false true)
        = some (-EAGAIN)
    ∧ add_result (work_queue_add (env_at 2) full_queue (some q0) (some 1) none none Data.null)
        = some (-EAGAIN)
    ∧ -EAGAIN < 0 := by
  refine ⟨?_, ?_, ?_, ?_, ?_, ?_, ?_, ?_, ?_⟩ <;> decide

/-! ## C24: the counters of the shared pool agree with its threads -/

theorem Eff0.kind_kept {v w : View} (h : Eff0 v w) :
    v.vtable ≠ some VTable.bucket → w.vtable ≠ some VTable.bucket := by
  induction h with
  | same v => exact id
  | spawn v hv hc => exact id
  | freed v hc => intro _; simp
  | init v hv => intro _; simp
  | trans a b c _ _ ih1 ih2 => exact fun h => ih2 (ih1 h)

theorem Eff0.keeps_threads {v w : View} (h : Eff0 v w) :
    ∀ pc, pc ∈ v.threads → pc ∈ w.threads := by
  induction h with
  | same v => exact fun _ h => h
  | spawn v hv hc => exact fun _ h => List.mem_cons_of_mem _ h
  | freed v hc => exact fun _ h => h
  | init v hv => exact fun _ h => h
  | trans a b c _ _ ih1 ih2 => exact fun pc h => ih2 pc (ih1 pc h)

theorem View.Count.count_eff0 {v w : View} (h : Eff0 v w) : v.Count → w.Count := by
  induction h with
  | same v => exact id
  | spawn v hv hc =>
    intro hok
    obtain ⟨hn, hr⟩ := hok.live hv
    refine ⟨hok.kind, fun h => by simp [hv] at h, fun _ => ⟨?_, ?_⟩⟩
    · simp [hn]
    · simp [hr, Pc.busy]
  | freed v hc =>
    intro hok
    refine ⟨by simp, fun _ => ?_, fun h => by simp at h⟩
    cases hv : v.vtable with
    | none => exact hok.dead hv
    | some vt =>
      cases vt with
      | queue =>
        obtain ⟨hn, _⟩ := hok.live hv
        have h0 : v.threads.length = 0 := by
          have := hc hv; rw [hn] at this; exact_mod_cast this
        exact List.length_eq_zero.1 h0
      | bucket => exact absurd hv hok.kind
  | init v hv =>
    intro hok
    have hnil := hok.dead hv
    exact ⟨by simp, fun h => by simp at h, fun _ => by simp [hnil]⟩
  | trans a b c _ _ ih1 ih2 => exact fun h => ih2 (ih1 h)

/-- Taking one thread out of a list. -/
theorem erase_counts (l : List Pc) (a : Pc) (hm : a ∈ l) :
    l.length = (l.erase a).length + 1
      ∧ l.countP Pc.busy = (l.erase a).countP Pc.busy + (if a.busy = true then 1 else 0) := by
  have hp := List.perm_cons_erase hm
  constructor
  · rw [hp.length_eq, List.length_cons]
  · rw [hp.countP_eq, List.countP_cons]

theorem add_item_eff2 (env : Env) (s : Engine) (q : QId) (do_rewind : Bool) (w : Nat)
    (notify cancel : Option Nat) (data : Data) (o : QId) (r : Int) (s2 : Engine)
    (hk : (s.queues o).vtable ≠ some VTable.bucket)
    (h : add_item env s q do_rewind w notify cancel data = .ok (r, s2)) :
    Eff0 (view s o) (view s2 o) := by
  simp only [add_item] at h
  split at h
  · cases h
  · next s1 href =>
    have hq1 := work_queue_ref_quiet s q s1 href
    split at h
    · cases h
    · next r4 s4 hres =>
      have he4 : Eff0 (view s o) (view s4 o) := by
        split at hres
        · simp only [Except.ok.injEq, Prod.mk.injEq] at hres
          rw [← hres.2]; exact hq1.quiet_eff0 o
        · next item _ =>
          split at hres
          · cases hres
          · next r3 s3 hadd =>
            have hq2 := Quiet.quiet_trans hq1 (Quiet.setItem s1 item
              { work := some (Fn.user w), notify := notify.map Fn.user,
                cancel := cancel.map Fn.user, data := data, next := none })
            have he3 := Eff0.of_quiet_left o hq2
              (add_unlocked_eff env _ q item do_rewind true o r3 s3 (hq2.kind o hk) hadd)
            split at hres
            · simp only [Except.ok.injEq, Prod.mk.injEq] at hres
              rw [← hres.2]
              exact Eff0.of_quiet_right o he3 ⟨fun _ => SameCtr.same_ctr_refl _, rfl⟩
            · simp only [Except.ok.injEq, Prod.mk.injEq] at hres
              rw [← hres.2]; exact he3
      split at h
      · cases h
      · next s5 hun =>
        simp only [Except.ok.injEq, Prod.mk.injEq] at h
        rw [← h.2]
        exact Eff0.trans _ _ _ he4
          (work_queue_unref_eff env s4 q o s5 (he4.kind_kept hk) hun)

theorem work_queue_add_rewind_eff2 (env : Env) (s : Engine) (q : Option QId)
    (w notify cancel : Option Nat) (data : Data) (o : QId) (r : Int) (s2 : Engine)
    (hk : (s.queues o).vtable ≠ some VTable.bucket)
    (h : work_queue_add_rewind env s q w notify cancel data = .ok (r, s2)) :
    Eff0 (view s o) (view s2 o) := by
  simp only [work_queue_add_rewind] at h
  split at h
  · cases h
  · split at h
    · cases h
    · split at h
      · cases h
      · exact add_item_eff2 env s _ true _ notify cancel data o r s2 hk h

theorem work_item_execute_eff2 (env : Env) (s : Engine) (item : Ptr) (do_notify : Bool)
    (o : QId) (s1 : Engine) (hk : (s.queues o).vtable ≠ some VTable.bucket)
    (h : work_item_execute env s item do_notify = .ok s1) : Eff0 (view s o) (view s1 o) := by
  simp only [work_item_execute] at h
  split at h
  · split at h
    · cases h
    · next f _ =>
      split at h
      · cases h
      · next s2 hcall =>
        simp only [Except.ok.injEq] at h
        rw [← h]
        have := call_fn_eff _ f _ o s2 hcall
        exact this
  · split at h
    · cases h
    · next f _ =>
      split at h
      · cases h
      · next s2 hcall =>
        have he := call_fn_eff _ f _ o s2 hcall
        have he2 : Eff0 (view s o) (view s2 o) := he
        exact Eff0.trans _ _ _ he2
          (work_item_finish_eff env s2 item _ o s1 (he2.kind_kept hk) h)

theorem run_begin_eff2 (env : Env) (s : Engine) (q o : QId) (ran : Ran) (s1 : Engine)
    (hk : (s.queues o).vtable ≠ some VTable.bucket) (h : run_begin env s q = .ok (ran, s1)) :
    (∀ r, ran = Ran.ret r → Eff0 (view s o) (view s1 o))
    ∧ (∀ p, ran = Ran.took p →
        if q = o then view s1 o = { view s o with n_running := (view s o).n_running + 1 }
        else view s1 o = view s o) := by
  simp only [run_begin] at h
  split at h
  · simp only [Except.ok.injEq, Prod.mk.injEq] at h
    rw [← h.1, ← h.2]
    exact ⟨fun _ _ => Eff0.same _, fun p hp => by cases hp⟩
  · next hd hhead =>
    split at h
    · simp only [Except.ok.injEq, Prod.mk.injEq] at h
      rw [← h.1, ← h.2]
      exact ⟨fun _ _ => Eff0.same _, fun p hp => by cases hp⟩
    · split at h
      · split at h
        · simp only [Except.ok.injEq, Prod.mk.injEq] at h
          rw [← h.1, ← h.2]
          exact ⟨fun _ _ => Eff0.same _, fun p hp => by cases hp⟩
        · split at h
          · cases h
          · next x h1 Q1 hdr =>
            split at h
            · cases h
            · next s2 hex =>
              simp only [Except.ok.injEq, Prod.mk.injEq] at h
              rw [← h.1, ← h.2]
              have hq : Quiet s { s with heap := h1, queues := Function.update s.queues q Q1 } :=
                Quiet.of_list q h1 Q1 s.log (drain_ctr _ _ _ _ _ hdr)
              refine ⟨fun _ _ => ?_, fun p hp => by cases hp⟩
              exact Eff0.of_quiet_left o hq (work_item_execute_eff2 env _ hd _ o s2
                (hq.kind o hk) hex)
      · split at h
        · split at h
          · cases h
          · next x h1 Q1 hdr =>
            split at h
            · cases h
            · next s2 hex =>
              simp only [Except.ok.injEq, Prod.mk.injEq] at h
              rw [← h.1, ← h.2]
              have hq : Quiet s { s with heap := h1, queues := Function.update s.queues q Q1 } :=
                Quiet.of_list q h1 Q1 s.log (drain_ctr _ _ _ _ _ hdr)
              refine ⟨fun _ _ => ?_, fun p hp => by cases hp⟩
              exact Eff0.of_quiet_left o hq (work_item_execute_eff2 env _ hd _ o s2
                (hq.kind o hk) hex)
        · split at h
          · cases h
          · next x h1 Q1 hdr =>
            simp only [Except.ok.injEq, Prod.mk.injEq] at h
            rw [← h.1, ← h.2]
            obtain ⟨c1, c2, c3, c4⟩ := drain_ctr _ _ _ _ _ hdr
            refine ⟨fun r hr => (by cases hr), fun p _ => ?_⟩
            by_cases hqo : q = o
            · subst hqo
              simp [view, c1, c2, c3, c4]
            · simp [view, hqo, Function.update_noteq (Ne.symm hqo)]

theorem run_end_eff2 (env : Env) (s : Engine) (q o : QId) (p : Ptr) (s1 : Engine)
    (hqo : q ≠ o) (hk : (s.queues o).vtable ≠ some VTable.bucket)
    (h : run_end env s q p = .ok s1) : Eff0 (view s o) (view s1 o) := by
  simp only [run_end] at h
  split at h
  · cases h
  · next s2 hex =>
    simp only [Except.ok.injEq] at h
    rw [← h]
    have he := work_item_execute_eff2 env s p _ o s2 hk hex
    have : view (s2.setQ q { s2.queues q with n_running := (s2.queues q).n_running - 1 }) o
        = view s2 o := by
      simp [view, Engine.setQ, Function.update_noteq (Ne.symm hqo)]
    rw [this]
    exact he

theorem flush_iter_eff2 (env : Env) (s : Engine) (q : QId) (in_stop : Bool) (o : QId)
    (s2 : Engine) (hk : (s.queues o).vtable ≠ some VTable.bucket)
    (h : flush_iter env s q in_stop = .ok s2) : Eff0 (view s o) (view s2 o) := by
  simp only [flush_iter] at h
  split at h
  · exact flush_exit_eff env s q in_stop 0 o s2 hk h
  · split at h
    · cases h
    · next r s1 ha =>
      have he := add_unlocked_eff env s q _ false false o r s1 hk ha
      split at h
      · exact Eff0.trans _ _ _ he (flush_exit_eff env s1 q in_stop r o s2 (he.kind_kept hk) h)
      · simp only [Except.ok.injEq] at h
        rw [← h]
        exact he

theorem stop_body_eff2 (env : Env) (s : Engine) (q : QId) (r : Int) (o : QId)
    (s2 : Engine) (hk : (s.queues o).vtable ≠ some VTable.bucket)
    (h : stop_body env s q r = .ok s2) : Eff0 (view s o) (view s2 o) := by
  simp only [stop_body] at h
  split at h
  · exact stop_out_eff env s q r o s2 hk h
  · split at h
    · split at h
      · split at h
        · have he := fun hk0 => stop_out_eff env _ q r o s2 hk0 h
          exact he hk
        · split at h
          · cases h
          · next r1 s1 ha =>
            have he0 := fun hk0 => add_unlocked_eff env _ q _ false false o r1 s1 hk0 ha
            have he : Eff0 (view s o) (view s1 o) := he0 hk
            split at h
            · exact Eff0.trans _ _ _ he (stop_out_eff env s1 q r1 o s2 (he.kind_kept hk) h)
            · simp only [Except.ok.injEq] at h
              rw [← h]
              exact he
      · cases h
    · exact stop_out_eff env s q r o s2 hk h

theorem View.Count.moved {v : View} (hc : v.Count) (old new : Pc) (hm : old ∈ v.threads)
    (hb : old.busy = new.busy) :
    View.Count { v with threads := new :: v.threads.erase old } := by
  obtain ⟨hl, hp⟩ := erase_counts v.threads old hm
  refine ⟨hc.kind, fun hv => ?_, fun hv => ?_⟩
  · have := hc.dead hv
    rw [this] at hm
    simp at hm
  · obtain ⟨hn, hr⟩ := hc.live hv
    refine ⟨?_, ?_⟩
    · show v.n_threads = ((new :: v.threads.erase old).length : Int)
      rw [hn, hl, List.length_cons]
    · show v.n_running = (((new :: v.threads.erase old).countP Pc.busy : Nat) : Int)
      rw [hr, hp, List.countP_cons, hb]

theorem View.Count.took {v : View} (hc : v.Count) (new : Pc) (hm : Pc.wait ∈ v.threads)
    (hb : new.busy = true) :
    View.Count { v with n_running := v.n_running + 1,
                        threads := new :: v.threads.erase Pc.wait } := by
  obtain ⟨hl, hp⟩ := erase_counts v.threads Pc.wait hm
  refine ⟨hc.kind, fun hv => ?_, fun hv => ?_⟩
  · have := hc.dead hv
    rw [this] at hm
    simp at hm
  · obtain ⟨hn, hr⟩ := hc.live hv
    refine ⟨?_, ?_⟩
    · show v.n_threads = ((new :: v.threads.erase Pc.wait).length : Int)
      rw [hn, hl, List.length_cons]
    · show v.n_running + 1 = (((new :: v.threads.erase Pc.wait).countP Pc.busy : Nat) : Int)
      rw [hr, hp, List.countP_cons, hb]
      simp [Pc.busy]

theorem View.Count.relocked {v : View} (hc : v.Count) (old : Pc) (hm : old ∈ v.threads)
    (hb : old.busy = true) :
    View.Count { v with n_running := v.n_running - 1,
                        threads := Pc.wait :: v.threads.erase old } := by
  obtain ⟨hl, hp⟩ := erase_counts v.threads old hm
  refine ⟨hc.kind, fun hv => ?_, fun hv => ?_⟩
  · have := hc.dead hv
    rw [this] at hm
    simp at hm
  · obtain ⟨hn, hr⟩ := hc.live hv
    refine ⟨?_, ?_⟩
    · show v.n_threads = ((Pc.wait :: v.threads.erase old).length : Int)
      rw [hn, hl, List.length_cons]
    · show v.n_running - 1 = (((Pc.wait :: v.threads.erase old).countP Pc.busy : Nat) : Int)
      rw [hr, hp, List.countP_cons, hb]
      simp [Pc.busy]

theorem View.Count.exited {v : View} (hc : v.Count) (hm : Pc.wait ∈ v.threads) :
    View.Count { v with n_threads := v.n_threads - 1,
                        threads := v.threads.erase Pc.wait } := by
  obtain ⟨hl, hp⟩ := erase_counts v.threads Pc.wait hm
  refine ⟨hc.kind, fun hv => ?_, fun hv => ?_⟩
  · have := hc.dead hv
    rw [this] at hm
    simp at hm
  · obtain ⟨hn, hr⟩ := hc.live hv
    refine ⟨?_, ?_⟩
    · show v.n_threads - 1 = ((v.threads.erase Pc.wait).length : Int)
      rw [hn, hl]
      simp
    · show v.n_running = (((v.threads.erase Pc.wait).countP Pc.busy : Nat) : Int)
      rw [hr, hp]
      simp [Pc.busy]

/-- A thread of `q` runs code with the effect `Eff0` and goes on as before,
holding an item or not. -/
theorem count_then_move {s s1 : Engine} (q o : QId) (old new : Pc) (hc : (view s o).Count)
    (he : Eff0 (view s o) (view s1 o)) (hm : old ∈ s.threads q) (hb : old.busy = new.busy) :
    (view (s1.move q old new) o).Count := by
  have c1 := hc.count_eff0 he
  by_cases hqo : q = o
  · subst hqo
    rw [move_view_eq]
    exact c1.moved old new (he.keeps_threads old hm) hb
  · rw [move_view_ne _ _ _ _ _ hqo]
    exact c1

theorem init_global_once_count (s : Engine) (o : QId) (hm : o ≠ QId.main)
    (hc : (view s o).Count)
    (hb : s.initialized = false →
      (s.queues QId.concurrent).vtable = none ∧ (s.queues QId.main).vtable = none) :
    (view (init_global_once s) o).Count := by
  by_cases h1 : o = QId.concurrent
  · subst h1
    simp only [init_global_once]
    split
    · exact hc
    · next hi =>
      have hi0 : s.initialized = false := by simpa using hi
      obtain ⟨b1, _⟩ := hb hi0
      have hnil : s.threads QId.concurrent = [] := hc.dead b1
      refine ⟨?_, ?_, ?_⟩ <;>
        simp [view, Engine.setQ, _work_queue_init, Engine.setItem, WorkQueue.zero, hnil]
  · rw [init_global_once_view s o h1 hm]
    exact hc

theorem worker_run_pool (env : Env) (s : Engine) (q o : QId) (s2 : Engine)
    (hc : (view s o).Count) (hm : Pc.wait ∈ s.threads q)
    (h : worker_run env s q = .ok s2) : (view s2 o).Count := by
  simp only [worker_run] at h
  split at h
  · cases h
  · next r s1 hb =>
    have he := (run_begin_eff2 env s q o _ s1 hc.kind hb).1 r rfl
    have c1 := hc.count_eff0 he
    split at h
    · simp only [Except.ok.injEq] at h
      rw [← h]
      by_cases hqo : q = o
      · subst hqo
        have e : view (thread_exit s1 q) q
            = { view s1 q with n_threads := (view s1 q).n_threads - 1,
                               threads := (view s1 q).threads.erase Pc.wait } := by
          simp [view, thread_exit]
        rw [e]
        exact c1.exited (he.keeps_threads _ hm)
      · have e : view (thread_exit s1 q) o = view s1 o := by
          simp [view, thread_exit, Function.update_noteq (Ne.symm hqo)]
        rw [e]
        exact c1
    · simp only [Except.ok.injEq] at h
      rw [← h]
      exact c1
  · next p s1 hb =>
    have he := (run_begin_eff2 env s q o _ s1 hc.kind hb).2 p rfl
    simp only [Except.ok.injEq] at h
    rw [← h]
    by_cases hqo : q = o
    · subst hqo
      simp only [if_true] at he
      rw [move_view_eq, he]
      exact hc.took (Pc.exec p) hm rfl
    · simp only [hqo, if_false] at he
      rw [move_view_ne _ _ _ _ _ hqo, he]
      exact hc

theorem runner_iter_pool (env : Env) (s : Engine) (q : QId) (r : Ptr) (m : Nat) (stop : Bool)
    (o : QId) (s2 : Engine) (hbo : QId.bucket m ≠ o) (hc : (view s o).Count)
    (hm : Pc.runner r m stop ∈ s.threads q)
    (h : runner_iter env s q r m stop = .ok s2) : (view s2 o).Count := by
  have leave : ∀ s1 : Engine, Eff0 (view s o) (view s1 o) →
      (view ((s1.setQ (QId.bucket m) { s1.queues (QId.bucket m) with
            n_running := (s1.queues (QId.bucket m)).n_running - 1 }).move q
          (Pc.runner r m stop) (Pc.runner_fin r)) o).Count := by
    intro s1 he
    refine count_then_move q _ _ _ hc ?_ hm rfl
    rw [setQ_view_ne _ _ _ _ hbo]
    exact he
  simp only [runner_iter] at h
  split at h
  · simp only [Except.ok.injEq] at h
    rw [← h]
    exact leave s (Eff0.same _)
  · next hd hhead =>
    split at h
    · simp only [Except.ok.injEq] at h
      rw [← h]
      exact leave s (Eff0.same _)
    · split at h
      · split at h
        · split at h
          · cases h
          · next x h1 Q1 hdr =>
            split at h
            · cases h
            · next s3 hex =>
              simp only [Except.ok.injEq] at h
              rw [← h]
              have hq : Quiet s
                  { s with heap := h1, queues := Function.update s.queues (QId.bucket m) Q1 } :=
                Quiet.of_list (QId.bucket m) h1 Q1 s.log (drain_ctr _ _ _ _ _ hdr)
              exact leave s3 (Eff0.of_quiet_left _ hq (work_item_execute_eff2 env _ hd _ _ s3
                (hq.kind o hc.kind) hex))
        · simp only [Except.ok.injEq] at h
          rw [← h]
          exact leave s (Eff0.same _)
      · split at h
        · cases h
        · next x h1 Q1 hdr =>
          simp only [Except.ok.injEq] at h
          rw [← h]
          have hq : Quiet s
              { s with heap := h1, queues := Function.update s.queues (QId.bucket m) Q1 } :=
            Quiet.of_list (QId.bucket m) h1 Q1 s.log (drain_ctr _ _ _ _ _ hdr)
          exact count_then_move q _ _ _ hc (hq.quiet_eff0 _) hm rfl

/-- One step keeps the counters of the shared pool in agreement with its
threads. -/
theorem fire_core_pool (s : Engine) (st : Step) (s2 : Engine)
    (hc : (view s QId.concurrent).Count)
    (hb : s.initialized = false →
      (s.queues QId.concurrent).vtable = none ∧ (s.queues QId.main).vtable = none)
    (h : fire_core s st = .ok s2) : (view s2 QId.concurrent).Count := by
  have hk := hc.kind
  have hi := init_global_once_count s QId.concurrent (by simp) hc hb
  cases st with
  | new_queue m maxsize =>
    simp only [fire_core] at h
    split at h
    · simp only [work_queue_new] at h
      split at h
      · simp only [Except.ok.injEq] at h
        rw [← h]
        have hne : QId.concurrent ≠ QId.queue m := by simp
        have e : ∀ (s0 : Engine) (Q : WorkQueue) (l : List QId),
            view { ((_work_queue_init s0 (QId.queue m) VTable.queue).setQ (QId.queue m) Q) with
              private_queues := l } QId.concurrent = view s0 QId.concurrent := by
          intro s0 Q l
          simp [view, Engine.setQ, _work_queue_init, Engine.setItem, Function.update_noteq hne]
        rw [e]
        exact hi
      · cases h
    · cases h
  | new_bucket m maxsize width =>
    simp only [fire_core] at h
    split at h
    · simp only [work_bucket_new] at h
      split at h
      · split at h
        · simp only [Except.ok.injEq] at h
          rw [← h]
          have hne : QId.concurrent ≠ QId.bucket m := by simp
          have e : ∀ (s0 : Engine) (Q : WorkQueue) (l : List QId),
              view { ((_work_queue_init s0 (QId.bucket m) VTable.bucket).setQ (QId.bucket m) Q) with
                buckets := l } QId.concurrent = view s0 QId.concurrent := by
            intro s0 Q l
            simp [view, Engine.setQ, _work_queue_init, Engine.setItem, Function.update_noteq hne]
          rw [e]
          exact hi
        · cases h
      · cases h
    · cases h
  | set_destroy_notify env q f ctx =>
    exact hc.count_eff0 (work_queue_set_destroy_notify_eff env s q f ctx _ s2 hk h)
  | ref q =>
    exact hc.count_eff0 ((work_queue_ref_quiet s q s2 h).quiet_eff0 _)
  | unref env q =>
    exact hc.count_eff0 (work_queue_unref_eff env s q _ s2 hk h)
  | add env q work notify cancel data =>
    simp only [fire_core] at h
    split at h
    · cases h
    · split at h
      · cases h
      · next r s1 ha =>
        simp only [Except.ok.injEq] at h
        rw [← h]
        simp only [work_queue_add] at ha
        split at ha
        · cases ha
        · split at ha
          · exact hi.count_eff0 (add_item_eff2 env (init_global_once s) QId.concurrent false _
              notify cancel data _ r s1 hi.kind ha)
          · exact hc.count_eff0 (add_item_eff2 env s _ false _ notify cancel data _ r s1 hk ha)
  | add_rewind env q work notify cancel data =>
    simp only [fire_core] at h
    split at h
    · cases h
    · next r s1 ha =>
      simp only [Except.ok.injEq] at h
      rw [← h]
      exact hc.count_eff0 (work_queue_add_rewind_eff2 env s q work notify cancel data _ r s1 hk ha)
  | flush_begin q =>
    simp only [fire_core] at h
    split at h
    · exact hc.count_eff0 ((flush_begin_quiet s q false s2 h).quiet_eff0 _)
    · cases h
  | flush_iter env q =>
    simp only [fire_core] at h
    split at h
    · exact hc.count_eff0 (flush_iter_eff2 env s q _ _ s2 hk h)
    · cases h
  | flush_wake q =>
    simp only [fire_core] at h
    split at h
    · split at h
      · simp only [Except.ok.injEq] at h
        rw [← h]
        exact hc
      · cases h
    · cases h
  | stop_begin q =>
    simp only [fire_core] at h
    split at h
    · split at h
      · cases h
      · split at h
        · cases h
        · next s1 hr =>
          exact hc.count_eff0 (((work_queue_ref_quiet s q s1 hr).quiet_trans
            (flush_begin_quiet s1 q true s2 h)).quiet_eff0 _)
    · cases h
  | stop_body env q =>
    simp only [fire_core] at h
    split at h
    · exact hc.count_eff0 (stop_body_eff2 env s q _ _ s2 hk h)
    · cases h
  | stop_wake env q =>
    simp only [fire_core] at h
    split at h
    · split at h
      · exact hc.count_eff0 (stop_out_eff env (s.setItem (Ptr.ctl q) WorkItem.zero) q 0 _ s2
          hk h)
      · cases h
    · cases h
  | main_run env =>
    simp only [fire_core] at h
    split at h
    · cases h
    · next r s1 hbg =>
      simp only [Except.ok.injEq] at h
      rw [← h]
      exact hc.count_eff0 ((run_begin_eff2 env s QId.main _ _ s1 hk hbg).1 r rfl)
    · next p s1 hbg =>
      simp only [Except.ok.injEq] at h
      rw [← h]
      have he := (run_begin_eff2 env s QId.main QId.concurrent _ s1 hk hbg).2 p rfl
      simp only [reduceCtorEq, if_false] at he
      have e : view { s1 with main_stack := p :: s1.main_stack } QId.concurrent
          = view s1 QId.concurrent := rfl
      rw [e, he]
      exact hc
  | main_done env =>
    simp only [fire_core] at h
    split at h
    · cases h
    · next p rest hst =>
      split at h
      · cases h
      · next s1 he =>
        simp only [Except.ok.injEq] at h
        rw [← h]
        exact hc.count_eff0 (run_end_eff2 env s QId.main _ p s1 (by simp) hk he)
  | worker_run env q =>
    simp only [fire_core] at h
    split at h
    · next hm => exact worker_run_pool env s q _ s2 hc hm h
    · cases h
  | worker_work env q p =>
    simp only [fire_core] at h
    split at h
    · next hm =>
      split at h
      · cases h
      · next s1 hex =>
        simp only [Except.ok.injEq] at h
        rw [← h]
        exact count_then_move q _ _ _ hc (work_item_execute_eff2 env s p _ _ s1 hk hex)
          hm.1 rfl
    · cases h
  | worker_relock q =>
    simp only [fire_core] at h
    split at h
    · next hm =>
      simp only [Except.ok.injEq] at h
      rw [← h]
      by_cases hqo : q = QId.concurrent
      · subst hqo
        rw [move_view_eq]
        have e : view (s.setQ QId.concurrent { s.queues QId.concurrent with
              n_running := (s.queues QId.concurrent).n_running - 1 }) QId.concurrent
            = { view s QId.concurrent with
                n_running := (view s QId.concurrent).n_running - 1 } := by
          simp [view, Engine.setQ]
        rw [e]
        exact hc.relocked _ hm rfl
      · rw [move_view_ne _ _ _ _ _ hqo, setQ_view_ne _ _ _ _ hqo]
        exact hc
    · cases h
  | runner_enter q r b =>
    simp only [fire_core] at h
    split at h
    · next hm =>
      simp only [Except.ok.injEq] at h
      rw [← h]
      exact count_then_move q _ _ _ hc (Eff0.same _) hm.1 rfl
    · cases h
  | runner_iter env q r b stop =>
    simp only [fire_core] at h
    split at h
    · next hm => exact runner_iter_pool env s q r b stop _ s2 (by simp) hc hm h
    · cases h
  | runner_work env q r b p =>
    simp only [fire_core] at h
    split at h
    · next hm =>
      split at h
      · cases h
      · next s1 hex =>
        simp only [Except.ok.injEq] at h
        rw [← h]
        exact count_then_move q _ _ _ hc (work_item_execute_eff2 env s p _ _ s1 hk hex)
          hm rfl
    · cases h
  | runner_return env q r =>
    simp only [fire_core] at h
    split at h
    · next hm =>
      split at h
      · cases h
      · next s1 hex =>
        simp only [Except.ok.injEq] at h
        rw [← h]
        exact count_then_move q _ _ _ hc (work_item_finish_eff env s r _ _ s1 hk hex)
          hm rfl
    · cases h

theorem fire_pool (s : Engine) (st : Step) (s2 : Engine)
    (hc : (view s QId.concurrent).Count)
    (hb : s.initialized = false →
      (s.queues QId.concurrent).vtable = none ∧ (s.queues QId.main).vtable = none)
    (h : fire s st = .ok s2) : (view s2 QId.concurrent).Count := by
  simp only [fire] at h
  split at h
  · exact fire_core_pool s st s2 hc hb h
  · split at h
    · split at h
      · cases h
      · next s1 hf =>
        simp only [Except.ok.injEq] at h
        rw [← h]
        exact fire_core_pool s st s1 hc hb hf
    · cases h

/-- In every reachable state `n_threads` of the shared pool is the number of
its threads and `n_running` the number of those that hold an item. -/
theorem reachable_pool_count (s : Engine) (hr : Reachable s) :
    (view s QId.concurrent).Count := by
  induction hr with
  | boot =>
    refine ⟨?_, fun _ => rfl, fun h => ?_⟩
    · simp [view, Engine.boot, WorkQueue.zero]
    · simp [view, Engine.boot, WorkQueue.zero] at h
  | step s s2 st hr0 hf ih =>
    obtain ⟨own, ch, hinv, _⟩ := reachable_good s hr0
    exact fire_pool s st s2 ih hinv.shape.boot hf

/-- With `n_running <= 0` every thread of the queue waits for the lock. -/
theorem View.Count.all_wait {v : View} (hc : v.Count) (h0 : v.n_running ≤ 0) :
    ∀ pc, pc ∈ v.threads → pc = Pc.wait := by
  intro pc hpc
  cases hv : v.vtable with
  | none =>
    rw [hc.dead hv] at hpc
    cases hpc
  | some vt =>
    cases vt with
    | bucket => exact absurd hv hc.kind
    | queue =>
      obtain ⟨_, hrn⟩ := hc.live hv
      have h1 : v.threads.countP Pc.busy = 0 := by
        have : (0 : Int) ≤ (v.threads.countP Pc.busy : Nat) := Int.ofNat_nonneg _
        omega
      have := (List.countP_eq_zero.1 h1) pc hpc
      cases pc <;> simp [Pc.busy] at this ⊢

/-! ## C26: handing a finished item to the main queue -/

/-- A queue that has a thread and is at its width gets no further thread,
whatever `pthread_create` would answer. -/
theorem more_thread_no_attempt (env : Env) (s : Engine) (q : QId)
    (h0 : (s.queues q).n_threads ≠ 0) (hw : (s.queues q).width ≤ (s.queues q).n_threads) :
    _more_thread_unlocked env s q = (1, s) := by
  simp only [_more_thread_unlocked]
  rw [if_neg]
  rintro (h | h)
  · exact h0 h
  · simp only [Bool.and_eq_true, decide_eq_true_eq] at h
    omega

/-- The add that `work_item_execute` makes on the main queue. -/
theorem main_requeue_core (env : Env) (s : Engine) (item : Ptr)
    (hv : (s.queues QId.main).vtable = some VTable.queue)
    (hn : (s.queues QId.main).n_threads = 1) (hw : (s.queues QId.main).width = 1) :
    _work_queue_add env s QId.main item false false
      = .ok (0, { s with
          heap := (_work_queue_add_tail_unlocked s.heap (s.queues QId.main) item).1,
          queues := Function.update s.queues QId.main
            (_work_queue_add_tail_unlocked s.heap (s.queues QId.main) item).2 }) := by
  have hm : _more_thread_unlocked env s QId.main = (1, s) :=
    more_thread_no_attempt env s QId.main (by rw [hn]; decide) (by rw [hn, hw])
  simp [_work_queue_add, _work_queue_add_unlocked, add_unlocked_with, prepare_executive, hv,
    prepare_executive_queue, hm]

/-- C26: on a main queue as `init_global_once` leaves it (`&queue_vtable`,
`n_threads = 1 = width`), whatever its `n_items` and `maxsize` are, the add
`_work_queue_add (&g.main_queue, item, false, false)` returns 0 and puts the
item at the tail: the list grows by the item, `n_items` by one, and the
payload of every item stays.  The result is the same whatever
`pthread_create` would answer: no thread is created and `n_threads = 1 = width`
stays.  So `work_item_execute` after the work of an item with a notifier never
fails its assertion.  In every state the engine can reach, an initialised main
queue is of this kind. -/
theorem main_requeue_always_succeeds :
    (∀ (s : Engine) (env : Env) (item : Ptr),
      (s.queues QId.main).vtable = some VTable.queue →
      (s.queues QId.main).n_threads = 1 → (s.queues QId.main).width = 1 →
      ∃ s2 : Engine,
        (∀ env2 : Env, _work_queue_add env2 s QId.main item false false = .ok (0, s2))
        ∧ (s2.queues QId.main).tail = some item
        ∧ (s2.queues QId.main).n_items = (s.queues QId.main).n_items + 1
        ∧ (s2.queues QId.main).n_threads = 1 ∧ (s2.queues QId.main).width = 1
        ∧ s2.threads = s.threads
        ∧ (∀ o, o ≠ QId.main → s2.queues o = s.queues o)
        ∧ (∀ x, payload (s2.heap x) = payload (s.heap x))
        ∧ (∀ l, Chain s.heap (s.queues QId.main) l → item ∉ l →
            Chain s2.heap (s2.queues QId.main) (l ++ [item]))
        ∧ ((s.heap item).notify ≠ none →
            ∀ need_free, work_item_finish env s item need_free = .ok s2))
    ∧ (∀ s : Engine, Reachable s → (s.queues QId.main).vtable ≠ none →
        (s.queues QId.main).vtable = some VTable.queue
        ∧ (s.queues QId.main).n_threads = 1 ∧ (s.queues QId.main).width = 1) := by
  constructor
  · intro s env item hv hn hw
    obtain ⟨hd, hQ⟩ := add_tail_fields s.heap (s.queues QId.main) item
    refine ⟨_, fun env2 => main_requeue_core env2 s item hv hn hw, ?_, ?_, ?_, ?_, rfl, ?_, ?_,
      ?_, ?_⟩
    · simp [hQ]
    · simp [hQ]
    · simp [hQ, hn]
    · simp [hQ, hw]
    · intro o ho
      simp [Function.update_noteq ho]
    · intro x
      exact add_tail_payload _ _ _ _
    · intro l hl hni
      simpa using add_tail_chain s.heap (s.queues QId.main) l item hl hni
    · intro hnot need_free
      have hs : (s.heap item).notify.isSome = true := by
        cases hx : (s.heap item).notify with
        | none => exact absurd hx hnot
        | some _ => rfl
      simp only [work_item_finish, hs, if_true, main_requeue_core env s item hv hn hw]
  · intro s hr hi
    obtain ⟨own, ch, ⟨hs, _, _, _⟩, _⟩ := reachable_good s hr
    rcases hs.mainq with h | h
    · exact absurd h hi
    · exact h

/-! ## C27: what `work_item_execute` calls and frees -/

/-- A function other than the engine's `set_bool` and `_work_queue_free` leaves
the engine as it is. -/
theorem call_fn_plain (s : Engine) (f : Fn) (d : Data) (h1 : f ≠ Fn.set_bool)
    (h2 : f ≠ Fn.work_queue_free) : call_fn s f d = .ok s := by
  cases f <;> first | rfl | exact absurd rfl h1 | exact absurd rfl h2

/-- The call `work_item_execute (item, false)` on an item whose work is not
one of the engine's `set_bool` and `_work_queue_free`. -/
theorem execute_work_eq (env : Env) (s : Engine) (item : Ptr) (f : Fn)
    (hf : (s.heap item).work = some f) (h1 : f ≠ Fn.set_bool) (h2 : f ≠ Fn.work_queue_free) :
    work_item_execute env s item false
      = work_item_finish env (s.emit (Event.work f (s.heap item).data item)) item
          (!work_item_is_static (s.heap item)) := by
  simp only [work_item_execute, Bool.false_eq_true, if_false, hf,
    call_fn_plain (s.emit (Event.work f (s.heap item).data item)) f (s.heap item).data h1 h2]

/-- With no attempt due, `_more_thread_unlocked` returns 1 and changes
nothing, whatever `pthread_create` would answer. -/
theorem more_thread_idle (env : Env) (s : Engine) (q : QId)
    (hc : ¬ attempt_condition (s.queues q)) : _more_thread_unlocked env s q = (1, s) := by
  simp only [_more_thread_unlocked]
  rw [if_neg]
  rintro (h | h)
  · exact hc (Or.inl h)
  · simp only [Bool.and_eq_true, decide_eq_true_eq] at h
    exact hc (Or.inr h)

/-- With an attempt due, `_more_thread_unlocked` goes by the answer of
`pthread_create`. -/
theorem more_thread_tried (env : Env) (s : Engine) (q : QId)
    (hc : attempt_condition (s.queues q)) :
    _more_thread_unlocked env s q
      = if - env.thread_create < 0 then
          (if (s.queues q).n_threads = 0 then (- env.thread_create, s) else (0, s))
        else (1, with_new_thread s q) := by
  simp only [_more_thread_unlocked]
  rw [if_pos]
  · rfl
  · rcases hc with h | h
    · exact Or.inl h
    · right
      simp only [Bool.and_eq_true, decide_eq_true_eq]
      exact h

/-- The add on a thread-backed queue, once it is not turned down as full:
first `_more_thread_unlocked`, then the eviction if the queue is full, then
the append. -/
theorem add_queue_eq (env : Env) (s : Engine) (q : QId) (item : Ptr) (dr im : Bool)
    (hv : (s.queues q).vtable = some VTable.queue)
    (hfull : ¬ (im = true ∧ (s.queues q).maxsize ≤ (s.queues q).n_items ∧ dr = false)) :
    _work_queue_add_unlocked env s q item dr im
      = if (_more_thread_unlocked env s q).1 < 0 then .ok (_more_thread_unlocked env s q)
        else
          match (if im = true ∧ (s.queues q).maxsize ≤ (s.queues q).n_items
                 then evict_one env (_more_thread_unlocked env s q).2 q
                 else .ok (0, (_more_thread_unlocked env s q).2)) with
          | .error f => .error f
          | .ok (r, s4) =>
            .ok (r, { s4 with
              heap := (_work_queue_add_tail_unlocked s4.heap (s4.queues q) item).1,
              queues := Function.update s4.queues q
                (_work_queue_add_tail_unlocked s4.heap (s4.queues q) item).2 }) := by
  have hf : ((im && decide ((s.queues q).n_items ≥ (s.queues q).maxsize)) && !dr) = false := by
    cases im <;> cases dr <;> simp at hfull ⊢
    omega
  simp only [_work_queue_add_unlocked, add_unlocked_with, hf, Bool.false_eq_true, if_false,
    prepare_executive, hv, prepare_executive_queue]
  by_cases hneg : (_more_thread_unlocked env s q).1 < 0
  · rw [if_pos hneg, if_pos hneg]
  · rw [if_neg hneg, if_neg hneg]
    by_cases hfl : im = true ∧ (s.queues q).maxsize ≤ (s.queues q).n_items
    · have e : (im && decide ((s.queues q).n_items ≥ (s.queues q).maxsize)) = true := by
        simp [hfl.1, hfl.2]
      rw [if_pos hfl, e]
      rfl
    · have e : (im && decide ((s.queues q).n_items ≥ (s.queues q).maxsize)) = false := by
        cases im
        · rfl
        · simp only [true_and, not_le] at hfl
          simp [hfl]
      rw [if_neg hfl, e]
      rfl

/-- The eviction leaves `n_threads` of every queue as it was. -/
theorem evict_one_threads (env : Env) (s : Engine) (q : QId) (r : Int) (s2 : Engine)
    (h : evict_one env s q = .ok (r, s2)) (o : QId) :
    (s2.queues o).n_threads = (s.queues o).n_threads ∧ 0 ≤ r :=
  ⟨((evict_one_quiet env s q r s2 h).1 o).2.2.1, by
    simp only [evict_one] at h
    split at h
    · split at h
      · cases h
      · simp only [Except.ok.injEq, Prod.mk.injEq] at h
        rw [← h.1]
        decide
    · cases h⟩

/-- C23 (amended): on a thread-backed queue (`&queue_vtable`), with
`pthread_create` answering 0 or an error number, `prepare_executive` is
`_more_thread_unlocked`.  It tries to create a thread exactly under
`attempt_condition`: otherwise it returns 1 and changes nothing whatever
`pthread_create` would answer.  When it tries and `pthread_create` answers 0,
`n_threads` grows by one and a thread is added; `n_threads` grows in no other
case.  When it tries and fails, it returns the negative error with no thread
(`n_threads == 0`) and 0 otherwise, with the state unchanged.
`n_threads <= width` is kept when `width >= 1`.  The add returns a negative
value exactly when it is turned down as full before `prepare_executive` runs
(`impose_maxsize`, `n_items >= maxsize`, no rewind: `-EAGAIN`), or an attempt
fails with `n_threads == 0`; then the state is unchanged.  In every other
case, a failed attempt with `n_threads > 0` included, the item is at the tail
afterwards; an add on a queue that is not full returns 0 and `n_items` grows by
one. -/
theorem thread_attempt_and_add (s : Engine) (q : QId) (env : Env)
    (hv : (s.queues q).vtable = some VTable.queue) (htc : 0 ≤ env.thread_create) :
    prepare_executive env s q = .ok (_more_thread_unlocked env s q)
    ∧ (¬ attempt_condition (s.queues q) → ∀ env2, _more_thread_unlocked env2 s q = (1, s))
    ∧ (attempt_condition (s.queues q) → env.thread_create = 0 →
        _more_thread_unlocked env s q = (1, with_new_thread s q))
    ∧ (attempt_condition (s.queues q) → 0 < env.thread_create →
        (s.queues q).n_threads = 0 →
        _more_thread_unlocked env s q = (- env.thread_create, s))
    ∧ (attempt_condition (s.queues q) → 0 < env.thread_create →
        (s.queues q).n_threads ≠ 0 → _more_thread_unlocked env s q = (0, s))
    ∧ (((_more_thread_unlocked env s q).2.queues q).n_threads = (s.queues q).n_threads + 1
        ↔ attempt_condition (s.queues q) ∧ env.thread_create = 0)
    ∧ (¬ (attempt_condition (s.queues q) ∧ env.thread_create = 0) →
        (_more_thread_unlocked env s q).2 = s)
    ∧ ((s.queues q).n_threads ≤ (s.queues q).width → 1 ≤ (s.queues q).width →
        ((_more_thread_unlocked env s q).2.queues q).n_threads
          ≤ ((_more_thread_unlocked env s q).2.queues q).width)
    ∧ ∀ (item : Ptr) (dr im : Bool),
        ((im = true ∧ (s.queues q).maxsize ≤ (s.queues q).n_items ∧ dr = false) →
          _work_queue_add_unlocked env s q item dr im = .ok (-EAGAIN, s))
        ∧ (¬ (im = true ∧ (s.queues q).maxsize ≤ (s.queues q).n_items ∧ dr = false) →
            attempt_condition (s.queues q) → 0 < env.thread_create →
            (s.queues q).n_threads = 0 →
            _work_queue_add_unlocked env s q item dr im = .ok (- env.thread_create, s))
        ∧ (¬ (im = true ∧ (s.queues q).maxsize ≤ (s.queues q).n_items) →
            ¬ (attempt_condition (s.queues q) ∧ 0 < env.thread_create
                ∧ (s.queues q).n_threads = 0) →
            ∃ s2, _work_queue_add_unlocked env s q item dr im = .ok (0, s2)
              ∧ (s2.queues q).tail = some item
              ∧ (s2.queues q).n_items = (s.queues q).n_items + 1)
        ∧ ∀ r s2, _work_queue_add_unlocked env s q item dr im = .ok (r, s2) →
            (r < 0 ↔ (im = true ∧ (s.queues q).maxsize ≤ (s.queues q).n_items ∧ dr = false)
                ∨ (attempt_condition (s.queues q) ∧ 0 < env.thread_create
                    ∧ (s.queues q).n_threads = 0))
            ∧ (r < 0 → s2 = s)
            ∧ (0 ≤ r → (s2.queues q).tail = some item
                ∧ (s2.queues q).n_threads
                    = ((_more_thread_unlocked env s q).2.queues q).n_threads) := by
  -- the four outcomes of `_more_thread_unlocked`
  have hidle := more_thread_idle env s q
  have hok : attempt_condition (s.queues q) → env.thread_create = 0 →
      _more_thread_unlocked env s q = (1, with_new_thread s q) := by
    intro hc h0
    rw [more_thread_tried env s q hc, if_neg (by omega)]
  have hzero : attempt_condition (s.queues q) → 0 < env.thread_create →
      (s.queues q).n_threads = 0 → _more_thread_unlocked env s q = (- env.thread_create, s) := by
    intro hc h0 hn
    rw [more_thread_tried env s q hc, if_pos (by omega), if_pos hn]
  have hign : attempt_condition (s.queues q) → 0 < env.thread_create →
      (s.queues q).n_threads ≠ 0 → _more_thread_unlocked env s q = (0, s) := by
    intro hc h0 hn
    rw [more_thread_tried env s q hc, if_pos (by omega), if_neg hn]
  have hsame : ¬ (attempt_condition (s.queues q) ∧ env.thread_create = 0) →
      (_more_thread_unlocked env s q).2 = s := by
    intro h
    by_cases hc : attempt_condition (s.queues q)
    · have h0 : 0 < env.thread_create := by
        rcases lt_or_eq_of_le htc with h1 | h1
        · exact h1
        · exact absurd ⟨hc, h1.symm⟩ h
      by_cases hn : (s.queues q).n_threads = 0
      · rw [hzero hc h0 hn]
      · rw [hign hc h0 hn]
    · rw [hidle hc]
  have hneg : (_more_thread_unlocked env s q).1 < 0 ↔
      (attempt_condition (s.queues q) ∧ 0 < env.thread_create ∧ (s.queues q).n_threads = 0) := by
    by_cases hc : attempt_condition (s.queues q)
    · rcases lt_or_eq_of_le htc with h0 | h0
      · by_cases hn : (s.queues q).n_threads = 0
        · rw [hzero hc h0 hn]
          exact ⟨fun _ => ⟨hc, h0, hn⟩, fun _ => by show - env.thread_create < 0; omega⟩
        · rw [hign hc h0 hn]
          exact ⟨fun h => absurd (show (0 : Int) < 0 from h) (by decide),
            fun h => absurd h.2.2 hn⟩
      · rw [hok hc h0.symm]
        exact ⟨fun h => absurd (show (1 : Int) < 0 from h) (by decide), fun h => by omega⟩
    · rw [hidle hc]
      exact ⟨fun h => absurd (show (1 : Int) < 0 from h) (by decide), fun h => absurd h.1 hc⟩
  have hnth : ((_more_thread_unlocked env s q).2.queues q).n_threads
      = (s.queues q).n_threads + 1 ↔ attempt_condition (s.queues q) ∧ env.thread_create = 0 := by
    by_cases h : attempt_condition (s.queues q) ∧ env.thread_create = 0
    · rw [hok h.1 h.2]
      simp [with_new_thread, h]
    · rw [hsame h]
      exact ⟨fun e => by omega, fun e => absurd e h⟩
  refine ⟨by simp only [prepare_executive, hv, prepare_executive_queue],
    fun hc env2 => more_thread_idle env2 s q hc, hok, hzero, hign, hnth, hsame, ?_, ?_⟩
  · intro hle hw
    by_cases h : attempt_condition (s.queues q) ∧ env.thread_create = 0
    · rw [hok h.1 h.2]
      simp only [with_new_thread, Function.update_same]
      rcases h.1 with h1 | h1
      · omega
      · omega
    · rw [hsame h]
      exact hle
  · intro item dr im
    have hrej : (im = true ∧ (s.queues q).maxsize ≤ (s.queues q).n_items ∧ dr = false) →
        _work_queue_add_unlocked env s q item dr im = .ok (-EAGAIN, s) := by
      rintro ⟨h1, h2, h3⟩
      simp [_work_queue_add_unlocked, add_unlocked_with, h1, h2, h3]
    have hfail : ¬ (im = true ∧ (s.queues q).maxsize ≤ (s.queues q).n_items ∧ dr = false) →
        attempt_condition (s.queues q) → 0 < env.thread_create →
        (s.queues q).n_threads = 0 →
        _work_queue_add_unlocked env s q item dr im = .ok (- env.thread_create, s) := by
      intro hf hc h0 hn
      rw [add_queue_eq env s q item dr im hv hf, if_pos (hneg.2 ⟨hc, h0, hn⟩), hzero hc h0 hn]
    refine ⟨hrej, hfail, ?_, ?_⟩
    · intro hnf hnz
      have hf : ¬ (im = true ∧ (s.queues q).maxsize ≤ (s.queues q).n_items ∧ dr = false) :=
        fun h => hnf ⟨h.1, h.2.1⟩
      obtain ⟨hd, hQ⟩ := add_tail_fields (_more_thread_unlocked env s q).2.heap
        ((_more_thread_unlocked env s q).2.queues q) item
      refine ⟨{ (_more_thread_unlocked env s q).2 with
          heap := (_work_queue_add_tail_unlocked (_more_thread_unlocked env s q).2.heap
            ((_more_thread_unlocked env s q).2.queues q) item).1,
          queues := Function.update (_more_thread_unlocked env s q).2.queues q
            (_work_queue_add_tail_unlocked (_more_thread_unlocked env s q).2.heap
              ((_more_thread_unlocked env s q).2.queues q) item).2 }, ?_, ?_, ?_⟩
      · rw [add_queue_eq env s q item dr im hv hf, if_neg (fun h => hnz (hneg.1 h)), if_neg hnf]
      · simp [hQ]
      · simp only [Function.update_same, hQ]
        by_cases h : attempt_condition (s.queues q) ∧ env.thread_create = 0
        · rw [hok h.1 h.2]
          simp [with_new_thread]
        · rw [hsame h]
    · intro r s2 h
      by_cases hf : im = true ∧ (s.queues q).maxsize ≤ (s.queues q).n_items ∧ dr = false
      · rw [hrej hf] at h
        simp only [Except.ok.injEq, Prod.mk.injEq] at h
        rw [← h.1, ← h.2]
        exact ⟨⟨fun _ => Or.inl hf, fun _ => by decide⟩, fun _ => rfl,
          fun h0 => absurd h0 (by decide)⟩
      · rw [add_queue_eq env s q item dr im hv hf] at h
        by_cases hz : (_more_thread_unlocked env s q).1 < 0
        · rw [if_pos hz] at h
          obtain ⟨hc, h0, hn⟩ := hneg.1 hz
          rw [hzero hc h0 hn] at h
          simp only [Except.ok.injEq, Prod.mk.injEq] at h
          rw [← h.1, ← h.2]
          exact ⟨⟨fun _ => Or.inr ⟨hc, h0, hn⟩, fun _ => by omega⟩, fun _ => rfl,
            fun h1 => by omega⟩
        · rw [if_neg hz] at h
          have hr : 0 ≤ r ∧ (s2.queues q).tail = some item
              ∧ (s2.queues q).n_threads
                = ((_more_thread_unlocked env s q).2.queues q).n_threads := by
            split at h
            · cases h
            · next r4 s4 h4 =>
              simp only [Except.ok.injEq, Prod.mk.injEq] at h
              obtain ⟨hd, hQ⟩ := add_tail_fields s4.heap (s4.queues q) item
              have h4r : 0 ≤ r4 ∧ (s4.queues q).n_threads
                  = ((_more_thread_unlocked env s q).2.queues q).n_threads := by
                split at h4
                · exact ⟨(evict_one_threads env _ q r4 s4 h4 q).2,
                    (evict_one_threads env _ q r4 s4 h4 q).1⟩
                · simp only [Except.ok.injEq, Prod.mk.injEq] at h4
                  rw [← h4.1, ← h4.2]
                  exact ⟨le_refl _, rfl⟩
              rw [← h.1, ← h.2]
              refine ⟨h4r.1, ?_, ?_⟩
              · simp [hQ]
              · simp only [Function.update_same, hQ]
                exact h4r.2
          refine ⟨⟨fun h1 => by omega, fun h1 => ?_⟩, fun h1 => by omega, fun _ => hr.2⟩
          rcases h1 with h1 | h1
          · exact absurd h1 hf
          · exact absurd (hneg.2 h1) hz

/-! ## C24, C25: when barrier and stop items are executed -/

/-- Draining the head of a well-formed list. -/
theorem drain_head (h : Heap) (Q : WorkQueue) (p : Ptr) (l : List Ptr)
    (hr : Chain h Q (p :: l)) :
    ∃ tl, _work_queue_drain_one_unlocked h Q
      = .ok (some p, Function.update h p { h p with next := none },
          { Q with head := (h p).next, tail := tl, n_items := Q.n_items - 1 }) := by
  obtain ⟨hseg, _, hcount, _⟩ := hr
  simp only [Lseg] at hseg
  obtain ⟨hhead, hrest⟩ := hseg
  simp only [_work_queue_drain_one_unlocked, hhead]
  cases hn : (h p).next with
  | none =>
    rw [hn] at hrest
    have hl : l = [] := by
      cases l with
      | nil => rfl
      | cons a l => simp [Lseg] at hrest
    have h1 : Q.n_items = 1 := by
      rw [hcount, hl]
      rfl
    exact ⟨none, by simp [h1]⟩
  | some nx => exact ⟨Q.tail, rfl⟩

/-- A worker or runner takes a barrier or stop item with a notifier off the
head of `q` and executes it: the call of its work function is logged and the
item goes to the tail of the main queue. -/
theorem drain_execute_sentinel (env : Env) (s : Engine) (q : QId) (hd : Ptr) (l : List Ptr)
    (f g : Fn) (hq : q ≠ QId.main) (hl : Chain s.heap (s.queues q) (hd :: l))
    (hw : (s.heap hd).work = some f) (h1 : f ≠ Fn.set_bool) (h2 : f ≠ Fn.work_queue_free)
    (hnot : (s.heap hd).notify = some g)
    (hv : (s.queues QId.main).vtable = some VTable.queue)
    (hn : (s.queues QId.main).n_threads = 1) (hwd : (s.queues QId.main).width = 1) :
    ∃ h1 Q1 s2, _work_queue_drain_one_unlocked s.heap (s.queues q) = .ok (some hd, h1, Q1)
      ∧ work_item_execute env { s with heap := h1, queues := Function.update s.queues q Q1 }
          hd false = .ok s2
      ∧ s2.log = s.log ++ [Event.work f (s.heap hd).data hd]
      ∧ (s2.queues q).head = (s.heap hd).next
      ∧ (s2.queues q).n_items = (s.queues q).n_items - 1
      ∧ (s2.queues q).n_threads = (s.queues q).n_threads
      ∧ (s2.queues q).n_running = (s.queues q).n_running
      ∧ (s2.queues QId.main).tail = some hd
      ∧ s2.threads = s.threads := by
  obtain ⟨tl, hdr⟩ := drain_head s.heap (s.queues q) hd l hl
  obtain ⟨s1, hs1⟩ : ∃ s1 : Engine, s1 =
      { s with heap := Function.update s.heap hd { s.heap hd with next := none },
               queues := Function.update s.queues q
                 { s.queues q with head := (s.heap hd).next, tail := tl,
                                   n_items := (s.queues q).n_items - 1 } } := ⟨_, rfl⟩
  have e1 : s1.heap hd = { s.heap hd with next := none } := by
    rw [hs1]; exact Function.update_same _ _ _
  have e2 : s1.queues QId.main = s.queues QId.main := by
    rw [hs1]; exact Function.update_noteq (Ne.symm hq) _ _
  have e3 : (s1.queues q).head = (s.heap hd).next
      ∧ (s1.queues q).n_items = (s.queues q).n_items - 1
      ∧ (s1.queues q).n_threads = (s.queues q).n_threads
      ∧ (s1.queues q).n_running = (s.queues q).n_running := by
    rw [hs1]
    simp
  have e4 : s1.log = s.log := by rw [hs1]
  have e5 : s1.threads = s.threads := by rw [hs1]
  have hd2 : (s1.heap hd).data = (s.heap hd).data := by rw [e1]
  have hex := execute_work_eq env s1 hd f (by rw [e1]; exact hw) h1 h2
  have hreq := main_requeue_core env (s1.emit (Event.work f (s1.heap hd).data hd)) hd
    (by show (s1.queues QId.main).vtable = _; rw [e2]; exact hv)
    (by show (s1.queues QId.main).n_threads = _; rw [e2]; exact hn)
    (by show (s1.queues QId.main).width = _; rw [e2]; exact hwd)
  have hn2 : ((s1.emit (Event.work f (s1.heap hd).data hd)).heap hd).notify.isSome = true := by
    show (s1.heap hd).notify.isSome = true
    rw [e1]
    show (s.heap hd).notify.isSome = true
    rw [hnot]; rfl
  obtain ⟨hd0, hQ⟩ := add_tail_fields s1.heap (s1.queues QId.main) hd
  refine ⟨_, _, { s1.emit (Event.work f (s1.heap hd).data hd) with
      heap := (_work_queue_add_tail_unlocked s1.heap (s1.queues QId.main) hd).1,
      queues := Function.update s1.queues QId.main
        (_work_queue_add_tail_unlocked s1.heap (s1.queues QId.main) hd).2 },
    hdr, ?_, ?_, ?_, ?_, ?_, ?_, ?_, ?_⟩
  · rw [← hs1, hex]
    simp only [work_item_finish]
    rw [if_pos hn2, hreq]
    rfl
  · show s1.log ++ [_] = _
    rw [e4, hd2]
  · show (Function.update s1.queues QId.main _ q).head = _
    rw [Function.update_noteq hq, e3.1]
  · show (Function.update s1.queues QId.main _ q).n_items = _
    rw [Function.update_noteq hq, e3.2.1]
  · show (Function.update s1.queues QId.main _ q).n_threads = _
    rw [Function.update_noteq hq, e3.2.2.1]
  · show (Function.update s1.queues QId.main _ q).n_running = _
    rw [Function.update_noteq hq, e3.2.2.2]
  · show (Function.update s1.queues QId.main _ QId.main).tail = _
    simp [hQ]
  · exact e5

/-- A stop item is no barrier. -/
theorem stop_not_barrier (it : WorkItem) (h : work_item_is_stop it = true) :
    work_item_is_barrier it = false ∧ it.work = some Fn.wq_stop := by
  simp only [work_item_is_stop, decide_eq_true_eq] at h
  simp [work_item_is_barrier, h]

/-- With a stop item at the head and more than one thread, `run_locked`
returns `-ECANCELED` and leaves everything as it is. -/
theorem stop_seen (env : Env) (s : Engine) (q : QId) (hd : Ptr)
    (hhead : (s.queues q).head = some hd) (hstop : work_item_is_stop (s.heap hd) = true)
    (h : 1 < (s.queues q).n_threads) :
    run_begin env s q = .ok (Ran.ret (-ECANCELED), s) := by
  simp only [run_begin, hhead, (stop_not_barrier _ hstop).1, Bool.false_and, Bool.false_eq_true,
    if_false, hstop, if_true]
  rw [if_pos (by omega)]

/-- With a stop item at the head, whatever `run_locked` returns is
`-ECANCELED`. -/
theorem stop_returns_canceled (env : Env) (s : Engine) (q : QId) (hd : Ptr)
    (hhead : (s.queues q).head = some hd) (hstop : work_item_is_stop (s.heap hd) = true)
    (ran : Ran) (s2 : Engine) (h : run_begin env s q = .ok (ran, s2)) :
    ran = Ran.ret (-ECANCELED) := by
  simp only [run_begin, hhead, (stop_not_barrier _ hstop).1, Bool.false_and, Bool.false_eq_true,
    if_false, hstop, if_true] at h
  split at h
  · simp only [Except.ok.injEq, Prod.mk.injEq] at h
    exact h.1.symm
  · split at h
    · cases h
    · split at h
      · cases h
      · simp only [Except.ok.injEq, Prod.mk.injEq] at h
        exact h.1.symm

/-- With a stop item at the head and at most one thread, `run_locked` takes
the item off the queue, executes it and returns `-ECANCELED`. -/
theorem stop_last (env : Env) (s : Engine) (q : QId) (hd : Ptr) (l : List Ptr) (g : Fn)
    (hq : q ≠ QId.main) (hl : Chain s.heap (s.queues q) (hd :: l))
    (hstop : work_item_is_stop (s.heap hd) = true) (hnot : (s.heap hd).notify = some g)
    (hv : (s.queues QId.main).vtable = some VTable.queue)
    (hn : (s.queues QId.main).n_threads = 1) (hwd : (s.queues QId.main).width = 1)
    (h : (s.queues q).n_threads ≤ 1) :
    ∃ s2, run_begin env s q = .ok (Ran.ret (-ECANCELED), s2)
      ∧ s2.log = s.log ++ [Event.work Fn.wq_stop (s.heap hd).data hd]
      ∧ (s2.queues q).head = (s.heap hd).next
      ∧ (s2.queues q).n_items = (s.queues q).n_items - 1
      ∧ (s2.queues q).n_threads = (s.queues q).n_threads
      ∧ (s2.queues QId.main).tail = some hd := by
  have hhead : (s.queues q).head = some hd := hl.seg.1
  obtain ⟨h1, Q1, s2, hdr, hex, a, b, c, d, _, e, _⟩ := drain_execute_sentinel env s q hd l
    Fn.wq_stop g hq hl (stop_not_barrier _ hstop).2 (by decide) (by decide) hnot hv hn hwd
  refine ⟨s2, ?_, a, b, c, d, e⟩
  simp only [run_begin, hhead, (stop_not_barrier _ hstop).1, Bool.false_and, Bool.false_eq_true,
    if_false, hstop, if_true]
  rw [if_neg (by omega), hdr]
  have hm : decide (q = QId.main) = false := by simp [hq]
  simp only [hm, hex]

/-- The worker threads that find a stop item at the head while other threads
exist end one after the other and leave the queue as it is. -/
theorem workers_pass (env : Env) (q : QId) (hd : Ptr) :
    ∀ (j : Nat) (s : Engine), (s.queues q).head = some hd →
      work_item_is_stop (s.heap hd) = true → (j : Int) < (s.queues q).n_threads →
      ∃ sj, workers_observe env q s j = .ok sj ∧ sj.heap = s.heap ∧ sj.log = s.log
        ∧ (∀ o, o ≠ q → sj.queues o = s.queues o)
        ∧ (sj.queues q).head = some hd
        ∧ (sj.queues q).tail = (s.queues q).tail
        ∧ (sj.queues q).n_items = (s.queues q).n_items
        ∧ (sj.queues q).n_threads = (s.queues q).n_threads - j := by
  intro j
  induction j with
  | zero =>
    intro s hhead _ _
    exact ⟨s, rfl, rfl, rfl, fun _ _ => rfl, hhead, rfl, rfl, by simp⟩
  | succ j ih =>
    intro s hhead hstop hlt
    have h1 : 1 < (s.queues q).n_threads := by
      have : (0 : Int) ≤ (j : Int) := Int.ofNat_nonneg j
      push_cast at hlt
      omega
    have hw : worker_run env s q = .ok (thread_exit s q) := by
      simp only [worker_run, stop_seen env s q hd hhead hstop h1]
      rw [if_pos (Or.inl trivial)]
    obtain ⟨sj, a, b, c, d, e, f, g, i⟩ := ih (thread_exit s q)
      (by simp [thread_exit, hhead]) hstop (by
        simp only [thread_exit, Function.update_same]
        push_cast at hlt
        omega)
    refine ⟨sj, ?_, b, c, ?_, e, ?_, ?_, ?_⟩
    · simp only [workers_observe, hw]
      exact a
    · intro o ho
      rw [d o ho]
      simp [thread_exit, Function.update_noteq ho]
    · rw [f]; simp [thread_exit]
    · rw [g]; simp [thread_exit]
    · rw [i]
      simp only [thread_exit, Function.update_same]
      push_cast
      omega

/-- The worker threads of a queue with a stop item at the head, each taking
the lock once: the last one takes the item off the queue and executes
it. -/
theorem workers_stop (env : Env) (q : QId) (hd : Ptr) (l : List Ptr) (g : Fn)
    (hq : q ≠ QId.main) :
    ∀ (k : Nat) (s : Engine), Chain s.heap (s.queues q) (hd :: l) →
      work_item_is_stop (s.heap hd) = true → (s.heap hd).notify = some g →
      (s.queues QId.main).vtable = some VTable.queue →
      (s.queues QId.main).n_threads = 1 → (s.queues QId.main).width = 1 →
      (s.queues q).n_threads = ((k + 1 : Nat) : Int) →
      ∃ s2, workers_observe env q s (k + 1) = .ok s2
        ∧ (s2.queues q).n_threads = 0
        ∧ s2.log = s.log ++ [Event.work Fn.wq_stop (s.heap hd).data hd]
        ∧ (s2.queues q).head = (s.heap hd).next
        ∧ (s2.queues QId.main).tail = some hd := by
  intro k
  induction k with
  | zero =>
    intro s hl hstop hnot hv hn hwd hk
    obtain ⟨s2, hrb, a, b, _, d, e⟩ := stop_last env s q hd l g hq hl hstop hnot hv hn hwd
      (by rw [hk]; decide)
    have hw : worker_run env s q = .ok (thread_exit s2 q) := by
      simp only [worker_run, hrb]
      rw [if_pos (Or.inl trivial)]
    refine ⟨thread_exit s2 q, by simp only [workers_observe, hw], ?_, a, ?_, ?_⟩
    · simp only [thread_exit, Function.update_same]
      rw [d, hk]
      decide
    · simp only [thread_exit, Function.update_same]
      exact b
    · simp only [thread_exit, Function.update_noteq (Ne.symm hq)]
      exact e
  | succ k ih =>
    intro s hl hstop hnot hv hn hwd hk
    have h1 : 1 < (s.queues q).n_threads := by
      rw [hk]
      push_cast
      have : (0 : Int) ≤ (k : Int) := Int.ofNat_nonneg k
      omega
    have hw : worker_run env s q = .ok (thread_exit s q) := by
      simp only [worker_run, stop_seen env s q hd hl.seg.1 hstop h1]
      rw [if_pos (Or.inl trivial)]
    have hmq : (thread_exit s q).queues QId.main = s.queues QId.main := by
      simp [thread_exit, Function.update_noteq (Ne.symm hq)]
    obtain ⟨s2, a, b, c, d, e⟩ := ih (thread_exit s q)
      ⟨by simpa [thread_exit] using hl.seg, by simpa [thread_exit] using hl.tail,
        by simpa [thread_exit] using hl.count, hl.nodup⟩
      hstop hnot (by rw [hmq]; exact hv) (by rw [hmq]; exact hn) (by rw [hmq]; exact hwd)
      (by
        simp only [thread_exit, Function.update_same]
        rw [hk]
        push_cast
        omega)
    exact ⟨s2, by simp only [workers_observe, hw]; exact a, b, c, d, e⟩

/-- C25: with a stop item at the head of a thread-backed queue,
`work_queue_run_unlocked` returns `-ECANCELED` whenever it returns.  With more
than one thread it returns at once and leaves the state as it is, the stop
item still at the head.  With at most one thread, on a queue other than the
main queue whose list is well formed and whose stop item has a notifier, it
takes the stop item off the queue and executes it: the call of `__wq_stop` is
logged and the item goes to the tail of the main queue, where its notifier
will run.  Hence when `k >= 1` worker threads (`n_threads = k`) take the lock
one after the other, all `k` end, `n_threads` is 0, and the stop item was
executed once, by the last of them: after `j < k` of them nothing is logged and
the stop item is still at the head. -/
theorem stop_drained_by_last_worker (s : Engine) (q : QId) (hd : Ptr) (env : Env)
    (hhead : (s.queues q).head = some hd) (hstop : work_item_is_stop (s.heap hd) = true) :
    (1 < (s.queues q).n_threads → run_begin env s q = .ok (Ran.ret (-ECANCELED), s))
    ∧ (∀ ran s2, run_begin env s q = .ok (ran, s2) → ran = Ran.ret (-ECANCELED))
    ∧ ∀ (l : List Ptr) (g : Fn), q ≠ QId.main → Chain s.heap (s.queues q) (hd :: l) →
        (s.heap hd).notify = some g →
        (s.queues QId.main).vtable = some VTable.queue →
        (s.queues QId.main).n_threads = 1 → (s.queues QId.main).width = 1 →
        ((s.queues q).n_threads ≤ 1 →
          ∃ s2, run_begin env s q = .ok (Ran.ret (-ECANCELED), s2)
            ∧ s2.log = s.log ++ [Event.work Fn.wq_stop (s.heap hd).data hd]
            ∧ (s2.queues q).head = (s.heap hd).next
            ∧ (s2.queues q).n_items = (s.queues q).n_items - 1
            ∧ (s2.queues q).n_threads = (s.queues q).n_threads
            ∧ (s2.queues QId.main).tail = some hd)
        ∧ ∀ k : Nat, 1 ≤ k → (s.queues q).n_threads = (k : Int) →
            (∃ s2, workers_observe env q s k = .ok s2
              ∧ (s2.queues q).n_threads = 0
              ∧ s2.log = s.log ++ [Event.work Fn.wq_stop (s.heap hd).data hd]
              ∧ (s2.queues q).head = (s.heap hd).next
              ∧ (s2.queues QId.main).tail = some hd)
            ∧ ∀ j : Nat, j < k →
                ∃ sj, workers_observe env q s j = .ok sj ∧ sj.log = s.log
                  ∧ (sj.queues q).head = some hd
                  ∧ (sj.queues q).n_threads = (k : Int) - (j : Int) := by
  refine ⟨stop_seen env s q hd hhead hstop, stop_returns_canceled env s q hd hhead hstop, ?_⟩
  intro l g hq hl hnot hv hn hwd
  refine ⟨stop_last env s q hd l g hq hl hstop hnot hv hn hwd, ?_⟩
  intro k hk hnk
  constructor
  · obtain ⟨k0, rfl⟩ : ∃ k0, k = k0 + 1 := ⟨k - 1, by omega⟩
    exact workers_stop env q hd l g hq k0 s hl hstop hnot hv hn hwd hnk
  · intro j hj
    obtain ⟨sj, a, _, c, _, e, _, _, i⟩ := workers_pass env q hd j s hhead hstop (by
      rw [hnk]
      exact_mod_cast hj)
    exact ⟨sj, a, c, e, by rw [i, hnk]⟩

/-- The work function of a barrier or stop item. -/
theorem static_work (it : WorkItem) (h : work_item_is_static it = true) :
    ∃ f, it.work = some f ∧ f ≠ Fn.set_bool ∧ f ≠ Fn.work_queue_free := by
  simp only [work_item_is_static, work_item_is_stop, work_item_is_barrier, Bool.or_eq_true,
    decide_eq_true_eq] at h
  rcases h with h | h
  · exact ⟨_, h, by decide, by decide⟩
  · exact ⟨_, h, by decide, by decide⟩

/-- With a barrier at the head and an item of the queue running, `run_locked`
returns `-EBUSY` and leaves everything as it is. -/
theorem barrier_busy (env : Env) (s : Engine) (q : QId) (hd : Ptr)
    (hhead : (s.queues q).head = some hd) (hb : work_item_is_barrier (s.heap hd) = true)
    (h : 0 < (s.queues q).n_running) : run_begin env s q = .ok (Ran.ret (-EBUSY), s) := by
  simp only [run_begin, hhead, hb, Bool.true_and, decide_eq_true_eq]
  rw [if_pos (by omega)]

/-- A barrier is no stop item. -/
theorem barrier_not_stop (it : WorkItem) (h : work_item_is_barrier it = true) :
    work_item_is_stop it = false ∧ it.work = some Fn.wq_barrier := by
  simp only [work_item_is_barrier, decide_eq_true_eq] at h
  simp [work_item_is_stop, h]

/-- With a barrier at the head and no item of the queue running, whatever
`run_locked` returns is 0. -/
theorem barrier_returns_ok (env : Env) (s : Engine) (q : QId) (hd : Ptr)
    (hhead : (s.queues q).head = some hd) (hb : work_item_is_barrier (s.heap hd) = true)
    (h0 : (s.queues q).n_running ≤ 0) (ran : Ran) (s2 : Engine)
    (h : run_begin env s q = .ok (ran, s2)) : ran = Ran.ret 0 := by
  simp only [run_begin, hhead, hb, Bool.true_and, decide_eq_true_eq,
    (barrier_not_stop _ hb).1, Bool.false_eq_true, if_false, if_true] at h
  rw [if_neg (by omega)] at h
  split at h
  · cases h
  · split at h
    · cases h
    · simp only [Except.ok.injEq, Prod.mk.injEq] at h
      exact h.1.symm

/-- With a barrier at the head and no item of the queue running, `run_locked`
takes the barrier off the queue and executes it. -/
theorem barrier_taken (env : Env) (s : Engine) (q : QId) (hd : Ptr) (l : List Ptr) (g : Fn)
    (hq : q ≠ QId.main) (hl : Chain s.heap (s.queues q) (hd :: l))
    (hb : work_item_is_barrier (s.heap hd) = true) (hnot : (s.heap hd).notify = some g)
    (hv : (s.queues QId.main).vtable = some VTable.queue)
    (hn : (s.queues QId.main).n_threads = 1) (hwd : (s.queues QId.main).width = 1)
    (h0 : (s.queues q).n_running ≤ 0) :
    ∃ s2, run_begin env s q = .ok (Ran.ret 0, s2)
      ∧ s2.log = s.log ++ [Event.work Fn.wq_barrier (s.heap hd).data hd]
      ∧ (s2.queues q).head = (s.heap hd).next
      ∧ (s2.queues QId.main).tail = some hd := by
  have hhead : (s.queues q).head = some hd := hl.seg.1
  obtain ⟨h1, Q1, s2, hdr, hex, a, b, _, _, _, e, _⟩ := drain_execute_sentinel env s q hd l
    Fn.wq_barrier g hq hl (barrier_not_stop _ hb).2 (by decide) (by decide) hnot hv hn hwd
  refine ⟨s2, ?_, a, b, e⟩
  simp only [run_begin, hhead, hb, Bool.true_and, decide_eq_true_eq,
    (barrier_not_stop _ hb).1, Bool.false_eq_true, if_false, if_true]
  rw [if_neg (by omega), hdr]
  have hm : decide (q = QId.main) = false := by simp [hq]
  simp only [hm, hex]

/-- A runner that finds a barrier or stop item at the head and is not the last
runner, or has run a stop item, leaves the loop and the item where it is. -/
theorem runner_leaves_sentinel (env : Env) (s : Engine) (q : QId) (r : Ptr) (m : Nat)
    (stop : Bool) (hd : Ptr) (hhead : (s.queues (QId.bucket m)).head = some hd)
    (hst : work_item_is_static (s.heap hd) = true)
    (h : stop = true ∨ (s.queues (QId.bucket m)).n_running ≠ 1) :
    ∃ s2, runner_iter env s q r m stop = .ok s2 ∧ s2.heap = s.heap ∧ s2.log = s.log
      ∧ (s2.queues (QId.bucket m)).head = some hd
      ∧ (s2.queues (QId.bucket m)).n_running = (s.queues (QId.bucket m)).n_running - 1 := by
  have hst2 : (work_item_is_stop (s.heap hd) || work_item_is_barrier (s.heap hd)) = true := hst
  have hres : runner_iter env s q r m stop
      = .ok ((s.setQ (QId.bucket m)
          { s.queues (QId.bucket m) with
              n_running := (s.queues (QId.bucket m)).n_running - 1 }).move q
        (Pc.runner r m stop) (Pc.runner_fin r)) := by
    cases stop with
    | true => simp only [runner_iter, hhead, if_true]
    | false =>
      have hn : (s.queues (QId.bucket m)).n_running ≠ 1 :=
        h.resolve_left (fun e => by cases e)
      simp only [runner_iter, hhead, Bool.false_eq_true, if_false, hst2, if_true, hn]
  refine ⟨_, hres, rfl, rfl, ?_, ?_⟩
  · simp [Engine.move, Engine.setQ, hhead]
  · simp [Engine.move, Engine.setQ]

/-- The last runner of a bucket that finds a barrier or stop item at the head
takes it off the bucket, executes it and leaves the loop. -/
theorem runner_takes_sentinel (env : Env) (s : Engine) (q : QId) (r : Ptr) (m : Nat)
    (hd : Ptr) (l : List Ptr) (g : Fn) (hl : Chain s.heap (s.queues (QId.bucket m)) (hd :: l))
    (hst : work_item_is_static (s.heap hd) = true) (hnot : (s.heap hd).notify = some g)
    (hv : (s.queues QId.main).vtable = some VTable.queue)
    (hn : (s.queues QId.main).n_threads = 1) (hwd : (s.queues QId.main).width = 1)
    (h1 : (s.queues (QId.bucket m)).n_running = 1) :
    ∃ f s2, (s.heap hd).work = some f ∧ runner_iter env s q r m false = .ok s2
      ∧ s2.log = s.log ++ [Event.work f (s.heap hd).data hd]
      ∧ (s2.queues (QId.bucket m)).head = (s.heap hd).next
      ∧ (s2.queues QId.main).tail = some hd
      ∧ (s2.queues (QId.bucket m)).n_running = 0 := by
  have hhead : (s.queues (QId.bucket m)).head = some hd := hl.seg.1
  have hst2 : (work_item_is_stop (s.heap hd) || work_item_is_barrier (s.heap hd)) = true := hst
  obtain ⟨f, hf, hf1, hf2⟩ := static_work _ hst
  have hbm : QId.bucket m ≠ QId.main := fun e => by cases e
  obtain ⟨h1', Q1, s2, hdr, hex, a, b, _, _, d, e, _⟩ := drain_execute_sentinel env s
    (QId.bucket m) hd l f g hbm hl hf hf1 hf2 hnot hv hn hwd
  have hres : runner_iter env s q r m false
      = .ok ((s2.setQ (QId.bucket m)
          { s2.queues (QId.bucket m) with
              n_running := (s2.queues (QId.bucket m)).n_running - 1 }).move q
        (Pc.runner r m false) (Pc.runner_fin r)) := by
    simp only [runner_iter, hhead, Bool.false_eq_true, if_false, hst2, if_true, h1, hdr, hex]
  refine ⟨f, _, hf, hres, ?_, ?_, ?_, ?_⟩
  · exact a
  · simpa [Engine.move, Engine.setQ] using b
  · simp only [Engine.move, Engine.setQ, Function.update_noteq (Ne.symm hbm)]
    exact e
  · simp only [Engine.move, Engine.setQ, Function.update_same]
    rw [d, h1]
    decide

/-- While a runner of a bucket with `n_running = 1` stands at the head of its
loop, no thread runs the work of an item of the bucket. -/
theorem last_runner_alone {s : Engine} {own : Ptr → Place} (hh : Held s own) (hr : Runs s)
    (hb : BInv s own) (m : Nat) (q : QId) (r : Ptr) (stop : Bool)
    (hm : Pc.runner r m stop ∈ s.threads q)
    (h1 : (s.queues (QId.bucket m)).n_running = 1) :
    ∀ o pc, pc ∈ s.threads o → Pc.works_for m pc = false := by
  intro o pc hpc
  cases pc with
  | runner_exec r2 b x =>
    by_cases e : b = m
    · subst e
      exfalso
      obtain ⟨l, hl, hlen⟩ := hb.tok b
      have t1 := hl r (tok_of_runner hh hr q _ r b hm rfl rfl)
      have t2 := hl r2 (tok_of_runner hh hr o _ r2 b hpc rfl rfl)
      have hlen1 : l.length ≤ 1 := by
        rw [h1] at hlen
        exact_mod_cast hlen
      have e : r = r2 := by
        match l, t1, t2, hlen1 with
        | [a], t1, t2, _ =>
          simp only [List.mem_singleton] at t1 t2
          rw [t1, t2]
        | _ :: _ :: _, _, _, hlen1 => simp at hlen1
      subst e
      have := (hh.unique q o _ _ r hm hpc (by simp [Pc.items]) (by simp [Pc.items])).2
      cases this
    · simp [Pc.works_for, e]
  | _ => rfl

theorem running_work_zero (s : Engine) (m : Nat)
    (h : ∀ o pc, pc ∈ s.threads o → Pc.works_for m pc = false) :
    ∀ os : List QId, running_work s m os = 0 := by
  intro os
  simp only [running_work]
  apply List.sum_eq_zero
  intro x hx
  obtain ⟨o, _, rfl⟩ := List.mem_map.1 hx
  rw [List.length_eq_zero, List.filter_eq_nil_iff]
  intro pc hpc
  rw [h o pc hpc]
  simp

/-- C24: in a state the engine can reach.  With a barrier at the head of a
queue, `work_queue_run_unlocked` returns `-EBUSY` and leaves the state as it
is while `n_running > 0`; with `n_running <= 0` whatever it returns is 0, and
on a queue other than the main queue whose list is well formed and whose
barrier has a notifier it takes the barrier off the queue and executes it: the
call of `__wq_barrier` is logged and the item goes to the tail of the main
queue.  A runner that finds a barrier or stop item at the head of its bucket
leaves the loop with the item still at the head unless it is the last runner
(`n_running = 1`) and has not run a stop item; the last runner takes the item
off the bucket, executes it and leaves, with `n_running = 0`.  When a sentinel
may be executed, no work of the queue is running: a private queue with
`n_running <= 0` has only threads that wait for the lock, a thread of a private
queue that waits for the lock is the only thread of the queue, the shared pool
with `n_running <= 0` has only threads that wait for the lock, and while a
runner of a bucket with `n_running = 1` stands at the head of its loop no
thread runs the work of an item of the bucket. -/
theorem sentinel_waits_for_running_work (s : Engine) (hr : Reachable s) :
    (∀ (env : Env) (q : QId) (hd : Ptr), (s.queues q).head = some hd →
      work_item_is_barrier (s.heap hd) = true →
      (0 < (s.queues q).n_running → run_begin env s q = .ok (Ran.ret (-EBUSY), s))
      ∧ ((s.queues q).n_running ≤ 0 →
          ∀ ran s2, run_begin env s q = .ok (ran, s2) → ran = Ran.ret 0)
      ∧ ((s.queues q).n_running ≤ 0 → q ≠ QId.main →
          (s.queues QId.main).vtable ≠ none →
          ∀ (l : List Ptr) (g : Fn), Chain s.heap (s.queues q) (hd :: l) →
            (s.heap hd).notify = some g →
            ∃ s2, run_begin env s q = .ok (Ran.ret 0, s2)
              ∧ s2.log = s.log ++ [Event.work Fn.wq_barrier (s.heap hd).data hd]
              ∧ (s2.queues q).head = (s.heap hd).next
              ∧ (s2.queues QId.main).tail = some hd))
    ∧ (∀ (env : Env) (q : QId) (r : Ptr) (m : Nat) (stop : Bool) (hd : Ptr),
      (s.queues (QId.bucket m)).head = some hd → work_item_is_static (s.heap hd) = true →
      ((stop = true ∨ (s.queues (QId.bucket m)).n_running ≠ 1) →
        ∃ s2, runner_iter env s q r m stop = .ok s2 ∧ s2.heap = s.heap ∧ s2.log = s.log
          ∧ (s2.queues (QId.bucket m)).head = some hd
          ∧ (s2.queues (QId.bucket m)).n_running
              = (s.queues (QId.bucket m)).n_running - 1)
      ∧ ((s.queues (QId.bucket m)).n_running = 1 → (s.queues QId.main).vtable ≠ none →
          ∀ (l : List Ptr) (g : Fn), Chain s.heap (s.queues (QId.bucket m)) (hd :: l) →
            (s.heap hd).notify = some g →
            ∃ f s2, (s.heap hd).work = some f ∧ runner_iter env s q r m false = .ok s2
              ∧ s2.log = s.log ++ [Event.work f (s.heap hd).data hd]
              ∧ (s2.queues (QId.bucket m)).head = (s.heap hd).next
              ∧ (s2.queues QId.main).tail = some hd
              ∧ (s2.queues (QId.bucket m)).n_running = 0))
    ∧ (∀ n : Nat, (s.queues (QId.queue n)).n_running ≤ 0 →
        ∀ pc, pc ∈ s.threads (QId.queue n) → pc = Pc.wait)
    ∧ (∀ n : Nat, Pc.wait ∈ s.threads (QId.queue n) → s.threads (QId.queue n) = [Pc.wait])
    ∧ ((s.queues QId.concurrent).n_running ≤ 0 →
        ∀ pc, pc ∈ s.threads QId.concurrent → pc = Pc.wait)
    ∧ (∀ (m : Nat) (q : QId) (r : Ptr) (stop : Bool), Pc.runner r m stop ∈ s.threads q →
        (s.queues (QId.bucket m)).n_running = 1 →
        (∀ o pc, pc ∈ s.threads o → Pc.works_for m pc = false)
        ∧ ∀ os : List QId, running_work s m os = 0) := by
  obtain ⟨own, ch, ⟨hs, _, hh, _⟩, hrun, hb⟩ := reachable_full s hr
  have hmain : (s.queues QId.main).vtable ≠ none →
      (s.queues QId.main).vtable = some VTable.queue
      ∧ (s.queues QId.main).n_threads = 1 ∧ (s.queues QId.main).width = 1 := by
    intro hi
    rcases hs.mainq with h | h
    · exact absurd h hi
    · exact h
  refine ⟨?_, ?_, ?_, ?_, ?_, ?_⟩
  · intro env q hd hhead hbar
    refine ⟨barrier_busy env s q hd hhead hbar, barrier_returns_ok env s q hd hhead hbar, ?_⟩
    intro h0 hq hi l g hl hnot
    obtain ⟨a, b, c⟩ := hmain hi
    exact barrier_taken env s q hd l g hq hl hbar hnot a b c h0
  · intro env q r m stop hd hhead hst
    refine ⟨runner_leaves_sentinel env s q r m stop hd hhead hst, ?_⟩
    intro h1 hi l g hl hnot
    obtain ⟨a, b, c⟩ := hmain hi
    exact runner_takes_sentinel env s q r m hd l g hl hst hnot a b c h1
  · intro n h0 pc hpc
    have hok := reachable_view_ok s hr n
    cases hv : (s.queues (QId.queue n)).vtable with
    | none =>
      have := hok.dead hv
      simp only [view] at this
      rw [this] at hpc
      cases hpc
    | some vt =>
      cases vt with
      | bucket => exact absurd hv hok.kind
      | queue =>
        obtain ⟨_, _, hrn, _⟩ := hok.live hv
        simp only [view] at hrn
        have hc : (s.threads (QId.queue n)).countP Pc.busy = 0 := by
          have : (0 : Int) ≤ ((s.threads (QId.queue n)).countP Pc.busy : Nat) :=
            Int.ofNat_nonneg _
          omega
        have := (List.countP_eq_zero.1 hc) pc hpc
        cases pc <;> simp [Pc.busy] at this ⊢
  · intro n hw
    have hle := (reachable_view_ok s hr n).threads_le
    simp only [view] at hle
    match s.threads (QId.queue n), hle, hw with
    | [a], _, hw =>
      simp only [List.mem_singleton] at hw
      rw [hw]
    | [], _, hw => cases hw
    | _ :: _ :: _, hle, _ => simp at hle
  · exact fun h0 => (reachable_pool_count s hr).all_wait h0
  · intro m q r stop hm h1
    have h := last_runner_alone hh hrun hb m q r stop hm h1
    exact ⟨h, running_work_zero s m h⟩

/-! ## C7: the last `work_queue_unref` -/

/-- What `_more_thread_unlocked` returns and changes, for every answer of
`pthread_create`: at most one thread more, and a negative value exactly when
the queue has no thread and `pthread_create` fails. -/
theorem more_thread_split (env : Env) (s : Engine) (q : QId) :
    ∃ (r k : Int), _more_thread_unlocked env s q
      = (r, { s with queues := Function.update s.queues q
                       { s.queues q with n_threads := (s.queues q).n_threads + k },
                     threads := Function.update s.threads q
                       (if k = 0 then s.threads q else Pc.wait :: s.threads q) })
      ∧ (k = 0 ∨ k = 1)
      ∧ (r < 0 ↔ ((s.queues q).n_threads = 0 ∧ 0 < env.thread_create))
      ∧ (r < 0 → k = 0) := by
  by_cases hc : (s.queues q).n_threads = 0 ∨
      (decide ((s.queues q).n_threads < (s.queues q).width) &&
        decide ((s.queues q).n_threads - (s.queues q).n_running < (s.queues q).n_items + 1)) = true
  · by_cases ht : - env.thread_create < 0
    · by_cases h0 : (s.queues q).n_threads = 0
      · refine ⟨- env.thread_create, 0, ?_, Or.inl rfl, ?_, fun _ => rfl⟩
        · simp only [_more_thread_unlocked]
          rw [if_pos hc, if_pos ht, if_pos h0]
          simp
        · constructor
          · intro _; exact ⟨h0, by omega⟩
          · intro _; exact ht
      · refine ⟨0, 0, ?_, Or.inl rfl, ?_, fun _ => rfl⟩
        · simp only [_more_thread_unlocked]
          rw [if_pos hc, if_pos ht, if_neg h0]
          simp
        · constructor
          · intro h; exact absurd h (by decide)
          · intro h; exact absurd h.1 h0
    · refine ⟨1, 1, ?_, Or.inr rfl, ?_, fun h => absurd h (by decide)⟩
      · simp only [_more_thread_unlocked]
        rw [if_pos hc, if_neg ht]
        simp
      · constructor
        · intro h; exact absurd h (by decide)
        · intro h; exact absurd (show - env.thread_create < 0 by omega) ht
  · refine ⟨1, 0, ?_, Or.inl rfl, ?_, fun _ => rfl⟩
    · simp only [_more_thread_unlocked]
      rw [if_neg hc]
      simp
    · constructor
      · intro h; exact absurd h (by decide)
      · intro h; exact absurd (Or.inl h.1) hc

/-- The prepare step of an add, for every answer of the C library: of queue
`q` it touches only `n_threads` and `n_running`; in memory, only the runner
block and the `next` field of the pool's tail.  It returns a negative value
exactly when a thread-backed queue without a thread gets none, or a bucket
below its width gets no runner block or the pool, without a thread, gets
none; then the counters of `q` and all threads are as before. -/
theorem prepare_executive_split (env : Env) (s : Engine) (q : QId)
    (hq : q ≠ QId.concurrent) (hv : (s.queues q).vtable ≠ none)
    (hc : (s.queues QId.concurrent).vtable = some VTable.queue) :
    ∃ (r0 : Int) (s1 : Engine) (a b : Int), prepare_executive env s q = .ok (r0, s1)
      ∧ s1.queues q = { s.queues q with n_threads := a, n_running := b }
      ∧ (∀ x, env.runner ≠ some x → (s.queues QId.concurrent).tail ≠ some x →
          s1.heap x = s.heap x)
      ∧ ((s.queues q).vtable = some VTable.queue → s1.heap = s.heap)
      ∧ (r0 < 0 ↔
          (((s.queues q).vtable = some VTable.queue ∧ (s.queues q).n_threads = 0
              ∧ 0 < env.thread_create)
            ∨ ((s.queues q).vtable = some VTable.bucket
              ∧ (s.queues q).n_running < (s.queues q).width
              ∧ (env.runner = none
                ∨ ((s.queues QId.concurrent).n_threads = 0 ∧ 0 < env.thread_create)))))
      ∧ (r0 < 0 → a = (s.queues q).n_threads ∧ b = (s.queues q).n_running
          ∧ s1.threads = s.threads) := by
  cases hvt : (s.queues q).vtable with
  | none => exact absurd hvt hv
  | some vt =>
    cases vt with
    | queue =>
      obtain ⟨r, k, hk, hk01, hneg, hk0⟩ := more_thread_split env s q
      refine ⟨r, (_more_thread_unlocked env s q).2, (s.queues q).n_threads + k,
        (s.queues q).n_running,
        by simp [prepare_executive, hvt, prepare_executive_queue, hk], ?_⟩
      rw [hk]
      refine ⟨by simp, fun _ _ _ => rfl, fun _ => rfl, ?_, ?_⟩
      · rw [hneg]
        simp
      · intro hr
        have := hk0 hr
        subst this
        simp
    | bucket =>
      have hp : prepare_executive env s q = prepare_executive_bucket env s q := by
        simp [prepare_executive, hvt]
      rw [hp]
      by_cases hw : (s.queues q).n_running ≥ (s.queues q).width
      · refine ⟨0, s, (s.queues q).n_threads, (s.queues q).n_running,
          by simp [prepare_executive_bucket, hw], rfl, fun _ _ _ => rfl, fun _ => rfl, ?_,
          fun h => absurd h (by decide)⟩
        constructor
        · intro h; exact absurd h (by decide)
        · rintro (⟨h, _⟩ | ⟨_, h, _⟩)
          · cases h
          · omega
      · have hlt : (s.queues q).n_running < (s.queues q).width := by omega
        cases hrn : env.runner with
        | none =>
          refine ⟨-ENOMEM, s, (s.queues q).n_threads, (s.queues q).n_running,
            by simp [prepare_executive_bucket, hw, hrn], rfl, fun _ _ _ => rfl, fun _ => rfl, ?_,
            fun _ => ⟨rfl, rfl, rfl⟩⟩
          constructor
          · intro _; exact Or.inr ⟨rfl, hlt, Or.inl rfl⟩
          · intro _; decide
        | some r =>
          obtain ⟨r1, k, hk, hk01, hneg, hk0⟩ :=
            more_thread_split env (s.setItem r (runner_item q)) QId.concurrent
          have hc2 : ((s.setItem r (runner_item q)).queues QId.concurrent).vtable
              = some VTable.queue := hc
          have hnt : ((s.setItem r (runner_item q)).queues QId.concurrent).n_threads
              = (s.queues QId.concurrent).n_threads := rfl
          rw [hnt] at hneg
          simp only [prepare_executive_bucket, if_neg hw, hrn, add_unlocked_with,
            prepare_executive_pool, hc2, prepare_executive_queue, hk]
          simp only [Bool.false_and, Bool.not_false, Bool.and_true, Bool.false_eq_true,
            if_false]
          by_cases hr1 : r1 < 0
          · have hk' := hk0 hr1
            subst hk'
            simp only [if_pos hr1]
            refine ⟨r1, _, (s.queues q).n_threads, (s.queues q).n_running, rfl, ?_, ?_, ?_, ?_, ?_⟩
            · simp [Engine.free, Engine.emit, Engine.setItem, Function.update_noteq hq]
            · intro x hx1 _
              have hx1 : x ≠ r := fun e => hx1 (by simp [e])
              simp [Engine.free, Engine.emit, Engine.setItem, Function.update_noteq hx1]
            · intro h; cases h
            · constructor
              · intro _; exact Or.inr ⟨trivial, hlt, Or.inr (hneg.1 hr1)⟩
              · intro _; exact hr1
            · intro _
              refine ⟨rfl, rfl, ?_⟩
              simp [Engine.free, Engine.emit, Engine.setItem]
          · simp only [if_neg hr1, show ¬ ((0 : Int) < 0) by decide, if_false]
            refine ⟨0, _, (s.queues q).n_threads, (s.queues q).n_running + 1, rfl, ?_, ?_, ?_, ?_,
              fun h => absurd h (by decide)⟩
            · simp [Engine.setQ, Engine.setItem, Function.update_noteq hq]
            · intro x hx1 hx2
              have hx1 : x ≠ r := fun e => hx1 (by simp [e])
              cases htl : (s.queues QId.concurrent).tail with
              | none =>
                simp [Engine.setQ, Engine.setItem, _work_queue_add_tail_unlocked, htl,
                  Function.update_noteq hx1]
              | some t =>
                have hx3 : x ≠ t := fun e => hx2 (by simp [htl, e])
                simp [Engine.setQ, Engine.setItem, _work_queue_add_tail_unlocked, htl,
                  Function.update_noteq hx1, Function.update_noteq hx3]
            · intro h; cases h
            · constructor
              · intro h; exact absurd h (by decide)
              · rintro (⟨h, _⟩ | ⟨_, _, h | h⟩)
                · cases h
                · cases h
                · exact absurd (hneg.2 h) hr1

/-- An add that bypasses `maxsize`: after the prepare step the item is linked
at the tail, unless the prepare step returned a negative value. -/
theorem add_unlocked_no_limit (env : Env) (s : Engine) (q : QId) (item : Ptr) (dr : Bool)
    (r0 : Int) (s1 : Engine) (hp : prepare_executive env s q = .ok (r0, s1)) :
    _work_queue_add_unlocked env s q item dr false
      = if r0 < 0 then .ok (r0, s1)
        else .ok (0, { s1 with
          heap := (_work_queue_add_tail_unlocked s1.heap (s1.queues q) item).1,
          queues := Function.update s1.queues q
            (_work_queue_add_tail_unlocked s1.heap (s1.queues q) item).2 }) := by
  simp only [_work_queue_add_unlocked, add_unlocked_with, hp, Bool.false_and,
    Bool.false_eq_true, if_false]

/-- C7 (amended): `work_queue_unref` on a private queue or bucket, for every
answer of `new0` and `pthread_create`.  With `xref_cnt = 1` and a free control
item (`work` NULL) it sets `xref_cnt` to 0 and makes the control item a stop
item whose notifier is `_work_queue_free` and whose datum is the queue; the
items of the queue keep their content.  The add of the stop item bypasses
`maxsize`, and its result is dropped.  When the executive of the queue cannot
be had (a thread-backed queue without a thread whose `pthread_create` fails; a
bucket below its width whose runner block is NULL or whose pool, without a
thread, gets none) nothing is linked: the queue holds the items it held, and
its counters and all threads are as before.  In every other case the stop item
is linked at the tail whatever `n_items` and `maxsize` are, so that draining
the queue returns every item queued before the unref and only then the stop
item.  With `xref_cnt > 1` the call only decrements `xref_cnt`.  (For a
bucket, the runner block and the pool's tail are not items of the bucket.) -/
theorem unref_schedules_free (env : Env) (s : Engine) (q : QId) (l : List Ptr)
    (hq1 : q ≠ QId.concurrent) (hq2 : q ≠ QId.main) :
    ((s.queues q).xref_cnt = 1 → (s.heap (Ptr.ctl q)).work = none →
      (s.queues q).vtable ≠ none →
      (s.queues QId.concurrent).vtable = some VTable.queue →
      ((s.queues q).vtable = some VTable.bucket →
        ∀ x, x ∈ l ∨ x = Ptr.ctl q →
            env.runner ≠ some x ∧ (s.queues QId.concurrent).tail ≠ some x) →
      Chain s.heap (s.queues q) l → (∀ p ∈ l, (s.heap p).work ≠ none) →
      ∃ s2 : Engine, work_queue_unref env s q = .ok s2
        ∧ (s2.queues q).xref_cnt = 0
        ∧ payload (s2.heap (Ptr.ctl q))
            = { work := some Fn.wq_stop, notify := some Fn.work_queue_free,
                cancel := (s.heap (Ptr.ctl q)).cancel, data := Data.queue q, next := none }
        ∧ (∀ p ∈ l, payload (s2.heap p) = payload (s.heap p))
        ∧ ((((s.queues q).vtable = some VTable.queue ∧ (s.queues q).n_threads = 0
                ∧ 0 < env.thread_create)
              ∨ ((s.queues q).vtable = some VTable.bucket
                ∧ (s.queues q).n_running < (s.queues q).width
                ∧ (env.runner = none
                  ∨ ((s.queues QId.concurrent).n_threads = 0 ∧ 0 < env.thread_create)))) →
            Chain s2.heap (s2.queues q) l
            ∧ (s2.queues q).n_threads = (s.queues q).n_threads
            ∧ (s2.queues q).n_running = (s.queues q).n_running
            ∧ s2.threads = s.threads)
        ∧ (¬ (((s.queues q).vtable = some VTable.queue ∧ (s.queues q).n_threads = 0
                ∧ 0 < env.thread_create)
              ∨ ((s.queues q).vtable = some VTable.bucket
                ∧ (s.queues q).n_running < (s.queues q).width
                ∧ (env.runner = none
                  ∨ ((s.queues QId.concurrent).n_threads = 0 ∧ 0 < env.thread_create)))) →
            Chain s2.heap (s2.queues q) (l ++ [Ptr.ctl q])
            ∧ ∃ h3 Q3, drain_many s2.heap (s2.queues q) (l.length + 1)
                = .ok (l.map some ++ [some (Ptr.ctl q)], h3, Q3)))
    ∧ (1 < (s.queues q).xref_cnt →
        work_queue_unref env s q
          = .ok (s.setQ q { s.queues q with xref_cnt := (s.queues q).xref_cnt - 1 })) := by
  constructor
  · intro hx hw hv hc hb hr hwl
    have hctl : Ptr.ctl q ∉ l := fun e => hwl _ e hw
    obtain ⟨r0, s1, a, b, hp, h1, h4, h5, hneg, hfail⟩ :=
      prepare_executive_split env
        ((s.setQ q { s.queues q with xref_cnt := (s.queues q).xref_cnt - 1 }).setItem (Ptr.ctl q)
          { work := some Fn.wq_stop, data := Data.queue q, notify := some Fn.work_queue_free,
            next := none, cancel := (s.heap (Ptr.ctl q)).cancel })
        q hq1 (by simpa [Engine.setQ, Engine.setItem] using hv)
        (by simpa [Engine.setQ, Engine.setItem, Function.update_noteq (Ne.symm hq1)] using hc)
    have hadd := add_unlocked_no_limit env _ q (Ptr.ctl q) false r0 s1 hp
    simp only [Engine.setQ, Engine.setItem, Function.update_same,
      Function.update_noteq (Ne.symm hq1)] at h1 h4 h5 hneg hfail
    have hframe : ∀ x, x ∈ l ∨ x = Ptr.ctl q →
        s1.heap x = Function.update s.heap (Ptr.ctl q)
          { work := some Fn.wq_stop, data := Data.queue q, notify := some Fn.work_queue_free,
            next := none, cancel := (s.heap (Ptr.ctl q)).cancel } x := by
      intro x hx
      cases hvt : (s.queues q).vtable with
      | none => exact absurd hvt hv
      | some vt =>
        cases vt with
        | queue => rw [h5 hvt]
        | bucket => exact h4 x ((hb hvt) x hx).1 ((hb hvt) x hx).2
    have hr1 : Chain s1.heap (s1.queues q) l :=
      Chain_congr s.heap _ _ _ _ hr (by simp [h1]) (by simp [h1]) (by simp [h1])
        (fun p hp => by
          have hne : p ≠ Ptr.ctl q := fun e => hctl (e ▸ hp)
          rw [hframe p (Or.inl hp), Function.update_noteq hne])
    have hx0 : (0 : Int) < (s.queues q).xref_cnt := by omega
    have hun : ∀ (r : Int) (s3 : Engine),
        _work_queue_add_unlocked env
            ((s.setQ q { s.queues q with xref_cnt := (s.queues q).xref_cnt - 1 }).setItem
              (Ptr.ctl q)
              { work := some Fn.wq_stop, data := Data.queue q,
                notify := some Fn.work_queue_free, next := none,
                cancel := (s.heap (Ptr.ctl q)).cancel }) q (Ptr.ctl q) false false
          = .ok (r, s3) →
        work_queue_unref env s q = .ok s3 := by
      intro r s3 h
      simp only [Engine.setQ, Engine.setItem, hx, sub_self] at h
      simp only [work_queue_unref, hq1, hq2, or_self, if_false, hx0, if_true, Engine.setQ,
        Function.update_same, hx, sub_self, hw, Engine.setItem, _work_queue_add]
      rw [h]
      simp
    by_cases hr0 : r0 < 0
    · obtain ⟨ha, hb2, hthr⟩ := hfail hr0
      rw [if_pos hr0] at hadd
      refine ⟨s1, hun _ _ hadd, by rw [h1]; simp [hx], ?_, ?_, ?_, ?_⟩
      · rw [hframe _ (Or.inr rfl)]; simp [payload]
      · intro p hp
        have hne : p ≠ Ptr.ctl q := fun e => hctl (e ▸ hp)
        rw [hframe p (Or.inl hp), Function.update_noteq hne]
      · intro _
        refine ⟨hr1, by rw [h1, ha], by rw [h1, hb2], ?_⟩
        rw [hthr]
      · intro hno
        exact absurd (hneg.1 hr0) hno
    · rw [if_neg hr0] at hadd
      have hrep := add_tail_chain s1.heap (s1.queues q) l (Ptr.ctl q) hr1 hctl
      obtain ⟨hd, hQ⟩ := add_tail_fields s1.heap (s1.queues q) (Ptr.ctl q)
      refine ⟨_, hun _ _ hadd, ?_, ?_, ?_, ?_, ?_⟩
      · simp only [Function.update_same]
        rw [hQ, h1]; simp [hx]
      · show payload ((_work_queue_add_tail_unlocked s1.heap (s1.queues q) (Ptr.ctl q)).1
            (Ptr.ctl q)) = _
        rw [add_tail_payload, hframe _ (Or.inr rfl)]; simp [payload]
      · intro p hp
        have hne : p ≠ Ptr.ctl q := fun e => hctl (e ▸ hp)
        show payload ((_work_queue_add_tail_unlocked s1.heap (s1.queues q) (Ptr.ctl q)).1 p) = _
        rw [add_tail_payload, hframe p (Or.inl hp), Function.update_noteq hne]
      · intro hyes
        exact absurd (hneg.2 hyes) hr0
      · intro _
        have hrep2 : Chain
            (_work_queue_add_tail_unlocked s1.heap (s1.queues q) (Ptr.ctl q)).1
            (Function.update s1.queues q
              (_work_queue_add_tail_unlocked s1.heap (s1.queues q) (Ptr.ctl q)).2 q)
            (l ++ [Ptr.ctl q]) := by
          rw [Function.update_same]; exact hrep
        refine ⟨hrep2, ?_⟩
        obtain ⟨h3, Q3, hd3, _⟩ := drain_many_chain (l ++ [Ptr.ctl q]) _ _ hrep2
        exact ⟨h3, Q3, by simpa using hd3⟩
  · intro hx
    exact work_queue_unref_ok env s q hq1 hq2 hx

/-- C7 (counterexample): a newly created private queue has `xref_cnt = 1`, a
free control item and no thread.  `work_queue_unref` is called while
`pthread_create` fails: it returns with `xref_cnt = 0` and the control item
turned into the stop item whose notifier is `_work_queue_free`, but the stop
item is linked nowhere (the queue and the main queue are empty, `tail` is
NULL) and the queue has no thread.  The same happens to a newly created
bucket when `new0` returns NULL for the runner item. -/
theorem unref_without_executive_links_nothing :
    (fault_of (run_steps Engine.boot run_unref_without_thread) = none
      ∧ (fresh_queue.queues q0).xref_cnt = 1
      ∧ (fresh_queue.heap (Ptr.ctl q0)).work = none
      ∧ (fresh_queue.queues q0).n_threads = 0
      ∧ (unref_without_thread.queues q0).xref_cnt = 0
      ∧ (unref_without_thread.heap (Ptr.ctl q0)).work = some Fn.wq_stop
      ∧ (unref_without_thread.heap (Ptr.ctl q0)).notify = some Fn.work_queue_free
      ∧ queue_view (run_steps Engine.boot run_unref_without_thread) q0 = some ([], 0, 10, 0, 0)
      ∧ (unref_without_thread.queues q0).tail = none
      ∧ queue_view (run_steps Engine.boot run_unref_without_thread) QId.main
          = some ([], 0, 65535, 0, 0)
      ∧ (unref_without_thread.queues q0).n_threads = 0
      ∧ unref_without_thread.threads q0 = [])
    ∧ (fault_of (run_steps Engine.boot run_unref_without_runner) = none
      ∧ (unref_without_runner.queues b0).xref_cnt = 0
      ∧ (unref_without_runner.heap (Ptr.ctl b0)).work = some Fn.wq_stop
      ∧ (unref_without_runner.heap (Ptr.ctl b0)).notify = some Fn.work_queue_free
      ∧ queue_view (run_steps Engine.boot run_unref_without_runner) b0 = some ([], 0, 10, 0, 0)
      ∧ (unref_without_runner.queues b0).tail = none
      ∧ queue_view (run_steps Engine.boot run_unref_without_runner) QId.concurrent
          = some ([], 0, 65535, 0, 0)
      ∧ (unref_without_runner.queues b0).n_running = 0) := by
  refine ⟨⟨?_, ?_, ?_, ?_, ?_, ?_, ?_, ?_, ?_, ?_, ?_, ?_⟩, ⟨?_, ?_, ?_, ?_, ?_, ?_, ?_, ?_⟩⟩ <;>
    decide

/-! ## C4: an accepted item, once the engine has let go of it -/

/-- An item linked in the list of queue `o` is there in the sense of
ownership. -/
theorem Shape.own_of_linked {s : Engine} {own : Ptr → Place} {ch : QId → List Ptr}
    (hs : Shape s own ch) (o : QId) (l : List Ptr) (p : Ptr)
    (hl : Lseg s.heap (s.queues o).head l) (hp : p ∈ l) : own p = Place.inq o := by
  have e := Lseg_functional s.heap _ _ _ hl (hs.wf o).seg
  rw [e] at hp
  exact (hs.mem o p).1 hp

/-- An item that ownership gives to a thread of `o` is held by a thread of
`o`. -/
theorem Held.holder_of_thr {s : Engine} {own : Ptr → Place} (hh : Held s own) (o : QId)
    (p : Ptr) (h : own p = Place.thr o) : ∃ pc, pc ∈ s.threads o ∧ p ∈ pc.items := by
  have hc := hh.thr o p
  rw [if_pos h] at hc
  have hpos : 0 < ((s.threads o).flatMap Pc.items).count p := by omega
  exact List.mem_flatMap.1 (List.count_pos_iff.1 hpos)

/-- An item that ownership gives to the main thread is on its stack. -/
theorem Held.on_stack {s : Engine} {own : Ptr → Place} (hh : Held s own) (p : Ptr)
    (h : own p = Place.mstack) : p ∈ s.main_stack := by
  have hc := hh.stk p
  rw [if_pos h] at hc
  have hpos : 0 < s.main_stack.count p := by omega
  exact List.count_pos_iff.1 hpos

/-- The invariants along a run: an item that was handed to the engine stays
so, and a block handed out before the run keeps its content. -/
theorem run_carry : ∀ (steps : List Step) (s s2 : Engine) (own : Ptr → Place)
    (ch : QId → List Ptr), Inv s own ch → Runs s → BInv s own →
    run_steps s steps = .ok s2 →
    ∃ own2 ch2, Inv s2 own2 ch2 ∧ Runs s2 ∧ BInv s2 own2
      ∧ (∀ p, own p ≠ Place.out → own2 p ≠ Place.out)
      ∧ (∀ k, k < s.brk → payload (s2.heap (Ptr.node k)) = payload (s.heap (Ptr.node k)))
      ∧ s.brk ≤ s2.brk := by
  intro steps
  induction steps with
  | nil =>
    intro s s2 own ch hi hr hb h
    simp only [run_steps, Except.ok.injEq] at h
    subst h
    exact ⟨own, ch, hi, hr, hb, fun _ h => h, fun _ _ => rfl, le_refl _⟩
  | cons st rest ih =>
    intro s s2 own ch hi hr hb h
    simp only [run_steps] at h
    split at h
    · cases h
    · next s1 h1 =>
      obtain ⟨own1, ch1, a1, b1, c1, d1, e1, f1⟩ := fire_carry hi hr hb st s1 h1
      obtain ⟨own2, ch2, a2, b2, c2, d2, e2, f2⟩ := ih s1 s2 own1 ch1 a1 b1 c1 h
      refine ⟨own2, ch2, a2, b2, c2, fun p hp => d2 p (d1 p hp), ?_, le_trans f1 f2⟩
      intro k hk
      rw [e2 k (lt_of_lt_of_le hk f1), e1 k hk]

/-- The counts of notifier and cancel calls for the two histories that an item
can have once the engine has let go of it. -/
theorem settled_counts (it : WorkItem) (p : Ptr) (u : Nat) (hw : it.work = some (Fn.user u))
    (hist : List Event) (h : hist = hist_run it p ∨ hist = hist_evict it p) :
    (work_ran hist p = true →
        hist = hist_run it p ∧ invoked hist p = (if it.notify.isSome then 1 else 0, 0))
    ∧ (work_ran hist p = false →
        hist = hist_evict it p ∧ invoked hist p = (0, if it.cancel.isSome then 1 else 0)) := by
  rcases h with h | h
  · subst h
    cases hn : it.notify with
    | none => simp [invoked, work_ran, hist_run, hist_work, hw, hn]
    | some f => simp [invoked, work_ran, hist_run, hist_work, hw, hn]
  · subst h
    cases hc : it.cancel with
    | none => simp [invoked, work_ran, hist_evict, hc]
    | some f => simp [invoked, work_ran, hist_evict, hc]

/-- An item that is linked in a queue in a state the engine can reach keeps
its content along every run from there; and once no list links it, no thread
holds it and it is not on the stack of the main thread, the log holds its
whole life: its work, its notifier if it has one, `free`; or its cancel
callback if it has one, `free`. -/
theorem let_go_history (s : Engine) (hr : Reachable s) (k u : Nat)
    (hw : (s.heap (Ptr.node k)).work = some (Fn.user u))
    (o : QId) (l : List Ptr) (hl : Lseg s.heap (s.queues o).head l) (hm : Ptr.node k ∈ l)
    (steps : List Step) (s2 : Engine) (hrun : run_steps s steps = .ok s2) :
    payload (s2.heap (Ptr.node k)) = payload (s.heap (Ptr.node k))
    ∧ ((∀ o2 l2, Lseg s2.heap (s2.queues o2).head l2 → Ptr.node k ∉ l2) →
        (∀ o2 pc, pc ∈ s2.threads o2 → Ptr.node k ∉ pc.items) →
        Ptr.node k ∉ s2.main_stack →
        about s2.log (Ptr.node k) = hist_run (s.heap (Ptr.node k)) (Ptr.node k)
          ∨ about s2.log (Ptr.node k) = hist_evict (s.heap (Ptr.node k)) (Ptr.node k)) := by
  obtain ⟨own, ch, hi, hrs, hb⟩ := reachable_full s hr
  have hown : own (Ptr.node k) = Place.inq o := hi.shape.own_of_linked o l _ hl hm
  have hlt : k < s.brk := by
    by_contra hge
    have := (hi.fresh k (not_lt.1 hge)).1
    rw [hown] at this
    cases this
  obtain ⟨own2, ch2, hi2, _, _, hacc, hpay, _⟩ := run_carry steps s s2 own ch hi hrs hb hrun
  have hp := hpay k hlt
  refine ⟨hp, ?_⟩
  intro d1 d2 d3
  have hw2 : (s2.heap (Ptr.node k)).work = some (Fn.user u) := by
    rw [payload_work hp]; exact hw
  have hl2 := hi2.shape.life k u hw2
  have hne : own2 (Ptr.node k) ≠ Place.out := hacc _ (by rw [hown]; intro e; cases e)
  cases ho : own2 (Ptr.node k) with
  | out => exact absurd ho hne
  | inq o2 =>
    exact absurd ((hi2.shape.mem o2 _).2 ho) (d1 o2 (ch2 o2) (hi2.shape.wf o2).seg)
  | thr o2 =>
    obtain ⟨pc, hpc, hin⟩ := hi2.held.holder_of_thr o2 _ ho
    exact absurd hin (d2 o2 pc hpc)
  | mstack => exact absurd (hi2.held.on_stack _ ho) d3
  | gone =>
    rw [ho] at hl2
    simp only [Life] at hl2
    rw [hist_run_congr _ _ _ hp, hist_evict_congr _ _ _ hp] at hl2
    exact hl2

/-- C4 (amended): in every state the engine can reach, the log holds about a
submitted item one of five histories (nothing; the `free` of a failed add; its
work; its work, its notifier if it has one, and `free`; its cancel callback if
it has one, and `free`), so its notifier and its cancel callback are invoked at
most once taken together, the notifier only after its work has run, the cancel
callback only if its work has not run.  And for an item that is linked in a
queue: along every run from there it keeps its content, and once no list
links it, no thread holds it and it is not on the stack of the main thread,
exactly one of two things has happened.  Its work has run: then the log holds
its work, its notifier and `free`, the notifier was invoked exactly once if
the item has one and never if it has none, and the cancel callback was not
invoked.  Or its work has not run: then it was evicted, the log holds its
cancel callback and `free`, the cancel callback was invoked exactly once if
the item has one and never if it has none, and the notifier was not
invoked. -/
theorem notify_or_cancel_once_when_let_go (s : Engine) (hr : Reachable s) (k u : Nat)
    (hw : (s.heap (Ptr.node k)).work = some (Fn.user u)) :
    ((about s.log (Ptr.node k) = []
        ∨ about s.log (Ptr.node k) = [Event.free (Ptr.node k)]
        ∨ about s.log (Ptr.node k) = hist_work (s.heap (Ptr.node k)) (Ptr.node k)
        ∨ about s.log (Ptr.node k) = hist_run (s.heap (Ptr.node k)) (Ptr.node k)
        ∨ about s.log (Ptr.node k) = hist_evict (s.heap (Ptr.node k)) (Ptr.node k))
      ∧ (invoked s.log (Ptr.node k)).1 + (invoked s.log (Ptr.node k)).2 ≤ 1
      ∧ ((invoked s.log (Ptr.node k)).1 = 1 →
          (s.heap (Ptr.node k)).notify ≠ none ∧ work_ran s.log (Ptr.node k) = true)
      ∧ ((invoked s.log (Ptr.node k)).2 = 1 →
          (s.heap (Ptr.node k)).cancel ≠ none ∧ work_ran s.log (Ptr.node k) = false))
    ∧ ∀ o l, Lseg s.heap (s.queues o).head l → Ptr.node k ∈ l →
      ∀ steps s2, run_steps s steps = .ok s2 →
        payload (s2.heap (Ptr.node k)) = payload (s.heap (Ptr.node k))
        ∧ ((∀ o2 l2, Lseg s2.heap (s2.queues o2).head l2 → Ptr.node k ∉ l2) →
            (∀ o2 pc, pc ∈ s2.threads o2 → Ptr.node k ∉ pc.items) →
            Ptr.node k ∉ s2.main_stack →
            (work_ran s2.log (Ptr.node k) = true →
                about s2.log (Ptr.node k) = hist_run (s.heap (Ptr.node k)) (Ptr.node k)
                ∧ invoked s2.log (Ptr.node k)
                  = (if (s.heap (Ptr.node k)).notify.isSome then 1 else 0, 0))
            ∧ (work_ran s2.log (Ptr.node k) = false →
                about s2.log (Ptr.node k) = hist_evict (s.heap (Ptr.node k)) (Ptr.node k)
                ∧ invoked s2.log (Ptr.node k)
                  = (0, if (s.heap (Ptr.node k)).cancel.isSome then 1 else 0))) := by
  refine ⟨callbacks_at_most_once s hr k u hw, ?_⟩
  intro o l hl hm steps s2 hrun
  obtain ⟨hp, hd⟩ := let_go_history s hr k u hw o l hl hm steps s2 hrun
  refine ⟨hp, ?_⟩
  intro d1 d2 d3
  have h := settled_counts (s.heap (Ptr.node k)) (Ptr.node k) u hw _ (hd d1 d2 d3)
  simp only [invoked_about, work_ran_about] at h
  exact h

/-- A queue whose `head` is NULL links no item. -/
theorem not_linked_of_empty (s : Engine) (o : QId) (p : Ptr)
    (h : (s.queues o).head = none) (l : List Ptr) (hl : Lseg s.heap (s.queues o).head l) :
    p ∉ l := by
  rw [h] at hl
  cases l with
  | nil => exact List.not_mem_nil _
  | cons a l3 => exact absurd hl.1 (by intro e; cases e)

/-- A queue that links the items `l0` links no other item. -/
theorem not_linked_of_list (s : Engine) (o : QId) (p : Ptr) (l0 : List Ptr)
    (h0 : Lseg s.heap (s.queues o).head l0) (hp : p ∉ l0) (l : List Ptr)
    (hl : Lseg s.heap (s.queues o).head l) : p ∉ l := by
  rw [Lseg_functional s.heap _ _ _ hl h0]
  exact hp

/-- No list of `one_item_notified` links an item. -/
theorem one_item_notified_heads (o : QId) : (one_item_notified.queues o).head = none := by
  cases o with
  | concurrent => decide
  | main => decide
  | queue n =>
    cases n with
    | zero => decide
    | succ n => rfl
  | bucket n => rfl

/-- The only thread of `one_item_notified` waits for the lock of the first
private queue. -/
theorem one_item_notified_threads (o : QId) (pc : Pc) (h : pc ∈ one_item_notified.threads o) :
    pc = Pc.wait := by
  cases o with
  | concurrent =>
    have e : one_item_notified.threads QId.concurrent = [] := by decide
    rw [e] at h
    cases h
  | main =>
    have e : one_item_notified.threads QId.main = [] := by decide
    rw [e] at h
    cases h
  | queue n =>
    cases n with
    | zero =>
      have e : one_item_notified.threads (QId.queue 0) = [Pc.wait] := by decide
      rw [e] at h
      simpa using h
    | succ n =>
      have e : one_item_notified.threads (QId.queue (n + 1)) = [] := rfl
      rw [e] at h
      cases h
  | bucket n =>
    have e : one_item_notified.threads (QId.bucket n) = [] := rfl
    rw [e] at h
    cases h

/-- No list of `second_item_evicted` links the evicted item: the first private
queue links the second rewind add, the other queues are empty. -/
theorem second_item_evicted_lists (o : QId) (l : List Ptr)
    (hl : Lseg second_item_evicted.heap (second_item_evicted.queues o).head l) :
    Ptr.node 4 ∉ l := by
  cases o with
  | concurrent => exact not_linked_of_empty _ _ _ (by decide) l hl
  | main => exact not_linked_of_empty _ _ _ (by decide) l hl
  | queue n =>
    cases n with
    | zero => exact not_linked_of_list _ _ _ [Ptr.node 10] (by decide) (by decide) l hl
    | succ n => exact not_linked_of_empty _ _ _ rfl l hl
  | bucket n => exact not_linked_of_empty _ _ _ rfl l hl

/-- The only thread of `second_item_evicted` runs the first item. -/
theorem second_item_evicted_threads (o : QId) (pc : Pc)
    (h : pc ∈ second_item_evicted.threads o) : pc = Pc.exec (Ptr.node 0) := by
  cases o with
  | concurrent =>
    have e : second_item_evicted.threads QId.concurrent = [] := by decide
    rw [e] at h
    cases h
  | main =>
    have e : second_item_evicted.threads QId.main = [] := by decide
    rw [e] at h
    cases h
  | queue n =>
    cases n with
    | zero =>
      have e : second_item_evicted.threads (QId.queue 0) = [Pc.exec (Ptr.node 0)] := by decide
      rw [e] at h
      simpa using h
    | succ n =>
      have e : second_item_evicted.threads (QId.queue (n + 1)) = [] := rfl
      rw [e] at h
      cases h
  | bucket n =>
    have e : second_item_evicted.threads (QId.bucket n) = [] := rfl
    rw [e] at h
    cases h

/-- Witness of `notify_or_cancel_once_when_let_go`, one run for each of its
two cases.  The item of `one_item_queued` waits in the first private queue;
after `run_to_notified` no list links it and no thread holds it, its work has
run, and its notifier was invoked once and its cancel callback never.  The
second item of `second_item_queued` waits in a full queue; after
`run_to_evicted` no list links it and no thread holds it, its work has not
run, and its cancel callback was invoked once and its notifier never. -/
theorem notify_or_cancel_once_when_let_go_witness :
    ((Reachable one_item_queued
        ∧ (one_item_queued.heap (Ptr.node 0)).work = some (Fn.user 1)
        ∧ Lseg one_item_queued.heap (one_item_queued.queues q0).head [Ptr.node 0]
        ∧ run_steps one_item_queued run_to_notified = .ok one_item_notified
        ∧ (∀ o2 l2, Lseg one_item_notified.heap (one_item_notified.queues o2).head l2 →
            Ptr.node 0 ∉ l2)
        ∧ (∀ o2 pc, pc ∈ one_item_notified.threads o2 → Ptr.node 0 ∉ pc.items)
        ∧ Ptr.node 0 ∉ one_item_notified.main_stack
        ∧ work_ran one_item_notified.log (Ptr.node 0) = true)
      ∧ about one_item_notified.log (Ptr.node 0)
          = [Event.work (Fn.user 1) (Data.user 0) (Ptr.node 0),
             Event.notify (Fn.user 2) (Data.user 0) (Ptr.node 0), Event.free (Ptr.node 0)]
      ∧ invoked one_item_notified.log (Ptr.node 0) = (1, 0))
    ∧ ((Reachable second_item_queued
        ∧ (second_item_queued.heap (Ptr.node 4)).work = some (Fn.user 1)
        ∧ Lseg second_item_queued.heap (second_item_queued.queues q0).head [Ptr.node 4]
        ∧ run_steps second_item_queued run_to_evicted = .ok second_item_evicted
        ∧ (∀ o2 l2, Lseg second_item_evicted.heap (second_item_evicted.queues o2).head l2 →
            Ptr.node 4 ∉ l2)
        ∧ (∀ o2 pc, pc ∈ second_item_evicted.threads o2 → Ptr.node 4 ∉ pc.items)
        ∧ Ptr.node 4 ∉ second_item_evicted.main_stack
        ∧ work_ran second_item_evicted.log (Ptr.node 4) = false)
      ∧ about second_item_evicted.log (Ptr.node 4)
          = [Event.cancel (Fn.user 3) (Data.user 1) (Ptr.node 4), Event.free (Ptr.node 4)]
      ∧ invoked second_item_evicted.log (Ptr.node 4) = (0, 1)) :=
  have d1 : ∀ o2 l2, Lseg one_item_notified.heap (one_item_notified.queues o2).head l2 →
      Ptr.node 0 ∉ l2 :=
    fun o2 l2 hl => not_linked_of_empty _ _ _ (one_item_notified_heads o2) l2 hl
  have d2 : ∀ o2 pc, pc ∈ one_item_notified.threads o2 → Ptr.node 0 ∉ pc.items := by
    intro o2 pc h
    rw [one_item_notified_threads o2 pc h]
    exact List.not_mem_nil _
  have hq : Lseg one_item_queued.heap (one_item_queued.queues q0).head [Ptr.node 0] := by decide
  have e2 : ∀ o2 pc, pc ∈ second_item_evicted.threads o2 → Ptr.node 4 ∉ pc.items := by
    intro o2 pc h
    rw [second_item_evicted_threads o2 pc h]
    decide
  have hq2 : Lseg second_item_queued.heap (second_item_queued.queues q0).head [Ptr.node 4] := by
    decide
  ⟨⟨⟨reachable_state_after _, by decide, hq, rfl, d1, d2, by decide, by decide⟩,
      ((((notify_or_cancel_once_when_let_go one_item_queued (reachable_state_after _) 0 1
        (by decide)).2 q0 [Ptr.node 0] hq (by decide) run_to_notified one_item_notified rfl).2
          d1 d2 (by decide)).1 (by decide)).1,
      ((((notify_or_cancel_once_when_let_go one_item_queued (reachable_state_after _) 0 1
        (by decide)).2 q0 [Ptr.node 0] hq (by decide) run_to_notified one_item_notified rfl).2
          d1 d2 (by decide)).1 (by decide)).2⟩,
    ⟨⟨reachable_state_after _, by decide, hq2, rfl, second_item_evicted_lists, e2, by decide,
        by decide⟩,
      ((((notify_or_cancel_once_when_let_go second_item_queued (reachable_state_after _) 4 1
        (by decide)).2 q0 [Ptr.node 4] hq2 (by decide) run_to_evicted second_item_evicted
          rfl).2 second_item_evicted_lists e2 (by decide)).2 (by decide)).1,
      ((((notify_or_cancel_once_when_let_go second_item_queued (reachable_state_after _) 4 1
        (by decide)).2 q0 [Ptr.node 4] hq2 (by decide) run_to_evicted second_item_evicted
          rfl).2 second_item_evicted_lists e2 (by decide)).2 (by decide)).2⟩⟩

/-! ## The theorems at concrete inputs -/

theorem fresh_queue_callable : Callable fresh_queue q0 :=
  ⟨by decide, by decide, by decide, by decide, by decide⟩

theorem fresh_queue_empty : Chain fresh_queue.heap (fresh_queue.queues q0) [] :=
  ⟨by decide, by decide, by decide, List.nodup_nil⟩

theorem thirty_env_ok : ∀ x ∈ thirty, ∃ item, EnvOk x.env item := by
  intro x hx
  simp only [thirty, List.mem_map, List.mem_range] at hx
  obtain ⟨i, _, rfl⟩ := hx
  exact ⟨Ptr.node (2 * i), rfl, by simp [env_at], rfl⟩

/-- Witness of `add_full_iff_no_room`: of the 30 adds of `test_add` onto an
untouched queue of `maxsize` 10, the first 10 return 0 and the other 20
return `-EAGAIN`. -/
theorem add_full_iff_no_room_witness :
    Callable fresh_queue q0
    ∧ ∃ s2 : Engine, submit_all false q0 fresh_queue thirty
        = .ok (List.replicate 10 0 ++ List.replicate 20 (-EAGAIN), s2) := by
  refine ⟨fresh_queue_callable, ?_⟩
  obtain ⟨s2, h⟩ := (add_full_iff_no_room fresh_queue q0 fresh_queue_callable).2 thirty
    thirty_env_ok
  refine ⟨s2, ?_⟩
  rw [h]
  rfl

/-- Witness of `fifo_order`: two items appended to an empty queue come out in
the order of their insertion. -/
theorem fifo_order_witness :
    Chain (fun _ => WorkItem.zero) WorkQueue.zero []
    ∧ ([] ++ [Ptr.node 0, Ptr.node 1]).Nodup
    ∧ ∃ h1 Q1,
        drain_many
            (add_tail_many (fun _ => WorkItem.zero) WorkQueue.zero [Ptr.node 0, Ptr.node 1]).1
            (add_tail_many (fun _ => WorkItem.zero) WorkQueue.zero [Ptr.node 0, Ptr.node 1]).2
            (([] : List Ptr).length + [Ptr.node 0, Ptr.node 1].length)
          = .ok (([] ++ [Ptr.node 0, Ptr.node 1]).map some, h1, Q1)
        ∧ _work_queue_drain_one_unlocked h1 Q1 = .ok (none, h1, Q1) :=
  ⟨⟨rfl, rfl, rfl, List.nodup_nil⟩, by decide,
    fifo_order (fun _ => WorkItem.zero) WorkQueue.zero [] [Ptr.node 0, Ptr.node 1]
      ⟨rfl, rfl, rfl, List.nodup_nil⟩ (by decide)⟩

/-- Witness of `unref_schedules_free`: the last unref of an empty private
queue whose thread can be created queues the stop item; an unref with two
references held only counts down. -/
theorem unref_schedules_free_witness :
    (q0 ≠ QId.concurrent ∧ q0 ≠ QId.main)
    ∧ (∃ s2 : Engine, work_queue_unref (env_at 0) fresh_queue q0 = .ok s2
        ∧ (s2.queues q0).xref_cnt = 0
        ∧ Chain s2.heap (s2.queues q0) [Ptr.ctl q0])
    ∧ work_queue_unref (env_at 0) (state_after [Step.new_queue 0 10, Step.ref q0]) q0
        = .ok ((state_after [Step.new_queue 0 10, Step.ref q0]).setQ q0
            { (state_after [Step.new_queue 0 10, Step.ref q0]).queues q0 with
              xref_cnt := ((state_after [Step.new_queue 0 10, Step.ref q0]).queues q0).xref_cnt
                - 1 }) := by
  refine ⟨⟨by decide, by decide⟩, ?_, ?_⟩
  · obtain ⟨s2, h1, h2, _, _, _, h6⟩ :=
      (unref_schedules_free (env_at 0) fresh_queue q0 [] (by decide) (by decide)).1
        (by decide) (by decide) (by decide) (by decide)
        (fun h => absurd h (by decide)) fresh_queue_empty (by simp)
    exact ⟨s2, h1, h2, by simpa using (h6 (by decide)).1⟩
  · exact (unref_schedules_free (env_at 0) (state_after [Step.new_queue 0 10, Step.ref q0]) q0 []
      (by decide) (by decide)).2 (by decide)

/-- Witness of `run_main_queue_zero_timeout`: with one finished item on the
main queue, the first call returns 0 and the second `-EAGAIN`. -/
theorem run_main_queue_zero_timeout_witness :
    (Chain one_item_done.heap (one_item_done.queues QId.main) [Ptr.node 0]
      ∧ UserItems one_item_done.heap [Ptr.node 0])
    ∧ ∃ s2 : Engine, run_main_many (env_at 8) one_item_done 2 = .ok ([0, -EAGAIN], s2) := by
  have hch : Chain one_item_done.heap (one_item_done.queues QId.main) [Ptr.node 0] :=
    ⟨by decide, by decide, by decide, by decide⟩
  have hu : UserItems one_item_done.heap [Ptr.node 0] := by
    intro p hp
    have hp0 : p = Ptr.node 0 := by simpa using hp
    subst hp0
    exact ⟨by decide, 2, by decide⟩
  refine ⟨⟨hch, hu⟩, ?_⟩
  obtain ⟨s2, h⟩ := (run_main_queue_zero_timeout (env_at 8) one_item_done).2.2.2.2 _ hch hu
  exact ⟨s2, by simpa using h⟩

/-- Witness of `private_queue_one_thread`: in the state where the worker of a
private queue has dequeued the single item, the queue has one thread and one
running item. -/
theorem private_queue_one_thread_witness :
    (Reachable one_item_running
      ∧ (one_item_running.queues (QId.queue 0)).vtable = some VTable.queue)
    ∧ (one_item_running.queues (QId.queue 0)).n_running = 1
    ∧ (one_item_running.queues (QId.queue 0)).n_threads = 1
    ∧ one_item_running.threads (QId.queue 0) = [Pc.exec (Ptr.node 0)]
    ∧ (one_item_running.queues (QId.queue 0)).n_running
        ≤ (one_item_running.queues (QId.queue 0)).n_threads
    ∧ (one_item_running.queues (QId.queue 0)).n_threads ≤ 1 :=
  ⟨⟨reachable_state_after _, by decide⟩, by decide, by decide, by decide,
    (private_queue_one_thread one_item_running (reachable_state_after _) 0 (by decide)).2.2.1,
    (private_queue_one_thread one_item_running (reachable_state_after _) 0 (by decide)).2.2.2.1⟩

/-! ## The theorems of C23 to C27 at concrete inputs -/

/-- Witness of `thread_attempt_and_add`: a newly created private queue has no
thread, so an attempt is due; with `pthread_create` answering 0 the thread is
created, with the answer 11 the add returns -11 and changes nothing. -/
theorem thread_attempt_and_add_witness :
    (fresh_queue.queues q0).vtable = some VTable.queue
    ∧ attempt_condition (fresh_queue.queues q0)
    ∧ _more_thread_unlocked (env_at 0) fresh_queue q0 = (1, with_new_thread fresh_queue q0)
    ∧ _work_queue_add_unlocked { env_at 0 with thread_create := 11 } fresh_queue q0
          (Ptr.node 0) false true
        = .ok (-11, fresh_queue) :=
  ⟨by decide, by decide,
    (thread_attempt_and_add fresh_queue q0 (env_at 0) (by decide) (by decide)).2.2.1
      (by decide) rfl,
    ((thread_attempt_and_add fresh_queue q0 { env_at 0 with thread_create := 11 } (by decide)
      (by decide)).2.2.2.2.2.2.2.2 (Ptr.node 0) false true).2.1 (by decide) (by decide)
      (by decide) (by decide)⟩

/-- Witness of `sentinel_waits_for_running_work`: in the state `barrier_alone`
the barrier is at the head while the single item of the queue is running, and
`work_queue_run_unlocked` returns `-EBUSY` without a change. -/
theorem sentinel_waits_for_running_work_witness :
    Reachable barrier_alone
    ∧ (barrier_alone.queues q0).head = some (Ptr.ctl q0)
    ∧ work_item_is_barrier (barrier_alone.heap (Ptr.ctl q0)) = true
    ∧ 0 < (barrier_alone.queues q0).n_running
    ∧ run_begin (env_at 6) barrier_alone q0 = .ok (Ran.ret (-EBUSY), barrier_alone) :=
  ⟨reachable_state_after _, by decide, by decide, by decide,
    ((sentinel_waits_for_running_work barrier_alone (reachable_state_after _)).1 (env_at 6) q0
      (Ptr.ctl q0) (by decide) (by decide)).1 (by decide)⟩

/-- Witness of `stop_drained_by_last_worker`: in the state `stop_at_head` the
stop item is alone in the queue and the queue has one thread; that thread
executes the stop item and ends. -/
theorem stop_drained_by_last_worker_witness :
    (stop_at_head.queues q0).head = some (Ptr.ctl q0)
    ∧ work_item_is_stop (stop_at_head.heap (Ptr.ctl q0)) = true
    ∧ (stop_at_head.queues q0).n_threads = 1
    ∧ ∃ s2, workers_observe (env_at 10) q0 stop_at_head 1 = .ok s2
        ∧ (s2.queues q0).n_threads = 0
        ∧ s2.log = stop_at_head.log
            ++ [Event.work Fn.wq_stop (stop_at_head.heap (Ptr.ctl q0)).data (Ptr.ctl q0)]
        ∧ (s2.queues q0).head = (stop_at_head.heap (Ptr.ctl q0)).next
        ∧ (s2.queues QId.main).tail = some (Ptr.ctl q0) :=
  ⟨by decide, by decide, by decide,
    (((stop_drained_by_last_worker stop_at_head q0 (Ptr.ctl q0) (env_at 10) (by decide)
      (by decide)).2.2 [] Fn.set_bool (by decide)
      ⟨by decide, by decide, by decide, by decide⟩ (by decide) (by decide) (by decide)
      (by decide)).2 1 (le_refl 1) (by decide)).1⟩

/-- Witness of `main_requeue_always_succeeds`: on a main queue with
`n_items = 65535 = maxsize` the add returns 0 and the item is at the tail; the
main queue of the reachable state `one_item_done` is of the kind the theorem
asks for. -/
theorem main_requeue_always_succeeds_witness :
    ((main_queue_full.queues QId.main).maxsize ≤ (main_queue_full.queues QId.main).n_items
      ∧ ∃ s2 : Engine,
        (∀ env2 : Env,
          _work_queue_add env2 main_queue_full QId.main (Ptr.node 8) false false = .ok (0, s2))
        ∧ (s2.queues QId.main).tail = some (Ptr.node 8)
        ∧ (s2.queues QId.main).n_items = (main_queue_full.queues QId.main).n_items + 1)
    ∧ ((one_item_done.queues QId.main).vtable = some VTable.queue
      ∧ (one_item_done.queues QId.main).n_threads = 1
      ∧ (one_item_done.queues QId.main).width = 1) :=
  ⟨⟨by decide,
      match main_requeue_always_succeeds.1 main_queue_full (env_at 8) (Ptr.node 8) (by decide)
        (by decide) (by decide) with
      | ⟨s2, h1, h2, h3, _⟩ => ⟨s2, h1, h2, h3⟩⟩,
    main_requeue_always_succeeds.2 one_item_done (reachable_state_after _) (by decide)⟩

end WQ

namespace Utf8

/-! ## Bytes: the bit tests of the validator as ranges -/

set_option maxRecDepth 100000 in
theorem lead2_iff : ∀ b, b < 256 → (b &&& 0xe0 = 0xc0 ↔ (0xC0 ≤ b ∧ b < 0xE0)) := by decide

set_option maxRecDepth 100000 in
theorem overlong2_iff : ∀ b, b < 256 → 0xC0 ≤ b → b < 0xE0 → (b &&& 0x1e = 0 ↔ b < 0xC2) := by
  decide

set_option maxRecDepth 100000 in
theorem cont_iff : ∀ b, b < 256 → (b &&& 0xc0 = 0x80 ↔ (0x80 ≤ b ∧ b < 0xC0)) := by decide

set_option maxRecDepth 100000 in
theorem lead3_iff : ∀ b, b < 256 → (b &&& 0xf0 = 0xe0 ↔ (0xE0 ≤ b ∧ b < 0xF0)) := by decide

set_option maxRecDepth 100000 in
theorem lead4_iff : ∀ b, b < 256 → (b &&& 0xf8 = 0xf0 ↔ (0xF0 ≤ b ∧ b < 0xF8)) := by decide

theorem and_3f (b : Nat) : b &&& 0x3f = b % 64 := Nat.and_pow_two_sub_one_eq_mod b 6

theorem and_0f (b : Nat) : b &&& 0x0f = b % 16 := Nat.and_pow_two_sub_one_eq_mod b 4

theorem and_07 (b : Nat) : b &&& 0x07 = b % 8 := Nat.and_pow_two_sub_one_eq_mod b 3

theorem or_low6 (v x : Nat) (h : x < 64) : v * 64 ||| x = v * 64 + x := by
  have := Nat.mul_add_lt_is_or (i := 6) (b := x) (by simpa using h) v
  simp only [Nat.reducePow] at this
  rw [Nat.mul_comm] at this
  exact this.symm

/-- `c & 0xFFFFF800` keeps the bits from bit 11 on. -/
theorem mask_hi (c : Nat) (h : c < 2 ^ 32) : c &&& 0xFFFFF800 = 2048 * (c / 2048) := by
  apply Nat.eq_of_testBit_eq
  intro i
  have hm : (0xFFFFF800 : Nat) = 2 ^ 11 * (2 ^ 21 - 1) := by norm_num
  rw [Nat.testBit_and, hm, Nat.testBit_mul_pow_two, Nat.testBit_two_pow_sub_one]
  have h2 : (2048 : Nat) = 2 ^ 11 := by norm_num
  rw [h2, Nat.testBit_mul_pow_two, ← Nat.shiftRight_eq_div_pow, Nat.testBit_shiftRight]
  by_cases h11 : 11 ≤ i
  · simp only [h11, decide_True, Bool.true_and]
    have e : 11 + (i - 11) = i := by omega
    rw [e]
    by_cases h21 : i - 11 < 21
    · simp [h21]
    · simp only [h21, decide_False, Bool.and_false]
      have hi : 32 ≤ i := by omega
      exact (Nat.testBit_lt_two_pow
        (lt_of_lt_of_le h (Nat.pow_le_pow_right (by norm_num) hi))).symm
  · simp [h11]

/-- The macro `UNICODE_VALID` on a `uint32_t` is the rule of the specification. -/
theorem UNICODE_VALID_iff (c : Nat) (h : c < 2 ^ 32) : UNICODE_VALID c = true ↔ scalar_valid c := by
  have hm := mask_hi c h
  simp only [UNICODE_VALID, scalar_valid, Bool.and_eq_true, Bool.or_eq_true, decide_eq_true_eq,
    hm]
  constructor
  · rintro ⟨⟨⟨h1, h2⟩, h3⟩, h4⟩
    exact ⟨h1, by omega, by omega, h4⟩
  · rintro ⟨h1, h2, h3, h4⟩
    exact ⟨⟨⟨h1, by omega⟩, by omega⟩, h4⟩

/-- A code point below `0x800` is admitted. -/
theorem scalar_valid_small (c : Nat) (h : c < 0x800) : scalar_valid c := by
  refine ⟨by omega, by omega, by omega, ?_⟩
  have := Nat.and_le_left (n := c) (m := 0xFFFE)
  omega

theorem CONTINUATION_CHAR_eq (b val : Nat) (hb : b < 256) (hv : val < 2 ^ 26) :
    CONTINUATION_CHAR b val
      = if 0x80 ≤ b ∧ b < 0xC0 then some (val * 64 + (b - 0x80)) else none := by
  unfold CONTINUATION_CHAR
  by_cases hc : 0x80 ≤ b ∧ b < 0xC0
  · have h1 : b &&& 0xc0 = 0x80 := (cont_iff b hb).2 hc
    have h2 : (val <<< 6) % 2 ^ 32 = val * 64 := by
      rw [Nat.shiftLeft_eq]
      apply Nat.mod_eq_of_lt
      norm_num at hv ⊢
      omega
    have h3 : b &&& 0x3f = b - 0x80 := by
      rw [and_3f]; omega
    rw [if_neg (by simp [h1]), if_pos hc, h2, h3, or_low6 _ _ (by omega)]
  · have h1 : b &&& 0xc0 ≠ 0x80 := fun e => hc ((cont_iff b hb).1 e)
    rw [if_pos h1, if_neg hc]

end Utf8

namespace WQ

end WQ

namespace Utf8

/-! ## One sequence of the validator -/

theorem Occ_nil (mem : List Nat) (p : Nat) : Occ mem p [] := by
  intro i hi
  cases hi

theorem Occ_cons (mem : List Nat) (p x : Nat) (l : List Nat) :
    Occ mem p (x :: l) ↔ byte mem p = x ∧ Occ mem (p + 1) l := by
  constructor
  · intro h
    refine ⟨by simpa using h 0 (by simp), ?_⟩
    intro i hi
    have := h (i + 1) (by simpa using hi)
    rw [show p + 1 + i = p + (i + 1) by omega]
    simpa using this
  · rintro ⟨h0, h1⟩ i hi
    cases i with
    | zero => simpa using h0
    | succ j =>
      have := h1 j (by simpa using hi)
      rw [show p + (j + 1) = p + 1 + j by omega]
      simpa using this

theorem Occ_append (mem : List Nat) (p : Nat) (l1 l2 : List Nat) :
    Occ mem p (l1 ++ l2) ↔ Occ mem p l1 ∧ Occ mem (p + l1.length) l2 := by
  induction l1 generalizing p with
  | nil => simp [Occ_nil]
  | cons x l ih =>
    rw [List.cons_append, Occ_cons, Occ_cons, ih, List.length_cons,
      show p + 1 + l.length = p + (l.length + 1) by omega]
    tauto

theorem byte_lt (mem : List Nat) (hb : ∀ b ∈ mem, b < 256) (i : Nat) : byte mem i < 256 := by
  unfold byte
  rw [List.getD_eq_getElem?_getD]
  cases h : mem[i]? with
  | none => simp
  | some b =>
    simp only [Option.getD_some]
    obtain ⟨hi, e⟩ := List.getElem?_eq_some_iff.1 h
    exact hb b (e ▸ List.getElem_mem hi)

theorem encode_length_pos (c : Nat) : 0 < (encode c).length := by
  unfold encode
  split_ifs <;> simp

theorem encode_length_le (c : Nat) : (encode c).length ≤ 4 := by
  unfold encode
  split_ifs <;> simp

theorem TWO_REMAINING_eq (mem : List Nat) (hb : ∀ i, byte mem i < 256) (min val p : Nat)
    (hv : val < 2 ^ 14) :
    TWO_REMAINING mem min val p
      = if (0x80 ≤ byte mem (p + 1) ∧ byte mem (p + 1) < 0xC0)
            ∧ (0x80 ≤ byte mem (p + 2) ∧ byte mem (p + 2) < 0xC0)
            ∧ min ≤ (val * 64 + (byte mem (p + 1) - 0x80)) * 64 + (byte mem (p + 2) - 0x80)
            ∧ scalar_valid
                ((val * 64 + (byte mem (p + 1) - 0x80)) * 64 + (byte mem (p + 2) - 0x80))
        then some (p + 2) else none := by
  unfold TWO_REMAINING
  rw [CONTINUATION_CHAR_eq _ _ (hb _) (lt_of_lt_of_le hv (by norm_num))]
  by_cases h1 : 0x80 ≤ byte mem (p + 1) ∧ byte mem (p + 1) < 0xC0
  · rw [if_pos h1]
    simp only
    have hv1 : val * 64 + (byte mem (p + 1) - 0x80) < 2 ^ 20 := by
      norm_num at hv ⊢
      omega
    rw [CONTINUATION_CHAR_eq _ _ (hb _) (lt_of_lt_of_le hv1 (by norm_num))]
    by_cases h2 : 0x80 ≤ byte mem (p + 2) ∧ byte mem (p + 2) < 0xC0
    · rw [if_pos h2]
      simp only
      have hv2 : (val * 64 + (byte mem (p + 1) - 0x80)) * 64 + (byte mem (p + 2) - 0x80)
          < 2 ^ 32 := by
        norm_num at hv1 ⊢
        omega
      by_cases h3 : (val * 64 + (byte mem (p + 1) - 0x80)) * 64 + (byte mem (p + 2) - 0x80) < min
      · rw [if_pos h3, if_neg]
        intro h
        omega
      · rw [if_neg h3]
        by_cases h4 : scalar_valid
            ((val * 64 + (byte mem (p + 1) - 0x80)) * 64 + (byte mem (p + 2) - 0x80))
        · rw [if_neg (by simp [(UNICODE_VALID_iff _ hv2).2 h4]), if_pos ⟨h1, h2, by omega, h4⟩]
        · have h5 : UNICODE_VALID
              ((val * 64 + (byte mem (p + 1) - 0x80)) * 64 + (byte mem (p + 2) - 0x80))
              = false := by
            cases hx : UNICODE_VALID
              ((val * 64 + (byte mem (p + 1) - 0x80)) * 64 + (byte mem (p + 2) - 0x80))
            · rfl
            · exact absurd ((UNICODE_VALID_iff _ hv2).1 hx) h4
          rw [if_pos (by simp [h5]), if_neg]
          intro h
          exact h4 h.2.2.2
    · rw [if_neg h2, if_neg]
      intro h
      exact h2 h.2.1
  · rw [if_neg h1, if_neg]
    intro h
    exact h1 h.1

/-- Body of the loop of `fast_validate_len` for a byte `>= 128`, with the bit
tests written as ranges. -/
theorem multibyte_len_eq (mem : List Nat) (hb : ∀ i, byte mem i < 256) (max_len p : Nat) :
    multibyte_len mem max_len p
      = if 0xC0 ≤ byte mem p ∧ byte mem p < 0xE0 then
          (if p + 2 ≤ max_len ∧ 0xC2 ≤ byte mem p
              ∧ (0x80 ≤ byte mem (p + 1) ∧ byte mem (p + 1) < 0xC0) then some (p + 1) else none)
        else if 0xE0 ≤ byte mem p ∧ byte mem p < 0xF0 then
          (if p + 3 ≤ max_len
              ∧ (0x80 ≤ byte mem (p + 1) ∧ byte mem (p + 1) < 0xC0)
              ∧ (0x80 ≤ byte mem (p + 2) ∧ byte mem (p + 2) < 0xC0)
              ∧ 0x800 ≤ (byte mem p % 16 * 64 + (byte mem (p + 1) - 0x80)) * 64
                  + (byte mem (p + 2) - 0x80)
              ∧ scalar_valid ((byte mem p % 16 * 64 + (byte mem (p + 1) - 0x80)) * 64
                  + (byte mem (p + 2) - 0x80))
            then some (p + 2) else none)
        else if 0xF0 ≤ byte mem p ∧ byte mem p < 0xF8 then
          (if p + 4 ≤ max_len
              ∧ (0x80 ≤ byte mem (p + 1) ∧ byte mem (p + 1) < 0xC0)
              ∧ (0x80 ≤ byte mem (p + 2) ∧ byte mem (p + 2) < 0xC0)
              ∧ (0x80 ≤ byte mem (p + 3) ∧ byte mem (p + 3) < 0xC0)
              ∧ 0x10000 ≤ ((byte mem p % 8 * 64 + (byte mem (p + 1) - 0x80)) * 64
                  + (byte mem (p + 2) - 0x80)) * 64 + (byte mem (p + 3) - 0x80)
              ∧ scalar_valid (((byte mem p % 8 * 64 + (byte mem (p + 1) - 0x80)) * 64
                  + (byte mem (p + 2) - 0x80)) * 64 + (byte mem (p + 3) - 0x80))
            then some (p + 3) else none)
        else none := by
  have h0 := hb p
  unfold multibyte_len
  simp only
  by_cases h2 : 0xC0 ≤ byte mem p ∧ byte mem p < 0xE0
  · rw [if_pos ((lead2_iff _ h0).2 h2), if_pos h2]
    by_cases hl : (max_len : Int) - (p : Int) < 2
    · rw [if_pos hl, if_neg]
      intro h
      omega
    · rw [if_neg hl]
      by_cases ho : byte mem p &&& 0x1e = 0
      · rw [if_pos ho, if_neg]
        intro h
        have := (overlong2_iff _ h0 h2.1 h2.2).1 ho
        omega
      · rw [if_neg ho]
        have ho2 : 0xC2 ≤ byte mem p := by
          by_contra hc
          exact ho ((overlong2_iff _ h0 h2.1 h2.2).2 (by omega))
        by_cases hc : 0x80 ≤ byte mem (p + 1) ∧ byte mem (p + 1) < 0xC0
        · rw [if_neg (by simp [(cont_iff _ (hb _)).2 hc]), if_pos ⟨by omega, ho2, hc⟩]
        · rw [if_pos (fun e => hc ((cont_iff _ (hb _)).1 e)), if_neg]
          intro h
          exact hc h.2.2
  · rw [if_neg (fun e => h2 ((lead2_iff _ h0).1 e)), if_neg h2]
    by_cases h3 : 0xE0 ≤ byte mem p ∧ byte mem p < 0xF0
    · rw [if_pos ((lead3_iff _ h0).2 h3), if_pos h3]
      by_cases hl : (max_len : Int) - (p : Int) < 3
      · rw [if_pos hl, if_neg]
        intro h
        omega
      · rw [if_neg hl, and_0f, TWO_REMAINING_eq mem hb _ _ _ (by norm_num; omega)]
        have e : (1 <<< 11 : Nat) = 0x800 := by decide
        rw [e]
        by_cases hc : (0x80 ≤ byte mem (p + 1) ∧ byte mem (p + 1) < 0xC0)
            ∧ (0x80 ≤ byte mem (p + 2) ∧ byte mem (p + 2) < 0xC0)
            ∧ 0x800 ≤ (byte mem p % 16 * 64 + (byte mem (p + 1) - 0x80)) * 64
                + (byte mem (p + 2) - 0x80)
            ∧ scalar_valid ((byte mem p % 16 * 64 + (byte mem (p + 1) - 0x80)) * 64
                + (byte mem (p + 2) - 0x80))
        · rw [if_pos hc, if_pos ⟨by omega, hc⟩]
        · rw [if_neg hc, if_neg]
          intro h
          exact hc h.2
    · rw [if_neg (fun e => h3 ((lead3_iff _ h0).1 e)), if_neg h3]
      by_cases h4 : 0xF0 ≤ byte mem p ∧ byte mem p < 0xF8
      · rw [if_pos ((lead4_iff _ h0).2 h4), if_pos h4]
        by_cases hl : (max_len : Int) - (p : Int) < 4
        · rw [if_pos hl, if_neg]
          intro h
          omega
        · rw [if_neg hl, and_07, CONTINUATION_CHAR_eq _ _ (hb _) (by norm_num; omega)]
          by_cases hc1 : 0x80 ≤ byte mem (p + 1) ∧ byte mem (p + 1) < 0xC0
          · rw [if_pos hc1]
            simp only
            rw [TWO_REMAINING_eq mem hb _ _ _ (by norm_num; omega)]
            have e : (1 <<< 16 : Nat) = 0x10000 := by decide
            rw [e, show p + 1 + 1 = p + 2 by omega, show p + 1 + 2 = p + 3 by omega]
            by_cases hc : (0x80 ≤ byte mem (p + 2) ∧ byte mem (p + 2) < 0xC0)
                ∧ (0x80 ≤ byte mem (p + 3) ∧ byte mem (p + 3) < 0xC0)
                ∧ 0x10000 ≤ ((byte mem p % 8 * 64 + (byte mem (p + 1) - 0x80)) * 64
                    + (byte mem (p + 2) - 0x80)) * 64 + (byte mem (p + 3) - 0x80)
                ∧ scalar_valid (((byte mem p % 8 * 64 + (byte mem (p + 1) - 0x80)) * 64
                    + (byte mem (p + 2) - 0x80)) * 64 + (byte mem (p + 3) - 0x80))
            · rw [if_pos hc, if_pos ⟨by omega, hc1, hc⟩]
            · rw [if_neg hc, if_neg]
              intro h
              exact hc h.2.2
          · rw [if_neg hc1, if_neg]
            intro h
            exact hc1 h.2.1
      · rw [if_neg (fun e => h4 ((lead4_iff _ h0).1 e)), if_neg h4]

theorem encode1 (c : Nat) (h : c < 0x80) : encode c = [c] := by
  unfold encode
  rw [if_pos h]

theorem encode2 (c : Nat) (h1 : 0x80 ≤ c) (h2 : c < 0x800) :
    encode c = [0xC0 + c / 64, 0x80 + c % 64] := by
  unfold encode
  rw [if_neg (by omega), if_pos h2]

theorem encode3 (c : Nat) (h1 : 0x800 ≤ c) (h2 : c < 0x10000) :
    encode c = [0xE0 + c / 4096, 0x80 + c / 64 % 64, 0x80 + c % 64] := by
  unfold encode
  rw [if_neg (by omega), if_neg (by omega), if_pos h2]

theorem encode4 (c : Nat) (h1 : 0x10000 ≤ c) :
    encode c = [0xF0 + c / 262144, 0x80 + c / 4096 % 64, 0x80 + c / 64 % 64, 0x80 + c % 64] := by
  unfold encode
  rw [if_neg (by omega), if_neg (by omega), if_neg (by omega)]

/-- The validator accepts a multi-byte sequence at `p` exactly when the
encoding of an admitted code point stands there and fits. -/
theorem multibyte_len_iff (mem : List Nat) (hb : ∀ i, byte mem i < 256) (max_len p q : Nat)
    (h128 : 128 ≤ byte mem p) :
    multibyte_len mem max_len p = some q
      ↔ ∃ c, Starts mem max_len p c ∧ q + 1 = p + (encode c).length := by
  rw [multibyte_len_eq mem hb]
  constructor
  · intro h
    split_ifs at h with h2 c2 h3 c3 h4 c4
    · simp only [Option.some.injEq] at h
      refine ⟨(byte mem p - 0xC0) * 64 + (byte mem (p + 1) - 0x80), ?_⟩
      have e := encode2 ((byte mem p - 0xC0) * 64 + (byte mem (p + 1) - 0x80)) (by omega)
        (by omega)
      refine ⟨⟨scalar_valid_small _ (by omega), by omega, ?_, ?_⟩, ?_⟩
      · rw [e, Occ_cons, Occ_cons]
        exact ⟨by omega, by omega, Occ_nil _ _⟩
      · rw [e]; simp; omega
      · rw [e]; simp; omega
    · simp only [Option.some.injEq] at h
      refine ⟨(byte mem p % 16 * 64 + (byte mem (p + 1) - 0x80)) * 64
        + (byte mem (p + 2) - 0x80), ?_⟩
      have e := encode3 ((byte mem p % 16 * 64 + (byte mem (p + 1) - 0x80)) * 64
        + (byte mem (p + 2) - 0x80)) c3.2.2.2.1 (by omega)
      refine ⟨⟨c3.2.2.2.2, by omega, ?_, ?_⟩, ?_⟩
      · rw [e, Occ_cons, Occ_cons, Occ_cons]
        exact ⟨by omega, by omega, by rw [show p + 1 + 1 = p + 2 by omega]; omega, Occ_nil _ _⟩
      · rw [e]; simp; omega
      · rw [e]; simp; omega
    · simp only [Option.some.injEq] at h
      refine ⟨((byte mem p % 8 * 64 + (byte mem (p + 1) - 0x80)) * 64
        + (byte mem (p + 2) - 0x80)) * 64 + (byte mem (p + 3) - 0x80), ?_⟩
      have e := encode4 (((byte mem p % 8 * 64 + (byte mem (p + 1) - 0x80)) * 64
        + (byte mem (p + 2) - 0x80)) * 64 + (byte mem (p + 3) - 0x80)) c4.2.2.2.2.1
      refine ⟨⟨c4.2.2.2.2.2, by omega, ?_, ?_⟩, ?_⟩
      · rw [e, Occ_cons, Occ_cons, Occ_cons, Occ_cons]
        exact ⟨by omega, by omega, by rw [show p + 1 + 1 = p + 2 by omega]; omega,
          by rw [show p + 1 + 1 + 1 = p + 3 by omega]; omega, Occ_nil _ _⟩
      · rw [e]; simp; omega
      · rw [e]; simp; omega
  · rintro ⟨c, ⟨hv, hc0, hocc, hfit⟩, hq⟩
    by_cases h1 : c < 0x80
    · rw [encode1 c h1, Occ_cons] at hocc
      omega
    · by_cases h2 : c < 0x800
      · have e := encode2 c (by omega) h2
        rw [e] at hocc hfit hq
        rw [Occ_cons, Occ_cons] at hocc
        simp only [List.length_cons, List.length_nil] at hfit hq
        obtain ⟨b0, b1, _⟩ := hocc
        rw [if_pos (by omega), if_pos ⟨by omega, by omega, by omega⟩]
        exact congrArg some (by omega)
      · by_cases h3 : c < 0x10000
        · have e := encode3 c (by omega) h3
          rw [e] at hocc hfit hq
          rw [Occ_cons, Occ_cons, Occ_cons, show p + 1 + 1 = p + 2 by omega] at hocc
          simp only [List.length_cons, List.length_nil] at hfit hq
          obtain ⟨b0, b1, b2, _⟩ := hocc
          have hval : (byte mem p % 16 * 64 + (byte mem (p + 1) - 0x80)) * 64
              + (byte mem (p + 2) - 0x80) = c := by omega
          rw [if_neg (by omega), if_pos (by omega), hval,
            if_pos ⟨by omega, by omega, by omega, by omega, hv⟩]
          exact congrArg some (by omega)
        · have hlt : c < 0x110000 := hv.1
          have e := encode4 c (by omega)
          rw [e] at hocc hfit hq
          rw [Occ_cons, Occ_cons, Occ_cons, Occ_cons, show p + 1 + 1 = p + 2 by omega,
            show p + 2 + 1 = p + 3 by omega] at hocc
          simp only [List.length_cons, List.length_nil] at hfit hq
          obtain ⟨b0, b1, b2, b3, _⟩ := hocc
          have hval : ((byte mem p % 8 * 64 + (byte mem (p + 1) - 0x80)) * 64
              + (byte mem (p + 2) - 0x80)) * 64 + (byte mem (p + 3) - 0x80) = c := by omega
          rw [if_neg (by omega), if_neg (by omega), if_pos (by omega), hval,
            if_pos ⟨by omega, by omega, by omega, by omega, by omega, hv⟩]
          exact congrArg some (by omega)

end Utf8

namespace WQ

end WQ

namespace Utf8

/-! ## The loop of the validator -/

theorem multibyte_len_gt (mem : List Nat) (hb : ∀ i, byte mem i < 256) (max_len p q : Nat)
    (h : multibyte_len mem max_len p = some q) : p < q ∧ q < max_len := by
  rw [multibyte_len_eq mem hb] at h
  split_ifs at h with h2 c2 h3 c3 h4 c4 <;> simp only [Option.some.injEq] at h <;> omega

theorem len_loop_at_end (mem : List Nat) (max_len fuel p : Nat) (h : max_len ≤ p) :
    fast_validate_len_loop mem max_len fuel p = p := by
  cases fuel with
  | zero => rfl
  | succ f =>
    unfold fast_validate_len_loop
    rw [if_neg]
    intro hc
    omega

/-- More fuel than the bytes left does not change the result of the loop. -/
theorem len_loop_fuel (mem : List Nat) (hb : ∀ i, byte mem i < 256) (max_len : Nat) :
    ∀ f1 f2 p, max_len - p ≤ f1 → max_len - p ≤ f2 →
      fast_validate_len_loop mem max_len f1 p = fast_validate_len_loop mem max_len f2 p := by
  intro f1
  induction f1 with
  | zero =>
    intro f2 p h1 _
    rw [len_loop_at_end mem max_len 0 p (by omega), len_loop_at_end mem max_len f2 p (by omega)]
  | succ f ih =>
    intro f2 p h1 h2
    by_cases hp : max_len ≤ p
    · rw [len_loop_at_end mem max_len _ p hp, len_loop_at_end mem max_len f2 p hp]
    · cases f2 with
      | zero => omega
      | succ g =>
        unfold fast_validate_len_loop
        split_ifs with hc hlt
        · exact ih g (p + 1) (by omega) (by omega)
        · cases hm : multibyte_len mem max_len p with
          | none => rfl
          | some q =>
            have := multibyte_len_gt mem hb max_len p q hm
            exact ih g (q + 1) (by omega) (by omega)
        · rfl

/-- What stands at `p` when the encoding of an admitted code point starts
there. -/
theorem Starts.first {mem : List Nat} {max_len p c : Nat} (h : Starts mem max_len p c) :
    byte mem p ≠ 0 ∧ (c < 0x80 → byte mem p = c ∧ (encode c).length = 1)
      ∧ (0x80 ≤ c → 0xC2 ≤ byte mem p) := by
  obtain ⟨hv, hc0, hocc, _⟩ := h
  have hlt : c < 0x110000 := hv.1
  by_cases h1 : c < 0x80
  · rw [encode1 c h1, Occ_cons] at hocc
    exact ⟨by omega, fun _ => ⟨hocc.1, by rw [encode1 c h1]; rfl⟩, fun h => by omega⟩
  · by_cases h2 : c < 0x800
    · rw [encode2 c (by omega) h2, Occ_cons] at hocc
      exact ⟨by omega, fun h => by omega, fun _ => by omega⟩
    · by_cases h3 : c < 0x10000
      · rw [encode3 c (by omega) h3, Occ_cons] at hocc
        exact ⟨by omega, fun h => by omega, fun _ => by omega⟩
      · rw [encode4 c (by omega), Occ_cons] at hocc
        exact ⟨by omega, fun h => by omega, fun _ => by omega⟩

/-- One pass of the loop over the encoding of an admitted code point. -/
theorem len_loop_step (mem : List Nat) (hb : ∀ i, byte mem i < 256) (max_len fuel p c : Nat)
    (h : Starts mem max_len p c) :
    fast_validate_len_loop mem max_len (fuel + 1) p
      = fast_validate_len_loop mem max_len fuel (p + (encode c).length) := by
  obtain ⟨h0, h1, h2⟩ := h.first
  have hfit := h.2.2.2
  have hpos := encode_length_pos c
  rw [fast_validate_len_loop, if_pos ⟨by omega, h0⟩]
  by_cases hc : c < 0x80
  · obtain ⟨e1, e2⟩ := h1 hc
    rw [if_pos (by omega), e2]
  · have h128 : 128 ≤ byte mem p := by
      have := h2 (by omega)
      omega
    rw [if_neg (by omega)]
    have := (multibyte_len_iff mem hb max_len p (p + (encode c).length - 1) h128).2
      ⟨c, h, by omega⟩
    rw [this]
    simp only
    rw [show p + (encode c).length - 1 + 1 = p + (encode c).length by omega]

/-- The loop runs over a concatenation of encodings of admitted code points. -/
theorem len_loop_skip (mem : List Nat) (hb : ∀ i, byte mem i < 256) (max_len : Nat)
    (cs : List Nat) (hcs : ∀ c ∈ cs, scalar_valid c ∧ c ≠ 0) :
    ∀ fuel p, Occ mem p (cs.flatMap encode) → p + (cs.flatMap encode).length ≤ max_len →
      max_len - p ≤ fuel →
      fast_validate_len_loop mem max_len fuel p
        = fast_validate_len_loop mem max_len fuel (p + (cs.flatMap encode).length) := by
  induction cs with
  | nil => intro fuel p _ _ _; simp
  | cons c cs ih =>
    intro fuel p hocc hfit hfuel
    rw [List.flatMap_cons, Occ_append] at hocc
    rw [List.flatMap_cons, List.length_append] at hfit ⊢
    have hst : Starts mem max_len p c :=
      ⟨(hcs c (by simp)).1, (hcs c (by simp)).2, hocc.1, by omega⟩
    have hpos := encode_length_pos c
    cases fuel with
    | zero => omega
    | succ f =>
      rw [len_loop_step mem hb max_len f p c hst,
        len_loop_fuel mem hb max_len f (f + 1) _ (by omega) (by omega),
        ih (fun x hx => hcs x (by simp [hx])) (f + 1) _ hocc.2 (by omega) (by omega)]
      rw [Nat.add_assoc]

/-- What the loop returns: it has run over encodings of admitted code points,
none NUL, and where it stops before `max_len` no such encoding starts. -/
theorem len_loop_spec (mem : List Nat) (hb : ∀ i, byte mem i < 256) (max_len : Nat) :
    ∀ fuel p, p ≤ max_len → max_len - p ≤ fuel →
      ∃ cs : List Nat, (∀ c ∈ cs, scalar_valid c ∧ c ≠ 0) ∧ Occ mem p (cs.flatMap encode)
        ∧ fast_validate_len_loop mem max_len fuel p = p + (cs.flatMap encode).length
        ∧ p + (cs.flatMap encode).length ≤ max_len
        ∧ (p + (cs.flatMap encode).length < max_len →
            ∀ c, ¬ Starts mem max_len (p + (cs.flatMap encode).length) c) := by
  intro fuel
  induction fuel with
  | zero =>
    intro p h1 h2
    exact ⟨[], by simp, Occ_nil _ _, by simp [fast_validate_len_loop], by simpa using h1,
      fun h => by simp at h; omega⟩
  | succ f ih =>
    intro p h1 h2
    by_cases hc : p < max_len ∧ byte mem p ≠ 0
    · by_cases hlt : byte mem p < 128
      · have hst : Starts mem max_len p (byte mem p) := by
          refine ⟨scalar_valid_small _ (by omega), hc.2, ?_, ?_⟩
          · rw [encode1 _ hlt, Occ_cons]
            exact ⟨rfl, Occ_nil _ _⟩
          · rw [encode1 _ hlt]
            simp only [List.length_cons, List.length_nil]
            omega
        have hlen : (encode (byte mem p)).length = 1 := by rw [encode1 _ hlt]; rfl
        obtain ⟨cs, a, b, c, d, e⟩ := ih (p + 1) (by omega) (by omega)
        refine ⟨byte mem p :: cs, ?_, ?_, ?_, ?_, ?_⟩
        · intro x hx
          rcases List.mem_cons.1 hx with hx | hx
          · rw [hx]; exact ⟨hst.1, hst.2.1⟩
          · exact a x hx
        · rw [List.flatMap_cons, Occ_append, hlen]
          exact ⟨hst.2.2.1, b⟩
        · rw [len_loop_step mem hb max_len f p _ hst, hlen, c, List.flatMap_cons,
            List.length_append, hlen]
          omega
        · rw [List.flatMap_cons, List.length_append, hlen]
          omega
        · rw [List.flatMap_cons, List.length_append, hlen,
            show p + (1 + (cs.flatMap encode).length) = p + 1 + (cs.flatMap encode).length by omega]
          exact e
      · cases hm : multibyte_len mem max_len p with
        | none =>
          refine ⟨[], by simp, Occ_nil _ _, ?_, by simpa using h1, ?_⟩
          · unfold fast_validate_len_loop
            rw [if_pos hc, if_neg hlt, hm]
            simp
          · intro _ c hst
            simp only [List.flatMap_nil, List.length_nil, Nat.add_zero] at hst
            have := (multibyte_len_iff mem hb max_len p (p + (encode c).length - 1)
              (by omega)).2 ⟨c, hst, by have := encode_length_pos c; omega⟩
            rw [hm] at this
            cases this
        | some q =>
          obtain ⟨c0, hst, hq⟩ := (multibyte_len_iff mem hb max_len p q (by omega)).1 hm
          have hfit := hst.2.2.2
          obtain ⟨cs, a, b, c, d, e⟩ := ih (p + (encode c0).length) (by omega) (by
            have := encode_length_pos c0
            omega)
          refine ⟨c0 :: cs, ?_, ?_, ?_, ?_, ?_⟩
          · intro x hx
            rcases List.mem_cons.1 hx with hx | hx
            · rw [hx]; exact ⟨hst.1, hst.2.1⟩
            · exact a x hx
          · rw [List.flatMap_cons, Occ_append]
            exact ⟨hst.2.2.1, b⟩
          · rw [len_loop_step mem hb max_len f p _ hst, c, List.flatMap_cons,
              List.length_append]
            omega
          · rw [List.flatMap_cons, List.length_append]
            omega
          · rw [List.flatMap_cons, List.length_append, ← Nat.add_assoc]
            exact e
    · refine ⟨[], by simp, Occ_nil _ _, ?_, by simpa using h1, ?_⟩
      · unfold fast_validate_len_loop
        rw [if_neg hc]
        simp
      · intro hlt c hst
        simp only [List.flatMap_nil, List.length_nil, Nat.add_zero] at hst hlt
        have := hst.first.1
        exact hc ⟨hlt, this⟩

end Utf8

namespace WQ

end WQ

namespace Utf8

/-! ## `utf8_validate` -/

theorem byte_cstr_end (mem : List Nat) : byte mem (cstr mem).length = 0 := by
  induction mem with
  | nil => rfl
  | cons b m ih =>
    by_cases h : b = 0
    · subst h
      simp [cstr, byte]
    · have e : cstr (b :: m) = b :: cstr m := by
        simp [cstr, List.takeWhile_cons, h]
      rw [e]
      simpa [byte, cstr] using ih

theorem byte_before_cstr_end (mem : List Nat) :
    ∀ i, i < (cstr mem).length → byte mem i ≠ 0 := by
  induction mem with
  | nil => intro i hi; simp [cstr] at hi
  | cons b m ih =>
    intro i hi
    by_cases h : b = 0
    · subst h
      simp [cstr] at hi
    · have e : cstr (b :: m) = b :: cstr m := by
        simp [cstr, List.takeWhile_cons, h]
      rw [e] at hi
      cases i with
      | zero => simpa [byte] using h
      | succ j =>
        have := ih j (by simpa using hi)
        simpa [byte] using this

theorem cstr_length_le (mem : List Nat) : (cstr mem).length ≤ mem.length := by
  unfold cstr
  exact (List.takeWhile_sublist _).length_le

theorem CONTINUATION_CHAR_zero (v : Nat) : CONTINUATION_CHAR 0 v = none := by
  simp [CONTINUATION_CHAR]

theorem TWO_REMAINING_nul (mem : List Nat) (min val p : Nat)
    (h : byte mem (p + 1) = 0 ∨ byte mem (p + 2) = 0) : TWO_REMAINING mem min val p = none := by
  unfold TWO_REMAINING
  rcases h with h | h
  · rw [h, CONTINUATION_CHAR_zero]
  · cases CONTINUATION_CHAR (byte mem (p + 1)) val with
    | none => rfl
    | some v1 =>
      simp only
      rw [h, CONTINUATION_CHAR_zero]

/-- On a NUL-terminated string the loop body of `fast_validate` does what the
one of `fast_validate_len` does with the length of the string. -/
theorem multibyte_eq_len (mem : List Nat) (L p : Nat) (hL : byte mem L = 0) (hp : p < L) :
    multibyte mem p = multibyte_len mem L p := by
  unfold multibyte multibyte_len
  simp only
  by_cases h2 : byte mem p &&& 0xe0 = 0xc0
  · rw [if_pos h2, if_pos h2]
    by_cases hl : (L : Int) - (p : Int) < 2
    · rw [if_pos hl]
      have e : p + 1 = L := by omega
      rw [e, hL]
      split_ifs <;> first | rfl | simp_all
    · rw [if_neg hl]
  · rw [if_neg h2, if_neg h2]
    by_cases h3 : byte mem p &&& 0xf0 = 0xe0
    · rw [if_pos h3, if_pos h3]
      by_cases hl : (L : Int) - (p : Int) < 3
      · rw [if_pos hl]
        apply TWO_REMAINING_nul
        by_cases e : p + 1 = L
        · left; rw [e]; exact hL
        · right
          have e2 : p + 2 = L := by omega
          rw [e2]; exact hL
      · rw [if_neg hl]
    · rw [if_neg h3, if_neg h3]
      by_cases h4 : byte mem p &&& 0xf8 = 0xf0
      · rw [if_pos h4, if_pos h4]
        by_cases hl : (L : Int) - (p : Int) < 4
        · rw [if_pos hl]
          by_cases e : p + 1 = L
          · rw [e, hL, CONTINUATION_CHAR_zero]
          · cases CONTINUATION_CHAR (byte mem (p + 1)) (byte mem p &&& 0x07) with
            | none => rfl
            | some v =>
              simp only
              apply TWO_REMAINING_nul
              by_cases e2 : p + 2 = L
              · left; rw [show p + 1 + 1 = p + 2 by omega, e2]; exact hL
              · right
                have e3 : p + 3 = L := by omega
                rw [show p + 1 + 2 = p + 3 by omega, e3]; exact hL
        · rw [if_neg hl]
      · rw [if_neg h4, if_neg h4]

/-- On a NUL-terminated string `fast_validate` does what `fast_validate_len`
does with the length of the string. -/
theorem nul_loop_eq (mem : List Nat) (hb : ∀ i, byte mem i < 256) (L : Nat)
    (hL : byte mem L = 0) (hne : ∀ i, i < L → byte mem i ≠ 0) :
    ∀ fuel p, p ≤ L →
      fast_validate_loop mem fuel p = fast_validate_len_loop mem L fuel p := by
  intro fuel
  induction fuel with
  | zero => intro p _; rfl
  | succ f ih =>
    intro p hp
    rw [fast_validate_loop, fast_validate_len_loop]
    by_cases e : p = L
    · rw [e, if_pos hL, if_neg (by omega)]
    · have hlt : p < L := by omega
      rw [if_neg (hne p hlt), if_pos (show p < L ∧ byte mem p ≠ 0 from ⟨hlt, hne p hlt⟩)]
      by_cases h128 : byte mem p < 128
      · rw [if_pos h128, if_pos h128]
        exact ih (p + 1) (by omega)
      · rw [if_neg h128, if_neg h128, multibyte_eq_len mem L p hL hlt]
        cases hm : multibyte_len mem L p with
        | none => rfl
        | some q =>
          have := multibyte_len_gt mem hb L p q hm
          exact ih (q + 1) (by omega)

theorem fast_validate_eq (mem : List Nat) (hb : ∀ i, byte mem i < 256) :
    fast_validate mem = fast_validate_len mem (cstr mem).length := by
  unfold fast_validate fast_validate_len
  rw [nul_loop_eq mem hb _ (byte_cstr_end mem) (byte_before_cstr_end mem) _ 0 (Nat.zero_le _)]
  exact len_loop_fuel mem hb _ _ _ 0 (by have := cstr_length_le mem; omega) (by omega)

/-- What `fast_validate_len` returns. -/
theorem fast_validate_len_spec (mem : List Nat) (hb : ∀ i, byte mem i < 256) (n : Nat) :
    ∃ cs : List Nat, (∀ c ∈ cs, scalar_valid c ∧ c ≠ 0) ∧ Occ mem 0 (cs.flatMap encode)
      ∧ fast_validate_len mem n = (cs.flatMap encode).length
      ∧ (cs.flatMap encode).length ≤ n
      ∧ ((cs.flatMap encode).length < n → ∀ c, ¬ Starts mem n (cs.flatMap encode).length c) := by
  obtain ⟨cs, a, b, c, d, e⟩ := len_loop_spec mem hb n n 0 (Nat.zero_le _) (by omega)
  simp only [Nat.zero_add] at c d e
  exact ⟨cs, a, b, c, d, e⟩

theorem utf8_validate_nat (mem : List Nat) (n : Nat) :
    utf8_validate mem (n : Int)
      = (decide (fast_validate_len mem n = n), fast_validate_len mem n) := by
  unfold utf8_validate
  have h1 : ¬ ((n : Int) < 0) := by omega
  simp only [h1, if_false, Int.toNat_ofNat, false_and, or_false]
  by_cases e : fast_validate_len mem n = n
  · rw [if_neg]
    · simp [e]
    · intro h
      exact h.2 (by exact_mod_cast e)
  · rw [if_pos]
    · simp [e]
    · exact ⟨by omega, by exact_mod_cast e⟩

theorem utf8_validate_neg (mem : List Nat) (hb : ∀ i, byte mem i < 256) (m : Int) (hm : m < 0) :
    utf8_validate mem m = utf8_validate mem ((cstr mem).length : Int) := by
  rw [utf8_validate_nat]
  unfold utf8_validate
  simp only [hm, if_true, true_and]
  have h1 : ¬ (m ≥ 0) := by omega
  simp only [h1, false_and, false_or]
  rw [fast_validate_eq mem hb]
  obtain ⟨cs, _, _, c, d, _⟩ := fast_validate_len_spec mem hb (cstr mem).length
  by_cases e : fast_validate_len mem (cstr mem).length = (cstr mem).length
  · rw [if_neg]
    · simp [e]
    · rw [e, byte_cstr_end]
      simp
  · rw [if_pos]
    · simp [e]
    · exact byte_before_cstr_end mem _ (by omega)

theorem byte_append_right (pre rest : List Nat) (i : Nat) :
    byte (pre ++ rest) (pre.length + i) = byte rest i := by
  unfold byte
  rw [List.getD_eq_getElem?_getD, List.getD_eq_getElem?_getD,
    List.getElem?_append_right (by omega)]
  simp

theorem byte_append_left (pre rest : List Nat) (i : Nat) (h : i < pre.length) :
    byte (pre ++ rest) i = byte pre i := by
  unfold byte
  rw [List.getD_eq_getElem?_getD, List.getD_eq_getElem?_getD, List.getElem?_append_left h]

theorem byte_of_lt (mem : List Nat) (i : Nat) (h : i < mem.length) : byte mem i = mem[i] := by
  unfold byte
  rw [List.getD_eq_getElem?_getD, List.getElem?_eq_getElem h]
  rfl

theorem byte_of_ge (mem : List Nat) (i : Nat) (h : mem.length ≤ i) : byte mem i = 0 := by
  unfold byte
  rw [List.getD_eq_getElem?_getD, List.getElem?_eq_none h]
  rfl

theorem Occ_self (mem : List Nat) : Occ mem 0 mem := by
  intro i _
  rw [Nat.zero_add]
  rfl

theorem Occ_append_self (pre rest tail : List Nat) : Occ (pre ++ rest ++ tail) pre.length rest := by
  intro i hi
  rw [List.append_assoc, byte_append_right, byte_append_left _ _ _ hi]
  rfl

/-- A buffer that holds `l` from its start and is as long as `l` is `l`. -/
theorem Occ_eq (mem l : List Nat) (h : Occ mem 0 l) (hlen : l.length = mem.length) :
    l = mem := by
  apply List.ext_getElem hlen
  intro i h1 h2
  have := h i h1
  rw [Nat.zero_add, byte_of_lt mem i h2] at this
  rw [this, List.getD_eq_getElem?_getD, List.getElem?_eq_getElem h1]
  rfl

/-- Where no encoding of an admitted code point starts, the loop stops. -/
theorem len_loop_stuck (mem : List Nat) (hb : ∀ i, byte mem i < 256) (max_len fuel p : Nat)
    (hp : p ≤ max_len) (hf : max_len - p ≤ fuel) (h : ∀ c, ¬ Starts mem max_len p c) :
    fast_validate_len_loop mem max_len fuel p = p := by
  obtain ⟨cs, a, b, c, d, _⟩ := len_loop_spec mem hb max_len fuel p hp hf
  cases cs with
  | nil => simpa using c
  | cons x cs =>
    exfalso
    rw [List.flatMap_cons, Occ_append] at b
    rw [List.flatMap_cons, List.length_append] at d
    exact h x ⟨(a x (by simp)).1, (a x (by simp)).2, b.1, by omega⟩

/-- The bytes of the encoding of an admitted code point. -/
theorem Occ_encode_cases (mem : List Nat) (p c : Nat) (hc : c < 0x110000)
    (h : Occ mem p (encode c)) :
    (c < 0x80 ∧ byte mem p = c ∧ (encode c).length = 1)
      ∨ (0xC2 ≤ byte mem p ∧ byte mem p < 0xE0 ∧ (encode c).length = 2
          ∧ 0x80 ≤ byte mem (p + 1) ∧ byte mem (p + 1) < 0xC0)
      ∨ (0xE0 ≤ byte mem p ∧ byte mem p < 0xF0 ∧ (encode c).length = 3
          ∧ 0x80 ≤ byte mem (p + 1) ∧ byte mem (p + 1) < 0xC0
          ∧ (byte mem p = 0xE0 → 0xA0 ≤ byte mem (p + 1)))
      ∨ (0xF0 ≤ byte mem p ∧ byte mem p < 0xF5 ∧ (encode c).length = 4
          ∧ 0x80 ≤ byte mem (p + 1) ∧ byte mem (p + 1) < 0xC0
          ∧ (byte mem p = 0xF0 → 0x90 ≤ byte mem (p + 1))) := by
  by_cases h1 : c < 0x80
  · left
    rw [encode1 c h1, Occ_cons] at h
    exact ⟨h1, h.1, by rw [encode1 c h1]; rfl⟩
  · by_cases h2 : c < 0x800
    · right; left
      have e := encode2 c (by omega) h2
      rw [e, Occ_cons, Occ_cons] at h
      refine ⟨by omega, by omega, by rw [e]; rfl, by omega, by omega⟩
    · by_cases h3 : c < 0x10000
      · right; right; left
        have e := encode3 c (by omega) h3
        rw [e, Occ_cons, Occ_cons] at h
        refine ⟨by omega, by omega, by rw [e]; rfl, by omega, by omega, by omega⟩
      · right; right; right
        have e := encode4 c (by omega)
        rw [e, Occ_cons, Occ_cons] at h
        refine ⟨by omega, by omega, by rw [e]; rfl, by omega, by omega, by omega⟩

theorem encode_ne_zero (c : Nat) (hc : c < 0x110000) (h0 : c ≠ 0) : ∀ b ∈ encode c, b ≠ 0 := by
  intro b hb
  unfold encode at hb
  split_ifs at hb <;> simp only [List.mem_cons, List.mem_singleton, List.not_mem_nil,
    or_false] at hb <;> omega

theorem encode_lt (c : Nat) (hc : c < 0x110000) : ∀ b ∈ encode c, b < 256 := by
  intro b hb
  unfold encode at hb
  split_ifs at hb <;> simp only [List.mem_cons, List.mem_singleton, List.not_mem_nil,
    or_false] at hb <;> omega

theorem encode_zero : encode 0 = [0] := by decide

/-- A buffer that starts with encodings of admitted code points, none NUL, is
accepted up to their end. -/
theorem accept_parts (mem : List Nat) (hb : ∀ i, byte mem i < 256) (n : Nat) (cs : List Nat)
    (hcs : ∀ c ∈ cs, scalar_valid c ∧ c ≠ 0) (hocc : Occ mem 0 (cs.flatMap encode))
    (hlen : (cs.flatMap encode).length = n) : utf8_validate mem (n : Nat) = (true, n) := by
  have h1 := len_loop_skip mem hb n cs hcs n 0 hocc (by omega) (by omega)
  rw [hlen, Nat.zero_add, len_loop_at_end _ _ _ _ (le_refl _)] at h1
  rw [utf8_validate_nat]
  unfold fast_validate_len
  rw [h1]
  simp

theorem flatMap_encode_ne_zero (cs : List Nat) (hcs : ∀ c ∈ cs, scalar_valid c ∧ c ≠ 0) :
    ∀ b ∈ cs.flatMap encode, b ≠ 0 := by
  intro b hb
  rw [List.mem_flatMap] at hb
  obtain ⟨c, hc, hbc⟩ := hb
  exact encode_ne_zero c (hcs c hc).1.1 (hcs c hc).2 b hbc

/-- What `utf8_validate` accepts lies inside the buffer and holds no NUL. -/
theorem validate_true_prefix (mem : List Nat) (hb : ∀ i, byte mem i < 256) (n : Nat)
    (h : (utf8_validate mem (n : Nat)).1 = true) :
    n ≤ mem.length ∧ ∀ i, i < n → byte mem i ≠ 0 := by
  rw [utf8_validate_nat] at h
  simp only [decide_eq_true_eq] at h
  obtain ⟨cs, a, b, c, _, _⟩ := fast_validate_len_spec mem hb n
  rw [h] at c
  have hnz : ∀ i, i < n → byte mem i ≠ 0 := by
    intro i hi
    have := b i (by omega)
    rw [Nat.zero_add] at this
    rw [this, List.getD_eq_getElem?_getD, List.getElem?_eq_getElem (by omega)]
    exact flatMap_encode_ne_zero cs a _ (List.getElem_mem _)
  refine ⟨?_, hnz⟩
  by_contra hc
  exact hnz mem.length (by omega) (byte_of_ge mem _ (le_refl _))

theorem cstr_eq_self (l : List Nat) (h : ∀ b ∈ l, b ≠ 0) : cstr l = l := by
  unfold cstr
  rw [List.takeWhile_eq_self_iff]
  intro b hb
  simpa using h b hb

theorem cstr_take_cstr (mem : List Nat) : cstr (mem.take (cstr mem).length) = cstr mem := by
  induction mem with
  | nil => rfl
  | cons b m ih =>
    by_cases h : b = 0
    · subst h
      simp [cstr]
    · have e : cstr (b :: m) = b :: cstr m := by
        simp [cstr, List.takeWhile_cons, h]
      rw [e, List.length_cons, List.take_succ_cons]
      have e2 : cstr (b :: List.take (cstr m).length m) = b :: cstr (List.take (cstr m).length m) := by
        simp [cstr, List.takeWhile_cons, h]
      rw [e2, ih]

theorem cstr_take_of_valid (mem : List Nat) (hb : ∀ i, byte mem i < 256) (n : Nat)
    (h : (utf8_validate mem (n : Nat)).1 = true) :
    cstr (mem.take n) = mem.take n ∧ (mem.take n).length = n := by
  obtain ⟨h1, h2⟩ := validate_true_prefix mem hb n h
  refine ⟨cstr_eq_self _ ?_, by rw [List.length_take]; omega⟩
  intro b hbm
  obtain ⟨i, hi, e⟩ := List.getElem_of_mem hbm
  rw [List.length_take] at hi
  rw [List.getElem_take] at e
  rw [← e, ← byte_of_lt mem i (by omega)]
  exact h2 i (by omega)

theorem ascii_flatMap (s : List Nat) (h : ∀ b ∈ s, b < 128) : s.flatMap encode = s := by
  induction s with
  | nil => rfl
  | cons b l ih =>
    rw [List.flatMap_cons, encode1 b (h b (by simp)), ih (fun x hx => h x (by simp [hx]))]
    rfl

/-- An ASCII string without NUL is accepted. -/
theorem ascii_valid (s : List Nat) (h : ∀ b ∈ s, 0 < b ∧ b < 128) :
    utf8_validate s (s.length : Nat) = (true, s.length) := by
  have hb : ∀ i, byte s i < 256 := byte_lt s (fun b hb => by have := h b hb; omega)
  have e := ascii_flatMap s (fun b hb => (h b hb).2)
  apply accept_parts s hb s.length s
  · intro c hc
    exact ⟨scalar_valid_small c (by have := h c hc; omega), by have := h c hc; omega⟩
  · rw [e]; exact Occ_self s
  · rw [e]

end Utf8

namespace WQ

end WQ

namespace Utf8

/-! ## Backspace merging: one run of backspaces behind valid text -/

theorem byte_memmove (buf : List Nat) (d s n i : Nat) :
    byte (memmove buf d s n) i
      = if i < buf.length then
          (if d ≤ i ∧ i < d + n then byte buf (s + (i - d)) else byte buf i)
        else 0 := by
  unfold memmove
  by_cases h : i < buf.length
  · rw [if_pos h, byte_of_lt _ _ (by simpa using h)]
    simp
  · rw [if_neg h, byte_of_ge _ _ (by simpa using h)]

/-- The C string of a buffer, from its bytes. -/
theorem cstr_of_bytes (t : List Nat) (ht : ∀ x ∈ t, x ≠ 0) :
    ∀ l : List Nat, (∀ i, i < t.length → byte l i = t.getD i 0) → byte l t.length = 0 →
      cstr l = t := by
  induction t with
  | nil =>
    intro l _ h0
    cases l with
    | nil => rfl
    | cons a l =>
      have : a = 0 := by simpa [byte] using h0
      subst this
      simp [cstr]
  | cons x t ih =>
    intro l h h0
    have hx : x ≠ 0 := ht x (by simp)
    cases l with
    | nil =>
      have := h 0 (by simp)
      simp [byte] at this
      exact absurd this.symm hx
    | cons a l =>
      have ha : a = x := by simpa [byte] using h 0 (by simp)
      subst ha
      have e : cstr (a :: l) = a :: cstr l := by
        simp [cstr, List.takeWhile_cons, hx]
      rw [e, ih (fun y hy => ht y (by simp [hy])) l]
      · intro i hi
        have := h (i + 1) (by simpa using hi)
        simpa [byte] using this
      · simpa [byte] using h0

theorem strstr_bs_here (buf : List Nat) (fuel p : Nat) (h : byte buf p = 8) :
    strstr_bs buf (fuel + 1) p = some p := by
  rw [strstr_bs, if_neg (by omega), if_pos h]

/-- `strstr` finds the backspace behind bytes that are neither NUL nor a
backspace. -/
theorem strstr_bs_skip (buf : List Nat) :
    ∀ (m fuel p : Nat), (∀ i, i < m → byte buf (p + i) ≠ 0 ∧ byte buf (p + i) ≠ 8) →
      byte buf (p + m) = 8 → m < fuel → strstr_bs buf fuel p = some (p + m) := by
  intro m
  induction m with
  | zero =>
    intro fuel p _ h hf
    cases fuel with
    | zero => omega
    | succ f => exact strstr_bs_here buf f p h
  | succ m ih =>
    intro fuel p h1 h2 hf
    cases fuel with
    | zero => omega
    | succ f =>
      have h0 := h1 0 (by omega)
      rw [Nat.add_zero] at h0
      rw [strstr_bs, if_neg h0.1, if_neg h0.2, ih f (p + 1) ?_ ?_ (by omega)]
      · rw [show p + 1 + m = p + (m + 1) by omega]
      · intro i hi
        rw [show p + 1 + i = p + (i + 1) by omega]
        exact h1 (i + 1) (by omega)
      · rw [show p + 1 + m = p + (m + 1) by omega]
        exact h2

/-- `strstr` finds no backspace in a string that holds none. -/
theorem strstr_bs_none (buf : List Nat) :
    ∀ (m fuel p : Nat), (∀ i, i < m → byte buf (p + i) ≠ 8) → byte buf (p + m) = 0 →
      strstr_bs buf fuel p = none := by
  intro m
  induction m with
  | zero =>
    intro fuel p _ h
    rw [Nat.add_zero] at h
    cases fuel with
    | zero => rfl
    | succ f => rw [strstr_bs, if_pos h]
  | succ m ih =>
    intro fuel p h1 h2
    cases fuel with
    | zero => rfl
    | succ f =>
      rw [strstr_bs]
      split_ifs with h0 h8
      · rfl
      · exact absurd h8 (by simpa using h1 0 (by omega))
      · apply ih f (p + 1)
        · intro i hi
          rw [show p + 1 + i = p + (i + 1) by omega]
          exact h1 (i + 1) (by omega)
        · rw [show p + 1 + m = p + (m + 1) by omega]
          exact h2

/-- `utf8_find_prev_char` from the end of a character finds its first byte. -/
theorem find_prev_run (buf : List Nat) (p : Nat) (h0 : byte buf p &&& 0xc0 ≠ 0x80) :
    ∀ n, (∀ i, i < n → byte buf (p + 1 + i) &&& 0xc0 = 0x80) →
      utf8_find_prev_char buf 0 (p + 1 + n) = some p := by
  intro n
  induction n with
  | zero =>
    intro _
    rw [Nat.add_zero, utf8_find_prev_char, if_neg (by omega), if_pos h0]
  | succ n ih =>
    intro h
    rw [show p + 1 + (n + 1) = (p + 1 + n) + 1 by omega, utf8_find_prev_char,
      if_neg (by omega), if_neg (by simpa using h n (by omega))]
    exact ih (fun i hi => h i (by omega))

/-- An encoding is one byte that is no continuation byte, then continuation
bytes. -/
theorem encode_shape (c : Nat) (hc : c < 0x110000) :
    ∃ b0 l, encode c = b0 :: l ∧ b0 &&& 0xc0 ≠ 0x80 ∧ ∀ x ∈ l, x &&& 0xc0 = 0x80 := by
  have hcont : ∀ x, 0x80 ≤ x → x < 0xC0 → x &&& 0xc0 = 0x80 :=
    fun x h1 h2 => (cont_iff x (by omega)).2 ⟨h1, h2⟩
  have hlead : ∀ x, x < 256 → ¬ (0x80 ≤ x ∧ x < 0xC0) → x &&& 0xc0 ≠ 0x80 :=
    fun x h1 h2 e => h2 ((cont_iff x h1).1 e)
  by_cases h1 : c < 0x80
  · exact ⟨c, [], encode1 c h1, hlead c (by omega) (by omega), by simp⟩
  · by_cases h2 : c < 0x800
    · refine ⟨_, _, encode2 c (by omega) h2, hlead _ (by omega) (by omega), ?_⟩
      intro x hx
      simp only [List.mem_singleton] at hx
      exact hcont x (by omega) (by omega)
    · by_cases h3 : c < 0x10000
      · refine ⟨_, _, encode3 c (by omega) h3, hlead _ (by omega) (by omega), ?_⟩
        intro x hx
        simp only [List.mem_cons, List.mem_singleton, List.not_mem_nil, or_false] at hx
        exact hcont x (by omega) (by omega)
      · refine ⟨_, _, encode4 c (by omega), hlead _ (by omega) (by omega), ?_⟩
        intro x hx
        simp only [List.mem_cons, List.mem_singleton, List.not_mem_nil, or_false] at hx
        exact hcont x (by omega) (by omega)

/-- `utf8_find_prev_char` from the end of valid text finds the start of its
last character. -/
theorem find_prev_boundary (buf : List Nat) (cs : List Nat) (c : Nat) (hc : c < 0x110000)
    (hocc : Occ buf 0 ((cs ++ [c]).flatMap encode)) :
    utf8_find_prev_char buf 0 ((cs ++ [c]).flatMap encode).length
      = some (cs.flatMap encode).length := by
  obtain ⟨b0, l, e, h0, hl⟩ := encode_shape c hc
  rw [List.flatMap_append, Occ_append, Nat.zero_add] at hocc
  simp only [List.flatMap_cons, List.flatMap_nil, List.append_nil] at hocc
  rw [e, Occ_cons] at hocc
  rw [List.flatMap_append, List.length_append]
  simp only [List.flatMap_cons, List.flatMap_nil, List.append_nil]
  rw [e, List.length_cons, show (cs.flatMap encode).length + (l.length + 1)
    = (cs.flatMap encode).length + 1 + l.length by omega]
  apply find_prev_run
  · rw [hocc.2.1]
    exact h0
  · intro i hi
    have := hocc.2.2 i hi
    rw [this, List.getD_eq_getElem?_getD, List.getElem?_eq_getElem hi]
    exact hl _ (List.getElem_mem _)

theorem merge_loop_none (fuel : Nat) (st : Merge) : merge_loop fuel st none = some st := by
  cases fuel <;> rfl

/-- The passes of the loop over the second and the following backspaces of a
run: each moves `new_start` back by one character of the text in front. -/
theorem merge_run (buf : List Nat) (hlen : 0 < buf.length) :
    ∀ (mid pre : List Nat) (q fuel : Nat), (∀ c ∈ pre ++ mid, c < 0x110000) →
      Occ buf 0 ((pre ++ mid).flatMap encode) → 1 ≤ q → byte buf (q - 1) = 8 →
      (∀ j, j < mid.length → byte buf (q + j) = 8) →
      strstr_bs buf buf.length (q + mid.length) = none → mid.length ≤ fuel →
      merge_loop fuel
          { buf := buf, not_before := 0,
            new_start := some ((pre ++ mid).flatMap encode).length, start := some q }
          (strstr_bs buf buf.length q)
        = some { buf := buf, not_before := 0, new_start := some (pre.flatMap encode).length,
                 start := some (q + mid.length) } := by
  intro mid
  induction mid using List.reverseRecOn with
  | nil =>
    intro pre q fuel _ _ _ _ _ hclean _
    rw [List.length_nil, Nat.add_zero] at hclean
    rw [hclean, merge_loop_none]
    simp
  | append_singleton mid c ih =>
    intro pre q fuel hcs hocc hq hq1 hbs hclean hfuel
    rw [List.length_append, List.length_singleton] at hbs hclean hfuel
    have hq8 : byte buf q = 8 := by simpa using hbs 0 (by omega)
    obtain ⟨n, hn⟩ : ∃ n, buf.length = n + 1 := ⟨buf.length - 1, by omega⟩
    obtain ⟨f, hf⟩ : ∃ f, fuel = f + 1 := ⟨fuel - 1, by omega⟩
    have hptr : strstr_bs buf buf.length q = some q := by
      rw [hn]; exact strstr_bs_here buf n q hq8
    have hend : utf8_find_prev_char buf 0 q = some (q - 1) := by
      obtain ⟨q0, e⟩ : ∃ q0, q = q0 + 1 := ⟨q - 1, by omega⟩
      subst e
      rw [Nat.add_sub_cancel] at hq1 ⊢
      rw [utf8_find_prev_char, if_neg (by omega), if_pos (by rw [hq1]; decide)]
    have hback : utf8_find_prev_char buf 0 ((pre ++ (mid ++ [c])).flatMap encode).length
        = some ((pre ++ mid).flatMap encode).length := by
      rw [← List.append_assoc] at hocc ⊢
      exact find_prev_boundary buf (pre ++ mid) c (hcs c (by simp)) hocc
    have hocc2 : Occ buf 0 ((pre ++ mid).flatMap encode) := by
      rw [← List.append_assoc, List.flatMap_append, Occ_append] at hocc
      exact hocc.1
    have hih := ih pre (q + 1) f (fun x hx => hcs x (by
        rcases List.mem_append.1 hx with h | h
        · exact List.mem_append_left _ h
        · exact List.mem_append_right _ (List.mem_append_left _ h))) hocc2 (by omega)
      (by rw [Nat.add_sub_cancel]; exact hq8)
      (fun j hj => by
        rw [show q + 1 + j = q + (j + 1) by omega]
        exact hbs (j + 1) (by omega))
      (by rw [show q + 1 + mid.length = q + (mid.length + 1) by omega]; exact hclean)
      (by omega)
    rw [hptr, hf, merge_loop]
    simp only [hend, hback]
    rw [if_neg (by omega), if_neg (by omega), hih, List.length_append, List.length_singleton]
    rw [show q + 1 + mid.length = q + (mid.length + 1) by omega]

theorem byte_drop (buf : List Nat) (p i : Nat) : byte (buf.drop p) i = byte buf (p + i) := by
  unfold byte
  rw [List.getD_eq_getElem?_getD, List.getD_eq_getElem?_getD, List.getElem?_drop]

theorem encode_ne_bs (c : Nat) (hc : c < 0x110000) (h8 : c ≠ 8) : ∀ b ∈ encode c, b ≠ 8 := by
  intro b hb
  unfold encode at hb
  split_ifs at hb <;> simp only [List.mem_cons, List.mem_singleton, List.not_mem_nil,
    or_false] at hb <;> omega

theorem byte_replicate (k x j : Nat) (h : j < k) : byte (List.replicate k x) j = x := by
  rw [byte_of_lt _ _ (by simpa using h)]
  simp

theorem getD_eq_byte (l : List Nat) (i : Nat) : l.getD i 0 = byte l i := rfl

/-- A run of backspaces behind valid text that has at least as many
characters: the characters in front of the run go, one for each backspace. -/
theorem merge_tail_run (pre mid : List Nat) (c : Nat) (v : List Nat)
    (hcs : ∀ x ∈ pre ++ mid ++ [c], scalar_valid x ∧ x ≠ 0 ∧ x ≠ 8)
    (hv : ∀ b ∈ v, b ≠ 0 ∧ b ≠ 8) :
    utf8_merge_backspace_char
        ((pre ++ mid ++ [c]).flatMap encode ++ List.replicate (mid.length + 1) 8 ++ v)
      = some (pre.flatMap encode ++ v) := by
  obtain ⟨U, hU⟩ : ∃ U, U = (pre ++ mid ++ [c]).flatMap encode := ⟨_, rfl⟩
  obtain ⟨buf, hbuf⟩ : ∃ buf, buf = U ++ List.replicate (mid.length + 1) 8 ++ v ++ [0] :=
    ⟨_, rfl⟩
  have hUb : ∀ b ∈ U, b ≠ 0 ∧ b ≠ 8 := by
    intro b hb
    rw [hU, List.mem_flatMap] at hb
    obtain ⟨x, hx, hbx⟩ := hb
    obtain ⟨h1, h2, h3⟩ := hcs x hx
    exact ⟨encode_ne_zero x h1.1 h2 b hbx, encode_ne_bs x h1.1 h3 b hbx⟩
  have F5 : buf.length = U.length + (mid.length + 1) + v.length + 1 := by
    rw [hbuf]; simp; omega
  have F1 : ∀ i, i < U.length → byte buf i = byte U i := by
    intro i hi
    rw [hbuf, List.append_assoc, List.append_assoc, byte_append_left _ _ _ hi]
  have F2 : ∀ j, j < mid.length + 1 → byte buf (U.length + j) = 8 := by
    intro j hj
    rw [hbuf, List.append_assoc, List.append_assoc, byte_append_right,
      byte_append_left _ _ _ (by simpa using hj), byte_replicate _ _ _ hj]
  have F3 : ∀ i, byte buf (U.length + (mid.length + 1) + i) = byte (v ++ [0]) i := by
    intro i
    have e : (U ++ List.replicate (mid.length + 1) 8).length = U.length + (mid.length + 1) := by
      simp
    rw [hbuf, List.append_assoc, ← e, byte_append_right]
  have F3a : ∀ i, i < v.length → byte buf (U.length + (mid.length + 1) + i) = byte v i := by
    intro i hi
    rw [F3, byte_append_left _ _ _ hi]
  have F4 : byte buf (U.length + (mid.length + 1) + v.length) = 0 := by
    rw [F3]
    have := byte_append_right v [0] 0
    rw [Nat.add_zero] at this
    rw [this]; rfl
  have hvb : ∀ i, i < v.length → byte v i ≠ 0 ∧ byte v i ≠ 8 := by
    intro i hi
    rw [byte_of_lt _ _ hi]
    exact hv _ (List.getElem_mem _)
  have hUbyte : ∀ i, i < U.length → byte U i ≠ 0 ∧ byte U i ≠ 8 := by
    intro i hi
    rw [byte_of_lt _ _ hi]
    exact hUb _ (List.getElem_mem _)
  have hocc : Occ buf 0 ((pre ++ mid ++ [c]).flatMap encode) := by
    rw [← hU]
    intro i hi
    rw [Nat.zero_add, F1 i hi]
    rfl
  have hlt : ∀ x ∈ pre ++ mid ++ [c], x < 0x110000 := fun x hx => (hcs x hx).1.1
  -- the first backspace
  have hptr0 : strstr_bs buf buf.length 0 = some U.length := by
    have := strstr_bs_skip buf U.length buf.length 0
      (fun i hi => by rw [Nat.zero_add, F1 i hi]; exact hUbyte i hi)
      (by have := F2 0 (by omega); simpa using this) (by omega)
    simpa using this
  have hclean : strstr_bs buf buf.length (U.length + 1 + mid.length) = none := by
    apply strstr_bs_none buf v.length
    · intro i hi
      rw [show U.length + 1 + mid.length + i = U.length + (mid.length + 1) + i by omega,
        F3a i hi]
      exact (hvb i hi).2
    · rw [show U.length + 1 + mid.length + v.length
        = U.length + (mid.length + 1) + v.length by omega]
      exact F4
  have hfirst : utf8_find_prev_char buf 0 U.length = some ((pre ++ mid).flatMap encode).length := by
    rw [hU]
    exact find_prev_boundary buf (pre ++ mid) c (hlt c (by simp)) hocc
  have hocc2 : Occ buf 0 ((pre ++ mid).flatMap encode) := by
    rw [List.flatMap_append, Occ_append] at hocc
    exact hocc.1
  have hrun := merge_run buf (by omega) mid pre (U.length + 1) (buf.length - 1)
    (fun x hx => hlt x (List.mem_append_left _ hx)) hocc2 (by omega)
    (by rw [Nat.add_sub_cancel]; simpa using F2 0 (by omega))
    (fun j hj => by
      rw [show U.length + 1 + j = U.length + (j + 1) by omega]
      exact F2 (j + 1) (by omega))
    hclean (by omega)
  have hloop : merge_loop buf.length
      { buf := buf, not_before := 0, new_start := none, start := none }
      (strstr_bs buf buf.length 0)
      = some { buf := buf, not_before := 0, new_start := some (pre.flatMap encode).length,
               start := some (U.length + 1 + mid.length) } := by
    obtain ⟨n, hn⟩ : ∃ n, buf.length = n + 1 := ⟨buf.length - 1, by omega⟩
    rw [hptr0]
    rw [hn, Nat.add_sub_cancel] at hrun
    conv_lhs => rw [hn, merge_loop]
    simp only [hfirst]
    rw [hn]
    exact hrun
  -- the final move
  have hstrlen : strlen buf (U.length + 1 + mid.length) = v.length := by
    unfold strlen
    rw [cstr_of_bytes v (fun x hx => (hv x hx).1)]
    · intro i hi
      rw [byte_drop, show U.length + 1 + mid.length + i = U.length + (mid.length + 1) + i by omega,
        F3a i hi]
      rfl
    · rw [byte_drop, show U.length + 1 + mid.length + v.length
        = U.length + (mid.length + 1) + v.length by omega]
      exact F4
  have hPlen : (pre.flatMap encode).length ≤ U.length := by
    rw [hU, List.flatMap_append, List.flatMap_append, List.length_append, List.length_append]
    omega
  have hPpre : ∀ i, i < (pre.flatMap encode).length →
      byte buf i = byte (pre.flatMap encode) i := by
    intro i hi
    rw [F1 i (by omega), hU, List.flatMap_append, List.flatMap_append, List.append_assoc,
      byte_append_left _ _ _ hi]
  unfold utf8_merge_backspace_char
  simp only
  rw [← hU, ← hbuf, hloop]
  simp only
  rw [hstrlen]
  congr 1
  apply cstr_of_bytes
  · intro x hx
    rcases List.mem_append.1 hx with h | h
    · rw [List.mem_flatMap] at h
      obtain ⟨y, hy, hxy⟩ := h
      obtain ⟨h1, h2, _⟩ := hcs y (List.mem_append_left _ (List.mem_append_left _ hy))
      exact encode_ne_zero y h1.1 h2 x hxy
    · exact (hv x h).1
  · intro i hi
    rw [List.length_append] at hi
    rw [byte_memmove, if_pos (by omega), getD_eq_byte]
    by_cases h1 : i < (pre.flatMap encode).length
    · rw [if_neg (by omega), hPpre i h1, byte_append_left _ _ _ h1]
    · rw [if_pos ⟨by omega, by omega⟩]
      have e : i = (pre.flatMap encode).length + (i - (pre.flatMap encode).length) := by omega
      rw [show U.length + 1 + mid.length + (i - (pre.flatMap encode).length)
        = U.length + (mid.length + 1) + (i - (pre.flatMap encode).length) by omega,
        F3a _ (by omega)]
      conv_rhs => rw [e, byte_append_right]
  · rw [List.length_append, byte_memmove, if_pos (by omega), if_pos ⟨by omega, by omega⟩,
      show U.length + 1 + mid.length + ((pre.flatMap encode).length + v.length
        - (pre.flatMap encode).length) = U.length + (mid.length + 1) + v.length by omega]
    exact F4

/-- A line without a backspace comes back as it is. -/
theorem merge_no_backspace (line : List Nat) (h : ∀ b ∈ line, b ≠ 0 ∧ b ≠ 8) :
    utf8_merge_backspace_char line = some line := by
  have hb : ∀ i, i < line.length → byte (line ++ [0]) i = line.getD i 0 := by
    intro i hi
    rw [byte_append_left _ _ _ hi]
    rfl
  have h0 : byte (line ++ [0]) line.length = 0 := by
    have := byte_append_right line [0] 0
    rw [Nat.add_zero] at this
    rw [this]; rfl
  have hnone : strstr_bs (line ++ [0]) (line ++ [0]).length 0 = none := by
    apply strstr_bs_none _ line.length
    · intro i hi
      rw [Nat.zero_add, hb i hi, getD_eq_byte, byte_of_lt _ _ hi]
      exact (h _ (List.getElem_mem _)).2
    · rw [Nat.zero_add]; exact h0
  unfold utf8_merge_backspace_char
  simp only
  rw [hnone, merge_loop_none]
  simp only
  congr 1
  exact cstr_of_bytes line (fun x hx => (h x hx).1) _ hb h0

end Utf8

namespace WQ

end WQ

namespace Utf8

/-! ## The validator against the specification -/

theorem well_formed_parts (pre : List Nat) (h0 : ∀ b ∈ pre, b ≠ 0) (hw : WellFormed pre) :
    ∃ cs : List Nat, (∀ c ∈ cs, scalar_valid c ∧ c ≠ 0) ∧ pre = cs.flatMap encode := by
  obtain ⟨cs, hv, e⟩ := hw
  refine ⟨cs, ?_, e⟩
  intro c hc
  refine ⟨hv c hc, ?_⟩
  intro hz
  subst hz
  apply h0 0 _ rfl
  rw [e, List.mem_flatMap]
  exact ⟨0, hc, by simp [encode_zero]⟩

/-- After a well-formed prefix, where no encoding of an admitted code point
starts and fits, `utf8_validate` fails and reports that position. -/
theorem reject_at (pre rest : List Nat) (hb : ∀ b ∈ pre ++ rest, b < 256)
    (h0 : ∀ b ∈ pre, b ≠ 0) (hw : WellFormed pre) (hr : rest ≠ [])
    (hst : ∀ c, ¬ Starts (pre ++ rest) (pre ++ rest).length pre.length c) :
    utf8_validate (pre ++ rest) ((pre ++ rest).length : Nat) = (false, pre.length) := by
  have hb' := byte_lt _ hb
  obtain ⟨cs, hcs, e⟩ := well_formed_parts pre h0 hw
  have hlen : pre.length < (pre ++ rest).length := by
    rw [List.length_append]
    have := List.length_pos.2 hr
    omega
  have hocc : Occ (pre ++ rest) 0 (cs.flatMap encode) := by
    rw [← e]
    intro i hi
    rw [Nat.zero_add, byte_append_left _ _ _ hi]
    rfl
  have h1 := len_loop_skip _ hb' (pre ++ rest).length cs hcs (pre ++ rest).length 0 hocc
    (by rw [← e]; omega) (by omega)
  rw [← e, Nat.zero_add, len_loop_stuck _ hb' _ _ _ (by omega) (by omega) hst] at h1
  rw [utf8_validate_nat]
  unfold fast_validate_len
  rw [h1]
  have hne : ¬ pre.length = (pre ++ rest).length := by omega
  rw [decide_eq_false hne]

/-- C13: on a byte string without NUL, `utf8_validate (s, len (s))` returns
true exactly when `s` is a concatenation of shortest-form encodings of code
points below `0x110000` that are no surrogates, lie outside `U+FDD0..U+FDEF`
and have `(c & 0xFFFE) != 0xFFFE`.  After a well-formed prefix it fails, with
`end` at the offending byte, on a stray continuation byte, a lead byte
`0xF8..0xFF`, an overlong form (lead `0xC0`, `0xC1`, `0xE0` before a byte below
`0xA0`, `0xF0` before a byte below `0x90`), and on a sequence that the end of the
input cuts short. -/
theorem validate_accepts_exactly_well_formed (s : List Nat) (hb : ∀ b ∈ s, b < 256)
    (h0 : ∀ b ∈ s, b ≠ 0) :
    ((utf8_validate s (s.length : Nat)).1 = true ↔ WellFormed s)
    ∧ (∀ pre b rest, s = pre ++ b :: rest → WellFormed pre →
        ((0x80 ≤ b ∧ b < 0xC0) ∨ 0xF8 ≤ b ∨ b = 0xC0 ∨ b = 0xC1
          ∨ (b = 0xE0 ∧ rest.headD 0 < 0xA0) ∨ (b = 0xF0 ∧ rest.headD 0 < 0x90)) →
        utf8_validate s (s.length : Nat) = (false, pre.length))
    ∧ (∀ pre t c, s = pre ++ t → WellFormed pre → scalar_valid c → t ≠ [] →
        t <+: encode c → t.length < (encode c).length →
        utf8_validate s (s.length : Nat) = (false, pre.length)) := by
  have hb' := byte_lt _ hb
  refine ⟨⟨?_, ?_⟩, ?_, ?_⟩
  · intro h
    rw [utf8_validate_nat] at h
    simp only [decide_eq_true_eq] at h
    obtain ⟨cs, a, b, c, _, _⟩ := fast_validate_len_spec s hb' s.length
    rw [h] at c
    exact ⟨cs, fun c hc => (a c hc).1, (Occ_eq s _ b c.symm).symm⟩
  · intro hw
    obtain ⟨cs, hcs, e⟩ := well_formed_parts s h0 hw
    have h1 := len_loop_skip s hb' s.length cs hcs s.length 0 (by rw [← e]; exact Occ_self s)
      (by rw [← e]; omega) (by omega)
    rw [← e, Nat.zero_add, len_loop_at_end _ _ _ _ (le_refl _)] at h1
    rw [utf8_validate_nat]
    simp only [decide_eq_true_eq]
    exact h1
  · intro pre b rest hs hw hbad
    subst hs
    apply reject_at pre (b :: rest) hb (fun x hx => h0 x (by simp [hx])) hw (by simp)
    intro c hst
    have hocc := hst.2.2.1
    have e0 : byte (pre ++ b :: rest) pre.length = b := by
      have := byte_append_right pre (b :: rest) 0
      rw [Nat.add_zero] at this
      rw [this]; rfl
    have e1 : byte (pre ++ b :: rest) (pre.length + 1) = rest.headD 0 := by
      rw [byte_append_right]
      cases rest <;> rfl
    have hc := Occ_encode_cases _ _ c hst.1.1 hocc
    rw [e0, e1] at hc
    have hfirst := hst.first.1
    rw [e0] at hfirst
    rcases hc with ⟨a1, a2, _⟩ | ⟨a1, a2, _⟩ | ⟨a1, a2, _, _, _, a3⟩ | ⟨a1, a2, _, _, _, a3⟩ <;>
      rcases hbad with h | h | h | h | h | h <;> omega
  · intro pre t c hs hw hv ht hpre hlen
    subst hs
    apply reject_at pre t hb (fun x hx => h0 x (by simp [hx])) hw ht
    intro c2 hst
    have hfit := hst.2.2.2
    rw [List.length_append] at hfit
    have e0 : byte (pre ++ t) pre.length = byte (encode c) 0 := by
      have := byte_append_right pre t 0
      rw [Nat.add_zero] at this
      rw [this]
      obtain ⟨u, hu⟩ := hpre
      rw [← hu, byte_append_left _ _ _ (List.length_pos.2 ht)]
    have hc2 := Occ_encode_cases _ _ c2 hst.1.1 hst.2.2.1
    have hc := Occ_encode_cases (encode c) 0 c hv.1 (Occ_self _)
    rw [e0] at hc2
    have h1 : 1 ≤ t.length := List.length_pos.2 ht
    rcases hc with ⟨a1, a2, a3⟩ | ⟨a1, a2, a3, _⟩ | ⟨a1, a2, a3, _⟩ | ⟨a1, a2, a3, _⟩ <;>
      rcases hc2 with ⟨b1, b2, b3⟩ | ⟨b1, b2, b3, _⟩ | ⟨b1, b2, b3, _⟩ | ⟨b1, b2, b3, _⟩ <;>
      omega

/-- C18: `utf8_validate (str, max_len)` with `max_len >= 0` returns true exactly
when the end position it reports is `max_len`; when it returns false the end
position lies before `max_len`, the bytes before it are accepted by
`utf8_validate`, and no encoding of an admitted code point other than NUL
starts there and fits in the range (an ill-formed or truncated sequence, or a
NUL).  With `max_len < 0` it returns what it returns with the length of the
NUL-terminated string, which on a buffer without NUL is the length of the
buffer. -/
theorem validate_end_position (mem : List Nat) (hb : ∀ b ∈ mem, b < 256) (max_len : Nat) :
    ((utf8_validate mem (max_len : Nat)).1 = true
        ↔ (utf8_validate mem (max_len : Nat)).2 = max_len)
    ∧ ((utf8_validate mem (max_len : Nat)).1 = false →
        (utf8_validate mem (max_len : Nat)).2 < max_len
        ∧ utf8_validate mem ((utf8_validate mem (max_len : Nat)).2 : Nat)
            = (true, (utf8_validate mem (max_len : Nat)).2)
        ∧ ∀ c, ¬ Starts mem max_len (utf8_validate mem (max_len : Nat)).2 c)
    ∧ (∀ m : Int, m < 0 → utf8_validate mem m = utf8_validate mem ((cstr mem).length : Nat))
    ∧ ((∀ b ∈ mem, b ≠ 0) →
        ∀ m : Int, m < 0 → utf8_validate mem m = utf8_validate mem (mem.length : Nat)) := by
  have hb' := byte_lt _ hb
  obtain ⟨cs, a, b, c, d, e⟩ := fast_validate_len_spec mem hb' max_len
  refine ⟨?_, ?_, ?_, ?_⟩
  · rw [utf8_validate_nat]
    simp
  · intro h
    rw [utf8_validate_nat] at h ⊢
    simp only [decide_eq_false_iff_not] at h
    simp only
    rw [c] at h ⊢
    have hlt : (cs.flatMap encode).length < max_len := by omega
    exact ⟨hlt, accept_parts mem hb' _ cs a b rfl, e hlt⟩
  · intro m hm
    exact utf8_validate_neg mem hb' m hm
  · intro h0 m hm
    rw [utf8_validate_neg mem hb' m hm, cstr_eq_self mem h0]

/-- C19 (amended): with the locale codeset UTF-8, `locale_to_utf8 (input, len)`
returns 0 exactly when `utf8_validate (input, len)` holds; then `bytes_read`
and `bytes_written` are the length of the input and the output is what
`strndup` returned: the input byte for byte, or NULL when `strndup` had no
memory for the copy.  Otherwise it returns `-EILSEQ` with a NULL output.  When
`strndup` returns its copy, an ASCII input without NUL comes back unchanged and
validates, and `C3 A9` comes back unchanged with `bytes_read = 2`. -/
theorem locale_utf8_validates_and_copies (loc : Locale) (hu : loc.is_utf8 = true)
    (mem : List Nat) (hb : ∀ b ∈ mem, b < 256) (len : Int) (want_read want_written : Bool) :
    (∃ res, locale_to_utf8 loc mem len want_read want_written = .ok res
      ∧ (res.r = 0 ↔ (utf8_validate mem len).1 = true)
      ∧ ((utf8_validate mem len).1 = true →
          res.converted_str
            = some (if loc.strndup = true
                    then some (if len < 0 then cstr mem else mem.take len.toNat) else none)
          ∧ (0 ≤ len → (mem.take len.toNat).length = len.toNat)
          ∧ res.bytes_read
              = (if want_read then some (if len < 0 then (cstr mem).length else len.toNat)
                 else none)
          ∧ res.bytes_written
              = (if want_written then some (if len < 0 then (cstr mem).length else len.toNat)
                 else none))
      ∧ ((utf8_validate mem len).1 = false → res.r = -EILSEQ ∧ res.converted_str = some none))
    ∧ (∀ s : List Nat, (∀ b ∈ s, 0 < b ∧ b < 128) →
        locale_to_utf8 loc s (s.length : Nat) true true
          = .ok { r := 0, converted_str := some (if loc.strndup = true then some s else none),
                  bytes_read := some s.length, bytes_written := some s.length }
        ∧ utf8_validate s (s.length : Nat) = (true, s.length))
    ∧ locale_to_utf8 loc [0xC3, 0xA9] 2 true true
        = .ok { r := 0,
                converted_str := some (if loc.strndup = true then some [0xC3, 0xA9] else none),
                bytes_read := some 2, bytes_written := some 2 } := by
  have hb' := byte_lt _ hb
  refine ⟨?_, ?_, ?_⟩
  · cases hv : (utf8_validate mem len).1 with
    | false =>
      have hres : locale_to_utf8 loc mem len want_read want_written
          = .ok { r := -EILSEQ, converted_str := some none, bytes_read := none,
                  bytes_written := none } := by
        simp [locale_to_utf8, hu, hv]
      refine ⟨_, hres, ?_, ?_, ?_⟩
      · simp [EILSEQ]
      · intro h; cases h
      · intro _; exact ⟨rfl, rfl⟩
    | true =>
      have hres : locale_to_utf8 loc mem len want_read want_written
          = .ok { r := 0,
                  converted_str := some (strndup loc.strndup mem
                    (if len < 0 then (cstr mem).length else len.toNat)),
                  bytes_read := if want_read then
                    some (if len < 0 then (cstr mem).length else len.toNat) else none,
                  bytes_written := if want_written then
                    some (if len < 0 then (cstr mem).length else len.toNat) else none } := by
        simp [locale_to_utf8, hu, hv]
      refine ⟨_, hres, ?_, ?_, ?_⟩
      · simp
      · intro _
        by_cases hl : len < 0
        · rw [if_pos hl, if_pos hl]
          refine ⟨?_, fun h => by omega, ?_, ?_⟩
          · cases hd : loc.strndup <;> simp [strndup, cstr_take_cstr]
          · rfl
          · rfl
        · rw [if_neg hl, if_neg hl]
          have e : len = ((len.toNat : Nat) : Int) := by omega
          rw [e] at hv
          obtain ⟨h1, h2⟩ := cstr_take_of_valid mem hb' len.toNat hv
          refine ⟨?_, fun _ => h2, ?_, ?_⟩
          · cases hd : loc.strndup <;> simp [strndup, h1]
          · rfl
          · rfl
      · intro h; cases h
  · intro s hs
    have hv := ascii_valid s hs
    refine ⟨?_, hv⟩
    have h0 : ∀ b ∈ s, b ≠ 0 := fun b hb => by have := hs b hb; omega
    have hc : cstr s = s := cstr_eq_self s h0
    have hn : ¬ ((s.length : Int) < 0) := by omega
    cases hd : loc.strndup <;> simp [locale_to_utf8, strndup, hu, hv, hc, hn, hd]
  · have hv : utf8_validate [0xC3, 0xA9] 2 = (true, 2) := by decide
    have hc : cstr [0xC3, 0xA9] = [0xC3, 0xA9] := by decide
    cases hd : loc.strndup <;> simp [locale_to_utf8, strndup, hu, hv, hc, hd]

/-- C19 (counterexample): the locale codeset is UTF-8, the input `C3 A9` is valid
and `strndup` returns NULL; `locale_to_utf8` returns 0 and reports two bytes
read and written, and its output is NULL, not a copy of the input. -/
theorem locale_utf8_success_with_null_output :
    (utf8_validate [0xC3, 0xA9] 2).1 = true
    ∧ locale_to_utf8 { is_utf8 := true, iconv_open := none, strndup := false } [0xC3, 0xA9] 2
          true true
        = .ok { r := 0, converted_str := some none, bytes_read := some 2,
                bytes_written := some 2 } := by
  have hv : utf8_validate [0xC3, 0xA9] 2 = (true, 2) := by decide
  refine ⟨by rw [hv], ?_⟩
  simp [locale_to_utf8, strndup, hv]

/-- C20: with a locale codeset other than UTF-8, `locale_to_utf8` does not run
the conversion when `iconv_open` has succeeded: it returns `-EINVAL` and writes
no output; when `iconv_open` has failed it calls `convert_with_iconv` with the
converter `(iconv_t) -1`, whose first `assert_se` stops the program. -/
theorem locale_conversion_polarity_inverted :
    (∀ (mem : List Nat) (len : Int) (answers : List IconvAnswer) (want_read want_written : Bool),
        locale_to_utf8 { is_utf8 := false, iconv_open := some answers } mem len
            want_read want_written
          = .ok { r := -EINVAL, converted_str := none, bytes_read := none,
                  bytes_written := none })
    ∧ (∀ (mem : List Nat) (len : Int) (want_read want_written : Bool),
        locale_to_utf8 { is_utf8 := false, iconv_open := none } mem len want_read want_written
          = .error Abort.assert_failed)
    ∧ convert_with_iconv [0x61] 1
          (some [{ err := none, consumed := 1, produced := [0x61] },
                 { err := none, consumed := 0, produced := [] }]) true true
        = .ok { r := 0, converted_str := some (some [0x61]), bytes_read := some 1,
                bytes_written := some 1 } := by
  refine ⟨?_, ?_, ?_⟩
  · intro mem len answers want_read want_written
    rfl
  · intro mem len want_read want_written
    rfl
  · rfl

/-- C14: on the valid line `"ab\bcd\be"` the function returns `"ac\bce"`, not
`"ace"`: the second backspace is left in the line. -/
theorem merge_backspace_leaves_backspace :
    utf8_validate [0x61, 0x62, 8, 0x63, 0x64, 8, 0x65] 7 = (true, 7)
    ∧ utf8_merge_backspace_char [0x61, 0x62, 8, 0x63, 0x64, 8, 0x65]
        = some [0x61, 0x63, 8, 0x63, 0x65] := by
  constructor <;> decide

/-- C15: on the valid line `61 C3 A9 08 62 63 08` the function returns
`61 62 A9 08 62`, which is not valid UTF-8: the continuation byte `A9` of the
removed character is left behind. -/
theorem merge_backspace_splits_character :
    utf8_validate [0x61, 0xC3, 0xA9, 8, 0x62, 0x63, 8] 7 = (true, 7)
    ∧ utf8_merge_backspace_char [0x61, 0xC3, 0xA9, 8, 0x62, 0x63, 8]
        = some [0x61, 0x62, 0xA9, 8, 0x62]
    ∧ utf8_validate [0x61, 0x62, 0xA9, 8, 0x62] 5 = (false, 2) := by
  refine ⟨?_, ?_, ?_⟩ <;> decide

/-- C16: one backspace, or three, in front of `"abc"` stay in the line, and
the line `"a\b\b"` comes back unchanged; two backspaces in front of `"abc"` are
dropped. -/
theorem merge_backspace_keeps_leading_backspace :
    utf8_merge_backspace_char [8, 0x61, 0x62, 0x63] = some [8, 0x61, 0x62, 0x63]
    ∧ utf8_merge_backspace_char [8, 8, 8, 0x61, 0x62, 0x63] = some [8, 8, 8, 0x61, 0x62, 0x63]
    ∧ utf8_merge_backspace_char [0x61, 8, 8] = some [0x61, 8, 8]
    ∧ utf8_merge_backspace_char [8, 8, 0x61, 0x62, 0x63] = some [0x61, 0x62, 0x63] := by
  refine ⟨?_, ?_, ?_, ?_⟩ <;> decide

/-- C17: `utf8_merge_backspace_char` maps `"abc\b\bZ"` to `"aZ"`, `"\b\babc"` to
`"abc"` and `C3 A9 08` to the empty string; and for the text of the code points
`cs` (admitted by the validator, none of them NUL or backspace), `k` backspaces
with `k` at most the number of characters, and bytes `v` without backspace, the
line `text ++ k backspaces ++ v` gives the text without its last `k` characters,
followed by `v`. -/
theorem merge_backspace_removes_characters :
    utf8_merge_backspace_char [0x61, 0x62, 0x63, 8, 8, 0x5A] = some [0x61, 0x5A]
    ∧ utf8_merge_backspace_char [8, 8, 0x61, 0x62, 0x63] = some [0x61, 0x62, 0x63]
    ∧ utf8_merge_backspace_char [0xC3, 0xA9, 8] = some []
    ∧ ∀ (cs v : List Nat) (k : Nat), (∀ c ∈ cs, scalar_valid c ∧ c ≠ 0 ∧ c ≠ 8) →
        (∀ b ∈ v, b ≠ 0 ∧ b ≠ 8) → k ≤ cs.length →
        utf8_validate (cs.flatMap encode) (cs.flatMap encode).length
            = (true, (cs.flatMap encode).length)
        ∧ utf8_merge_backspace_char (cs.flatMap encode ++ List.replicate k 8 ++ v)
            = some ((cs.take (cs.length - k)).flatMap encode ++ v) := by
  refine ⟨by decide, by decide, by decide, ?_⟩
  intro cs v k hcs hv hk
  constructor
  · have hb : ∀ b ∈ cs.flatMap encode, b < 256 := by
      intro b hb
      rw [List.mem_flatMap] at hb
      obtain ⟨c, hc, hbc⟩ := hb
      exact encode_lt c (hcs c hc).1.1 b hbc
    have h0 : ∀ b ∈ cs.flatMap encode, b ≠ 0 := by
      intro b hb
      rw [List.mem_flatMap] at hb
      obtain ⟨c, hc, hbc⟩ := hb
      exact encode_ne_zero c (hcs c hc).1.1 (hcs c hc).2.1 b hbc
    exact accept_parts _ (byte_lt _ hb) _ cs (fun c hc => ⟨(hcs c hc).1, (hcs c hc).2.1⟩)
      (Occ_self _) rfl
  · rcases Nat.eq_zero_or_pos k with hk0 | hk0
    · subst hk0
      rw [Nat.sub_zero, List.take_length, List.replicate_zero, List.append_nil]
      apply merge_no_backspace
      intro b hb
      rcases List.mem_append.1 hb with h | h
      · rw [List.mem_flatMap] at h
        obtain ⟨c, hc, hbc⟩ := h
        exact ⟨encode_ne_zero c (hcs c hc).1.1 (hcs c hc).2.1 b hbc,
          encode_ne_bs c (hcs c hc).1.1 (hcs c hc).2.2 b hbc⟩
      · exact hv b h
    · obtain ⟨pre, hpre⟩ : ∃ pre, pre = cs.take (cs.length - k) := ⟨_, rfl⟩
      obtain ⟨rest, hrest⟩ : ∃ rest, rest = cs.drop (cs.length - k) := ⟨_, rfl⟩
      have hsplit : cs = pre ++ rest := by rw [hpre, hrest, List.take_append_drop]
      have hrl : rest.length = k := by rw [hrest, List.length_drop]; omega
      have hne : rest ≠ [] := by
        intro e
        rw [e] at hrl
        simp at hrl
        omega
      obtain ⟨mid, c, hmc⟩ : ∃ mid c, rest = mid ++ [c] :=
        ⟨rest.dropLast, rest.getLast hne, (List.dropLast_append_getLast hne).symm⟩
      have hml : mid.length + 1 = k := by rw [← hrl, hmc]; simp
      rw [← hpre, hsplit, hmc, ← List.append_assoc, ← hml]
      apply merge_tail_run pre mid c v _ hv
      intro x hx
      apply hcs
      rw [hsplit, hmc, ← List.append_assoc]
      exact hx

/-- C21: `utf8_find_prev_char (str, p)` returns the largest position `i` with
`str <= i < p` whose byte is not a continuation byte (`byte & 0xC0 != 0x80`),
and NULL exactly when there is none (`p` at the start, or only continuation
bytes before `p`).  With `str = 0` the positions are those of the buffer. -/
theorem find_prev_char_largest (mem : List Nat) (str p : Nat) :
    (∀ i, utf8_find_prev_char mem str p = some i ↔
        (str ≤ i ∧ i < p ∧ byte mem i &&& 0xc0 ≠ 0x80
          ∧ ∀ j, i < j → j < p → byte mem j &&& 0xc0 = 0x80))
    ∧ (utf8_find_prev_char mem str p = none ↔
        ∀ i, str ≤ i → i < p → byte mem i &&& 0xc0 = 0x80) := by
  induction p with
  | zero =>
    have e0 : utf8_find_prev_char mem str 0 = none := rfl
    rw [e0]
    refine ⟨fun i => ⟨fun h => (by cases h), fun h => absurd h.2.1 (Nat.not_lt_zero _)⟩,
      ⟨fun _ i _ hi => absurd hi (Nat.not_lt_zero _), fun _ => rfl⟩⟩
  | succ p ih =>
    have es : utf8_find_prev_char mem str (p + 1)
        = if p < str then none
          else if byte mem p &&& 0xc0 ≠ 0x80 then some p
          else utf8_find_prev_char mem str p := rfl
    rw [es]
    by_cases hlt : p < str
    · rw [if_pos hlt]
      refine ⟨fun i => ⟨fun h => (by cases h), fun h => ?_⟩,
        ⟨fun _ i h1 h2 => ?_, fun _ => rfl⟩⟩
      · have := h.1
        have := h.2.1
        omega
      · omega
    · rw [if_neg hlt]
      by_cases hb : byte mem p &&& 0xc0 ≠ 0x80
      · rw [if_pos hb]
        refine ⟨fun i => ⟨fun h => ?_, fun h => ?_⟩, ⟨fun h => (by cases h), fun h => ?_⟩⟩
        · injection h with h
          subst h
          exact ⟨not_lt.1 hlt, Nat.lt_succ_self _, hb, fun j h1 h2 => by omega⟩
        · obtain ⟨_, h2, _, h4⟩ := h
          by_cases e : i = p
          · rw [e]
          · exact absurd (h4 p (by omega) (Nat.lt_succ_self _)) hb
        · exact absurd (h p (not_lt.1 hlt) (Nat.lt_succ_self _)) hb
      · rw [if_neg hb]
        have hb2 : byte mem p &&& 0xc0 = 0x80 := not_not.1 hb
        refine ⟨fun i => ?_, ?_⟩
        · rw [ih.1 i]
          constructor
          · rintro ⟨h1, h2, h3, h4⟩
            refine ⟨h1, by omega, h3, fun j hj1 hj2 => ?_⟩
            by_cases e : j = p
            · rw [e]; exact hb2
            · exact h4 j hj1 (by omega)
          · rintro ⟨h1, h2, h3, h4⟩
            have hne : i ≠ p := by
              intro e
              rw [e] at h3
              exact h3 hb2
            exact ⟨h1, by omega, h3, fun j hj1 hj2 => h4 j hj1 (by omega)⟩
        · rw [ih.2]
          constructor
          · intro h i h1 h2
            by_cases e : i = p
            · rw [e]; exact hb2
            · exact h i h1 (by omega)
          · intro h i h1 h2
            exact h i h1 (by omega)

end Utf8

namespace WQ

end WQ

namespace Utf8

/-! ## The UTF-8 theorems at concrete inputs -/

/-- Witness of `validate_accepts_exactly_well_formed`: the bytes `C3 A9` are
accepted, hence the encoding of a list of admitted code points. -/
theorem validate_accepts_exactly_well_formed_witness :
    ((∀ b ∈ [0xC3, 0xA9], b < 256) ∧ (∀ b ∈ [0xC3, 0xA9], b ≠ 0))
    ∧ WellFormed [0xC3, 0xA9] :=
  ⟨⟨by decide, by decide⟩,
    (validate_accepts_exactly_well_formed [0xC3, 0xA9] (by decide) (by decide)).1.1
      (by decide)⟩

/-- Witness of `validate_end_position`: on `61 C3` with `max_len` 2 the
validator fails, so the end position lies before 2, the bytes before it are
accepted and no admitted encoding that fits starts there. -/
theorem validate_end_position_witness :
    (∀ b ∈ [0x61, 0xC3], b < 256)
    ∧ (utf8_validate [0x61, 0xC3] ((2 : Nat) : Int)).1 = false
    ∧ (utf8_validate [0x61, 0xC3] ((2 : Nat) : Int)).2 < 2
    ∧ utf8_validate [0x61, 0xC3] ((utf8_validate [0x61, 0xC3] ((2 : Nat) : Int)).2 : Nat)
        = (true, (utf8_validate [0x61, 0xC3] ((2 : Nat) : Int)).2)
    ∧ ∀ c, ¬ Starts [0x61, 0xC3] 2 (utf8_validate [0x61, 0xC3] ((2 : Nat) : Int)).2 c :=
  ⟨by decide, by decide,
    (validate_end_position [0x61, 0xC3] (by decide) 2).2.1 (by decide)⟩

/-- Witness of `locale_utf8_validates_and_copies`: with a UTF-8 locale and a
`strndup` that returns its copy the ASCII bytes `68 69` come back unchanged and
validate. -/
theorem locale_utf8_validates_and_copies_witness :
    ((({ is_utf8 := true, iconv_open := none, strndup := true } : Locale).is_utf8 = true)
      ∧ (∀ b ∈ [0x68, 0x69], b < 256) ∧ (∀ b ∈ [0x68, 0x69], 0 < b ∧ b < 128))
    ∧ locale_to_utf8 { is_utf8 := true, iconv_open := none, strndup := true } [0x68, 0x69]
          (([0x68, 0x69] : List Nat).length : Nat) true true
        = .ok { r := 0,
                converted_str := some
                  (if ({ is_utf8 := true, iconv_open := none, strndup := true } : Locale).strndup
                      = true
                   then some [0x68, 0x69] else none),
                bytes_read := some ([0x68, 0x69] : List Nat).length,
                bytes_written := some ([0x68, 0x69] : List Nat).length }
    ∧ utf8_validate [0x68, 0x69] (([0x68, 0x69] : List Nat).length : Nat)
        = (true, ([0x68, 0x69] : List Nat).length) :=
  ⟨⟨rfl, by decide, by decide⟩,
    (locale_utf8_validates_and_copies { is_utf8 := true, iconv_open := none, strndup := true }
      rfl [0x68, 0x69] (by decide) 2 true true).2.1 [0x68, 0x69] (by decide)⟩

/-- Witness of `merge_backspace_removes_characters`: the text `a é b`, two
backspaces and `Z` give `aZ`. -/
theorem merge_backspace_removes_characters_witness :
    ((∀ c ∈ [0x61, 0xE9, 0x62], scalar_valid c ∧ c ≠ 0 ∧ c ≠ 8)
      ∧ (∀ b ∈ [0x5A], b ≠ 0 ∧ b ≠ 8) ∧ 2 ≤ [0x61, 0xE9, 0x62].length)
    ∧ utf8_merge_backspace_char
          ([0x61, 0xE9, 0x62].flatMap encode ++ List.replicate 2 8 ++ [0x5A])
        = some (([0x61, 0xE9, 0x62].take ([0x61, 0xE9, 0x62].length - 2)).flatMap encode
            ++ [0x5A]) :=
  ⟨⟨by decide, by decide, by decide⟩,
    (merge_backspace_removes_characters.2.2.2 [0x61, 0xE9, 0x62] [0x5A] 2 (by decide)
      (by decide) (by decide)).2⟩

/-- Witness of `find_prev_char_largest`: in the bytes `61 C3 A9` the character
before the end starts at position 1, the one before position 1 at position 0,
and there is none before position 0. -/
theorem find_prev_char_largest_witness :
    utf8_find_prev_char [0x61, 0xC3, 0xA9] 0 3 = some 1
    ∧ utf8_find_prev_char [0x61, 0xC3, 0xA9] 0 1 = some 0
    ∧ utf8_find_prev_char [0x61, 0xC3, 0xA9] 0 0 = none :=
  ⟨((find_prev_char_largest [0x61, 0xC3, 0xA9] 0 3).1 1).2
      ⟨by decide, by decide, by decide, fun j h1 h2 => by
        have e : j = 2 := by omega
        subst e
        decide⟩,
    ((find_prev_char_largest [0x61, 0xC3, 0xA9] 0 1).1 0).2
      ⟨by decide, by decide, by decide, fun j h1 h2 => by omega⟩,
    (find_prev_char_largest [0x61, 0xC3, 0xA9] 0 0).2.2 (fun i _ h => by omega)⟩

end Utf8

namespace WQ

end WQ
